import Mathlib

/-!
# Function-deform modifier: the batch evaluator of a multi-function network

A shallow embedding of `MOD_functiondeform_cxx.cc`.  The evaluator
`MultiFunction_FunctionTree` is embedded as explicit state passing over

* a `Memory` of buffers (the arrays behind `GenericMutableArrayRef` and
  `GenericVirtualListRef`, and the `GenericVectorArray` objects), addressed
  by their position so that sharing and copying are visible,
* the evaluation-scoped `Storage` with its three maps, and
* a ghost trace of the function nodes that were invoked.

Failed `BLI_assert`s, failed map lookups and out-of-range accesses are results
of type `EvalError`; the entry point `MOD_functiondeform_do` is embedded for a
build with and for a build without assertions.  Sizes are 32-bit unsigned
numbers where the code computes with `uint`.  Memory that is allocated and not
initialised holds what `Memory.indeterminate` says, which can be anything.
The payload of a lane is opaque for the evaluator (it only moves values
around), so one payload type `Val` stands for `float`, `float3` and `int32_t`
values alike.
-/

namespace FunctionDeform

/-! ## Types of the data model -/

/-- Payload carried by one lane of a single-value buffer. -/
abbrev Val := Int

/-- The base types `float`, `float3` and `int32_t`. -/
inductive CPPType where
  | float
  | float3
  | int32
  deriving DecidableEq, Repr

/-- `MFDataType`: its `category()` is `None`, `Single` or `Vector`. -/
inductive MFDataType where
  | none
  | single (type : CPPType)
  | vector (base_type : CPPType)
  deriving DecidableEq, Repr

/-- `MFParamType` with its categories. -/
inductive MFParamType where
  | none
  | readonly_single_input (type : CPPType)
  | single_output (type : CPPType)
  | readonly_vector_input (base_type : CPPType)
  | vector_output (base_type : CPPType)
  | mutable_vector (base_type : CPPType)
  deriving DecidableEq, Repr

/-- Content of the buffer behind one parameter, as a function sees it. -/
inductive ParamValue where
  | single (values : List Val)
  | vector (lists : List (List Val))
  deriving DecidableEq, Repr

/-- A `MultiFunction`: its signature and its batched `call`.  The call gets
the lane indices and the content of every parameter buffer, in signature
order, and returns the content every parameter buffer has afterwards. -/
structure MultiFunction where
  signature : List MFParamType
  call : List Nat → List ParamValue → List ParamValue

/-- An input socket is named by its node and its index among the inputs of
that node; the pair plays the role of `socket.id()` as the key of the maps. -/
abbrev InputRef := Nat × Nat

/-- An output socket is named by its node and its index among the outputs. -/
abbrev OutputRef := Nat × Nat

/-- `MFInputSocket`: data type and link origin. -/
structure MFInputSocket where
  type : MFDataType
  origin : Option OutputRef

/-- `MFOutputSocket`: data type; its targets are the inputs whose origin it is. -/
structure MFOutputSocket where
  type : MFDataType

/-- The two kinds of `MFNode`. -/
inductive MFNodeKind where
  | function (function : MultiFunction) (input_param_indices : List Nat)
      (output_param_indices : List Nat)
  | placeholder

/-- `MFNode` with its sockets. -/
structure MFNode where
  kind : MFNodeKind
  inputs : List MFInputSocket
  outputs : List MFOutputSocket

/-- `MFNetwork`: the frozen network. -/
structure MFNetwork where
  nodes : List MFNode

/-- A socket on the work stack of the evaluation loop (`const MFSocket *`). -/
inductive MFSocket where
  | input (node : Nat) (index : Nat)
  | output (node : Nat) (index : Nat)
  deriving DecidableEq, Repr

/-- What a call can fail with. -/
inductive EvalError where
  | key_already_present
  | key_not_found
  | not_a_function_node
  | index_out_of_range
  | no_origin
  | assert_false
  | wrong_param_kind
  | out_of_fuel
  deriving DecidableEq, Repr

/-- The buffers a call works on.  An address is a position in one of the two
lists; allocation appends.  `indeterminate a i` is what lane `i` of the array
at address `a` holds when `MEM_malloc_arrayN` returns it: the content of a new
array is not initialised, and can be anything. -/
structure Memory where
  arrays : List (List Val)
  vector_arrays : List (List (List Val))
  indeterminate : Nat → Nat → Val

/-- One parameter of an `MFParams`: its kind and the address of its buffer. -/
inductive MFParam where
  | readonly_single_input (address : Nat)
  | single_output (address : Nat)
  | readonly_vector_input (address : Nat)
  | vector_output (address : Nat)
  | mutable_vector (address : Nat)
  deriving DecidableEq, Repr

/-- `MultiFunction_FunctionTree::Storage`.  The maps are keyed by input socket
and hold addresses: a `GenericVirtualListRef` is a view of an array, a
`GenericVirtualListListRef` a view of a vector array. -/
structure Storage where
  m_vector_arrays : List Nat
  m_arrays : List Nat
  m_vector_per_socket : InputRef → Option Nat
  m_virtual_list_for_inputs : InputRef → Option Nat
  m_virtual_list_list_for_inputs : InputRef → Option Nat

/-- State threaded through one call: memory, storage, and the function nodes
invoked so far (newest first). -/
structure EvalState where
  memory : Memory
  storage : Storage
  trace : List Nat

/-- `MultiFunction_FunctionTree`: the boundary sockets. -/
structure MultiFunction_FunctionTree where
  m_inputs : List OutputRef
  m_outputs : List InputRef

/-! ## Network accessors -/

/-- Node of the network by position. -/
def MFNetwork.node (net : MFNetwork) (n : Nat) : Except EvalError MFNode :=
  match net.nodes[n]? with
  | some node => .ok node
  | none => .error .index_out_of_range

/-- Input socket by reference. -/
def MFNetwork.input (net : MFNetwork) (s : InputRef) : Except EvalError MFInputSocket :=
  match net.nodes[s.1]? with
  | some node =>
    match node.inputs[s.2]? with
    | some socket => .ok socket
    | none => .error .index_out_of_range
  | none => .error .index_out_of_range

/-- Output socket by reference. -/
def MFNetwork.output (net : MFNetwork) (s : OutputRef) : Except EvalError MFOutputSocket :=
  match net.nodes[s.1]? with
  | some node =>
    match node.outputs[s.2]? with
    | some socket => .ok socket
    | none => .error .index_out_of_range
  | none => .error .index_out_of_range

/-- References of the inputs of node `n` that have `o` as origin. -/
def targets_in_node (o : OutputRef) (n : Nat) : Nat → List MFInputSocket → List InputRef
  | _, [] => []
  | i, socket :: rest =>
    if socket.origin = some o then (n, i) :: targets_in_node o n (i + 1) rest
    else targets_in_node o n (i + 1) rest

/-- References of the inputs of the nodes from position `n` on that have `o` as origin. -/
def targets_from (o : OutputRef) : Nat → List MFNode → List InputRef
  | _, [] => []
  | n, node :: rest => targets_in_node o n 0 node.inputs ++ targets_from o (n + 1) rest

/-- `MFOutputSocket::targets()`: every input socket linked from `o`. -/
def MFNetwork.targets (net : MFNetwork) (o : OutputRef) : List InputRef :=
  targets_from o 0 net.nodes

/-- `ArrayRef::first_index`: position of the first occurrence, asserted to exist. -/
def first_index (xs : List Nat) (x : Nat) : Except EvalError Nat :=
  if xs.indexOf x < xs.length then .ok (xs.indexOf x) else .error .index_out_of_range

/-- Indexing with the bound check of `operator[]`. -/
def index_list {α : Type} (xs : List α) (i : Nat) : Except EvalError α :=
  match xs[i]? with
  | some x => .ok x
  | none => .error .index_out_of_range

/-! ## Signature synthesis (the constructor) -/

/-- Parameters appended by the first loop of the constructor.  The loop body
starts with `BLI_assert(socket->node().is_placeholder())`. -/
def signature_of_inputs (net : MFNetwork) : List OutputRef → Except EvalError (List MFParamType)
  | [] => .ok []
  | socket :: rest => do
    let node ← net.node socket.1
    match node.kind with
    | .function _ _ _ => .error .assert_false
    | .placeholder => do
      let s ← net.output socket
      match s.type with
      | .single t => do
        let ps ← signature_of_inputs net rest
        .ok (.readonly_single_input t :: ps)
      | .vector t => do
        let ps ← signature_of_inputs net rest
        .ok (.readonly_vector_input t :: ps)
      | .none => .error .assert_false

/-- Parameters appended by the second loop of the constructor.  The loop body
starts with `BLI_assert(socket->node().is_placeholder())`. -/
def signature_of_outputs (net : MFNetwork) : List InputRef → Except EvalError (List MFParamType)
  | [] => .ok []
  | socket :: rest => do
    let node ← net.node socket.1
    match node.kind with
    | .function _ _ _ => .error .assert_false
    | .placeholder => do
      let s ← net.input socket
      match s.type with
      | .single t => do
        let ps ← signature_of_outputs net rest
        .ok (.single_output t :: ps)
      | .vector t => do
        let ps ← signature_of_outputs net rest
        .ok (.vector_output t :: ps)
      | .none => .error .assert_false

/-- Signature set by `MultiFunction_FunctionTree::MultiFunction_FunctionTree`. -/
def MultiFunction_FunctionTree.signature (net : MFNetwork) (tree : MultiFunction_FunctionTree) :
    Except EvalError (List MFParamType) := do
  let ins ← signature_of_inputs net tree.m_inputs
  let outs ← signature_of_outputs net tree.m_outputs
  .ok (ins ++ outs)

/-! ## Parameter accessors of `MFParams` -/

/-- `params.readonly_single_input(index)`. -/
def readonly_single_input (params : List MFParam) (index : Nat) : Except EvalError Nat :=
  match params[index]? with
  | some (.readonly_single_input a) => .ok a
  | _ => .error .wrong_param_kind

/-- `params.readonly_vector_input(index)`. -/
def readonly_vector_input (params : List MFParam) (index : Nat) : Except EvalError Nat :=
  match params[index]? with
  | some (.readonly_vector_input a) => .ok a
  | _ => .error .wrong_param_kind

/-- `params.single_output(index)`. -/
def single_output (params : List MFParam) (index : Nat) : Except EvalError Nat :=
  match params[index]? with
  | some (.single_output a) => .ok a
  | _ => .error .wrong_param_kind

/-- `params.vector_output(index)`. -/
def vector_output (params : List MFParam) (index : Nat) : Except EvalError Nat :=
  match params[index]? with
  | some (.vector_output a) => .ok a
  | _ => .error .wrong_param_kind

/-! ## Storage -/

/-- `Storage()`: nothing installed, nothing owned. -/
def Storage.empty : Storage :=
  { m_vector_arrays := [], m_arrays := [],
    m_vector_per_socket := fun _ => none,
    m_virtual_list_for_inputs := fun _ => none,
    m_virtual_list_list_for_inputs := fun _ => none }

/-- `Map::add_new`: the key must not be present yet. -/
def add_new (m : InputRef → Option Nat) (key : InputRef) (value : Nat) :
    Except EvalError (InputRef → Option Nat) :=
  match m key with
  | some _ => .error .key_already_present
  | none => .ok (fun k => if k = key then some value else m k)

/-- `Map::lookup`: the key must be present. -/
def lookup (m : InputRef → Option Nat) (key : InputRef) : Except EvalError Nat :=
  match m key with
  | some v => .ok v
  | none => .error .key_not_found

/-- `take_array_ref_ownership`. -/
def Storage.take_array_ref_ownership (st : Storage) (array : Nat) : Storage :=
  { st with m_arrays := st.m_arrays ++ [array] }

/-- `take_vector_array_ownership`. -/
def Storage.take_vector_array_ownership (st : Storage) (vector_array : Nat) : Storage :=
  { st with m_vector_arrays := st.m_vector_arrays ++ [vector_array] }

/-- `take_vector_array_ownership__not_twice`. -/
def Storage.take_vector_array_ownership__not_twice (st : Storage) (vector_array : Nat) :
    Storage :=
  if vector_array ∈ st.m_vector_arrays then st
  else { st with m_vector_arrays := st.m_vector_arrays ++ [vector_array] }

/-- `set_virtual_list_for_input__non_owning`. -/
def Storage.set_virtual_list_for_input__non_owning (st : Storage) (socket : InputRef)
    (list : Nat) : Except EvalError Storage := do
  let m ← add_new st.m_virtual_list_for_inputs socket list
  .ok { st with m_virtual_list_for_inputs := m }

/-- `set_virtual_list_list_for_input__non_owning`. -/
def Storage.set_virtual_list_list_for_input__non_owning (st : Storage) (socket : InputRef)
    (list : Nat) : Except EvalError Storage := do
  let m ← add_new st.m_virtual_list_list_for_inputs socket list
  .ok { st with m_virtual_list_list_for_inputs := m }

/-- `set_vector_array_for_input__non_owning`. -/
def Storage.set_vector_array_for_input__non_owning (st : Storage) (socket : InputRef)
    (vector_array : Nat) : Except EvalError Storage := do
  let m ← add_new st.m_vector_per_socket socket vector_array
  .ok { st with m_vector_per_socket := m }

/-- `get_virtual_list_for_input`. -/
def Storage.get_virtual_list_for_input (st : Storage) (socket : InputRef) :
    Except EvalError Nat :=
  lookup st.m_virtual_list_for_inputs socket

/-- `get_virtual_list_list_for_input`. -/
def Storage.get_virtual_list_list_for_input (st : Storage) (socket : InputRef) :
    Except EvalError Nat :=
  lookup st.m_virtual_list_list_for_inputs socket

/-- `get_vector_array_for_input`. -/
def Storage.get_vector_array_for_input (st : Storage) (socket : InputRef) :
    Except EvalError Nat :=
  lookup st.m_vector_per_socket socket

/-- `input_is_computed`, by the category of the socket's type. -/
def Storage.input_is_computed (st : Storage) (type : MFDataType) (socket : InputRef) :
    Except EvalError Bool :=
  match type with
  | .single _ => .ok (st.m_virtual_list_for_inputs socket).isSome
  | .vector _ =>
    .ok ((st.m_virtual_list_list_for_inputs socket).isSome ||
      (st.m_vector_per_socket socket).isSome)
  | .none => .error .assert_false

/-! ## Memory -/

/-- `allocate_array`: a new array of `size` lanes, with the content that
`MEM_malloc_arrayN` leaves there, which is indeterminate. -/
def Memory.allocate_array (mem : Memory) (size : Nat) : Memory × Nat :=
  ({ mem with
      arrays := mem.arrays ++ [(List.range size).map (mem.indeterminate mem.arrays.length)] },
    mem.arrays.length)

/-- `new GenericVectorArray(type, size)`: `size` lanes, each an empty list. -/
def Memory.new_vector_array (mem : Memory) (size : Nat) : Memory × Nat :=
  ({ mem with vector_arrays := mem.vector_arrays ++ [List.replicate size []] },
    mem.vector_arrays.length)

/-- Content of a new vector array with as many lanes as `lists`, after
`extend_single__copy(i, lists[i])` was run for every lane `i`. -/
def copy_lists (lists : List (List Val)) : List (List Val) :=
  lists.map (fun list => [] ++ list)

/-- The private copy made for a mutable-vector consumer: allocate and fill. -/
def Memory.copy_vector_array (mem : Memory) (values : Nat) : Except EvalError (Memory × Nat) := do
  let lists ← index_list mem.vector_arrays values
  .ok ({ mem with vector_arrays := mem.vector_arrays ++ [copy_lists lists] },
    mem.vector_arrays.length)

/-- Content of the buffer of one parameter. -/
def read_param (mem : Memory) : MFParam → Except EvalError ParamValue
  | .readonly_single_input a => do
    let values ← index_list mem.arrays a
    .ok (.single values)
  | .single_output a => do
    let values ← index_list mem.arrays a
    .ok (.single values)
  | .readonly_vector_input a => do
    let lists ← index_list mem.vector_arrays a
    .ok (.vector lists)
  | .vector_output a => do
    let lists ← index_list mem.vector_arrays a
    .ok (.vector lists)
  | .mutable_vector a => do
    let lists ← index_list mem.vector_arrays a
    .ok (.vector lists)

/-- Contents of the buffers of all parameters, in order. -/
def read_params (mem : Memory) : List MFParam → Except EvalError (List ParamValue)
  | [] => .ok []
  | p :: ps => do
    let v ← read_param mem p
    let vs ← read_params mem ps
    .ok (v :: vs)

/-- What a function leaves in the buffer of one parameter.  Only output and
mutable parameters are writable, and a buffer keeps its number of lanes. -/
def write_param (mem : Memory) : MFParam → ParamValue → Memory
  | .single_output a, .single values =>
    match mem.arrays[a]? with
    | some old =>
      if values.length = old.length then { mem with arrays := mem.arrays.set a values } else mem
    | none => mem
  | .vector_output a, .vector lists =>
    match mem.vector_arrays[a]? with
    | some old =>
      if lists.length = old.length then
        { mem with vector_arrays := mem.vector_arrays.set a lists }
      else mem
    | none => mem
  | .mutable_vector a, .vector lists =>
    match mem.vector_arrays[a]? with
    | some old =>
      if lists.length = old.length then
        { mem with vector_arrays := mem.vector_arrays.set a lists }
      else mem
    | none => mem
  | _, _ => mem

/-- Write back what a function call left in its parameters. -/
def write_params (mem : Memory) : List MFParam → List ParamValue → Memory
  | p :: ps, v :: vs => write_params (write_param mem p v) ps vs
  | _, _ => mem

/-! ## Seed: `copy_inputs_to_storage` -/

/-- The loop `for target : socket.targets()` installing one virtual list. -/
def set_virtual_list_for_targets (list : Nat) : List InputRef → Storage → Except EvalError Storage
  | [], st => .ok st
  | target :: rest, st => do
    let st ← st.set_virtual_list_for_input__non_owning target list
    set_virtual_list_for_targets list rest st

/-- Body of the target loop of a Vector boundary input. -/
def seed_vector_target (net : MFNetwork) (input_list_list : Nat) (target : InputRef)
    (s : EvalState) : Except EvalError EvalState := do
  let target_node ← net.node target.1
  match target_node.kind with
  | .function function input_param_indices _ => do
    let param_index ← index_list input_param_indices target.2
    let param_type ← index_list function.signature param_index
    match param_type with
    | .readonly_vector_input _ => do
      let st ← s.storage.set_virtual_list_list_for_input__non_owning target input_list_list
      .ok { s with storage := st }
    | .mutable_vector _ => do
      let (mem, vector_array) ← s.memory.copy_vector_array input_list_list
      let st ← s.storage.set_vector_array_for_input__non_owning target vector_array
      .ok { s with memory := mem, storage := st.take_vector_array_ownership vector_array }
    | _ => .error .assert_false
  | .placeholder => do
    let st ← s.storage.set_virtual_list_list_for_input__non_owning target input_list_list
    .ok { s with storage := st }

/-- The target loop of a Vector boundary input. -/
def seed_vector_targets (net : MFNetwork) (input_list_list : Nat) :
    List InputRef → EvalState → Except EvalError EvalState
  | [], s => .ok s
  | target :: rest, s => do
    let s ← seed_vector_target net input_list_list target s
    seed_vector_targets net input_list_list rest s

/-- The loop of `copy_inputs_to_storage` from boundary input `i` on. -/
def copy_inputs_from (net : MFNetwork) (params : List MFParam) :
    Nat → List OutputRef → EvalState → Except EvalError EvalState
  | _, [], s => .ok s
  | i, socket :: rest, s => do
    let sock ← net.output socket
    match sock.type with
    | .single _ => do
      let input_list ← readonly_single_input params i
      let st ← set_virtual_list_for_targets input_list (net.targets socket) s.storage
      copy_inputs_from net params (i + 1) rest { s with storage := st }
    | .vector _ => do
      let input_list_list ← readonly_vector_input params i
      let s ← seed_vector_targets net input_list_list (net.targets socket) s
      copy_inputs_from net params (i + 1) rest s
    | .none => .error .assert_false

/-- `copy_inputs_to_storage`. -/
def copy_inputs_to_storage (net : MFNetwork) (tree : MultiFunction_FunctionTree)
    (params : List MFParam) (s : EvalState) : Except EvalError EvalState :=
  copy_inputs_from net params 0 tree.m_inputs s

/-! ## Invoking one node: `compute_and_forward_outputs` -/

/-- Locals of `compute_and_forward_outputs` while the parameters are collected;
`array_size` is what `params_builder.start_new` was given. -/
structure ParamsBuilderState where
  array_size : Nat
  memory : Memory
  params : List MFParam
  single_outputs_to_forward : List (OutputRef × Nat)
  vector_outputs_to_forward : List (OutputRef × Nat)

/-- `uint array_size = mask_indices.last() + 1`, in the 32-bit unsigned
arithmetic of `uint`: past the largest number the sum starts again at zero. -/
def array_size (mask_indices : List Nat) : Except EvalError Nat :=
  match mask_indices.getLast? with
  | some last => .ok ((last + 1) % 4294967296)
  | none => .error .index_out_of_range

/-- One iteration of the loop over `param_types`. -/
def add_param (node_id : Nat) (node : MFNode) (input_param_indices output_param_indices : List Nat)
    (size : Nat) (st : Storage) (param_index : Nat) (param_type : MFParamType)
    (b : ParamsBuilderState) : Except EvalError ParamsBuilderState :=
  match param_type with
  | .none => .error .assert_false
  | .readonly_single_input _ => do
    let input_socket_index ← first_index input_param_indices param_index
    let _ ← index_list node.inputs input_socket_index
    let values ← st.get_virtual_list_for_input (node_id, input_socket_index)
    .ok { b with params := b.params ++ [.readonly_single_input values] }
  | .readonly_vector_input _ => do
    let input_socket_index ← first_index input_param_indices param_index
    let _ ← index_list node.inputs input_socket_index
    let values ← st.get_virtual_list_list_for_input (node_id, input_socket_index)
    .ok { b with params := b.params ++ [.readonly_vector_input values] }
  | .single_output _ => do
    let output_socket_index ← first_index output_param_indices param_index
    let _ ← index_list node.outputs output_socket_index
    let (mem, values_destination) := b.memory.allocate_array size
    .ok { b with
      memory := mem
      params := b.params ++ [.single_output values_destination]
      single_outputs_to_forward :=
        b.single_outputs_to_forward ++ [((node_id, output_socket_index), values_destination)] }
  | .vector_output _ => do
    let output_socket_index ← first_index output_param_indices param_index
    let _ ← index_list node.outputs output_socket_index
    let (mem, values_destination) := b.memory.new_vector_array size
    .ok { b with
      memory := mem
      params := b.params ++ [.vector_output values_destination]
      vector_outputs_to_forward :=
        b.vector_outputs_to_forward ++ [((node_id, output_socket_index), values_destination)] }
  | .mutable_vector _ => do
    let input_socket_index ← first_index input_param_indices param_index
    let _ ← index_list node.inputs input_socket_index
    let output_socket_index ← first_index output_param_indices param_index
    let _ ← index_list node.outputs output_socket_index
    let values ← st.get_vector_array_for_input (node_id, input_socket_index)
    .ok { b with
      params := b.params ++ [.mutable_vector values]
      vector_outputs_to_forward :=
        b.vector_outputs_to_forward ++ [((node_id, output_socket_index), values)] }

/-- The loop over `param_types`, from `param_index` on. -/
def add_params (node_id : Nat) (node : MFNode) (input_param_indices output_param_indices : List Nat)
    (size : Nat) (st : Storage) :
    Nat → List MFParamType → ParamsBuilderState → Except EvalError ParamsBuilderState
  | _, [], b => .ok b
  | param_index, param_type :: rest, b => do
    let b ← add_param node_id node input_param_indices output_param_indices size st
      param_index param_type b
    add_params node_id node input_param_indices output_param_indices size st
      (param_index + 1) rest b

/-- The loop over `single_outputs_to_forward`. -/
def forward_single_outputs (net : MFNetwork) :
    List (OutputRef × Nat) → Storage → Except EvalError Storage
  | [], st => .ok st
  | (output_socket, values) :: rest, st => do
    let st ← set_virtual_list_for_targets values (net.targets output_socket)
      (st.take_array_ref_ownership values)
    forward_single_outputs net rest st

/-- Body of the target loop of a forwarded vector output. -/
def forward_vector_target (net : MFNetwork) (tree : MultiFunction_FunctionTree) (values : Nat)
    (target : InputRef) (s : EvalState) : Except EvalError EvalState := do
  let target_node ← net.node target.1
  match target_node.kind with
  | .function function input_param_indices _ => do
    let param_index ← index_list input_param_indices target.2
    let param_type ← index_list function.signature param_index
    match param_type with
    | .readonly_vector_input _ => do
      let st ← s.storage.set_virtual_list_list_for_input__non_owning target values
      .ok { s with storage := st }
    | .mutable_vector _ => do
      let (mem, copied_values) ← s.memory.copy_vector_array values
      let st ← (s.storage.take_vector_array_ownership copied_values).set_vector_array_for_input__non_owning
        target copied_values
      .ok { s with memory := mem, storage := st }
    | _ => .error .assert_false
  | .placeholder =>
    if target ∈ tree.m_outputs then do
      let st ← s.storage.set_vector_array_for_input__non_owning target values
      .ok { s with storage := st }
    else .ok s

/-- The target loop of a forwarded vector output. -/
def forward_vector_targets (net : MFNetwork) (tree : MultiFunction_FunctionTree) (values : Nat) :
    List InputRef → EvalState → Except EvalError EvalState
  | [], s => .ok s
  | target :: rest, s => do
    let s ← forward_vector_target net tree values target s
    forward_vector_targets net tree values rest s

/-- The loop over `vector_outputs_to_forward`. -/
def forward_vector_outputs (net : MFNetwork) (tree : MultiFunction_FunctionTree) :
    List (OutputRef × Nat) → EvalState → Except EvalError EvalState
  | [], s => .ok s
  | (output_socket, values) :: rest, s => do
    let s ← forward_vector_targets net tree values (net.targets output_socket)
      { s with storage := s.storage.take_vector_array_ownership__not_twice values }
    forward_vector_outputs net tree rest s

/-- `compute_and_forward_outputs` for the function node `node_id`. -/
def compute_and_forward_outputs (net : MFNetwork) (tree : MultiFunction_FunctionTree)
    (mask_indices : List Nat) (node_id : Nat) (node : MFNode) (function : MultiFunction)
    (input_param_indices output_param_indices : List Nat) (s : EvalState) :
    Except EvalError EvalState := do
  let size ← array_size mask_indices
  let b ← add_params node_id node input_param_indices output_param_indices size s.storage
    0 function.signature
    { array_size := size, memory := s.memory, params := [], single_outputs_to_forward := [],
      vector_outputs_to_forward := [] }
  let values ← read_params b.memory b.params
  let mem := write_params b.memory b.params (function.call mask_indices values)
  let st ← forward_single_outputs net b.single_outputs_to_forward s.storage
  let s ← forward_vector_outputs net tree b.vector_outputs_to_forward
    { memory := mem, storage := st, trace := s.trace }
  .ok { s with trace := node_id :: s.trace }

/-! ## The evaluation loop: `evaluate_network_to_compute_outputs` -/

/-- Inputs of a node that are not computed yet, in socket order (the order
in which the loop pushes them). -/
def uncomputed_inputs (st : Storage) (node_id : Nat) :
    Nat → List MFInputSocket → Except EvalError (List MFSocket)
  | _, [] => .ok []
  | i, socket :: rest => do
    let computed ← st.input_is_computed socket.type (node_id, i)
    let more ← uncomputed_inputs st node_id (i + 1) rest
    .ok (if computed then more else .input node_id i :: more)

/-- One iteration of the `while` loop; the head of the list is the top of
the stack. -/
def step (net : MFNetwork) (tree : MultiFunction_FunctionTree) (mask_indices : List Nat)
    (stack : List MFSocket) (s : EvalState) : Except EvalError (List MFSocket × EvalState) :=
  match stack with
  | [] => .ok ([], s)
  | .input n i :: rest => do
    let input_socket ← net.input (n, i)
    let computed ← s.storage.input_is_computed input_socket.type (n, i)
    if computed then .ok (rest, s)
    else
      match input_socket.origin with
      | some origin => .ok (.output origin.1 origin.2 :: .input n i :: rest, s)
      | none => .error .no_origin
  | .output n j :: rest => do
    let node ← net.node n
    match node.kind with
    | .placeholder => .error .not_a_function_node
    | .function function input_param_indices output_param_indices => do
      let pushed ← uncomputed_inputs s.storage n 0 node.inputs
      match pushed with
      | [] => do
        let s ← compute_and_forward_outputs net tree mask_indices n node function
          input_param_indices output_param_indices s
        .ok (rest, s)
      | _ :: _ => .ok (pushed.reverse ++ .output n j :: rest, s)

/-- The `while (!sockets_to_compute.empty())` loop with a step budget. -/
def evaluate_loop (net : MFNetwork) (tree : MultiFunction_FunctionTree) (mask_indices : List Nat) :
    Nat → List MFSocket → EvalState → Except EvalError EvalState
  | _, [], s => .ok s
  | 0, _ :: _, _ => .error .out_of_fuel
  | fuel + 1, socket :: rest, s => do
    let (stack, s) ← step net tree mask_indices (socket :: rest) s
    evaluate_loop net tree mask_indices fuel stack s

/-- The stack after every boundary output was pushed. -/
def initial_stack (tree : MultiFunction_FunctionTree) : List MFSocket :=
  (tree.m_outputs.map (fun socket => MFSocket.input socket.1 socket.2)).reverse

/-- `evaluate_network_to_compute_outputs`. -/
def evaluate_network_to_compute_outputs (net : MFNetwork) (tree : MultiFunction_FunctionTree)
    (fuel : Nat) (mask_indices : List Nat) (s : EvalState) : Except EvalError EvalState :=
  evaluate_loop net tree mask_indices fuel (initial_stack tree) s

/-! ## Drain: `copy_computed_values_to_outputs` -/

/-- The loop `output_values.copy_in__uninitialized(i, values[i])` over the lanes. -/
def copy_single_lanes (values output_values : Nat) : List Nat → Memory → Except EvalError Memory
  | [], mem => .ok mem
  | i :: rest, mem => do
    let source ← index_list mem.arrays values
    let value ← index_list source i
    let destination ← index_list mem.arrays output_values
    if i < destination.length then
      copy_single_lanes values output_values rest
        { mem with arrays := mem.arrays.set output_values (destination.set i value) }
    else .error .index_out_of_range

/-- The loop `output_values.extend_single__copy(i, values[i])` over the lanes. -/
def copy_vector_lanes (values output_values : Nat) : List Nat → Memory → Except EvalError Memory
  | [], mem => .ok mem
  | i :: rest, mem => do
    let source ← index_list mem.vector_arrays values
    let list ← index_list source i
    let destination ← index_list mem.vector_arrays output_values
    let old ← index_list destination i
    copy_vector_lanes values output_values rest
      { mem with vector_arrays := mem.vector_arrays.set output_values (destination.set i (old ++ list)) }

/-- The loop of `copy_computed_values_to_outputs` from `output_index` on. -/
def copy_outputs_from (net : MFNetwork) (inputs_size : Nat) (mask_indices : List Nat)
    (params : List MFParam) (st : Storage) :
    Nat → List InputRef → Memory → Except EvalError Memory
  | _, [], mem => .ok mem
  | output_index, socket :: rest, mem => do
    let global_param_index := inputs_size + output_index
    let sock ← net.input socket
    match sock.type with
    | .none => .error .assert_false
    | .single _ => do
      let values ← st.get_virtual_list_for_input socket
      let output_values ← single_output params global_param_index
      let mem ← copy_single_lanes values output_values mask_indices mem
      copy_outputs_from net inputs_size mask_indices params st (output_index + 1) rest mem
    | .vector _ => do
      let values ← st.get_virtual_list_list_for_input socket
      let output_values ← vector_output params global_param_index
      let mem ← copy_vector_lanes values output_values mask_indices mem
      copy_outputs_from net inputs_size mask_indices params st (output_index + 1) rest mem

/-- `copy_computed_values_to_outputs`. -/
def copy_computed_values_to_outputs (net : MFNetwork) (tree : MultiFunction_FunctionTree)
    (mask_indices : List Nat) (params : List MFParam) (s : EvalState) :
    Except EvalError EvalState := do
  let mem ← copy_outputs_from net tree.m_inputs.length mask_indices params s.storage
    0 tree.m_outputs s.memory
  .ok { s with memory := mem }

/-! ## `MultiFunction_FunctionTree::call` -/

/-- The call.  The result carries, next to the memory the caller sees, the
storage as it is when the call returns and the nodes it invoked.  With no
lane, no storage is created and the state is returned as it was given. -/
def call (net : MFNetwork) (tree : MultiFunction_FunctionTree) (fuel : Nat)
    (mask_indices : List Nat) (params : List MFParam) (mem : Memory) :
    Except EvalError EvalState :=
  if mask_indices.length = 0 then
    .ok { memory := mem, storage := Storage.empty, trace := [] }
  else do
    let s ← copy_inputs_to_storage net tree params
      { memory := mem, storage := Storage.empty, trace := [] }
    let s ← evaluate_network_to_compute_outputs net tree fuel mask_indices s
    copy_computed_values_to_outputs net tree mask_indices params s

/-! ## Vocabulary of the statements -/

/-- Whether a caller parameter has the kind a signature entry asks for. -/
def param_matches : MFParamType → MFParam → Bool
  | .readonly_single_input _, .readonly_single_input _ => true
  | .single_output _, .single_output _ => true
  | .readonly_vector_input _, .readonly_vector_input _ => true
  | .vector_output _, .vector_output _ => true
  | .mutable_vector _, .mutable_vector _ => true
  | _, _ => false

/-- Parameter type the constructor derives for a boundary input of this type. -/
def input_param_type : MFDataType → MFParamType
  | .single t => .readonly_single_input t
  | .vector t => .readonly_vector_input t
  | .none => .none

/-- Parameter type the constructor derives for a boundary output of this type. -/
def output_param_type : MFDataType → MFParamType
  | .single t => .single_output t
  | .vector t => .vector_output t
  | .none => .none

/-- Largest lane index of a lane sequence (`0` for the empty one). -/
def max_lane (mask_indices : List Nat) : Nat :=
  mask_indices.foldl max 0

/-! ## Concrete networks -/

namespace Example

/-- Lane loop of an addition: `c[i] = a[i] + b[i]` for the lanes given. -/
def add_lanes (a b : List Val) : List Nat → List Val → List Val
  | [], c => c
  | i :: rest, c => add_lanes a b rest (c.set i (a.getD i 0 + b.getD i 0))

/-- A function in the manner of `MultiFunction_AddFloats`. -/
def AddFloats : MultiFunction :=
  { signature := [.readonly_single_input .float, .readonly_single_input .float,
      .single_output .float]
    call := fun mask_indices values =>
      match values with
      | [.single a, .single b, .single c] =>
        [.single a, .single b, .single (add_lanes a b mask_indices c)]
      | _ => values }

/-- The network `c = a + b`: an input placeholder, the addition, an output placeholder. -/
def add_network : MFNetwork :=
  { nodes := [
      { kind := .placeholder, inputs := [],
        outputs := [⟨.single .float⟩, ⟨.single .float⟩] },
      { kind := .function AddFloats [0, 1] [2],
        inputs := [⟨.single .float, some (0, 0)⟩, ⟨.single .float, some (0, 1)⟩],
        outputs := [⟨.single .float⟩] },
      { kind := .placeholder, inputs := [⟨.single .float, some (1, 0)⟩], outputs := [] }] }

/-- Boundary of `add_network`: inputs `a`, `b`, output `c`. -/
def add_tree : MultiFunction_FunctionTree :=
  { m_inputs := [(0, 0), (0, 1)], m_outputs := [(2, 0)] }

/-- The caller's buffers: `a`, `b` and the destination `c`. -/
def add_memory : Memory :=
  { arrays := [[1, 2, 3, 4], [10, 20, 30, 40], [0, 0, 0, 0]], vector_arrays := [],
    indeterminate := fun _ _ => 0 }

/-- The caller's parameters for `add_tree`. -/
def add_params : List MFParam :=
  [.readonly_single_input 0, .readonly_single_input 1, .single_output 2]

/-- A function in the manner of `MultiFunction_EmptyList`: it leaves its output lists empty. -/
def EmptyList : MultiFunction :=
  { signature := [.vector_output .float]
    call := fun _ values => values }

/-- A network whose requested output is a list produced by a function node. -/
def list_network : MFNetwork :=
  { nodes := [
      { kind := .function EmptyList [] [0], inputs := [], outputs := [⟨.vector .float⟩] },
      { kind := .placeholder, inputs := [⟨.vector .float, some (0, 0)⟩], outputs := [] }] }

/-- Boundary of `list_network`: no input, the list as output. -/
def list_tree : MultiFunction_FunctionTree :=
  { m_inputs := [], m_outputs := [(1, 0)] }

/-- The caller's buffers for `list_tree`: one destination vector array with one lane. -/
def list_memory : Memory :=
  { arrays := [], vector_arrays := [[[]]], indeterminate := fun _ _ => 0 }

/-- The caller's parameters for `list_tree`. -/
def list_params : List MFParam :=
  [.vector_output 0]

end Example

/-! ## Well-formed networks -/

/-- Whether node `n` is a function node. -/
def MFNetwork.is_function (net : MFNetwork) (n : Nat) : Bool :=
  match net.nodes[n]? with
  | some node =>
    match node.kind with
    | .function _ _ _ => true
    | .placeholder => false
  | none => false

/-- Whether node `n` is a placeholder node. -/
def MFNetwork.is_placeholder (net : MFNetwork) (n : Nat) : Bool :=
  match net.nodes[n]? with
  | some node =>
    match node.kind with
    | .function _ _ _ => false
    | .placeholder => true
  | none => false

/-- Whether a parameter of this type takes an input socket. -/
def MFParamType.is_input : MFParamType → Bool
  | .readonly_single_input _ => true
  | .readonly_vector_input _ => true
  | .mutable_vector _ => true
  | _ => false

/-- Whether a parameter of this type has an output socket. -/
def MFParamType.is_output : MFParamType → Bool
  | .single_output _ => true
  | .vector_output _ => true
  | .mutable_vector _ => true
  | _ => false

/-- An input socket of data type `t` may feed a parameter of type `pt`. -/
def param_accepts_input : MFParamType → MFDataType → Bool
  | .readonly_single_input _, .single _ => true
  | .readonly_vector_input _, .vector _ => true
  | .mutable_vector _, .vector _ => true
  | _, _ => false

/-- An output socket of data type `t` may carry a parameter of type `pt`. -/
def param_produces : MFParamType → MFDataType → Bool
  | .single_output _, .single _ => true
  | .vector_output _, .vector _ => true
  | .mutable_vector _, .vector _ => true
  | _, _ => false

/-- The input socket is linked from an existing output socket of its own data
type, and is a data socket. -/
def input_linked (net : MFNetwork) (socket : MFInputSocket) : Bool :=
  match socket.origin with
  | none => false
  | some origin =>
    match net.output origin with
    | .ok origin_socket => origin_socket.type == socket.type && socket.type != .none
    | .error _ => false

/-- Input socket `i` of a function node feeds an input parameter of its shape. -/
def input_param_ok (function : MultiFunction) (input_param_indices : List Nat)
    (inputs : List MFInputSocket) (i : Nat) : Bool :=
  match inputs[i]?, input_param_indices[i]? with
  | some socket, some p =>
    match function.signature[p]? with
    | some pt => param_accepts_input pt socket.type
    | none => false
  | _, _ => false

/-- Output socket `j` of a function node carries an output parameter of its shape. -/
def output_param_ok (function : MultiFunction) (output_param_indices : List Nat)
    (outputs : List MFOutputSocket) (j : Nat) : Bool :=
  match outputs[j]?, output_param_indices[j]? with
  | some socket, some p =>
    match function.signature[p]? with
    | some pt => param_produces pt socket.type
    | none => false
  | _, _ => false

/-- Parameter `p` is of a known category and has the sockets its category needs. -/
def param_covered (function : MultiFunction) (input_param_indices output_param_indices : List Nat)
    (p : Nat) : Bool :=
  match function.signature[p]? with
  | some pt =>
    pt != .none && (!pt.is_input || decide (p ∈ input_param_indices)) &&
      (!pt.is_output || decide (p ∈ output_param_indices))
  | none => false

/-- A function node as `MFNetworkBuilder::add_function` makes it: one socket per
index of the two index maps, typed by the parameter it stands for, every
parameter covered, no parameter with two output sockets. -/
def node_ok (node : MFNode) : Prop :=
  match node.kind with
  | .placeholder => True
  | .function function input_param_indices output_param_indices =>
    input_param_indices.length = node.inputs.length ∧
    output_param_indices.length = node.outputs.length ∧
    output_param_indices.Nodup ∧
    (∀ i < node.inputs.length,
      input_param_ok function input_param_indices node.inputs i = true) ∧
    (∀ j < node.outputs.length,
      output_param_ok function output_param_indices node.outputs j = true) ∧
    (∀ p < function.signature.length,
      param_covered function input_param_indices output_param_indices p = true)

instance (node : MFNode) : Decidable (node_ok node) := by
  unfold node_ok
  split <;> infer_instance

/-- A boundary input is an output socket of a placeholder node and a data socket. -/
def boundary_input_ok (net : MFNetwork) (socket : OutputRef) : Bool :=
  net.is_placeholder socket.1 &&
    match net.output socket with
    | .ok s => s.type != .none
    | .error _ => false

/-- A boundary output is an input socket of a placeholder node. -/
def boundary_output_ok (net : MFNetwork) (socket : InputRef) : Bool :=
  net.is_placeholder socket.1 &&
    match net.input socket with
    | .ok _ => true
    | .error _ => false

/-- A built network with the boundary of an evaluator: every node is as the
builder makes it, every input socket has its one origin (of its own data
type), the boundary inputs are pairwise different data outputs of placeholder
nodes, the boundary outputs are inputs of placeholder nodes. -/
def WellFormed (net : MFNetwork) (tree : MultiFunction_FunctionTree) : Prop :=
  (∀ node ∈ net.nodes, node_ok node ∧ ∀ socket ∈ node.inputs, input_linked net socket = true) ∧
  tree.m_inputs.Nodup ∧
  (∀ socket ∈ tree.m_inputs, boundary_input_ok net socket = true) ∧
  (∀ socket ∈ tree.m_outputs, boundary_output_ok net socket = true)

instance (net : MFNetwork) (tree : MultiFunction_FunctionTree) :
    Decidable (WellFormed net tree) := by
  unfold WellFormed
  infer_instance

/-- The ranking `rank` of the nodes goes down along every link: the node of
the origin of an input socket ranks below the node of the socket. -/
def Ranked (net : MFNetwork) (rank : Nat → Nat) : Prop :=
  ∀ n < net.nodes.length, ∀ socket ∈ (net.nodes.getD n ⟨.placeholder, [], []⟩).inputs,
    ∀ origin ∈ socket.origin, rank (origin : OutputRef).1 < rank n

instance (net : MFNetwork) (rank : Nat → Nat) : Decidable (Ranked net rank) := by
  unfold Ranked
  infer_instance

/-- The network has no dependency cycle: its nodes can be ranked along the links. -/
def Acyclic (net : MFNetwork) : Prop :=
  ∃ rank : Nat → Nat, Ranked net rank

/-- Sockets reachable backwards from the requested outputs: the boundary
outputs, the origin of a reachable input, the inputs of the function node of a
reachable output. -/
inductive Reach (net : MFNetwork) (tree : MultiFunction_FunctionTree) : MFSocket → Prop where
  | boundary (socket : InputRef) :
    socket ∈ tree.m_outputs → Reach net tree (.input socket.1 socket.2)
  | origin (n i : Nat) (socket : MFInputSocket) (origin : OutputRef) :
    Reach net tree (.input n i) → net.input (n, i) = .ok socket →
    socket.origin = some origin → Reach net tree (.output origin.1 origin.2)
  | inputs (n j i : Nat) (node : MFNode) :
    Reach net tree (.output n j) → net.nodes[n]? = some node →
    net.is_function n = true → i < node.inputs.length → Reach net tree (.input n i)

/-- Every placeholder output reachable backwards from the requested outputs is
a declared boundary input. -/
def BoundaryClosed (net : MFNetwork) (tree : MultiFunction_FunctionTree) : Prop :=
  ∀ n j, Reach net tree (.output n j) → net.is_placeholder n = true → (n, j) ∈ tree.m_inputs

/-- Every caller parameter names a buffer that exists. -/
def param_in_range (mem : Memory) : MFParam → Bool
  | .readonly_single_input a => decide (a < mem.arrays.length)
  | .single_output a => decide (a < mem.arrays.length)
  | .readonly_vector_input a => decide (a < mem.vector_arrays.length)
  | .vector_output a => decide (a < mem.vector_arrays.length)
  | .mutable_vector a => decide (a < mem.vector_arrays.length)

/-! ## The invariant of the evaluation loop -/

/-- The three maps of the storage. -/
inductive Slot where
  | virtual_list
  | virtual_list_list
  | vector_array
  deriving DecidableEq, Repr

/-- The map of the storage behind a slot. -/
def Storage.slot_map (st : Storage) : Slot → InputRef → Option Nat
  | .virtual_list => st.m_virtual_list_for_inputs
  | .virtual_list_list => st.m_virtual_list_list_for_inputs
  | .vector_array => st.m_vector_per_socket

/-- The map in which seed and forwarding install the value of an input socket,
if any: by the shape of the value, by the parameter the socket feeds when its
node is a function node, and for a placeholder by whether the value comes from
a boundary input and whether the socket is a boundary output. -/
def slot (net : MFNetwork) (tree : MultiFunction_FunctionTree) (socket : InputRef) : Option Slot :=
  match net.nodes[socket.1]? with
  | none => none
  | some node =>
    match node.inputs[socket.2]? with
    | none => none
    | some s =>
      match s.type with
      | .none => none
      | .single _ => some .virtual_list
      | .vector _ =>
        match node.kind with
        | .function function input_param_indices _ =>
          match input_param_indices[socket.2]? with
          | none => none
          | some p =>
            match function.signature[p]? with
            | some (.readonly_vector_input _) => some .virtual_list_list
            | some (.mutable_vector _) => some .vector_array
            | _ => none
        | .placeholder =>
          match s.origin with
          | none => none
          | some origin =>
            if origin ∈ tree.m_inputs then some .virtual_list_list
            else if socket ∈ tree.m_outputs then some .vector_array
            else none

/-- The origin of the input socket is a boundary input or an output of a node
that was invoked. -/
def Installed (net : MFNetwork) (tree : MultiFunction_FunctionTree) (trace : List Nat)
    (socket : InputRef) : Prop :=
  ∃ s origin, net.input socket = .ok s ∧ s.origin = some origin ∧
    (origin ∈ tree.m_inputs ∨ origin.1 ∈ trace)

/-- The maps hold exactly the sockets of `D`, each in its slot. -/
def DomInv (net : MFNetwork) (tree : MultiFunction_FunctionTree) (st : Storage)
    (D : InputRef → Prop) : Prop :=
  ∀ socket sl, (st.slot_map sl socket).isSome = true ↔ (D socket ∧ slot net tree socket = some sl)

/-- Every address held by the storage names a buffer that exists. -/
def StorageBounded (st : Storage) (mem : Memory) : Prop :=
  (∀ socket a, st.m_virtual_list_for_inputs socket = some a → a < mem.arrays.length) ∧
  (∀ socket a, st.m_virtual_list_list_for_inputs socket = some a →
    a < mem.vector_arrays.length) ∧
  (∀ socket a, st.m_vector_per_socket socket = some a → a < mem.vector_arrays.length)

/-- Whether the socket is an output socket. -/
def MFSocket.is_output : MFSocket → Bool
  | .input _ _ => false
  | .output _ _ => true

/-- Rank of a socket: the inputs of a node rank just below its outputs. -/
def rank_socket (rank : Nat → Nat) : MFSocket → Nat
  | .input n _ => 2 * rank n
  | .output n _ => 2 * rank n + 1

/-- Invariant of the work stack and the storage between two iterations. -/
structure LoopInv (net : MFNetwork) (tree : MultiFunction_FunctionTree) (rank : Nat → Nat)
    (stack : List MFSocket) (s : EvalState) : Prop where
  reach : ∀ x ∈ stack, Reach net tree x
  ranks : stack.Pairwise
    (fun x y => y.is_output = true → rank_socket rank x < rank_socket rank y)
  fresh : ∀ n j, MFSocket.output n j ∈ stack → n ∉ s.trace ∧ (n, j) ∉ tree.m_inputs
  trace_nodup : s.trace.Nodup
  trace_function : ∀ n ∈ s.trace, net.is_function n = true
  dom : DomInv net tree s.storage (Installed net tree s.trace)
  bounded : StorageBounded s.storage s.memory
  outputs_done : ∀ socket ∈ tree.m_outputs,
    MFSocket.input socket.1 socket.2 ∈ stack ∨ Installed net tree s.trace socket

/-- States the evaluation loop goes through, from the state `s0` left by seed. -/
inductive Reachable (net : MFNetwork) (tree : MultiFunction_FunctionTree) (mask_indices : List Nat)
    (s0 : EvalState) : List MFSocket → EvalState → Prop where
  | start : Reachable net tree mask_indices s0 (initial_stack tree) s0
  | next (stack stack1 : List MFSocket) (s s1 : EvalState) :
    Reachable net tree mask_indices s0 stack s →
    step net tree mask_indices stack s = .ok (stack1, s1) →
    Reachable net tree mask_indices s0 stack1 s1

/-! ## Effects of installing a value -/

/-- `st1` is `st` with `value` installed for `socket` in the map `sl`, and nothing else
changed in the maps. -/
def Updates (st st1 : Storage) (sl : Slot) (socket : InputRef) (value : Nat) : Prop :=
  st.slot_map sl socket = none ∧ st1.slot_map sl socket = some value ∧
    ∀ sl1 socket1, (sl1 ≠ sl ∨ socket1 ≠ socket) → st1.slot_map sl1 socket1 = st.slot_map sl1 socket1

/-- What handling one target of a list value does. -/
inductive Effect where
  | nothing
  | shared (sl : Slot)
  | copied
  deriving DecidableEq, Repr

/-- The state `s1` is `s` after the effect `e` for the target `socket` of the
vector array `values`: nothing, or `values` itself installed in a map, or a
new vector array with the content `copy_lists` installed in `m_vector_per_socket`. -/
def effect_spec (values : Nat) (socket : InputRef) (e : Effect) (s s1 : EvalState) : Prop :=
  s1.trace = s.trace ∧ s1.memory.arrays = s.memory.arrays ∧
    match e with
    | .nothing =>
      s1.memory = s.memory ∧ ∀ sl1 socket1, s1.storage.slot_map sl1 socket1 = s.storage.slot_map sl1 socket1
    | .shared sl => s1.memory = s.memory ∧ Updates s.storage s1.storage sl socket values
    | .copied =>
      ∃ lists, s.memory.vector_arrays[values]? = some lists ∧
        s1.memory.vector_arrays = s.memory.vector_arrays ++ [copy_lists lists] ∧
        Updates s.storage s1.storage .vector_array socket s.memory.vector_arrays.length

/-- Parameter type fed by an input socket of a function node. -/
def MFNetwork.consumer_param (net : MFNetwork) (socket : InputRef) : Option MFParamType :=
  match net.nodes[socket.1]? with
  | some node =>
    match node.kind with
    | .function function input_param_indices _ =>
      match input_param_indices[socket.2]? with
      | some p => function.signature[p]?
      | none => none
    | .placeholder => none
  | none => none

/-- Effect of seed on a target of a Vector boundary input; `none` where seed fails. -/
def seed_effect (net : MFNetwork) (socket : InputRef) : Option Effect :=
  match net.nodes[socket.1]? with
  | some node =>
    match node.kind with
    | .function _ _ _ =>
      match net.consumer_param socket with
      | some (.readonly_vector_input _) => some (.shared .virtual_list_list)
      | some (.mutable_vector _) => some .copied
      | _ => none
    | .placeholder => some (.shared .virtual_list_list)
  | none => none

/-- Effect of forwarding on a target of a list output; `none` where it fails. -/
def forward_effect (net : MFNetwork) (tree : MultiFunction_FunctionTree) (socket : InputRef) :
    Option Effect :=
  match net.nodes[socket.1]? with
  | some node =>
    match node.kind with
    | .function _ _ _ =>
      match net.consumer_param socket with
      | some (.readonly_vector_input _) => some (.shared .virtual_list_list)
      | some (.mutable_vector _) => some .copied
      | _ => none
    | .placeholder => if socket ∈ tree.m_outputs then some (.shared .vector_array) else some .nothing
  | none => none

/-- The map an effect installs into. -/
def Effect.slot : Effect → Option Slot
  | .nothing => none
  | .shared sl => some sl
  | .copied => some .vector_array

/-- One installation step: the buffer, the target, the effect. -/
abbrev InstallStep := Nat × InputRef × Effect

/-- The state `s1` is `s` after the installation steps of the list, in order;
the lists of owned buffers are left out of account. -/
inductive Steps : List InstallStep → EvalState → EvalState → Prop where
  | nil (s s1 : EvalState) :
    s1.memory = s.memory → s1.trace = s.trace →
    (∀ sl socket, s1.storage.slot_map sl socket = s.storage.slot_map sl socket) →
    Steps [] s s1
  | cons (values : Nat) (socket : InputRef) (e : Effect) (rest : List InstallStep)
      (s s1 s2 : EvalState) :
    effect_spec values socket e s s1 → Steps rest s1 s2 →
    Steps ((values, socket, e) :: rest) s s2

/-- The buffer of an installation step exists: an array for a virtual list, a
vector array otherwise. -/
def step_in_range (mem : Memory) (x : InstallStep) : Prop :=
  match x.2.2 with
  | .shared .virtual_list => x.1 < mem.arrays.length
  | _ => x.1 < mem.vector_arrays.length

/-- What a loop over the targets of one list value amounts to. -/
def TargetSteps (eff : InputRef → Option Effect) (values : Nat) (ts : List InputRef)
    (l : List InstallStep) : Prop :=
  l.map (fun x => x.2.1) = ts ∧ ∀ x ∈ l, x.1 = values ∧ eff x.2.1 = some x.2.2


/-- The installation steps of the loop over `single_outputs_to_forward`. -/
def single_steps (net : MFNetwork) (outputs : List (OutputRef × Nat)) : List InstallStep :=
  outputs.flatMap (fun x => (net.targets x.1).map (fun t => (x.2, t, .shared .virtual_list)))

/-- What the loop over `vector_outputs_to_forward` amounts to. -/
def OutputSteps (net : MFNetwork) (tree : MultiFunction_FunctionTree)
    (outputs : List (OutputRef × Nat)) (l : List InstallStep) : Prop :=
  l.map (fun x => x.2.1) = outputs.flatMap (fun x => net.targets x.1) ∧
    ∀ x ∈ l, ∃ o, (o, x.1) ∈ outputs ∧ x.2.1 ∈ net.targets o ∧
      forward_effect net tree x.2.1 = some x.2.2

/-- What seed does for a target of a boundary input of the given type, read
from the parameter at `index`. -/
def seed_entry (net : MFNetwork) (params : List MFParam) (index : Nat) (type : MFDataType)
    (x : InstallStep) : Prop :=
  match type with
  | .single _ =>
    x.2.2 = .shared .virtual_list ∧ params[index]? = some (.readonly_single_input x.1)
  | .vector _ =>
    seed_effect net x.2.1 = some x.2.2 ∧ params[index]? = some (.readonly_vector_input x.1)
  | .none => False

/-- What the loop of `copy_inputs_to_storage` from parameter `i0` on amounts to. -/
def SeedSteps (net : MFNetwork) (params : List MFParam) (i0 : Nat) (inputs : List OutputRef)
    (l : List InstallStep) : Prop :=
  l.map (fun x => x.2.1) = inputs.flatMap (fun o => net.targets o) ∧
    ∀ x ∈ l, ∃ (k : Nat) (o : OutputRef) (os : MFOutputSocket),
      inputs[k]? = some o ∧ net.output o = .ok os ∧
        x.2.1 ∈ net.targets o ∧ seed_entry net params (i0 + k) os.type x

/-- The parameter seed needs for a boundary input of the given type is there,
and its targets can take the value. -/
def seed_ready (net : MFNetwork) (params : List MFParam) (mem : Memory) (index : Nat)
    (o : OutputRef) : Prop :=
  ∃ os, net.output o = .ok os ∧
    match os.type with
    | .single _ => ∃ a, params[index]? = some (.readonly_single_input a)
    | .vector _ =>
      ∃ a, params[index]? = some (.readonly_vector_input a) ∧ a < mem.vector_arrays.length ∧
        ∀ t ∈ net.targets o, (seed_effect net t).isSome = true
    | .none => False

/-- Every input socket of the function node holds a value in the map that the
parameter it feeds is read from: a virtual list for a read-only single input,
a virtual list list for a read-only vector input, a vector array for a
mutable vector. -/
def InputsReady (st : Storage) (node_id : Nat) (function : MultiFunction)
    (input_param_indices : List Nat) : Prop :=
  ∀ (i p : Nat) (pt : MFParamType), input_param_indices[i]? = some p →
    function.signature[p]? = some pt →
    match pt with
    | .readonly_single_input _ => (st.m_virtual_list_for_inputs (node_id, i)).isSome = true
    | .readonly_vector_input _ => (st.m_virtual_list_list_for_inputs (node_id, i)).isSome = true
    | .mutable_vector _ => (st.m_vector_per_socket (node_id, i)).isSome = true
    | _ => True

/-- Invariant of the parameter loop of `compute_and_forward_outputs` before
parameter `p`: the memory only grew, every parameter added names an existing
buffer, and the outputs to forward are those of the output parameters below
`p`, each once, with an existing buffer. -/
structure BuilderInv (node_id : Nat) (function : MultiFunction) (output_param_indices : List Nat)
    (mem0 : Memory) (p : Nat) (b : ParamsBuilderState) : Prop where
  grows_arrays : mem0.arrays.length ≤ b.memory.arrays.length
  grows_vectors : mem0.vector_arrays.length ≤ b.memory.vector_arrays.length
  params_in_range : ∀ prm ∈ b.params, param_in_range b.memory prm = true
  single_ok : ∀ x ∈ b.single_outputs_to_forward, ∃ q t, q < p ∧
    function.signature[q]? = some (.single_output t) ∧
    x.1 = (node_id, output_param_indices.indexOf q) ∧ x.2 < b.memory.arrays.length
  vector_ok : ∀ x ∈ b.vector_outputs_to_forward, ∃ q t, q < p ∧
    (function.signature[q]? = some (.vector_output t) ∨
      function.signature[q]? = some (.mutable_vector t)) ∧
    x.1 = (node_id, output_param_indices.indexOf q) ∧ x.2 < b.memory.vector_arrays.length
  single_covered : ∀ q t, q < p → function.signature[q]? = some (.single_output t) →
    ∃ a, ((node_id, output_param_indices.indexOf q), a) ∈ b.single_outputs_to_forward
  vector_covered : ∀ q t, q < p →
    (function.signature[q]? = some (.vector_output t) ∨
      function.signature[q]? = some (.mutable_vector t)) →
    ∃ a, ((node_id, output_param_indices.indexOf q), a) ∈ b.vector_outputs_to_forward
  nodup : ((b.single_outputs_to_forward ++ b.vector_outputs_to_forward).map Prod.fst).Nodup

/-- What the four branches of an iteration do to the stack and the state. -/
def StepCase (net : MFNetwork) (rank : Nat → Nat) (x : MFSocket) (rest : List MFSocket)
    (s : EvalState) (stack1 : List MFSocket) (s1 : EvalState) : Prop :=
  (∃ n i sock, x = .input n i ∧ net.input (n, i) = .ok sock ∧
    s.storage.input_is_computed sock.type (n, i) = .ok true ∧ stack1 = rest ∧ s1 = s) ∨
  (∃ n i sock o, x = .input n i ∧ net.input (n, i) = .ok sock ∧
    s.storage.input_is_computed sock.type (n, i) = .ok false ∧
    stack1 = .output (o : OutputRef).1 o.2 :: x :: rest ∧ s1 = s ∧ rank o.1 < rank n) ∨
  (∃ n j i sock ys, x = .output n j ∧ stack1 = .input n i :: ys ∧ net.input (n, i) = .ok sock ∧
    s.storage.input_is_computed sock.type (n, i) = .ok false ∧ s1 = s) ∨
  (∃ n j, x = .output n j ∧ stack1 = rest ∧ s1.trace = n :: s.trace)


/-- The top of the stack is not an input socket that is computed. -/
def NoPop (net : MFNetwork) (s : EvalState) (x : MFSocket) : Prop :=
  (∃ n j, x = .output n j) ∨
    ∃ n i sock, x = .input n i ∧ net.input (n, i) = .ok sock ∧
      s.storage.input_is_computed sock.type (n, i) = .ok false

/-- Whether the caller's parameters have the kinds of a signature, one for one. -/
def params_match : List MFParamType → List MFParam → Bool
  | [], [] => true
  | pt :: signature, p :: params => param_matches pt p && params_match signature params
  | _, _ => false

/-- The caller's parameters are as the signature of the evaluator asks, and
each names a buffer that exists. -/
def caller_params_ok (net : MFNetwork) (tree : MultiFunction_FunctionTree)
    (params : List MFParam) (mem : Memory) : Bool :=
  (match tree.signature net with
    | .ok signature => params_match signature params
    | .error _ => false) &&
  params.all (param_in_range mem)

/-- The state in which `call` starts seed: an empty storage, no node invoked. -/
def initial_state (mem : Memory) : EvalState :=
  { memory := mem, storage := Storage.empty, trace := [] }

/-- Every link out of a placeholder node starts at a declared boundary input
(a condition on all links, which implies `BoundaryClosed`). -/
def PlaceholderLinksDeclared (net : MFNetwork) (tree : MultiFunction_FunctionTree) : Prop :=
  ∀ node ∈ net.nodes, ∀ socket ∈ node.inputs, ∀ origin ∈ socket.origin,
    net.is_placeholder (origin : OutputRef).1 = true → origin ∈ tree.m_inputs

instance (net : MFNetwork) (tree : MultiFunction_FunctionTree) :
    Decidable (PlaceholderLinksDeclared net tree) := by
  unfold PlaceholderLinksDeclared
  infer_instance

/-- What the parameter loop records for parameter `q` of type `pt`: an input
parameter is the buffer the storage holds for its input socket; an output
parameter is a buffer allocated after `mem0`, fresh, and queued for forwarding
to its output socket; a mutable parameter is the vector array of its input
socket, queued for forwarding to its output socket. -/
def param_spec (node_id : Nat) (ipi opi : List Nat) (size : Nat) (st : Storage)
    (mem0 : Memory) (b : ParamsBuilderState) (q : Nat) (pt : MFParamType) (prm : MFParam) : Prop :=
  match pt, prm with
  | .readonly_single_input _, .readonly_single_input a =>
    q ∈ ipi ∧ st.m_virtual_list_for_inputs (node_id, ipi.indexOf q) = some a
  | .readonly_vector_input _, .readonly_vector_input a =>
    q ∈ ipi ∧ st.m_virtual_list_list_for_inputs (node_id, ipi.indexOf q) = some a
  | .single_output _, .single_output a =>
    q ∈ opi ∧ mem0.arrays.length ≤ a ∧
    (∃ x, b.memory.arrays[a]? = some x ∧ x.length = size) ∧
      ((node_id, opi.indexOf q), a) ∈ b.single_outputs_to_forward
  | .vector_output _, .vector_output a =>
    q ∈ opi ∧ mem0.vector_arrays.length ≤ a ∧
      b.memory.vector_arrays[a]? = some (List.replicate size []) ∧
      ((node_id, opi.indexOf q), a) ∈ b.vector_outputs_to_forward
  | .mutable_vector _, .mutable_vector a =>
    q ∈ ipi ∧ q ∈ opi ∧ st.m_vector_per_socket (node_id, ipi.indexOf q) = some a ∧
      ((node_id, opi.indexOf q), a) ∈ b.vector_outputs_to_forward
  | _, _ => False

/-- What the parameter loop has built before parameter `p`, whatever the node:
one parameter per signature entry below `p`, as `param_spec` says; the memory
is `mem0` with new buffers appended; the queued outputs belong to different
output sockets and carry the buffers of their parameters; buffers allocated
for different parameters are different. -/
structure BuilderAddr (node_id : Nat) (function : MultiFunction) (ipi opi : List Nat)
    (size : Nat) (st : Storage) (mem0 : Memory) (p : Nat) (b : ParamsBuilderState) : Prop where
  params_length : b.params.length = p
  arrays_prefix : ∃ new, b.memory.arrays = mem0.arrays ++ new
  vectors_prefix : ∃ new, b.memory.vector_arrays = mem0.vector_arrays ++ new
  params_spec : ∀ q pt, q < p → function.signature[q]? = some pt →
    ∃ prm, b.params[q]? = some prm ∧ param_spec node_id ipi opi size st mem0 b q pt prm
  single_from : ∀ x ∈ b.single_outputs_to_forward, ∃ q, q < p ∧ q ∈ opi ∧
    x.1 = (node_id, opi.indexOf q) ∧ b.params[q]? = some (.single_output x.2)
  vector_from : ∀ x ∈ b.vector_outputs_to_forward, ∃ q, q < p ∧ q ∈ opi ∧
    x.1 = (node_id, opi.indexOf q) ∧
    (b.params[q]? = some (.vector_output x.2) ∨ b.params[q]? = some (.mutable_vector x.2))
  nodup : ((b.single_outputs_to_forward ++ b.vector_outputs_to_forward).map Prod.fst).Nodup
  single_fresh : ∀ (q : Nat) a, b.params[q]? = some (.single_output a) →
    mem0.arrays.length ≤ a ∧ a < b.memory.arrays.length
  vector_fresh : ∀ (q : Nat) a, b.params[q]? = some (.vector_output a) →
    mem0.vector_arrays.length ≤ a ∧ a < b.memory.vector_arrays.length
  single_distinct : ∀ (q q1 : Nat) a, b.params[q]? = some (.single_output a) →
    b.params[q1]? = some (.single_output a) → q = q1
  vector_distinct : ∀ (q q1 : Nat) a, b.params[q]? = some (.vector_output a) →
    b.params[q1]? = some (.vector_output a) → q = q1
  inputs_from : ∀ (q : Nat) prm, b.params[q]? = some prm →
    match prm with
    | .readonly_single_input a => ∃ k, st.m_virtual_list_for_inputs k = some a
    | .readonly_vector_input a => ∃ k, st.m_virtual_list_list_for_inputs k = some a
    | .mutable_vector a => q ∈ ipi ∧ st.m_vector_per_socket (node_id, ipi.indexOf q) = some a
    | _ => True

/-- The vector array that the storage holds for a socket of `X` is held for
no other socket and in no other map: it is private to that socket. -/
def Excl (X : InputRef → Prop) (st : Storage) : Prop :=
  ∀ k a, X k → st.m_vector_per_socket k = some a →
    ∀ sl1 k1, sl1 ≠ .virtual_list → st.slot_map sl1 k1 = some a → sl1 = .vector_array ∧ k1 = k

/-- The buffers of the caller (those of `mem0`) hold what they held, and no
vector array of the storage is one of them. -/
structure CallerFrame (mem0 : Memory) (s : EvalState) : Prop where
  arrays_kept : ∀ a, a < mem0.arrays.length → s.memory.arrays[a]? = mem0.arrays[a]?
  vectors_kept : ∀ a, a < mem0.vector_arrays.length →
    s.memory.vector_arrays[a]? = mem0.vector_arrays[a]?
  vector_arrays_new : ∀ k a, s.storage.m_vector_per_socket k = some a →
    mem0.vector_arrays.length ≤ a

namespace Example

/-- Lane loop of an append: the value of lane `i` goes to the end of list `i`. -/
def append_lanes (values : List Val) : List Nat → List (List Val) → List (List Val)
  | [], lists => lists
  | i :: rest, lists => append_lanes values rest (lists.set i (lists.getD i [] ++ [values.getD i 0]))

/-- A function in the manner of `MultiFunction_AppendToList`: it changes its list in place. -/
def AppendToList : MultiFunction :=
  { signature := [.mutable_vector .float, .readonly_single_input .float]
    call := fun mask_indices values =>
      match values with
      | [.vector lists, .single v] => [.vector (append_lanes v mask_indices lists), .single v]
      | _ => values }

/-- Lane loop of a length: `lengths[i]` is the length of list `i`. -/
def length_lanes (lists : List (List Val)) : List Nat → List Val → List Val
  | [], lengths => lengths
  | i :: rest, lengths => length_lanes lists rest (lengths.set i ((lists.getD i []).length : Int))

/-- A function in the manner of `MultiFunction_ListLength`: it only reads its list. -/
def ListLength : MultiFunction :=
  { signature := [.readonly_vector_input .float, .single_output .int32]
    call := fun mask_indices values =>
      match values with
      | [.vector lists, .single lengths] =>
        [.vector lists, .single (length_lanes lists mask_indices lengths)]
      | _ => values }

/-- A network on lists: the caller's list gets a value appended (node 1), the
result gets the value appended once more (node 2), and the lengths of both
results are the outputs (nodes 3 and 4).  The result of node 1 has a mutable
consumer (node 2) and a read-only one (node 3). -/
def append_network : MFNetwork :=
  { nodes := [
      { kind := .placeholder, inputs := [],
        outputs := [⟨.vector .float⟩, ⟨.single .float⟩] },
      { kind := .function AppendToList [0, 1] [0],
        inputs := [⟨.vector .float, some (0, 0)⟩, ⟨.single .float, some (0, 1)⟩],
        outputs := [⟨.vector .float⟩] },
      { kind := .function AppendToList [0, 1] [0],
        inputs := [⟨.vector .float, some (1, 0)⟩, ⟨.single .float, some (0, 1)⟩],
        outputs := [⟨.vector .float⟩] },
      { kind := .function ListLength [0] [1],
        inputs := [⟨.vector .float, some (1, 0)⟩],
        outputs := [⟨.single .int32⟩] },
      { kind := .function ListLength [0] [1],
        inputs := [⟨.vector .float, some (2, 0)⟩],
        outputs := [⟨.single .int32⟩] },
      { kind := .placeholder,
        inputs := [⟨.single .int32, some (3, 0)⟩, ⟨.single .int32, some (4, 0)⟩],
        outputs := [] }] }

/-- Boundary of `append_network`: the list and the value in, the two lengths out. -/
def append_tree : MultiFunction_FunctionTree :=
  { m_inputs := [(0, 0), (0, 1)], m_outputs := [(5, 0), (5, 1)] }

/-- The caller's buffers: the values, two destinations, and the lists. -/
def append_memory : Memory :=
  { arrays := [[5, 6], [0, 0], [0, 0]], vector_arrays := [[[1], [2, 3]]],
    indeterminate := fun _ _ => 0 }

/-- The caller's parameters for `append_tree`. -/
def append_params : List MFParam :=
  [.readonly_vector_input 0, .readonly_single_input 0, .single_output 1, .single_output 2]

end Example

namespace Example

/-- The state of the call on `append_network` after seed. -/
def append_seeded : EvalState :=
  match copy_inputs_to_storage append_network append_tree append_params
    (initial_state append_memory) with
  | .ok s => s
  | .error _ => initial_state append_memory

end Example

/-! ## Lane-wise functions and the expression of a network

The definitions of this section are not taken from the code: they say what
the result of a call is measured against.  `expression_value` is the value of
the expression that the links of the network spell out, at one lane. -/

/-- The value of one lane: an element, or a list. -/
inductive LaneValue where
  | single (value : Val)
  | vector (list : List Val)
  deriving DecidableEq, Repr

/-- Lane `i` of the content of a buffer. -/
def lane_of (v : ParamValue) (i : Nat) : LaneValue :=
  match v with
  | .single values => .single (values.getD i 0)
  | .vector lists => .vector (lists.getD i [])

/-- Number of lanes of the content of a buffer. -/
def ParamValue.lanes : ParamValue → Nat
  | .single values => values.length
  | .vector lists => lists.length

/-- The content has the shape a parameter of this type takes. -/
def value_fits : MFParamType → ParamValue → Prop
  | .readonly_single_input _, .single _ => True
  | .single_output _, .single _ => True
  | .readonly_vector_input _, .vector _ => True
  | .vector_output _, .vector _ => True
  | .mutable_vector _, .vector _ => True
  | _, _ => False

/-- Two contents of the same kind with the same number of lanes. -/
def same_shape : ParamValue → ParamValue → Prop
  | .single a, .single b => a.length = b.length
  | .vector a, .vector b => a.length = b.length
  | _, _ => False

/-- Lane `i` of the parameters that the input sockets stand for, in socket order. -/
def inputs_at (input_param_indices : List Nat) (values : List ParamValue) (i : Nat) :
    List LaneValue :=
  input_param_indices.map (fun p => lane_of (values.getD p (.single [])) i)

/-- The function computes lane-wise on the lanes of `mask_indices`, as `g`
says: called on buffers shaped as its signature asks, all covering the lanes,
it keeps the shape of every buffer, and what it leaves at lane `i` of an
output or mutable parameter `q` is `g` of the inputs at lane `i`. -/
def LaneWise (mask_indices : List Nat) (function : MultiFunction)
    (input_param_indices : List Nat) (g : List LaneValue → Nat → LaneValue) : Prop :=
  ∀ values : List ParamValue,
    values.length = function.signature.length →
    (∀ (q : Nat) pt v, function.signature[q]? = some pt → values[q]? = some v →
      value_fits pt v ∧ ∀ i ∈ mask_indices, i < v.lanes) →
    (function.call mask_indices values).length = values.length ∧
    (∀ (q : Nat) v w, values[q]? = some v → (function.call mask_indices values)[q]? = some w →
      same_shape v w) ∧
    ∀ i ∈ mask_indices, ∀ (q : Nat) pt w, function.signature[q]? = some pt →
      pt.is_output = true → (function.call mask_indices values)[q]? = some w →
      lane_of w i = g (inputs_at input_param_indices values i) q

/-- All the values, if none is missing. -/
def all_some {α : Type} : List (Option α) → Option (List α)
  | [] => some []
  | none :: _ => none
  | some x :: rest =>
    match all_some rest with
    | some xs => some (x :: xs)
    | none => none

/-- Value at one lane of the expression that ends in the output socket:
the caller's input for a declared boundary input (`inputs k` for the one at
position `k`), and for an output of a function node the lane function of the
node (`G node`) applied to the values of the origins of its input sockets.
The budget bounds the depth of the expression. -/
def expression_value (net : MFNetwork) (tree : MultiFunction_FunctionTree)
    (G : Nat → List LaneValue → Nat → LaneValue) (inputs : Nat → LaneValue) :
    Nat → OutputRef → Option LaneValue
  | 0, _ => none
  | depth + 1, socket =>
    if socket ∈ tree.m_inputs then some (inputs (tree.m_inputs.indexOf socket))
    else
      match net.nodes[socket.1]? with
      | some node =>
        match node.kind with
        | .function _ _ output_param_indices =>
          match output_param_indices[socket.2]? with
          | some q =>
            match all_some (node.inputs.map (fun s =>
              s.origin.bind (expression_value net tree G inputs depth))) with
            | some arguments => some (G socket.1 arguments q)
            | none => none
          | none => none
        | .placeholder => none
      | none => none

/-- Lane `i` of the caller's input parameter at position `k`. -/
def caller_lane (mem : Memory) (params : List MFParam) (i k : Nat) : LaneValue :=
  match params[k]? with
  | some (.readonly_single_input a) => .single ((mem.arrays.getD a []).getD i 0)
  | some (.readonly_vector_input a) => .vector ((mem.vector_arrays.getD a []).getD i [])
  | _ => .single 0

/-- Number of lanes of the buffer of a parameter. -/
def param_lanes (mem : Memory) : MFParam → Nat
  | .readonly_single_input a => (mem.arrays.getD a []).length
  | .single_output a => (mem.arrays.getD a []).length
  | .readonly_vector_input a => (mem.vector_arrays.getD a []).length
  | .vector_output a => (mem.vector_arrays.getD a []).length
  | .mutable_vector a => (mem.vector_arrays.getD a []).length

/-- The arrays the caller passes for Single outputs. -/
def single_output_addresses : List MFParam → List Nat
  | [] => []
  | .single_output a :: rest => a :: single_output_addresses rest
  | _ :: rest => single_output_addresses rest

/-- The arrays the caller passes for Single inputs. -/
def single_input_addresses : List MFParam → List Nat
  | [] => []
  | .readonly_single_input a :: rest => a :: single_input_addresses rest
  | _ :: rest => single_input_addresses rest

/-- The caller's buffers cover the lanes, the arrays passed for Single outputs
are pairwise different, none of them is also passed for a Single input, and
the number of lanes of every buffer is a 32-bit unsigned number, as the `uint`
size of an array reference is. -/
def buffers_ok (mask_indices : List Nat) (params : List MFParam) (mem : Memory) : Prop :=
  (∀ prm ∈ params, ∀ i ∈ mask_indices, i < param_lanes mem prm) ∧
  (single_output_addresses params).Nodup ∧
  (∀ a ∈ single_input_addresses params, a ∉ single_output_addresses params) ∧
  ∀ prm ∈ params, param_lanes mem prm < 4294967296

instance (mask_indices : List Nat) (params : List MFParam) (mem : Memory) :
    Decidable (buffers_ok mask_indices params mem) := by
  unfold buffers_ok
  infer_instance

/-- Whether no two input sockets of the node stand for the same parameter. -/
def distinct_inputs (node : MFNode) : Bool :=
  match node.kind with
  | .function _ input_param_indices _ => decide input_param_indices.Nodup
  | .placeholder => true

/-- Every function node has one input socket per input parameter, as
`MFNetworkBuilder::add_function` makes it. -/
def InputParamsDistinct (net : MFNetwork) : Prop :=
  ∀ node ∈ net.nodes, distinct_inputs node = true

instance (net : MFNetwork) : Decidable (InputParamsDistinct net) := by
  unfold InputParamsDistinct
  infer_instance

/-- The array holds, at every lane of the mask, the element `f` gives. -/
def single_is (mem : Memory) (a : Nat) (mask_indices : List Nat)
    (f : Nat → Option LaneValue) : Prop :=
  ∃ values, mem.arrays[a]? = some values ∧
    ∀ i ∈ mask_indices, i < values.length ∧ f i = some (.single (values.getD i 0))

/-- The vector array holds, at every lane of the mask, the list `f` gives. -/
def vector_is (mem : Memory) (a : Nat) (mask_indices : List Nat)
    (f : Nat → Option LaneValue) : Prop :=
  ∃ lists, mem.vector_arrays[a]? = some lists ∧
    ∀ i ∈ mask_indices, i < lists.length ∧ f i = some (.vector (lists.getD i []))

/-- The value of the expression ending in `socket` at lane `i`, on the caller's
inputs, within the depth the ranking allows. -/
def expression_at (net : MFNetwork) (tree : MultiFunction_FunctionTree)
    (G : Nat → List LaneValue → Nat → LaneValue) (mem0 : Memory) (params : List MFParam)
    (rank : Nat → Nat) (socket : OutputRef) (i : Nat) : Option LaneValue :=
  expression_value net tree G (caller_lane mem0 params i) (rank socket.1 + 1) socket

/-- What the storage holds for an input socket is the value of the expression
ending in the origin of the socket, at every lane of the mask; for a vector
array owned by the socket, as long as its node was not invoked. -/
structure ValInv (net : MFNetwork) (tree : MultiFunction_FunctionTree)
    (G : Nat → List LaneValue → Nat → LaneValue) (mem0 : Memory) (params : List MFParam)
    (rank : Nat → Nat) (mask_indices : List Nat) (s : EvalState) : Prop where
  single : ∀ k a, s.storage.m_virtual_list_for_inputs k = some a →
    ∃ sk o, net.input k = .ok sk ∧ sk.origin = some o ∧
      single_is s.memory a mask_indices (expression_at net tree G mem0 params rank o)
  shared : ∀ k a, s.storage.m_virtual_list_list_for_inputs k = some a →
    ∃ sk o, net.input k = .ok sk ∧ sk.origin = some o ∧
      vector_is s.memory a mask_indices (expression_at net tree G mem0 params rank o)
  owned : ∀ k a, s.storage.m_vector_per_socket k = some a → k.1 ∉ s.trace →
    ∃ sk o, net.input k = .ok sk ∧ sk.origin = some o ∧
      vector_is s.memory a mask_indices (expression_at net tree G mem0 params rank o)

namespace Example

/-- The lane function of the nodes of `add_network`: the sum of the two inputs. -/
def add_lane_function (_ : Nat) (arguments : List LaneValue) (_ : Nat) : LaneValue :=
  match arguments with
  | [.single a, .single b] => .single (a + b)
  | _ => .single 0

end Example

/-- What holds of every state of a call between seed and drain, on top of
`LoopInv`: the storage is true to the expression of the network; the vector
arrays held for function nodes still to be invoked are private; the caller's
buffers are untouched; every array held as a virtual list is an array of a
Single input of the caller or was allocated by the call. -/
structure CallInv (net : MFNetwork) (tree : MultiFunction_FunctionTree)
    (G : Nat → List LaneValue → Nat → LaneValue) (mem0 : Memory) (params : List MFParam)
    (rank : Nat → Nat) (mask_indices : List Nat) (s : EvalState) : Prop where
  val : ValInv net tree G mem0 params rank mask_indices s
  priv : Excl (fun k => net.is_function k.1 = true ∧ k.1 ∉ s.trace) s.storage
  frame : CallerFrame mem0 s
  source : ∀ k a, s.storage.m_virtual_list_for_inputs k = some a →
    mem0.arrays.length ≤ a ∨ a ∈ single_input_addresses params

/-- The array exists and has every lane of the mask. -/
def lanes_covered (mem : Memory) (mask_indices : List Nat) (a : Nat) : Prop :=
  ∃ values, mem.arrays[a]? = some values ∧ ∀ i ∈ mask_indices, i < values.length

/-! ## The source graph

`VirtualNodeTree`, `VirtualNode` and `VirtualSocket` are declared in
`BKE_virtual_node_tree_cxx.h`; this file only uses them. -/

/-- Modelled from the spec: a socket of the graph description.  It has a dense
identifier, a kind identifier (`idname`), a direction, the sockets linked to
it (for an input socket the output sockets linked into it, by identifier) and
a node-local configuration value (the property `value` read by the
default-value inserters). -/
structure VirtualSocket where
  id : Nat
  idname : String
  is_input : Bool
  links : List Nat
  value : Val
  deriving DecidableEq, Repr

/-- Modelled from the spec: a node of the graph description, with its kind
identifier, its ordered input and output sockets and its configuration (the
property `active_type` read by two node inserters). -/
structure VirtualNode where
  idname : String
  inputs : List VirtualSocket
  outputs : List VirtualSocket
  active_type : String
  deriving DecidableEq, Repr

/-- Modelled from the spec: the graph description, a list of nodes. -/
structure VirtualNodeTree where
  nodes : List VirtualNode
  deriving DecidableEq, Repr

/-- The sockets of a node, inputs first. -/
def VirtualNode.sockets (vnode : VirtualNode) : List VirtualSocket :=
  vnode.inputs ++ vnode.outputs

/-- All sockets of the graph, node by node. -/
def VirtualNodeTree.sockets (vtree : VirtualNodeTree) : List VirtualSocket :=
  vtree.nodes.flatMap VirtualNode.sockets

/-- Modelled from the spec: `socket_count()`, the number of sockets of the
graph (the identifiers are dense). -/
def VirtualNodeTree.socket_count (vtree : VirtualNodeTree) : Nat :=
  vtree.sockets.length

/-- The socket behind a `VirtualSocket *`: the socket with that identifier. -/
def VirtualNodeTree.socket_by_id (vtree : VirtualNodeTree) (id : Nat) : Option VirtualSocket :=
  vtree.sockets.find? (fun vsocket => vsocket.id == id)

/-- Modelled from the spec: `inputs_with_links()`, the input sockets with at
least one incoming link. -/
def VirtualNodeTree.inputs_with_links (vtree : VirtualNodeTree) : List VirtualSocket :=
  (vtree.nodes.flatMap (fun vnode => vnode.inputs)).filter (fun vsocket => 0 < vsocket.links.length)

/-! ## Type resolution -/

/-- `get_type_by_socket`. -/
def get_type_by_socket (vsocket : VirtualSocket) : MFDataType :=
  let idname := vsocket.idname
  if idname = "fn_FloatSocket" then .single .float
  else if idname = "fn_VectorSocket" then .single .float3
  else if idname = "fn_IntegerSocket" then .single .int32
  else if idname = "fn_FloatListSocket" then .vector .float
  else if idname = "fn_VectorListSocket" then .vector .float3
  else if idname = "fn_IntegerListSocket" then .vector .int32
  else .none

/-- `get_cpp_type_by_name`; any other name fails the assertion. -/
def get_cpp_type_by_name (name : String) : Except EvalError CPPType :=
  if name = "Float" then .ok .float
  else if name = "Vector" then .ok .float3
  else if name = "Integer" then .ok .int32
  else .error .assert_false

/-- `MFDataType::is_none`. -/
def MFDataType.is_none : MFDataType → Bool
  | .none => true
  | _ => false

/-- Modelled from the spec: `MFParamType::as_data_type`, the data type of the
socket that stands for a parameter: Single for the two single categories,
Vector for the three vector categories. -/
def MFParamType.as_data_type : MFParamType → MFDataType
  | .none => .none
  | .readonly_single_input t => .single t
  | .single_output t => .single t
  | .readonly_vector_input t => .vector t
  | .vector_output t => .vector t
  | .mutable_vector t => .vector t

/-- `xs[i] = x` on a `Vector` or `Array`: the index must be in range. -/
def set_list {α : Type} (xs : List α) (i : Nat) (x : α) : Except EvalError (List α) :=
  if i < xs.length then .ok (xs.set i x) else .error .index_out_of_range

/-! ## The network under construction

`MFNetworkBuilder` is declared in `BKE_multi_function_network.h`.  The network
it builds is kept as an `MFNetwork`; freezing it copies the nodes, sockets
and links as they are. -/

/-- Data types of the sockets that stand for the parameters listed. -/
def socket_types_of_params (signature : List MFParamType) :
    List Nat → Except EvalError (List MFDataType)
  | [] => .ok []
  | p :: rest => do
    let param_type ← index_list signature p
    let types ← socket_types_of_params signature rest
    .ok (param_type.as_data_type :: types)

/-- Modelled from the spec: `MFNetworkBuilder::add_function`.  The new function
node has one input socket per entry of `input_param_indices` and one output
socket per entry of `output_param_indices`, each with the data type of its
parameter; no socket is linked.  The result carries the index of the node. -/
def MFNetwork.add_function (net : MFNetwork) (function : MultiFunction)
    (input_param_indices output_param_indices : List Nat) : Except EvalError (MFNetwork × Nat) := do
  let input_types ← socket_types_of_params function.signature input_param_indices
  let output_types ← socket_types_of_params function.signature output_param_indices
  let node : MFNode :=
    { kind := .function function input_param_indices output_param_indices,
      inputs := input_types.map (fun t => { type := t, origin := none }),
      outputs := output_types.map (fun t => { type := t }) }
  .ok ({ nodes := net.nodes ++ [node] }, net.nodes.length)

/-- Modelled from the spec: `MFNetworkBuilder::add_placeholder`.  The new
placeholder node has the declared input and output data types; no socket is
linked. -/
def MFNetwork.add_placeholder (net : MFNetwork) (input_types output_types : List MFDataType) :
    MFNetwork × Nat :=
  let node : MFNode :=
    { kind := .placeholder,
      inputs := input_types.map (fun t => { type := t, origin := none }),
      outputs := output_types.map (fun t => { type := t }) }
  ({ nodes := net.nodes ++ [node] }, net.nodes.length)

/-- Modelled from the spec: `MFNetworkBuilder::add_link`.  Both sockets have to
exist and the input socket must have no incoming link yet (an input socket has
at most one); the output socket becomes its origin. -/
def MFNetwork.add_link (net : MFNetwork) (source : OutputRef) (target : InputRef) :
    Except EvalError MFNetwork := do
  let _ ← net.output source
  let node ← net.node target.1
  let socket ← index_list node.inputs target.2
  match socket.origin with
  | some _ => .error .assert_false
  | none =>
    let linked : MFInputSocket := { type := socket.type, origin := some source }
    let node : MFNode :=
      { kind := node.kind, inputs := node.inputs.set target.2 linked, outputs := node.outputs }
    .ok { nodes := net.nodes.set target.1 node }

/-- Number of sockets of a node. -/
def MFNode.socket_count (node : MFNode) : Nat :=
  node.inputs.length + node.outputs.length

/-- Number of sockets of the nodes before node `n`. -/
def sockets_before (nodes : List MFNode) (n : Nat) : Nat :=
  ((nodes.take n).map MFNode.socket_count).sum

/-- Modelled from the spec: the identifier of a socket, `socket.id()`.  The
identifiers are dense and follow the order of creation: node by node, the
inputs of a node before its outputs.  The frozen network keeps the numbering
of the builder. -/
def MFNetwork.socket_id (net : MFNetwork) : MFSocket → Nat
  | .input n i => sockets_before net.nodes n + i
  | .output n j => sockets_before net.nodes n + (net.nodes.getD n ⟨.placeholder, [], []⟩).inputs.length + j

/-- The socket with identifier `id` among the sockets of the nodes from `n` on. -/
def socket_by_id_from : List MFNode → Nat → Nat → Except EvalError MFSocket
  | [], _, _ => .error .index_out_of_range
  | node :: rest, n, id =>
    if id < node.inputs.length then .ok (.input n id)
    else if id < node.inputs.length + node.outputs.length then
      .ok (.output n (id - node.inputs.length))
    else socket_by_id_from rest (n + 1) (id - (node.inputs.length + node.outputs.length))

/-- Modelled from the spec: `MFNetwork::socket_by_id`, the socket of the frozen
network with the identifier given. -/
def MFNetwork.socket_by_id (net : MFNetwork) (id : Nat) : Except EvalError MFSocket :=
  socket_by_id_from net.nodes 0 id

/-! ## The functions the inserters use

The classes are declared in `BKE_multi_functions.h`.  Their batched `call`s
are taken as given (`FunctionBodies`); their signatures are written out. -/

/-- The `call` of a function. -/
abbrev FunctionBody := List Nat → List ParamValue → List ParamValue

/-- The `call`s of the functions of `BKE_multi_functions.h`. -/
structure FunctionBodies where
  add_floats : FunctionBody
  add_float3s : FunctionBody
  combine_vector : FunctionBody
  separate_vector : FunctionBody
  append_to_list : CPPType → FunctionBody
  list_length : CPPType → FunctionBody
  constant_value : CPPType → Val → FunctionBody
  empty_list : CPPType → FunctionBody
  convert : CPPType → CPPType → FunctionBody

/-- Modelled from the spec: `MultiFunction_AddFloats`, two float inputs and a float output. -/
def MultiFunction_AddFloats (bodies : FunctionBodies) : MultiFunction :=
  { signature := [.readonly_single_input .float, .readonly_single_input .float,
      .single_output .float]
    call := bodies.add_floats }

/-- Modelled from the spec: `MultiFunction_AddFloat3s`, two vector inputs and a vector output. -/
def MultiFunction_AddFloat3s (bodies : FunctionBodies) : MultiFunction :=
  { signature := [.readonly_single_input .float3, .readonly_single_input .float3,
      .single_output .float3]
    call := bodies.add_float3s }

/-- Modelled from the spec: `MultiFunction_CombineVector`, three float inputs
and a vector output. -/
def MultiFunction_CombineVector (bodies : FunctionBodies) : MultiFunction :=
  { signature := [.readonly_single_input .float, .readonly_single_input .float,
      .readonly_single_input .float, .single_output .float3]
    call := bodies.combine_vector }

/-- Modelled from the spec: `MultiFunction_SeparateVector`, a vector input and
three float outputs. -/
def MultiFunction_SeparateVector (bodies : FunctionBodies) : MultiFunction :=
  { signature := [.readonly_single_input .float3, .single_output .float,
      .single_output .float, .single_output .float]
    call := bodies.separate_vector }

/-- Modelled from the spec: `MultiFunction_AppendToList`, a mutable list and
the value to append. -/
def MultiFunction_AppendToList (bodies : FunctionBodies) (type : CPPType) : MultiFunction :=
  { signature := [.mutable_vector type, .readonly_single_input type]
    call := bodies.append_to_list type }

/-- Modelled from the spec: `MultiFunction_ListLength`, a list input and an
integer output. -/
def MultiFunction_ListLength (bodies : FunctionBodies) (type : CPPType) : MultiFunction :=
  { signature := [.readonly_vector_input type, .single_output .int32]
    call := bodies.list_length type }

/-- Modelled from the spec: `MultiFunction_ConstantValue<T>`, a zero-input
function holding a constant value. -/
def MultiFunction_ConstantValue (bodies : FunctionBodies) (type : CPPType) (value : Val) :
    MultiFunction :=
  { signature := [.single_output type]
    call := bodies.constant_value type value }

/-- Modelled from the spec: `MultiFunction_EmptyList<T>`, a zero-input function
yielding an empty list. -/
def MultiFunction_EmptyList (bodies : FunctionBodies) (type : CPPType) : MultiFunction :=
  { signature := [.vector_output type]
    call := bodies.empty_list type }

/-- Modelled from the spec: `MultiFunction_Convert<FromT, ToT>`, a converter
with one input and one output. -/
def MultiFunction_Convert (bodies : FunctionBodies) (from_type to_type : CPPType) :
    MultiFunction :=
  { signature := [.readonly_single_input from_type, .single_output to_type]
    call := bodies.convert from_type to_type }

/-! ## `VTreeMFNetworkBuilder` -/

/-- `VTreeMFNetworkBuilder`.  `m_socket_map` holds, per identifier of a socket
of the graph, the builder socket it is mapped to (`none` for `nullptr`).  The
`OwnedResources` that keep the functions alive have no counterpart here. -/
structure VTreeMFNetworkBuilder where
  m_vtree : VirtualNodeTree
  m_socket_map : List (Option MFSocket)
  m_type_by_vsocket : List MFDataType
  m_builder : MFNetwork

/-- One of the two inner loops of the constructor:
`m_type_by_vsocket[vsocket->id()] = get_type_by_socket(*vsocket)`. -/
def set_types : List VirtualSocket → List MFDataType → Except EvalError (List MFDataType)
  | [], types => .ok types
  | vsocket :: rest, types => do
    let types ← set_list types vsocket.id (get_type_by_socket vsocket)
    set_types rest types

/-- The loop of the constructor over the nodes. -/
def set_types_of_nodes : List VirtualNode → List MFDataType → Except EvalError (List MFDataType)
  | [], types => .ok types
  | vnode :: rest, types => do
    let types ← set_types vnode.inputs types
    let types ← set_types vnode.outputs types
    set_types_of_nodes rest types

/-- The constructor `VTreeMFNetworkBuilder(vtree)`. -/
def VTreeMFNetworkBuilder.create (vtree : VirtualNodeTree) :
    Except EvalError VTreeMFNetworkBuilder := do
  let types ← set_types_of_nodes vtree.nodes (List.replicate vtree.socket_count .none)
  .ok { m_vtree := vtree
        m_socket_map := List.replicate vtree.socket_count none
        m_type_by_vsocket := types
        m_builder := { nodes := [] } }

/-- `try_get_data_type`. -/
def VTreeMFNetworkBuilder.try_get_data_type (b : VTreeMFNetworkBuilder) (vsocket : VirtualSocket) :
    Except EvalError MFDataType :=
  index_list b.m_type_by_vsocket vsocket.id

/-- `is_data_socket`. -/
def VTreeMFNetworkBuilder.is_data_socket (b : VTreeMFNetworkBuilder) (vsocket : VirtualSocket) :
    Except EvalError Bool := do
  let type ← index_list b.m_type_by_vsocket vsocket.id
  .ok (!type.is_none)

/-- `map_sockets`: the socket of the graph must not be mapped yet. -/
def VTreeMFNetworkBuilder.map_sockets (b : VTreeMFNetworkBuilder) (vsocket : VirtualSocket)
    (socket : MFSocket) : Except EvalError VTreeMFNetworkBuilder := do
  let old ← index_list b.m_socket_map vsocket.id
  match old with
  | some _ => .error .assert_false
  | none => do
    let map ← set_list b.m_socket_map vsocket.id (some socket)
    .ok { b with m_socket_map := map }

/-- A loop of `map_sockets_exactly`, from socket `i` on:
`m_socket_map[vsockets[i]->id()] = sockets[i]`. -/
def map_exactly (socket_at : Nat → MFSocket) :
    List VirtualSocket → Nat → List (Option MFSocket) → Except EvalError (List (Option MFSocket))
  | [], _, map => .ok map
  | vsocket :: rest, i, map => do
    let map ← set_list map vsocket.id (some (socket_at i))
    map_exactly socket_at rest (i + 1) map

/-- `map_sockets_exactly`: the node of the graph and the builder node must have
the same numbers of sockets. -/
def VTreeMFNetworkBuilder.map_sockets_exactly (b : VTreeMFNetworkBuilder) (vnode : VirtualNode)
    (node_id : Nat) : Except EvalError VTreeMFNetworkBuilder := do
  let node ← b.m_builder.node node_id
  if vnode.inputs.length ≠ node.inputs.length then .error .assert_false
  else if vnode.outputs.length ≠ node.outputs.length then .error .assert_false
  else do
    let map ← map_exactly (fun i => .input node_id i) vnode.inputs 0 b.m_socket_map
    let map ← map_exactly (fun j => .output node_id j) vnode.outputs 0 map
    .ok { b with m_socket_map := map }

/-- A loop of `map_data_sockets`; `count` is `data_inputs` or `data_outputs`,
`socket_count` the number of sockets the node has on that side. -/
def map_data (socket_at : Nat → MFSocket) (socket_count : Nat) :
    List VirtualSocket → Nat → VTreeMFNetworkBuilder → Except EvalError VTreeMFNetworkBuilder
  | [], _, b => .ok b
  | vsocket :: rest, count, b => do
    let is_data ← b.is_data_socket vsocket
    if is_data then
      if count < socket_count then do
        let b ← b.map_sockets vsocket (socket_at count)
        map_data socket_at socket_count rest (count + 1) b
      else .error .index_out_of_range
    else map_data socket_at socket_count rest count b

/-- `map_data_sockets`. -/
def VTreeMFNetworkBuilder.map_data_sockets (b : VTreeMFNetworkBuilder) (vnode : VirtualNode)
    (node_id : Nat) : Except EvalError VTreeMFNetworkBuilder := do
  let node ← b.m_builder.node node_id
  let b ← map_data (fun i => .input node_id i) node.inputs.length vnode.inputs 0 b
  map_data (fun j => .output node_id j) node.outputs.length vnode.outputs 0 b

/-- `add_function(function, input_param_indices, output_param_indices)`. -/
def VTreeMFNetworkBuilder.add_function (b : VTreeMFNetworkBuilder) (function : MultiFunction)
    (input_param_indices output_param_indices : List Nat) :
    Except EvalError (VTreeMFNetworkBuilder × Nat) := do
  let (net, node_id) ← b.m_builder.add_function function input_param_indices output_param_indices
  .ok ({ b with m_builder := net }, node_id)

/-- `add_function(function, input_param_indices, output_param_indices, vnode)`. -/
def VTreeMFNetworkBuilder.add_function_for (b : VTreeMFNetworkBuilder) (function : MultiFunction)
    (input_param_indices output_param_indices : List Nat) (vnode : VirtualNode) :
    Except EvalError VTreeMFNetworkBuilder := do
  let (b, node_id) ← b.add_function function input_param_indices output_param_indices
  b.map_sockets_exactly vnode node_id

/-- The loops of `add_placeholder(vnode)` that collect the data types of the
data sockets. -/
def data_types_of (b : VTreeMFNetworkBuilder) :
    List VirtualSocket → Except EvalError (List MFDataType)
  | [] => .ok []
  | vsocket :: rest => do
    let data_type ← b.try_get_data_type vsocket
    let types ← data_types_of b rest
    .ok (if data_type.is_none then types else data_type :: types)

/-- `add_placeholder(vnode)`. -/
def VTreeMFNetworkBuilder.add_placeholder (b : VTreeMFNetworkBuilder) (vnode : VirtualNode) :
    Except EvalError VTreeMFNetworkBuilder := do
  let input_types ← data_types_of b vnode.inputs
  let output_types ← data_types_of b vnode.outputs
  let (net, node_id) := b.m_builder.add_placeholder input_types output_types
  VTreeMFNetworkBuilder.map_data_sockets { b with m_builder := net } vnode node_id

/-- `add_link`. -/
def VTreeMFNetworkBuilder.add_link (b : VTreeMFNetworkBuilder) (source : OutputRef)
    (target : InputRef) : Except EvalError VTreeMFNetworkBuilder := do
  let net ← b.m_builder.add_link source target
  .ok { b with m_builder := net }

/-- `vsocket_is_mapped`. -/
def VTreeMFNetworkBuilder.vsocket_is_mapped (b : VTreeMFNetworkBuilder) (vsocket : VirtualSocket) :
    Except EvalError Bool := do
  let socket ← index_list b.m_socket_map vsocket.id
  .ok socket.isSome

/-- `data_sockets_are_mapped`. -/
def VTreeMFNetworkBuilder.data_sockets_are_mapped (b : VTreeMFNetworkBuilder) :
    List VirtualSocket → Except EvalError Bool
  | [] => .ok true
  | vsocket :: rest => do
    let is_data ← b.is_data_socket vsocket
    if is_data then do
      let mapped ← b.vsocket_is_mapped vsocket
      if !mapped then .ok false else b.data_sockets_are_mapped rest
    else b.data_sockets_are_mapped rest

/-- `data_sockets_of_vnode_are_mapped`. -/
def VTreeMFNetworkBuilder.data_sockets_of_vnode_are_mapped (b : VTreeMFNetworkBuilder)
    (vnode : VirtualNode) : Except EvalError Bool := do
  let inputs_mapped ← b.data_sockets_are_mapped vnode.inputs
  if !inputs_mapped then .ok false
  else do
    let outputs_mapped ← b.data_sockets_are_mapped vnode.outputs
    if !outputs_mapped then .ok false else .ok true

/-- One of the two loops of `has_data_sockets`. -/
def VTreeMFNetworkBuilder.any_data_socket (b : VTreeMFNetworkBuilder) :
    List VirtualSocket → Except EvalError Bool
  | [] => .ok false
  | vsocket :: rest => do
    let is_data ← b.is_data_socket vsocket
    if is_data then .ok true else b.any_data_socket rest

/-- `has_data_sockets`. -/
def VTreeMFNetworkBuilder.has_data_sockets (b : VTreeMFNetworkBuilder) (vnode : VirtualNode) :
    Except EvalError Bool := do
  let among_inputs ← b.any_data_socket vnode.inputs
  if among_inputs then .ok true else b.any_data_socket vnode.outputs

/-- `lookup_output_socket`: the socket of the graph is an output, it is
mapped, and the builder socket is an output (`as_output`). -/
def VTreeMFNetworkBuilder.lookup_output_socket (b : VTreeMFNetworkBuilder)
    (vsocket : VirtualSocket) : Except EvalError OutputRef := do
  if vsocket.is_input then .error .assert_false
  else do
    let socket ← index_list b.m_socket_map vsocket.id
    match socket with
    | some (.output n j) => .ok (n, j)
    | _ => .error .assert_false

/-- `lookup_input_socket`: the socket of the graph is an input, it is mapped,
and the builder socket is an input (`as_input`). -/
def VTreeMFNetworkBuilder.lookup_input_socket (b : VTreeMFNetworkBuilder)
    (vsocket : VirtualSocket) : Except EvalError InputRef := do
  if !vsocket.is_input then .error .assert_false
  else do
    let socket ← index_list b.m_socket_map vsocket.id
    match socket with
    | some (.input n i) => .ok (n, i)
    | _ => .error .assert_false

/-- `is_input_linked`. -/
def VTreeMFNetworkBuilder.is_input_linked (b : VTreeMFNetworkBuilder) (vsocket : VirtualSocket) :
    Except EvalError Bool := do
  let socket ← b.lookup_input_socket vsocket
  let input ← b.m_builder.input socket
  .ok input.origin.isSome

/-- The frozen result of the build: `VTreeMFNetwork`. -/
structure VTreeMFNetwork where
  m_vtree : VirtualNodeTree
  m_network : MFNetwork
  m_socket_map : List (Option MFSocket)

/-- First loop of `build`: the identifier of the builder socket, or `-1`. -/
def socket_ids_of (net : MFNetwork) (map : List (Option MFSocket)) :
    List Nat → Except EvalError (List Int)
  | [] => .ok []
  | vsocket_id :: rest => do
    let builder_socket ← index_list map vsocket_id
    let ids ← socket_ids_of net map rest
    match builder_socket with
    | some socket => .ok ((net.socket_id socket : Int) :: ids)
    | none => .ok (-1 :: ids)

/-- Second loop of `build`: the socket of the network with that identifier, or `nullptr`. -/
def socket_map_of (network : MFNetwork) (socket_ids : List Int) :
    List Nat → Except EvalError (List (Option MFSocket))
  | [] => .ok []
  | vsocket_id :: rest => do
    let id ← index_list socket_ids vsocket_id
    let map ← socket_map_of network socket_ids rest
    if id ≠ -1 then do
      let socket ← network.socket_by_id id.toNat
      .ok (some socket :: map)
    else .ok (none :: map)

/-- `build`. -/
def VTreeMFNetworkBuilder.build (b : VTreeMFNetworkBuilder) : Except EvalError VTreeMFNetwork := do
  let socket_ids ← socket_ids_of b.m_builder b.m_socket_map (List.range b.m_vtree.socket_count)
  let network := b.m_builder
  let socket_map ← socket_map_of network socket_ids (List.range b.m_vtree.socket_count)
  .ok { m_vtree := b.m_vtree, m_network := network, m_socket_map := socket_map }

/-- `VTreeMFNetwork::lookup_socket`: dereferences the entry of the table. -/
def VTreeMFNetwork.lookup_socket (network : VTreeMFNetwork) (vsocket : VirtualSocket) :
    Except EvalError MFSocket := do
  let entry ← index_list network.m_socket_map vsocket.id
  match entry with
  | some socket => .ok socket
  | none => .error .key_not_found

/-! ## Inserters and registries -/

/-- `InsertVNodeFunction`. -/
abbrev InsertVNodeFunction :=
  VTreeMFNetworkBuilder → VirtualNode → Except EvalError VTreeMFNetworkBuilder

/-- `InsertUnlinkedInputFunction`; the result carries the output socket returned. -/
abbrev InsertUnlinkedInputFunction :=
  VTreeMFNetworkBuilder → VirtualSocket → Except EvalError (VTreeMFNetworkBuilder × OutputRef)

/-- `InsertImplicitConversionFunction`; the result carries the pair of sockets returned. -/
abbrev InsertImplicitConversionFunction :=
  VTreeMFNetworkBuilder → Except EvalError (VTreeMFNetworkBuilder × InputRef × OutputRef)

/-- `INSERT_vector_math`. -/
def INSERT_vector_math (bodies : FunctionBodies) : InsertVNodeFunction :=
  fun builder vnode => builder.add_function_for (MultiFunction_AddFloat3s bodies) [0, 1] [2] vnode

/-- `INSERT_float_math`. -/
def INSERT_float_math (bodies : FunctionBodies) : InsertVNodeFunction :=
  fun builder vnode => builder.add_function_for (MultiFunction_AddFloats bodies) [0, 1] [2] vnode

/-- `INSERT_combine_vector`. -/
def INSERT_combine_vector (bodies : FunctionBodies) : InsertVNodeFunction :=
  fun builder vnode =>
    builder.add_function_for (MultiFunction_CombineVector bodies) [0, 1, 2] [3] vnode

/-- `INSERT_separate_vector`. -/
def INSERT_separate_vector (bodies : FunctionBodies) : InsertVNodeFunction :=
  fun builder vnode =>
    builder.add_function_for (MultiFunction_SeparateVector bodies) [0] [1, 2, 3] vnode

/-- `INSERT_append_to_list`. -/
def INSERT_append_to_list (bodies : FunctionBodies) : InsertVNodeFunction :=
  fun builder vnode => do
    let type ← get_cpp_type_by_name vnode.active_type
    builder.add_function_for (MultiFunction_AppendToList bodies type) [0, 1] [0] vnode

/-- `INSERT_list_length`. -/
def INSERT_list_length (bodies : FunctionBodies) : InsertVNodeFunction :=
  fun builder vnode => do
    let type ← get_cpp_type_by_name vnode.active_type
    builder.add_function_for (MultiFunction_ListLength bodies type) [0] [1] vnode

/-- `get_node_inserters`, as the lookup in the map it returns. -/
def get_node_inserters (bodies : FunctionBodies) (idname : String) : Option InsertVNodeFunction :=
  if idname = "fn_FloatMathNode" then some (INSERT_float_math bodies)
  else if idname = "fn_VectorMathNode" then some (INSERT_vector_math bodies)
  else if idname = "fn_CombineVectorNode" then some (INSERT_combine_vector bodies)
  else if idname = "fn_SeparateVectorNode" then some (INSERT_separate_vector bodies)
  else if idname = "fn_AppendToListNode" then some (INSERT_append_to_list bodies)
  else if idname = "fn_ListLengthNode" then some (INSERT_list_length bodies)
  else none

/-- The body shared by `INSERT_vector_socket`, `INSERT_float_socket` and
`INSERT_int_socket`: a constant function of the value of the socket. -/
def INSERT_constant_socket (bodies : FunctionBodies) (type : CPPType) :
    InsertUnlinkedInputFunction :=
  fun builder vsocket => do
    let (builder, node_id) ←
      builder.add_function (MultiFunction_ConstantValue bodies type vsocket.value) [] [0]
    let node ← builder.m_builder.node node_id
    let _ ← index_list node.outputs 0
    .ok (builder, (node_id, 0))

/-- `INSERT_vector_socket`. -/
def INSERT_vector_socket (bodies : FunctionBodies) : InsertUnlinkedInputFunction :=
  INSERT_constant_socket bodies .float3

/-- `INSERT_float_socket`. -/
def INSERT_float_socket (bodies : FunctionBodies) : InsertUnlinkedInputFunction :=
  INSERT_constant_socket bodies .float

/-- `INSERT_int_socket`. -/
def INSERT_int_socket (bodies : FunctionBodies) : InsertUnlinkedInputFunction :=
  INSERT_constant_socket bodies .int32

/-- `INSERT_empty_list_socket<T>`. -/
def INSERT_empty_list_socket (bodies : FunctionBodies) (type : CPPType) :
    InsertUnlinkedInputFunction :=
  fun builder _ => do
    let (builder, node_id) ← builder.add_function (MultiFunction_EmptyList bodies type) [] [0]
    let node ← builder.m_builder.node node_id
    let _ ← index_list node.outputs 0
    .ok (builder, (node_id, 0))

/-- `get_unlinked_input_inserter`, as the lookup in the map it returns. -/
def get_unlinked_input_inserter (bodies : FunctionBodies) (idname : String) :
    Option InsertUnlinkedInputFunction :=
  if idname = "fn_VectorSocket" then some (INSERT_vector_socket bodies)
  else if idname = "fn_FloatSocket" then some (INSERT_float_socket bodies)
  else if idname = "fn_IntegerSocket" then some (INSERT_int_socket bodies)
  else if idname = "fn_VectorListSocket" then some (INSERT_empty_list_socket bodies .float3)
  else if idname = "fn_FloatListSocket" then some (INSERT_empty_list_socket bodies .float)
  else if idname = "fn_IntegerListSocket" then some (INSERT_empty_list_socket bodies .int32)
  else none

/-- `INSERT_convert<FromT, ToT>`. -/
def INSERT_convert (bodies : FunctionBodies) (from_type to_type : CPPType) :
    InsertImplicitConversionFunction :=
  fun builder => do
    let (builder, node_id) ←
      builder.add_function (MultiFunction_Convert bodies from_type to_type) [0] [1]
    let node ← builder.m_builder.node node_id
    let _ ← index_list node.inputs 0
    let _ ← index_list node.outputs 0
    .ok (builder, (node_id, 0), (node_id, 0))

/-- `get_conversion_inserters`, as the lookup in the map it returns. -/
def get_conversion_inserters (bodies : FunctionBodies) (key : String × String) :
    Option InsertImplicitConversionFunction :=
  if key = ("fn_IntegerSocket", "fn_FloatSocket") then some (INSERT_convert bodies .int32 .float)
  else none

/-! ## The three build phases -/

/-- Body of the loop of `insert_nodes`. -/
def insert_node (bodies : FunctionBodies) (builder : VTreeMFNetworkBuilder) (vnode : VirtualNode) :
    Except EvalError VTreeMFNetworkBuilder :=
  match get_node_inserters bodies vnode.idname with
  | some inserter => do
    let builder ← inserter builder vnode
    let mapped ← builder.data_sockets_of_vnode_are_mapped vnode
    if mapped then .ok builder else .error .assert_false
  | none => do
    let has_data ← builder.has_data_sockets vnode
    if has_data then builder.add_placeholder vnode else .ok builder

/-- The loop of `insert_nodes`. -/
def insert_nodes_loop (bodies : FunctionBodies) :
    List VirtualNode → VTreeMFNetworkBuilder → Except EvalError VTreeMFNetworkBuilder
  | [], builder => .ok builder
  | vnode :: rest, builder => do
    let builder ← insert_node bodies builder vnode
    insert_nodes_loop bodies rest builder

/-- `insert_nodes`: the value returned and the builder as it is left. -/
def insert_nodes (bodies : FunctionBodies) (builder : VTreeMFNetworkBuilder) :
    Except EvalError (Bool × VTreeMFNetworkBuilder) := do
  let builder ← insert_nodes_loop bodies builder.m_vtree.nodes builder
  .ok (true, builder)

/-- Body of the loop of `insert_links` for one input socket with links.  The
flag is `false` where the body says `return false`. -/
def insert_link (bodies : FunctionBodies) (builder : VTreeMFNetworkBuilder)
    (to_vsocket : VirtualSocket) : Except EvalError (Bool × VTreeMFNetworkBuilder) :=
  if 1 < to_vsocket.links.length then .ok (true, builder)
  else if to_vsocket.links.length ≠ 1 then .error .assert_false
  else do
    let to_is_data ← builder.is_data_socket to_vsocket
    if !to_is_data then .ok (true, builder)
    else do
      let from_id ← index_list to_vsocket.links 0
      match builder.m_vtree.socket_by_id from_id with
      | none => .error .key_not_found
      | some from_vsocket => do
        let from_is_data ← builder.is_data_socket from_vsocket
        if !from_is_data then .ok (false, builder)
        else do
          let from_socket ← builder.lookup_output_socket from_vsocket
          let to_socket ← builder.lookup_input_socket to_vsocket
          let from_type ← builder.m_builder.output from_socket
          let to_type ← builder.m_builder.input to_socket
          if from_type.type = to_type.type then do
            let builder ← builder.add_link from_socket to_socket
            .ok (true, builder)
          else
            match get_conversion_inserters bodies (from_vsocket.idname, to_vsocket.idname) with
            | none => .ok (false, builder)
            | some inserter => do
              let (builder, new_input, new_output) ← inserter builder
              let builder ← builder.add_link from_socket new_input
              let builder ← builder.add_link new_output to_socket
              .ok (true, builder)

/-- A loop over sockets of the graph that ends with `return false` as soon as
its body says so. -/
def loop_until_false
    (body : VTreeMFNetworkBuilder → VirtualSocket → Except EvalError (Bool × VTreeMFNetworkBuilder)) :
    List VirtualSocket → VTreeMFNetworkBuilder → Except EvalError (Bool × VTreeMFNetworkBuilder)
  | [], builder => .ok (true, builder)
  | vsocket :: rest, builder => do
    let (go_on, builder) ← body builder vsocket
    if go_on then loop_until_false body rest builder else .ok (false, builder)

/-- `insert_links`. -/
def insert_links (bodies : FunctionBodies) (builder : VTreeMFNetworkBuilder) :
    Except EvalError (Bool × VTreeMFNetworkBuilder) :=
  loop_until_false (insert_link bodies) builder.m_vtree.inputs_with_links builder

/-- The first loop of `insert_unlinked_inputs`, over the inputs of one node. -/
def VTreeMFNetworkBuilder.unlinked_data_inputs_of (builder : VTreeMFNetworkBuilder) :
    List VirtualSocket → Except EvalError (List VirtualSocket)
  | [] => .ok []
  | vsocket :: rest => do
    let is_data ← builder.is_data_socket vsocket
    if is_data then do
      let linked ← builder.is_input_linked vsocket
      let more ← builder.unlinked_data_inputs_of rest
      .ok (if !linked then vsocket :: more else more)
    else builder.unlinked_data_inputs_of rest

/-- The first loop of `insert_unlinked_inputs`. -/
def VTreeMFNetworkBuilder.unlinked_data_inputs (builder : VTreeMFNetworkBuilder) :
    List VirtualNode → Except EvalError (List VirtualSocket)
  | [] => .ok []
  | vnode :: rest => do
    let here ← builder.unlinked_data_inputs_of vnode.inputs
    let more ← builder.unlinked_data_inputs rest
    .ok (here ++ more)

/-- Body of the second loop of `insert_unlinked_inputs`. -/
def insert_unlinked_input (bodies : FunctionBodies) (builder : VTreeMFNetworkBuilder)
    (vsocket : VirtualSocket) : Except EvalError (Bool × VTreeMFNetworkBuilder) :=
  match get_unlinked_input_inserter bodies vsocket.idname with
  | none => .ok (false, builder)
  | some inserter => do
    let (builder, from_socket) ← inserter builder vsocket
    let to_socket ← builder.lookup_input_socket vsocket
    let builder ← builder.add_link from_socket to_socket
    .ok (true, builder)

/-- `insert_unlinked_inputs`. -/
def insert_unlinked_inputs (bodies : FunctionBodies) (builder : VTreeMFNetworkBuilder) :
    Except EvalError (Bool × VTreeMFNetworkBuilder) := do
  let unlinked_data_inputs ← builder.unlinked_data_inputs builder.m_vtree.nodes
  loop_until_false (insert_unlinked_input bodies) unlinked_data_inputs builder

/-! ## Well-formed source graphs -/

/-- The identifiers of the sockets of the graph are pairwise different and
smaller than the number of sockets (they are dense). -/
def VirtualNodeTree.ids_ok (vtree : VirtualNodeTree) : Prop :=
  (vtree.sockets.map (fun vsocket => vsocket.id)).Nodup ∧
    ∀ vsocket ∈ vtree.sockets, vsocket.id < vtree.socket_count

instance (vtree : VirtualNodeTree) : Decidable vtree.ids_ok := by
  unfold VirtualNodeTree.ids_ok
  infer_instance

/-- The six kind identifiers of data sockets. -/
def data_socket_idnames : List String :=
  ["fn_FloatSocket", "fn_VectorSocket", "fn_IntegerSocket", "fn_FloatListSocket",
    "fn_VectorListSocket", "fn_IntegerListSocket"]

/-- The socket carries data: its resolved type is not None. -/
def VirtualSocket.is_data (vsocket : VirtualSocket) : Bool :=
  !(get_type_by_socket vsocket).is_none

/-- The node has a data socket. -/
def VirtualNode.has_data (vnode : VirtualNode) : Bool :=
  vnode.inputs.any VirtualSocket.is_data || vnode.outputs.any VirtualSocket.is_data

/-- The data sockets among the sockets listed, in their order. -/
def data_sockets (vsockets : List VirtualSocket) : List VirtualSocket :=
  vsockets.filter VirtualSocket.is_data

/-- The kind identifiers of the nodes with an entry in the node-inserter registry. -/
def registered_node_idnames : List String :=
  ["fn_FloatMathNode", "fn_VectorMathNode", "fn_CombineVectorNode", "fn_SeparateVectorNode",
    "fn_AppendToListNode", "fn_ListLengthNode"]

/-- The resolved types of the input sockets and of the output sockets of a node. -/
def VirtualNode.socket_types (vnode : VirtualNode) : List MFDataType × List MFDataType :=
  (vnode.inputs.map get_type_by_socket, vnode.outputs.map get_type_by_socket)

/-- A node of a registered kind has the sockets of the function that its
inserter adds: the inserters map the sockets of the node to the parameters of
the function by position. -/
def VirtualNode.declared (vnode : VirtualNode) : Bool :=
  if vnode.idname = "fn_FloatMathNode" then
    vnode.socket_types == ([.single .float, .single .float], [.single .float])
  else if vnode.idname = "fn_VectorMathNode" then
    vnode.socket_types == ([.single .float3, .single .float3], [.single .float3])
  else if vnode.idname = "fn_CombineVectorNode" then
    vnode.socket_types == ([.single .float, .single .float, .single .float], [.single .float3])
  else if vnode.idname = "fn_SeparateVectorNode" then
    vnode.socket_types == ([.single .float3], [.single .float, .single .float, .single .float])
  else if vnode.idname = "fn_AppendToListNode" then
    match get_cpp_type_by_name vnode.active_type with
    | .ok type => vnode.socket_types == ([.vector type, .single type], [.vector type])
    | .error _ => false
  else if vnode.idname = "fn_ListLengthNode" then
    match get_cpp_type_by_name vnode.active_type with
    | .ok type => vnode.socket_types == ([.vector type], [.single .int32])
    | .error _ => false
  else true

/-- The input sockets of the graph, node by node. -/
def VirtualNodeTree.input_sockets (vtree : VirtualNodeTree) : List VirtualSocket :=
  vtree.nodes.flatMap (fun vnode => vnode.inputs)

/-- The output sockets of the graph, node by node. -/
def VirtualNodeTree.output_sockets (vtree : VirtualNodeTree) : List VirtualSocket :=
  vtree.nodes.flatMap (fun vnode => vnode.outputs)

/-- A graph as the node system hands it over: dense socket identifiers, the
inputs of a node are input sockets and its outputs output sockets, every link
into an input socket comes from an output socket of the graph, and the nodes
of registered kinds have the sockets of their functions. -/
def VirtualNodeTree.well_formed (vtree : VirtualNodeTree) : Prop :=
  vtree.ids_ok ∧
    (∀ vsocket ∈ vtree.input_sockets, vsocket.is_input = true) ∧
    (∀ vsocket ∈ vtree.output_sockets, vsocket.is_input = false) ∧
    (∀ vsocket ∈ vtree.input_sockets, ∀ id ∈ vsocket.links,
      ∃ origin ∈ vtree.output_sockets, origin.id = id) ∧
    (∀ vnode ∈ vtree.nodes, vnode.declared = true)

instance (vtree : VirtualNodeTree) : Decidable vtree.well_formed := by
  unfold VirtualNodeTree.well_formed
  infer_instance

namespace Example

/-- Bodies for the examples: sums, a constant that fills the masked lanes, a
conversion that copies the masked lanes; the others leave the buffers alone. -/
def bodies : FunctionBodies :=
  { add_floats := AddFloats.call,
    add_float3s := AddFloats.call,
    combine_vector := fun _ values => values,
    separate_vector := fun _ values => values,
    append_to_list := fun _ => AppendToList.call,
    list_length := fun _ => ListLength.call,
    constant_value := fun _ value mask_indices values =>
      match values with
      | [.single out] => [.single (mask_indices.foldl (fun out i => out.set i value) out)]
      | _ => values,
    empty_list := fun _ _ values => values,
    convert := fun _ _ mask_indices values =>
      match values with
      | [.single a, .single out] =>
        [.single a, .single (mask_indices.foldl (fun out i => out.set i (a.getD i 0)) out)]
      | _ => values }

/-- A graph with an input node (a float output, socket 0, and an integer
output, socket 1), a float addition (inputs 2 and 3, output 4) and an output
node with four inputs: socket 5 linked from the sum, socket 6 unlinked with
the value 5, socket 7 with two incoming links, socket 8 not a data socket.
Input 3 of the addition is fed by the integer output. -/
def mixed_tree : VirtualNodeTree :=
  { nodes :=
      [{ idname := "fn_FunctionInputNode", inputs := [],
         outputs := [⟨0, "fn_FloatSocket", false, [2, 7, 8], 0⟩,
           ⟨1, "fn_IntegerSocket", false, [3], 0⟩],
         active_type := "" },
       { idname := "fn_FloatMathNode",
         inputs := [⟨2, "fn_FloatSocket", true, [0], 0⟩, ⟨3, "fn_FloatSocket", true, [1], 0⟩],
         outputs := [⟨4, "fn_FloatSocket", false, [5, 7], 0⟩],
         active_type := "" },
       { idname := "fn_FunctionOutputNode",
         inputs := [⟨5, "fn_FloatSocket", true, [4], 0⟩, ⟨6, "fn_FloatSocket", true, [], 5⟩,
           ⟨7, "fn_FloatSocket", true, [0, 4], 0⟩, ⟨8, "fn_GroupSocket", true, [0], 0⟩],
         outputs := [],
         active_type := "" }] }

/-- A graph in which a float output (socket 0) is linked into an integer
input (socket 1). -/
def float_to_int_tree : VirtualNodeTree :=
  { nodes :=
      [{ idname := "fn_FunctionInputNode", inputs := [],
         outputs := [⟨0, "fn_FloatSocket", false, [1], 0⟩], active_type := "" },
       { idname := "fn_FunctionOutputNode",
         inputs := [⟨1, "fn_IntegerSocket", true, [0], 0⟩], outputs := [],
         active_type := "" }] }

/-- A graph in which an output that is not a data socket (socket 0) is linked
into a float input (socket 1). -/
def structural_source_tree : VirtualNodeTree :=
  { nodes :=
      [{ idname := "fn_FunctionInputNode", inputs := [],
         outputs := [⟨0, "fn_GroupSocket", false, [1], 0⟩], active_type := "" },
       { idname := "fn_FunctionOutputNode",
         inputs := [⟨1, "fn_FloatSocket", true, [0], 0⟩], outputs := [],
         active_type := "" }] }

/-- A graph in which a float output of the input node (socket 1) is linked
into the vector input of the output node (socket 3, default value 7); the
input node has the three outputs that `MOD_functiondeform_do` declares. -/
def float_into_vector_tree : VirtualNodeTree :=
  { nodes :=
      [{ idname := "fn_FunctionInputNode", inputs := [],
         outputs := [⟨0, "fn_VectorSocket", false, [], 0⟩,
           ⟨1, "fn_FloatSocket", false, [3], 0⟩, ⟨2, "fn_IntegerSocket", false, [], 0⟩],
         active_type := "" },
       { idname := "fn_FunctionOutputNode",
         inputs := [⟨3, "fn_VectorSocket", true, [1], 7⟩], outputs := [],
         active_type := "" }] }

/-- A graph in which a float input (socket 2) has two incoming links, one from
an output that is not a data socket (socket 0) and one from a float output
(socket 1). -/
def fan_in_tree : VirtualNodeTree :=
  { nodes :=
      [{ idname := "fn_FunctionInputNode", inputs := [],
         outputs := [⟨0, "fn_GroupSocket", false, [2], 0⟩,
           ⟨1, "fn_FloatSocket", false, [2], 0⟩], active_type := "" },
       { idname := "fn_FunctionOutputNode",
         inputs := [⟨2, "fn_FloatSocket", true, [0, 1], 0⟩], outputs := [],
         active_type := "" }] }

end Example

/-! ## Invariants of the build -/

/-- The builder works on the graph `vtree`, its array of types holds the
resolved type of every socket, and its socket map has one entry per socket. -/
structure BuilderOk (vtree : VirtualNodeTree) (b : VTreeMFNetworkBuilder) : Prop where
  tree : b.m_vtree = vtree
  types : ∀ v ∈ vtree.sockets, b.m_type_by_vsocket[v.id]? = some (get_type_by_socket v)
  map_length : b.m_socket_map.length = vtree.socket_count

/-- The builder node that stands for a node of the graph: one socket per data
socket of the node, in their order, with the resolved type and no link; a
placeholder unless the kind of the node is registered. -/
def node_for (kind : MFNodeKind) (vnode : VirtualNode) : MFNode :=
  { kind := kind,
    inputs := (data_sockets vnode.inputs).map
      (fun vsocket => { type := get_type_by_socket vsocket, origin := none }),
    outputs := (data_sockets vnode.outputs).map
      (fun vsocket => { type := get_type_by_socket vsocket }) }

/-- What node insertion leaves for a node of the graph with a data socket:
builder node `n` has one socket per data socket of the node, in their order
and with the resolved type, and the data sockets are mapped to them. -/
structure NodeDone (b : VTreeMFNetworkBuilder) (n : Nat) (vnode : VirtualNode) : Prop where
  node : ∃ node, b.m_builder.nodes[n]? = some node ∧
    node.inputs.map (fun s => s.type) = (data_sockets vnode.inputs).map get_type_by_socket ∧
    node.outputs.map (fun s => s.type) = (data_sockets vnode.outputs).map get_type_by_socket ∧
    (vnode.idname ∉ registered_node_idnames → node.kind = .placeholder)
  inputs : ∀ (k : Nat) v, (data_sockets vnode.inputs)[k]? = some v →
    b.m_socket_map[v.id]? = some (some (.input n k))
  outputs : ∀ (k : Nat) v, (data_sockets vnode.outputs)[k]? = some v →
    b.m_socket_map[v.id]? = some (some (.output n k))

/-- The state of the builder when the loop of `insert_nodes` has gone through
the nodes `pre`: one builder node per node with a data socket, in order; no
link yet; every other socket unmapped. -/
structure NodesInv (vtree : VirtualNodeTree) (pre : List VirtualNode)
    (b : VTreeMFNetworkBuilder) : Prop where
  ok : BuilderOk vtree b
  count : b.m_builder.nodes.length = (pre.filter VirtualNode.has_data).length
  done : ∀ (n : Nat) vnode, (pre.filter VirtualNode.has_data)[n]? = some vnode → NodeDone b n vnode
  unlinked : ∀ node ∈ b.m_builder.nodes, ∀ s ∈ node.inputs, s.origin = none
  unmapped : ∀ v ∈ vtree.sockets,
    (v ∉ pre.flatMap VirtualNode.sockets ∨ v.is_data = false) → b.m_socket_map[v.id]? = some none

/-- The network has the socket. -/
def MFNetwork.has_socket (net : MFNetwork) : MFSocket → Bool
  | .input n i =>
    match net.nodes[n]? with
    | some node => decide (i < node.inputs.length)
    | none => false
  | .output n j =>
    match net.nodes[n]? with
    | some node => decide (j < node.outputs.length)
    | none => false

/-- The socket map has one entry per socket of the graph, and every builder
socket in it is a socket of the network under construction. -/
def VTreeMFNetworkBuilder.map_valid (b : VTreeMFNetworkBuilder) : Prop :=
  b.m_socket_map.length = b.m_vtree.socket_count ∧
    ∀ entry ∈ b.m_socket_map, ∀ socket ∈ entry, b.m_builder.has_socket socket = true

instance (b : VTreeMFNetworkBuilder) : Decidable b.map_valid := by
  unfold VTreeMFNetworkBuilder.map_valid
  infer_instance

namespace Example

/-- The builder that the constructor and the three phases leave for
`mixed_tree`: the three nodes of the graph, the converter (node 3) in front of
the second input of the addition, and the constants (nodes 4 and 5) for the
unlinked input and for the input with two links. -/
def mixed_builder : VTreeMFNetworkBuilder :=
  { m_vtree := mixed_tree,
    m_socket_map := [some (.output 0 0), some (.output 0 1), some (.input 1 0),
      some (.input 1 1), some (.output 1 0), some (.input 2 0), some (.input 2 1),
      some (.input 2 2), none],
    m_type_by_vsocket := [.single .float, .single .int32, .single .float, .single .float,
      .single .float, .single .float, .single .float, .single .float, .none],
    m_builder :=
      { nodes :=
          [{ kind := .placeholder, inputs := [],
             outputs := [{ type := .single .float }, { type := .single .int32 }] },
           { kind := .function (MultiFunction_AddFloats bodies) [0, 1] [2],
             inputs := [{ type := .single .float, origin := some (0, 0) },
               { type := .single .float, origin := some (3, 0) }],
             outputs := [{ type := .single .float }] },
           { kind := .placeholder,
             inputs := [{ type := .single .float, origin := some (1, 0) },
               { type := .single .float, origin := some (4, 0) },
               { type := .single .float, origin := some (5, 0) }],
             outputs := [] },
           { kind := .function (MultiFunction_Convert bodies .int32 .float) [0] [1],
             inputs := [{ type := .single .int32, origin := some (0, 1) }],
             outputs := [{ type := .single .float }] },
           { kind := .function (MultiFunction_ConstantValue bodies .float 5) [] [0],
             inputs := [], outputs := [{ type := .single .float }] },
           { kind := .function (MultiFunction_ConstantValue bodies .float 0) [] [0],
             inputs := [], outputs := [{ type := .single .float }] }] } }

end Example

/-- Number of nodes of the graph with a data socket: the number of builder
nodes after `insert_nodes`. -/
def VirtualNodeTree.data_node_count (vtree : VirtualNodeTree) : Nat :=
  (vtree.nodes.filter VirtualNode.has_data).length

/-- The network `b` has the nodes of `a`, with the same kinds, outputs and
input types, and with every link of `a`; it may have more nodes and more links. -/
structure NetGrows (a b : MFNetwork) : Prop where
  nodes : ∀ (n : Nat) node, a.nodes[n]? = some node →
    ∃ node1, b.nodes[n]? = some node1 ∧ node1.kind = node.kind ∧
      node1.outputs = node.outputs ∧ node1.inputs.length = node.inputs.length ∧
      ∀ (k : Nat) s, node.inputs[k]? = some s →
        ∃ s1, node1.inputs[k]? = some s1 ∧ s1.type = s.type ∧
          (s.origin ≠ none → s1.origin = s.origin)

/-- The builder `b` comes from `a` by adding nodes and links: same graph, same
socket map, same types. -/
structure Grows (a b : VTreeMFNetworkBuilder) : Prop where
  tree : b.m_vtree = a.m_vtree
  map : b.m_socket_map = a.m_socket_map
  types : b.m_type_by_vsocket = a.m_type_by_vsocket
  net : NetGrows a.m_builder b.m_builder

/-- The state of the socket map after `insert_nodes`: every data socket of the
graph is mapped to a socket of its direction and type on one of the first
`data_node_count` nodes, different data inputs to different sockets, and every
input of these nodes is the socket of a data input. -/
structure Mapped (vtree : VirtualNodeTree) (b : VTreeMFNetworkBuilder) : Prop where
  ok : BuilderOk vtree b
  count : vtree.data_node_count ≤ b.m_builder.nodes.length
  inputs : ∀ v ∈ vtree.input_sockets, v.is_data = true →
    ∃ k s, b.lookup_input_socket v = .ok k ∧ k.1 < vtree.data_node_count ∧
      b.m_builder.input k = .ok s ∧ s.type = get_type_by_socket v
  outputs : ∀ v ∈ vtree.output_sockets, v.is_data = true →
    ∃ k s, b.lookup_output_socket v = .ok k ∧ k.1 < vtree.data_node_count ∧
      b.m_builder.output k = .ok s ∧ s.type = get_type_by_socket v
  inj : ∀ v ∈ vtree.input_sockets, ∀ w ∈ vtree.input_sockets, v.is_data = true →
    w.is_data = true → ∀ k, b.lookup_input_socket v = .ok k →
    b.lookup_input_socket w = .ok k → v = w
  covered : ∀ k s, k.1 < vtree.data_node_count → b.m_builder.input k = .ok s →
    ∃ v ∈ vtree.input_sockets, v.is_data = true ∧ b.lookup_input_socket v = .ok k

/-- The state of the links during link insertion and defaulting: the socket
of a data input `v` is linked exactly when `P v`, and every input of a node
added after `insert_nodes` is linked. -/
structure LinkState (vtree : VirtualNodeTree) (P : VirtualSocket → Prop)
    (b : VTreeMFNetworkBuilder) : Prop where
  mapped : Mapped vtree b
  linked : ∀ v ∈ vtree.input_sockets, v.is_data = true → ∀ k s,
    b.lookup_input_socket v = .ok k → b.m_builder.input k = .ok s →
    (s.origin ≠ none ↔ P v)
  added : ∀ k s, vtree.data_node_count ≤ k.1 → b.m_builder.input k = .ok s →
    s.origin ≠ none

/-- The converter node that link insertion puts in front of an input, with
its one input linked from `source`. -/
def converter_node (bodies : FunctionBodies) (from_type to_type : CPPType)
    (source : OutputRef) : MFNode :=
  { kind := .function (MultiFunction_Convert bodies from_type to_type) [0] [1],
    inputs := [{ type := .single from_type, origin := some source }],
    outputs := [{ type := .single to_type }] }

/-- The node that a default-value inserter adds: the function has no inputs
and one output. -/
def default_node (function : MultiFunction) (type : MFDataType) : MFNode :=
  { kind := .function function [] [0], inputs := [], outputs := [{ type := type }] }

/-- The function of the node that the default-value inserter of a data socket
adds: the constant function of the value of the socket for a Single type, the
empty list for a Vector type. -/
def default_function (bodies : FunctionBodies) (vsocket : VirtualSocket) : MultiFunction :=
  match get_type_by_socket vsocket with
  | .single type => MultiFunction_ConstantValue bodies type vsocket.value
  | .vector type => MultiFunction_EmptyList bodies type
  | .none => MultiFunction_EmptyList bodies .float

namespace Example

/-- The graph `c = a + b` in which `a` comes from the input node (socket 0
into socket 1) and `b` (socket 2) is not linked and has the value 5; the sum
(socket 3) goes to the output node (socket 4). -/
def default_tree : VirtualNodeTree :=
  { nodes :=
      [{ idname := "fn_FunctionInputNode", inputs := [],
         outputs := [⟨0, "fn_FloatSocket", false, [1], 0⟩], active_type := "" },
       { idname := "fn_FloatMathNode",
         inputs := [⟨1, "fn_FloatSocket", true, [0], 0⟩, ⟨2, "fn_FloatSocket", true, [], 5⟩],
         outputs := [⟨3, "fn_FloatSocket", false, [4], 0⟩],
         active_type := "" },
       { idname := "fn_FunctionOutputNode",
         inputs := [⟨4, "fn_FloatSocket", true, [3], 0⟩], outputs := [],
         active_type := "" }] }

end Example

/-- The builder `b` has the graph, the socket map and the array of types of
`a`: the two differ in the network under construction only. -/
def SameTables (a b : VTreeMFNetworkBuilder) : Prop :=
  b.m_vtree = a.m_vtree ∧ b.m_socket_map = a.m_socket_map ∧
    b.m_type_by_vsocket = a.m_type_by_vsocket

/-- The socket map when the loop of `insert_nodes` has gone through the nodes
`pre`, whatever the sockets of the nodes of registered kinds are: every data
socket of these nodes is mapped to a builder socket of its direction, and no
socket of another node is mapped. -/
structure SocketMapInv (vtree : VirtualNodeTree) (pre : List VirtualNode)
    (b : VTreeMFNetworkBuilder) : Prop where
  ok : BuilderOk vtree b
  inputs : ∀ vnode ∈ pre, ∀ v ∈ vnode.inputs, v.is_data = true →
    ∃ n k, b.m_socket_map[v.id]? = some (some (.input n k))
  outputs : ∀ vnode ∈ pre, ∀ v ∈ vnode.outputs, v.is_data = true →
    ∃ n k, b.m_socket_map[v.id]? = some (some (.output n k))
  unmapped : ∀ v ∈ vtree.sockets, v ∉ pre.flatMap VirtualNode.sockets →
    b.m_socket_map[v.id]? = some none

namespace Example

/-- The builder that the constructor leaves for `mixed_tree`: the resolved
types, no socket mapped, no node. -/
def mixed_builder_created : VTreeMFNetworkBuilder :=
  { m_vtree := mixed_tree,
    m_socket_map := [none, none, none, none, none, none, none, none, none],
    m_type_by_vsocket := [.single .float, .single .int32, .single .float, .single .float,
      .single .float, .single .float, .single .float, .single .float, .none],
    m_builder := { nodes := [] } }

/-- The builder that `insert_nodes` leaves for `mixed_tree`: one builder node
per node of the graph, the eight data sockets mapped, no link. -/
def mixed_builder_nodes : VTreeMFNetworkBuilder :=
  { m_vtree := mixed_tree,
    m_socket_map := [some (.output 0 0), some (.output 0 1), some (.input 1 0),
      some (.input 1 1), some (.output 1 0), some (.input 2 0), some (.input 2 1),
      some (.input 2 2), none],
    m_type_by_vsocket := [.single .float, .single .int32, .single .float, .single .float,
      .single .float, .single .float, .single .float, .single .float, .none],
    m_builder :=
      { nodes :=
          [{ kind := .placeholder, inputs := [],
             outputs := [{ type := .single .float }, { type := .single .int32 }] },
           { kind := .function (MultiFunction_AddFloats bodies) [0, 1] [2],
             inputs := [{ type := .single .float, origin := none },
               { type := .single .float, origin := none }],
             outputs := [{ type := .single .float }] },
           { kind := .placeholder,
             inputs := [{ type := .single .float, origin := none },
               { type := .single .float, origin := none },
               { type := .single .float, origin := none }],
             outputs := [] }] } }

end Example

/-- Every buffer of `before` is there in `after`, with the number of lanes it
had and, at every lane outside `lanes`, the content it had. -/
def lanes_kept {α : Type} (lanes : List Nat) (before after : List (List α)) : Prop :=
  ∀ (a : Nat) (d : List α), before[a]? = some d →
    ∃ d1, after[a]? = some d1 ∧ d1.length = d.length ∧ ∀ (j : Nat), j ∉ lanes → d1[j]? = d[j]?

/-! ## The entry point: `MOD_functiondeform_do` -/

/-- Modelled from the spec: `FunctionDeformModifierData` (declared in
`DNA_modifier_types.h`).  The function tree is given as the graph description
that `add_all_of_tree` and `freeze_and_index` make of it, `none` for `nullptr`;
`control1` and `control2` are the two control values of the modifier. -/
structure FunctionDeformModifierData where
  function_tree : Option VirtualNodeTree
  control1 : Val
  control2 : Val

/-- Modelled from the spec: `nodes_with_idname`, the nodes of the graph with
the kind identifier given, in their order. -/
def VirtualNodeTree.nodes_with_idname (vtree : VirtualNodeTree) (idname : String) :
    List VirtualNode :=
  vtree.nodes.filter (fun vnode => vnode.idname == idname)

/-- Modelled from the spec: `BLI_assert(condition)`.  In a build with
assertions a failed assertion ends the run; in a build without assertions the
macro expands to nothing.  `assertions` says which build it is. -/
def BLI_assert (assertions : Bool) (condition : Bool) : Except EvalError Unit :=
  if assertions && !condition then .error .assert_false else .ok ()

/-- `MFSocket::as_output`: the socket must be an output socket. -/
def MFSocket.as_output : MFSocket → Except EvalError OutputRef
  | .output n j => .ok (n, j)
  | .input _ _ => .error .assert_false

/-- `MFSocket::as_input`: the socket must be an input socket. -/
def MFSocket.as_input : MFSocket → Except EvalError InputRef
  | .input n i => .ok (n, i)
  | .output _ _ => .error .assert_false

/-- The statements of `MOD_functiondeform_do` from the lookup of the input and
output node to the third build phase: the two nodes, and the builder as the
phases leave it.  A phase that returns false is followed by `BLI_assert(false)`
and by nothing else: there is no `return` in the branch. -/
def build_phases (assertions : Bool) (bodies : FunctionBodies) (vtree : VirtualNodeTree) :
    Except EvalError (VirtualNode × VirtualNode × VTreeMFNetworkBuilder) := do
  let input_vnode ← index_list (vtree.nodes_with_idname "fn_FunctionInputNode") 0
  let output_vnode ← index_list (vtree.nodes_with_idname "fn_FunctionOutputNode") 0
  let builder ← VTreeMFNetworkBuilder.create vtree
  let (nodes_inserted, builder) ← insert_nodes bodies builder
  let _ ← if !nodes_inserted then BLI_assert assertions false else .ok ()
  let (links_inserted, builder) ← insert_links bodies builder
  let _ ← if !links_inserted then BLI_assert assertions false else .ok ()
  let (unlinked_inserted, builder) ← insert_unlinked_inputs bodies builder
  let _ ← if !unlinked_inserted then BLI_assert assertions false else .ok ()
  .ok (input_vnode, output_vnode, builder)

/-- The statements of `MOD_functiondeform_do` that declare the boundary of the
evaluator: the outputs 0, 1 and 2 of the input node, the input 0 of the output
node.  The constructor of `MultiFunction_FunctionTree` derives the signature. -/
def function_boundary (network : VTreeMFNetwork) (input_vnode output_vnode : VirtualNode) :
    Except EvalError MultiFunction_FunctionTree := do
  let output0 ← index_list input_vnode.outputs 0
  let socket0 ← network.lookup_socket output0
  let input0 ← socket0.as_output
  let output1 ← index_list input_vnode.outputs 1
  let socket1 ← network.lookup_socket output1
  let input1 ← socket1.as_output
  let output2 ← index_list input_vnode.outputs 2
  let socket2 ← network.lookup_socket output2
  let input2 ← socket2.as_output
  let input ← index_list output_vnode.inputs 0
  let socket ← network.lookup_socket input
  let output ← socket.as_input
  let function : MultiFunction_FunctionTree :=
    { m_inputs := [input0, input1, input2], m_outputs := [output] }
  let _ ← function.signature network.m_network
  .ok function

/-- The buffers behind the parameters that `MOD_functiondeform_do` builds for
`numVerts` vertices: the vertex positions, the two control values as seen at
every lane, and the temporary vector for the results.  The content of the
temporary vector before the call is indeterminate, as is the content of every
array allocated during the call: `indeterminate` says what they hold. -/
def deform_memory (fdmd : FunctionDeformModifierData) (vertexCos : List Val)
    (indeterminate : Nat → Nat → Val) : Memory :=
  { arrays := [vertexCos, List.replicate vertexCos.length fdmd.control1,
      List.replicate vertexCos.length fdmd.control2,
      (List.range vertexCos.length).map (indeterminate 3)],
    vector_arrays := [],
    indeterminate := indeterminate }

/-- The parameters that `MOD_functiondeform_do` builds: three read-only single
inputs and one single output.  The checks of `MFParamsBuilder` against the
signature have no counterpart here. -/
def deform_params : List MFParam :=
  [.readonly_single_input 0, .readonly_single_input 1, .readonly_single_input 2,
    .single_output 3]

/-- What a run of `MOD_functiondeform_do` has done when it ends: the network
that `builder.build()` returned, if the run got there; whether `function.call`
was entered; the vertex positions as the run leaves them; and the failure that
ended the run, if any.  The first two fields are ghost. -/
structure DeformRun where
  network : Option VTreeMFNetwork
  called : Bool
  vertexCos : List Val
  error : Option EvalError

/-- `MOD_functiondeform_do`.  `vertexCos` holds `numVerts` positions; `fuel` is
the step budget of the evaluation loop; `assertions` says whether the three
`BLI_assert(false)` after the build phases are compiled in; `indeterminate`
says what memory that is allocated and not initialised holds. -/
def MOD_functiondeform_do (assertions : Bool) (bodies : FunctionBodies) (fuel : Nat)
    (fdmd : FunctionDeformModifierData) (vertexCos : List Val)
    (indeterminate : Nat → Nat → Val) : DeformRun :=
  let run : DeformRun := { network := none, called := false, vertexCos := vertexCos, error := none }
  match fdmd.function_tree with
  | none => run
  | some vtree =>
    match build_phases assertions bodies vtree with
    | .error e => { run with error := some e }
    | .ok (input_vnode, output_vnode, builder) =>
      match builder.build with
      | .error e => { run with error := some e }
      | .ok vtree_network =>
        let run := { run with network := some vtree_network }
        match function_boundary vtree_network input_vnode output_vnode with
        | .error e => { run with error := some e }
        | .ok function =>
          let run := { run with called := true }
          match call vtree_network.m_network function fuel (List.range vertexCos.length)
              deform_params (deform_memory fdmd vertexCos indeterminate) with
          | .error e => { run with error := some e }
          | .ok s =>
            match index_list s.memory.arrays 3 with
            | .error e => { run with error := some e }
            | .ok output_vectors => { run with vertexCos := output_vectors }

/-! ## Dependencies between function nodes, and runs of the loop -/

/-- Function node `a` depends on function node `b`: an input socket of `a` is
linked from an output socket of `b`. -/
def Dep (net : MFNetwork) (a b : Nat) : Prop :=
  net.is_function a = true ∧ net.is_function b = true ∧
    ∃ (i : Nat) (sock : MFInputSocket) (o : OutputRef),
      net.input (a, i) = .ok sock ∧ sock.origin = some o ∧ o.1 = b

/-- The function node lies on a dependency cycle. -/
def OnCycle (net : MFNetwork) (n : Nat) : Prop :=
  Relation.TransGen (Dep net) n n

/-- A socket of a dependency cycle: an output socket of a function node on a
cycle, or an input socket linked from such an output socket. -/
def cycle_socket (net : MFNetwork) : MFSocket → Prop
  | .output n _ => OnCycle net n
  | .input n i => ∃ sock o, net.input (n, i) = .ok sock ∧ sock.origin = some o ∧
      OnCycle net (o : OutputRef).1

/-- How an entry `x` of the work stack stands to an entry `y` below it that is
an output socket: the node of `x` is the node of `y` or one that the node of
`y` depends on, directly or through other function nodes. -/
def above (net : MFNetwork) (x y : MFSocket) : Prop :=
  match y with
  | .input _ _ => True
  | .output m _ =>
    match x with
    | .input n _ => net.is_function n = true ∧ Relation.ReflTransGen (Dep net) m n
    | .output n _ => net.is_function n = true → Relation.TransGen (Dep net) m n

/-- Invariant of the work stack and the storage between two iterations, for
every built network, with or without dependency cycles: the entries of the
stack are reachable from the requested outputs and follow the dependencies
from the bottom to the top; no node of an output socket on the stack was
invoked; the maps hold exactly what was installed; no node on a cycle was
invoked; the output sockets below the top belong to function nodes. -/
structure RunInv (net : MFNetwork) (tree : MultiFunction_FunctionTree)
    (stack : List MFSocket) (s : EvalState) : Prop where
  reach : ∀ x ∈ stack, Reach net tree x
  chain : stack.Pairwise (above net)
  fresh : ∀ n j, MFSocket.output n j ∈ stack → n ∉ s.trace ∧ (n, j) ∉ tree.m_inputs
  trace_nodup : s.trace.Nodup
  trace_function : ∀ n ∈ s.trace, net.is_function n = true
  dom : DomInv net tree s.storage (Installed net tree s.trace)
  bounded : StorageBounded s.storage s.memory
  outputs_done : ∀ socket ∈ tree.m_outputs,
    MFSocket.input socket.1 socket.2 ∈ stack ∨ Installed net tree s.trace socket
  no_cycle : ∀ n ∈ s.trace, ¬ OnCycle net n
  inputs_installed : ∀ n ∈ s.trace, ∀ (i : Nat) sock, net.input (n, i) = .ok sock →
    Installed net tree s.trace (n, i)
  below_top : ∀ m j, MFSocket.output m j ∈ stack.tail → net.is_function m = true

/-- What the four branches of an iteration do to the stack and the state: an
input socket that is computed is popped; for one that is not, its origin is
pushed; for an output socket whose node has inputs that are not computed,
these are pushed; otherwise the node is invoked and the socket popped. -/
def StepKind (net : MFNetwork) (x : MFSocket) (rest : List MFSocket)
    (s : EvalState) (stack1 : List MFSocket) (s1 : EvalState) : Prop :=
  (∃ n i sock, x = .input n i ∧ net.input (n, i) = .ok sock ∧
    s.storage.input_is_computed sock.type (n, i) = .ok true ∧ stack1 = rest ∧ s1 = s) ∨
  (∃ n i sock o, x = .input n i ∧ net.input (n, i) = .ok sock ∧
    s.storage.input_is_computed sock.type (n, i) = .ok false ∧ sock.origin = some o ∧
    stack1 = .output (o : OutputRef).1 o.2 :: x :: rest ∧ s1 = s) ∨
  (∃ n j pushed, x = .output n j ∧ net.is_function n = true ∧ pushed ≠ [] ∧
    stack1 = pushed ++ x :: rest ∧ s1 = s ∧
    ∀ y ∈ pushed, ∃ i sock, y = .input n i ∧ net.input (n, i) = .ok sock ∧
      s.storage.input_is_computed sock.type (n, i) = .ok false) ∨
  (∃ n j, x = .output n j ∧ net.is_function n = true ∧ stack1 = rest ∧
    s1.trace = n :: s.trace)

/-- The loop after `k` iterations, from the stack and the state given; an
iteration on the empty stack leaves everything as it is. -/
def run_steps (net : MFNetwork) (tree : MultiFunction_FunctionTree) (mask_indices : List Nat) :
    Nat → List MFSocket → EvalState → Except EvalError (List MFSocket × EvalState)
  | 0, stack, s => .ok (stack, s)
  | k + 1, stack, s => do
    let (stack, s) ← run_steps net tree mask_indices k stack s
    step net tree mask_indices stack s

/-- Whether an entry of the stack is an input socket that is computed. -/
def computed_entry (net : MFNetwork) (s : EvalState) : MFSocket → Bool
  | .input n i =>
    match net.input (n, i) with
    | .ok sock =>
      match s.storage.input_is_computed sock.type (n, i) with
      | .ok computed => computed
      | .error _ => false
    | .error _ => false
  | .output _ _ => false

/-- Number of output sockets on the stack. -/
def output_count (stack : List MFSocket) : Nat :=
  (stack.filter MFSocket.is_output).length

/-- Number of entries of the stack that are computed input sockets. -/
def computed_count (net : MFNetwork) (s : EvalState) (stack : List MFSocket) : Nat :=
  (stack.filter (computed_entry net s)).length

/-- One when the top of the stack is an output socket, zero otherwise. -/
def top_is_output : List MFSocket → Nat
  | .output _ _ :: _ => 1
  | _ => 0

/-- The loop goes on for ever from the stack and the state given: after any
number of iterations the stack is not empty, and the invariant holds. -/
def RunsForever (net : MFNetwork) (tree : MultiFunction_FunctionTree) (mask_indices : List Nat)
    (stack0 : List MFSocket) (s0 : EvalState) : Prop :=
  ∀ k, ∃ stack s, run_steps net tree mask_indices k stack0 s0 = .ok (stack, s) ∧
    stack ≠ [] ∧ RunInv net tree stack s

/-- The node of a socket. -/
def MFSocket.node_id : MFSocket → Nat
  | .input n _ => n
  | .output n _ => n

namespace Example

/-- A boundary of `add_network` without inputs: neither output of the input
placeholder is a boundary input. -/
def undeclared_tree : MultiFunction_FunctionTree :=
  { m_inputs := [], m_outputs := [(2, 0)] }

/-- The caller's parameters for `undeclared_tree`. -/
def undeclared_params : List MFParam :=
  [.single_output 2]

/-- A graph that doubles the vertex positions: the input node (outputs 0, 1
and 2: the positions and the two control values), a vector addition of the
positions with themselves (inputs 3 and 4, output 5) and the output node
(input 6). -/
def doubling_tree : VirtualNodeTree :=
  { nodes :=
      [{ idname := "fn_FunctionInputNode", inputs := [],
         outputs := [⟨0, "fn_VectorSocket", false, [3, 4], 0⟩,
           ⟨1, "fn_FloatSocket", false, [], 0⟩, ⟨2, "fn_IntegerSocket", false, [], 0⟩],
         active_type := "" },
       { idname := "fn_VectorMathNode",
         inputs := [⟨3, "fn_VectorSocket", true, [0], 0⟩, ⟨4, "fn_VectorSocket", true, [0], 0⟩],
         outputs := [⟨5, "fn_VectorSocket", false, [6], 0⟩],
         active_type := "" },
       { idname := "fn_FunctionOutputNode",
         inputs := [⟨6, "fn_VectorSocket", true, [5], 0⟩], outputs := [],
         active_type := "" }] }

/-- A graph with a node of a kind that has no inserter: the node takes the
positions (input 3) and feeds the output node (output 4 into input 5). -/
def unregistered_tree : VirtualNodeTree :=
  { nodes :=
      [{ idname := "fn_FunctionInputNode", inputs := [],
         outputs := [⟨0, "fn_VectorSocket", false, [3], 0⟩,
           ⟨1, "fn_FloatSocket", false, [], 0⟩, ⟨2, "fn_IntegerSocket", false, [], 0⟩],
         active_type := "" },
       { idname := "fn_NoiseNode",
         inputs := [⟨3, "fn_VectorSocket", true, [0], 0⟩],
         outputs := [⟨4, "fn_VectorSocket", false, [5], 0⟩],
         active_type := "" },
       { idname := "fn_FunctionOutputNode",
         inputs := [⟨5, "fn_VectorSocket", true, [4], 0⟩], outputs := [],
         active_type := "" }] }

end Example

namespace Example

/-- The network that the build makes of `unregistered_tree`: three placeholder
nodes, the second one for the node of the unregistered kind. -/
def unregistered_network : MFNetwork :=
  { nodes := [
      { kind := .placeholder, inputs := [],
        outputs := [⟨.single .float3⟩, ⟨.single .float⟩, ⟨.single .int32⟩] },
      { kind := .placeholder, inputs := [⟨.single .float3, some (0, 0)⟩],
        outputs := [⟨.single .float3⟩] },
      { kind := .placeholder, inputs := [⟨.single .float3, some (1, 0)⟩], outputs := [] }] }

/-- The boundary that `MOD_functiondeform_do` declares on it: the three
outputs of the input node, the input of the output node. -/
def unregistered_boundary : MultiFunction_FunctionTree :=
  { m_inputs := [(0, 0), (0, 1), (0, 2)], m_outputs := [(2, 0)] }

end Example

namespace Example

/-- A network with a dependency cycle: the additions of node 1 and node 2 feed
each other, next to the boundary input `a`; the requested output is the sum of
node 1. -/
def cycle_network : MFNetwork :=
  { nodes := [
      { kind := .placeholder, inputs := [], outputs := [⟨.single .float⟩] },
      { kind := .function AddFloats [0, 1] [2],
        inputs := [⟨.single .float, some (0, 0)⟩, ⟨.single .float, some (2, 0)⟩],
        outputs := [⟨.single .float⟩] },
      { kind := .function AddFloats [0, 1] [2],
        inputs := [⟨.single .float, some (1, 0)⟩, ⟨.single .float, some (0, 0)⟩],
        outputs := [⟨.single .float⟩] },
      { kind := .placeholder, inputs := [⟨.single .float, some (1, 0)⟩], outputs := [] }] }

/-- Boundary of `cycle_network`: input `a`, output the sum of node 1. -/
def cycle_tree : MultiFunction_FunctionTree :=
  { m_inputs := [(0, 0)], m_outputs := [(3, 0)] }

/-- The caller's buffers for `cycle_tree`. -/
def cycle_memory : Memory :=
  { arrays := [[1, 2], [0, 0]], vector_arrays := [], indeterminate := fun _ _ => 0 }

/-- The caller's parameters for `cycle_tree`. -/
def cycle_params : List MFParam :=
  [.readonly_single_input 0, .single_output 1]

end Example

/-! ## Two runs on memories that differ outside the buffers in use -/

/-- Two lists with as many lanes that hold the same at the lanes given. -/
def lanes_agree {α : Type} (lanes : List Nat) (x y : List α) : Prop :=
  x.length = y.length ∧ ∀ i ∈ lanes, x[i]? = y[i]?

/-- Both buffers are missing, or both are there with as many lanes. -/
def same_len {α : Type} (o1 o2 : Option (List α)) : Prop :=
  o1.map List.length = o2.map List.length

/-- Both buffers are missing, or both are there, with as many lanes and the
same content at the lanes given. -/
def agree_at {α : Type} (lanes : List Nat) (o1 o2 : Option (List α)) : Prop :=
  same_len o1 o2 ∧ ∀ x y, o1 = some x → o2 = some y → ∀ i ∈ lanes, x[i]? = y[i]?

/-- The memories of two runs of a call that started on memories with `n`
arrays and `nv` vector arrays each.  They have as many buffers; a caller's
array at an address that `P` singles out holds the same in both, and so for
the vector arrays and `PV`; a buffer allocated during the call has as many
lanes in both and, unless it is an array at an address of `pend` (allocated
and not written yet), holds the same at the lanes given. -/
structure MemSim (lanes : List Nat) (n nv : Nat) (P PV pend : Nat → Prop)
    (m1 m2 : Memory) : Prop where
  length : m1.arrays.length = m2.arrays.length
  vlength : m1.vector_arrays.length = m2.vector_arrays.length
  le : n ≤ m1.arrays.length
  vle : nv ≤ m1.vector_arrays.length
  caller : ∀ a, a < n → P a → m1.arrays[a]? = m2.arrays[a]?
  vcaller : ∀ a, a < nv → PV a → m1.vector_arrays[a]? = m2.vector_arrays[a]?
  shape : ∀ a, n ≤ a → same_len m1.arrays[a]? m2.arrays[a]?
  fresh : ∀ a, n ≤ a → ¬ pend a → agree_at lanes m1.arrays[a]? m2.arrays[a]?
  vfresh : ∀ a, nv ≤ a → agree_at lanes m1.vector_arrays[a]? m2.vector_arrays[a]?

namespace Example

end Example

/-! # Properties -/

/-! ## Basic facts about the error monad -/

@[simp] theorem bind_ok {α β : Type} (a : α) (f : α → Except EvalError β) :
    (Except.ok a >>= f) = f a := rfl

@[simp] theorem bind_error {α β : Type} (e : EvalError) (f : α → Except EvalError β) :
    ((Except.error e : Except EvalError α) >>= f) = Except.error e := rfl

theorem bind_eq_ok {α β : Type} {x : Except EvalError α} {f : α → Except EvalError β} {b : β}
    (h : (x >>= f) = Except.ok b) : ∃ a, x = Except.ok a ∧ f a = Except.ok b := by
  cases x with
  | error e => simp at h
  | ok a => exact ⟨a, rfl, h⟩

theorem index_list_eq_ok {α : Type} {xs : List α} {i : Nat} {x : α} :
    index_list xs i = .ok x ↔ xs[i]? = some x := by
  unfold index_list
  cases h : xs[i]? <;> simp

theorem index_list_of_lt {α : Type} {xs : List α} {i : Nat} (h : i < xs.length) :
    index_list xs i = .ok xs[i] := by
  rw [index_list_eq_ok]; exact List.getElem?_eq_getElem h

/-! ## Signature synthesis -/

/-- A node that `is_placeholder` says yes to is found by `node` and is a
placeholder node. -/
theorem node_of_is_placeholder {net : MFNetwork} {n : Nat}
    (h : net.is_placeholder n = true) :
    ∃ node, net.node n = .ok node ∧ node.kind = .placeholder := by
  unfold MFNetwork.is_placeholder at h
  unfold MFNetwork.node
  cases hn : net.nodes[n]? with
  | none => simp [hn] at h
  | some node =>
    simp only [hn] at h
    refine ⟨node, rfl, ?_⟩
    cases hk : node.kind with
    | placeholder => rfl
    | function f ipi opi => simp [hk] at h

theorem signature_of_inputs_spec (net : MFNetwork) (ins : List OutputRef)
    (h : ∀ o ∈ ins, net.is_placeholder o.1 = true ∧
      ∃ s, net.output o = .ok s ∧ s.type ≠ .none) :
    ∃ sig, signature_of_inputs net ins = .ok sig ∧ sig.length = ins.length ∧
      ∀ (i : Nat) o s, ins[i]? = some o → net.output o = .ok s →
        sig[i]? = some (input_param_type s.type) := by
  induction ins with
  | nil => exact ⟨[], rfl, rfl, by simp⟩
  | cons o rest ih =>
    obtain ⟨sig, hsig, hlen, hget⟩ := ih (fun o ho => h o (List.mem_cons_of_mem _ ho))
    obtain ⟨hp, s, hs, hne⟩ := h o (List.mem_cons_self _ _)
    obtain ⟨node, hnode, hkind⟩ := node_of_is_placeholder hp
    cases ht : s.type with
    | none => exact absurd ht hne
    | single t =>
      refine ⟨.readonly_single_input t :: sig, ?_, by simp [hlen], ?_⟩
      · simp [signature_of_inputs, hnode, hkind, hs, ht, hsig]
      · intro i o' s' hi ho'
        cases i with
        | zero =>
          simp at hi; subst hi
          rw [hs] at ho'; cases ho'
          simp [ht, input_param_type]
        | succ i => simpa using hget i o' s' (by simpa using hi) ho'
    | vector t =>
      refine ⟨.readonly_vector_input t :: sig, ?_, by simp [hlen], ?_⟩
      · simp [signature_of_inputs, hnode, hkind, hs, ht, hsig]
      · intro i o' s' hi ho'
        cases i with
        | zero =>
          simp at hi; subst hi
          rw [hs] at ho'; cases ho'
          simp [ht, input_param_type]
        | succ i => simpa using hget i o' s' (by simpa using hi) ho'

theorem signature_of_outputs_spec (net : MFNetwork) (outs : List InputRef)
    (h : ∀ o ∈ outs, net.is_placeholder o.1 = true ∧
      ∃ s, net.input o = .ok s ∧ s.type ≠ .none) :
    ∃ sig, signature_of_outputs net outs = .ok sig ∧ sig.length = outs.length ∧
      ∀ (i : Nat) o s, outs[i]? = some o → net.input o = .ok s →
        sig[i]? = some (output_param_type s.type) := by
  induction outs with
  | nil => exact ⟨[], rfl, rfl, by simp⟩
  | cons o rest ih =>
    obtain ⟨sig, hsig, hlen, hget⟩ := ih (fun o ho => h o (List.mem_cons_of_mem _ ho))
    obtain ⟨hp, s, hs, hne⟩ := h o (List.mem_cons_self _ _)
    obtain ⟨node, hnode, hkind⟩ := node_of_is_placeholder hp
    cases ht : s.type with
    | none => exact absurd ht hne
    | single t =>
      refine ⟨.single_output t :: sig, ?_, by simp [hlen], ?_⟩
      · simp [signature_of_outputs, hnode, hkind, hs, ht, hsig]
      · intro i o' s' hi ho'
        cases i with
        | zero =>
          simp at hi; subst hi
          rw [hs] at ho'; cases ho'
          simp [ht, output_param_type]
        | succ i => simpa using hget i o' s' (by simpa using hi) ho'
    | vector t =>
      refine ⟨.vector_output t :: sig, ?_, by simp [hlen], ?_⟩
      · simp [signature_of_outputs, hnode, hkind, hs, ht, hsig]
      · intro i o' s' hi ho'
        cases i with
        | zero =>
          simp at hi; subst hi
          rw [hs] at ho'; cases ho'
          simp [ht, output_param_type]
        | succ i => simpa using hget i o' s' (by simpa using hi) ho'

theorem readonly_single_input_eq_ok {params : List MFParam} {i a : Nat} :
    readonly_single_input params i = .ok a ↔ params[i]? = some (.readonly_single_input a) := by
  unfold readonly_single_input
  split <;> simp_all

theorem readonly_vector_input_eq_ok {params : List MFParam} {i a : Nat} :
    readonly_vector_input params i = .ok a ↔ params[i]? = some (.readonly_vector_input a) := by
  unfold readonly_vector_input
  split <;> simp_all

theorem single_output_eq_ok {params : List MFParam} {i a : Nat} :
    single_output params i = .ok a ↔ params[i]? = some (.single_output a) := by
  unfold single_output
  split <;> simp_all

theorem vector_output_eq_ok {params : List MFParam} {i a : Nat} :
    vector_output params i = .ok a ↔ params[i]? = some (.vector_output a) := by
  unfold vector_output
  split <;> simp_all

/-- Seed reads boundary input `i0 + k` through the accessor of its kind at that position. -/
theorem copy_inputs_from_reads (net : MFNetwork) (params : List MFParam) :
    ∀ (ins : List OutputRef) (i0 : Nat) (s s1 : EvalState),
      copy_inputs_from net params i0 ins s = .ok s1 →
      ∀ (k : Nat) o sock, ins[k]? = some o → net.output o = .ok sock →
        ∃ p, params[i0 + k]? = some p ∧ param_matches (input_param_type sock.type) p = true := by
  intro ins
  induction ins with
  | nil => intro i0 s s1 _ k o sock hk; simp at hk
  | cons o rest ih =>
    intro i0 s s1 h k o' sock' hk ho'
    unfold copy_inputs_from at h
    obtain ⟨sock, hsock, h⟩ := bind_eq_ok h
    cases ht : sock.type with
    | none => simp [ht] at h
    | single t =>
      simp only [ht] at h
      obtain ⟨a, ha, h⟩ := bind_eq_ok h
      obtain ⟨st, _, h⟩ := bind_eq_ok h
      cases k with
      | zero =>
        simp at hk; subst hk
        rw [hsock] at ho'; cases ho'
        exact ⟨_, readonly_single_input_eq_ok.mp ha, by simp [ht, input_param_type, param_matches]⟩
      | succ k =>
        have := ih (i0 + 1) _ s1 h k o' sock' (by simpa using hk) ho'
        simpa [Nat.add_assoc, Nat.add_comm 1 k] using this
    | vector t =>
      simp only [ht] at h
      obtain ⟨a, ha, h⟩ := bind_eq_ok h
      obtain ⟨s2, _, h⟩ := bind_eq_ok h
      cases k with
      | zero =>
        simp at hk; subst hk
        rw [hsock] at ho'; cases ho'
        exact ⟨_, readonly_vector_input_eq_ok.mp ha, by simp [ht, input_param_type, param_matches]⟩
      | succ k =>
        have := ih (i0 + 1) _ s1 h k o' sock' (by simpa using hk) ho'
        simpa [Nat.add_assoc, Nat.add_comm 1 k] using this

/-- Drain writes boundary output `k0 + k` through the accessor of its kind at
position `inputs_size + (k0 + k)`. -/
theorem copy_outputs_from_writes (net : MFNetwork) (inputs_size : Nat) (mask_indices : List Nat)
    (params : List MFParam) (st : Storage) :
    ∀ (outs : List InputRef) (k0 : Nat) (mem mem1 : Memory),
      copy_outputs_from net inputs_size mask_indices params st k0 outs mem = .ok mem1 →
      ∀ (k : Nat) o sock, outs[k]? = some o → net.input o = .ok sock →
        ∃ p, params[inputs_size + (k0 + k)]? = some p ∧
          param_matches (output_param_type sock.type) p = true := by
  intro outs
  induction outs with
  | nil => intro k0 mem mem1 _ k o sock hk; simp at hk
  | cons o rest ih =>
    intro k0 mem mem1 h k o' sock' hk ho'
    unfold copy_outputs_from at h
    simp only at h
    obtain ⟨sock, hsock, h⟩ := bind_eq_ok h
    cases ht : sock.type with
    | none => simp [ht] at h
    | single t =>
      simp only [ht] at h
      obtain ⟨v, _, h⟩ := bind_eq_ok h
      obtain ⟨a, ha, h⟩ := bind_eq_ok h
      obtain ⟨mem2, _, h⟩ := bind_eq_ok h
      cases k with
      | zero =>
        simp at hk; subst hk
        rw [hsock] at ho'; cases ho'
        exact ⟨_, single_output_eq_ok.mp ha, by simp [ht, output_param_type, param_matches]⟩
      | succ k =>
        have := ih (k0 + 1) _ mem1 h k o' sock' (by simpa using hk) ho'
        simpa [Nat.add_assoc, Nat.add_comm 1 k] using this
    | vector t =>
      simp only [ht] at h
      obtain ⟨v, _, h⟩ := bind_eq_ok h
      obtain ⟨a, ha, h⟩ := bind_eq_ok h
      obtain ⟨mem2, _, h⟩ := bind_eq_ok h
      cases k with
      | zero =>
        simp at hk; subst hk
        rw [hsock] at ho'; cases ho'
        exact ⟨_, vector_output_eq_ok.mp ha, by simp [ht, output_param_type, param_matches]⟩
      | succ k =>
        have := ih (k0 + 1) _ mem1 h k o' sock' (by simpa using hk) ho'
        simpa [Nat.add_assoc, Nat.add_comm 1 k] using this

/-- The signature the constructor builds: one entry per boundary socket, the
inputs first. -/
theorem signature_entries (net : MFNetwork) (tree : MultiFunction_FunctionTree)
    (hin : ∀ o ∈ tree.m_inputs, net.is_placeholder o.1 = true ∧
      ∃ s, net.output o = .ok s ∧ s.type ≠ .none)
    (hout : ∀ o ∈ tree.m_outputs, net.is_placeholder o.1 = true ∧
      ∃ s, net.input o = .ok s ∧ s.type ≠ .none) :
    ∃ sig, tree.signature net = .ok sig ∧
      sig.length = tree.m_inputs.length + tree.m_outputs.length ∧
      (∀ (i : Nat) o s, tree.m_inputs[i]? = some o → net.output o = .ok s →
        sig[i]? = some (input_param_type s.type)) ∧
      (∀ (k : Nat) o s, tree.m_outputs[k]? = some o → net.input o = .ok s →
        sig[tree.m_inputs.length + k]? = some (output_param_type s.type)) := by
  obtain ⟨sigI, hI, hlenI, hgetI⟩ := signature_of_inputs_spec net tree.m_inputs hin
  obtain ⟨sigO, hO, hlenO, hgetO⟩ := signature_of_outputs_spec net tree.m_outputs hout
  have hIO : ∀ (k : Nat) o s, tree.m_outputs[k]? = some o → net.input o = .ok s →
      (sigI ++ sigO)[tree.m_inputs.length + k]? = some (output_param_type s.type) := by
    intro k o s hk hs
    rw [List.getElem?_append_right (by omega)]
    have := hgetO k o s hk hs
    simpa [hlenI] using this
  have hII : ∀ (i : Nat) o s, tree.m_inputs[i]? = some o → net.output o = .ok s →
      (sigI ++ sigO)[i]? = some (input_param_type s.type) := by
    intro i o s hi hs
    have hlt : i < tree.m_inputs.length := by
      by_contra hc
      rw [List.getElem?_eq_none (by omega)] at hi
      cases hi
    rw [List.getElem?_append_left (by omega)]
    exact hgetI i o s hi hs
  refine ⟨sigI ++ sigO, ?_, by simp [hlenI, hlenO], hII, hIO⟩
  simp [MultiFunction_FunctionTree.signature, hI, hO]

/-- C10, as stated, fails on `add_network` when the output of the addition,
a Single socket of a function node, is declared as boundary input: the
assertion `socket->node().is_placeholder()` of the constructor fails and no
signature is set, though no boundary socket has the type `None`.  The same
holds for an input socket of the addition declared as boundary output. -/
theorem signature_of_function_node_socket_fails :
    (∃ s, Example.add_network.output (1, 0) = .ok s ∧ s.type = .single .float) ∧
    signature_of_inputs Example.add_network [(1, 0)] = .error .assert_false ∧
    MultiFunction_FunctionTree.signature Example.add_network
      { m_inputs := [(1, 0)], m_outputs := [(2, 0)] } = .error .assert_false ∧
    (∃ s, Example.add_network.input (1, 1) = .ok s ∧ s.type = .single .float) ∧
    signature_of_outputs Example.add_network [(1, 1)] = .error .assert_false ∧
    MultiFunction_FunctionTree.signature Example.add_network
      { m_inputs := [(0, 0), (0, 1)], m_outputs := [(1, 1)] } = .error .assert_false :=
  ⟨⟨_, rfl, rfl⟩, rfl, rfl, ⟨_, rfl, rfl⟩, rfl, rfl⟩

/-- C10, amended.  Signature synthesis: with `n` boundary inputs and `m`
boundary outputs, each a socket of a placeholder node and none of type `None`,
the constructor yields `n + m` parameters; parameter `i` is the read-only input
of the shape and base type of boundary input `i`, parameter `n + k` the output
of the shape and base type of boundary output `k`; and when seed (drain)
succeeds, the caller's parameter at position `i` (`n + k`) has exactly that
kind, because seed reads input `i` at position `i` and drain writes output `k`
at position `n + k`. -/
theorem signature_synthesis (net : MFNetwork) (tree : MultiFunction_FunctionTree)
    (hin : ∀ o ∈ tree.m_inputs, net.is_placeholder o.1 = true ∧
      ∃ s, net.output o = .ok s ∧ s.type ≠ .none)
    (hout : ∀ o ∈ tree.m_outputs, net.is_placeholder o.1 = true ∧
      ∃ s, net.input o = .ok s ∧ s.type ≠ .none) :
    ∃ sig, tree.signature net = .ok sig ∧
      sig.length = tree.m_inputs.length + tree.m_outputs.length ∧
      (∀ (i : Nat) o s, tree.m_inputs[i]? = some o → net.output o = .ok s →
        sig[i]? = some (input_param_type s.type)) ∧
      (∀ (k : Nat) o s, tree.m_outputs[k]? = some o → net.input o = .ok s →
        sig[tree.m_inputs.length + k]? = some (output_param_type s.type)) ∧
      (∀ params s0 s1, copy_inputs_to_storage net tree params s0 = .ok s1 →
        ∀ (i : Nat) pt, i < tree.m_inputs.length → sig[i]? = some pt →
          ∃ p, params[i]? = some p ∧ param_matches pt p = true) ∧
      (∀ mask_indices params s0 s1,
        copy_computed_values_to_outputs net tree mask_indices params s0 = .ok s1 →
        ∀ (k : Nat) pt, k < tree.m_outputs.length →
          sig[tree.m_inputs.length + k]? = some pt →
          ∃ p, params[tree.m_inputs.length + k]? = some p ∧ param_matches pt p = true) := by
  obtain ⟨sig, hsig, hlen, hII, hIO⟩ := signature_entries net tree hin hout
  refine ⟨sig, hsig, hlen, hII, hIO, ?_, ?_⟩
  · intro params s0 s1 h i pt hi hpt
    obtain ⟨_, s, hs, _⟩ := hin _ (List.getElem_mem hi)
    have h1 := hII i _ s (List.getElem?_eq_getElem hi) hs
    rw [h1] at hpt; cases hpt
    have := copy_inputs_from_reads net params tree.m_inputs 0 s0 s1 h i _ s
      (List.getElem?_eq_getElem hi) hs
    simpa using this
  · intro mask_indices params s0 s1 h k pt hk hpt
    obtain ⟨_, s, hs, _⟩ := hout _ (List.getElem_mem hk)
    have h1 := hIO k _ s (List.getElem?_eq_getElem hk) hs
    rw [h1] at hpt; cases hpt
    unfold copy_computed_values_to_outputs at h
    obtain ⟨mem1, h, _⟩ := bind_eq_ok h
    have := copy_outputs_from_writes net _ mask_indices params s0.storage tree.m_outputs 0
      s0.memory mem1 h k _ s (List.getElem?_eq_getElem hk) hs
    simpa using this

/-- Witness of `signature_synthesis` on the network `c = a + b`. -/
theorem signature_synthesis_witness :
    ∃ sig, Example.add_tree.signature Example.add_network = .ok sig ∧
      sig.length = Example.add_tree.m_inputs.length + Example.add_tree.m_outputs.length ∧
      (∀ (i : Nat) o s, Example.add_tree.m_inputs[i]? = some o →
        Example.add_network.output o = .ok s → sig[i]? = some (input_param_type s.type)) ∧
      (∀ (k : Nat) o s, Example.add_tree.m_outputs[k]? = some o →
        Example.add_network.input o = .ok s →
        sig[Example.add_tree.m_inputs.length + k]? = some (output_param_type s.type)) ∧
      (∀ params s0 s1,
        copy_inputs_to_storage Example.add_network Example.add_tree params s0 = .ok s1 →
        ∀ (i : Nat) pt, i < Example.add_tree.m_inputs.length → sig[i]? = some pt →
          ∃ p, params[i]? = some p ∧ param_matches pt p = true) ∧
      (∀ mask_indices params s0 s1,
        copy_computed_values_to_outputs Example.add_network Example.add_tree mask_indices
          params s0 = .ok s1 →
        ∀ (k : Nat) pt, k < Example.add_tree.m_outputs.length →
          sig[Example.add_tree.m_inputs.length + k]? = some pt →
          ∃ p, params[Example.add_tree.m_inputs.length + k]? = some p ∧
            param_matches pt p = true) :=
  signature_synthesis Example.add_network Example.add_tree
    (by
      intro o ho
      simp [Example.add_tree] at ho
      rcases ho with rfl | rfl
      · exact ⟨rfl, ⟨.single .float⟩, rfl, by simp⟩
      · exact ⟨rfl, ⟨.single .float⟩, rfl, by simp⟩)
    (by
      intro o ho
      simp [Example.add_tree] at ho
      subst ho
      exact ⟨rfl, ⟨.single .float, some (1, 0)⟩, rfl, by simp⟩)

/-! ## Empty lane sequence -/

/-- C9. Empty-lane short-circuit: with an empty lane sequence the call returns
at once: no function node is invoked (empty trace), nothing is installed in a
storage, and the memory, hence every caller output buffer, is as it was. -/
theorem call_empty_lanes (net : MFNetwork) (tree : MultiFunction_FunctionTree) (fuel : Nat)
    (params : List MFParam) (mem : Memory) :
    ∃ s, call net tree fuel [] params mem = .ok s ∧ s.trace = [] ∧ s.memory = mem ∧
      (∀ k, s.storage.m_virtual_list_for_inputs k = none) ∧
      (∀ k, s.storage.m_virtual_list_list_for_inputs k = none) ∧
      (∀ k, s.storage.m_vector_per_socket k = none) ∧
      s.storage.m_arrays = [] ∧ s.storage.m_vector_arrays = [] :=
  ⟨{ memory := mem, storage := Storage.empty, trace := [] }, rfl, rfl, rfl,
    fun _ => rfl, fun _ => rfl, fun _ => rfl, rfl, rfl⟩

/-! ## Drain of a list produced by a function node -/

/-- C2. At the failing input (a list output produced by a function node): the
evaluation loop finishes and `input_is_computed` holds for the boundary output,
whose value sits in `m_vector_per_socket`; drain looks it up in
`m_virtual_list_list_for_inputs`, where it is absent, and the call fails. -/
theorem drain_lookup_fails_for_produced_list :
    call Example.list_network Example.list_tree 10 [0] Example.list_params
        Example.list_memory = .error .key_not_found ∧
      (∃ s, (copy_inputs_to_storage Example.list_network Example.list_tree Example.list_params
            { memory := Example.list_memory, storage := Storage.empty, trace := [] } >>=
          evaluate_network_to_compute_outputs Example.list_network Example.list_tree 10 [0])
          = .ok s ∧
        s.storage.input_is_computed (.vector .float) (1, 0) = .ok true ∧
        s.storage.m_vector_per_socket (1, 0) = some 1 ∧
        s.storage.m_virtual_list_list_for_inputs (1, 0) = none ∧
        s.trace = [0]) :=
  ⟨rfl, _, rfl, rfl, rfl, rfl, rfl⟩

/-! ## Size of the buffers allocated for a node -/

theorem foldl_max_eq_getLast :
    ∀ (l : List Nat) (a : Nat) (hne : l ≠ []), l.Pairwise (· ≤ ·) → a ≤ l.head hne →
      l.foldl max a = l.getLast hne := by
  intro l
  induction l with
  | nil => intro a hne; exact absurd rfl hne
  | cons x rest ih =>
    intro a hne hp ha
    simp only [List.head_cons] at ha
    cases rest with
    | nil => simp [Nat.max_eq_right ha]
    | cons y rest2 =>
      have hxy : x ≤ y := (List.pairwise_cons.mp hp).1 y (List.mem_cons_self _ _)
      have := ih (max a x) (by simp) (List.pairwise_cons.mp hp).2
        (by simp only [List.head_cons]; exact Nat.max_le.mpr ⟨Nat.le_trans ha hxy, hxy⟩)
      simpa using this

theorem getLast_eq_max_lane (mask_indices : List Nat) (hne : mask_indices ≠ [])
    (h : mask_indices.Pairwise (· ≤ ·)) : mask_indices.getLast hne = max_lane mask_indices :=
  (foldl_max_eq_getLast mask_indices 0 hne h (Nat.zero_le _)).symm

theorem array_size_mod (mask_indices : List Nat) (hne : mask_indices ≠ []) :
    array_size mask_indices = .ok ((mask_indices.getLast hne + 1) % 4294967296) := by
  simp [array_size, List.getLast?_eq_getLast _ hne]

theorem array_size_eq (mask_indices : List Nat) (hne : mask_indices ≠ [])
    (hlast : mask_indices.getLast hne < 4294967295) :
    array_size mask_indices = .ok (mask_indices.getLast hne + 1) := by
  rw [array_size_mod _ hne, Nat.mod_eq_of_lt (by omega)]

/-- What one iteration of the parameter loop allocates has `size` lanes. -/
theorem add_param_allocates (node_id : Nat) (node : MFNode) (ipi opi : List Nat) (size : Nat)
    (st : Storage) (p : Nat) (pt : MFParamType) (b b1 : ParamsBuilderState)
    (h : add_param node_id node ipi opi size st p pt b = .ok b1) :
    b1.array_size = b.array_size ∧
      (∃ new, b1.memory.arrays = b.memory.arrays ++ new ∧ ∀ x ∈ new, x.length = size) ∧
      (∃ new, b1.memory.vector_arrays = b.memory.vector_arrays ++ new ∧
        ∀ x ∈ new, x.length = size) := by
  cases pt with
  | none => simp [add_param] at h
  | readonly_single_input t =>
    simp only [add_param] at h
    obtain ⟨i, _, h⟩ := bind_eq_ok h
    obtain ⟨_, _, h⟩ := bind_eq_ok h
    obtain ⟨v, _, h⟩ := bind_eq_ok h
    cases h
    exact ⟨rfl, ⟨[], by simp⟩, ⟨[], by simp⟩⟩
  | readonly_vector_input t =>
    simp only [add_param] at h
    obtain ⟨i, _, h⟩ := bind_eq_ok h
    obtain ⟨_, _, h⟩ := bind_eq_ok h
    obtain ⟨v, _, h⟩ := bind_eq_ok h
    cases h
    exact ⟨rfl, ⟨[], by simp⟩, ⟨[], by simp⟩⟩
  | single_output t =>
    simp only [add_param] at h
    obtain ⟨i, _, h⟩ := bind_eq_ok h
    obtain ⟨_, _, h⟩ := bind_eq_ok h
    cases h
    exact ⟨rfl, ⟨[(List.range size).map (b.memory.indeterminate b.memory.arrays.length)],
      by simp [Memory.allocate_array]⟩, ⟨[], by simp [Memory.allocate_array]⟩⟩
  | vector_output t =>
    simp only [add_param] at h
    obtain ⟨i, _, h⟩ := bind_eq_ok h
    obtain ⟨_, _, h⟩ := bind_eq_ok h
    cases h
    exact ⟨rfl, ⟨[], by simp [Memory.new_vector_array]⟩,
      ⟨[List.replicate size []], by simp [Memory.new_vector_array]⟩⟩
  | mutable_vector t =>
    simp only [add_param] at h
    obtain ⟨i, _, h⟩ := bind_eq_ok h
    obtain ⟨_, _, h⟩ := bind_eq_ok h
    obtain ⟨j, _, h⟩ := bind_eq_ok h
    obtain ⟨_, _, h⟩ := bind_eq_ok h
    obtain ⟨v, _, h⟩ := bind_eq_ok h
    cases h
    exact ⟨rfl, ⟨[], by simp⟩, ⟨[], by simp⟩⟩

/-- Everything the parameter loop allocates has `size` lanes. -/
theorem add_params_allocates (node_id : Nat) (node : MFNode) (ipi opi : List Nat) (size : Nat)
    (st : Storage) :
    ∀ (sig : List MFParamType) (p : Nat) (b b1 : ParamsBuilderState),
      add_params node_id node ipi opi size st p sig b = .ok b1 →
      b1.array_size = b.array_size ∧
        (∃ new, b1.memory.arrays = b.memory.arrays ++ new ∧ ∀ x ∈ new, x.length = size) ∧
        (∃ new, b1.memory.vector_arrays = b.memory.vector_arrays ++ new ∧
          ∀ x ∈ new, x.length = size) := by
  intro sig
  induction sig with
  | nil =>
    intro p b b1 h
    simp [add_params] at h
    cases h
    exact ⟨rfl, ⟨[], by simp⟩, ⟨[], by simp⟩⟩
  | cons pt rest ih =>
    intro p b b1 h
    simp only [add_params] at h
    obtain ⟨b2, h2, h⟩ := bind_eq_ok h
    obtain ⟨e1, ⟨n1, hn1, hl1⟩, ⟨v1, hv1, hvl1⟩⟩ :=
      add_param_allocates node_id node ipi opi size st p pt b b2 h2
    obtain ⟨e2, ⟨n2, hn2, hl2⟩, ⟨v2, hv2, hvl2⟩⟩ := ih (p + 1) b2 b1 h
    refine ⟨e2.trans e1, ⟨n1 ++ n2, by rw [hn2, hn1, List.append_assoc], ?_⟩,
      ⟨v1 ++ v2, by rw [hv2, hv1, List.append_assoc], ?_⟩⟩
    · intro x hx
      rcases List.mem_append.mp hx with hx | hx
      · exact hl1 x hx
      · exact hl2 x hx
    · intro x hx
      rcases List.mem_append.mp hx with hx | hx
      · exact hvl1 x hx
      · exact hvl2 x hx

/-- C8, amended.  For a non-empty lane sequence in ascending order whose largest
lane index is below 4294967295, the array size, which is the last lane index
plus one in 32-bit unsigned arithmetic, is the largest lane index plus one; it
is given to the parameter builder and is the number of lanes of every array
and vector array allocated for a parameter of the node. -/
theorem allocated_size_is_max_plus_one (mask_indices : List Nat) (hne : mask_indices ≠ [])
    (hs : mask_indices.Pairwise (· ≤ ·)) (hmax : max_lane mask_indices < 4294967295) :
    mask_indices.getLast hne = max_lane mask_indices ∧
    array_size mask_indices = .ok (max_lane mask_indices + 1) ∧
      (∀ net tree node_id node function ipi opi s s1,
        compute_and_forward_outputs net tree mask_indices node_id node function ipi opi s
          = .ok s1 →
        ∃ b, add_params node_id node ipi opi (max_lane mask_indices + 1) s.storage 0
            function.signature
            { array_size := max_lane mask_indices + 1, memory := s.memory, params := [],
              single_outputs_to_forward := [], vector_outputs_to_forward := [] } = .ok b ∧
          b.array_size = max_lane mask_indices + 1 ∧
          (∃ new, b.memory.arrays = s.memory.arrays ++ new ∧
            ∀ x ∈ new, x.length = max_lane mask_indices + 1) ∧
          (∃ new, b.memory.vector_arrays = s.memory.vector_arrays ++ new ∧
            ∀ x ∈ new, x.length = max_lane mask_indices + 1)) := by
  have hlast := getLast_eq_max_lane _ hne hs
  have hsize : array_size mask_indices = .ok (max_lane mask_indices + 1) := by
    rw [array_size_eq _ hne (by rw [hlast]; exact hmax), hlast]
  refine ⟨hlast, hsize, ?_⟩
  intro net tree node_id node function ipi opi s s1 h
  unfold compute_and_forward_outputs at h
  rw [hsize] at h
  simp only [bind_ok] at h
  obtain ⟨b, hb, _⟩ := bind_eq_ok h
  exact ⟨b, hb, add_params_allocates _ _ _ _ _ _ _ _ _ b hb⟩

/-- Witness of `allocated_size_is_max_plus_one` at the lanes `1, 3`: the size
is `4`. -/
theorem allocated_size_is_max_plus_one_witness :
    ([1, 3] : List Nat).Pairwise (· ≤ ·) ∧ max_lane [1, 3] < 4294967295 ∧
    max_lane [1, 3] + 1 = 4 ∧
    ([1, 3] : List Nat).getLast (by simp) = max_lane [1, 3] ∧
    array_size [1, 3] = .ok (max_lane [1, 3] + 1) ∧
      (∀ net tree node_id node function ipi opi s s1,
        compute_and_forward_outputs net tree [1, 3] node_id node function ipi opi s
          = .ok s1 →
        ∃ b, add_params node_id node ipi opi (max_lane [1, 3] + 1)
            s.storage 0 function.signature
            { array_size := max_lane [1, 3] + 1, memory := s.memory,
              params := [], single_outputs_to_forward := [],
              vector_outputs_to_forward := [] } = .ok b ∧
          b.array_size = max_lane [1, 3] + 1 ∧
          (∃ new, b.memory.arrays = s.memory.arrays ++ new ∧
            ∀ x ∈ new, x.length = max_lane [1, 3] + 1) ∧
          (∃ new, b.memory.vector_arrays = s.memory.vector_arrays ++ new ∧
            ∀ x ∈ new, x.length = max_lane [1, 3] + 1)) :=
  ⟨by decide, by decide, by decide,
    allocated_size_is_max_plus_one [1, 3] (by simp) (by decide) (by decide)⟩

/-- C8, as stated, fails for the lane sequence of the one lane `4294967295`:
the largest lane index plus one is `4294967296`, but the array size, computed
in 32-bit unsigned arithmetic, is `0`; the parameter builder of the addition
of `add_network` is given the size `0`, and the array allocated for the sum
has no lane. -/
theorem allocated_size_wraps_to_zero :
    max_lane [4294967295] + 1 = 4294967296 ∧ array_size [4294967295] = .ok 0 ∧
    ∃ s0 node b,
      copy_inputs_to_storage Example.add_network Example.add_tree Example.add_params
        (initial_state Example.add_memory) = .ok s0 ∧
      Example.add_network.node 1 = .ok node ∧
      add_params 1 node [0, 1] [2] 0 s0.storage 0 Example.AddFloats.signature
        { array_size := 0, memory := s0.memory, params := [],
          single_outputs_to_forward := [], vector_outputs_to_forward := [] } = .ok b ∧
      b.array_size = 0 ∧ b.params = [.readonly_single_input 0, .readonly_single_input 1,
        .single_output 3] ∧
      b.memory.arrays.map List.length = [4, 4, 4, 0] :=
  ⟨by decide, rfl, _, _, _, rfl, rfl, rfl, rfl, rfl, rfl⟩

/-! ## Sockets, targets and well-formedness -/

theorem input_eq_ok {net : MFNetwork} {socket : InputRef} {s : MFInputSocket} :
    net.input socket = .ok s ↔
      ∃ node, net.nodes[socket.1]? = some node ∧ node.inputs[socket.2]? = some s := by
  unfold MFNetwork.input
  cases h1 : net.nodes[socket.1]? with
  | none => simp
  | some node =>
    cases h2 : node.inputs[socket.2]? with
    | none => simp [h2]
    | some s' => simp [h2]

theorem output_eq_ok {net : MFNetwork} {socket : OutputRef} {s : MFOutputSocket} :
    net.output socket = .ok s ↔
      ∃ node, net.nodes[socket.1]? = some node ∧ node.outputs[socket.2]? = some s := by
  unfold MFNetwork.output
  cases h1 : net.nodes[socket.1]? with
  | none => simp
  | some node =>
    cases h2 : node.outputs[socket.2]? with
    | none => simp [h2]
    | some s' => simp [h2]

theorem node_eq_ok {net : MFNetwork} {n : Nat} {node : MFNode} :
    net.node n = .ok node ↔ net.nodes[n]? = some node := by
  unfold MFNetwork.node
  cases h1 : net.nodes[n]? <;> simp

theorem mem_targets_in_node (o : OutputRef) (n : Nat) :
    ∀ (inputs : List MFInputSocket) (i0 : Nat) (x : InputRef),
      x ∈ targets_in_node o n i0 inputs ↔
        x.1 = n ∧ i0 ≤ x.2 ∧ ∃ s, inputs[x.2 - i0]? = some s ∧ s.origin = some o := by
  intro inputs
  induction inputs with
  | nil => intro i0 x; simp [targets_in_node]
  | cons s rest ih =>
    intro i0 x
    unfold targets_in_node
    have key : (x.1 = n ∧ i0 ≤ x.2 ∧ ∃ s', (s :: rest)[x.2 - i0]? = some s' ∧ s'.origin = some o) ↔
        ((x = (n, i0) ∧ s.origin = some o) ∨
          (x.1 = n ∧ i0 + 1 ≤ x.2 ∧ ∃ s', rest[x.2 - (i0 + 1)]? = some s' ∧ s'.origin = some o)) := by
      constructor
      · rintro ⟨h1, h2, s', h3, h4⟩
        by_cases hx : x.2 = i0
        · left
          rw [hx] at h3
          simp at h3
          subst h3
          exact ⟨Prod.ext h1 hx, h4⟩
        · right
          refine ⟨h1, by omega, s', ?_, h4⟩
          have : x.2 - i0 = (x.2 - (i0 + 1)) + 1 := by omega
          rw [this] at h3
          simpa using h3
      · rintro (⟨h1, h2⟩ | ⟨h1, h2, s', h3, h4⟩)
        · subst h1
          exact ⟨rfl, Nat.le_refl _, s, by simp, h2⟩
        · refine ⟨h1, by omega, s', ?_, h4⟩
          have : x.2 - i0 = (x.2 - (i0 + 1)) + 1 := by omega
          rw [this]
          simpa using h3
    rw [key]
    by_cases ho : s.origin = some o
    · simp only [ho, if_true, List.mem_cons, ih, and_true]
    · simp only [ho, if_false, ih, and_false, false_or]

theorem targets_in_node_nodup (o : OutputRef) (n : Nat) :
    ∀ (inputs : List MFInputSocket) (i0 : Nat), (targets_in_node o n i0 inputs).Nodup := by
  intro inputs
  induction inputs with
  | nil => intro i0; simp [targets_in_node]
  | cons s rest ih =>
    intro i0
    unfold targets_in_node
    split
    · refine List.nodup_cons.mpr ⟨?_, ih _⟩
      intro hm
      have := ((mem_targets_in_node o n rest (i0 + 1) (n, i0)).mp hm).2.1
      simp at this
    · exact ih _

theorem mem_targets_from (o : OutputRef) :
    ∀ (nodes : List MFNode) (n0 : Nat) (x : InputRef),
      x ∈ targets_from o n0 nodes ↔
        n0 ≤ x.1 ∧ ∃ node s, nodes[x.1 - n0]? = some node ∧ node.inputs[x.2]? = some s ∧
          s.origin = some o := by
  intro nodes
  induction nodes with
  | nil => intro n0 x; simp [targets_from]
  | cons node rest ih =>
    intro n0 x
    unfold targets_from
    rw [List.mem_append, ih, mem_targets_in_node]
    constructor
    · rintro (⟨h1, _, s, h3, h4⟩ | ⟨h1, node', s, h2, h3, h4⟩)
      · refine ⟨by omega, node, s, ?_, by simpa using h3, h4⟩
        simp [h1]
      · refine ⟨by omega, node', s, ?_, h3, h4⟩
        have : x.1 - n0 = (x.1 - (n0 + 1)) + 1 := by omega
        rw [this]
        simpa using h2
    · rintro ⟨h1, node', s, h2, h3, h4⟩
      by_cases hx : x.1 = n0
      · left
        rw [hx] at h2
        simp at h2
        subst h2
        exact ⟨hx, Nat.zero_le _, s, by simpa using h3, h4⟩
      · right
        refine ⟨by omega, node', s, ?_, h3, h4⟩
        have : x.1 - n0 = (x.1 - (n0 + 1)) + 1 := by omega
        rw [this] at h2
        simpa using h2

theorem targets_from_nodup (o : OutputRef) :
    ∀ (nodes : List MFNode) (n0 : Nat), (targets_from o n0 nodes).Nodup := by
  intro nodes
  induction nodes with
  | nil => intro n0; simp [targets_from]
  | cons node rest ih =>
    intro n0
    unfold targets_from
    refine List.nodup_append.mpr ⟨targets_in_node_nodup _ _ _ _, ih _, ?_⟩
    intro x h1 h2
    have a := ((mem_targets_in_node o n0 node.inputs 0 x).mp h1).1
    have b := ((mem_targets_from o rest (n0 + 1) x).mp h2).1
    omega

/-- The targets of an output socket are the input sockets it is the origin of. -/
theorem mem_targets {net : MFNetwork} {o : OutputRef} {x : InputRef} :
    x ∈ net.targets o ↔ ∃ s, net.input x = .ok s ∧ s.origin = some o := by
  unfold MFNetwork.targets
  rw [mem_targets_from]
  constructor
  · rintro ⟨_, node, s, h1, h2, h3⟩
    exact ⟨s, input_eq_ok.mpr ⟨node, by simpa using h1, h2⟩, h3⟩
  · rintro ⟨s, h1, h3⟩
    obtain ⟨node, h1, h2⟩ := input_eq_ok.mp h1
    exact ⟨Nat.zero_le _, node, s, by simpa using h1, h2, h3⟩

theorem targets_nodup (net : MFNetwork) (o : OutputRef) : (net.targets o).Nodup :=
  targets_from_nodup o net.nodes 0

theorem is_function_iff {net : MFNetwork} {n : Nat} :
    net.is_function n = true ↔
      ∃ node function ipi opi, net.nodes[n]? = some node ∧
        node.kind = .function function ipi opi := by
  unfold MFNetwork.is_function
  cases h : net.nodes[n]? with
  | none => simp
  | some node =>
    cases hk : node.kind with
    | placeholder => simp [hk]
    | function f a b => simp [hk]

theorem is_placeholder_iff {net : MFNetwork} {n : Nat} :
    net.is_placeholder n = true ↔
      ∃ node, net.nodes[n]? = some node ∧ node.kind = .placeholder := by
  unfold MFNetwork.is_placeholder
  cases h : net.nodes[n]? with
  | none => simp
  | some node =>
    cases hk : node.kind with
    | placeholder => simp [hk]
    | function f a b => simp [hk]

theorem not_function_of_placeholder {net : MFNetwork} {n : Nat}
    (h : net.is_placeholder n = true) : net.is_function n = false := by
  obtain ⟨node, h1, h2⟩ := is_placeholder_iff.mp h
  simp [MFNetwork.is_function, h1, h2]

theorem input_linked_spec {net : MFNetwork} {s : MFInputSocket} (h : input_linked net s = true) :
    ∃ origin os, s.origin = some origin ∧ net.output origin = .ok os ∧ os.type = s.type ∧
      s.type ≠ .none := by
  unfold input_linked at h
  cases ho : s.origin with
  | none => simp [ho] at h
  | some origin =>
    simp only [ho] at h
    cases hos : net.output origin with
    | error e => simp [hos] at h
    | ok os =>
      simp only [hos, Bool.and_eq_true, beq_iff_eq, bne_iff_ne] at h
      exact ⟨origin, os, rfl, hos, h.1, h.2⟩

/-- In a well-formed network every input socket has an origin of its own type. -/
theorem wf_input {net : MFNetwork} {tree : MultiFunction_FunctionTree} (hwf : WellFormed net tree)
    {socket : InputRef} {s : MFInputSocket} (h : net.input socket = .ok s) :
    ∃ origin os, s.origin = some origin ∧ net.output origin = .ok os ∧ os.type = s.type ∧
      s.type ≠ .none := by
  obtain ⟨node, h1, h2⟩ := input_eq_ok.mp h
  exact input_linked_spec ((hwf.1 node (List.getElem?_mem h1)).2 s (List.getElem?_mem h2))

theorem wf_node {net : MFNetwork} {tree : MultiFunction_FunctionTree} (hwf : WellFormed net tree)
    {n : Nat} {node : MFNode} (h : net.nodes[n]? = some node) : node_ok node :=
  (hwf.1 node (List.getElem?_mem h)).1

/-- What `node_ok` says of a function node. -/
theorem node_ok_function {node : MFNode} {function : MultiFunction} {ipi opi : List Nat}
    (hk : node.kind = .function function ipi opi) (h : node_ok node) :
    ipi.length = node.inputs.length ∧ opi.length = node.outputs.length ∧ opi.Nodup ∧
      (∀ i < node.inputs.length, input_param_ok function ipi node.inputs i = true) ∧
      (∀ j < node.outputs.length, output_param_ok function opi node.outputs j = true) ∧
      (∀ p < function.signature.length, param_covered function ipi opi p = true) := by
  unfold node_ok at h
  rw [hk] at h
  exact h

theorem input_param_ok_spec {function : MultiFunction} {ipi : List Nat}
    {inputs : List MFInputSocket} {i : Nat}
    (h : input_param_ok function ipi inputs i = true) :
    ∃ s p pt, inputs[i]? = some s ∧ ipi[i]? = some p ∧ function.signature[p]? = some pt ∧
      param_accepts_input pt s.type = true := by
  unfold input_param_ok at h
  split at h
  · rename_i s p h1 h2
    cases h3 : function.signature[p]? with
    | none => simp [h3] at h
    | some pt =>
      simp only [h3] at h
      exact ⟨s, p, pt, h1, h2, h3, h⟩
  · simp at h

theorem output_param_ok_spec {function : MultiFunction} {opi : List Nat}
    {outputs : List MFOutputSocket} {j : Nat}
    (h : output_param_ok function opi outputs j = true) :
    ∃ s p pt, outputs[j]? = some s ∧ opi[j]? = some p ∧ function.signature[p]? = some pt ∧
      param_produces pt s.type = true := by
  unfold output_param_ok at h
  split at h
  · rename_i s p h1 h2
    cases h3 : function.signature[p]? with
    | none => simp [h3] at h
    | some pt =>
      simp only [h3] at h
      exact ⟨s, p, pt, h1, h2, h3, h⟩
  · simp at h

theorem param_covered_spec {function : MultiFunction} {ipi opi : List Nat} {p : Nat}
    {pt : MFParamType} (hp : function.signature[p]? = some pt)
    (h : param_covered function ipi opi p = true) :
    pt ≠ .none ∧ (pt.is_input = true → p ∈ ipi) ∧ (pt.is_output = true → p ∈ opi) := by
  unfold param_covered at h
  rw [hp] at h
  simp only [Bool.and_eq_true, bne_iff_ne, Bool.or_eq_true, Bool.not_eq_true',
    decide_eq_true_eq] at h
  refine ⟨h.1.1, ?_, ?_⟩
  · intro hi
    rcases h.1.2 with h2 | h2
    · rw [hi] at h2; cases h2
    · exact h2
  · intro hi
    rcases h.2 with h2 | h2
    · rw [hi] at h2; cases h2
    · exact h2

/-! ## The maps of the storage -/

theorem add_new_eq_ok {m m1 : InputRef → Option Nat} {key : InputRef} {value : Nat} :
    add_new m key value = .ok m1 ↔
      m key = none ∧ m1 = fun k => if k = key then some value else m k := by
  unfold add_new
  cases h : m key with
  | none => simp; exact eq_comm
  | some v => simp

theorem add_new_ok_of {m : InputRef → Option Nat} {key : InputRef} (value : Nat)
    (h : m key = none) :
    add_new m key value = .ok (fun k => if k = key then some value else m k) :=
  add_new_eq_ok.mpr ⟨h, rfl⟩

theorem lookup_eq_ok {m : InputRef → Option Nat} {key : InputRef} {value : Nat} :
    lookup m key = .ok value ↔ m key = some value := by
  unfold lookup
  cases h : m key <;> simp

@[simp] theorem slot_map_take_array_ref_ownership (st : Storage) (a : Nat) :
    (st.take_array_ref_ownership a).slot_map = st.slot_map := by
  funext sl; cases sl <;> rfl

@[simp] theorem slot_map_take_vector_array_ownership (st : Storage) (a : Nat) :
    (st.take_vector_array_ownership a).slot_map = st.slot_map := by
  funext sl; cases sl <;> rfl

@[simp] theorem slot_map_take_vector_array_ownership__not_twice (st : Storage) (a : Nat) :
    (st.take_vector_array_ownership__not_twice a).slot_map = st.slot_map := by
  funext sl
  unfold Storage.take_vector_array_ownership__not_twice
  split
  · rfl
  · cases sl <;> rfl

theorem set_virtual_list_eq_ok {st st1 : Storage} {socket : InputRef} {a : Nat} :
    st.set_virtual_list_for_input__non_owning socket a = .ok st1 ↔
      st.m_virtual_list_for_inputs socket = none ∧
      st1 = { st with m_virtual_list_for_inputs :=
        fun k => if k = socket then some a else st.m_virtual_list_for_inputs k } := by
  unfold Storage.set_virtual_list_for_input__non_owning
  constructor
  · intro h
    obtain ⟨m, hm, h⟩ := bind_eq_ok h
    obtain ⟨h1, h2⟩ := add_new_eq_ok.mp hm
    cases h
    exact ⟨h1, by rw [h2]⟩
  · rintro ⟨h1, h2⟩
    rw [add_new_ok_of a h1, h2]
    rfl

theorem set_virtual_list_list_eq_ok {st st1 : Storage} {socket : InputRef} {a : Nat} :
    st.set_virtual_list_list_for_input__non_owning socket a = .ok st1 ↔
      st.m_virtual_list_list_for_inputs socket = none ∧
      st1 = { st with m_virtual_list_list_for_inputs :=
        fun k => if k = socket then some a else st.m_virtual_list_list_for_inputs k } := by
  unfold Storage.set_virtual_list_list_for_input__non_owning
  constructor
  · intro h
    obtain ⟨m, hm, h⟩ := bind_eq_ok h
    obtain ⟨h1, h2⟩ := add_new_eq_ok.mp hm
    cases h
    exact ⟨h1, by rw [h2]⟩
  · rintro ⟨h1, h2⟩
    rw [add_new_ok_of a h1, h2]
    rfl

theorem set_vector_array_eq_ok {st st1 : Storage} {socket : InputRef} {a : Nat} :
    st.set_vector_array_for_input__non_owning socket a = .ok st1 ↔
      st.m_vector_per_socket socket = none ∧
      st1 = { st with m_vector_per_socket :=
        fun k => if k = socket then some a else st.m_vector_per_socket k } := by
  unfold Storage.set_vector_array_for_input__non_owning
  constructor
  · intro h
    obtain ⟨m, hm, h⟩ := bind_eq_ok h
    obtain ⟨h1, h2⟩ := add_new_eq_ok.mp hm
    cases h
    exact ⟨h1, by rw [h2]⟩
  · rintro ⟨h1, h2⟩
    rw [add_new_ok_of a h1, h2]
    rfl

theorem updates_virtual_list {st st1 : Storage} {socket : InputRef} {a : Nat}
    (h : st.set_virtual_list_for_input__non_owning socket a = .ok st1) :
    Updates st st1 .virtual_list socket a := by
  obtain ⟨h1, h2⟩ := set_virtual_list_eq_ok.mp h
  subst h2
  refine ⟨h1, by simp [Storage.slot_map], ?_⟩
  intro sl1 socket1 hne
  cases sl1 <;> simp [Storage.slot_map] at hne ⊢
  intro hc; exact absurd hc hne

theorem updates_virtual_list_list {st st1 : Storage} {socket : InputRef} {a : Nat}
    (h : st.set_virtual_list_list_for_input__non_owning socket a = .ok st1) :
    Updates st st1 .virtual_list_list socket a := by
  obtain ⟨h1, h2⟩ := set_virtual_list_list_eq_ok.mp h
  subst h2
  refine ⟨h1, by simp [Storage.slot_map], ?_⟩
  intro sl1 socket1 hne
  cases sl1 <;> simp [Storage.slot_map] at hne ⊢
  intro hc; exact absurd hc hne

theorem updates_vector_array {st st1 : Storage} {socket : InputRef} {a : Nat}
    (h : st.set_vector_array_for_input__non_owning socket a = .ok st1) :
    Updates st st1 .vector_array socket a := by
  obtain ⟨h1, h2⟩ := set_vector_array_eq_ok.mp h
  subst h2
  refine ⟨h1, by simp [Storage.slot_map], ?_⟩
  intro sl1 socket1 hne
  cases sl1 <;> simp [Storage.slot_map] at hne ⊢
  intro hc; exact absurd hc hne

/-- Installing never changes or removes an entry that is there. -/
theorem Updates.keeps {st st1 : Storage} {sl : Slot} {socket : InputRef} {a : Nat}
    (h : Updates st st1 sl socket a) (sl1 : Slot) (socket1 : InputRef) (v : Nat)
    (hv : st.slot_map sl1 socket1 = some v) : st1.slot_map sl1 socket1 = some v := by
  by_cases hc : sl1 = sl ∧ socket1 = socket
  · obtain ⟨rfl, rfl⟩ := hc
    rw [h.1] at hv; cases hv
  · rw [h.2.2 sl1 socket1 (by tauto)]; exact hv

/-- An entry of the new storage is the installed one or was there before. -/
theorem Updates.cases {st st1 : Storage} {sl : Slot} {socket : InputRef} {a : Nat}
    (h : Updates st st1 sl socket a) (sl1 : Slot) (socket1 : InputRef) (v : Nat)
    (hv : st1.slot_map sl1 socket1 = some v) :
    (sl1 = sl ∧ socket1 = socket ∧ v = a) ∨ st.slot_map sl1 socket1 = some v := by
  by_cases hc : sl1 = sl ∧ socket1 = socket
  · obtain ⟨rfl, rfl⟩ := hc
    rw [h.2.1] at hv; cases hv
    exact Or.inl ⟨rfl, rfl, rfl⟩
  · rw [h.2.2 sl1 socket1 (by tauto)] at hv; exact Or.inr hv

/-! ## Effects of the target loops -/

theorem seed_vector_target_effect {net : MFNetwork} {values : Nat} {socket : InputRef}
    {s s1 : EvalState} (h : seed_vector_target net values socket s = .ok s1) :
    ∃ e, seed_effect net socket = some e ∧ effect_spec values socket e s s1 := by
  unfold seed_vector_target at h
  obtain ⟨node, hnode, h⟩ := bind_eq_ok h
  rw [node_eq_ok] at hnode
  cases hk : node.kind with
  | placeholder =>
    simp only [hk] at h
    obtain ⟨st, hst, h⟩ := bind_eq_ok h
    cases h
    exact ⟨.shared .virtual_list_list, by simp [seed_effect, hnode, hk],
      rfl, rfl, rfl, updates_virtual_list_list hst⟩
  | function f ipi opi =>
    simp only [hk] at h
    obtain ⟨p, hp, h⟩ := bind_eq_ok h
    obtain ⟨pt, hpt, h⟩ := bind_eq_ok h
    rw [index_list_eq_ok] at hp hpt
    have hcp : net.consumer_param socket = some pt := by
      simp [MFNetwork.consumer_param, hnode, hk, hp, hpt]
    cases pt with
    | readonly_vector_input t =>
      simp only at h
      obtain ⟨st, hst, h⟩ := bind_eq_ok h
      cases h
      exact ⟨.shared .virtual_list_list, by simp [seed_effect, hnode, hk, hcp],
        rfl, rfl, rfl, updates_virtual_list_list hst⟩
    | mutable_vector t =>
      simp only at h
      obtain ⟨⟨mem, a⟩, hc, h⟩ := bind_eq_ok h
      simp only at h
      obtain ⟨st, hst, h⟩ := bind_eq_ok h
      cases h
      unfold Memory.copy_vector_array at hc
      obtain ⟨lists, hl, hc⟩ := bind_eq_ok hc
      rw [index_list_eq_ok] at hl
      cases hc
      refine ⟨.copied, by simp [seed_effect, hnode, hk, hcp], rfl, rfl, lists, hl, rfl, ?_⟩
      have := updates_vector_array hst
      simpa [Updates] using this
    | none => simp at h
    | readonly_single_input t => simp at h
    | single_output t => simp at h
    | vector_output t => simp at h

theorem forward_vector_target_effect {net : MFNetwork} {tree : MultiFunction_FunctionTree}
    {values : Nat} {socket : InputRef}
    {s s1 : EvalState} (h : forward_vector_target net tree values socket s = .ok s1) :
    ∃ e, forward_effect net tree socket = some e ∧ effect_spec values socket e s s1 := by
  unfold forward_vector_target at h
  obtain ⟨node, hnode, h⟩ := bind_eq_ok h
  rw [node_eq_ok] at hnode
  cases hk : node.kind with
  | placeholder =>
    simp only [hk] at h
    by_cases hm : socket ∈ tree.m_outputs
    · simp only [hm, if_true] at h
      obtain ⟨st, hst, h⟩ := bind_eq_ok h
      cases h
      exact ⟨.shared .vector_array, by simp [forward_effect, hnode, hk, hm],
        rfl, rfl, rfl, updates_vector_array hst⟩
    · simp only [hm, if_false] at h
      cases h
      exact ⟨.nothing, by simp [forward_effect, hnode, hk, hm], rfl, rfl, rfl, fun _ _ => rfl⟩
  | function f ipi opi =>
    simp only [hk] at h
    obtain ⟨p, hp, h⟩ := bind_eq_ok h
    obtain ⟨pt, hpt, h⟩ := bind_eq_ok h
    rw [index_list_eq_ok] at hp hpt
    have hcp : net.consumer_param socket = some pt := by
      simp [MFNetwork.consumer_param, hnode, hk, hp, hpt]
    cases pt with
    | readonly_vector_input t =>
      simp only at h
      obtain ⟨st, hst, h⟩ := bind_eq_ok h
      cases h
      exact ⟨.shared .virtual_list_list, by simp [forward_effect, hnode, hk, hcp],
        rfl, rfl, rfl, updates_virtual_list_list hst⟩
    | mutable_vector t =>
      simp only at h
      obtain ⟨⟨mem, a⟩, hc, h⟩ := bind_eq_ok h
      simp only at h
      obtain ⟨st, hst, h⟩ := bind_eq_ok h
      cases h
      unfold Memory.copy_vector_array at hc
      obtain ⟨lists, hl, hc⟩ := bind_eq_ok hc
      rw [index_list_eq_ok] at hl
      cases hc
      refine ⟨.copied, by simp [forward_effect, hnode, hk, hcp], rfl, rfl, lists, hl, rfl, ?_⟩
      have := updates_vector_array hst
      simpa [Updates] using this
    | none => simp at h
    | readonly_single_input t => simp at h
    | single_output t => simp at h
    | vector_output t => simp at h

/-! ## Sequences of installation steps -/

theorem effect_spec_congr {values : Nat} {socket : InputRef} {e : Effect} {s s0 s1 : EvalState}
    (hm : s0.memory = s.memory) (ht : s0.trace = s.trace)
    (hs : ∀ sl k, s0.storage.slot_map sl k = s.storage.slot_map sl k)
    (h : effect_spec values socket e s s1) : effect_spec values socket e s0 s1 := by
  obtain ⟨h1, h2, h3⟩ := h
  refine ⟨by rw [ht]; exact h1, by rw [hm]; exact h2, ?_⟩
  cases e with
  | nothing =>
    simp only at h3 ⊢
    exact ⟨by rw [hm]; exact h3.1, fun sl k => by rw [hs]; exact h3.2 sl k⟩
  | shared sl =>
    simp only at h3 ⊢
    refine ⟨by rw [hm]; exact h3.1, ?_⟩
    obtain ⟨a, b, c⟩ := h3.2
    exact ⟨by rw [hs]; exact a, b, fun sl1 k hne => by rw [hs]; exact c sl1 k hne⟩
  | copied =>
    simp only at h3 ⊢
    obtain ⟨lists, a, b, c1, c2, c3⟩ := h3
    refine ⟨lists, by rw [hm]; exact a, by rw [hm]; exact b, by rw [hs]; exact c1, ?_, ?_⟩
    · rw [hm]; exact c2
    · intro sl1 k hne; rw [hs]; exact c3 sl1 k hne

theorem Steps.refl (s : EvalState) : Steps [] s s :=
  Steps.nil s s rfl rfl (fun _ _ => rfl)

theorem Steps.congr_left {l : List InstallStep} {s s0 s1 : EvalState}
    (h : Steps l s s1) (hm : s0.memory = s.memory) (ht : s0.trace = s.trace)
    (hs : ∀ sl k, s0.storage.slot_map sl k = s.storage.slot_map sl k) : Steps l s0 s1 := by
  cases h with
  | nil _ _ a b c =>
    exact Steps.nil _ _ (by rw [a, hm]) (by rw [b, ht]) (fun sl k => by rw [c, hs])
  | cons values socket e rest _ s2 _ he hrest =>
    exact Steps.cons values socket e rest s0 s2 s1 (effect_spec_congr hm ht hs he) hrest

theorem Steps.congr_right {l : List InstallStep} {s s1 s2 : EvalState}
    (h : Steps l s s1) (hm : s2.memory = s1.memory) (ht : s2.trace = s1.trace)
    (hs : ∀ sl k, s2.storage.slot_map sl k = s1.storage.slot_map sl k) : Steps l s s2 := by
  induction h with
  | nil s s1 a b c =>
    exact Steps.nil _ _ (by rw [hm, a]) (by rw [ht, b]) (fun sl k => by rw [hs, c])
  | cons values socket e rest s s1 s3 he _ ih =>
    exact Steps.cons values socket e rest s s1 s2 he (ih hm ht hs)

theorem Steps.append {l1 l2 : List InstallStep} {s s1 s2 : EvalState}
    (h1 : Steps l1 s s1) (h2 : Steps l2 s1 s2) : Steps (l1 ++ l2) s s2 := by
  induction h1 with
  | nil s s1 a b c => exact Steps.congr_left h2 a.symm b.symm (fun sl k => (c sl k).symm)
  | cons values socket e rest s s1 s3 he _ ih =>
    exact Steps.cons values socket e (rest ++ l2) s s1 s2 he (ih h2)

/-- Steps change neither the trace nor the arrays, and only append vector arrays. -/
theorem Steps.frame {l : List InstallStep} {s s1 : EvalState} (h : Steps l s s1) :
    s1.trace = s.trace ∧ s1.memory.arrays = s.memory.arrays ∧
      s.memory.vector_arrays <+: s1.memory.vector_arrays := by
  induction h with
  | nil s s1 a b c => exact ⟨b, by rw [a], by rw [a]⟩
  | cons values socket e rest s s1 s2 he _ ih =>
    obtain ⟨i1, i2, i3⟩ := ih
    obtain ⟨h1, h2, h3⟩ := he
    refine ⟨i1.trans h1, i2.trans h2, List.IsPrefix.trans ?_ i3⟩
    cases e with
    | nothing => simp only at h3; rw [h3.1]
    | shared sl => simp only at h3; rw [h3.1]
    | copied =>
      simp only at h3
      obtain ⟨lists, _, b, _⟩ := h3
      rw [b]; exact List.prefix_append _ _

/-- Steps never change or remove an entry that is there. -/
theorem Steps.keeps_entries {l : List InstallStep} {s s1 : EvalState} (h : Steps l s s1)
    (sl : Slot) (k : InputRef) (v : Nat) (hv : s.storage.slot_map sl k = some v) :
    s1.storage.slot_map sl k = some v := by
  induction h with
  | nil s s1 a b c => rw [c]; exact hv
  | cons values socket e rest s s1 s2 he _ ih =>
    apply ih
    obtain ⟨_, _, h3⟩ := he
    cases e with
    | nothing => simp only at h3; rw [h3.2]; exact hv
    | shared sl0 => simp only at h3; exact h3.2.keeps sl k v hv
    | copied =>
      simp only at h3
      obtain ⟨lists, _, _, c⟩ := h3
      exact c.keeps sl k v hv

/-- Steps leave alone the sockets that are no target of a step. -/
theorem Steps.untouched {l : List InstallStep} {s s1 : EvalState} (h : Steps l s s1)
    (sl : Slot) (k : InputRef) (hk : ∀ x ∈ l, x.2.1 ≠ k) :
    s1.storage.slot_map sl k = s.storage.slot_map sl k := by
  induction h with
  | nil s s1 a b c => exact c sl k
  | cons values socket e rest s s1 s2 he _ ih =>
    rw [ih (fun x hx => hk x (List.mem_cons_of_mem _ hx))]
    have hne : k ≠ socket := fun hc => hk _ (List.mem_cons_self _ _) hc.symm
    obtain ⟨_, _, h3⟩ := he
    cases e with
    | nothing => simp only at h3; exact h3.2 sl k
    | shared sl0 => simp only at h3; exact h3.2.2.2 sl k (Or.inr hne)
    | copied =>
      simp only at h3
      obtain ⟨lists, _, _, c⟩ := h3
      exact c.2.2 sl k (Or.inr hne)

theorem StorageBounded.of_grows {st : Storage} {mem mem1 : Memory} (h : StorageBounded st mem)
    (ha : mem.arrays.length ≤ mem1.arrays.length)
    (hv : mem.vector_arrays.length ≤ mem1.vector_arrays.length) : StorageBounded st mem1 :=
  ⟨fun k a hk => Nat.lt_of_lt_of_le (h.1 k a hk) ha,
    fun k a hk => Nat.lt_of_lt_of_le (h.2.1 k a hk) hv,
    fun k a hk => Nat.lt_of_lt_of_le (h.2.2 k a hk) hv⟩

theorem storageBounded_iff {st : Storage} {mem : Memory} :
    StorageBounded st mem ↔ ∀ sl k a, st.slot_map sl k = some a →
      match sl with
      | .virtual_list => a < mem.arrays.length
      | _ => a < mem.vector_arrays.length := by
  constructor
  · intro h sl k a hk
    cases sl
    · exact h.1 k a hk
    · exact h.2.1 k a hk
    · exact h.2.2 k a hk
  · intro h
    exact ⟨fun k a hk => h .virtual_list k a hk, fun k a hk => h .virtual_list_list k a hk,
      fun k a hk => h .vector_array k a hk⟩

/-- Steps whose buffers exist keep every address of the storage valid. -/
theorem Steps.bounded {l : List InstallStep} {s s1 : EvalState} (h : Steps l s s1)
    (hb : StorageBounded s.storage s.memory) (hr : ∀ x ∈ l, step_in_range s.memory x) :
    StorageBounded s1.storage s1.memory := by
  induction h with
  | nil s s1 a b c =>
    rw [storageBounded_iff] at hb ⊢
    intro sl k v hv
    rw [c] at hv
    rw [a]
    exact hb sl k v hv
  | cons values socket e rest s s1 s2 he hrest ih =>
    have hfr := (Steps.cons values socket e rest s s1 s2 he hrest).frame
    obtain ⟨h1, h2, h3⟩ := he
    have hx := hr _ (List.mem_cons_self _ _)
    have hgrow : s.memory.arrays.length = s1.memory.arrays.length ∧
        s.memory.vector_arrays.length ≤ s1.memory.vector_arrays.length := by
      refine ⟨by rw [h2], ?_⟩
      cases e with
      | nothing => simp only at h3; rw [h3.1]
      | shared sl => simp only at h3; rw [h3.1]
      | copied =>
        simp only at h3
        obtain ⟨lists, _, b, _⟩ := h3
        rw [b]; simp
    apply ih
    · rw [storageBounded_iff] at hb ⊢
      intro sl k v hv
      cases e with
      | nothing =>
        simp only at h3
        rw [h3.2] at hv
        rw [h3.1]
        exact hb sl k v hv
      | shared sl0 =>
        simp only at h3
        rw [h3.1]
        rcases h3.2.cases sl k v hv with ⟨rfl, rfl, rfl⟩ | hold
        · cases sl <;> simpa [step_in_range] using hx
        · exact hb sl k v hold
      | copied =>
        simp only at h3
        obtain ⟨lists, _, b, c⟩ := h3
        rcases c.cases sl k v hv with ⟨rfl, rfl, rfl⟩ | hold
        · simp [b]
        · have := hb sl k v hold
          cases sl
          · simpa [h2] using this
          · simp only at this ⊢; rw [b]; simp; omega
          · simp only at this ⊢; rw [b]; simp; omega
    · intro x hx2
      have := hr x (List.mem_cons_of_mem _ hx2)
      unfold step_in_range at this ⊢
      split
      · rename_i heq
        simp only [heq] at this
        omega
      · rename_i heq
        split at this
        · rename_i heq2; exact absurd heq2 (by intro hc; exact heq hc)
        · omega

/-! ## The domain of the maps -/

theorem DomInv.congr {net : MFNetwork} {tree : MultiFunction_FunctionTree} {st : Storage}
    {D D1 : InputRef → Prop} (h : DomInv net tree st D) (hD : ∀ k, D k ↔ D1 k) :
    DomInv net tree st D1 := by
  intro k sl
  rw [h k sl, hD k]

theorem DomInv.absent {net : MFNetwork} {tree : MultiFunction_FunctionTree} {st : Storage}
    {D : InputRef → Prop} (h : DomInv net tree st D) {k : InputRef} (hk : ¬ D k) (sl : Slot) :
    st.slot_map sl k = none := by
  cases hv : st.slot_map sl k with
  | none => rfl
  | some v =>
    have := (h k sl).mp (by simp [hv])
    exact absurd this.1 hk

/-- Steps for sockets outside the domain, each into its slot, extend the
domain by their targets. -/
theorem Steps.dom {net : MFNetwork} {tree : MultiFunction_FunctionTree}
    {l : List InstallStep} {s s1 : EvalState} (h : Steps l s s1) :
    ∀ (D : InputRef → Prop), DomInv net tree s.storage D →
      (∀ x ∈ l, ¬ D x.2.1 ∧ slot net tree x.2.1 = x.2.2.slot) →
      (l.map (fun x => x.2.1)).Nodup →
      DomInv net tree s1.storage (fun k => D k ∨ k ∈ l.map (fun x => x.2.1)) := by
  induction h with
  | nil s s1 a b c =>
    intro D hD _ _ k sl
    rw [c, hD k sl]
    simp
  | cons values socket e rest s s1 s2 he hrest ih =>
    intro D hD hl hnd
    simp only [List.map_cons, List.nodup_cons] at hnd
    obtain ⟨hD0, hslot⟩ := hl _ (List.mem_cons_self _ _)
    simp only at hD0 hslot
    have step1 : DomInv net tree s1.storage (fun k => D k ∨ k = socket) := by
      obtain ⟨_, _, h3⟩ := he
      intro k sl
      cases e with
      | nothing =>
        simp only at h3
        rw [h3.2, hD k sl]
        constructor
        · rintro ⟨a, b⟩; exact ⟨Or.inl a, b⟩
        · rintro ⟨a | a, b⟩
          · exact ⟨a, b⟩
          · subst a; rw [hslot] at b; cases b
      | shared sl0 =>
        simp only at h3
        have hu := h3.2
        by_cases hc : sl = sl0 ∧ k = socket
        · obtain ⟨rfl, rfl⟩ := hc
          rw [hu.2.1]
          simp [hslot, Effect.slot]
        · rw [hu.2.2 sl k (by tauto), hD k sl]
          constructor
          · rintro ⟨a, b⟩; exact ⟨Or.inl a, b⟩
          · rintro ⟨a | a, b⟩
            · exact ⟨a, b⟩
            · subst a
              rw [hslot] at b
              simp only [Effect.slot, Option.some.injEq] at b
              exact absurd ⟨b.symm, rfl⟩ hc
      | copied =>
        simp only at h3
        obtain ⟨lists, _, _, hu⟩ := h3
        by_cases hc : sl = .vector_array ∧ k = socket
        · obtain ⟨rfl, rfl⟩ := hc
          rw [hu.2.1]
          simp [hslot, Effect.slot]
        · rw [hu.2.2 sl k (by tauto), hD k sl]
          constructor
          · rintro ⟨a, b⟩; exact ⟨Or.inl a, b⟩
          · rintro ⟨a | a, b⟩
            · exact ⟨a, b⟩
            · subst a
              rw [hslot] at b
              simp only [Effect.slot, Option.some.injEq] at b
              exact absurd ⟨b.symm, rfl⟩ hc
    have := ih (fun k => D k ∨ k = socket) step1
      (by
        intro x hx
        obtain ⟨a, b⟩ := hl x (List.mem_cons_of_mem _ hx)
        refine ⟨?_, b⟩
        rintro (c | c)
        · exact a c
        · exact hnd.1 (by rw [← c]; exact List.mem_map_of_mem _ hx))
      hnd.2
    refine this.congr ?_
    intro k
    simp only [List.map_cons, List.mem_cons]
    tauto

/-! ## The target loops as installation steps -/

theorem set_virtual_list_for_targets_steps (a : Nat) :
    ∀ (ts : List InputRef) (st st1 : Storage) (mem : Memory) (trace : List Nat),
      set_virtual_list_for_targets a ts st = .ok st1 →
      Steps (ts.map (fun t => ((a, t, .shared .virtual_list) : InstallStep)))
        ⟨mem, st, trace⟩ ⟨mem, st1, trace⟩ := by
  intro ts
  induction ts with
  | nil =>
    intro st st1 mem trace h
    simp [set_virtual_list_for_targets] at h
    cases h
    exact Steps.refl _
  | cons t rest ih =>
    intro st st1 mem trace h
    simp only [set_virtual_list_for_targets] at h
    obtain ⟨st2, h2, h⟩ := bind_eq_ok h
    exact Steps.cons a t _ _ _ ⟨mem, st2, trace⟩ _
      ⟨rfl, rfl, rfl, updates_virtual_list h2⟩ (ih st2 st1 mem trace h)

theorem set_virtual_list_for_targets_ok (a : Nat) :
    ∀ (ts : List InputRef) (st : Storage), ts.Nodup →
      (∀ t ∈ ts, st.m_virtual_list_for_inputs t = none) →
      ∃ st1, set_virtual_list_for_targets a ts st = .ok st1 := by
  intro ts
  induction ts with
  | nil => intro st _ _; exact ⟨st, rfl⟩
  | cons t rest ih =>
    intro st hnd habs
    have h0 := habs t (List.mem_cons_self _ _)
    obtain ⟨hn1, hn2⟩ := List.nodup_cons.mp hnd
    obtain ⟨st1, h1⟩ := ih
      { st with m_virtual_list_for_inputs :=
        fun k => if k = t then some a else st.m_virtual_list_for_inputs k } hn2
      (by
        intro t1 ht1
        have hne : t1 ≠ t := fun hc => hn1 (hc ▸ ht1)
        simp [hne, habs t1 (List.mem_cons_of_mem _ ht1)])
    refine ⟨st1, ?_⟩
    simp only [set_virtual_list_for_targets]
    rw [set_virtual_list_eq_ok.mpr ⟨h0, rfl⟩]
    exact h1

theorem seed_vector_target_ok {net : MFNetwork} {values : Nat} {socket : InputRef}
    {s : EvalState} (he : (seed_effect net socket).isSome = true)
    (habs : ∀ sl, s.storage.slot_map sl socket = none)
    (hv : values < s.memory.vector_arrays.length) :
    ∃ s1, seed_vector_target net values socket s = .ok s1 := by
  unfold seed_effect at he
  unfold seed_vector_target
  cases hnode : net.nodes[socket.1]? with
  | none => simp [hnode] at he
  | some node =>
    rw [node_eq_ok.mpr hnode]
    simp only [hnode] at he
    simp only [bind_ok]
    cases hk : node.kind with
    | placeholder =>
      simp only
      rw [set_virtual_list_list_eq_ok.mpr ⟨habs .virtual_list_list, rfl⟩]
      exact ⟨_, rfl⟩
    | function f ipi opi =>
      simp only [hk] at he
      simp only
      unfold MFNetwork.consumer_param at he
      simp only [hnode, hk] at he
      cases hp : ipi[socket.2]? with
      | none => simp [hp] at he
      | some p =>
        simp only [hp] at he
        rw [index_list_eq_ok.mpr hp]
        simp only [bind_ok]
        cases hpt : f.signature[p]? with
        | none => simp [hpt] at he
        | some pt =>
          rw [index_list_eq_ok.mpr hpt]
          simp only [bind_ok]
          cases pt with
          | readonly_vector_input t =>
            simp only
            rw [set_virtual_list_list_eq_ok.mpr ⟨habs .virtual_list_list, rfl⟩]
            exact ⟨_, rfl⟩
          | mutable_vector t =>
            simp only [Memory.copy_vector_array]
            rw [index_list_of_lt hv]
            simp only [bind_ok]
            rw [set_vector_array_eq_ok.mpr ⟨habs .vector_array, rfl⟩]
            exact ⟨_, rfl⟩
          | none => simp [hpt] at he
          | readonly_single_input t => simp [hpt] at he
          | single_output t => simp [hpt] at he
          | vector_output t => simp [hpt] at he

theorem forward_vector_target_ok {net : MFNetwork} {tree : MultiFunction_FunctionTree}
    {values : Nat} {socket : InputRef}
    {s : EvalState} (he : (forward_effect net tree socket).isSome = true)
    (habs : ∀ sl, s.storage.slot_map sl socket = none)
    (hv : values < s.memory.vector_arrays.length) :
    ∃ s1, forward_vector_target net tree values socket s = .ok s1 := by
  unfold forward_effect at he
  unfold forward_vector_target
  cases hnode : net.nodes[socket.1]? with
  | none => simp [hnode] at he
  | some node =>
    rw [node_eq_ok.mpr hnode]
    simp only [hnode] at he
    simp only [bind_ok]
    cases hk : node.kind with
    | placeholder =>
      simp only
      by_cases hm : socket ∈ tree.m_outputs
      · simp only [hm, if_true]
        rw [set_vector_array_eq_ok.mpr ⟨habs .vector_array, rfl⟩]
        exact ⟨_, rfl⟩
      · simp only [hm, if_false]
        exact ⟨_, rfl⟩
    | function f ipi opi =>
      simp only [hk] at he
      simp only
      unfold MFNetwork.consumer_param at he
      simp only [hnode, hk] at he
      cases hp : ipi[socket.2]? with
      | none => simp [hp] at he
      | some p =>
        simp only [hp] at he
        rw [index_list_eq_ok.mpr hp]
        simp only [bind_ok]
        cases hpt : f.signature[p]? with
        | none => simp [hpt] at he
        | some pt =>
          rw [index_list_eq_ok.mpr hpt]
          simp only [bind_ok]
          cases pt with
          | readonly_vector_input t =>
            simp only
            rw [set_virtual_list_list_eq_ok.mpr ⟨habs .virtual_list_list, rfl⟩]
            exact ⟨_, rfl⟩
          | mutable_vector t =>
            simp only [Memory.copy_vector_array]
            rw [index_list_of_lt hv]
            simp only [bind_ok]
            have : (s.storage.take_vector_array_ownership s.memory.vector_arrays.length).m_vector_per_socket
                socket = none := habs .vector_array
            rw [set_vector_array_eq_ok.mpr ⟨this, rfl⟩]
            exact ⟨_, rfl⟩
          | none => simp [hpt] at he
          | readonly_single_input t => simp [hpt] at he
          | single_output t => simp [hpt] at he
          | vector_output t => simp [hpt] at he

theorem seed_vector_targets_steps (net : MFNetwork) (values : Nat) :
    ∀ (ts : List InputRef) (s s1 : EvalState),
      seed_vector_targets net values ts s = .ok s1 →
      ∃ l, Steps l s s1 ∧ TargetSteps (seed_effect net) values ts l := by
  intro ts
  induction ts with
  | nil =>
    intro s s1 h
    simp [seed_vector_targets] at h
    cases h
    exact ⟨[], Steps.refl _, rfl, by simp⟩
  | cons t rest ih =>
    intro s s1 h
    simp only [seed_vector_targets] at h
    obtain ⟨s2, h2, h⟩ := bind_eq_ok h
    obtain ⟨e, he, hspec⟩ := seed_vector_target_effect h2
    obtain ⟨l, hl, hm, hx⟩ := ih s2 s1 h
    refine ⟨(values, t, e) :: l, Steps.cons _ _ _ _ _ _ _ hspec hl, by simp [hm], ?_⟩
    intro x hx2
    rcases List.mem_cons.mp hx2 with rfl | hx2
    · exact ⟨rfl, he⟩
    · exact hx x hx2

theorem forward_vector_targets_steps (net : MFNetwork) (tree : MultiFunction_FunctionTree)
    (values : Nat) :
    ∀ (ts : List InputRef) (s s1 : EvalState),
      forward_vector_targets net tree values ts s = .ok s1 →
      ∃ l, Steps l s s1 ∧ TargetSteps (forward_effect net tree) values ts l := by
  intro ts
  induction ts with
  | nil =>
    intro s s1 h
    simp [forward_vector_targets] at h
    cases h
    exact ⟨[], Steps.refl _, rfl, by simp⟩
  | cons t rest ih =>
    intro s s1 h
    simp only [forward_vector_targets] at h
    obtain ⟨s2, h2, h⟩ := bind_eq_ok h
    obtain ⟨e, he, hspec⟩ := forward_vector_target_effect h2
    obtain ⟨l, hl, hm, hx⟩ := ih s2 s1 h
    refine ⟨(values, t, e) :: l, Steps.cons _ _ _ _ _ _ _ hspec hl, by simp [hm], ?_⟩
    intro x hx2
    rcases List.mem_cons.mp hx2 with rfl | hx2
    · exact ⟨rfl, he⟩
    · exact hx x hx2

/-- One effect keeps absent what it does not target and keeps the buffers. -/
theorem effect_spec_absent {values : Nat} {socket : InputRef} {e : Effect} {s s1 : EvalState}
    (h : effect_spec values socket e s s1) {k : InputRef} (hne : k ≠ socket) (sl : Slot) :
    s1.storage.slot_map sl k = s.storage.slot_map sl k :=
  (Steps.cons values socket e [] s s1 s1 h (Steps.refl _)).untouched sl k
    (by intro x hx; simp at hx; subst hx; exact fun hc => hne hc.symm)

theorem effect_spec_grows {values : Nat} {socket : InputRef} {e : Effect} {s s1 : EvalState}
    (h : effect_spec values socket e s s1) :
    s.memory.vector_arrays.length ≤ s1.memory.vector_arrays.length :=
  ((Steps.cons values socket e [] s s1 s1 h (Steps.refl _)).frame).2.2.length_le

theorem seed_vector_targets_ok (net : MFNetwork) (values : Nat) :
    ∀ (ts : List InputRef) (s : EvalState), ts.Nodup →
      (∀ t ∈ ts, (seed_effect net t).isSome = true) →
      (∀ t ∈ ts, ∀ sl, s.storage.slot_map sl t = none) →
      values < s.memory.vector_arrays.length →
      ∃ s1, seed_vector_targets net values ts s = .ok s1 := by
  intro ts
  induction ts with
  | nil => intro s _ _ _ _; exact ⟨s, rfl⟩
  | cons t rest ih =>
    intro s hnd he habs hv
    obtain ⟨hn1, hn2⟩ := List.nodup_cons.mp hnd
    obtain ⟨s2, h2⟩ := seed_vector_target_ok (he t (List.mem_cons_self _ _))
      (habs t (List.mem_cons_self _ _)) hv
    obtain ⟨e, _, hspec⟩ := seed_vector_target_effect h2
    obtain ⟨s1, h1⟩ := ih s2 hn2 (fun t1 ht1 => he t1 (List.mem_cons_of_mem _ ht1))
      (by
        intro t1 ht1 sl
        rw [effect_spec_absent hspec (fun hc => hn1 (hc ▸ ht1)) sl]
        exact habs t1 (List.mem_cons_of_mem _ ht1) sl)
      (Nat.lt_of_lt_of_le hv (effect_spec_grows hspec))
    exact ⟨s1, by simp only [seed_vector_targets]; rw [h2]; exact h1⟩

theorem forward_vector_targets_ok (net : MFNetwork) (tree : MultiFunction_FunctionTree)
    (values : Nat) :
    ∀ (ts : List InputRef) (s : EvalState), ts.Nodup →
      (∀ t ∈ ts, (forward_effect net tree t).isSome = true) →
      (∀ t ∈ ts, ∀ sl, s.storage.slot_map sl t = none) →
      values < s.memory.vector_arrays.length →
      ∃ s1, forward_vector_targets net tree values ts s = .ok s1 := by
  intro ts
  induction ts with
  | nil => intro s _ _ _ _; exact ⟨s, rfl⟩
  | cons t rest ih =>
    intro s hnd he habs hv
    obtain ⟨hn1, hn2⟩ := List.nodup_cons.mp hnd
    obtain ⟨s2, h2⟩ := forward_vector_target_ok (he t (List.mem_cons_self _ _))
      (habs t (List.mem_cons_self _ _)) hv
    obtain ⟨e, _, hspec⟩ := forward_vector_target_effect h2
    obtain ⟨s1, h1⟩ := ih s2 hn2 (fun t1 ht1 => he t1 (List.mem_cons_of_mem _ ht1))
      (by
        intro t1 ht1 sl
        rw [effect_spec_absent hspec (fun hc => hn1 (hc ▸ ht1)) sl]
        exact habs t1 (List.mem_cons_of_mem _ ht1) sl)
      (Nat.lt_of_lt_of_le hv (effect_spec_grows hspec))
    exact ⟨s1, by simp only [forward_vector_targets]; rw [h2]; exact h1⟩

/-! ## The loops over outputs and boundary inputs as installation steps -/

theorem forward_single_outputs_steps (net : MFNetwork) :
    ∀ (ls : List (OutputRef × Nat)) (st st1 : Storage) (mem : Memory) (trace : List Nat),
      forward_single_outputs net ls st = .ok st1 →
      Steps (single_steps net ls) ⟨mem, st, trace⟩ ⟨mem, st1, trace⟩ := by
  intro ls
  induction ls with
  | nil =>
    intro st st1 mem trace h
    simp [forward_single_outputs] at h
    cases h
    exact Steps.refl _
  | cons x rest ih =>
    intro st st1 mem trace h
    obtain ⟨o, a⟩ := x
    simp only [forward_single_outputs] at h
    obtain ⟨st2, h2, h⟩ := bind_eq_ok h
    have s1 := set_virtual_list_for_targets_steps a (net.targets o) _ st2 mem trace h2
    have s1' : Steps _ ⟨mem, st, trace⟩ ⟨mem, st2, trace⟩ :=
      Steps.congr_left s1 rfl rfl (fun sl k => by simp)
    have := Steps.append s1' (ih st2 st1 mem trace h)
    simpa [single_steps] using this

theorem single_steps_targets (net : MFNetwork) (ls : List (OutputRef × Nat)) :
    (single_steps net ls).map (fun x => x.2.1) = ls.flatMap (fun x => net.targets x.1) := by
  induction ls with
  | nil => rfl
  | cons x rest ih =>
    have : single_steps net (x :: rest) =
        (net.targets x.1).map (fun t => ((x.2, t, .shared .virtual_list) : InstallStep)) ++
          single_steps net rest := by
      simp [single_steps]
    rw [this, List.map_append, ih]
    simp [List.map_map, Function.comp_def]

theorem mem_single_steps {net : MFNetwork} {ls : List (OutputRef × Nat)} {x : InstallStep}
    (h : x ∈ single_steps net ls) :
    ∃ o, (o, x.1) ∈ ls ∧ x.2.1 ∈ net.targets o ∧ x.2.2 = .shared .virtual_list := by
  unfold single_steps at h
  obtain ⟨y, hy, hx⟩ := List.mem_flatMap.mp h
  obtain ⟨t, ht, rfl⟩ := List.mem_map.mp hx
  exact ⟨y.1, hy, ht, rfl⟩

theorem forward_single_outputs_ok (net : MFNetwork) :
    ∀ (ls : List (OutputRef × Nat)) (st : Storage),
      (ls.flatMap (fun x => net.targets x.1)).Nodup →
      (∀ t ∈ ls.flatMap (fun x => net.targets x.1), st.m_virtual_list_for_inputs t = none) →
      ∃ st1, forward_single_outputs net ls st = .ok st1 := by
  intro ls
  induction ls with
  | nil => intro st _ _; exact ⟨st, rfl⟩
  | cons x rest ih =>
    intro st hnd habs
    obtain ⟨o, a⟩ := x
    simp only [List.flatMap_cons] at hnd habs
    obtain ⟨hn1, hn2, hdisj⟩ := List.nodup_append.mp hnd
    obtain ⟨st2, h2⟩ := set_virtual_list_for_targets_ok a (net.targets o)
      (st.take_array_ref_ownership a) hn1
      (fun t ht => habs t (List.mem_append_left _ ht))
    have hs := set_virtual_list_for_targets_steps a (net.targets o) _ st2
      ⟨[], [], fun _ _ => 0⟩ [] h2
    obtain ⟨st1, h1⟩ := ih st2 hn2 (by
      intro t ht
      have := hs.untouched .virtual_list t (by
        intro y hy hc
        obtain ⟨t', ht', rfl⟩ := List.mem_map.mp hy
        simp only at hc
        subst hc
        exact hdisj ht' ht)
      simp only [Storage.slot_map] at this
      rw [this]
      exact habs t (List.mem_append_right _ ht))
    exact ⟨st1, by simp only [forward_single_outputs]; rw [h2]; exact h1⟩

theorem forward_vector_outputs_steps (net : MFNetwork) (tree : MultiFunction_FunctionTree) :
    ∀ (lv : List (OutputRef × Nat)) (s s1 : EvalState),
      forward_vector_outputs net tree lv s = .ok s1 →
      ∃ l, Steps l s s1 ∧ OutputSteps net tree lv l := by
  intro lv
  induction lv with
  | nil =>
    intro s s1 h
    simp [forward_vector_outputs] at h
    cases h
    exact ⟨[], Steps.refl _, rfl, by simp⟩
  | cons x rest ih =>
    intro s s1 h
    obtain ⟨o, a⟩ := x
    simp only [forward_vector_outputs] at h
    obtain ⟨s2, h2, h⟩ := bind_eq_ok h
    obtain ⟨l1, hl1, hm1, hx1⟩ := forward_vector_targets_steps net tree a _ _ _ h2
    have hl1' : Steps l1 s s2 := Steps.congr_left hl1 rfl rfl (fun sl k => by simp)
    obtain ⟨l2, hl2, hm2, hx2⟩ := ih s2 s1 h
    refine ⟨l1 ++ l2, Steps.append hl1' hl2, by simp [hm1, hm2], ?_⟩
    intro x hx
    rcases List.mem_append.mp hx with hx | hx
    · obtain ⟨e1, e2⟩ := hx1 x hx
      refine ⟨o, by rw [e1]; exact List.mem_cons_self _ _, ?_, e2⟩
      rw [← hm1]
      exact List.mem_map_of_mem (fun x => x.2.1) hx
    · obtain ⟨o2, e1, e2, e3⟩ := hx2 x hx
      exact ⟨o2, List.mem_cons_of_mem _ e1, e2, e3⟩

theorem forward_vector_outputs_ok (net : MFNetwork) (tree : MultiFunction_FunctionTree) :
    ∀ (lv : List (OutputRef × Nat)) (s : EvalState),
      (lv.flatMap (fun x => net.targets x.1)).Nodup →
      (∀ t ∈ lv.flatMap (fun x => net.targets x.1),
        (forward_effect net tree t).isSome = true ∧ ∀ sl, s.storage.slot_map sl t = none) →
      (∀ x ∈ lv, x.2 < s.memory.vector_arrays.length) →
      ∃ s1, forward_vector_outputs net tree lv s = .ok s1 := by
  intro lv
  induction lv with
  | nil => intro s _ _ _; exact ⟨s, rfl⟩
  | cons x rest ih =>
    intro s hnd habs hv
    obtain ⟨o, a⟩ := x
    simp only [List.flatMap_cons] at hnd habs
    obtain ⟨hn1, hn2, hdisj⟩ := List.nodup_append.mp hnd
    obtain ⟨s2, h2⟩ := forward_vector_targets_ok net tree a (net.targets o)
      { s with storage := s.storage.take_vector_array_ownership__not_twice a } hn1
      (fun t ht => (habs t (List.mem_append_left _ ht)).1)
      (fun t ht sl => by simpa using (habs t (List.mem_append_left _ ht)).2 sl)
      (hv _ (List.mem_cons_self _ _))
    obtain ⟨l1, hl1, hm1, _⟩ := forward_vector_targets_steps net tree a _ _ _ h2
    obtain ⟨s1, h1⟩ := ih s2 hn2 (by
      intro t ht
      refine ⟨(habs t (List.mem_append_right _ ht)).1, fun sl => ?_⟩
      have := hl1.untouched sl t (by
        intro y hy hc
        have : y.2.1 ∈ net.targets o := by
          rw [← hm1]; exact List.mem_map_of_mem (fun x => x.2.1) hy
        rw [hc] at this
        exact hdisj this ht)
      rw [this]
      simpa using (habs t (List.mem_append_right _ ht)).2 sl)
      (by
        intro y hy
        exact Nat.lt_of_lt_of_le (hv y (List.mem_cons_of_mem _ hy)) hl1.frame.2.2.length_le)
    exact ⟨s1, by simp only [forward_vector_outputs]; rw [h2]; exact h1⟩

theorem copy_inputs_from_steps (net : MFNetwork) (params : List MFParam) :
    ∀ (ins : List OutputRef) (i0 : Nat) (s s1 : EvalState),
      copy_inputs_from net params i0 ins s = .ok s1 →
      ∃ l, Steps l s s1 ∧ SeedSteps net params i0 ins l := by
  intro ins
  induction ins with
  | nil =>
    intro i0 s s1 h
    simp [copy_inputs_from] at h
    cases h
    exact ⟨[], Steps.refl _, rfl, by simp⟩
  | cons o rest ih =>
    intro i0 s s1 h
    unfold copy_inputs_from at h
    obtain ⟨os, hos, h⟩ := bind_eq_ok h
    have shift : ∀ l2, SeedSteps net params (i0 + 1) rest l2 →
        ∀ x ∈ l2, ∃ (k : Nat) (o' : OutputRef) (os' : MFOutputSocket),
          (o :: rest)[k]? = some o' ∧ net.output o' = .ok os' ∧
            x.2.1 ∈ net.targets o' ∧ seed_entry net params (i0 + k) os'.type x := by
      intro l2 h2 x hx
      obtain ⟨k, o', os', a, b, c, d⟩ := h2.2 x hx
      refine ⟨k + 1, o', os', by simpa using a, b, c, ?_⟩
      have : i0 + (k + 1) = i0 + 1 + k := by omega
      rw [this]; exact d
    cases ht : os.type with
    | none => simp [ht] at h
    | single t =>
      simp only [ht] at h
      obtain ⟨a, ha, h⟩ := bind_eq_ok h
      obtain ⟨st, hst, h⟩ := bind_eq_ok h
      have s1' := set_virtual_list_for_targets_steps a (net.targets o) _ st s.memory s.trace hst
      obtain ⟨l2, hl2, hS2⟩ := ih (i0 + 1) _ s1 h
      refine ⟨_ ++ l2, Steps.append s1' hl2, ?_, ?_⟩
      · simp [hS2.1, List.map_map, Function.comp_def]
      · intro x hx
        rcases List.mem_append.mp hx with hx | hx
        · obtain ⟨t', ht', rfl⟩ := List.mem_map.mp hx
          refine ⟨0, o, os, by simp, hos, ht', ?_⟩
          show seed_entry net params (i0 + 0) os.type (a, t', .shared .virtual_list)
          rw [ht]
          exact ⟨rfl, readonly_single_input_eq_ok.mp ha⟩
        · exact shift l2 hS2 x hx
    | vector t =>
      simp only [ht] at h
      obtain ⟨a, ha, h⟩ := bind_eq_ok h
      obtain ⟨s2, hs2, h⟩ := bind_eq_ok h
      obtain ⟨l1, hl1, hm1, hx1⟩ := seed_vector_targets_steps net a _ _ _ hs2
      obtain ⟨l2, hl2, hS2⟩ := ih (i0 + 1) _ s1 h
      refine ⟨l1 ++ l2, Steps.append hl1 hl2, ?_, ?_⟩
      · simp [hS2.1, hm1]
      · intro x hx
        rcases List.mem_append.mp hx with hx | hx
        · obtain ⟨e1, e2⟩ := hx1 x hx
          refine ⟨0, o, os, by simp, hos, ?_, ?_⟩
          · rw [← hm1]; exact List.mem_map_of_mem (fun x => x.2.1) hx
          · show seed_entry net params (i0 + 0) os.type x
            rw [ht]
            exact ⟨e2, by rw [e1]; exact readonly_vector_input_eq_ok.mp ha⟩
        · exact shift l2 hS2 x hx

theorem copy_inputs_from_ok (net : MFNetwork) (params : List MFParam) :
    ∀ (ins : List OutputRef) (i0 : Nat) (s : EvalState),
      (ins.flatMap (fun o => net.targets o)).Nodup →
      (∀ t ∈ ins.flatMap (fun o => net.targets o), ∀ sl, s.storage.slot_map sl t = none) →
      (∀ (k : Nat) o, ins[k]? = some o → seed_ready net params s.memory (i0 + k) o) →
      ∃ s1, copy_inputs_from net params i0 ins s = .ok s1 := by
  intro ins
  induction ins with
  | nil => intro i0 s _ _ _; exact ⟨s, rfl⟩
  | cons o rest ih =>
    intro i0 s hnd habs hready
    simp only [List.flatMap_cons] at hnd habs
    obtain ⟨hn1, hn2, hdisj⟩ := List.nodup_append.mp hnd
    obtain ⟨os, hos, hr⟩ := hready 0 o (by simp)
    have hready2 : ∀ (s2 : EvalState),
        s.memory.vector_arrays.length ≤ s2.memory.vector_arrays.length →
        ∀ (k : Nat) o', rest[k]? = some o' → seed_ready net params s2.memory (i0 + 1 + k) o' := by
      intro s2 hle k o' hk
      obtain ⟨os', a, b⟩ := hready (k + 1) o' (by simpa using hk)
      have e : i0 + (k + 1) = i0 + 1 + k := by omega
      rw [e] at b
      refine ⟨os', a, ?_⟩
      cases ht' : os'.type with
      | none => simp [ht'] at b
      | single t => simpa [ht'] using b
      | vector t =>
        simp only [ht'] at b ⊢
        obtain ⟨a1, b1, b2, b3⟩ := b
        exact ⟨a1, b1, Nat.lt_of_lt_of_le b2 hle, b3⟩
    unfold copy_inputs_from
    rw [hos]
    simp only [bind_ok]
    cases ht : os.type with
    | none => simp [ht] at hr
    | single t =>
      simp only [ht, Nat.add_zero] at hr ⊢
      obtain ⟨a, ha⟩ := hr
      rw [readonly_single_input_eq_ok.mpr ha]
      simp only [bind_ok]
      obtain ⟨st2, h2⟩ := set_virtual_list_for_targets_ok a (net.targets o) s.storage hn1
        (fun t ht => habs t (List.mem_append_left _ ht) .virtual_list)
      rw [h2]
      simp only [bind_ok]
      have hs := set_virtual_list_for_targets_steps a (net.targets o) _ st2 s.memory s.trace h2
      apply ih (i0 + 1) _ hn2
      · intro t' ht' sl
        have := hs.untouched sl t' (by
          intro y hy hc
          obtain ⟨t'', ht'', rfl⟩ := List.mem_map.mp hy
          simp only at hc
          subst hc
          exact hdisj ht'' ht')
        simp only at this
        rw [this]
        exact habs t' (List.mem_append_right _ ht') sl
      · exact hready2 _ (Nat.le_refl _)
    | vector t =>
      simp only [ht, Nat.add_zero] at hr ⊢
      obtain ⟨a, ha, hlt, heff⟩ := hr
      rw [readonly_vector_input_eq_ok.mpr ha]
      simp only [bind_ok]
      obtain ⟨s2, h2⟩ := seed_vector_targets_ok net a (net.targets o) s hn1 heff
        (fun t ht sl => habs t (List.mem_append_left _ ht) sl) hlt
      rw [h2]
      simp only [bind_ok]
      obtain ⟨l1, hl1, hm1, _⟩ := seed_vector_targets_steps net a _ _ _ h2
      apply ih (i0 + 1) _ hn2
      · intro t' ht' sl
        have := hl1.untouched sl t' (by
          intro y hy hc
          have : y.2.1 ∈ net.targets o := by
            rw [← hm1]; exact List.mem_map_of_mem (fun x => x.2.1) hy
          rw [hc] at this
          exact hdisj this ht')
        rw [this]
        exact habs t' (List.mem_append_right _ ht') sl
      · exact hready2 _ hl1.frame.2.2.length_le

/-! ## The parameter loop of `compute_and_forward_outputs` -/

theorem first_index_eq_ok {xs : List Nat} {x i : Nat} :
    first_index xs x = .ok i ↔ x ∈ xs ∧ i = xs.indexOf x := by
  unfold first_index
  by_cases h : xs.indexOf x < xs.length
  · simp only [h, if_true, Except.ok.injEq]
    exact ⟨fun e => ⟨List.indexOf_lt_length.mp h, e.symm⟩, fun e => e.2.symm⟩
  · simp only [h, if_false]
    constructor
    · intro e; cases e
    · rintro ⟨e, _⟩; exact absurd (List.indexOf_lt_length.mpr e) h

theorem first_index_of_mem {xs : List Nat} {x : Nat} (h : x ∈ xs) :
    first_index xs x = .ok (xs.indexOf x) :=
  first_index_eq_ok.mpr ⟨h, rfl⟩

theorem getElem?_indexOf {xs : List Nat} {x : Nat} (h : x ∈ xs) :
    xs[xs.indexOf x]? = some x := by
  have hlt := List.indexOf_lt_length.mpr h
  rw [List.getElem?_eq_getElem hlt, List.getElem_indexOf hlt]

theorem indexOf_of_getElem? {xs : List Nat} (hnd : xs.Nodup) {i x : Nat}
    (h : xs[i]? = some x) : xs.indexOf x = i := by
  obtain ⟨hlt, rfl⟩ := List.getElem?_eq_some.mp h
  exact List.indexOf_getElem hnd i hlt

theorem indexOf_inj {xs : List Nat} {x y : Nat} (hx : x ∈ xs) (hy : y ∈ xs)
    (h : xs.indexOf x = xs.indexOf y) : x = y := by
  have a := getElem?_indexOf hx
  have b := getElem?_indexOf hy
  rw [h, b] at a
  exact (Option.some.inj a).symm

/-- The parameter loop never fails on a node as the builder makes it, once
every input socket holds its value in the map its parameter reads. -/
theorem add_param_ok {node : MFNode} {function : MultiFunction} {ipi opi : List Nat}
    (hk : node.kind = .function function ipi opi) (hok : node_ok node)
    (node_id size : Nat) (st : Storage) (hready : InputsReady st node_id function ipi)
    {p : Nat} {pt : MFParamType} (hp : function.signature[p]? = some pt)
    (b : ParamsBuilderState) :
    ∃ b1, add_param node_id node ipi opi size st p pt b = .ok b1 := by
  obtain ⟨hil, hol, _, _, _, hcov⟩ := node_ok_function hk hok
  have hplt : p < function.signature.length := (List.getElem?_eq_some.mp hp).1
  obtain ⟨hne, hin, hout⟩ := param_covered_spec hp (hcov p hplt)
  have inputs_ok : pt.is_input = true →
      first_index ipi p = .ok (ipi.indexOf p) ∧
        (∃ s, index_list node.inputs (ipi.indexOf p) = .ok s) ∧
        ipi[ipi.indexOf p]? = some p := by
    intro h
    have hm := hin h
    refine ⟨first_index_of_mem hm, ?_, getElem?_indexOf hm⟩
    have := List.indexOf_lt_length.mpr hm
    exact ⟨_, index_list_of_lt (by omega)⟩
  have outputs_ok : pt.is_output = true →
      first_index opi p = .ok (opi.indexOf p) ∧
        (∃ s, index_list node.outputs (opi.indexOf p) = .ok s) := by
    intro h
    have hm := hout h
    refine ⟨first_index_of_mem hm, ?_⟩
    have := List.indexOf_lt_length.mpr hm
    exact ⟨_, index_list_of_lt (by omega)⟩
  cases pt with
  | none => exact absurd rfl hne
  | readonly_single_input t =>
    obtain ⟨a, ⟨s, b2⟩, c⟩ := inputs_ok rfl
    have := hready _ _ _ c hp
    simp only at this
    obtain ⟨v, hv⟩ := Option.isSome_iff_exists.mp this
    simp only [add_param, a, b2, bind_ok, Storage.get_virtual_list_for_input,
      lookup_eq_ok.mpr hv]
    exact ⟨_, rfl⟩
  | readonly_vector_input t =>
    obtain ⟨a, ⟨s, b2⟩, c⟩ := inputs_ok rfl
    have := hready _ _ _ c hp
    simp only at this
    obtain ⟨v, hv⟩ := Option.isSome_iff_exists.mp this
    simp only [add_param, a, b2, bind_ok, Storage.get_virtual_list_list_for_input,
      lookup_eq_ok.mpr hv]
    exact ⟨_, rfl⟩
  | single_output t =>
    obtain ⟨a, ⟨s, b2⟩⟩ := outputs_ok rfl
    simp only [add_param, a, b2, bind_ok]
    exact ⟨_, rfl⟩
  | vector_output t =>
    obtain ⟨a, ⟨s, b2⟩⟩ := outputs_ok rfl
    simp only [add_param, a, b2, bind_ok]
    exact ⟨_, rfl⟩
  | mutable_vector t =>
    obtain ⟨a, ⟨s, b2⟩, c⟩ := inputs_ok rfl
    obtain ⟨a', ⟨s', b2'⟩⟩ := outputs_ok rfl
    have := hready _ _ _ c hp
    simp only at this
    obtain ⟨v, hv⟩ := Option.isSome_iff_exists.mp this
    simp only [add_param, a, b2, a', b2', bind_ok, Storage.get_vector_array_for_input,
      lookup_eq_ok.mpr hv]
    exact ⟨_, rfl⟩

theorem add_params_ok {node : MFNode} {function : MultiFunction} {ipi opi : List Nat}
    (hk : node.kind = .function function ipi opi) (hok : node_ok node)
    (node_id size : Nat) (st : Storage) (hready : InputsReady st node_id function ipi) :
    ∀ (rest : List MFParamType) (p0 : Nat) (b : ParamsBuilderState),
      (∀ (k : Nat) pt, rest[k]? = some pt → function.signature[p0 + k]? = some pt) →
      ∃ b1, add_params node_id node ipi opi size st p0 rest b = .ok b1 := by
  intro rest
  induction rest with
  | nil => intro p0 b _; exact ⟨b, rfl⟩
  | cons pt rest ih =>
    intro p0 b hsig
    obtain ⟨b2, h2⟩ := add_param_ok hk hok node_id size st hready
      (hsig 0 pt (by simp)) b
    obtain ⟨b1, h1⟩ := ih (p0 + 1) b2 (by
      intro k pt' hk'
      have := hsig (k + 1) pt' (by simpa using hk')
      have e : p0 + (k + 1) = p0 + 1 + k := by omega
      rw [← e]; exact this)
    refine ⟨b1, ?_⟩
    simp only [add_params]
    rw [Nat.add_zero] at h2
    rw [h2]
    exact h1

/-- Induction along the parameter loop. -/
theorem add_params_induct (node_id : Nat) (node : MFNode) (ipi opi : List Nat) (size : Nat)
    (st : Storage) (P : Nat → ParamsBuilderState → Prop) :
    ∀ (rest : List MFParamType) (p0 : Nat) (b b1 : ParamsBuilderState),
      add_params node_id node ipi opi size st p0 rest b = .ok b1 → P p0 b →
      (∀ (k : Nat) pt b2 b3, rest[k]? = some pt → P (p0 + k) b2 →
        add_param node_id node ipi opi size st (p0 + k) pt b2 = .ok b3 → P (p0 + k + 1) b3) →
      P (p0 + rest.length) b1 := by
  intro rest
  induction rest with
  | nil =>
    intro p0 b b1 h hP _
    simp [add_params] at h
    cases h
    exact hP
  | cons pt rest ih =>
    intro p0 b b1 h hP hstep
    simp only [add_params] at h
    obtain ⟨b2, h2, h⟩ := bind_eq_ok h
    have := ih (p0 + 1) b2 b1 h (hstep 0 pt b b2 (by simp) hP h2) (by
      intro k pt' b3 b4 hk' hP3 h34
      have e : p0 + (k + 1) = p0 + 1 + k := by omega
      have := hstep (k + 1) pt' b3 b4 (by simpa using hk') (by rw [e]; exact hP3)
        (by rw [e]; exact h34)
      rw [e] at this
      exact this)
    have e : p0 + (pt :: rest).length = p0 + 1 + rest.length := by simp; omega
    rw [e]
    exact this

theorem param_in_range_grows {mem mem1 : Memory} {prm : MFParam}
    (h : param_in_range mem prm = true)
    (ha : mem.arrays.length ≤ mem1.arrays.length)
    (hv : mem.vector_arrays.length ≤ mem1.vector_arrays.length) :
    param_in_range mem1 prm = true := by
  cases prm <;> simp only [param_in_range, decide_eq_true_eq] at h ⊢ <;> omega

/-- One iteration of the parameter loop keeps its invariant. -/
theorem add_param_inv {node : MFNode} {function : MultiFunction} {ipi opi : List Nat}
    (hk : node.kind = .function function ipi opi) (hok : node_ok node)
    (node_id size : Nat) (st : Storage) (mem0 : Memory) (hb : StorageBounded st mem0)
    {p : Nat} {pt : MFParamType} (hp : function.signature[p]? = some pt)
    {b b1 : ParamsBuilderState}
    (hinv : BuilderInv node_id function opi mem0 p b)
    (h : add_param node_id node ipi opi size st p pt b = .ok b1) :
    BuilderInv node_id function opi mem0 (p + 1) b1 := by
  obtain ⟨hil, hol, _, _, _, hcov⟩ := node_ok_function hk hok
  have hplt : p < function.signature.length := (List.getElem?_eq_some.mp hp).1
  obtain ⟨hne, hin, hout⟩ := param_covered_spec hp (hcov p hplt)
  have lift_single : ∀ {mem1 : Memory}, b.memory.arrays.length ≤ mem1.arrays.length →
      ∀ x ∈ b.single_outputs_to_forward, ∃ q t, q < p + 1 ∧
        function.signature[q]? = some (.single_output t) ∧
        x.1 = (node_id, opi.indexOf q) ∧ x.2 < mem1.arrays.length := by
    intro mem1 hle x hx
    obtain ⟨q, t, a, b2, c, d⟩ := hinv.single_ok x hx
    exact ⟨q, t, by omega, b2, c, by omega⟩
  have lift_vector : ∀ {mem1 : Memory},
      b.memory.vector_arrays.length ≤ mem1.vector_arrays.length →
      ∀ x ∈ b.vector_outputs_to_forward, ∃ q t, q < p + 1 ∧
        (function.signature[q]? = some (.vector_output t) ∨
          function.signature[q]? = some (.mutable_vector t)) ∧
        x.1 = (node_id, opi.indexOf q) ∧ x.2 < mem1.vector_arrays.length := by
    intro mem1 hle x hx
    obtain ⟨q, t, a, b2, c, d⟩ := hinv.vector_ok x hx
    exact ⟨q, t, by omega, b2, c, by omega⟩
  have old_single : ∀ q t, q < p + 1 → function.signature[q]? = some (.single_output t) →
      pt ≠ .single_output t →
      ∃ a, ((node_id, opi.indexOf q), a) ∈ b.single_outputs_to_forward := by
    intro q t hq hs hne2
    have : q ≠ p := by
      intro hc; subst hc; rw [hp] at hs; exact hne2 (Option.some.inj hs)
    exact hinv.single_covered q t (by omega) hs
  have old_vector : ∀ q t, q < p + 1 →
      (function.signature[q]? = some (.vector_output t) ∨
        function.signature[q]? = some (.mutable_vector t)) →
      (pt ≠ .vector_output t ∧ pt ≠ .mutable_vector t) →
      ∃ a, ((node_id, opi.indexOf q), a) ∈ b.vector_outputs_to_forward := by
    intro q t hq hs hne2
    have : q ≠ p := by
      intro hc; subst hc; rw [hp] at hs
      rcases hs with hs | hs
      · exact hne2.1 (Option.some.inj hs)
      · exact hne2.2 (Option.some.inj hs)
    exact hinv.vector_covered q t (by omega) hs
  have fresh_fst : pt.is_output = true →
      (node_id, opi.indexOf p) ∉
        (b.single_outputs_to_forward ++ b.vector_outputs_to_forward).map Prod.fst := by
    intro hio hmem
    obtain ⟨x, hx, hxe⟩ := List.mem_map.mp hmem
    have key : ∀ q, q < p → q ∈ opi → x.1 = (node_id, opi.indexOf q) → False := by
      intro q hq hqm he
      rw [hxe] at he
      have := indexOf_inj (hout hio) hqm (Prod.mk.inj he).2
      omega
    rcases List.mem_append.mp hx with hx | hx
    · obtain ⟨q, t, a, b2, c, _⟩ := hinv.single_ok x hx
      have hqlt : q < function.signature.length := (List.getElem?_eq_some.mp b2).1
      exact key q a ((param_covered_spec b2 (hcov q hqlt)).2.2 rfl) c
    · obtain ⟨q, t, a, b2, c, _⟩ := hinv.vector_ok x hx
      rcases b2 with b2 | b2
      · have hqlt : q < function.signature.length := (List.getElem?_eq_some.mp b2).1
        exact key q a ((param_covered_spec b2 (hcov q hqlt)).2.2 rfl) c
      · have hqlt : q < function.signature.length := (List.getElem?_eq_some.mp b2).1
        exact key q a ((param_covered_spec b2 (hcov q hqlt)).2.2 rfl) c
  cases pt with
  | none => exact absurd rfl hne
  | readonly_single_input t =>
    simp only [add_param] at h
    obtain ⟨i, _, h⟩ := bind_eq_ok h
    obtain ⟨_, _, h⟩ := bind_eq_ok h
    obtain ⟨v, hv, h⟩ := bind_eq_ok h
    cases h
    have hvb := hb.1 _ _ (lookup_eq_ok.mp hv)
    refine ⟨hinv.grows_arrays, hinv.grows_vectors, ?_, lift_single (Nat.le_refl _),
      lift_vector (Nat.le_refl _), fun q t' hq hs => old_single q t' hq hs (by simp),
      fun q t' hq hs => old_vector q t' hq hs (by simp), hinv.nodup⟩
    intro prm hprm
    rcases List.mem_append.mp hprm with hprm | hprm
    · exact hinv.params_in_range prm hprm
    · simp only [List.mem_singleton] at hprm
      subst hprm
      simp only [param_in_range, decide_eq_true_eq]
      have := hinv.grows_arrays
      omega
  | readonly_vector_input t =>
    simp only [add_param] at h
    obtain ⟨i, _, h⟩ := bind_eq_ok h
    obtain ⟨_, _, h⟩ := bind_eq_ok h
    obtain ⟨v, hv, h⟩ := bind_eq_ok h
    cases h
    have hvb := hb.2.1 _ _ (lookup_eq_ok.mp hv)
    refine ⟨hinv.grows_arrays, hinv.grows_vectors, ?_, lift_single (Nat.le_refl _),
      lift_vector (Nat.le_refl _), fun q t' hq hs => old_single q t' hq hs (by simp),
      fun q t' hq hs => old_vector q t' hq hs (by simp), hinv.nodup⟩
    intro prm hprm
    rcases List.mem_append.mp hprm with hprm | hprm
    · exact hinv.params_in_range prm hprm
    · simp only [List.mem_singleton] at hprm
      subst hprm
      simp only [param_in_range, decide_eq_true_eq]
      have := hinv.grows_vectors
      omega
  | single_output t =>
    simp only [add_param] at h
    obtain ⟨j, hj, h⟩ := bind_eq_ok h
    obtain ⟨_, _, h⟩ := bind_eq_ok h
    cases h
    obtain ⟨_, rfl⟩ := first_index_eq_ok.mp hj
    have hga := hinv.grows_arrays
    refine ⟨by simp [Memory.allocate_array]; omega, hinv.grows_vectors, ?_, ?_,
      lift_vector (Nat.le_refl _), ?_,
      fun q t' hq hs => old_vector q t' hq hs (by simp), ?_⟩
    · intro prm hprm
      rcases List.mem_append.mp hprm with hprm | hprm
      · exact param_in_range_grows (hinv.params_in_range prm hprm)
          (by simp [Memory.allocate_array]) (Nat.le_refl _)
      · simp only [List.mem_singleton] at hprm
        subst hprm
        simp [param_in_range, Memory.allocate_array]
    · intro x hx
      rcases List.mem_append.mp hx with hx | hx
      · exact lift_single (by simp [Memory.allocate_array]) x hx
      · simp only [List.mem_singleton] at hx
        subst hx
        exact ⟨p, t, by omega, hp, rfl, by simp [Memory.allocate_array]⟩
    · intro q t' hq hs
      by_cases hqp : q = p
      · subst hqp
        exact ⟨_, List.mem_append_right _ (List.mem_singleton.mpr rfl)⟩
      · obtain ⟨a, ha⟩ := hinv.single_covered q t' (by omega) hs
        exact ⟨a, List.mem_append_left _ ha⟩
    · have := fresh_fst rfl
      have hnd := hinv.nodup
      simp only [List.map_append, List.map_cons, List.map_nil] at this hnd ⊢
      rw [List.append_assoc, List.nodup_append] at *
      simp only [List.singleton_append, List.nodup_cons, List.mem_append, not_or] at *
      refine ⟨hnd.1, ⟨?_, hnd.2.1⟩, ?_⟩
      · exact fun hc => (this.2 hc)
      · intro x hx1 hx2
        rcases List.mem_cons.mp hx2 with rfl | hx2
        · exact this.1 hx1
        · exact hnd.2.2 hx1 hx2
  | vector_output t =>
    simp only [add_param] at h
    obtain ⟨j, hj, h⟩ := bind_eq_ok h
    obtain ⟨_, _, h⟩ := bind_eq_ok h
    cases h
    obtain ⟨_, rfl⟩ := first_index_eq_ok.mp hj
    have hgv := hinv.grows_vectors
    refine ⟨hinv.grows_arrays, by simp [Memory.new_vector_array]; omega, ?_,
      lift_single (Nat.le_refl _), ?_,
      fun q t' hq hs => old_single q t' hq hs (by simp), ?_, ?_⟩
    · intro prm hprm
      rcases List.mem_append.mp hprm with hprm | hprm
      · exact param_in_range_grows (hinv.params_in_range prm hprm)
          (Nat.le_refl _) (by simp [Memory.new_vector_array])
      · simp only [List.mem_singleton] at hprm
        subst hprm
        simp [param_in_range, Memory.new_vector_array]
    · intro x hx
      rcases List.mem_append.mp hx with hx | hx
      · exact lift_vector (by simp [Memory.new_vector_array]) x hx
      · simp only [List.mem_singleton] at hx
        subst hx
        exact ⟨p, t, by omega, Or.inl hp, rfl, by simp [Memory.new_vector_array]⟩
    · intro q t' hq hs
      by_cases hqp : q = p
      · subst hqp
        exact ⟨_, List.mem_append_right _ (List.mem_singleton.mpr rfl)⟩
      · obtain ⟨a, ha⟩ := hinv.vector_covered q t' (by omega) hs
        exact ⟨a, List.mem_append_left _ ha⟩
    · have := fresh_fst rfl
      have hnd := hinv.nodup
      simp only [List.map_append, List.map_cons, List.map_nil] at this hnd ⊢
      rw [← List.append_assoc, List.nodup_append]
      refine ⟨hnd, List.nodup_singleton _, ?_⟩
      intro x hx1 hx2
      simp only [List.mem_singleton] at hx2
      subst hx2
      exact this hx1
  | mutable_vector t =>
    simp only [add_param] at h
    obtain ⟨i, _, h⟩ := bind_eq_ok h
    obtain ⟨_, _, h⟩ := bind_eq_ok h
    obtain ⟨j, hj, h⟩ := bind_eq_ok h
    obtain ⟨_, _, h⟩ := bind_eq_ok h
    obtain ⟨v, hv, h⟩ := bind_eq_ok h
    cases h
    obtain ⟨_, rfl⟩ := first_index_eq_ok.mp hj
    have hvb := hb.2.2 _ _ (lookup_eq_ok.mp hv)
    have hgv := hinv.grows_vectors
    refine ⟨hinv.grows_arrays, hinv.grows_vectors, ?_,
      lift_single (Nat.le_refl _), ?_,
      fun q t' hq hs => old_single q t' hq hs (by simp), ?_, ?_⟩
    · intro prm hprm
      rcases List.mem_append.mp hprm with hprm | hprm
      · exact hinv.params_in_range prm hprm
      · simp only [List.mem_singleton] at hprm
        subst hprm
        simp only [param_in_range, decide_eq_true_eq]
        omega
    · intro x hx
      rcases List.mem_append.mp hx with hx | hx
      · exact lift_vector (Nat.le_refl _) x hx
      · simp only [List.mem_singleton] at hx
        subst hx
        exact ⟨p, t, by omega, Or.inr hp, rfl, by simp only; omega⟩
    · intro q t' hq hs
      by_cases hqp : q = p
      · subst hqp
        exact ⟨_, List.mem_append_right _ (List.mem_singleton.mpr rfl)⟩
      · obtain ⟨a, ha⟩ := hinv.vector_covered q t' (by omega) hs
        exact ⟨a, List.mem_append_left _ ha⟩
    · have := fresh_fst rfl
      have hnd := hinv.nodup
      simp only [List.map_append, List.map_cons, List.map_nil] at this hnd ⊢
      rw [← List.append_assoc, List.nodup_append]
      refine ⟨hnd, List.nodup_singleton _, ?_⟩
      intro x hx1 hx2
      simp only [List.mem_singleton] at hx2
      subst hx2
      exact this hx1

/-! ## Reading and writing the parameters of a function -/

theorem read_param_ok {mem : Memory} {prm : MFParam} (h : param_in_range mem prm = true) :
    ∃ v, read_param mem prm = .ok v := by
  cases prm <;> simp only [param_in_range, decide_eq_true_eq] at h <;>
    simp only [read_param, index_list_of_lt h, bind_ok] <;> exact ⟨_, rfl⟩

theorem read_params_ok {mem : Memory} :
    ∀ (ps : List MFParam), (∀ prm ∈ ps, param_in_range mem prm = true) →
      ∃ vs, read_params mem ps = .ok vs := by
  intro ps
  induction ps with
  | nil => intro _; exact ⟨[], rfl⟩
  | cons prm rest ih =>
    intro h
    obtain ⟨v, hv⟩ := read_param_ok (h prm (List.mem_cons_self _ _))
    obtain ⟨vs, hvs⟩ := ih (fun q hq => h q (List.mem_cons_of_mem _ hq))
    exact ⟨v :: vs, by simp only [read_params, hv, hvs, bind_ok]⟩

theorem write_param_lengths (mem : Memory) (prm : MFParam) (v : ParamValue) :
    (write_param mem prm v).arrays.length = mem.arrays.length ∧
      (write_param mem prm v).vector_arrays.length = mem.vector_arrays.length := by
  cases prm <;> cases v <;> simp only [write_param] <;>
    first
    | exact ⟨rfl, rfl⟩
    | exact ⟨trivial, trivial⟩
    | (split
       · split
         · simp
         · exact ⟨rfl, rfl⟩
       · exact ⟨rfl, rfl⟩)

theorem write_params_lengths :
    ∀ (ps : List MFParam) (vs : List ParamValue) (mem : Memory),
      (write_params mem ps vs).arrays.length = mem.arrays.length ∧
        (write_params mem ps vs).vector_arrays.length = mem.vector_arrays.length := by
  intro ps
  induction ps with
  | nil => intro vs mem; simp [write_params]
  | cons prm rest ih =>
    intro vs mem
    cases vs with
    | nil => simp [write_params]
    | cons v vs =>
      simp only [write_params]
      obtain ⟨a, b⟩ := ih vs (write_param mem prm v)
      obtain ⟨c, d⟩ := write_param_lengths mem prm v
      exact ⟨a.trans c, b.trans d⟩

/-! ## The slot of a socket and the effects of seed and forwarding -/

theorem slot_single {net : MFNetwork} {tree : MultiFunction_FunctionTree} {t : InputRef}
    {s : MFInputSocket} {c : CPPType} (h : net.input t = .ok s) (ht : s.type = .single c) :
    slot net tree t = some .virtual_list := by
  obtain ⟨node, h1, h2⟩ := input_eq_ok.mp h
  simp [slot, h1, h2, ht]

/-- The parameter fed by an input socket of a function node takes its data type. -/
theorem consumer_param_spec {net : MFNetwork} {tree : MultiFunction_FunctionTree}
    (hwf : WellFormed net tree) {t : InputRef} {s : MFInputSocket} {node : MFNode}
    {function : MultiFunction} {ipi opi : List Nat}
    (hnode : net.nodes[t.1]? = some node) (hs : node.inputs[t.2]? = some s)
    (hk : node.kind = .function function ipi opi) :
    ∃ p pt, ipi[t.2]? = some p ∧ function.signature[p]? = some pt ∧
      param_accepts_input pt s.type = true := by
  obtain ⟨_, _, _, hin, _, _⟩ := node_ok_function hk (wf_node hwf hnode)
  obtain ⟨s', p, pt, a, b, c, d⟩ := input_param_ok_spec (hin t.2 (List.getElem?_eq_some.mp hs).1)
  rw [hs] at a
  cases a
  exact ⟨p, pt, b, c, d⟩

theorem slot_forward {net : MFNetwork} {tree : MultiFunction_FunctionTree}
    (hwf : WellFormed net tree) {t : InputRef} {s : MFInputSocket} {c : CPPType}
    {o : OutputRef} (h : net.input t = .ok s) (ht : s.type = .vector c)
    (ho : s.origin = some o) (hno : o ∉ tree.m_inputs) :
    ∃ e, forward_effect net tree t = some e ∧ slot net tree t = e.slot := by
  obtain ⟨node, h1, h2⟩ := input_eq_ok.mp h
  cases hk : node.kind with
  | placeholder =>
    by_cases hm : t ∈ tree.m_outputs
    · exact ⟨.shared .vector_array, by simp [forward_effect, h1, hk, hm],
        by simp [slot, h1, h2, ht, hk, ho, hno, hm, Effect.slot]⟩
    · exact ⟨.nothing, by simp [forward_effect, h1, hk, hm],
        by simp [slot, h1, h2, ht, hk, ho, hno, hm, Effect.slot]⟩
  | function f ipi opi =>
    obtain ⟨p, pt, a, b, d⟩ := consumer_param_spec hwf h1 h2 hk
    rw [ht] at d
    cases pt <;> simp [param_accepts_input] at d
    · exact ⟨.shared .virtual_list_list,
        by simp [forward_effect, h1, hk, MFNetwork.consumer_param, a, b],
        by simp [slot, h1, h2, ht, hk, a, b, Effect.slot]⟩
    · exact ⟨.copied,
        by simp [forward_effect, h1, hk, MFNetwork.consumer_param, a, b],
        by simp [slot, h1, h2, ht, hk, a, b, Effect.slot]⟩

theorem slot_seed {net : MFNetwork} {tree : MultiFunction_FunctionTree}
    (hwf : WellFormed net tree) {t : InputRef} {s : MFInputSocket} {c : CPPType}
    {o : OutputRef} (h : net.input t = .ok s) (ht : s.type = .vector c)
    (ho : s.origin = some o) (hno : o ∈ tree.m_inputs) :
    ∃ e, seed_effect net t = some e ∧ slot net tree t = e.slot := by
  obtain ⟨node, h1, h2⟩ := input_eq_ok.mp h
  cases hk : node.kind with
  | placeholder =>
    exact ⟨.shared .virtual_list_list, by simp [seed_effect, h1, hk],
      by simp [slot, h1, h2, ht, hk, ho, hno, Effect.slot]⟩
  | function f ipi opi =>
    obtain ⟨p, pt, a, b, d⟩ := consumer_param_spec hwf h1 h2 hk
    rw [ht] at d
    cases pt <;> simp [param_accepts_input] at d
    · exact ⟨.shared .virtual_list_list,
        by simp [seed_effect, h1, hk, MFNetwork.consumer_param, a, b],
        by simp [slot, h1, h2, ht, hk, a, b, Effect.slot]⟩
    · exact ⟨.copied,
        by simp [seed_effect, h1, hk, MFNetwork.consumer_param, a, b],
        by simp [slot, h1, h2, ht, hk, a, b, Effect.slot]⟩

/-- An input of a function node, or a boundary output, has a slot of the shape
of its data type. -/
theorem slot_relevant {net : MFNetwork} {tree : MultiFunction_FunctionTree}
    (hwf : WellFormed net tree) {t : InputRef} {s : MFInputSocket}
    (h : net.input t = .ok s) (hrel : net.is_function t.1 = true ∨ t ∈ tree.m_outputs) :
    ∃ sl, slot net tree t = some sl ∧
      ((∃ c, s.type = .single c) ∧ sl = .virtual_list ∨
        (∃ c, s.type = .vector c) ∧ (sl = .virtual_list_list ∨ sl = .vector_array)) := by
  obtain ⟨o, os, ho, _, _, hne⟩ := wf_input hwf h
  cases ht : s.type with
  | none => exact absurd ht hne
  | single c => exact ⟨_, slot_single h ht, Or.inl ⟨⟨c, rfl⟩, rfl⟩⟩
  | vector c =>
    by_cases hm : o ∈ tree.m_inputs
    · obtain ⟨e, he, hs⟩ := slot_seed hwf h ht ho hm
      obtain ⟨node, h1, h2⟩ := input_eq_ok.mp h
      cases hk : node.kind with
      | placeholder =>
        simp [seed_effect, h1, hk] at he
        subst he
        exact ⟨_, hs, Or.inr ⟨⟨c, rfl⟩, Or.inl rfl⟩⟩
      | function f ipi opi =>
        obtain ⟨p, pt, a, b, d⟩ := consumer_param_spec hwf h1 h2 hk
        rw [ht] at d
        cases pt <;> simp [param_accepts_input] at d
        · simp [seed_effect, h1, hk, MFNetwork.consumer_param, a, b] at he
          subst he
          exact ⟨_, hs, Or.inr ⟨⟨c, rfl⟩, Or.inl rfl⟩⟩
        · simp [seed_effect, h1, hk, MFNetwork.consumer_param, a, b] at he
          subst he
          exact ⟨_, hs, Or.inr ⟨⟨c, rfl⟩, Or.inr rfl⟩⟩
    · obtain ⟨e, he, hs⟩ := slot_forward hwf h ht ho hm
      obtain ⟨node, h1, h2⟩ := input_eq_ok.mp h
      cases hk : node.kind with
      | placeholder =>
        rcases hrel with hrel | hrel
        · simp [MFNetwork.is_function, h1, hk] at hrel
        · simp [forward_effect, h1, hk, hrel] at he
          subst he
          exact ⟨_, hs, Or.inr ⟨⟨c, rfl⟩, Or.inr rfl⟩⟩
      | function f ipi opi =>
        obtain ⟨p, pt, a, b, d⟩ := consumer_param_spec hwf h1 h2 hk
        rw [ht] at d
        cases pt <;> simp [param_accepts_input] at d
        · simp [forward_effect, h1, hk, MFNetwork.consumer_param, a, b] at he
          subst he
          exact ⟨_, hs, Or.inr ⟨⟨c, rfl⟩, Or.inl rfl⟩⟩
        · simp [forward_effect, h1, hk, MFNetwork.consumer_param, a, b] at he
          subst he
          exact ⟨_, hs, Or.inr ⟨⟨c, rfl⟩, Or.inr rfl⟩⟩

/-- For an input of a function node and for a boundary output,
`input_is_computed` tells whether the socket is in the domain of the maps. -/
theorem computed_iff {net : MFNetwork} {tree : MultiFunction_FunctionTree}
    (hwf : WellFormed net tree) {st : Storage} {D : InputRef → Prop}
    (hdom : DomInv net tree st D) {t : InputRef} {s : MFInputSocket}
    (h : net.input t = .ok s) (hrel : net.is_function t.1 = true ∨ t ∈ tree.m_outputs) :
    ∃ b, st.input_is_computed s.type t = .ok b ∧ (b = true ↔ D t) := by
  obtain ⟨sl, hsl, hcase⟩ := slot_relevant hwf h hrel
  have h1 := hdom t .virtual_list
  have h2 := hdom t .virtual_list_list
  have h3 := hdom t .vector_array
  simp only [Storage.slot_map, hsl, Option.some.injEq] at h1 h2 h3
  rcases hcase with ⟨⟨c, hc⟩, rfl⟩ | ⟨⟨c, hc⟩, rfl | rfl⟩
  · refine ⟨_, by rw [hc]; rfl, ?_⟩
    rw [h1]; simp
  · refine ⟨_, by rw [hc]; rfl, ?_⟩
    rw [Bool.or_eq_true, h2, h3]; simp
  · refine ⟨_, by rw [hc]; rfl, ?_⟩
    rw [Bool.or_eq_true, h2, h3]; simp

/-- Once every input of a function node is computed, each one holds its value
in the map that its parameter is read from. -/
theorem inputs_ready_of_computed {net : MFNetwork} {tree : MultiFunction_FunctionTree}
    (hwf : WellFormed net tree) {st : Storage} {D : InputRef → Prop}
    (hdom : DomInv net tree st D) {n : Nat} {node : MFNode}
    {function : MultiFunction} {ipi opi : List Nat}
    (hnode : net.nodes[n]? = some node) (hk : node.kind = .function function ipi opi)
    (hall : ∀ (i : Nat) s, node.inputs[i]? = some s →
      st.input_is_computed s.type (n, i) = .ok true) :
    InputsReady st n function ipi := by
  intro i p pt hp hpt
  obtain ⟨hil, _, _, _, _, _⟩ := node_ok_function hk (wf_node hwf hnode)
  have hi : i < node.inputs.length := by
    rw [← hil]; exact (List.getElem?_eq_some.mp hp).1
  have hs : node.inputs[i]? = some node.inputs[i] := List.getElem?_eq_getElem hi
  obtain ⟨p', pt', a, b, d⟩ := consumer_param_spec (t := (n, i)) hwf hnode hs hk
  simp only at a
  rw [hp] at a; cases a
  rw [hpt] at b; cases b
  have hcomp := hall i _ hs
  have hinput : net.input (n, i) = .ok node.inputs[i] := input_eq_ok.mpr ⟨node, hnode, hs⟩
  have h2 := hdom (n, i) .virtual_list_list
  have h3 := hdom (n, i) .vector_array
  cases hty : (node.inputs[i]).type with
  | none => rw [hty] at d; cases pt <;> simp [param_accepts_input] at d
  | single c =>
    rw [hty] at d hcomp
    cases pt <;> simp [param_accepts_input] at d
    simpa [Storage.input_is_computed] using hcomp
  | vector c =>
    rw [hty] at d hcomp
    simp only [Storage.input_is_computed, Except.ok.injEq, Bool.or_eq_true] at hcomp
    cases pt <;> simp [param_accepts_input] at d
    · have hslot : slot net tree (n, i) = some .virtual_list_list := by
        simp [slot, hnode, hs, hty, hk, hp, hpt]
      simp only [Storage.slot_map, hslot, Option.some.injEq] at h3
      rcases hcomp with hc | hc
      · exact hc
      · have := (h3.mp hc).2
        cases this
    · have hslot : slot net tree (n, i) = some .vector_array := by
        simp [slot, hnode, hs, hty, hk, hp, hpt]
      simp only [Storage.slot_map, hslot, Option.some.injEq] at h2
      rcases hcomp with hc | hc
      · have := (h2.mp hc).2
        cases this
      · exact hc

/-! ## Forwarding the outputs of a node keeps the invariants -/

theorem targets_disjoint {net : MFNetwork} {o1 o2 : OutputRef} (h : o1 ≠ o2) :
    List.Disjoint (net.targets o1) (net.targets o2) := by
  intro t h1 h2
  obtain ⟨s1, a1, b1⟩ := mem_targets.mp h1
  obtain ⟨s2, a2, b2⟩ := mem_targets.mp h2
  rw [a1] at a2
  cases a2
  rw [b1] at b2
  exact h (Option.some.inj b2)

theorem targets_flatMap_nodup {net : MFNetwork} {l : List (OutputRef × Nat)}
    (h : (l.map Prod.fst).Nodup) : (l.flatMap (fun x => net.targets x.1)).Nodup := by
  rw [List.nodup_flatMap]
  refine ⟨fun x _ => targets_nodup net x.1, ?_⟩
  have := List.pairwise_map.mp h
  exact this.imp (fun hne => targets_disjoint hne)

theorem boundary_input_placeholder {net : MFNetwork} {tree : MultiFunction_FunctionTree}
    (hwf : WellFormed net tree) {o : OutputRef} (h : o ∈ tree.m_inputs) :
    net.is_placeholder o.1 = true := by
  have := hwf.2.2.1 o h
  simp only [boundary_input_ok, Bool.and_eq_true] at this
  exact this.1

theorem not_installed_of_fresh {net : MFNetwork} {tree : MultiFunction_FunctionTree}
    (hwf : WellFormed net tree) {n : Nat} (hfn : net.is_function n = true) {trace : List Nat}
    (hfresh : n ∉ trace) {o : OutputRef} (ho : o.1 = n) {t : InputRef}
    (ht : t ∈ net.targets o) : ¬ Installed net tree trace t := by
  rintro ⟨s, o', a, b, c⟩
  obtain ⟨s', a', b'⟩ := mem_targets.mp ht
  rw [a] at a'
  cases a'
  rw [b] at b'
  cases b'
  rcases c with c | c
  · have := not_function_of_placeholder (boundary_input_placeholder hwf c)
    rw [ho, hfn] at this
    cases this
  · rw [ho] at c
    exact hfresh c

theorem installed_cons {net : MFNetwork} {tree : MultiFunction_FunctionTree} {n : Nat}
    {trace : List Nat} {t : InputRef} :
    Installed net tree (n :: trace) t ↔
      Installed net tree trace t ∨ ∃ j, t ∈ net.targets (n, j) := by
  constructor
  · rintro ⟨s, o, a, b, c | c⟩
    · exact Or.inl ⟨s, o, a, b, Or.inl c⟩
    · rcases List.mem_cons.mp c with c | c
      · right
        refine ⟨o.2, mem_targets.mpr ⟨s, a, ?_⟩⟩
        rw [b, ← c]
      · exact Or.inl ⟨s, o, a, b, Or.inr c⟩
  · rintro (⟨s, o, a, b, c | c⟩ | ⟨j, hj⟩)
    · exact ⟨s, o, a, b, Or.inl c⟩
    · exact ⟨s, o, a, b, Or.inr (List.mem_cons_of_mem _ c)⟩
    · obtain ⟨s, a, b⟩ := mem_targets.mp hj
      exact ⟨s, (n, j), a, b, Or.inr (List.mem_cons_self _ _)⟩

/-- Forwarding the single and the vector outputs of a function node that was
not invoked before succeeds and extends the domain of the maps by the targets
of the node. -/
theorem forward_inv {net : MFNetwork} {tree : MultiFunction_FunctionTree}
    (hwf : WellFormed net tree) {n : Nat} (hfn : net.is_function n = true)
    {ls lv : List (OutputRef × Nat)} {mem : Memory} {st : Storage} {trace : List Nat}
    (hs : ∀ x ∈ ls, x.1.1 = n ∧ (∃ os c, net.output x.1 = .ok os ∧ os.type = .single c) ∧
      x.2 < mem.arrays.length)
    (hv : ∀ x ∈ lv, x.1.1 = n ∧ (∃ os c, net.output x.1 = .ok os ∧ os.type = .vector c) ∧
      x.2 < mem.vector_arrays.length)
    (hnd : ((ls ++ lv).map Prod.fst).Nodup)
    (hcov : ∀ j os, net.output (n, j) = .ok os → (n, j) ∈ (ls ++ lv).map Prod.fst)
    (hdom : DomInv net tree st (Installed net tree trace)) (hb : StorageBounded st mem)
    (hfresh : n ∉ trace) :
    ∃ st1 s2 l, forward_single_outputs net ls st = .ok st1 ∧
      forward_vector_outputs net tree lv ⟨mem, st1, trace⟩ = .ok s2 ∧
      Steps (single_steps net ls ++ l) ⟨mem, st, trace⟩ s2 ∧ OutputSteps net tree lv l ∧
      DomInv net tree s2.storage (Installed net tree (n :: trace)) ∧
      StorageBounded s2.storage s2.memory := by
  have hndt := @targets_flatMap_nodup net _ hnd
  rw [List.flatMap_append, List.nodup_append] at hndt
  obtain ⟨hnd1, hnd2, hdisj⟩ := hndt
  have hnot : ∀ x ∈ ls ++ lv, ∀ t ∈ net.targets x.1, ¬ Installed net tree trace t := by
    intro x hx t ht
    have : x.1.1 = n := by
      rcases List.mem_append.mp hx with hx | hx
      · exact (hs x hx).1
      · exact (hv x hx).1
    exact not_installed_of_fresh hwf hfn hfresh this ht
  have habs : ∀ x ∈ ls ++ lv, ∀ t ∈ net.targets x.1, ∀ sl, st.slot_map sl t = none :=
    fun x hx t ht sl => hdom.absent (hnot x hx t ht) sl
  -- the single outputs
  obtain ⟨st1, h1⟩ := forward_single_outputs_ok net ls st hnd1 (by
    intro t ht
    obtain ⟨x, hx, hxt⟩ := List.mem_flatMap.mp ht
    exact habs x (List.mem_append_left _ hx) t hxt .virtual_list)
  have hsteps1 := forward_single_outputs_steps net ls st st1 mem trace h1
  -- the vector outputs
  have hvec : ∀ t ∈ lv.flatMap (fun x => net.targets x.1),
      ∃ x ∈ lv, t ∈ net.targets x.1 ∧
        ∃ e, forward_effect net tree t = some e ∧ slot net tree t = e.slot := by
    intro t ht
    obtain ⟨x, hx, hxt⟩ := List.mem_flatMap.mp ht
    refine ⟨x, hx, hxt, ?_⟩
    obtain ⟨hxn, ⟨os, c, hos, hty⟩, _⟩ := hv x hx
    obtain ⟨s, a, b⟩ := mem_targets.mp hxt
    obtain ⟨o', os', b', c', d', _⟩ := wf_input hwf a
    rw [b] at b'
    cases b'
    rw [hos] at c'
    cases c'
    refine slot_forward hwf a (c := c) (by rw [← d', hty]) b ?_
    intro hm
    have := not_function_of_placeholder (boundary_input_placeholder hwf hm)
    rw [hxn, hfn] at this
    cases this
  obtain ⟨s2, h2⟩ := forward_vector_outputs_ok net tree lv ⟨mem, st1, trace⟩ hnd2 (by
    intro t ht
    obtain ⟨x, hx, hxt, e, he, _⟩ := hvec t ht
    refine ⟨by rw [he]; rfl, fun sl => ?_⟩
    have := hsteps1.untouched sl t (by
      intro y hy hc
      have : y.2.1 ∈ ls.flatMap (fun x => net.targets x.1) := by
        rw [← single_steps_targets]; exact List.mem_map_of_mem (fun x => x.2.1) hy
      rw [hc] at this
      exact hdisj this ht)
    simp only at this
    rw [this]
    exact habs x (List.mem_append_right _ hx) t hxt sl)
    (fun x hx => (hv x hx).2.2)
  obtain ⟨l, hl, hO⟩ := forward_vector_outputs_steps net tree lv _ s2 h2
  have hall := Steps.append hsteps1 hl
  have htargets : (single_steps net ls ++ l).map (fun x => x.2.1) =
      (ls ++ lv).flatMap (fun x => net.targets x.1) := by
    rw [List.map_append, single_steps_targets, hO.1, List.flatMap_append]
  refine ⟨st1, s2, l, h1, h2, hall, hO, ?_, ?_⟩
  · have hd := @Steps.dom net tree _ _ _ hall (Installed net tree trace) hdom (by
      intro x hx
      rcases List.mem_append.mp hx with hx | hx
      · obtain ⟨o, ho, hot, he⟩ := mem_single_steps hx
        refine ⟨hnot _ (List.mem_append_left _ ho) _ hot, ?_⟩
        rw [he]
        obtain ⟨_, ⟨os, c, hos, hty⟩, _⟩ := hs _ ho
        obtain ⟨s, a, b⟩ := mem_targets.mp hot
        obtain ⟨o', os', b', c', d', _⟩ := wf_input hwf a
        rw [b] at b'
        cases b'
        rw [hos] at c'
        cases c'
        exact slot_single a (c := c) (by rw [← d', hty])
      · obtain ⟨o, ho, hot, he⟩ := hO.2 x hx
        refine ⟨hnot _ (List.mem_append_right _ ho) _ hot, ?_⟩
        obtain ⟨_, _, _, e, he2, hs2⟩ :=
          hvec x.2.1 (List.mem_flatMap.mpr ⟨_, ho, hot⟩)
        rw [he] at he2
        cases he2
        exact hs2)
      (by
        rw [htargets, List.flatMap_append, List.nodup_append]
        exact ⟨hnd1, hnd2, hdisj⟩)
    refine hd.congr ?_
    intro k
    rw [installed_cons, htargets]
    constructor
    · rintro (a | a)
      · exact Or.inl a
      · obtain ⟨x, hx, hxt⟩ := List.mem_flatMap.mp a
        right
        have : x.1.1 = n := by
          rcases List.mem_append.mp hx with hx | hx
          · exact (hs x hx).1
          · exact (hv x hx).1
        refine ⟨x.1.2, ?_⟩
        rw [← this]
        exact hxt
    · rintro (a | ⟨j, hj⟩)
      · exact Or.inl a
      · right
        obtain ⟨s, a, b⟩ := mem_targets.mp hj
        obtain ⟨o', os', b', c', _, _⟩ := wf_input hwf a
        rw [b] at b'
        cases b'
        obtain ⟨x, hx, hxe⟩ := List.mem_map.mp (hcov j os' c')
        exact List.mem_flatMap.mpr ⟨x, hx, by rw [hxe]; exact hj⟩
  · refine hall.bounded hb ?_
    intro x hx
    rcases List.mem_append.mp hx with hx | hx
    · obtain ⟨o, ho, _, he⟩ := mem_single_steps hx
      simp only [step_in_range, he]
      exact (hs _ ho).2.2
    · obtain ⟨o, ho, hot, he⟩ := hO.2 x hx
      have hlt := (hv _ ho).2.2
      obtain ⟨_, _, _, e, he2, hs2⟩ := hvec x.2.1 (List.mem_flatMap.mpr ⟨_, ho, hot⟩)
      rw [he] at he2
      cases he2
      unfold step_in_range
      split
      · rename_i heq
        -- a list value is never installed as a virtual list
        exfalso
        obtain ⟨_, ⟨os, c, hos, hty⟩, _⟩ := hv _ ho
        obtain ⟨s, a, b⟩ := mem_targets.mp hot
        obtain ⟨node, n1, n2⟩ := input_eq_ok.mp a
        have hfe := he
        unfold forward_effect at hfe
        rw [n1] at hfe
        simp only at hfe
        rw [heq] at hfe
        cases hk : node.kind with
        | placeholder =>
          rw [hk] at hfe
          simp only at hfe
          split at hfe <;> simp at hfe
        | function f a1 a2 =>
          rw [hk] at hfe
          simp only at hfe
          split at hfe <;> simp at hfe
      · exact hlt

/-! ## Invoking a node keeps the invariants -/

theorem param_produces_single {pt : MFParamType} {ty : MFDataType} {t : CPPType}
    (hpt : pt = .single_output t) (h : param_produces pt ty = true) : ∃ c, ty = .single c := by
  subst hpt
  cases ty <;> simp [param_produces] at h
  exact ⟨_, rfl⟩

theorem param_produces_vector {pt : MFParamType} {ty : MFDataType} {t : CPPType}
    (hpt : pt = .vector_output t ∨ pt = .mutable_vector t)
    (h : param_produces pt ty = true) : ∃ c, ty = .vector c := by
  rcases hpt with rfl | rfl <;> cases ty <;> simp [param_produces] at h <;> exact ⟨_, rfl⟩

/-- At the end of the parameter loop the outputs to forward are the outputs
of the node, each once, single values and list values apart. -/
theorem builder_forwardable {net : MFNetwork} {n : Nat} {node : MFNode}
    {function : MultiFunction} {ipi opi : List Nat}
    (hnode : net.nodes[n]? = some node) (hk : node.kind = .function function ipi opi)
    (hok : node_ok node) {mem0 : Memory} {b : ParamsBuilderState}
    (hinv : BuilderInv n function opi mem0 function.signature.length b) :
    (∀ x ∈ b.single_outputs_to_forward, x.1.1 = n ∧
      (∃ os c, net.output x.1 = .ok os ∧ os.type = .single c) ∧
      x.2 < b.memory.arrays.length) ∧
    (∀ x ∈ b.vector_outputs_to_forward, x.1.1 = n ∧
      (∃ os c, net.output x.1 = .ok os ∧ os.type = .vector c) ∧
      x.2 < b.memory.vector_arrays.length) ∧
    (∀ j os, net.output (n, j) = .ok os →
      (n, j) ∈ (b.single_outputs_to_forward ++ b.vector_outputs_to_forward).map Prod.fst) := by
  obtain ⟨hil, hol, hond, _, hout, hcov⟩ := node_ok_function hk hok
  have socket_of : ∀ q pt, function.signature[q]? = some pt → pt.is_output = true →
      ∃ os, net.output (n, opi.indexOf q) = .ok os ∧ param_produces pt os.type = true := by
    intro q pt hq hio
    have hqlt : q < function.signature.length := (List.getElem?_eq_some.mp hq).1
    have hm := (param_covered_spec hq (hcov q hqlt)).2.2 hio
    have hj : opi.indexOf q < node.outputs.length := by
      rw [← hol]; exact List.indexOf_lt_length.mpr hm
    obtain ⟨os, p', pt', a, b2, c, d⟩ := output_param_ok_spec (hout _ hj)
    rw [getElem?_indexOf hm] at b2
    cases b2
    rw [hq] at c
    cases c
    exact ⟨os, output_eq_ok.mpr ⟨node, hnode, a⟩, d⟩
  refine ⟨?_, ?_, ?_⟩
  · intro x hx
    obtain ⟨q, t, _, hq, hxe, hlt⟩ := hinv.single_ok x hx
    obtain ⟨os, a, b2⟩ := socket_of q _ hq rfl
    obtain ⟨c, hc⟩ := param_produces_single rfl b2
    exact ⟨by rw [hxe], ⟨os, c, by rw [hxe]; exact a, hc⟩, hlt⟩
  · intro x hx
    obtain ⟨q, t, _, hq, hxe, hlt⟩ := hinv.vector_ok x hx
    rcases hq with hq | hq
    · obtain ⟨os, a, b2⟩ := socket_of q _ hq rfl
      obtain ⟨c, hc⟩ := param_produces_vector (Or.inl rfl) b2
      exact ⟨by rw [hxe], ⟨os, c, by rw [hxe]; exact a, hc⟩, hlt⟩
    · obtain ⟨os, a, b2⟩ := socket_of q _ hq rfl
      obtain ⟨c, hc⟩ := param_produces_vector (Or.inr rfl) b2
      exact ⟨by rw [hxe], ⟨os, c, by rw [hxe]; exact a, hc⟩, hlt⟩
  · intro j os hos
    obtain ⟨node', hn', hj⟩ := output_eq_ok.mp hos
    simp only at hn' hj
    rw [hnode] at hn'
    cases hn'
    have hjlt : j < node.outputs.length := (List.getElem?_eq_some.mp hj).1
    obtain ⟨os', q, pt, a, b2, c, d⟩ := output_param_ok_spec (hout j hjlt)
    have hidx : opi.indexOf q = j := indexOf_of_getElem? hond b2
    have hqlt : q < function.signature.length := (List.getElem?_eq_some.mp c).1
    rw [List.map_append, List.mem_append]
    cases pt <;> simp [param_produces] at d
    · obtain ⟨a1, ha1⟩ := hinv.single_covered q _ hqlt c
      left
      rw [hidx] at ha1
      exact List.mem_map.mpr ⟨_, ha1, rfl⟩
    · obtain ⟨a1, ha1⟩ := hinv.vector_covered q _ hqlt (Or.inl c)
      right
      rw [hidx] at ha1
      exact List.mem_map.mpr ⟨_, ha1, rfl⟩
    · obtain ⟨a1, ha1⟩ := hinv.vector_covered q _ hqlt (Or.inr c)
      right
      rw [hidx] at ha1
      exact List.mem_map.mpr ⟨_, ha1, rfl⟩

theorem builderInv_initial (n : Nat) (function : MultiFunction) (opi : List Nat)
    (mem : Memory) (size : Nat) :
    BuilderInv n function opi mem 0
      { array_size := size, memory := mem, params := [], single_outputs_to_forward := [],
        vector_outputs_to_forward := [] } :=
  ⟨Nat.le_refl _, Nat.le_refl _, by simp, by simp, by simp,
    fun q t hq => absurd hq (Nat.not_lt_zero _), fun q t hq => absurd hq (Nat.not_lt_zero _),
    by simp⟩

/-- Invoking a function node whose inputs are all in their maps succeeds,
records the node in the trace and installs a value for the targets of its
outputs. -/
theorem compute_and_forward_outputs_inv {net : MFNetwork} {tree : MultiFunction_FunctionTree}
    (hwf : WellFormed net tree) {mask_indices : List Nat} (hmask : mask_indices ≠ [])
    {n : Nat} {node : MFNode} {function : MultiFunction} {ipi opi : List Nat}
    (hnode : net.nodes[n]? = some node) (hk : node.kind = .function function ipi opi)
    {s : EvalState}
    (hdom : DomInv net tree s.storage (Installed net tree s.trace))
    (hb : StorageBounded s.storage s.memory) (hfresh : n ∉ s.trace)
    (hready : InputsReady s.storage n function ipi) :
    ∃ s1, compute_and_forward_outputs net tree mask_indices n node function ipi opi s = .ok s1 ∧
      s1.trace = n :: s.trace ∧
      DomInv net tree s1.storage (Installed net tree (n :: s.trace)) ∧
      StorageBounded s1.storage s1.memory := by
  have hok := wf_node hwf hnode
  have hfn : net.is_function n = true := is_function_iff.mpr ⟨node, function, ipi, opi, hnode, hk⟩
  unfold compute_and_forward_outputs
  rw [array_size_mod _ hmask]
  simp only [bind_ok]
  obtain ⟨b, hb1⟩ := add_params_ok hk hok n ((mask_indices.getLast hmask + 1) % 4294967296)
    s.storage hready function.signature 0
    { array_size := (mask_indices.getLast hmask + 1) % 4294967296, memory := s.memory,
      params := [], single_outputs_to_forward := [], vector_outputs_to_forward := [] }
    (by intro k pt h; simpa using h)
  have hinv := add_params_induct n node ipi opi _ s.storage
    (BuilderInv n function opi s.memory) function.signature 0 _ b hb1
    (builderInv_initial _ _ _ _ _)
    (by
      intro k pt b2 b3 hk2 hP h23
      exact add_param_inv hk hok n _ s.storage s.memory hb (by simpa using hk2) hP h23)
  rw [Nat.zero_add] at hinv
  rw [hb1]
  simp only [bind_ok]
  obtain ⟨vs, hvs⟩ := read_params_ok b.params hinv.params_in_range
  rw [hvs]
  simp only [bind_ok]
  obtain ⟨hs, hv, hcov⟩ := builder_forwardable hnode hk hok hinv
  obtain ⟨wl1, wl2⟩ := write_params_lengths b.params (function.call mask_indices vs) b.memory
  obtain ⟨st1, s2, l, h1, h2, hsteps, _, hdom2, hb2⟩ :=
    @forward_inv net tree hwf n hfn b.single_outputs_to_forward b.vector_outputs_to_forward
      (write_params b.memory b.params (function.call mask_indices vs)) s.storage s.trace
      (fun x hx => by rw [wl1]; exact hs x hx)
      (fun x hx => by rw [wl2]; exact hv x hx)
      hinv.nodup hcov hdom
      (hb.of_grows (by rw [wl1]; exact hinv.grows_arrays) (by rw [wl2]; exact hinv.grows_vectors))
      hfresh
  rw [h1]
  simp only [bind_ok]
  rw [h2]
  simp only [bind_ok]
  exact ⟨_, rfl, by rw [hsteps.frame.1], hdom2, hb2⟩

/-! ## One iteration of the evaluation loop keeps the invariant -/

theorem uncomputed_inputs_spec (st : Storage) (n : Nat) :
    ∀ (inputs : List MFInputSocket) (i0 : Nat),
      (∀ (k : Nat) s, inputs[k]? = some s → ∃ b, st.input_is_computed s.type (n, i0 + k) = .ok b) →
      ∃ l, uncomputed_inputs st n i0 inputs = .ok l ∧
        ∀ x, x ∈ l ↔ ∃ (k : Nat) (s : MFInputSocket), inputs[k]? = some s ∧
          x = .input n (i0 + k) ∧ st.input_is_computed s.type (n, i0 + k) = .ok false := by
  intro inputs
  induction inputs with
  | nil => intro i0 _; exact ⟨[], rfl, by simp⟩
  | cons s rest ih =>
    intro i0 h
    obtain ⟨b, hb⟩ := h 0 s (by simp)
    rw [Nat.add_zero] at hb
    obtain ⟨l, hl, hx⟩ := ih (i0 + 1) (by
      intro k s' hk
      have := h (k + 1) s' (by simpa using hk)
      have e : i0 + (k + 1) = i0 + 1 + k := by omega
      rw [← e]; exact this)
    refine ⟨if b then l else .input n i0 :: l, ?_, ?_⟩
    · simp only [uncomputed_inputs, hb, hl, bind_ok]
    · intro x
      have shift : (∃ (k : Nat) (s' : MFInputSocket), (s :: rest)[k]? = some s' ∧
            x = .input n (i0 + k) ∧ st.input_is_computed s'.type (n, i0 + k) = .ok false) ↔
          ((x = .input n i0 ∧ b = false) ∨ x ∈ l) := by
        rw [hx]
        constructor
        · rintro ⟨k, s', a, c, d⟩
          cases k with
          | zero =>
            simp at a; subst a
            rw [Nat.add_zero] at c d
            rw [hb] at d
            exact Or.inl ⟨c, by simpa using d⟩
          | succ k =>
            right
            have e : i0 + (k + 1) = i0 + 1 + k := by omega
            exact ⟨k, s', by simpa using a, by rw [← e]; exact c, by rw [← e]; exact d⟩
        · rintro (⟨c, d⟩ | ⟨k, s', a, c, d⟩)
          · exact ⟨0, s, by simp, by simpa using c, by rw [Nat.add_zero, hb, d]⟩
          · have e : i0 + (k + 1) = i0 + 1 + k := by omega
            exact ⟨k + 1, s', by simpa using a, by rw [e]; exact c, by rw [e]; exact d⟩
      rw [shift]
      cases b <;> simp

theorem reach_input_relevant {net : MFNetwork} {tree : MultiFunction_FunctionTree}
    (hwf : WellFormed net tree) {n i : Nat} (h : Reach net tree (.input n i)) :
    (∃ s, net.input (n, i) = .ok s) ∧ (net.is_function n = true ∨ (n, i) ∈ tree.m_outputs) := by
  cases h with
  | boundary socket hm =>
    have := hwf.2.2.2 socket hm
    simp only [boundary_output_ok, Bool.and_eq_true] at this
    refine ⟨?_, Or.inr hm⟩
    cases hi : net.input socket with
    | error e => rw [hi] at this; simp at this
    | ok s => exact ⟨s, rfl⟩
  | inputs _ j _ node _ hnode hfn hi =>
    exact ⟨⟨_, input_eq_ok.mpr ⟨node, hnode, List.getElem?_eq_getElem hi⟩⟩, Or.inl hfn⟩

theorem reach_output_node {net : MFNetwork} {tree : MultiFunction_FunctionTree}
    (hwf : WellFormed net tree) {n j : Nat} (h : Reach net tree (.output n j)) :
    ∃ os, net.output (n, j) = .ok os := by
  cases h with
  | origin n' i' s o _ hin ho =>
    obtain ⟨o', os, a, b, _, _⟩ := wf_input hwf hin
    rw [ho] at a
    cases a
    exact ⟨os, b⟩

theorem ranked_origin {net : MFNetwork} {rank : Nat → Nat} (hr : Ranked net rank)
    {t : InputRef} {s : MFInputSocket} {o : OutputRef}
    (h : net.input t = .ok s) (ho : s.origin = some o) : rank o.1 < rank t.1 := by
  obtain ⟨node, h1, h2⟩ := input_eq_ok.mp h
  have hlt := (List.getElem?_eq_some.mp h1).1
  have := hr t.1 hlt s (by
    rw [List.getD_eq_getElem?_getD, h1]
    exact List.getElem?_mem h2) o (by rw [ho]; rfl)
  exact this

theorem installed_mono {net : MFNetwork} {tree : MultiFunction_FunctionTree} {n : Nat}
    {trace : List Nat} {t : InputRef} (h : Installed net tree trace t) :
    Installed net tree (n :: trace) t :=
  installed_cons.mpr (Or.inl h)

/-- Progress and preservation: from a state that satisfies the invariant an
iteration of the loop does not fail, and the invariant holds again. -/
theorem step_inv {net : MFNetwork} {tree : MultiFunction_FunctionTree} {rank : Nat → Nat}
    (hwf : WellFormed net tree) (hr : Ranked net rank) (hclosed : BoundaryClosed net tree)
    {mask_indices : List Nat} (hmask : mask_indices ≠ [])
    {x : MFSocket} {rest : List MFSocket} {s : EvalState}
    (hinv : LoopInv net tree rank (x :: rest) s) :
    ∃ stack1 s1, step net tree mask_indices (x :: rest) s = .ok (stack1, s1) ∧
      LoopInv net tree rank stack1 s1 ∧ StepCase net rank x rest s stack1 s1 := by
  have hranks := List.pairwise_cons.mp hinv.ranks
  have hrest_reach : ∀ y ∈ rest, Reach net tree y :=
    fun y hy => hinv.reach y (List.mem_cons_of_mem _ hy)
  have hrest_fresh : ∀ n j, MFSocket.output n j ∈ rest → n ∉ s.trace ∧ (n, j) ∉ tree.m_inputs :=
    fun n j h => hinv.fresh n j (List.mem_cons_of_mem _ h)
  cases x with
  | input n i =>
    have hreach := hinv.reach _ (List.mem_cons_self _ _)
    obtain ⟨⟨sock, hsock⟩, hrel⟩ := reach_input_relevant hwf hreach
    obtain ⟨b, hb, hbD⟩ := computed_iff hwf hinv.dom hsock hrel
    obtain ⟨o, os, ho, hos, _, _⟩ := wf_input hwf hsock
    cases b with
    | true =>
      refine ⟨rest, s, ?_, ?_, Or.inl ⟨n, i, sock, rfl, hsock, hb, rfl, rfl⟩⟩
      · simp only [step, hsock, hb, bind_ok, if_true]
      · refine ⟨hrest_reach, hranks.2, hrest_fresh, hinv.trace_nodup, hinv.trace_function,
          hinv.dom, hinv.bounded, ?_⟩
        intro socket hm
        rcases hinv.outputs_done socket hm with h | h
        · rcases List.mem_cons.mp h with h | h
          · right
            have : socket = (n, i) := by
              cases h; rfl
            rw [this]
            exact hbD.mp rfl
          · exact Or.inl h
        · exact Or.inr h
    | false =>
      have hnot : ¬ Installed net tree s.trace (n, i) := by
        intro hc; have := hbD.mpr hc; cases this
      have hlt : rank o.1 < rank n := ranked_origin hr hsock ho
      refine ⟨.output o.1 o.2 :: .input n i :: rest, s, ?_, ?_,
        Or.inr (Or.inl ⟨n, i, sock, o, rfl, hsock, hb, rfl, rfl, hlt⟩)⟩
      · simp only [step, hsock, hb, bind_ok, ho]
        simp
      · refine ⟨?_, ?_, ?_, hinv.trace_nodup, hinv.trace_function, hinv.dom, hinv.bounded, ?_⟩
        · intro y hy
          rcases List.mem_cons.mp hy with rfl | hy
          · exact Reach.origin n i sock o hreach hsock ho
          · exact hinv.reach y hy
        · refine List.pairwise_cons.mpr ⟨?_, hinv.ranks⟩
          intro y hy hyo
          rcases List.mem_cons.mp hy with rfl | hy
          · simp [MFSocket.is_output] at hyo
          · have := hranks.1 y hy hyo
            simp only [rank_socket] at this ⊢
            omega
        · intro n' j' h
          rcases List.mem_cons.mp h with h | h
          · cases h
            refine ⟨fun hc => hnot ⟨sock, o, hsock, ho, Or.inr hc⟩,
              fun hc => hnot ⟨sock, o, hsock, ho, Or.inl hc⟩⟩
          · exact hinv.fresh n' j' h
        · intro socket hm
          rcases hinv.outputs_done socket hm with h | h
          · exact Or.inl (List.mem_cons_of_mem _ h)
          · exact Or.inr h
  | output n j =>
    have hreach := hinv.reach _ (List.mem_cons_self _ _)
    obtain ⟨hfresh, hnotin⟩ := hinv.fresh n j (List.mem_cons_self _ _)
    obtain ⟨os, hos⟩ := reach_output_node hwf hreach
    obtain ⟨node, hnode, _⟩ := output_eq_ok.mp hos
    simp only at hnode
    cases hk : node.kind with
    | placeholder =>
      exact absurd (hclosed n j hreach (is_placeholder_iff.mpr ⟨node, hnode, hk⟩)) hnotin
    | function f ipi opi =>
      have hfn : net.is_function n = true := is_function_iff.mpr ⟨node, f, ipi, opi, hnode, hk⟩
      have hcomp : ∀ (k : Nat) s', node.inputs[k]? = some s' →
          ∃ b, s.storage.input_is_computed s'.type (n, k) = .ok b ∧
            (b = true ↔ Installed net tree s.trace (n, k)) := by
        intro k s' hk'
        exact computed_iff hwf hinv.dom (input_eq_ok.mpr ⟨node, hnode, hk'⟩) (Or.inl hfn)
      obtain ⟨l, hl, hlx⟩ := uncomputed_inputs_spec s.storage n node.inputs 0 (by
        intro k s' hk'
        obtain ⟨b, hb, _⟩ := hcomp k s' hk'
        exact ⟨b, by rw [Nat.zero_add]; exact hb⟩)
      cases hlc : l with
      | nil =>
        subst hlc
        have hall : ∀ (i : Nat) s', node.inputs[i]? = some s' →
            s.storage.input_is_computed s'.type (n, i) = .ok true := by
          intro i s' hi
          obtain ⟨b, hb, _⟩ := hcomp i s' hi
          cases b with
          | true => exact hb
          | false =>
            have := (hlx (.input n (0 + i))).mpr ⟨i, s', hi, rfl, by rw [Nat.zero_add]; exact hb⟩
            simp at this
        have hready := inputs_ready_of_computed hwf hinv.dom hnode hk hall
        obtain ⟨s1, h1, htr, hdom1, hb1⟩ :=
          compute_and_forward_outputs_inv hwf hmask hnode hk hinv.dom hinv.bounded hfresh hready
        refine ⟨rest, s1, ?_, ?_, Or.inr (Or.inr (Or.inr ⟨n, j, rfl, rfl, htr⟩))⟩
        · simp only [step, node_eq_ok.mpr hnode, bind_ok, hk, hl, h1]
        · refine ⟨hrest_reach, hranks.2, ?_, ?_, ?_, by rw [htr]; exact hdom1, hb1, ?_⟩
          · intro n' j' h
            obtain ⟨a, b⟩ := hrest_fresh n' j' h
            refine ⟨?_, b⟩
            rw [htr]
            intro hc
            rcases List.mem_cons.mp hc with hc | hc
            · have := hranks.1 _ h rfl
              simp only [rank_socket, hc] at this
              omega
            · exact a hc
          · rw [htr]; exact List.nodup_cons.mpr ⟨hfresh, hinv.trace_nodup⟩
          · rw [htr]
            intro n' hn'
            rcases List.mem_cons.mp hn' with rfl | hn'
            · exact hfn
            · exact hinv.trace_function n' hn'
          · intro socket hm
            rcases hinv.outputs_done socket hm with h | h
            · rcases List.mem_cons.mp h with h | h
              · cases h
              · exact Or.inl h
            · right; rw [htr]; exact installed_mono h
      | cons y ys =>
        have hne : l ≠ [] := by rw [hlc]; simp
        obtain ⟨z, zs, hrev⟩ : ∃ z zs, l.reverse = z :: zs := by
          cases hr' : l.reverse with
          | nil => exact absurd (List.reverse_eq_nil_iff.mp hr') hne
          | cons z zs => exact ⟨z, zs, rfl⟩
        have hz : z ∈ l := by
          rw [← List.mem_reverse, hrev]; exact List.mem_cons_self _ _
        obtain ⟨k, sk, hk1, hk2, hk3⟩ := (hlx z).mp hz
        rw [Nat.zero_add] at hk2 hk3
        have hstack : l.reverse ++ .output n j :: rest = .input n k :: (zs ++ .output n j :: rest) := by
          rw [hrev, hk2]; rfl
        refine ⟨l.reverse ++ .output n j :: rest, s, ?_, ?_,
          Or.inr (Or.inr (Or.inl ⟨n, j, k, sk, _, rfl, hstack,
            input_eq_ok.mpr ⟨node, hnode, hk1⟩, hk3, rfl⟩))⟩
        · simp only [step, node_eq_ok.mpr hnode, bind_ok, hk, hl]
          rw [hlc]
        · have hmem : ∀ y ∈ l.reverse, ∃ (k : Nat) (s' : MFInputSocket),
              node.inputs[k]? = some s' ∧ y = .input n k := by
            intro y hy
            obtain ⟨k', s', a, b, _⟩ := (hlx y).mp (List.mem_reverse.mp hy)
            exact ⟨k', s', a, by rw [Nat.zero_add] at b; exact b⟩
          refine ⟨?_, ?_, ?_, hinv.trace_nodup, hinv.trace_function, hinv.dom, hinv.bounded, ?_⟩
          · intro y hy
            rcases List.mem_append.mp hy with hy | hy
            · obtain ⟨k', s', a, rfl⟩ := hmem y hy
              exact Reach.inputs n j k' node hreach hnode hfn (List.getElem?_eq_some.mp a).1
            · exact hinv.reach y hy
          · refine List.pairwise_append.mpr ⟨?_, hinv.ranks, ?_⟩
            · refine List.Pairwise.imp_of_mem ?_ (List.pairwise_of_forall (R := fun _ _ => True) (fun _ _ => trivial))
              intro a b _ hb _ hbo
              obtain ⟨k', s', _, rfl⟩ := hmem b hb
              simp [MFSocket.is_output] at hbo
            · intro a ha b hb hbo
              obtain ⟨k', s', _, rfl⟩ := hmem a ha
              rcases List.mem_cons.mp hb with rfl | hb
              · simp only [rank_socket]; omega
              · have := hranks.1 b hb hbo
                simp only [rank_socket] at this ⊢
                omega
          · intro n' j' h
            rcases List.mem_append.mp h with h | h
            · obtain ⟨k', s', _, hc⟩ := hmem _ h
              cases hc
            · exact hinv.fresh n' j' h
          · intro socket hm
            rcases hinv.outputs_done socket hm with h | h
            · exact Or.inl (List.mem_append_right _ h)
            · exact Or.inr h

/-! ## Seed establishes the invariant -/

theorem targets_flatMap_nodup_of_nodup {net : MFNetwork} {l : List OutputRef} (h : l.Nodup) :
    (l.flatMap (fun o => net.targets o)).Nodup := by
  rw [List.nodup_flatMap]
  exact ⟨fun x _ => targets_nodup net x, h.imp (fun hne => targets_disjoint hne)⟩

theorem params_match_spec :
    ∀ (signature : List MFParamType) (params : List MFParam),
      params_match signature params = true →
      signature.length = params.length ∧
      ∀ (i : Nat) pt, signature[i]? = some pt →
        ∃ p, params[i]? = some p ∧ param_matches pt p = true := by
  intro signature
  induction signature with
  | nil =>
    intro params h
    cases params with
    | nil => exact ⟨rfl, by simp⟩
    | cons p ps => simp [params_match] at h
  | cons pt rest ih =>
    intro params h
    cases params with
    | nil => simp [params_match] at h
    | cons p ps =>
      simp only [params_match, Bool.and_eq_true] at h
      obtain ⟨hl, hi⟩ := ih ps h.2
      refine ⟨by simp [hl], ?_⟩
      intro i pt' hi'
      cases i with
      | zero =>
        simp at hi'; subst hi'
        exact ⟨p, by simp, h.1⟩
      | succ i =>
        obtain ⟨p', a, b⟩ := hi i pt' (by simpa using hi')
        exact ⟨p', by simpa using a, b⟩

theorem wf_boundary_input {net : MFNetwork} {tree : MultiFunction_FunctionTree}
    (hwf : WellFormed net tree) {o : OutputRef} (h : o ∈ tree.m_inputs) :
    ∃ os, net.output o = .ok os ∧ os.type ≠ .none := by
  have := hwf.2.2.1 o h
  simp only [boundary_input_ok, Bool.and_eq_true] at this
  cases ho : net.output o with
  | error e => rw [ho] at this; simp at this
  | ok os =>
    rw [ho] at this
    exact ⟨os, rfl, by simpa using this.2⟩

theorem wf_boundary_output {net : MFNetwork} {tree : MultiFunction_FunctionTree}
    (hwf : WellFormed net tree) {t : InputRef} (h : t ∈ tree.m_outputs) :
    ∃ s, net.input t = .ok s ∧ s.type ≠ .none := by
  have := hwf.2.2.2 t h
  simp only [boundary_output_ok, Bool.and_eq_true] at this
  cases ho : net.input t with
  | error e => rw [ho] at this; simp at this
  | ok s =>
    obtain ⟨_, _, _, _, _, hne⟩ := wf_input hwf ho
    exact ⟨s, rfl, hne⟩

/-- What `caller_params_ok` says of the parameters of the boundary inputs. -/
theorem caller_params_inputs {net : MFNetwork} {tree : MultiFunction_FunctionTree}
    (hwf : WellFormed net tree) {params : List MFParam} {mem : Memory}
    (h : caller_params_ok net tree params mem = true) :
    (∀ p ∈ params, param_in_range mem p = true) ∧
    (∀ (i : Nat) o os, tree.m_inputs[i]? = some o → net.output o = .ok os →
      ∃ p, params[i]? = some p ∧ param_matches (input_param_type os.type) p = true) ∧
    (∀ (k : Nat) t s, tree.m_outputs[k]? = some t → net.input t = .ok s →
      ∃ p, params[tree.m_inputs.length + k]? = some p ∧
        param_matches (output_param_type s.type) p = true) := by
  unfold caller_params_ok at h
  simp only [Bool.and_eq_true, List.all_eq_true] at h
  obtain ⟨sig, hsig, _, hI, hO⟩ := signature_entries net tree
    (fun o ho => ⟨(by
      have := hwf.2.2.1 o ho
      simp only [boundary_input_ok, Bool.and_eq_true] at this
      exact this.1), wf_boundary_input hwf ho⟩)
    (fun t ht => ⟨(by
      have := hwf.2.2.2 t ht
      simp only [boundary_output_ok, Bool.and_eq_true] at this
      exact this.1), wf_boundary_output hwf ht⟩)
  rw [hsig] at h
  obtain ⟨_, hm⟩ := params_match_spec sig params h.1
  exact ⟨h.2, fun i o os a b => hm i _ (hI i o os a b), fun k t s a b => hm _ _ (hO k t s a b)⟩

theorem domInv_empty (net : MFNetwork) (tree : MultiFunction_FunctionTree) :
    DomInv net tree Storage.empty (fun _ => False) := by
  intro k sl
  cases sl <;> simp [Storage.slot_map, Storage.empty]

theorem storageBounded_empty (mem : Memory) : StorageBounded Storage.empty mem :=
  ⟨fun _ _ h => by simp [Storage.empty] at h, fun _ _ h => by simp [Storage.empty] at h,
    fun _ _ h => by simp [Storage.empty] at h⟩

theorem seed_effect_not_virtual_list {net : MFNetwork} {t : InputRef} {e : Effect}
    (h : seed_effect net t = some e) : e ≠ .shared .virtual_list := by
  unfold seed_effect at h
  intro hc
  subst hc
  split at h
  · split at h
    · split at h <;> simp at h
    · simp at h
  · simp at h

/-- Seed succeeds for caller parameters that fit the signature. -/
theorem seed_ok {net : MFNetwork} {tree : MultiFunction_FunctionTree}
    (hwf : WellFormed net tree) {params : List MFParam} {mem : Memory}
    (hparams : caller_params_ok net tree params mem = true) :
    ∃ s0, copy_inputs_to_storage net tree params (initial_state mem) = .ok s0 := by
  obtain ⟨hrange, hin, _⟩ := caller_params_inputs hwf hparams
  unfold copy_inputs_to_storage
  apply copy_inputs_from_ok net params tree.m_inputs 0 (initial_state mem)
    (targets_flatMap_nodup_of_nodup hwf.2.1)
  · intro t _ sl
    cases sl <;> rfl
  · intro k o hk
    have hmem : o ∈ tree.m_inputs := List.getElem?_mem hk
    obtain ⟨os, hos, hne⟩ := wf_boundary_input hwf hmem
    obtain ⟨p, hp, hpm⟩ := hin k o os hk hos
    refine ⟨os, hos, ?_⟩
    rw [Nat.zero_add]
    cases hty : os.type with
    | none => exact absurd hty hne
    | single c =>
      rw [hty] at hpm
      cases p <;> simp [input_param_type, param_matches] at hpm
      exact ⟨_, hp⟩
    | vector c =>
      rw [hty] at hpm
      cases p <;> simp [input_param_type, param_matches] at hpm
      rename_i a
      refine ⟨a, hp, ?_, ?_⟩
      · have := hrange _ (List.getElem?_mem hp)
        simpa [param_in_range] using this
      · intro t ht
        obtain ⟨s, hs, hso⟩ := mem_targets.mp ht
        obtain ⟨o', os', b', c', d', _⟩ := wf_input hwf hs
        rw [hso] at b'
        cases b'
        rw [hos] at c'
        cases c'
        obtain ⟨e, he, _⟩ := slot_seed hwf hs (c := c) (by rw [← d', hty]) hso hmem
        rw [he]; rfl

/-- After seed the invariant of the loop holds for the stack of the boundary outputs. -/
theorem seed_inv {net : MFNetwork} {tree : MultiFunction_FunctionTree} (rank : Nat → Nat)
    (hwf : WellFormed net tree) {params : List MFParam} {mem : Memory}
    (hrange : ∀ p ∈ params, param_in_range mem p = true) {s0 : EvalState}
    (hseed : copy_inputs_to_storage net tree params (initial_state mem) = .ok s0) :
    LoopInv net tree rank (initial_stack tree) s0 := by
  obtain ⟨l, hl, htargets, hentries⟩ := copy_inputs_from_steps net params _ 0 _ _ hseed
  have hfr := hl.frame
  have entry : ∀ x ∈ l, slot net tree x.2.1 = x.2.2.slot ∧ step_in_range mem x := by
    intro x hx
    obtain ⟨k, o, os, hk, hos, ht, he⟩ := hentries x hx
    have hmem : o ∈ tree.m_inputs := List.getElem?_mem hk
    obtain ⟨s, hs, hso⟩ := mem_targets.mp ht
    obtain ⟨o', os', b', c', d', _⟩ := wf_input hwf hs
    rw [hso] at b'
    cases b'
    rw [hos] at c'
    cases c'
    cases hty : os.type with
    | none => rw [hty] at he; exact absurd he (by simp [seed_entry])
    | single c =>
      rw [hty] at he
      simp only [seed_entry] at he
      refine ⟨?_, ?_⟩
      · rw [he.1]; exact slot_single hs (c := c) (by rw [← d', hty])
      · have := hrange _ (List.getElem?_mem he.2)
        simp only [step_in_range, he.1]
        simpa [param_in_range] using this
    | vector c =>
      rw [hty] at he
      simp only [seed_entry] at he
      obtain ⟨e, he1, he2⟩ := slot_seed hwf hs (c := c) (by rw [← d', hty]) hso hmem
      rw [he.1] at he1
      cases he1
      refine ⟨he2, ?_⟩
      have := hrange _ (List.getElem?_mem he.2)
      have hne := seed_effect_not_virtual_list he.1
      unfold step_in_range
      split
      · rename_i heq; exact absurd heq hne
      · simpa [param_in_range] using this
  refine ⟨?_, ?_, ?_, ?_, ?_, ?_, ?_, ?_⟩
  · intro x hx
    simp only [initial_stack, List.mem_reverse, List.mem_map] at hx
    obtain ⟨t, ht, rfl⟩ := hx
    exact Reach.boundary t ht
  · refine List.Pairwise.imp_of_mem ?_
      (List.pairwise_of_forall (R := fun _ _ => True) (fun _ _ => trivial))
    intro a b _ hb _ hbo
    simp only [initial_stack, List.mem_reverse, List.mem_map] at hb
    obtain ⟨t, _, rfl⟩ := hb
    simp [MFSocket.is_output] at hbo
  · intro n j h
    simp only [initial_stack, List.mem_reverse, List.mem_map] at h
    obtain ⟨t, _, hc⟩ := h
    cases hc
  · rw [hfr.1]; exact List.nodup_nil
  · rw [hfr.1]; intro n hn; cases hn
  · have hd := @Steps.dom net tree _ _ _ hl (fun _ => False) (domInv_empty net tree)
      (fun x hx => ⟨fun h => h, (entry x hx).1⟩)
      (by rw [htargets]; exact targets_flatMap_nodup_of_nodup hwf.2.1)
    refine hd.congr ?_
    intro k
    rw [htargets, hfr.1]
    simp only [false_or, List.mem_flatMap]
    constructor
    · rintro ⟨o, ho, hk⟩
      obtain ⟨s, a, b⟩ := mem_targets.mp hk
      exact ⟨s, o, a, b, Or.inl ho⟩
    · rintro ⟨s, o, a, b, c | c⟩
      · exact ⟨o, c, mem_targets.mpr ⟨s, a, b⟩⟩
      · cases c
  · exact hl.bounded (storageBounded_empty _) (fun x hx => (entry x hx).2)
  · intro socket hm
    left
    simp only [initial_stack, List.mem_reverse, List.mem_map]
    exact ⟨socket, hm, rfl⟩

/-! ## Termination of the evaluation loop -/

theorem evaluate_loop_step {net : MFNetwork} {tree : MultiFunction_FunctionTree}
    {mask_indices : List Nat} {x : MFSocket} {rest stack1 : List MFSocket} {s s1 : EvalState}
    (h : step net tree mask_indices (x :: rest) s = .ok (stack1, s1)) (fuel : Nat) :
    evaluate_loop net tree mask_indices (fuel + 1) (x :: rest) s =
      evaluate_loop net tree mask_indices fuel stack1 s1 := by
  simp only [evaluate_loop, h, bind_ok]

theorem evaluate_loop_mono {net : MFNetwork} {tree : MultiFunction_FunctionTree}
    {mask_indices : List Nat} :
    ∀ (fuel : Nat) (stack : List MFSocket) (s s1 : EvalState),
      evaluate_loop net tree mask_indices fuel stack s = .ok s1 →
      ∀ k, evaluate_loop net tree mask_indices (fuel + k) stack s = .ok s1 := by
  intro fuel
  induction fuel with
  | zero =>
    intro stack s s1 h k
    cases stack with
    | nil =>
      cases k <;> simpa [evaluate_loop] using h
    | cons x rest => simp [evaluate_loop] at h
  | succ fuel ih =>
    intro stack s s1 h k
    cases stack with
    | nil => simpa [evaluate_loop] using h
    | cons x rest =>
      simp only [evaluate_loop] at h
      obtain ⟨⟨stack2, s2⟩, h2, h⟩ := bind_eq_ok h
      have e : fuel + 1 + k = (fuel + k) + 1 := by omega
      rw [e, evaluate_loop_step h2]
      exact ih stack2 s2 s1 h k

theorem length_le_of_nodup_lt {l : List Nat} {N : Nat} (hnd : l.Nodup) (hlt : ∀ n ∈ l, n < N) :
    l.length ≤ N := by
  have hsub : l ⊆ List.range N := fun n hn => List.mem_range.mpr (hlt n hn)
  have := (List.subperm_of_subset hnd hsub).length_le
  simpa using this

theorem trace_length_le {net : MFNetwork} {tree : MultiFunction_FunctionTree} {rank : Nat → Nat}
    {stack : List MFSocket} {s : EvalState} (hinv : LoopInv net tree rank stack s) :
    s.trace.length ≤ net.nodes.length := by
  refine length_le_of_nodup_lt hinv.trace_nodup ?_
  intro n hn
  obtain ⟨node, _, _, _, h, _⟩ := is_function_iff.mp (hinv.trace_function n hn)
  exact (List.getElem?_eq_some.mp h).1

/-- From a top of the stack that is not popped, the loop gets to the next
invocation of a node. -/
theorem descent {net : MFNetwork} {tree : MultiFunction_FunctionTree} {rank : Nat → Nat}
    (hwf : WellFormed net tree) (hr : Ranked net rank) (hclosed : BoundaryClosed net tree)
    {mask_indices : List Nat} (hmask : mask_indices ≠ []) :
    ∀ (r : Nat) (x : MFSocket) (rest : List MFSocket) (s : EvalState),
      rank_socket rank x ≤ r → LoopInv net tree rank (x :: rest) s → NoPop net s x →
      ∃ k stack1 s1,
        (∀ fuel, evaluate_loop net tree mask_indices (k + fuel) (x :: rest) s =
          evaluate_loop net tree mask_indices fuel stack1 s1) ∧
        LoopInv net tree rank stack1 s1 ∧ s1.trace.length = s.trace.length + 1 := by
  intro r
  induction r using Nat.strong_induction_on with
  | _ r ih =>
    intro x rest s hxr hinv hnp
    obtain ⟨stack1, s1, hstep, hinv1, hcase⟩ := step_inv hwf hr hclosed hmask hinv
    rcases hcase with ⟨n, i, sock, rfl, hsock, hcomp, _, _⟩ |
      ⟨n, i, sock, o, rfl, hsock, hcomp, rfl, rfl, hlt⟩ |
      ⟨n, j, i, sock, ys, rfl, rfl, hsock, hcomp, rfl⟩ | ⟨n, j, rfl, rfl, htr⟩
    · exfalso
      rcases hnp with ⟨n', j', hc⟩ | ⟨n', i', sock', hc, hs', hc'⟩
      · cases hc
      · cases hc
        rw [hsock] at hs'
        cases hs'
        rw [hcomp] at hc'
        cases hc'
    · obtain ⟨k, stack2, s2, hk, hinv2, htr⟩ := ih (rank_socket rank (.output o.1 o.2))
        (by simp only [rank_socket] at hxr ⊢; omega) _ _ _ (Nat.le_refl _) hinv1
        (Or.inl ⟨_, _, rfl⟩)
      refine ⟨k + 1, stack2, s2, ?_, hinv2, htr⟩
      intro fuel
      have e : k + 1 + fuel = (k + fuel) + 1 := by omega
      rw [e, evaluate_loop_step hstep]
      exact hk fuel
    · obtain ⟨k, stack2, s2, hk, hinv2, htr⟩ := ih (rank_socket rank (.input n i))
        (by simp only [rank_socket] at hxr ⊢; omega) _ _ _ (Nat.le_refl _) hinv1
        (Or.inr ⟨_, _, sock, rfl, hsock, hcomp⟩)
      refine ⟨k + 1, stack2, s2, ?_, hinv2, htr⟩
      intro fuel
      have e : k + 1 + fuel = (k + fuel) + 1 := by omega
      rw [e, evaluate_loop_step hstep]
      exact hk fuel
    · refine ⟨1, stack1, s1, ?_, hinv1, by rw [htr]; simp⟩
      intro fuel
      rw [Nat.add_comm, evaluate_loop_step hstep]

/-- The loop ends from every state that satisfies the invariant. -/
theorem loop_terminates {net : MFNetwork} {tree : MultiFunction_FunctionTree}
    {rank : Nat → Nat}
    (hwf : WellFormed net tree) (hr : Ranked net rank) (hclosed : BoundaryClosed net tree)
    {mask_indices : List Nat} (hmask : mask_indices ≠ []) :
    ∀ (u len : Nat) (stack : List MFSocket) (s : EvalState),
      net.nodes.length - s.trace.length ≤ u → stack.length ≤ len →
      LoopInv net tree rank stack s →
      ∃ fuel s1, evaluate_loop net tree mask_indices fuel stack s = .ok s1 ∧
        LoopInv net tree rank [] s1 := by
  intro u
  induction u with
  | zero =>
    intro len
    induction len with
    | zero =>
      intro stack s _ hlen hinv
      have : stack = [] := List.length_eq_zero.mp (Nat.le_zero.mp hlen)
      subst this
      exact ⟨0, s, rfl, hinv⟩
    | succ len ihl =>
      intro stack s hu hlen hinv
      cases stack with
      | nil => exact ⟨0, s, rfl, hinv⟩
      | cons x rest =>
        obtain ⟨stack1, s1, hstep, hinv1, hcase⟩ := step_inv hwf hr hclosed hmask hinv
        have hdesc : NoPop net s x → False := by
          intro hnp
          obtain ⟨k, stack2, s2, _, hinv2, htr⟩ :=
            descent hwf hr hclosed hmask _ x rest s (Nat.le_refl _) hinv hnp
          have := trace_length_le hinv2
          omega
        rcases hcase with ⟨n, i, sock, rfl, hsock, hcomp, rfl, rfl⟩ |
          ⟨n, i, sock, o, rfl, hsock, hcomp, _, _, _⟩ |
          ⟨n, j, i, sock, ys, rfl, _, _, _, _⟩ | ⟨n, j, rfl, _, _⟩
        · obtain ⟨fuel, s2, h2, hinv2⟩ := ihl stack1 s1 hu
            (by simp only [List.length_cons] at hlen; omega) hinv1
          exact ⟨fuel + 1, s2, by rw [evaluate_loop_step hstep]; exact h2, hinv2⟩
        · exact absurd (Or.inr ⟨n, i, sock, rfl, hsock, hcomp⟩) hdesc
        · exact absurd (Or.inl ⟨n, j, rfl⟩) hdesc
        · exact absurd (Or.inl ⟨n, j, rfl⟩) hdesc
  | succ u ihu =>
    intro len
    induction len with
    | zero =>
      intro stack s _ hlen hinv
      have : stack = [] := List.length_eq_zero.mp (Nat.le_zero.mp hlen)
      subst this
      exact ⟨0, s, rfl, hinv⟩
    | succ len ihl =>
      intro stack s hu hlen hinv
      cases stack with
      | nil => exact ⟨0, s, rfl, hinv⟩
      | cons x rest =>
        obtain ⟨stack1, s1, hstep, hinv1, hcase⟩ := step_inv hwf hr hclosed hmask hinv
        have hdesc : NoPop net s x →
            ∃ fuel s1, evaluate_loop net tree mask_indices fuel (x :: rest) s = .ok s1 ∧
              LoopInv net tree rank [] s1 := by
          intro hnp
          obtain ⟨k, stack2, s2, hk, hinv2, htr⟩ :=
            descent hwf hr hclosed hmask _ x rest s (Nat.le_refl _) hinv hnp
          have := trace_length_le hinv2
          obtain ⟨fuel, s3, h3, hinv3⟩ := ihu stack2.length stack2 s2 (by omega)
            (Nat.le_refl _) hinv2
          exact ⟨k + fuel, s3, by rw [hk fuel]; exact h3, hinv3⟩
        rcases hcase with ⟨n, i, sock, rfl, hsock, hcomp, rfl, rfl⟩ |
          ⟨n, i, sock, o, rfl, hsock, hcomp, _, _, _⟩ |
          ⟨n, j, i, sock, ys, rfl, _, _, _, _⟩ | ⟨n, j, rfl, _, _⟩
        · obtain ⟨fuel, s2, h2, hinv2⟩ := ihl stack1 s1 hu
            (by simp only [List.length_cons] at hlen; omega) hinv1
          exact ⟨fuel + 1, s2, by rw [evaluate_loop_step hstep]; exact h2, hinv2⟩
        · exact hdesc (Or.inr ⟨n, i, sock, rfl, hsock, hcomp⟩)
        · exact hdesc (Or.inl ⟨n, j, rfl⟩)
        · exact hdesc (Or.inl ⟨n, j, rfl⟩)

/-- Every state the loop goes through satisfies the invariant. -/
theorem reachable_inv {net : MFNetwork} {tree : MultiFunction_FunctionTree} {rank : Nat → Nat}
    (hwf : WellFormed net tree) (hr : Ranked net rank) (hclosed : BoundaryClosed net tree)
    {mask_indices : List Nat} (hmask : mask_indices ≠ []) {s0 : EvalState}
    (h0 : LoopInv net tree rank (initial_stack tree) s0)
    {stack : List MFSocket} {s : EvalState}
    (h : Reachable net tree mask_indices s0 stack s) : LoopInv net tree rank stack s := by
  induction h with
  | start => exact h0
  | next stack stack1 s s1 _ hstep ih =>
    cases stack with
    | nil =>
      simp only [step] at hstep
      cases hstep
      exact ih
    | cons x rest =>
      obtain ⟨stack2, s2, hstep2, hinv2, _⟩ := step_inv hwf hr hclosed hmask ih
      rw [hstep] at hstep2
      cases hstep2
      exact hinv2

/-! ## The evaluation loop: termination, dependency order, single invocation -/

theorem boundaryClosed_of_links {net : MFNetwork} {tree : MultiFunction_FunctionTree}
    (h : PlaceholderLinksDeclared net tree) : BoundaryClosed net tree := by
  intro n j hreach hp
  cases hreach with
  | origin n' i' s o _ hin ho =>
    obtain ⟨node, h1, h2⟩ := input_eq_ok.mp hin
    exact h node (List.getElem?_mem h1) s (List.getElem?_mem h2) o (by rw [ho]; rfl) hp

/-- C4. On a built acyclic network whose reachable placeholder outputs are all
declared boundary inputs, for a non-empty lane sequence and caller parameters
that fit the signature: seed succeeds, the work-stack loop ends (with every
step budget from some budget on), and at its end every boundary output socket
is marked computed in the storage. -/
theorem evaluation_terminates (net : MFNetwork) (tree : MultiFunction_FunctionTree)
    (hwf : WellFormed net tree) (hacyclic : Acyclic net) (hclosed : BoundaryClosed net tree)
    (mask_indices : List Nat) (hmask : mask_indices ≠ [])
    (params : List MFParam) (mem : Memory)
    (hparams : caller_params_ok net tree params mem = true) :
    ∃ s0 fuel s1, copy_inputs_to_storage net tree params (initial_state mem) = .ok s0 ∧
      (∀ k, evaluate_network_to_compute_outputs net tree (fuel + k) mask_indices s0 = .ok s1) ∧
      ∀ socket ∈ tree.m_outputs, ∃ s, net.input socket = .ok s ∧
        s1.storage.input_is_computed s.type socket = .ok true := by
  obtain ⟨rank, hr⟩ := hacyclic
  obtain ⟨s0, hseed⟩ := seed_ok hwf hparams
  have h0 := seed_inv rank hwf (caller_params_inputs hwf hparams).1 hseed
  obtain ⟨fuel, s1, h1, hinv1⟩ := loop_terminates hwf hr hclosed hmask _ _ _ _
    (Nat.le_refl _) (Nat.le_refl _) h0
  refine ⟨s0, fuel, s1, hseed, fun k => evaluate_loop_mono fuel _ _ _ h1 k, ?_⟩
  intro socket hm
  obtain ⟨s, hs, _⟩ := wf_boundary_output hwf hm
  obtain ⟨b, hb, hbD⟩ := computed_iff hwf hinv1.dom hs (Or.inr hm)
  rcases hinv1.outputs_done socket hm with h | h
  · cases h
  · have := hbD.mpr h
    subst this
    exact ⟨s, hs, hb⟩

/-- Witness of `evaluation_terminates` on the network `c = a + b` with lanes `1, 3`. -/
theorem evaluation_terminates_witness :
    ∃ s0 fuel s1,
      copy_inputs_to_storage Example.add_network Example.add_tree Example.add_params
        (initial_state Example.add_memory) = .ok s0 ∧
      (∀ k, evaluate_network_to_compute_outputs Example.add_network Example.add_tree
        (fuel + k) [1, 3] s0 = .ok s1) ∧
      ∀ socket ∈ Example.add_tree.m_outputs, ∃ s, Example.add_network.input socket = .ok s ∧
        s1.storage.input_is_computed s.type socket = .ok true :=
  evaluation_terminates Example.add_network Example.add_tree (by decide)
    ⟨fun n => n, by decide⟩ (boundaryClosed_of_links (by decide)) [1, 3] (by simp)
    Example.add_params Example.add_memory (by decide)

/-- C3. During one call on a built acyclic network (same conditions as for
termination), in every state the evaluation loop goes through no function
node occurs twice among the nodes invoked so far, and the next iteration does
not fail; in particular no `add_new` of seed or of forwarding meets a key that
is present. -/
theorem invoked_at_most_once (net : MFNetwork) (tree : MultiFunction_FunctionTree)
    (hwf : WellFormed net tree) (hacyclic : Acyclic net) (hclosed : BoundaryClosed net tree)
    (mask_indices : List Nat) (hmask : mask_indices ≠ [])
    (params : List MFParam) (mem : Memory)
    (hparams : caller_params_ok net tree params mem = true) :
    ∃ s0, copy_inputs_to_storage net tree params (initial_state mem) = .ok s0 ∧
      ∀ stack s, Reachable net tree mask_indices s0 stack s →
        s.trace.Nodup ∧ (∀ n ∈ s.trace, net.is_function n = true) ∧
        ∃ stack1 s1, step net tree mask_indices stack s = .ok (stack1, s1) := by
  obtain ⟨rank, hr⟩ := hacyclic
  obtain ⟨s0, hseed⟩ := seed_ok hwf hparams
  have h0 := seed_inv rank hwf (caller_params_inputs hwf hparams).1 hseed
  refine ⟨s0, hseed, ?_⟩
  intro stack s hreach
  have hinv := reachable_inv hwf hr hclosed hmask h0 hreach
  refine ⟨hinv.trace_nodup, hinv.trace_function, ?_⟩
  cases stack with
  | nil => exact ⟨[], s, rfl⟩
  | cons x rest =>
    obtain ⟨stack1, s1, hstep, _, _⟩ := step_inv hwf hr hclosed hmask hinv
    exact ⟨stack1, s1, hstep⟩

/-- Witness of `invoked_at_most_once` on the network `c = a + b` with lanes `1, 3`. -/
theorem invoked_at_most_once_witness :
    ∃ s0, copy_inputs_to_storage Example.add_network Example.add_tree Example.add_params
        (initial_state Example.add_memory) = .ok s0 ∧
      ∀ stack s, Reachable Example.add_network Example.add_tree [1, 3] s0 stack s →
        s.trace.Nodup ∧ (∀ n ∈ s.trace, Example.add_network.is_function n = true) ∧
        ∃ stack1 s1, step Example.add_network Example.add_tree [1, 3] stack s
          = .ok (stack1, s1) :=
  invoked_at_most_once Example.add_network Example.add_tree (by decide)
    ⟨fun n => n, by decide⟩ (boundaryClosed_of_links (by decide)) [1, 3] (by simp)
    Example.add_params Example.add_memory (by decide)

/-- C5. Dependency order: whenever the loop is about to invoke a function node
(an output socket of the node is on top of the stack and no input of the node
is left to push), every input socket of the node holds a value in the map that
its parameter is read from, and `compute_and_forward_outputs` does not fail. -/
theorem dependency_order (net : MFNetwork) (tree : MultiFunction_FunctionTree)
    (hwf : WellFormed net tree) (hacyclic : Acyclic net) (hclosed : BoundaryClosed net tree)
    (mask_indices : List Nat) (hmask : mask_indices ≠ [])
    (params : List MFParam) (mem : Memory)
    (hparams : caller_params_ok net tree params mem = true) :
    ∃ s0, copy_inputs_to_storage net tree params (initial_state mem) = .ok s0 ∧
      ∀ rest s n j node function ipi opi,
        Reachable net tree mask_indices s0 (.output n j :: rest) s →
        net.nodes[n]? = some node → node.kind = .function function ipi opi →
        uncomputed_inputs s.storage n 0 node.inputs = .ok [] →
        InputsReady s.storage n function ipi ∧
        ∃ s1, compute_and_forward_outputs net tree mask_indices n node function ipi opi s
          = .ok s1 := by
  obtain ⟨rank, hr⟩ := hacyclic
  obtain ⟨s0, hseed⟩ := seed_ok hwf hparams
  have h0 := seed_inv rank hwf (caller_params_inputs hwf hparams).1 hseed
  refine ⟨s0, hseed, ?_⟩
  intro rest s n j node function ipi opi hreach hnode hk hunc
  have hinv := reachable_inv hwf hr hclosed hmask h0 hreach
  have hfn : net.is_function n = true :=
    is_function_iff.mpr ⟨node, function, ipi, opi, hnode, hk⟩
  have hall : ∀ (i : Nat) s', node.inputs[i]? = some s' →
      s.storage.input_is_computed s'.type (n, i) = .ok true := by
    intro i s' hi
    obtain ⟨b, hb, _⟩ := computed_iff (t := (n, i)) hwf hinv.dom
      (input_eq_ok.mpr ⟨node, hnode, hi⟩) (Or.inl hfn)
    obtain ⟨l, hl, hlx⟩ := uncomputed_inputs_spec s.storage n node.inputs 0 (by
      intro k s'' hk'
      obtain ⟨b', hb', _⟩ := computed_iff (t := (n, k)) hwf hinv.dom
        (input_eq_ok.mpr ⟨node, hnode, hk'⟩) (Or.inl hfn)
      exact ⟨b', by rw [Nat.zero_add]; exact hb'⟩)
    rw [hunc] at hl
    cases hl
    cases b with
    | true => exact hb
    | false =>
      have := (hlx (.input n (0 + i))).mpr ⟨i, s', hi, rfl, by rw [Nat.zero_add]; exact hb⟩
      simp at this
  have hready := inputs_ready_of_computed hwf hinv.dom hnode hk hall
  obtain ⟨s1, h1, _⟩ := compute_and_forward_outputs_inv hwf hmask hnode hk hinv.dom
    hinv.bounded (hinv.fresh n j (List.mem_cons_self _ _)).1 hready
  exact ⟨hready, s1, h1⟩

/-- Witness of `dependency_order` on the network `c = a + b` with lanes `1, 3`. -/
theorem dependency_order_witness :
    ∃ s0, copy_inputs_to_storage Example.add_network Example.add_tree Example.add_params
        (initial_state Example.add_memory) = .ok s0 ∧
      ∀ rest s n j node function ipi opi,
        Reachable Example.add_network Example.add_tree [1, 3] s0 (.output n j :: rest) s →
        Example.add_network.nodes[n]? = some node → node.kind = .function function ipi opi →
        uncomputed_inputs s.storage n 0 node.inputs = .ok [] →
        InputsReady s.storage n function ipi ∧
        ∃ s1, compute_and_forward_outputs Example.add_network Example.add_tree [1, 3] n node
          function ipi opi s = .ok s1 :=
  dependency_order Example.add_network Example.add_tree (by decide)
    ⟨fun n => n, by decide⟩ (boundaryClosed_of_links (by decide)) [1, 3] (by simp)
    Example.add_params Example.add_memory (by decide)

/-! ## What the parameter loop builds -/

theorem getElem?_append_singleton {α : Type} (l : List α) (x : α) (q : Nat) (y : α) :
    (l ++ [x])[q]? = some y ↔ (q < l.length ∧ l[q]? = some y) ∨ (q = l.length ∧ y = x) := by
  by_cases hq : q < l.length
  · rw [List.getElem?_append_left hq]
    constructor
    · intro h; exact Or.inl ⟨hq, h⟩
    · rintro (⟨_, h⟩ | ⟨h, _⟩)
      · exact h
      · omega
  · rw [List.getElem?_append_right (by omega)]
    constructor
    · intro h
      have h0 : q - l.length = 0 := by
        by_contra hc
        obtain ⟨m, hm⟩ := Nat.exists_eq_succ_of_ne_zero hc
        rw [hm] at h
        simp at h
      rw [h0] at h
      simp only [List.getElem?_cons_zero, Option.some.injEq] at h
      exact Or.inr ⟨by omega, h.symm⟩
    · rintro (⟨h, _⟩ | ⟨h, h2⟩)
      · omega
      · subst h h2
        simp

theorem builderAddr_initial (n : Nat) (function : MultiFunction) (ipi opi : List Nat)
    (size : Nat) (st : Storage) (mem : Memory) :
    BuilderAddr n function ipi opi size st mem 0
      { array_size := size, memory := mem, params := [], single_outputs_to_forward := [],
        vector_outputs_to_forward := [] } :=
  { params_length := rfl
    arrays_prefix := ⟨[], by simp⟩
    vectors_prefix := ⟨[], by simp⟩
    params_spec := fun q pt hq => absurd hq (Nat.not_lt_zero _)
    single_from := by simp
    vector_from := by simp
    nodup := by simp
    single_fresh := by simp
    vector_fresh := by simp
    single_distinct := by simp
    vector_distinct := by simp
    inputs_from := by simp }

/-- `param_spec` stays true when buffers are appended and outputs are queued. -/
theorem param_spec_grows {n : Nat} {ipi opi : List Nat} {size : Nat} {st : Storage}
    {mem0 : Memory} {b b1 : ParamsBuilderState} {q : Nat} {pt : MFParamType} {prm : MFParam}
    (h : param_spec n ipi opi size st mem0 b q pt prm)
    (ha : ∃ new, b1.memory.arrays = b.memory.arrays ++ new)
    (hv : ∃ new, b1.memory.vector_arrays = b.memory.vector_arrays ++ new)
    (hs : ∀ x ∈ b.single_outputs_to_forward, x ∈ b1.single_outputs_to_forward)
    (hl : ∀ x ∈ b.vector_outputs_to_forward, x ∈ b1.vector_outputs_to_forward) :
    param_spec n ipi opi size st mem0 b1 q pt prm := by
  obtain ⟨na, hna⟩ := ha
  obtain ⟨nv, hnv⟩ := hv
  cases pt <;> cases prm <;> simp only [param_spec] at h ⊢ <;> try exact h
  · obtain ⟨a1, a2, ⟨x, a3, a5⟩, a4⟩ := h
    refine ⟨a1, a2, ⟨x, ?_, a5⟩, hs _ a4⟩
    rw [hna, List.getElem?_append_left (List.getElem?_eq_some.mp a3).1]
    exact a3
  · obtain ⟨a1, a2, a3, a4⟩ := h
    refine ⟨a1, a2, ?_, hl _ a4⟩
    rw [hnv, List.getElem?_append_left (List.getElem?_eq_some.mp a3).1]
    exact a3
  · obtain ⟨a1, a2, a3, a4⟩ := h
    exact ⟨a1, a2, a3, hl _ a4⟩

/-- One iteration of the parameter loop extends what was built by parameter `p`. -/
theorem add_param_addr {node : MFNode} {function : MultiFunction} {ipi opi : List Nat}
    (node_id size : Nat) (st : Storage) (mem0 : Memory)
    {p : Nat} {pt : MFParamType} (hp : function.signature[p]? = some pt)
    {b b1 : ParamsBuilderState}
    (hinv : BuilderAddr node_id function ipi opi size st mem0 p b)
    (h : add_param node_id node ipi opi size st p pt b = .ok b1) :
    BuilderAddr node_id function ipi opi size st mem0 (p + 1) b1 := by
  have hlen := hinv.params_length
  -- facts shared by the five cases, for a state that appends `prm` to the parameters
  have build : ∀ (prm : MFParam) (mem1 : Memory) (ls lv : List (OutputRef × Nat)),
      b1 = { array_size := b.array_size, memory := mem1, params := b.params ++ [prm],
             single_outputs_to_forward := b.single_outputs_to_forward ++ ls,
             vector_outputs_to_forward := b.vector_outputs_to_forward ++ lv } →
      (∃ new, mem1.arrays = b.memory.arrays ++ new) →
      (∃ new, mem1.vector_arrays = b.memory.vector_arrays ++ new) →
      param_spec node_id ipi opi size st mem0 b1 p pt prm →
      (∀ x ∈ ls, p ∈ opi ∧ x.1 = (node_id, opi.indexOf p) ∧ prm = .single_output x.2) →
      (∀ x ∈ lv, p ∈ opi ∧ x.1 = (node_id, opi.indexOf p) ∧
        (prm = .vector_output x.2 ∨ prm = .mutable_vector x.2)) →
      (ls ++ lv).length ≤ 1 →
      (∀ a, prm = .single_output a → a = b.memory.arrays.length ∧ a < mem1.arrays.length) →
      (∀ a, prm = .vector_output a →
        a = b.memory.vector_arrays.length ∧ a < mem1.vector_arrays.length) →
      (match prm with
        | .readonly_single_input a => ∃ k, st.m_virtual_list_for_inputs k = some a
        | .readonly_vector_input a => ∃ k, st.m_virtual_list_list_for_inputs k = some a
        | .mutable_vector a => p ∈ ipi ∧ st.m_vector_per_socket (node_id, ipi.indexOf p) = some a
        | _ => True) →
      BuilderAddr node_id function ipi opi size st mem0 (p + 1) b1 := by
    intro prm mem1 ls lv hb1 ha hv hspec hls hlv hone hsf hvf hinp
    subst hb1
    obtain ⟨na, hna⟩ := ha
    obtain ⟨nv, hnv⟩ := hv
    obtain ⟨na0, hna0⟩ := hinv.arrays_prefix
    obtain ⟨nv0, hnv0⟩ := hinv.vectors_prefix
    have hal : b.memory.arrays.length ≤ mem1.arrays.length := by rw [hna]; simp
    have hvl : b.memory.vector_arrays.length ≤ mem1.vector_arrays.length := by rw [hnv]; simp
    have hal0 : mem0.arrays.length ≤ b.memory.arrays.length := by rw [hna0]; simp
    have hvl0 : mem0.vector_arrays.length ≤ b.memory.vector_arrays.length := by rw [hnv0]; simp
    have old : ∀ (q : Nat) y, q < p → ((b.params ++ [prm])[q]? = some y ↔ b.params[q]? = some y) := by
      intro q y hq
      rw [List.getElem?_append_left (by omega)]
    have cases_q : ∀ (q : Nat) y, (b.params ++ [prm])[q]? = some y →
        (q < p ∧ b.params[q]? = some y) ∨ (q = p ∧ y = prm) := by
      intro q y hy
      rcases (getElem?_append_singleton _ _ _ _).mp hy with ⟨a, c⟩ | ⟨a, c⟩
      · exact Or.inl ⟨by omega, c⟩
      · exact Or.inr ⟨by omega, c⟩
    have at_p : (b.params ++ [prm])[p]? = some prm := by
      rw [← hlen]; simp
    refine
      { params_length := by simp [hlen]
        arrays_prefix := ⟨na0 ++ na, by simp only; rw [hna, hna0, List.append_assoc]⟩
        vectors_prefix := ⟨nv0 ++ nv, by simp only; rw [hnv, hnv0, List.append_assoc]⟩
        params_spec := ?_
        single_from := ?_
        vector_from := ?_
        nodup := ?_
        single_fresh := ?_
        vector_fresh := ?_
        single_distinct := ?_
        vector_distinct := ?_
        inputs_from := ?_ }
    · intro q pt' hq hpt'
      by_cases hqp : q = p
      · subst hqp
        rw [hp] at hpt'
        cases hpt'
        exact ⟨prm, at_p, hspec⟩
      · obtain ⟨prm', a, c⟩ := hinv.params_spec q pt' (by omega) hpt'
        refine ⟨prm', (old q prm' (by omega)).mpr a, ?_⟩
        exact param_spec_grows c ⟨na, hna⟩ ⟨nv, hnv⟩
          (fun x hx => List.mem_append_left _ hx) (fun x hx => List.mem_append_left _ hx)
    · intro x hx
      rcases List.mem_append.mp hx with hx | hx
      · obtain ⟨q, a, c, d, e⟩ := hinv.single_from x hx
        exact ⟨q, by omega, c, d, (old q _ a).mpr e⟩
      · obtain ⟨a, c, d⟩ := hls x hx
        exact ⟨p, by omega, a, c, by rw [at_p, d]⟩
    · intro x hx
      rcases List.mem_append.mp hx with hx | hx
      · obtain ⟨q, a, c, d, e⟩ := hinv.vector_from x hx
        refine ⟨q, by omega, c, d, ?_⟩
        rcases e with e | e
        · exact Or.inl ((old q _ a).mpr e)
        · exact Or.inr ((old q _ a).mpr e)
      · obtain ⟨a, c, d⟩ := hlv x hx
        refine ⟨p, by omega, a, c, ?_⟩
        rw [at_p]
        rcases d with d | d
        · exact Or.inl (by rw [d])
        · exact Or.inr (by rw [d])
    · -- the queued output sockets stay pairwise different
      have hold := hinv.nodup
      have hnew : ∀ x ∈ ls ++ lv, x.1 ∉
          (b.single_outputs_to_forward ++ b.vector_outputs_to_forward).map Prod.fst := by
        intro x hx hmem
        have hx1 : p ∈ opi ∧ x.1 = (node_id, opi.indexOf p) := by
          rcases List.mem_append.mp hx with hx | hx
          · exact ⟨(hls x hx).1, (hls x hx).2.1⟩
          · exact ⟨(hlv x hx).1, (hlv x hx).2.1⟩
        obtain ⟨y, hy, hye⟩ := List.mem_map.mp hmem
        have : ∃ q, q < p ∧ q ∈ opi ∧ y.1 = (node_id, opi.indexOf q) := by
          rcases List.mem_append.mp hy with hy | hy
          · obtain ⟨q, a, c, d, _⟩ := hinv.single_from y hy
            exact ⟨q, a, c, d⟩
          · obtain ⟨q, a, c, d, _⟩ := hinv.vector_from y hy
            exact ⟨q, a, c, d⟩
        obtain ⟨q, hq, hqm, hyq⟩ := this
        rw [hye, hx1.2] at hyq
        have := indexOf_inj hx1.1 hqm (Prod.mk.inj hyq).2
        omega
      have hperm : List.Perm
          (((b.single_outputs_to_forward ++ ls) ++
            (b.vector_outputs_to_forward ++ lv)).map Prod.fst)
          ((b.single_outputs_to_forward ++ b.vector_outputs_to_forward).map Prod.fst ++
            (ls ++ lv).map Prod.fst) := by
        simp only [List.map_append]
        have h1 : List.Perm
            (List.map Prod.fst ls ++ (List.map Prod.fst b.vector_outputs_to_forward ++
              List.map Prod.fst lv))
            (List.map Prod.fst b.vector_outputs_to_forward ++
              (List.map Prod.fst ls ++ List.map Prod.fst lv)) := by
          rw [← List.append_assoc, ← List.append_assoc]
          exact List.Perm.append_right _ List.perm_append_comm
        simpa [List.append_assoc] using
          List.Perm.append_left (List.map Prod.fst b.single_outputs_to_forward) h1
      refine hperm.nodup_iff.mpr (List.nodup_append.mpr ⟨hold, ?_, ?_⟩)
      · match hlen2 : ls ++ lv with
        | [] => simp
        | [x] => simp
        | x :: y :: r => rw [hlen2] at hone; simp at hone
      · intro x hx1 hx2
        obtain ⟨y, hy, hye⟩ := List.mem_map.mp hx2
        rw [← hye] at hx1
        exact hnew y hy hx1
    · intro q a hq
      rcases cases_q q _ hq with ⟨hq1, hq2⟩ | ⟨_, hq2⟩
      · obtain ⟨c, d⟩ := hinv.single_fresh q a hq2
        exact ⟨c, by simp only; omega⟩
      · obtain ⟨c, d⟩ := hsf a hq2.symm
        exact ⟨by omega, d⟩
    · intro q a hq
      rcases cases_q q _ hq with ⟨hq1, hq2⟩ | ⟨_, hq2⟩
      · obtain ⟨c, d⟩ := hinv.vector_fresh q a hq2
        exact ⟨c, by simp only; omega⟩
      · obtain ⟨c, d⟩ := hvf a hq2.symm
        exact ⟨by omega, d⟩
    · intro q q1 a hq hq1
      rcases cases_q q _ hq with ⟨h1, h2⟩ | ⟨h1, h2⟩ <;>
        rcases cases_q q1 _ hq1 with ⟨h3, h4⟩ | ⟨h3, h4⟩
      · exact hinv.single_distinct q q1 a h2 h4
      · have := (hinv.single_fresh q a h2).2
        have := (hsf a h4.symm).1
        omega
      · have := (hinv.single_fresh q1 a h4).2
        have := (hsf a h2.symm).1
        omega
      · omega
    · intro q q1 a hq hq1
      rcases cases_q q _ hq with ⟨h1, h2⟩ | ⟨h1, h2⟩ <;>
        rcases cases_q q1 _ hq1 with ⟨h3, h4⟩ | ⟨h3, h4⟩
      · exact hinv.vector_distinct q q1 a h2 h4
      · have := (hinv.vector_fresh q a h2).2
        have := (hvf a h4.symm).1
        omega
      · have := (hinv.vector_fresh q1 a h4).2
        have := (hvf a h2.symm).1
        omega
      · omega
    · intro q prm' hq
      rcases cases_q q _ hq with ⟨h1, h2⟩ | ⟨h1, h2⟩
      · exact hinv.inputs_from q prm' h2
      · subst h1 h2
        exact hinp
  cases pt with
  | none => simp [add_param] at h
  | readonly_single_input t =>
    simp only [add_param] at h
    obtain ⟨i, hi, h⟩ := bind_eq_ok h
    obtain ⟨_, _, h⟩ := bind_eq_ok h
    obtain ⟨v, hv, h⟩ := bind_eq_ok h
    cases h
    obtain ⟨hm, rfl⟩ := first_index_eq_ok.mp hi
    exact build (.readonly_single_input v) b.memory [] [] (by simp) ⟨[], by simp⟩ ⟨[], by simp⟩
      ⟨hm, lookup_eq_ok.mp hv⟩ (by simp) (by simp) (by simp) (by simp) (by simp)
      ⟨_, lookup_eq_ok.mp hv⟩
  | readonly_vector_input t =>
    simp only [add_param] at h
    obtain ⟨i, hi, h⟩ := bind_eq_ok h
    obtain ⟨_, _, h⟩ := bind_eq_ok h
    obtain ⟨v, hv, h⟩ := bind_eq_ok h
    cases h
    obtain ⟨hm, rfl⟩ := first_index_eq_ok.mp hi
    exact build (.readonly_vector_input v) b.memory [] [] (by simp) ⟨[], by simp⟩ ⟨[], by simp⟩
      ⟨hm, lookup_eq_ok.mp hv⟩ (by simp) (by simp) (by simp) (by simp) (by simp)
      ⟨_, lookup_eq_ok.mp hv⟩
  | single_output t =>
    simp only [add_param] at h
    obtain ⟨j, hj, h⟩ := bind_eq_ok h
    obtain ⟨_, _, h⟩ := bind_eq_ok h
    cases h
    obtain ⟨hm, rfl⟩ := first_index_eq_ok.mp hj
    obtain ⟨na0, hna0⟩ := hinv.arrays_prefix
    refine build (.single_output b.memory.arrays.length)
      (b.memory.allocate_array size).1 [((node_id, opi.indexOf p), b.memory.arrays.length)] []
      (by simp [Memory.allocate_array])
      ⟨[(List.range size).map (b.memory.indeterminate b.memory.arrays.length)], rfl⟩ ⟨[], by simp [Memory.allocate_array]⟩ ?_ ?_ (by simp)
      (by simp) ?_ (by simp) trivial
    · refine ⟨hm, by rw [hna0]; simp, by simp [Memory.allocate_array], by simp [Memory.allocate_array]⟩
    · intro x hx
      simp only [List.mem_singleton] at hx
      subst hx
      exact ⟨hm, rfl, rfl⟩
    · intro a ha
      cases ha
      exact ⟨rfl, by simp [Memory.allocate_array]⟩
  | vector_output t =>
    simp only [add_param] at h
    obtain ⟨j, hj, h⟩ := bind_eq_ok h
    obtain ⟨_, _, h⟩ := bind_eq_ok h
    cases h
    obtain ⟨hm, rfl⟩ := first_index_eq_ok.mp hj
    obtain ⟨nv0, hnv0⟩ := hinv.vectors_prefix
    refine build (.vector_output b.memory.vector_arrays.length)
      (b.memory.new_vector_array size).1 []
      [((node_id, opi.indexOf p), b.memory.vector_arrays.length)]
      (by simp [Memory.new_vector_array]) ⟨[], by simp [Memory.new_vector_array]⟩
      ⟨[List.replicate size []], rfl⟩ ?_ (by simp) ?_ (by simp) (by simp) ?_ trivial
    · refine ⟨hm, by rw [hnv0]; simp, by simp [Memory.new_vector_array],
        by simp [Memory.new_vector_array]⟩
    · intro x hx
      simp only [List.mem_singleton] at hx
      subst hx
      exact ⟨hm, rfl, Or.inl rfl⟩
    · intro a ha
      cases ha
      exact ⟨rfl, by simp [Memory.new_vector_array]⟩
  | mutable_vector t =>
    simp only [add_param] at h
    obtain ⟨i, hi, h⟩ := bind_eq_ok h
    obtain ⟨_, _, h⟩ := bind_eq_ok h
    obtain ⟨j, hj, h⟩ := bind_eq_ok h
    obtain ⟨_, _, h⟩ := bind_eq_ok h
    obtain ⟨v, hv, h⟩ := bind_eq_ok h
    cases h
    obtain ⟨hmi, rfl⟩ := first_index_eq_ok.mp hi
    obtain ⟨hm, rfl⟩ := first_index_eq_ok.mp hj
    refine build (.mutable_vector v) b.memory []
      [((node_id, opi.indexOf p), v)] (by simp) ⟨[], by simp⟩ ⟨[], by simp⟩ ?_ (by simp) ?_
      (by simp) (by simp) (by simp) ⟨hmi, lookup_eq_ok.mp hv⟩
    · exact ⟨hmi, hm, lookup_eq_ok.mp hv, by simp⟩
    · intro x hx
      simp only [List.mem_singleton] at hx
      subst hx
      exact ⟨hm, rfl, Or.inr rfl⟩

/-- What the whole parameter loop builds. -/
theorem add_params_addr {node : MFNode} {function : MultiFunction} {ipi opi : List Nat}
    (node_id size : Nat) (st : Storage) (mem0 : Memory) {b : ParamsBuilderState}
    (h : add_params node_id node ipi opi size st 0 function.signature
      { array_size := size, memory := mem0, params := [], single_outputs_to_forward := [],
        vector_outputs_to_forward := [] } = .ok b) :
    BuilderAddr node_id function ipi opi size st mem0 function.signature.length b := by
  have := add_params_induct node_id node ipi opi size st
    (BuilderAddr node_id function ipi opi size st mem0) function.signature 0 _ b h
    (builderAddr_initial _ _ _ _ _ _ _)
    (by
      intro k pt b2 b3 hk hP h23
      exact add_param_addr node_id size st mem0 (by simpa using hk) hP h23)
  simpa using this

/-! ## Entries and private copies along installation steps -/

theorem prefix_getElem? {α : Type} {l1 l2 : List α} (h : l1 <+: l2) {i : Nat} {v : α}
    (hv : l1[i]? = some v) : l2[i]? = some v := by
  obtain ⟨t, rfl⟩ := h
  rw [List.getElem?_append_left (List.getElem?_eq_some.mp hv).1]
  exact hv

theorem prefix_getElem?_lt {α : Type} {l1 l2 : List α} (h : l1 <+: l2) {i : Nat}
    (hi : i < l1.length) : l2[i]? = l1[i]? := by
  obtain ⟨t, rfl⟩ := h
  exact List.getElem?_append_left hi

theorem copy_lists_eq (lists : List (List Val)) : copy_lists lists = lists := by
  unfold copy_lists
  induction lists with
  | nil => rfl
  | cons x rest ih => simp [ih]

/-- What a step of the list has installed is there at the end. -/
theorem Steps.entry {l : List InstallStep} {s s1 : EvalState} (h : Steps l s s1) :
    ∀ x ∈ l,
      match x.2.2 with
      | .nothing => True
      | .shared sl => s1.storage.slot_map sl x.2.1 = some x.1
      | .copied => ∃ a lists, s.memory.vector_arrays.length ≤ a ∧
          s1.storage.m_vector_per_socket x.2.1 = some a ∧
          s1.memory.vector_arrays[x.1]? = some lists ∧
          s1.memory.vector_arrays[a]? = some lists := by
  induction h with
  | nil => intro x hx; cases hx
  | cons values socket e rest s s1 s2 he hrest ih =>
    intro x hx
    rcases List.mem_cons.mp hx with rfl | hx
    · obtain ⟨_, _, h3⟩ := he
      simp only
      cases e with
      | nothing => trivial
      | shared sl =>
        simp only at h3 ⊢
        exact hrest.keeps_entries sl _ _ h3.2.2.1
      | copied =>
        simp only at h3 ⊢
        obtain ⟨lists, a, b, c⟩ := h3
        have hpre := hrest.frame.2.2
        refine ⟨s.memory.vector_arrays.length, lists, Nat.le_refl _,
          hrest.keeps_entries .vector_array _ _ c.2.1, ?_, ?_⟩
        · apply prefix_getElem? hpre
          rw [b, List.getElem?_append_left (List.getElem?_eq_some.mp a).1]
          exact a
        · apply prefix_getElem? hpre
          rw [b, copy_lists_eq]
          simp
    · have := ih x hx
      have hle : s.memory.vector_arrays.length ≤ s1.memory.vector_arrays.length :=
        effect_spec_grows he
      rcases x with ⟨v, k, e1⟩
      cases e1 with
      | nothing => trivial
      | shared sl => exact this
      | copied =>
        obtain ⟨a, lists, h1, h2, h3, h4⟩ := this
        exact ⟨a, lists, by omega, h2, h3, h4⟩

/-- Steps keep the private vector arrays private, as long as no step hands a
private array out and no step installs a shared array for a socket of `X`. -/
theorem Steps.excl {l : List InstallStep} {s s1 : EvalState} (h : Steps l s s1)
    (X : InputRef → Prop) :
    StorageBounded s.storage s.memory → (∀ x ∈ l, step_in_range s.memory x) →
    Excl X s.storage →
    (∀ x ∈ l, x.2.2 = .shared .vector_array → ¬ X x.2.1) →
    (∀ x ∈ l, ∀ sl, x.2.2 = .shared sl → sl ≠ .virtual_list →
      ∀ k, X k → s.storage.m_vector_per_socket k ≠ some x.1) →
    Excl X s1.storage := by
  induction h with
  | nil s s1 a b c =>
    intro _ _ hX _ _ k v hk hv sl1 k1 hne h1
    have e : s1.storage.m_vector_per_socket k = s.storage.m_vector_per_socket k :=
      c .vector_array k
    rw [e] at hv
    rw [c] at h1
    exact hX k v hk hv sl1 k1 hne h1
  | cons values socket e rest s s1 s2 he hrest ih =>
    intro hb hr hX c1 c2
    have hstep := Steps.cons values socket e [] s s1 s1 he (Steps.refl _)
    have hb1 : StorageBounded s1.storage s1.memory :=
      hstep.bounded hb (fun x hx => by
        simp only [List.mem_singleton] at hx
        subst hx
        exact hr _ (List.mem_cons_self _ _))
    have hgrow := hstep.frame
    have hx0 := hr _ (List.mem_cons_self _ _)
    obtain ⟨_, h2, h3⟩ := he
    have vps_eq : ∀ k, X k → ∀ v, s1.storage.m_vector_per_socket k = some v →
        (s.storage.m_vector_per_socket k = some v) ∨
          (e = .copied ∧ k = socket ∧ v = s.memory.vector_arrays.length) := by
      intro k hk v hv
      cases e with
      | nothing =>
        simp only at h3
        left
        have := h3.2 .vector_array k
        simp only [Storage.slot_map] at this
        rw [← this]; exact hv
      | shared sl0 =>
        simp only at h3
        rcases h3.2.cases .vector_array k v hv with ⟨a, b, _⟩ | hold
        · exfalso
          subst b
          exact c1 _ (List.mem_cons_self _ _) (by rw [← a]) hk
        · exact Or.inl hold
      | copied =>
        simp only at h3
        obtain ⟨lists, _, _, hu⟩ := h3
        rcases hu.cases .vector_array k v hv with ⟨_, b, c⟩ | hold
        · exact Or.inr ⟨rfl, b, c⟩
        · exact Or.inl hold
    apply ih hb1
    · intro x hx
      have := hr x (List.mem_cons_of_mem _ hx)
      have hl := hgrow.2.2.length_le
      unfold step_in_range at this ⊢
      split
      · rename_i heq
        simp only [heq] at this
        rw [hgrow.2.1]; exact this
      · rename_i heq
        split at this
        · rename_i heq2; exact absurd heq2 heq
        · omega
    · -- privacy after the first step
      intro k v hk hv sl1 k1 hne h1
      rw [storageBounded_iff] at hb
      rcases vps_eq k hk v hv with hold | ⟨he1, hks, hvs⟩
      · have hvlt := hb .vector_array k v hold
        simp only at hvlt
        cases e with
        | nothing =>
          simp only at h3
          rw [h3.2] at h1
          exact hX k v hk hold sl1 k1 hne h1
        | shared sl0 =>
          simp only at h3
          rcases h3.2.cases sl1 k1 v h1 with ⟨a, b, c⟩ | hold1
          · exfalso
            subst a
            exact c2 _ (List.mem_cons_self _ _) sl1 rfl hne k hk (by rw [hold, c])
          · exact hX k v hk hold sl1 k1 hne hold1
        | copied =>
          simp only at h3
          obtain ⟨lists, _, _, hu⟩ := h3
          rcases hu.cases sl1 k1 v h1 with ⟨_, _, c⟩ | hold1
          · omega
          · exact hX k v hk hold sl1 k1 hne hold1
      · subst he1 hks hvs
        simp only at h3
        obtain ⟨lists, _, _, hu⟩ := h3
        rcases hu.cases sl1 k1 _ h1 with ⟨a, b, _⟩ | hold1
        · exact ⟨a, b⟩
        · have := hb sl1 k1 _ hold1
          cases sl1
          · exact absurd rfl hne
          · simp only at this; omega
          · simp only at this; omega
    · intro x hx hs
      exact c1 x (List.mem_cons_of_mem _ hx) hs
    · intro x hx sl hs hne k hk hc
      rcases vps_eq k hk _ hc with hold | ⟨_, _, hvs⟩
      · exact c2 x (List.mem_cons_of_mem _ hx) sl hs hne k hk hold
      · have := hr x (List.mem_cons_of_mem _ hx)
        unfold step_in_range at this
        rw [hs] at this
        cases sl
        · exact absurd rfl hne
        · simp only at this; omega
        · simp only at this; omega

/-! ## What a function call may write -/

theorem write_param_frame_arrays (mem : Memory) (prm : MFParam) (v : ParamValue) (a : Nat)
    (h : prm ≠ .single_output a) : (write_param mem prm v).arrays[a]? = mem.arrays[a]? := by
  cases prm with
  | single_output b =>
    cases v with
    | single values =>
      simp only [write_param]
      split
      · split
        · simp only
          rw [List.getElem?_set_ne]
          intro hc; exact h (by rw [hc])
        · rfl
      · rfl
    | vector lists => rfl
  | vector_output b =>
    cases v with
    | single values => rfl
    | vector lists =>
      simp only [write_param]
      split
      · split <;> rfl
      · rfl
  | mutable_vector b =>
    cases v with
    | single values => rfl
    | vector lists =>
      simp only [write_param]
      split
      · split <;> rfl
      · rfl
  | readonly_single_input b => cases v <;> rfl
  | readonly_vector_input b => cases v <;> rfl

theorem write_param_frame_vectors (mem : Memory) (prm : MFParam) (v : ParamValue) (a : Nat)
    (h1 : prm ≠ .vector_output a) (h2 : prm ≠ .mutable_vector a) :
    (write_param mem prm v).vector_arrays[a]? = mem.vector_arrays[a]? := by
  cases prm with
  | single_output b =>
    cases v with
    | single values =>
      simp only [write_param]
      split
      · split <;> rfl
      · rfl
    | vector lists => rfl
  | vector_output b =>
    cases v with
    | single values => rfl
    | vector lists =>
      simp only [write_param]
      split
      · split
        · simp only
          rw [List.getElem?_set_ne]
          intro hc; exact h1 (by rw [hc])
        · rfl
      · rfl
  | mutable_vector b =>
    cases v with
    | single values => rfl
    | vector lists =>
      simp only [write_param]
      split
      · split
        · simp only
          rw [List.getElem?_set_ne]
          intro hc; exact h2 (by rw [hc])
        · rfl
      · rfl
  | readonly_single_input b => cases v <;> rfl
  | readonly_vector_input b => cases v <;> rfl

theorem write_params_frame_arrays :
    ∀ (ps : List MFParam) (vs : List ParamValue) (mem : Memory) (a : Nat),
      (∀ prm ∈ ps, prm ≠ .single_output a) →
      (write_params mem ps vs).arrays[a]? = mem.arrays[a]? := by
  intro ps
  induction ps with
  | nil => intro vs mem a _; simp [write_params]
  | cons prm rest ih =>
    intro vs mem a h
    cases vs with
    | nil => simp [write_params]
    | cons v vs =>
      simp only [write_params]
      rw [ih vs _ a (fun q hq => h q (List.mem_cons_of_mem _ hq))]
      exact write_param_frame_arrays mem prm v a (h prm (List.mem_cons_self _ _))

theorem write_params_frame_vectors :
    ∀ (ps : List MFParam) (vs : List ParamValue) (mem : Memory) (a : Nat),
      (∀ prm ∈ ps, prm ≠ .vector_output a ∧ prm ≠ .mutable_vector a) →
      (write_params mem ps vs).vector_arrays[a]? = mem.vector_arrays[a]? := by
  intro ps
  induction ps with
  | nil => intro vs mem a _; simp [write_params]
  | cons prm rest ih =>
    intro vs mem a h
    cases vs with
    | nil => simp [write_params]
    | cons v vs =>
      simp only [write_params]
      rw [ih vs _ a (fun q hq => h q (List.mem_cons_of_mem _ hq))]
      exact write_param_frame_vectors mem prm v a (h prm (List.mem_cons_self _ _)).1
        (h prm (List.mem_cons_self _ _)).2

/-! ## The caller's buffers -/

/-- The parts of a successful `compute_and_forward_outputs`. -/
theorem compute_and_forward_outputs_of_ok {net : MFNetwork} {tree : MultiFunction_FunctionTree}
    {mask_indices : List Nat} {n : Nat} {node : MFNode} {function : MultiFunction}
    {ipi opi : List Nat} {s s1 : EvalState}
    (h : compute_and_forward_outputs net tree mask_indices n node function ipi opi s = .ok s1) :
    ∃ size b values s2 l,
      array_size mask_indices = .ok size ∧
      BuilderAddr n function ipi opi size s.storage s.memory function.signature.length b ∧
      read_params b.memory b.params = .ok values ∧
      Steps (single_steps net b.single_outputs_to_forward ++ l)
        ⟨write_params b.memory b.params (function.call mask_indices values), s.storage, s.trace⟩
        s2 ∧
      OutputSteps net tree b.vector_outputs_to_forward l ∧
      s1 = { s2 with trace := n :: s2.trace } := by
  unfold compute_and_forward_outputs at h
  obtain ⟨size, hsize, h⟩ := bind_eq_ok h
  obtain ⟨b, hb, h⟩ := bind_eq_ok h
  obtain ⟨values, hvals, h⟩ := bind_eq_ok h
  obtain ⟨st, hst, h⟩ := bind_eq_ok h
  obtain ⟨s2, hs2, h⟩ := bind_eq_ok h
  obtain ⟨l, hl, hout⟩ := forward_vector_outputs_steps net tree _ _ _ hs2
  have hsingle := forward_single_outputs_steps net _ _ _
    (write_params b.memory b.params (function.call mask_indices values)) s.trace hst
  refine ⟨size, b, values, s2, l, hsize, add_params_addr n size s.storage s.memory hb, hvals,
    hsingle.append hl, hout, ?_⟩
  have hfr := hl.frame.1
  simp only at hfr
  cases h
  rw [hfr]

/-- Where an entry of the storage after installation steps comes from. -/
theorem Steps.entry_cases {l : List InstallStep} {s s1 : EvalState} (h : Steps l s s1)
    (sl : Slot) (k : InputRef) (v : Nat) (hv : s1.storage.slot_map sl k = some v) :
    s.storage.slot_map sl k = some v ∨
      ∃ x ∈ l, x.2.1 = k ∧ ((x.2.2 = .shared sl ∧ v = x.1) ∨
        (x.2.2 = .copied ∧ sl = .vector_array ∧ s.memory.vector_arrays.length ≤ v)) := by
  induction h with
  | nil s s1 a b c => left; rw [← c]; exact hv
  | cons values socket e rest s s1 s2 he _ ih =>
    have hle : s.memory.vector_arrays.length ≤ s1.memory.vector_arrays.length :=
      effect_spec_grows he
    rcases ih hv with hold | ⟨x, hx, hk, hc⟩
    · obtain ⟨_, _, h3⟩ := he
      cases e with
      | nothing => simp only at h3; left; rw [← h3.2]; exact hold
      | shared sl0 =>
        simp only at h3
        rcases h3.2.cases sl k v hold with ⟨a, b, c⟩ | hold1
        · right
          exact ⟨_, List.mem_cons_self _ _, b.symm, Or.inl ⟨by rw [a], c⟩⟩
        · exact Or.inl hold1
      | copied =>
        simp only at h3
        obtain ⟨lists, _, _, hu⟩ := h3
        rcases hu.cases sl k v hold with ⟨a, b, c⟩ | hold1
        · right
          exact ⟨_, List.mem_cons_self _ _, b.symm, Or.inr ⟨rfl, a, by omega⟩⟩
        · exact Or.inl hold1
    · right
      refine ⟨x, List.mem_cons_of_mem _ hx, hk, ?_⟩
      rcases hc with hc | ⟨c1, c2, c3⟩
      · exact Or.inl hc
      · exact Or.inr ⟨c1, c2, by omega⟩

theorem length_le_of_getElem?_eq {α : Type} {l0 l1 : List α}
    (h : ∀ a, a < l0.length → l1[a]? = l0[a]?) : l0.length ≤ l1.length := by
  cases hl : l0.length with
  | zero => omega
  | succ m =>
    have h1 := h m (by omega)
    have h2 : l0[m]? = some (l0[m]) := List.getElem?_eq_getElem (by omega)
    rw [h2] at h1
    have := (List.getElem?_eq_some.mp h1).1
    omega

theorem CallerFrame.arrays_le {mem0 : Memory} {s : EvalState} (h : CallerFrame mem0 s) :
    mem0.arrays.length ≤ s.memory.arrays.length :=
  length_le_of_getElem?_eq h.arrays_kept

theorem CallerFrame.vectors_le {mem0 : Memory} {s : EvalState} (h : CallerFrame mem0 s) :
    mem0.vector_arrays.length ≤ s.memory.vector_arrays.length :=
  length_le_of_getElem?_eq h.vectors_kept

theorem callerFrame_initial (mem : Memory) : CallerFrame mem (initial_state mem) :=
  ⟨fun _ _ => rfl, fun _ _ => rfl, fun _ _ h => by simp [initial_state, Storage.empty] at h⟩

/-- Installation steps leave the caller's buffers alone, as long as no step
hands one of them out as a vector array of the storage. -/
theorem Steps.caller_frame {l : List InstallStep} {s s1 : EvalState} (h : Steps l s s1)
    {mem0 : Memory} (hf : CallerFrame mem0 s)
    (hl : ∀ x ∈ l, x.2.2 = .shared .vector_array → mem0.vector_arrays.length ≤ x.1) :
    CallerFrame mem0 s1 := by
  have hfr := h.frame
  refine ⟨?_, ?_, ?_⟩
  · intro a ha
    rw [hfr.2.1]
    exact hf.arrays_kept a ha
  · intro a ha
    rw [prefix_getElem?_lt hfr.2.2 (by have := hf.vectors_le; omega)]
    exact hf.vectors_kept a ha
  · intro k a hk
    rcases h.entry_cases .vector_array k a hk with hold | ⟨x, hx, _, hc⟩
    · exact hf.vector_arrays_new k a hold
    · rcases hc with ⟨c1, c2⟩ | ⟨_, _, c3⟩
      · rw [c2]; exact hl x hx c1
      · have := hf.vectors_le; omega

theorem compute_and_forward_outputs_frame {net : MFNetwork} {tree : MultiFunction_FunctionTree}
    {mask_indices : List Nat} {n : Nat} {node : MFNode} {function : MultiFunction}
    {ipi opi : List Nat} {s s1 : EvalState} {mem0 : Memory}
    (h : compute_and_forward_outputs net tree mask_indices n node function ipi opi s = .ok s1)
    (hf : CallerFrame mem0 s) : CallerFrame mem0 s1 := by
  obtain ⟨size, b, values, s2, l, _, hb, _, hsteps, hout, rfl⟩ :=
    compute_and_forward_outputs_of_ok h
  have hla := hf.arrays_le
  have hlv := hf.vectors_le
  have hmid : CallerFrame mem0
      ⟨write_params b.memory b.params (function.call mask_indices values), s.storage, s.trace⟩ := by
    refine ⟨?_, ?_, hf.vector_arrays_new⟩
    · intro a ha
      simp only
      rw [write_params_frame_arrays]
      · obtain ⟨new, hnew⟩ := hb.arrays_prefix
        rw [hnew, List.getElem?_append_left (by omega)]
        exact hf.arrays_kept a ha
      · intro prm hprm hc
        subst hc
        obtain ⟨q, hq⟩ := List.getElem?_of_mem hprm
        have := (hb.single_fresh q a hq).1
        omega
    · intro a ha
      simp only
      rw [write_params_frame_vectors]
      · obtain ⟨new, hnew⟩ := hb.vectors_prefix
        rw [hnew, List.getElem?_append_left (by omega)]
        exact hf.vectors_kept a ha
      · intro prm hprm
        obtain ⟨q, hq⟩ := List.getElem?_of_mem hprm
        constructor
        · intro hc
          subst hc
          have := (hb.vector_fresh q a hq).1
          omega
        · intro hc
          subst hc
          have := hb.inputs_from q _ hq
          simp only at this
          have := hf.vector_arrays_new _ _ this.2
          omega
  have := hsteps.caller_frame hmid (by
    intro x hx he
    rcases List.mem_append.mp hx with hx | hx
    · obtain ⟨_, _, _, hc⟩ := mem_single_steps hx
      rw [hc] at he
      cases he
    · obtain ⟨o, ho, _, _⟩ := hout.2 x hx
      obtain ⟨q, _, _, _, hq⟩ := hb.vector_from _ ho
      rcases hq with hq | hq
      · have := (hb.vector_fresh q _ hq).1
        simp only at this
        omega
      · have := hb.inputs_from q _ hq
        simp only at this
        exact hf.vector_arrays_new _ _ this.2)
  exact ⟨this.arrays_kept, this.vectors_kept, this.vector_arrays_new⟩

theorem step_frame {net : MFNetwork} {tree : MultiFunction_FunctionTree}
    {mask_indices : List Nat} {stack stack1 : List MFSocket} {s s1 : EvalState} {mem0 : Memory}
    (h : step net tree mask_indices stack s = .ok (stack1, s1))
    (hf : CallerFrame mem0 s) : CallerFrame mem0 s1 := by
  unfold step at h
  split at h
  · cases h; exact hf
  · obtain ⟨sock, _, h⟩ := bind_eq_ok h
    obtain ⟨computed, _, h⟩ := bind_eq_ok h
    split at h
    · cases h; exact hf
    · split at h
      · cases h; exact hf
      · cases h
  · obtain ⟨node, _, h⟩ := bind_eq_ok h
    split at h
    · cases h
    · obtain ⟨pushed, _, h⟩ := bind_eq_ok h
      split at h
      · obtain ⟨s2, hs2, h⟩ := bind_eq_ok h
        cases h
        exact compute_and_forward_outputs_frame hs2 hf
      · cases h; exact hf

theorem evaluate_loop_frame {net : MFNetwork} {tree : MultiFunction_FunctionTree}
    {mask_indices : List Nat} {mem0 : Memory} :
    ∀ (fuel : Nat) (stack : List MFSocket) (s s1 : EvalState),
      evaluate_loop net tree mask_indices fuel stack s = .ok s1 →
      CallerFrame mem0 s → CallerFrame mem0 s1 := by
  intro fuel
  induction fuel with
  | zero =>
    intro stack s s1 h hf
    cases stack with
    | nil => simp only [evaluate_loop] at h; cases h; exact hf
    | cons x rest => simp [evaluate_loop] at h
  | succ fuel ih =>
    intro stack s s1 h hf
    cases stack with
    | nil => simp only [evaluate_loop] at h; cases h; exact hf
    | cons x rest =>
      simp only [evaluate_loop] at h
      obtain ⟨⟨stack1, s2⟩, hstep, h⟩ := bind_eq_ok h
      exact ih stack1 s2 s1 h (step_frame hstep hf)

theorem seed_effect_not_vector_array {net : MFNetwork} {t : InputRef} {e : Effect}
    (h : seed_effect net t = some e) : e ≠ .shared .vector_array := by
  unfold seed_effect at h
  intro hc
  subst hc
  split at h
  · split at h
    · split at h <;> cases h
    · cases h
  · cases h

theorem seed_frame {net : MFNetwork} {tree : MultiFunction_FunctionTree}
    {params : List MFParam} {mem : Memory} {s0 : EvalState}
    (h : copy_inputs_to_storage net tree params (initial_state mem) = .ok s0) :
    CallerFrame mem s0 := by
  obtain ⟨l, hl, _, hentries⟩ := copy_inputs_from_steps net params _ 0 _ _ h
  apply hl.caller_frame (callerFrame_initial mem)
  intro x hx he
  obtain ⟨k, o, os, _, _, _, hentry⟩ := hentries x hx
  unfold seed_entry at hentry
  split at hentry
  · rw [he] at hentry
    cases hentry.1
  · exact absurd he (seed_effect_not_vector_array hentry.1)
  · exact hentry.elim

theorem copy_single_lanes_frame (values output_values : Nat) :
    ∀ (lanes : List Nat) (mem mem1 : Memory),
      copy_single_lanes values output_values lanes mem = .ok mem1 →
      mem1.vector_arrays = mem.vector_arrays ∧
        ∀ a, a ≠ output_values → mem1.arrays[a]? = mem.arrays[a]? := by
  intro lanes
  induction lanes with
  | nil => intro mem mem1 h; simp only [copy_single_lanes] at h; cases h; exact ⟨rfl, fun _ _ => rfl⟩
  | cons i rest ih =>
    intro mem mem1 h
    simp only [copy_single_lanes] at h
    obtain ⟨source, _, h⟩ := bind_eq_ok h
    obtain ⟨value, _, h⟩ := bind_eq_ok h
    obtain ⟨destination, _, h⟩ := bind_eq_ok h
    split at h
    · obtain ⟨h1, h2⟩ := ih _ _ h
      refine ⟨h1, fun a ha => ?_⟩
      rw [h2 a ha]
      simp only
      rw [List.getElem?_set_ne (fun hc => ha hc.symm)]
    · cases h

theorem copy_vector_lanes_frame (values output_values : Nat) :
    ∀ (lanes : List Nat) (mem mem1 : Memory),
      copy_vector_lanes values output_values lanes mem = .ok mem1 →
      mem1.arrays = mem.arrays ∧
        ∀ a, a ≠ output_values → mem1.vector_arrays[a]? = mem.vector_arrays[a]? := by
  intro lanes
  induction lanes with
  | nil => intro mem mem1 h; simp only [copy_vector_lanes] at h; cases h; exact ⟨rfl, fun _ _ => rfl⟩
  | cons i rest ih =>
    intro mem mem1 h
    simp only [copy_vector_lanes] at h
    obtain ⟨source, _, h⟩ := bind_eq_ok h
    obtain ⟨list, _, h⟩ := bind_eq_ok h
    obtain ⟨destination, _, h⟩ := bind_eq_ok h
    obtain ⟨old, _, h⟩ := bind_eq_ok h
    obtain ⟨h1, h2⟩ := ih _ _ h
    refine ⟨h1, fun a ha => ?_⟩
    rw [h2 a ha]
    simp only
    rw [List.getElem?_set_ne (fun hc => ha hc.symm)]

/-- Drain writes only to the buffers of output parameters. -/
theorem copy_outputs_from_frame (net : MFNetwork) (inputs_size : Nat) (mask_indices : List Nat)
    (params : List MFParam) (st : Storage) :
    ∀ (outs : List InputRef) (k : Nat) (mem mem1 : Memory),
      copy_outputs_from net inputs_size mask_indices params st k outs mem = .ok mem1 →
      (∀ a, (∀ prm ∈ params, prm ≠ .single_output a) → mem1.arrays[a]? = mem.arrays[a]?) ∧
      (∀ a, (∀ prm ∈ params, prm ≠ .vector_output a) →
        mem1.vector_arrays[a]? = mem.vector_arrays[a]?) := by
  intro outs
  induction outs with
  | nil =>
    intro k mem mem1 h
    simp only [copy_outputs_from] at h
    cases h
    exact ⟨fun _ _ => rfl, fun _ _ => rfl⟩
  | cons socket rest ih =>
    intro k mem mem1 h
    simp only [copy_outputs_from] at h
    obtain ⟨sock, _, h⟩ := bind_eq_ok h
    split at h
    · cases h
    · obtain ⟨values, _, h⟩ := bind_eq_ok h
      obtain ⟨output_values, ho, h⟩ := bind_eq_ok h
      obtain ⟨mem2, h2, h⟩ := bind_eq_ok h
      obtain ⟨i1, i2⟩ := ih _ _ _ h
      obtain ⟨f1, f2⟩ := copy_single_lanes_frame _ _ _ _ _ h2
      have hp := List.getElem?_mem (single_output_eq_ok.mp ho)
      refine ⟨fun a ha => ?_, fun a ha => ?_⟩
      · rw [i1 a ha, f2 a (fun hc => ha _ hp (by rw [hc]))]
      · rw [i2 a ha, f1]
    · obtain ⟨values, _, h⟩ := bind_eq_ok h
      obtain ⟨output_values, ho, h⟩ := bind_eq_ok h
      obtain ⟨mem2, h2, h⟩ := bind_eq_ok h
      obtain ⟨i1, i2⟩ := ih _ _ _ h
      obtain ⟨f1, f2⟩ := copy_vector_lanes_frame _ _ _ _ _ h2
      have hp := List.getElem?_mem (vector_output_eq_ok.mp ho)
      refine ⟨fun a ha => ?_, fun a ha => ?_⟩
      · rw [i1 a ha, f1]
      · rw [i2 a ha, f2 a (fun hc => ha _ hp (by rw [hc]))]

/-! ## Seed -/

theorem getElem?_inj_of_nodup {α : Type} {l : List α} (h : l.Nodup) {i j : Nat} {x : α}
    (hi : l[i]? = some x) (hj : l[j]? = some x) : i = j := by
  obtain ⟨hi1, hi2⟩ := List.getElem?_eq_some.mp hi
  obtain ⟨hj1, hj2⟩ := List.getElem?_eq_some.mp hj
  exact (List.Nodup.getElem_inj_iff h).mp (hi2.trans hj2.symm)

theorem seed_effect_shared {net : MFNetwork} {t : InputRef} {e : Effect}
    (h : seed_effect net t = some e)
    (hc : net.is_placeholder t.1 = true ∨
      ∃ c, net.consumer_param t = some (.readonly_vector_input c)) :
    e = .shared .virtual_list_list := by
  unfold seed_effect at h
  unfold MFNetwork.is_placeholder at hc
  split at h
  · rename_i node hnode
    rw [hnode] at hc
    split at h
    · rename_i hk
      simp only [hk] at hc
      rcases hc with hc | ⟨c, hc⟩
      · cases hc
      · rw [hc] at h
        simp only at h
        cases h; rfl
    · cases h; rfl
  · cases h

theorem seed_effect_copied {net : MFNetwork} {t : InputRef} {e : Effect}
    (h : seed_effect net t = some e)
    (hc : ∃ c, net.consumer_param t = some (.mutable_vector c)) : e = .copied := by
  obtain ⟨c, hc⟩ := hc
  unfold seed_effect at h
  split at h
  · rename_i node hnode
    split at h
    · rw [hc] at h
      simp only at h
      cases h; rfl
    · rename_i hk
      unfold MFNetwork.consumer_param at hc
      rw [hnode] at hc
      simp only [hk] at hc
      cases hc
  · cases h

/-- C7. Seed on a built network with parameters as the signature asks: it
succeeds, and every input socket fed by boundary input `i` then holds a value
taken from parameter `i`.  For a Single input that is the caller's array
itself.  For a Vector input it is the caller's vector array itself when the
socket belongs to a placeholder node or feeds a read-only vector parameter;
when it feeds a mutable vector parameter it is a vector array allocated by
seed, with the content of the caller's one, held for this socket only.
The caller's buffers are as the caller gave them in every state of the
evaluation loop, whatever the function nodes do to their mutable parameters,
and when the call returns every input buffer that was not also passed as an
output buffer is as the caller gave it. -/
theorem seed_installs_inputs (net : MFNetwork) (tree : MultiFunction_FunctionTree)
    (hwf : WellFormed net tree) (params : List MFParam) (mem : Memory)
    (hparams : caller_params_ok net tree params mem = true) :
    ∃ s0, copy_inputs_to_storage net tree params (initial_state mem) = .ok s0 ∧
      (∀ (i : Nat) (o : OutputRef) (os : MFOutputSocket) (target : InputRef),
        tree.m_inputs[i]? = some o → net.output o = .ok os → target ∈ net.targets o →
        match os.type with
        | .single _ => ∃ a, params[i]? = some (.readonly_single_input a) ∧
            s0.storage.m_virtual_list_for_inputs target = some a
        | .vector _ => ∃ a lists, params[i]? = some (.readonly_vector_input a) ∧
            mem.vector_arrays[a]? = some lists ∧ s0.memory.vector_arrays[a]? = some lists ∧
            ((net.is_placeholder target.1 = true ∨
                ∃ c, net.consumer_param target = some (.readonly_vector_input c)) →
              s0.storage.m_virtual_list_list_for_inputs target = some a) ∧
            ((∃ c, net.consumer_param target = some (.mutable_vector c)) →
              ∃ copy, s0.storage.m_vector_per_socket target = some copy ∧
                mem.vector_arrays.length ≤ copy ∧
                s0.memory.vector_arrays[copy]? = some lists ∧
                ∀ k, s0.storage.m_virtual_list_list_for_inputs k ≠ some copy ∧
                  (s0.storage.m_vector_per_socket k = some copy → k = target))
        | .none => False) ∧
      (∀ mask_indices stack s, Reachable net tree mask_indices s0 stack s →
        (∀ a, a < mem.arrays.length → s.memory.arrays[a]? = mem.arrays[a]?) ∧
        (∀ a, a < mem.vector_arrays.length →
          s.memory.vector_arrays[a]? = mem.vector_arrays[a]?)) ∧
      (∀ fuel mask_indices s3, call net tree fuel mask_indices params mem = .ok s3 →
        ∀ (i a : Nat),
          (params[i]? = some (.readonly_single_input a) →
            (∀ prm ∈ params, prm ≠ .single_output a) →
            s3.memory.arrays[a]? = mem.arrays[a]?) ∧
          (params[i]? = some (.readonly_vector_input a) →
            (∀ prm ∈ params, prm ≠ .vector_output a) →
            s3.memory.vector_arrays[a]? = mem.vector_arrays[a]?)) := by
  obtain ⟨s0, hseed⟩ := seed_ok hwf hparams
  obtain ⟨hrange, _, _⟩ := caller_params_inputs hwf hparams
  have hframe0 : CallerFrame mem s0 := seed_frame hseed
  refine ⟨s0, hseed, ?_, ?_, ?_⟩
  · obtain ⟨l, hl, htargets, hentries⟩ := copy_inputs_from_steps net params _ 0 _ _ hseed
    intro i o os target hi hos ht
    have hmem : target ∈ l.map (fun x => x.2.1) := by
      rw [htargets]
      exact List.mem_flatMap.mpr ⟨o, List.getElem?_mem hi, ht⟩
    obtain ⟨x, hx, hxt⟩ := List.mem_map.mp hmem
    obtain ⟨k, o1, os1, hk, hos1, ht1, hentry⟩ := hentries x hx
    have ho : o1 = o := by
      by_contra hne
      rw [hxt] at ht1
      exact targets_disjoint hne ht1 ht
    subst ho
    rw [hos] at hos1
    cases hos1
    have hki : k = i := getElem?_inj_of_nodup hwf.2.1 hk hi
    subst hki
    rw [Nat.zero_add] at hentry
    have hent := hl.entry x hx
    have hsteps_range : ∀ y ∈ l, step_in_range mem y := by
      intro y hy
      obtain ⟨k1, o2, os2, _, _, _, he2⟩ := hentries y hy
      unfold seed_entry at he2
      unfold step_in_range
      split at he2
      · have := hrange _ (List.getElem?_mem he2.2)
        rw [he2.1]
        simpa [param_in_range] using this
      · have := hrange _ (List.getElem?_mem he2.2)
        have hne := seed_effect_not_virtual_list he2.1
        split
        · rename_i heq; exact absurd heq hne
        · simpa [param_in_range] using this
      · exact he2.elim
    unfold seed_entry at hentry
    split at hentry
    · rename_i c hty
      try rw [hty]
      try simp only
      rw [hentry.1] at hent
      simp only at hent
      rw [hxt] at hent
      exact ⟨x.1, hentry.2, hent⟩
    · rename_i c hty
      try rw [hty]
      try simp only
      have hin := hrange _ (List.getElem?_mem hentry.2)
      simp only [param_in_range, decide_eq_true_eq] at hin
      have hlists : mem.vector_arrays[x.1]? = some (mem.vector_arrays[x.1]) :=
        List.getElem?_eq_getElem hin
      have hkept : s0.memory.vector_arrays[x.1]? = some (mem.vector_arrays[x.1]) := by
        rw [hframe0.vectors_kept _ hin]; exact hlists
      refine ⟨x.1, _, hentry.2, hlists, hkept, ?_, ?_⟩
      · intro hc
        have he := seed_effect_shared hentry.1 (by rw [hxt]; exact hc)
        rw [he] at hent
        simp only at hent
        rw [hxt] at hent
        exact hent
      · intro hc
        have he := seed_effect_copied hentry.1 (by rw [hxt]; exact hc)
        rw [he] at hent
        simp only at hent
        obtain ⟨copy, lists, h1, h2, h3, h4⟩ := hent
        rw [hkept] at h3
        cases h3
        rw [hxt] at h2
        have hex := hl.excl (fun k => k = target) (storageBounded_empty mem) hsteps_range
          (by intro k a _ hk; simp [initial_state, Storage.empty] at hk)
          (by
            intro y hy hey
            obtain ⟨k1, o2, os2, _, _, _, he2⟩ := hentries y hy
            unfold seed_entry at he2
            split at he2
            · rw [hey] at he2; cases he2.1
            · exact absurd hey (seed_effect_not_vector_array he2.1)
            · exact he2.elim)
          (by intro y _ sl _ _ k _ hk; simp [initial_state, Storage.empty] at hk)
        refine ⟨copy, h2, h1, h4, fun k => ⟨?_, ?_⟩⟩
        · intro hk
          have := (hex target copy rfl h2 .virtual_list_list k (by simp) hk).1
          cases this
        · intro hk
          exact (hex target copy rfl h2 .vector_array k (by simp) hk).2
    · exact hentry.elim
  · intro mask_indices stack s hreach
    have : CallerFrame mem s := by
      induction hreach with
      | start => exact hframe0
      | next stack stack1 s s1 _ hstep ih => exact step_frame hstep ih
    exact ⟨this.arrays_kept, this.vectors_kept⟩
  · intro fuel mask_indices s3 hcall i a
    unfold call at hcall
    split at hcall
    · cases hcall
      exact ⟨fun _ _ => rfl, fun _ _ => rfl⟩
    · obtain ⟨s, hs, hcall⟩ := bind_eq_ok hcall
      obtain ⟨s1, hs1, hcall⟩ := bind_eq_ok hcall
      unfold copy_computed_values_to_outputs at hcall
      obtain ⟨mem3, hdrain, hcall⟩ := bind_eq_ok hcall
      cases hcall
      have hf1 : CallerFrame mem s1 := evaluate_loop_frame _ _ _ _ hs1 (seed_frame hs)
      obtain ⟨d1, d2⟩ := copy_outputs_from_frame _ _ _ _ _ _ _ _ _ hdrain
      constructor
      · intro hp hno
        have hin := hrange _ (List.getElem?_mem hp)
        simp only [param_in_range, decide_eq_true_eq] at hin
        simp only
        rw [d1 a hno]
        exact hf1.arrays_kept a hin
      · intro hp hno
        have hin := hrange _ (List.getElem?_mem hp)
        simp only [param_in_range, decide_eq_true_eq] at hin
        simp only
        rw [d2 a hno]
        exact hf1.vectors_kept a hin

/-- Witness of `seed_installs_inputs` on the list network: the first append
gets a copy of the caller's lists, and the caller's lists stay as they were. -/
theorem seed_installs_inputs_witness :
    ∃ s0, copy_inputs_to_storage Example.append_network Example.append_tree
        Example.append_params (initial_state Example.append_memory) = .ok s0 ∧
      (∀ (i : Nat) (o : OutputRef) (os : MFOutputSocket) (target : InputRef),
        Example.append_tree.m_inputs[i]? = some o → Example.append_network.output o = .ok os →
        target ∈ Example.append_network.targets o →
        match os.type with
        | .single _ => ∃ a, Example.append_params[i]? = some (.readonly_single_input a) ∧
            s0.storage.m_virtual_list_for_inputs target = some a
        | .vector _ => ∃ a lists, Example.append_params[i]? = some (.readonly_vector_input a) ∧
            Example.append_memory.vector_arrays[a]? = some lists ∧
            s0.memory.vector_arrays[a]? = some lists ∧
            ((Example.append_network.is_placeholder target.1 = true ∨
                ∃ c, Example.append_network.consumer_param target =
                  some (.readonly_vector_input c)) →
              s0.storage.m_virtual_list_list_for_inputs target = some a) ∧
            ((∃ c, Example.append_network.consumer_param target = some (.mutable_vector c)) →
              ∃ copy, s0.storage.m_vector_per_socket target = some copy ∧
                Example.append_memory.vector_arrays.length ≤ copy ∧
                s0.memory.vector_arrays[copy]? = some lists ∧
                ∀ k, s0.storage.m_virtual_list_list_for_inputs k ≠ some copy ∧
                  (s0.storage.m_vector_per_socket k = some copy → k = target))
        | .none => False) ∧
      (∀ mask_indices stack s,
        Reachable Example.append_network Example.append_tree mask_indices s0 stack s →
        (∀ a, a < Example.append_memory.arrays.length →
          s.memory.arrays[a]? = Example.append_memory.arrays[a]?) ∧
        (∀ a, a < Example.append_memory.vector_arrays.length →
          s.memory.vector_arrays[a]? = Example.append_memory.vector_arrays[a]?)) ∧
      (∀ fuel mask_indices s3,
        call Example.append_network Example.append_tree fuel mask_indices
          Example.append_params Example.append_memory = .ok s3 →
        ∀ (i a : Nat),
          (Example.append_params[i]? = some (.readonly_single_input a) →
            (∀ prm ∈ Example.append_params, prm ≠ .single_output a) →
            s3.memory.arrays[a]? = Example.append_memory.arrays[a]?) ∧
          (Example.append_params[i]? = some (.readonly_vector_input a) →
            (∀ prm ∈ Example.append_params, prm ≠ .vector_output a) →
            s3.memory.vector_arrays[a]? = Example.append_memory.vector_arrays[a]?)) :=
  seed_installs_inputs Example.append_network Example.append_tree (by decide)
    Example.append_params Example.append_memory (by decide)

/-! ## Forwarding -/

/-- The target of an installation step held nothing in the map of the step
before the steps. -/
theorem Steps.absent_before {l : List InstallStep} {s s1 : EvalState} (h : Steps l s s1) :
    ∀ x ∈ l, ∀ sl, x.2.2.slot = some sl → s.storage.slot_map sl x.2.1 = none := by
  induction h with
  | nil => intro x hx; cases hx
  | cons values socket e rest s s1 s2 he hrest ih =>
    intro x hx sl hsl
    rcases List.mem_cons.mp hx with rfl | hx
    · obtain ⟨_, _, h3⟩ := he
      cases e with
      | nothing => cases hsl
      | shared sl0 =>
        simp only [Effect.slot, Option.some.injEq] at hsl
        subst hsl
        simp only at h3
        exact h3.2.1
      | copied =>
        simp only [Effect.slot, Option.some.injEq] at hsl
        subst hsl
        simp only at h3
        obtain ⟨_, _, _, hu⟩ := h3
        exact hu.1
    · have hmid := ih x hx sl hsl
      cases hv : s.storage.slot_map sl x.2.1 with
      | none => rfl
      | some v =>
        have := (Steps.cons values socket e [] s s1 s1 he (Steps.refl _)).keeps_entries _ _ _ hv
        rw [hmid] at this
        cases this

theorem forward_effect_shared {net : MFNetwork} {tree : MultiFunction_FunctionTree}
    {t : InputRef} {e : Effect} (h : forward_effect net tree t = some e)
    (hc : ∃ c, net.consumer_param t = some (.readonly_vector_input c)) :
    e = .shared .virtual_list_list := by
  obtain ⟨c, hc⟩ := hc
  unfold forward_effect at h
  split at h
  · rename_i node hnode
    split at h
    · rw [hc] at h
      simp only at h
      cases h; rfl
    · rename_i hk
      unfold MFNetwork.consumer_param at hc
      rw [hnode] at hc
      simp only [hk] at hc
      cases hc
  · cases h

theorem forward_effect_copied {net : MFNetwork} {tree : MultiFunction_FunctionTree}
    {t : InputRef} {e : Effect} (h : forward_effect net tree t = some e)
    (hc : ∃ c, net.consumer_param t = some (.mutable_vector c)) : e = .copied := by
  obtain ⟨c, hc⟩ := hc
  unfold forward_effect at h
  split at h
  · rename_i node hnode
    split at h
    · rw [hc] at h
      simp only at h
      cases h; rfl
    · rename_i hk
      unfold MFNetwork.consumer_param at hc
      rw [hnode] at hc
      simp only [hk] at hc
      cases hc
  · cases h

/-- Only an input socket of a placeholder node gets a produced vector array as
its own. -/
theorem forward_effect_vector_array {net : MFNetwork} {tree : MultiFunction_FunctionTree}
    {t : InputRef} (h : forward_effect net tree t = some (.shared .vector_array)) :
    net.is_function t.1 = false := by
  unfold forward_effect at h
  unfold MFNetwork.is_function
  split at h
  · rename_i node hnode
    try rw [hnode]
    split at h
    · split at h <;> cases h
    · rename_i hk
      simp only [hk]
  · cases h

theorem Excl.anti {X Y : InputRef → Prop} {st : Storage} (h : Excl X st)
    (hxy : ∀ k, Y k → X k) : Excl Y st :=
  fun k a hk hv sl1 k1 hne h1 => h k a (hxy k hk) hv sl1 k1 hne h1

/-- The buffers that an invocation forwards exist. -/
theorem invocation_in_range {net : MFNetwork} {tree : MultiFunction_FunctionTree}
    {n : Nat} {function : MultiFunction} {ipi opi : List Nat} {size : Nat} {s : EvalState}
    {b : ParamsBuilderState} {l : List InstallStep} (values : List ParamValue)
    (hb : StorageBounded s.storage s.memory)
    (haddr : BuilderAddr n function ipi opi size s.storage s.memory function.signature.length b)
    (hout : OutputSteps net tree b.vector_outputs_to_forward l) :
    ∀ x ∈ single_steps net b.single_outputs_to_forward ++ l,
      step_in_range (write_params b.memory b.params values) x := by
  obtain ⟨wa, wv⟩ := write_params_lengths b.params values b.memory
  obtain ⟨newv, hnewv⟩ := haddr.vectors_prefix
  intro x hx
  unfold step_in_range
  rcases List.mem_append.mp hx with hx | hx
  · obtain ⟨o, ho, _, he⟩ := mem_single_steps hx
    rw [he]
    simp only
    obtain ⟨q, _, _, _, hq⟩ := haddr.single_from _ ho
    rw [wa]
    exact (haddr.single_fresh q _ hq).2
  · obtain ⟨o, ho, _, he⟩ := hout.2 x hx
    have hlt : x.1 < (write_params b.memory b.params values).vector_arrays.length := by
      rw [wv]
      obtain ⟨q, _, _, _, hq⟩ := haddr.vector_from _ ho
      rcases hq with hq | hq
      · exact (haddr.vector_fresh q _ hq).2
      · have := haddr.inputs_from q _ hq
        simp only at this
        have := hb.2.2 _ _ this.2
        rw [hnewv, List.length_append]
        omega
    split
    · rename_i heq
      exfalso
      rw [heq] at he
      revert he
      unfold forward_effect
      split
      · split
        · split <;> simp
        · split <;> simp
      · simp
    · exact hlt

/-- An invocation keeps the storage within the memory and keeps private what
is held for the input sockets of the function nodes not invoked yet. -/
theorem invocation_excl {net : MFNetwork} {tree : MultiFunction_FunctionTree}
    {mask_indices : List Nat} {n : Nat} {node : MFNode} {function : MultiFunction}
    {ipi opi : List Nat} {s s1 : EvalState}
    (hb : StorageBounded s.storage s.memory)
    (hpriv : Excl (fun k => net.is_function k.1 = true ∧ k.1 ∉ s.trace) s.storage)
    (hfn : net.is_function n = true) (hfresh : n ∉ s.trace)
    (h : compute_and_forward_outputs net tree mask_indices n node function ipi opi s = .ok s1) :
    StorageBounded s1.storage s1.memory ∧
      Excl (fun k => net.is_function k.1 = true ∧ k.1 ∉ s1.trace) s1.storage := by
  obtain ⟨size, b, values, s2, l, _, haddr, _, hsteps, hout, rfl⟩ :=
    compute_and_forward_outputs_of_ok h
  obtain ⟨wa, wv⟩ := write_params_lengths b.params (function.call mask_indices values) b.memory
  obtain ⟨newa, hnewa⟩ := haddr.arrays_prefix
  obtain ⟨newv, hnewv⟩ := haddr.vectors_prefix
  have hbmid : StorageBounded s.storage
      (write_params b.memory b.params (function.call mask_indices values)) :=
    hb.of_grows (by rw [wa, hnewa, List.length_append]; omega)
      (by rw [wv, hnewv, List.length_append]; omega)
  have hrange := invocation_in_range (function.call mask_indices values) hb haddr hout
  have hfr := hsteps.frame.1
  simp only at hfr
  refine ⟨hsteps.bounded hbmid hrange, ?_⟩
  simp only
  have := hsteps.excl (fun k => net.is_function k.1 = true ∧ k.1 ∉ n :: s.trace) hbmid hrange
    (hpriv.anti (fun k hk => ⟨hk.1, fun hc => hk.2 (List.mem_cons_of_mem _ hc)⟩))
    (by
      intro x hx he hX
      rcases List.mem_append.mp hx with hx | hx
      · obtain ⟨_, _, _, hc⟩ := mem_single_steps hx
        rw [hc] at he
        cases he
      · obtain ⟨o, _, _, hfe⟩ := hout.2 x hx
        rw [he] at hfe
        have := forward_effect_vector_array hfe
        rw [hX.1] at this
        cases this)
    (by
      intro x hx sl he hne k hk hc
      simp only at hc
      rcases List.mem_append.mp hx with hx | hx
      · obtain ⟨_, _, _, hc1⟩ := mem_single_steps hx
        rw [hc1] at he
        cases he
        exact hne rfl
      · obtain ⟨o, ho, _, _⟩ := hout.2 x hx
        obtain ⟨q, _, _, _, hq⟩ := haddr.vector_from _ ho
        rcases hq with hq | hq
        · have h1 := (haddr.vector_fresh q _ hq).1
          have h2 := hb.2.2 _ _ hc
          omega
        · have h1 := haddr.inputs_from q _ hq
          simp only at h1
          have := (hpriv (n, ipi.indexOf q) x.1 ⟨hfn, hfresh⟩ h1.2 .vector_array k
            (by simp) hc).2
          rw [this] at hk
          exact hk.2 (List.mem_cons_self _ _))
  rw [hfr]
  exact this

/-- Seed leaves a storage within the memory in which every vector array held
for an input socket of a function node is private. -/
theorem seed_excl {net : MFNetwork} {tree : MultiFunction_FunctionTree}
    {params : List MFParam} {mem : Memory}
    (hrange : ∀ p ∈ params, param_in_range mem p = true) {s0 : EvalState}
    (hseed : copy_inputs_to_storage net tree params (initial_state mem) = .ok s0) :
    StorageBounded s0.storage s0.memory ∧
      Excl (fun k => net.is_function k.1 = true ∧ k.1 ∉ s0.trace) s0.storage := by
  obtain ⟨l, hl, _, hentries⟩ := copy_inputs_from_steps net params _ 0 _ _ hseed
  have hsteps_range : ∀ y ∈ l, step_in_range (initial_state mem).memory y := by
    intro y hy
    obtain ⟨k1, o2, os2, _, _, _, he2⟩ := hentries y hy
    unfold seed_entry at he2
    unfold step_in_range
    split at he2
    · have := hrange _ (List.getElem?_mem he2.2)
      rw [he2.1]
      simpa [param_in_range] using this
    · have := hrange _ (List.getElem?_mem he2.2)
      have hne := seed_effect_not_virtual_list he2.1
      split
      · rename_i heq; exact absurd heq hne
      · simpa [param_in_range] using this
    · exact he2.elim
  refine ⟨hl.bounded (storageBounded_empty mem) hsteps_range, ?_⟩
  exact hl.excl _ (storageBounded_empty mem) hsteps_range
    (by intro k a _ hk; simp [initial_state, Storage.empty] at hk)
    (by
      intro y hy hey
      obtain ⟨k1, o2, os2, _, _, _, he2⟩ := hentries y hy
      unfold seed_entry at he2
      split at he2
      · rw [hey] at he2; cases he2.1
      · exact absurd hey (seed_effect_not_vector_array he2.1)
      · exact he2.elim)
    (by intro y _ sl _ _ k _ hk; simp [initial_state, Storage.empty] at hk)

theorem eq_of_mem_nodup_fst {α β : Type} {l : List (α × β)} (h : (l.map Prod.fst).Nodup)
    {o : α} {a b : β} (ha : (o, a) ∈ l) (hb : (o, b) ∈ l) : a = b := by
  induction l with
  | nil => cases ha
  | cons x rest ih =>
    simp only [List.map_cons, List.nodup_cons] at h
    rcases List.mem_cons.mp ha with ha | ha
    · rcases List.mem_cons.mp hb with hb | hb
      · rw [← ha] at hb
        exact (Prod.mk.inj hb).2.symm
      · exfalso
        apply h.1
        rw [← ha]
        exact List.mem_map.mpr ⟨(o, b), hb, rfl⟩
    · rcases List.mem_cons.mp hb with hb | hb
      · exfalso
        apply h.1
        rw [← hb]
        exact List.mem_map.mpr ⟨(o, a), ha, rfl⟩
      · exact ih h.2 ha hb

/-- What one invocation of a function node `n` leaves behind, in a state
whose storage lies within the memory and holds the vector arrays of not yet
invoked function nodes privately.  For a Single output parameter, every
target of its output socket holds the one array allocated for it.  For a
Vector output (an output parameter, or a mutable parameter whose array is the
one the node held for its input socket), a target feeding a read-only vector
parameter holds the produced vector array itself; a target feeding a mutable
vector parameter holds another vector array, allocated by the invocation, with
the content of the produced one, and no other socket holds that copy.  The
invocation changes no array that existed before, and no vector array other
than those the node held for its own input sockets: what any other socket
holds is as it was.  The storage stays within the memory and private for the
nodes still to be invoked, so the same holds for every later invocation. -/
theorem invocation_forwards {net : MFNetwork} {tree : MultiFunction_FunctionTree}
    {mask_indices : List Nat} {n : Nat} {node : MFNode} {function : MultiFunction}
    {ipi opi : List Nat} {s s1 : EvalState}
    (hb : StorageBounded s.storage s.memory)
    (hpriv : Excl (fun k => net.is_function k.1 = true ∧ k.1 ∉ s.trace) s.storage)
    (hfn : net.is_function n = true) (hfresh : n ∉ s.trace)
    (h : compute_and_forward_outputs net tree mask_indices n node function ipi opi s = .ok s1) :
    (∀ (q : Nat) c, function.signature[q]? = some (.single_output c) →
      ∃ a, s.memory.arrays.length ≤ a ∧ a < s1.memory.arrays.length ∧
        ∀ target ∈ net.targets (n, opi.indexOf q),
          s1.storage.m_virtual_list_for_inputs target = some a) ∧
    (∀ (q : Nat) c, (function.signature[q]? = some (.vector_output c) ∨
        function.signature[q]? = some (.mutable_vector c)) →
      ∃ a lists, s1.memory.vector_arrays[a]? = some lists ∧
        (function.signature[q]? = some (.vector_output c) →
          s.memory.vector_arrays.length ≤ a) ∧
        (function.signature[q]? = some (.mutable_vector c) →
          s.storage.m_vector_per_socket (n, ipi.indexOf q) = some a) ∧
        ∀ target ∈ net.targets (n, opi.indexOf q),
          ((∃ c1, net.consumer_param target = some (.readonly_vector_input c1)) →
            s1.storage.m_virtual_list_list_for_inputs target = some a) ∧
          ((∃ c1, net.consumer_param target = some (.mutable_vector c1)) →
            ∃ copy, s1.storage.m_vector_per_socket target = some copy ∧ copy ≠ a ∧
              s.memory.vector_arrays.length ≤ copy ∧
              s1.memory.vector_arrays[copy]? = some lists ∧
              ∀ k, s1.storage.m_virtual_list_list_for_inputs k ≠ some copy ∧
                (s1.storage.m_vector_per_socket k = some copy → k = target))) ∧
    (∀ a, a < s.memory.arrays.length → s1.memory.arrays[a]? = s.memory.arrays[a]?) ∧
    (∀ a, a < s.memory.vector_arrays.length →
      (∀ i, s.storage.m_vector_per_socket (n, i) ≠ some a) →
      s1.memory.vector_arrays[a]? = s.memory.vector_arrays[a]?) ∧
    (∀ k a, k.1 ≠ n →
      (s.storage.m_virtual_list_list_for_inputs k = some a ∨
        s.storage.m_vector_per_socket k = some a) →
      s1.memory.vector_arrays[a]? = s.memory.vector_arrays[a]?) ∧
    StorageBounded s1.storage s1.memory ∧
    Excl (fun k => net.is_function k.1 = true ∧ k.1 ∉ s1.trace) s1.storage := by
  have hinv := invocation_excl hb hpriv hfn hfresh h
  obtain ⟨size, b, values, s2, l, _, haddr, _, hsteps, hout, rfl⟩ :=
    compute_and_forward_outputs_of_ok h
  obtain ⟨wa, wv⟩ := write_params_lengths b.params (function.call mask_indices values) b.memory
  obtain ⟨newa, hnewa⟩ := haddr.arrays_prefix
  obtain ⟨newv, hnewv⟩ := haddr.vectors_prefix
  have hla : s.memory.arrays.length ≤ b.memory.arrays.length := by
    rw [hnewa, List.length_append]; omega
  have hlv : s.memory.vector_arrays.length ≤ b.memory.vector_arrays.length := by
    rw [hnewv, List.length_append]; omega
  have hbmid : StorageBounded s.storage
      (write_params b.memory b.params (function.call mask_indices values)) :=
    hb.of_grows (by rw [wa]; exact hla) (by rw [wv]; exact hlv)
  have hrange := invocation_in_range (function.call mask_indices values) hb haddr hout
  have hfr := hsteps.frame
  simp only at hfr
  have hpre := hfr.2.2
  have hframe_v : ∀ a, a < s.memory.vector_arrays.length →
      (∀ i, s.storage.m_vector_per_socket (n, i) ≠ some a) →
      s2.memory.vector_arrays[a]? = s.memory.vector_arrays[a]? := by
    intro a ha hno
    rw [prefix_getElem?_lt hpre (by rw [wv]; omega), write_params_frame_vectors]
    · rw [hnewv, List.getElem?_append_left ha]
    · intro prm hprm
      obtain ⟨q, hq⟩ := List.getElem?_of_mem hprm
      constructor
      · intro hc
        subst hc
        have := (haddr.vector_fresh q a hq).1
        omega
      · intro hc
        subst hc
        have := haddr.inputs_from q _ hq
        simp only at this
        exact hno _ this.2
  refine ⟨?_, ?_, ?_, hframe_v, ?_, hinv⟩
  · -- Single outputs
    intro q c hq
    have hqlt : q < function.signature.length := (List.getElem?_eq_some.mp hq).1
    obtain ⟨prm, hprm, hspec⟩ := haddr.params_spec q _ hqlt hq
    cases prm with
    | single_output a =>
      simp only [param_spec] at hspec
      obtain ⟨_, hfresh_a, _, hmemb⟩ := hspec
      refine ⟨a, hfresh_a, ?_, ?_⟩
      · simp only
        rw [hfr.2.1, wa]
        exact (haddr.single_fresh q a hprm).2
      · intro target ht
        have hx : ((a, target, .shared .virtual_list) : InstallStep) ∈
            single_steps net b.single_outputs_to_forward ++ l := by
          apply List.mem_append_left
          unfold single_steps
          exact List.mem_flatMap.mpr ⟨_, hmemb, List.mem_map.mpr ⟨target, ht, rfl⟩⟩
        exact hsteps.entry _ hx
    | _ => simp [param_spec] at hspec
  · -- Vector outputs
    intro q c hq
    have hqlt : q < function.signature.length := by
      rcases hq with hq | hq <;> exact (List.getElem?_eq_some.mp hq).1
    have key : ∃ a, ((n, opi.indexOf q), a) ∈ b.vector_outputs_to_forward ∧
        a < b.memory.vector_arrays.length ∧
        (function.signature[q]? = some (.vector_output c) →
          s.memory.vector_arrays.length ≤ a) ∧
        (function.signature[q]? = some (.mutable_vector c) →
          s.storage.m_vector_per_socket (n, ipi.indexOf q) = some a) := by
      rcases hq with hq | hq
      · obtain ⟨prm, hprm, hspec⟩ := haddr.params_spec q _ hqlt hq
        cases prm with
        | vector_output a =>
          simp only [param_spec] at hspec
          refine ⟨a, hspec.2.2.2, (haddr.vector_fresh q a hprm).2, fun _ => hspec.2.1, ?_⟩
          intro hc
          rw [hq] at hc
          cases hc
        | _ => simp [param_spec] at hspec
      · obtain ⟨prm, hprm, hspec⟩ := haddr.params_spec q _ hqlt hq
        cases prm with
        | mutable_vector a =>
          simp only [param_spec] at hspec
          refine ⟨a, hspec.2.2.2, ?_, ?_, fun _ => hspec.2.2.1⟩
          · have := hb.2.2 _ _ hspec.2.2.1
            omega
          · intro hc
            rw [hq] at hc
            cases hc
        | _ => simp [param_spec] at hspec
    obtain ⟨a, hmemb, halt, hnew, hold⟩ := key
    have hamid : a < (write_params b.memory b.params
        (function.call mask_indices values)).vector_arrays.length := by rw [wv]; exact halt
    have hlists : s2.memory.vector_arrays[a]? = some
        ((write_params b.memory b.params (function.call mask_indices values)).vector_arrays[a]) :=
      prefix_getElem? hpre (List.getElem?_eq_getElem hamid)
    refine ⟨a, _, hlists, hnew, hold, ?_⟩
    intro target ht
    have hmem : target ∈ l.map (fun x => x.2.1) := by
      rw [hout.1]
      exact List.mem_flatMap.mpr ⟨_, hmemb, ht⟩
    obtain ⟨x, hx, hxt⟩ := List.mem_map.mp hmem
    obtain ⟨o, ho, hto, hfe⟩ := hout.2 x hx
    have hoeq : o = (n, opi.indexOf q) := by
      by_contra hne
      rw [hxt] at hto
      exact targets_disjoint hne hto ht
    subst hoeq
    have hnd : (b.vector_outputs_to_forward.map Prod.fst).Nodup := by
      have := haddr.nodup
      rw [List.map_append] at this
      exact (List.nodup_append.mp this).2.1
    have hxa : x.1 = a := eq_of_mem_nodup_fst hnd ho hmemb
    have hx2 : x ∈ single_steps net b.single_outputs_to_forward ++ l :=
      List.mem_append_right _ hx
    have hent := hsteps.entry x hx2
    rw [hxt] at hfe
    constructor
    · intro hc
      have he := forward_effect_shared hfe hc
      rw [he] at hent
      simp only at hent
      rw [hxt, hxa] at hent
      exact hent
    · intro hc
      have he := forward_effect_copied hfe hc
      have habs := hsteps.absent_before x hx2 .vector_array (by rw [he]; rfl)
      rw [hxt] at habs
      have habs : s.storage.m_vector_per_socket target = none := habs
      rw [he] at hent
      simp only at hent
      obtain ⟨copy, lists, h1, h2, h3, h4⟩ := hent
      rw [hxa, hlists] at h3
      cases h3
      rw [hxt] at h2
      have hex := hsteps.excl (fun k => k = target) hbmid hrange
        (by
          intro k v hk hv
          subst hk
          simp only at hv
          rw [habs] at hv
          cases hv)
        (by
          intro y hy hey hyt
          rcases List.mem_append.mp hy with hy | hy
          · obtain ⟨_, _, _, hc1⟩ := mem_single_steps hy
            rw [hc1] at hey
            cases hey
          · obtain ⟨_, _, _, hfy⟩ := hout.2 y hy
            rw [hyt, hfe, hey, he] at hfy
            cases hfy)
        (by
          intro y _ sl _ _ k hk hv
          subst hk
          simp only at hv
          rw [habs] at hv
          cases hv)
      refine ⟨copy, h2, by omega, by omega, h4, fun k => ⟨?_, ?_⟩⟩
      · intro hk
        have := (hex target copy rfl h2 .virtual_list_list k (by simp) hk).1
        cases this
      · intro hk
        exact (hex target copy rfl h2 .vector_array k (by simp) hk).2
  · -- arrays that existed
    intro a ha
    simp only
    rw [hfr.2.1, write_params_frame_arrays]
    · rw [hnewa, List.getElem?_append_left ha]
    · intro prm hprm hc
      subst hc
      obtain ⟨q, hq⟩ := List.getElem?_of_mem hprm
      have := (haddr.single_fresh q a hq).1
      omega
  · -- what other sockets hold
    intro k a hkn hk
    apply hframe_v
    · rcases hk with hk | hk
      · exact hb.2.1 _ _ hk
      · exact hb.2.2 _ _ hk
    · intro i hi
      rcases hk with hk | hk
      · have := (hpriv (n, i) a ⟨hfn, hfresh⟩ hi .virtual_list_list k (by simp) hk).1
        cases this
      · have := (hpriv (n, i) a ⟨hfn, hfresh⟩ hi .vector_array k (by simp) hk).2
        rw [this] at hkn
        exact hkn rfl

/-! ## Values: generic facts -/

theorem all_some_eq_some {α : Type} :
    ∀ (l : List (Option α)) (xs : List α), all_some l = some xs ↔ l = xs.map some := by
  intro l
  induction l with
  | nil =>
    intro xs
    cases xs <;> simp [all_some]
  | cons x rest ih =>
    intro xs
    cases x with
    | none =>
      simp only [all_some]
      constructor
      · intro h; cases h
      · intro h
        cases xs <;> simp at h
    | some v =>
      simp only [all_some]
      cases hr : all_some rest with
      | none =>
        simp only
        constructor
        · intro h; cases h
        · intro h
          cases xs with
          | nil => simp at h
          | cons y ys =>
            simp only [List.map_cons, List.cons.injEq] at h
            rw [(ih ys).mpr h.2] at hr
            cases hr
      | some ys =>
        simp only
        have := (ih ys).mp hr
        constructor
        · intro h
          cases h
          simp [this]
        · intro h
          cases xs with
          | nil => simp at h
          | cons y zs =>
            simp only [List.map_cons, List.cons.injEq, Option.some.injEq] at h
            have e := (ih zs).mpr h.2
            rw [hr] at e
            cases e
            rw [h.1]

theorem all_some_mono {α β : Type} (f g : α → Option β) :
    ∀ (l : List α) (xs : List β), (∀ x ∈ l, ∀ v, f x = some v → g x = some v) →
      all_some (l.map f) = some xs → all_some (l.map g) = some xs := by
  intro l
  induction l with
  | nil => intro xs _ h; exact h
  | cons x rest ih =>
    intro xs hfg h
    rw [all_some_eq_some] at h ⊢
    cases xs with
    | nil => simp at h
    | cons y ys =>
      simp only [List.map_cons, List.cons.injEq] at h ⊢
      refine ⟨hfg x (List.mem_cons_self _ _) y h.1, ?_⟩
      rw [← all_some_eq_some]
      exact ih ys (fun z hz => hfg z (List.mem_cons_of_mem _ hz)) ((all_some_eq_some _ _).mpr h.2)

/-- A deeper budget gives the same value. -/
theorem expression_value_succ (net : MFNetwork) (tree : MultiFunction_FunctionTree)
    (G : Nat → List LaneValue → Nat → LaneValue) (inputs : Nat → LaneValue) :
    ∀ (depth : Nat) (socket : OutputRef) (v : LaneValue),
      expression_value net tree G inputs depth socket = some v →
      expression_value net tree G inputs (depth + 1) socket = some v := by
  intro depth
  induction depth with
  | zero => intro socket v h; simp [expression_value] at h
  | succ d ih =>
    intro socket v h
    unfold expression_value at h ⊢
    split at h
    · rename_i hin
      rw [if_pos hin]
      exact h
    · rename_i hin
      rw [if_neg hin]
      split at h
      · split at h
        · split at h
          · split at h
            · rename_i arguments hargs
              have := all_some_mono _
                (fun s : MFInputSocket =>
                  s.origin.bind (expression_value net tree G inputs (d + 1)))
                _ arguments (by
                  intro x _ w hw
                  have hw1 : x.origin.bind (expression_value net tree G inputs d) = some w := hw
                  show x.origin.bind (expression_value net tree G inputs (d + 1)) = some w
                  cases ho : x.origin with
                  | none => rw [ho] at hw1; cases hw1
                  | some o =>
                    rw [ho] at hw1
                    exact ih o w hw1) hargs
              simp only [this]
              exact h
            · cases h
          · cases h
        · cases h
      · cases h

theorem expression_value_mono (net : MFNetwork) (tree : MultiFunction_FunctionTree)
    (G : Nat → List LaneValue → Nat → LaneValue) (inputs : Nat → LaneValue)
    {depth : Nat} {socket : OutputRef} {v : LaneValue}
    (h : expression_value net tree G inputs depth socket = some v) :
    ∀ k, expression_value net tree G inputs (depth + k) socket = some v := by
  intro k
  induction k with
  | zero => exact h
  | succ k ih => exact expression_value_succ net tree G inputs _ _ _ ih

theorem read_params_getElem {mem : Memory} :
    ∀ (ps : List MFParam) (vs : List ParamValue), read_params mem ps = .ok vs →
      vs.length = ps.length ∧
      ∀ (q : Nat) prm, ps[q]? = some prm → ∃ v, vs[q]? = some v ∧ read_param mem prm = .ok v := by
  intro ps
  induction ps with
  | nil =>
    intro vs h
    simp only [read_params] at h
    cases h
    exact ⟨rfl, by simp⟩
  | cons p rest ih =>
    intro vs h
    simp only [read_params] at h
    obtain ⟨v, hv, h⟩ := bind_eq_ok h
    obtain ⟨vs1, hvs, h⟩ := bind_eq_ok h
    cases h
    obtain ⟨i1, i2⟩ := ih vs1 hvs
    refine ⟨by simp [i1], ?_⟩
    intro q prm hq
    cases q with
    | zero =>
      simp only [List.getElem?_cons_zero, Option.some.injEq] at hq
      subst hq
      exact ⟨v, by simp, hv⟩
    | succ q =>
      simp only [List.getElem?_cons_succ] at hq ⊢
      exact i2 q prm hq

/-- What a call leaves in the array of a Single output parameter is written
back, when no other parameter has the same array. -/
theorem write_params_single :
    ∀ (ps : List MFParam) (vs : List ParamValue) (mem : Memory) (q a : Nat)
      (v old : List Val),
      ps[q]? = some (.single_output a) → vs[q]? = some (.single v) →
      mem.arrays[a]? = some old → v.length = old.length →
      (∀ (q1 : Nat), q1 ≠ q → ps[q1]? ≠ some (.single_output a)) →
      (write_params mem ps vs).arrays[a]? = some v := by
  intro ps
  induction ps with
  | nil => intro vs mem q a v old h; simp at h
  | cons p rest ih =>
    intro vs mem q a v old hp hv hold hlen huniq
    cases vs with
    | nil => simp at hv
    | cons w ws =>
      simp only [write_params]
      cases q with
      | zero =>
        simp only [List.getElem?_cons_zero, Option.some.injEq] at hp hv
        subst hp hv
        rw [write_params_frame_arrays]
        · simp only [write_param, hold, hlen, if_true]
          rw [List.getElem?_set_eq_of_lt]
          exact (List.getElem?_eq_some.mp hold).1
        · intro prm hprm hc
          subst hc
          obtain ⟨q1, hq1⟩ := List.getElem?_of_mem hprm
          exact huniq (q1 + 1) (by omega) (by simpa using hq1)
      | succ q =>
        simp only [List.getElem?_cons_succ] at hp hv
        have h0 : p ≠ .single_output a := by
          intro hc
          exact huniq 0 (by omega) (by simp [hc])
        apply ih ws _ q a v old hp hv
        · rw [write_param_frame_arrays _ _ _ _ h0]; exact hold
        · exact hlen
        · intro q1 hq1 hc
          exact huniq (q1 + 1) (by omega) (by simpa using hc)

/-- What a call leaves in the vector array of a parameter is written back,
when no other parameter has the same vector array. -/
theorem write_params_vector :
    ∀ (ps : List MFParam) (vs : List ParamValue) (mem : Memory) (q a : Nat)
      (v old : List (List Val)),
      (ps[q]? = some (.vector_output a) ∨ ps[q]? = some (.mutable_vector a)) →
      vs[q]? = some (.vector v) →
      mem.vector_arrays[a]? = some old → v.length = old.length →
      (∀ (q1 : Nat), q1 ≠ q → ps[q1]? ≠ some (.vector_output a) ∧
        ps[q1]? ≠ some (.mutable_vector a)) →
      (write_params mem ps vs).vector_arrays[a]? = some v := by
  intro ps
  induction ps with
  | nil => intro vs mem q a v old h; simp at h
  | cons p rest ih =>
    intro vs mem q a v old hp hv hold hlen huniq
    cases vs with
    | nil => simp at hv
    | cons w ws =>
      simp only [write_params]
      cases q with
      | zero =>
        simp only [List.getElem?_cons_zero, Option.some.injEq] at hp hv
        subst hv
        rw [write_params_frame_vectors]
        · rcases hp with hp | hp <;> subst hp
          · simp only [write_param, hold, hlen, if_true]
            rw [List.getElem?_set_eq_of_lt]
            exact (List.getElem?_eq_some.mp hold).1
          · simp only [write_param, hold, hlen, if_true]
            rw [List.getElem?_set_eq_of_lt]
            exact (List.getElem?_eq_some.mp hold).1
        · intro prm hprm
          obtain ⟨q1, hq1⟩ := List.getElem?_of_mem hprm
          have := huniq (q1 + 1) (by omega)
          simp only [List.getElem?_cons_succ] at this
          constructor
          · intro hc; subst hc; exact this.1 hq1
          · intro hc; subst hc; exact this.2 hq1
      | succ q =>
        simp only [List.getElem?_cons_succ] at hp hv
        have h0 := huniq 0 (by omega)
        simp only [List.getElem?_cons_zero, ne_eq, Option.some.injEq] at h0
        apply ih ws _ q a v old hp hv
        · rw [write_param_frame_vectors _ _ _ _ h0.1 h0.2]; exact hold
        · exact hlen
        · intro q1 hq1
          have := huniq (q1 + 1) (by omega)
          simpa using this

theorem le_getLast_of_sorted :
    ∀ (mask_indices : List Nat), mask_indices.Pairwise (fun a b => a < b) →
      ∀ last, mask_indices.getLast? = some last → ∀ i ∈ mask_indices, i ≤ last := by
  intro mask_indices
  induction mask_indices with
  | nil => intro _ last h; simp at h
  | cons x rest ih =>
    intro hs last hlast i hi
    cases rest with
    | nil =>
      simp only [List.getLast?_singleton, Option.some.injEq] at hlast
      simp only [List.mem_singleton] at hi
      omega
    | cons y ys =>
      rw [List.getLast?_cons_cons] at hlast
      obtain ⟨h1, h2⟩ := List.pairwise_cons.mp hs
      rcases List.mem_cons.mp hi with rfl | hi
      · have hm : last ∈ y :: ys := by
          rw [List.getLast?_eq_getLast _ (by simp)] at hlast
          cases hlast
          exact List.getLast_mem _
        have := h1 last hm
        omega
      · exact ih h2 last hlast i hi

/-- On an ascending mask every lane lies within the buffers a node gets. -/
theorem lane_lt_array_size {mask_indices : List Nat} {size : Nat}
    (hs : mask_indices.Pairwise (fun a b => a < b))
    (hbound : ∀ i ∈ mask_indices, i < 4294967295)
    (h : array_size mask_indices = .ok size) : ∀ i ∈ mask_indices, i < size := by
  unfold array_size at h
  split at h
  · rename_i last hlast
    cases h
    intro i hi
    have := le_getLast_of_sorted _ hs last hlast i hi
    have hmem : last ∈ mask_indices := by
      have hne : mask_indices ≠ [] := by
        intro hc
        rw [hc] at hlast
        cases hlast
      rw [List.getLast?_eq_getLast _ hne] at hlast
      cases hlast
      exact List.getLast_mem _
    have := hbound last hmem
    omega
  · cases h

theorem forward_effect_not_virtual_list {net : MFNetwork} {tree : MultiFunction_FunctionTree}
    {t : InputRef} {e : Effect} (h : forward_effect net tree t = some e) :
    e ≠ .shared .virtual_list := by
  intro hc
  subst hc
  revert h
  unfold forward_effect
  split
  · split
    · split <;> simp
    · split <;> simp
  · simp

/-! ## Values: one invocation -/

theorem read_param_single {mem : Memory} {prm : MFParam} {a : Nat} {values : List Val}
    (hp : prm = .readonly_single_input a ∨ prm = .single_output a)
    (h : mem.arrays[a]? = some values) : read_param mem prm = .ok (.single values) := by
  rcases hp with rfl | rfl <;> simp [read_param, index_list_eq_ok.mpr h]

theorem read_param_vector {mem : Memory} {prm : MFParam} {a : Nat} {lists : List (List Val)}
    (hp : prm = .readonly_vector_input a ∨ prm = .vector_output a ∨ prm = .mutable_vector a)
    (h : mem.vector_arrays[a]? = some lists) : read_param mem prm = .ok (.vector lists) := by
  rcases hp with rfl | rfl | rfl <;> simp [read_param, index_list_eq_ok.mpr h]

/-- What the parameters of an invocation hold when the function is called:
every buffer has the shape of its parameter and covers the lanes, and an
input parameter holds, at every lane, the value of the expression ending in
the origin of its input socket. -/
theorem builder_values {net : MFNetwork} {tree : MultiFunction_FunctionTree}
    {G : Nat → List LaneValue → Nat → LaneValue} {mem0 : Memory} {params : List MFParam}
    {rank : Nat → Nat} {mask_indices : List Nat}
    {n : Nat} {function : MultiFunction} {ipi opi : List Nat} {size : Nat} {s : EvalState}
    {b : ParamsBuilderState} {values : List ParamValue}
    (hsorted : mask_indices.Pairwise (fun a b => a < b))
    (hbound : ∀ i ∈ mask_indices, i < 4294967295)
    (hsize : array_size mask_indices = .ok size)
    (hfresh : n ∉ s.trace)
    (hval : ValInv net tree G mem0 params rank mask_indices s)
    (haddr : BuilderAddr n function ipi opi size s.storage s.memory function.signature.length b)
    (hread : read_params b.memory b.params = .ok values) :
    values.length = function.signature.length ∧
    ∀ (q : Nat) pt, function.signature[q]? = some pt →
      ∃ v, values[q]? = some v ∧ value_fits pt v ∧ (∀ i ∈ mask_indices, i < v.lanes) ∧
        (pt.is_input = true → q ∈ ipi ∧ ∃ sk o, net.input (n, ipi.indexOf q) = .ok sk ∧
          sk.origin = some o ∧
          ∀ i ∈ mask_indices, expression_at net tree G mem0 params rank o i = some (lane_of v i)) := by
  obtain ⟨hlen, hget⟩ := read_params_getElem _ _ hread
  obtain ⟨newa, hnewa⟩ := haddr.arrays_prefix
  obtain ⟨newv, hnewv⟩ := haddr.vectors_prefix
  refine ⟨by rw [hlen, haddr.params_length], ?_⟩
  intro q pt hq
  have hqlt : q < function.signature.length := (List.getElem?_eq_some.mp hq).1
  obtain ⟨prm, hprm, hspec⟩ := haddr.params_spec q pt hqlt hq
  obtain ⟨v, hv, hrd⟩ := hget q prm hprm
  have keep_a : ∀ (a : Nat) (vals : List Val), s.memory.arrays[a]? = some vals →
      b.memory.arrays[a]? = some vals := by
    intro a vals h
    rw [hnewa, List.getElem?_append_left (List.getElem?_eq_some.mp h).1]
    exact h
  have keep_v : ∀ (a : Nat) (lists : List (List Val)), s.memory.vector_arrays[a]? = some lists →
      b.memory.vector_arrays[a]? = some lists := by
    intro a lists h
    rw [hnewv, List.getElem?_append_left (List.getElem?_eq_some.mp h).1]
    exact h
  have hlane := lane_lt_array_size hsorted hbound hsize
  cases pt with
  | none => cases prm <;> simp [param_spec] at hspec
  | readonly_single_input c =>
    cases prm with
    | readonly_single_input a =>
      simp only [param_spec] at hspec
      obtain ⟨sk, o, h1, h2, vals, h3, h4⟩ := hval.single _ _ hspec.2
      rw [read_param_single (Or.inl rfl) (keep_a _ _ h3)] at hrd
      cases hrd
      refine ⟨_, hv, trivial, fun i hi => (h4 i hi).1, fun _ => ⟨hspec.1, sk, o, h1, h2, ?_⟩⟩
      intro i hi
      exact (h4 i hi).2
    | _ => simp [param_spec] at hspec
  | readonly_vector_input c =>
    cases prm with
    | readonly_vector_input a =>
      simp only [param_spec] at hspec
      obtain ⟨sk, o, h1, h2, lists, h3, h4⟩ := hval.shared _ _ hspec.2
      rw [read_param_vector (Or.inl rfl) (keep_v _ _ h3)] at hrd
      cases hrd
      refine ⟨_, hv, trivial, fun i hi => (h4 i hi).1, fun _ => ⟨hspec.1, sk, o, h1, h2, ?_⟩⟩
      intro i hi
      exact (h4 i hi).2
    | _ => simp [param_spec] at hspec
  | mutable_vector c =>
    cases prm with
    | mutable_vector a =>
      simp only [param_spec] at hspec
      obtain ⟨sk, o, h1, h2, lists, h3, h4⟩ := hval.owned _ _ hspec.2.2.1 hfresh
      rw [read_param_vector (Or.inr (Or.inr rfl)) (keep_v _ _ h3)] at hrd
      cases hrd
      refine ⟨_, hv, trivial, fun i hi => (h4 i hi).1, fun _ => ⟨hspec.1, sk, o, h1, h2, ?_⟩⟩
      intro i hi
      exact (h4 i hi).2
    | _ => simp [param_spec] at hspec
  | single_output c =>
    cases prm with
    | single_output a =>
      simp only [param_spec] at hspec
      obtain ⟨x, hx, hxl⟩ := hspec.2.2.1
      rw [read_param_single (Or.inr rfl) hx] at hrd
      cases hrd
      refine ⟨_, hv, trivial, ?_, fun hc => by cases hc⟩
      intro i hi
      simp only [ParamValue.lanes]
      rw [hxl]
      exact hlane i hi
    | _ => simp [param_spec] at hspec
  | vector_output c =>
    cases prm with
    | vector_output a =>
      simp only [param_spec] at hspec
      rw [read_param_vector (Or.inr (Or.inl rfl)) hspec.2.2.1] at hrd
      cases hrd
      refine ⟨_, hv, trivial, ?_, fun hc => by cases hc⟩
      intro i hi
      simp only [ParamValue.lanes, List.length_replicate]
      exact hlane i hi
    | _ => simp [param_spec] at hspec

theorem param_accepts_is_input {pt : MFParamType} {t : MFDataType}
    (h : param_accepts_input pt t = true) : pt.is_input = true := by
  cases pt <;> cases t <;> simp_all [param_accepts_input, MFParamType.is_input]

/-- The expression ending in an output socket of a function node is the lane
function of the node applied to what its input parameters hold. -/
theorem node_expression {net : MFNetwork} {tree : MultiFunction_FunctionTree}
    {G : Nat → List LaneValue → Nat → LaneValue} {mem0 : Memory} {params : List MFParam}
    {rank : Nat → Nat}
    (hwf : WellFormed net tree) (hdist : InputParamsDistinct net) (hr : Ranked net rank)
    {n : Nat} {node : MFNode} {function : MultiFunction} {ipi opi : List Nat}
    (hnode : net.nodes[n]? = some node) (hk : node.kind = .function function ipi opi)
    {values : List ParamValue} {i : Nat}
    (hvals : ∀ (q : Nat) pt, function.signature[q]? = some pt → pt.is_input = true →
      q ∈ ipi ∧ ∃ sk o v, net.input (n, ipi.indexOf q) = .ok sk ∧ sk.origin = some o ∧
        values[q]? = some v ∧
        expression_at net tree G mem0 params rank o i = some (lane_of v i)) :
    ∀ q ∈ opi, expression_at net tree G mem0 params rank (n, opi.indexOf q) i =
      some (G n (inputs_at ipi values i) q) := by
  intro q hq
  obtain ⟨hil, _, _, hin, _, _⟩ := node_ok_function hk (wf_node hwf hnode)
  have hnd : ipi.Nodup := by
    have := hdist node (List.getElem?_mem hnode)
    unfold distinct_inputs at this
    rw [hk] at this
    simpa using this
  have hfn : net.is_function n = true := is_function_iff.mpr ⟨node, function, ipi, opi, hnode, hk⟩
  have hnotin : (n, opi.indexOf q) ∉ tree.m_inputs := by
    intro hc
    have := not_function_of_placeholder (boundary_input_placeholder hwf hc)
    simp only at this
    rw [hfn] at this
    cases this
  have hargs : all_some (node.inputs.map (fun s : MFInputSocket =>
      s.origin.bind (expression_value net tree G (caller_lane mem0 params i) (rank n)))) =
      some (inputs_at ipi values i) := by
    rw [all_some_eq_some]
    apply List.ext_getElem?
    intro idx
    unfold inputs_at
    simp only [List.getElem?_map]
    by_cases hlt : idx < node.inputs.length
    · obtain ⟨sock, p, pt, h1, h2, h3, h4⟩ := input_param_ok_spec (hin idx hlt)
      obtain ⟨_, sk, o, v, g1, g2, g3, g4⟩ := hvals p pt h3 (param_accepts_is_input h4)
      rw [indexOf_of_getElem? hnd h2] at g1
      have hsk : sk = sock := by
        obtain ⟨node1, e1, e2⟩ := input_eq_ok.mp g1
        simp only at e1 e2
        rw [hnode] at e1
        cases e1
        rw [h1] at e2
        exact (Option.some.inj e2).symm
      subst hsk
      rw [h1, h2]
      simp only [Option.map_some', g2, Option.bind_some, Option.some.injEq]
      have hrank := ranked_origin hr g1 g2
      simp only at hrank
      unfold expression_at at g4
      have := expression_value_mono net tree G _ g4 (rank n - (rank o.1 + 1))
      rw [show rank o.1 + 1 + (rank n - (rank o.1 + 1)) = rank n by omega] at this
      show expression_value net tree G (caller_lane mem0 params i) (rank n) o = _
      rw [this]
      congr 2
      simp [List.getD_eq_getElem?_getD, g3]
    · have h1 : node.inputs[idx]? = none := List.getElem?_eq_none (by omega)
      have h2 : ipi[idx]? = none := List.getElem?_eq_none (by omega)
      rw [h1, h2]
      rfl
  unfold expression_at
  simp only
  unfold expression_value
  rw [if_neg hnotin]
  simp only [hnode, hk, getElem?_indexOf hq, hargs]

theorem read_param_single_inv {mem : Memory} {a : Nat} {v : ParamValue}
    (h : read_param mem (.single_output a) = .ok v) :
    ∃ old, mem.arrays[a]? = some old ∧ v = .single old := by
  simp only [read_param] at h
  obtain ⟨old, h1, h2⟩ := bind_eq_ok h
  cases h2
  exact ⟨old, index_list_eq_ok.mp h1, rfl⟩

theorem read_param_vector_inv {mem : Memory} {prm : MFParam} {a : Nat} {v : ParamValue}
    (hp : prm = .vector_output a ∨ prm = .mutable_vector a)
    (h : read_param mem prm = .ok v) :
    ∃ old, mem.vector_arrays[a]? = some old ∧ v = .vector old := by
  rcases hp with rfl | rfl
  · simp only [read_param] at h
    obtain ⟨old, h1, h2⟩ := bind_eq_ok h
    cases h2
    exact ⟨old, index_list_eq_ok.mp h1, rfl⟩
  · simp only [read_param] at h
    obtain ⟨old, h1, h2⟩ := bind_eq_ok h
    cases h2
    exact ⟨old, index_list_eq_ok.mp h1, rfl⟩

/-- What a lane-wise function leaves in the buffers that the invocation
forwards: at every lane the value of the expression ending in the output
socket. -/
theorem produced_values {net : MFNetwork} {tree : MultiFunction_FunctionTree}
    {G : Nat → List LaneValue → Nat → LaneValue} {mem0 : Memory} {params : List MFParam}
    {rank : Nat → Nat} {mask_indices : List Nat}
    {n : Nat} {function : MultiFunction} {ipi opi : List Nat} {size : Nat} {s : EvalState}
    {b : ParamsBuilderState} {values : List ParamValue}
    (hb : StorageBounded s.storage s.memory)
    (hpriv : Excl (fun k => net.is_function k.1 = true ∧ k.1 ∉ s.trace) s.storage)
    (hfn : net.is_function n = true) (hfresh : n ∉ s.trace)
    (haddr : BuilderAddr n function ipi opi size s.storage s.memory function.signature.length b)
    (hread : read_params b.memory b.params = .ok values)
    (hlen : values.length = function.signature.length)
    (hfit : ∀ (q : Nat) pt, function.signature[q]? = some pt →
      ∃ v, values[q]? = some v ∧ value_fits pt v ∧ (∀ i ∈ mask_indices, i < v.lanes))
    (hlw : LaneWise mask_indices function ipi (G n))
    (hden : ∀ i ∈ mask_indices, ∀ q ∈ opi,
      expression_at net tree G mem0 params rank (n, opi.indexOf q) i =
        some (G n (inputs_at ipi values i) q)) :
    (∀ x ∈ b.single_outputs_to_forward,
      single_is (write_params b.memory b.params (function.call mask_indices values)) x.2
        mask_indices (expression_at net tree G mem0 params rank x.1)) ∧
    (∀ x ∈ b.vector_outputs_to_forward,
      vector_is (write_params b.memory b.params (function.call mask_indices values)) x.2
        mask_indices (expression_at net tree G mem0 params rank x.1)) := by
  obtain ⟨clen, cshape, clane⟩ := hlw values hlen (by
    intro q pt v hq hv
    obtain ⟨v1, h1, h2, h3⟩ := hfit q pt hq
    rw [hv] at h1
    cases h1
    exact ⟨h2, h3⟩)
  obtain ⟨_, hget⟩ := read_params_getElem _ _ hread
  constructor
  · intro x hx
    obtain ⟨q, hqlt, hqopi, hx1, hprm⟩ := haddr.single_from x hx
    have hq : function.signature[q]? = some (function.signature[q]) :=
      List.getElem?_eq_getElem hqlt
    obtain ⟨prm1, hprm1, hspec⟩ := haddr.params_spec q _ hqlt hq
    rw [hprm] at hprm1
    cases hprm1
    obtain ⟨v, hv, hrd⟩ := hget q _ hprm
    obtain ⟨old, hold, rfl⟩ := read_param_single_inv hrd
    obtain ⟨v1, hv1, _, hlanes⟩ := hfit q _ hq
    rw [hv] at hv1
    cases hv1
    have hwlt : q < (function.call mask_indices values).length := by rw [clen, hlen]; exact hqlt
    have hw : (function.call mask_indices values)[q]? =
        some ((function.call mask_indices values)[q]) := List.getElem?_eq_getElem hwlt
    have hsh := cshape q _ _ hv hw
    have hout : (function.signature[q]).is_output = true := by
      revert hspec
      cases function.signature[q] <;> simp [param_spec, MFParamType.is_output]
    cases hres : (function.call mask_indices values)[q] with
    | vector lists => rw [hres] at hsh; simp [same_shape] at hsh
    | single wv =>
      rw [hres] at hsh hw
      simp only [same_shape] at hsh
      have hwritten := write_params_single b.params _ b.memory q x.2 wv old hprm hw hold
        hsh.symm (by
          intro q1 hne hc
          exact hne (haddr.single_distinct q1 q x.2 hc hprm))
      refine ⟨wv, hwritten, fun i hi => ⟨by have := hlanes i hi; simp only [ParamValue.lanes] at this; omega, ?_⟩⟩
      rw [hx1, hden i hi q hqopi, ← clane i hi q _ _ hq hout hw]
      rfl
  · intro x hx
    obtain ⟨q, hqlt, hqopi, hx1, hprm⟩ := haddr.vector_from x hx
    have hq : function.signature[q]? = some (function.signature[q]) :=
      List.getElem?_eq_getElem hqlt
    obtain ⟨prm1, hprm1, hspec⟩ := haddr.params_spec q _ hqlt hq
    have hprm2 : prm1 = .vector_output x.2 ∨ prm1 = .mutable_vector x.2 := by
      rcases hprm with h | h <;> rw [hprm1] at h
      · exact Or.inl (Option.some.inj h)
      · exact Or.inr (Option.some.inj h)
    obtain ⟨v, hv, hrd⟩ := hget q _ hprm1
    obtain ⟨old, hold, rfl⟩ := read_param_vector_inv hprm2 hrd
    obtain ⟨v1, hv1, _, hlanes⟩ := hfit q _ hq
    rw [hv] at hv1
    cases hv1
    have hwlt : q < (function.call mask_indices values).length := by rw [clen, hlen]; exact hqlt
    have hw : (function.call mask_indices values)[q]? =
        some ((function.call mask_indices values)[q]) := List.getElem?_eq_getElem hwlt
    have hsh := cshape q _ _ hv hw
    have hout : (function.signature[q]).is_output = true := by
      revert hspec
      rcases hprm2 with rfl | rfl <;>
        cases function.signature[q] <;> simp [param_spec, MFParamType.is_output]
    have huniq : ∀ (q1 : Nat), q1 ≠ q → b.params[q1]? ≠ some (.vector_output x.2) ∧
        b.params[q1]? ≠ some (.mutable_vector x.2) := by
      intro q1 hne
      rcases hprm with h | h
      · have hf := (haddr.vector_fresh q _ h).1
        constructor
        · intro hc
          exact hne (haddr.vector_distinct q1 q x.2 hc h)
        · intro hc
          have := haddr.inputs_from q1 _ hc
          simp only at this
          have := hb.2.2 _ _ this.2
          omega
      · have hi := haddr.inputs_from q _ h
        simp only at hi
        constructor
        · intro hc
          have hf := (haddr.vector_fresh q1 _ hc).1
          have := hb.2.2 _ _ hi.2
          omega
        · intro hc
          have hi1 := haddr.inputs_from q1 _ hc
          simp only at hi1
          have := (hpriv (n, ipi.indexOf q) x.2 ⟨hfn, hfresh⟩ hi.2 .vector_array
            (n, ipi.indexOf q1) (by simp) hi1.2).2
          exact hne (indexOf_inj hi1.1 hi.1 (Prod.mk.inj this).2)
    cases hres : (function.call mask_indices values)[q] with
    | single wv => rw [hres] at hsh; simp [same_shape] at hsh
    | vector wv =>
      rw [hres] at hsh hw
      simp only [same_shape] at hsh
      have hwritten := write_params_vector b.params _ b.memory q x.2 wv old hprm hw hold
        hsh.symm huniq
      refine ⟨wv, hwritten, fun i hi => ⟨by have := hlanes i hi; simp only [ParamValue.lanes] at this; omega, ?_⟩⟩
      rw [hx1, hden i hi q hqopi, ← clane i hi q _ _ hq hout hw]
      rfl

/-- The function call of an invocation writes no array that existed before,
and no vector array but those the node holds for its own input sockets. -/
theorem invocation_frame {n : Nat} {function : MultiFunction} {ipi opi : List Nat} {size : Nat}
    {s : EvalState} {b : ParamsBuilderState} (values : List ParamValue)
    (haddr : BuilderAddr n function ipi opi size s.storage s.memory function.signature.length b) :
    (∀ a, a < s.memory.arrays.length →
      (write_params b.memory b.params values).arrays[a]? = s.memory.arrays[a]?) ∧
    (∀ a, a < s.memory.vector_arrays.length →
      (∀ i, s.storage.m_vector_per_socket (n, i) ≠ some a) →
      (write_params b.memory b.params values).vector_arrays[a]? =
        s.memory.vector_arrays[a]?) := by
  obtain ⟨newa, hnewa⟩ := haddr.arrays_prefix
  obtain ⟨newv, hnewv⟩ := haddr.vectors_prefix
  constructor
  · intro a ha
    rw [write_params_frame_arrays]
    · rw [hnewa, List.getElem?_append_left ha]
    · intro prm hprm hc
      subst hc
      obtain ⟨q, hq⟩ := List.getElem?_of_mem hprm
      have := (haddr.single_fresh q a hq).1
      omega
  · intro a ha hno
    rw [write_params_frame_vectors]
    · rw [hnewv, List.getElem?_append_left ha]
    · intro prm hprm
      obtain ⟨q, hq⟩ := List.getElem?_of_mem hprm
      constructor
      · intro hc
        subst hc
        have := (haddr.vector_fresh q a hq).1
        omega
      · intro hc
        subst hc
        have := haddr.inputs_from q _ hq
        simp only at this
        exact hno _ this.2

theorem single_is_congr {mem mem1 : Memory} {a : Nat} {mask_indices : List Nat}
    {f : Nat → Option LaneValue} (h : single_is mem a mask_indices f)
    (he : mem1.arrays[a]? = mem.arrays[a]?) : single_is mem1 a mask_indices f := by
  obtain ⟨values, h1, h2⟩ := h
  exact ⟨values, by rw [he]; exact h1, h2⟩

theorem vector_is_congr {mem mem1 : Memory} {a : Nat} {mask_indices : List Nat}
    {f : Nat → Option LaneValue} (h : vector_is mem a mask_indices f)
    (he : mem1.vector_arrays[a]? = mem.vector_arrays[a]?) : vector_is mem1 a mask_indices f := by
  obtain ⟨lists, h1, h2⟩ := h
  exact ⟨lists, by rw [he]; exact h1, h2⟩

/-- An invocation of a lane-wise function keeps the storage true to the
expression of the network. -/
theorem invocation_val {net : MFNetwork} {tree : MultiFunction_FunctionTree}
    {G : Nat → List LaneValue → Nat → LaneValue} {mem0 : Memory} {params : List MFParam}
    {rank : Nat → Nat} {mask_indices : List Nat}
    (hwf : WellFormed net tree) (hdist : InputParamsDistinct net) (hr : Ranked net rank)
    (hsorted : mask_indices.Pairwise (fun a b => a < b))
    (hbound : ∀ i ∈ mask_indices, i < 4294967295)
    {n : Nat} {node : MFNode} {function : MultiFunction} {ipi opi : List Nat}
    (hnode : net.nodes[n]? = some node) (hk : node.kind = .function function ipi opi)
    (hlw : LaneWise mask_indices function ipi (G n))
    {s s1 : EvalState}
    (hb : StorageBounded s.storage s.memory)
    (hpriv : Excl (fun k => net.is_function k.1 = true ∧ k.1 ∉ s.trace) s.storage)
    (hfresh : n ∉ s.trace)
    (hval : ValInv net tree G mem0 params rank mask_indices s)
    (h : compute_and_forward_outputs net tree mask_indices n node function ipi opi s = .ok s1) :
    ValInv net tree G mem0 params rank mask_indices s1 := by
  have hfn : net.is_function n = true := is_function_iff.mpr ⟨node, function, ipi, opi, hnode, hk⟩
  obtain ⟨size, b, values, s2, l, hsize, haddr, hread, hsteps, hout, rfl⟩ :=
    compute_and_forward_outputs_of_ok h
  obtain ⟨hlen, hfitall⟩ := builder_values hsorted hbound hsize hfresh hval haddr hread
  have hden : ∀ i ∈ mask_indices, ∀ q ∈ opi,
      expression_at net tree G mem0 params rank (n, opi.indexOf q) i =
        some (G n (inputs_at ipi values i) q) := by
    intro i hi
    apply node_expression hwf hdist hr hnode hk
    intro q pt hq hin
    obtain ⟨v, hv, _, _, hrest⟩ := hfitall q pt hq
    obtain ⟨hqi, sk, o, h1, h2, h3⟩ := hrest hin
    exact ⟨hqi, sk, o, v, h1, h2, hv, h3 i hi⟩
  obtain ⟨psingle, pvector⟩ := produced_values hb hpriv hfn hfresh haddr hread hlen
    (by
      intro q pt hq
      obtain ⟨v, hv, h2, h3, _⟩ := hfitall q pt hq
      exact ⟨v, hv, h2, h3⟩) hlw hden
  obtain ⟨fra, frv⟩ := invocation_frame (function.call mask_indices values) haddr
  obtain ⟨wa, wv⟩ := write_params_lengths b.params (function.call mask_indices values) b.memory
  obtain ⟨newv, hnewv⟩ := haddr.vectors_prefix
  have hfr := hsteps.frame
  simp only at hfr
  have hpre := hfr.2.2
  have old_vector : ∀ a, a < s.memory.vector_arrays.length →
      (∀ i, s.storage.m_vector_per_socket (n, i) ≠ some a) →
      s2.memory.vector_arrays[a]? = s.memory.vector_arrays[a]? := by
    intro a ha hno
    rw [prefix_getElem?_lt hpre (by rw [wv, hnewv, List.length_append]; omega)]
    exact frv a ha hno
  have new_vector : ∀ x ∈ l, ∃ sk o, net.input x.2.1 = .ok sk ∧ sk.origin = some o ∧
      vector_is s2.memory x.1 mask_indices (expression_at net tree G mem0 params rank o) := by
    intro x hx
    obtain ⟨o, ho, hto, _⟩ := hout.2 x hx
    obtain ⟨sk, h1, h2⟩ := mem_targets.mp hto
    obtain ⟨lists, g1, g2⟩ := pvector _ ho
    exact ⟨sk, o, h1, h2, lists, prefix_getElem? hpre g1, g2⟩
  refine ⟨?_, ?_, ?_⟩
  · intro k a hka
    rcases hsteps.entry_cases .virtual_list k a hka with hold | ⟨x, hx, hxk, hc⟩
    · obtain ⟨sk, o, h1, h2, h3⟩ := hval.single k a hold
      refine ⟨sk, o, h1, h2, single_is_congr h3 ?_⟩
      simp only
      rw [hfr.2.1]
      exact fra a (hb.1 _ _ hold)
    · rcases hc with ⟨he, ha⟩ | ⟨_, hc, _⟩
      · rcases List.mem_append.mp hx with hx | hx
        · obtain ⟨o, ho, hto, _⟩ := mem_single_steps hx
          rw [hxk] at hto
          obtain ⟨sk, h1, h2⟩ := mem_targets.mp hto
          subst ha
          have hp : single_is (write_params b.memory b.params (function.call mask_indices values))
              x.1 mask_indices (expression_at net tree G mem0 params rank o) := psingle _ ho
          refine ⟨sk, o, h1, h2, single_is_congr hp ?_⟩
          simp only
          rw [hfr.2.1]
        · obtain ⟨_, _, _, hfe⟩ := hout.2 x hx
          exact absurd he (forward_effect_not_virtual_list hfe)
      · cases hc
  · intro k a hka
    rcases hsteps.entry_cases .virtual_list_list k a hka with hold | ⟨x, hx, hxk, hc⟩
    · obtain ⟨sk, o, h1, h2, h3⟩ := hval.shared k a hold
      refine ⟨sk, o, h1, h2, vector_is_congr h3 ?_⟩
      apply old_vector a (hb.2.1 _ _ hold)
      intro i hi
      have := (hpriv (n, i) a ⟨hfn, hfresh⟩ hi .virtual_list_list k (by simp) hold).1
      cases this
    · rcases hc with ⟨he, ha⟩ | ⟨_, hc, _⟩
      · rcases List.mem_append.mp hx with hx | hx
        · obtain ⟨_, _, _, hc1⟩ := mem_single_steps hx
          rw [hc1] at he
          cases he
        · obtain ⟨sk, o, h1, h2, h3⟩ := new_vector x hx
          rw [hxk] at h1
          rw [ha]
          exact ⟨sk, o, h1, h2, h3⟩
      · cases hc
  · intro k a hka hkt
    simp only at hkt hka
    rw [hfr.1] at hkt
    have hkn : k.1 ≠ n := fun hc => hkt (by rw [hc]; exact List.mem_cons_self _ _)
    have hkt0 : k.1 ∉ s.trace := fun hc => hkt (List.mem_cons_of_mem _ hc)
    rcases hsteps.entry_cases .vector_array k a hka with hold | ⟨x, hx, hxk, hc⟩
    · obtain ⟨sk, o, h1, h2, h3⟩ := hval.owned k a hold hkt0
      refine ⟨sk, o, h1, h2, vector_is_congr h3 ?_⟩
      apply old_vector a (hb.2.2 _ _ hold)
      intro i hi
      have := (hpriv (n, i) a ⟨hfn, hfresh⟩ hi .vector_array k (by simp) hold).2
      rw [this] at hkn
      exact hkn rfl
    · have hxl : x ∈ l := by
        rcases List.mem_append.mp hx with hx1 | hx1
        · exfalso
          obtain ⟨_, _, _, hc1⟩ := mem_single_steps hx1
          rcases hc with ⟨he, _⟩ | ⟨he, _, _⟩ <;> rw [hc1] at he <;> cases he
        · exact hx1
      obtain ⟨sk, o, h1, h2, h3⟩ := new_vector x hxl
      rw [hxk] at h1
      rcases hc with ⟨he, ha⟩ | ⟨he, _, _⟩
      · rw [ha]
        exact ⟨sk, o, h1, h2, h3⟩
      · have hent := hsteps.entry x hx
        rw [he] at hent
        simp only at hent
        obtain ⟨copy, lists, _, g2, g3, g4⟩ := hent
        rw [hxk] at g2
        have hka1 : s2.storage.m_vector_per_socket k = some a := hka
        rw [hka1] at g2
        cases g2
        obtain ⟨lists0, e1, e2⟩ := h3
        rw [g3] at e1
        cases e1
        exact ⟨sk, o, h1, h2, lists, g4, e2⟩

/-! ## Values: seed and the loop -/

theorem mem_single_input_addresses {a : Nat} :
    ∀ (params : List MFParam),
      a ∈ single_input_addresses params ↔ MFParam.readonly_single_input a ∈ params := by
  intro params
  induction params with
  | nil => simp [single_input_addresses]
  | cons p rest ih =>
    cases p <;> simp [single_input_addresses, ih]

theorem mem_single_output_addresses {a : Nat} :
    ∀ (params : List MFParam),
      a ∈ single_output_addresses params ↔ MFParam.single_output a ∈ params := by
  intro params
  induction params with
  | nil => simp [single_output_addresses]
  | cons p rest ih =>
    cases p <;> simp [single_output_addresses, ih]

theorem indexOf_eq_of_getElem? {α : Type} [BEq α] [LawfulBEq α] :
    ∀ {xs : List α}, xs.Nodup → ∀ {i : Nat} {x : α}, xs[i]? = some x → xs.indexOf x = i := by
  intro xs
  induction xs with
  | nil => intro _ i x h; simp at h
  | cons y ys ih =>
    intro hnd i x h
    obtain ⟨hy, hys⟩ := List.nodup_cons.mp hnd
    cases i with
    | zero =>
      simp only [List.getElem?_cons_zero, Option.some.injEq] at h
      subst h
      simp [List.indexOf_cons]
    | succ i =>
      simp only [List.getElem?_cons_succ] at h
      have hne : (y == x) = false := by
        rw [beq_eq_false_iff_ne]
        intro hc
        subst hc
        exact hy (List.getElem?_mem h)
      rw [List.indexOf_cons, hne]
      simp only [cond_false]
      rw [ih hys h]

/-- The expression ending in a declared boundary input is the caller's input. -/
theorem expression_at_boundary {net : MFNetwork} {tree : MultiFunction_FunctionTree}
    (G : Nat → List LaneValue → Nat → LaneValue) (mem0 : Memory) (params : List MFParam)
    (rank : Nat → Nat) (hnd : tree.m_inputs.Nodup) {k : Nat} {o : OutputRef}
    (hk : tree.m_inputs[k]? = some o) (i : Nat) :
    expression_at net tree G mem0 params rank o i = some (caller_lane mem0 params i k) := by
  unfold expression_at expression_value
  rw [if_pos (List.getElem?_mem hk), indexOf_eq_of_getElem? hnd hk]

/-- Seed establishes the invariant of the call. -/
theorem seed_callInv {net : MFNetwork} {tree : MultiFunction_FunctionTree}
    (G : Nat → List LaneValue → Nat → LaneValue) (rank : Nat → Nat)
    (hwf : WellFormed net tree) {params : List MFParam} {mem : Memory}
    {mask_indices : List Nat}
    (hrange : ∀ p ∈ params, param_in_range mem p = true)
    (hcover : ∀ prm ∈ params, ∀ i ∈ mask_indices, i < param_lanes mem prm)
    {s0 : EvalState}
    (hseed : copy_inputs_to_storage net tree params (initial_state mem) = .ok s0) :
    CallInv net tree G mem params rank mask_indices s0 := by
  obtain ⟨l, hl, _, hentries⟩ := copy_inputs_from_steps net params _ 0 _ _ hseed
  have hfr := hl.frame
  have hframe := seed_frame hseed
  have hempty : ∀ sl k v, (initial_state mem).storage.slot_map sl k = some v → False := by
    intro sl k v h
    cases sl <;> simp [initial_state, Storage.empty, Storage.slot_map] at h
  -- what a step of seed says
  have single_entry : ∀ x ∈ l, x.2.2 = .shared .virtual_list →
      MFParam.readonly_single_input x.1 ∈ params ∧
      ∃ sk o, net.input x.2.1 = .ok sk ∧ sk.origin = some o ∧
        single_is s0.memory x.1 mask_indices (expression_at net tree G mem params rank o) := by
    intro x hx he
    obtain ⟨k, o, os, hk, hos, ht, hentry⟩ := hentries x hx
    obtain ⟨sk, h1, h2⟩ := mem_targets.mp ht
    rw [Nat.zero_add] at hentry
    unfold seed_entry at hentry
    split at hentry
    · have hp := List.getElem?_mem hentry.2
      have hin := hrange _ hp
      simp only [param_in_range, decide_eq_true_eq] at hin
      refine ⟨hp, sk, o, h1, h2, mem.arrays[x.1], ?_, ?_⟩
      · rw [hfr.2.1]
        exact List.getElem?_eq_getElem hin
      · intro i hi
        have hc := hcover _ hp i hi
        simp only [param_lanes, List.getD_eq_getElem?_getD, List.getElem?_eq_getElem hin,
          Option.getD_some] at hc
        refine ⟨hc, ?_⟩
        rw [expression_at_boundary G mem params rank hwf.2.1 hk i]
        simp [caller_lane, hentry.2, List.getD_eq_getElem?_getD, List.getElem?_eq_getElem hin]
    · exact absurd he (seed_effect_not_virtual_list hentry.1)
    · exact hentry.elim
  have vector_entry : ∀ x ∈ l, x.2.2 ≠ .shared .virtual_list →
      ∃ sk o, net.input x.2.1 = .ok sk ∧ sk.origin = some o ∧
        vector_is s0.memory x.1 mask_indices (expression_at net tree G mem params rank o) := by
    intro x hx he
    obtain ⟨k, o, os, hk, hos, ht, hentry⟩ := hentries x hx
    obtain ⟨sk, h1, h2⟩ := mem_targets.mp ht
    rw [Nat.zero_add] at hentry
    unfold seed_entry at hentry
    split at hentry
    · exact absurd hentry.1 he
    · have hp := List.getElem?_mem hentry.2
      have hin := hrange _ hp
      simp only [param_in_range, decide_eq_true_eq] at hin
      refine ⟨sk, o, h1, h2, mem.vector_arrays[x.1], ?_, ?_⟩
      · rw [hframe.vectors_kept _ hin]
        exact List.getElem?_eq_getElem hin
      · intro i hi
        have hc := hcover _ hp i hi
        simp only [param_lanes, List.getD_eq_getElem?_getD, List.getElem?_eq_getElem hin,
          Option.getD_some] at hc
        refine ⟨hc, ?_⟩
        rw [expression_at_boundary G mem params rank hwf.2.1 hk i]
        simp [caller_lane, hentry.2, List.getD_eq_getElem?_getD, List.getElem?_eq_getElem hin]
    · exact hentry.elim
  refine ⟨⟨?_, ?_, ?_⟩, (seed_excl hrange hseed).2, hframe, ?_⟩
  · intro k a hka
    rcases hl.entry_cases .virtual_list k a hka with hold | ⟨x, hx, hxk, hc⟩
    · exact (hempty _ _ _ hold).elim
    · rcases hc with ⟨he, ha⟩ | ⟨_, hc, _⟩
      · obtain ⟨_, sk, o, h1, h2, h3⟩ := single_entry x hx he
        rw [hxk] at h1
        rw [ha]
        exact ⟨sk, o, h1, h2, h3⟩
      · cases hc
  · intro k a hka
    rcases hl.entry_cases .virtual_list_list k a hka with hold | ⟨x, hx, hxk, hc⟩
    · exact (hempty _ _ _ hold).elim
    · rcases hc with ⟨he, ha⟩ | ⟨_, hc, _⟩
      · obtain ⟨sk, o, h1, h2, h3⟩ := vector_entry x hx (by rw [he]; simp)
        rw [hxk] at h1
        rw [ha]
        exact ⟨sk, o, h1, h2, h3⟩
      · cases hc
  · intro k a hka _
    rcases hl.entry_cases .vector_array k a hka with hold | ⟨x, hx, hxk, hc⟩
    · exact (hempty _ _ _ hold).elim
    · rcases hc with ⟨he, ha⟩ | ⟨he, _, _⟩
      · obtain ⟨sk, o, h1, h2, h3⟩ := vector_entry x hx (by rw [he]; simp)
        rw [hxk] at h1
        rw [ha]
        exact ⟨sk, o, h1, h2, h3⟩
      · obtain ⟨sk, o, h1, h2, lists0, e1, e2⟩ := vector_entry x hx (by rw [he]; simp)
        rw [hxk] at h1
        have hent := hl.entry x hx
        rw [he] at hent
        simp only at hent
        obtain ⟨copy, lists, _, g2, g3, g4⟩ := hent
        rw [hxk] at g2
        have hka1 : s0.storage.m_vector_per_socket k = some a := hka
        rw [hka1] at g2
        cases g2
        rw [g3] at e1
        cases e1
        exact ⟨sk, o, h1, h2, _, g4, e2⟩
  · intro k a hka
    rcases hl.entry_cases .virtual_list k a hka with hold | ⟨x, hx, hxk, hc⟩
    · exact (hempty _ _ _ hold).elim
    · rcases hc with ⟨he, ha⟩ | ⟨_, hc, _⟩
      · right
        rw [ha]
        exact (mem_single_input_addresses params).mpr (single_entry x hx he).1
      · cases hc

/-- An invocation of a lane-wise function keeps the invariant of the call. -/
theorem invocation_callInv {net : MFNetwork} {tree : MultiFunction_FunctionTree}
    {G : Nat → List LaneValue → Nat → LaneValue} {mem0 : Memory} {params : List MFParam}
    {rank : Nat → Nat} {mask_indices : List Nat}
    (hwf : WellFormed net tree) (hdist : InputParamsDistinct net) (hr : Ranked net rank)
    (hsorted : mask_indices.Pairwise (fun a b => a < b))
    (hbound : ∀ i ∈ mask_indices, i < 4294967295)
    {n : Nat} {node : MFNode} {function : MultiFunction} {ipi opi : List Nat}
    (hnode : net.nodes[n]? = some node) (hk : node.kind = .function function ipi opi)
    (hlw : LaneWise mask_indices function ipi (G n))
    {s s1 : EvalState}
    (hb : StorageBounded s.storage s.memory) (hfresh : n ∉ s.trace)
    (hinv : CallInv net tree G mem0 params rank mask_indices s)
    (h : compute_and_forward_outputs net tree mask_indices n node function ipi opi s = .ok s1) :
    CallInv net tree G mem0 params rank mask_indices s1 := by
  have hfn : net.is_function n = true := is_function_iff.mpr ⟨node, function, ipi, opi, hnode, hk⟩
  refine ⟨invocation_val hwf hdist hr hsorted hbound hnode hk hlw hb hinv.priv hfresh hinv.val h,
    (invocation_excl hb hinv.priv hfn hfresh h).2, compute_and_forward_outputs_frame h hinv.frame,
    ?_⟩
  obtain ⟨size, b, values, s2, l, _, haddr, _, hsteps, hout, rfl⟩ :=
    compute_and_forward_outputs_of_ok h
  intro k a hka
  rcases hsteps.entry_cases .virtual_list k a hka with hold | ⟨x, hx, hxk, hc⟩
  · exact hinv.source k a hold
  · rcases hc with ⟨he, ha⟩ | ⟨_, hc, _⟩
    · left
      rcases List.mem_append.mp hx with hx | hx
      · obtain ⟨o, ho, _, _⟩ := mem_single_steps hx
        obtain ⟨q, _, _, _, hq⟩ := haddr.single_from _ ho
        have h1 := (haddr.single_fresh q _ hq).1
        have h2 := hinv.frame.arrays_le
        simp only at h1
        omega
      · obtain ⟨_, _, _, hfe⟩ := hout.2 x hx
        exact absurd he (forward_effect_not_virtual_list hfe)
    · cases hc

/-- One iteration of the loop keeps the invariant of the call. -/
theorem step_callInv {net : MFNetwork} {tree : MultiFunction_FunctionTree}
    {G : Nat → List LaneValue → Nat → LaneValue} {mem0 : Memory} {params : List MFParam}
    {rank : Nat → Nat} {mask_indices : List Nat}
    (hwf : WellFormed net tree) (hdist : InputParamsDistinct net) (hr : Ranked net rank)
    (hsorted : mask_indices.Pairwise (fun a b => a < b))
    (hbound : ∀ i ∈ mask_indices, i < 4294967295)
    (hlw : ∀ (n : Nat) node function ipi opi, net.nodes[n]? = some node →
      node.kind = .function function ipi opi → LaneWise mask_indices function ipi (G n))
    {stack stack1 : List MFSocket} {s s1 : EvalState}
    (hloop : LoopInv net tree rank stack s)
    (hinv : CallInv net tree G mem0 params rank mask_indices s)
    (h : step net tree mask_indices stack s = .ok (stack1, s1)) :
    CallInv net tree G mem0 params rank mask_indices s1 := by
  unfold step at h
  split at h
  · cases h; exact hinv
  · obtain ⟨sock, _, h⟩ := bind_eq_ok h
    obtain ⟨computed, _, h⟩ := bind_eq_ok h
    split at h
    · cases h; exact hinv
    · split at h
      · cases h; exact hinv
      · cases h
  · rename_i n j rest
    obtain ⟨node, hnode, h⟩ := bind_eq_ok h
    split at h
    · cases h
    · rename_i function ipi opi hk
      obtain ⟨pushed, _, h⟩ := bind_eq_ok h
      split at h
      · obtain ⟨s2, hs2, h⟩ := bind_eq_ok h
        cases h
        have hn := node_eq_ok.mp hnode
        exact invocation_callInv hwf hdist hr hsorted hbound hn hk (hlw n node function ipi opi hn hk)
          hloop.bounded (hloop.fresh n j (List.mem_cons_self _ _)).1 hinv hs2
      · cases h; exact hinv

theorem reachable_callInv {net : MFNetwork} {tree : MultiFunction_FunctionTree}
    {G : Nat → List LaneValue → Nat → LaneValue} {mem0 : Memory} {params : List MFParam}
    {rank : Nat → Nat} {mask_indices : List Nat}
    (hwf : WellFormed net tree) (hdist : InputParamsDistinct net) (hr : Ranked net rank)
    (hclosed : BoundaryClosed net tree) (hmask : mask_indices ≠ [])
    (hsorted : mask_indices.Pairwise (fun a b => a < b))
    (hbound : ∀ i ∈ mask_indices, i < 4294967295)
    (hlw : ∀ (n : Nat) node function ipi opi, net.nodes[n]? = some node →
      node.kind = .function function ipi opi → LaneWise mask_indices function ipi (G n))
    {s0 : EvalState} (h0 : LoopInv net tree rank (initial_stack tree) s0)
    (hc0 : CallInv net tree G mem0 params rank mask_indices s0)
    {stack : List MFSocket} {s : EvalState}
    (h : Reachable net tree mask_indices s0 stack s) :
    CallInv net tree G mem0 params rank mask_indices s := by
  induction h with
  | start => exact hc0
  | next stack stack1 s s1 hprev hstep ih =>
    exact step_callInv hwf hdist hr hsorted hbound hlw (reachable_inv hwf hr hclosed hmask h0 hprev)
      ih hstep

/-- The state in which the loop ends is one of the states it goes through. -/
theorem evaluate_loop_reachable {net : MFNetwork} {tree : MultiFunction_FunctionTree}
    {mask_indices : List Nat} {s0 : EvalState} :
    ∀ (fuel : Nat) (stack : List MFSocket) (s s1 : EvalState),
      Reachable net tree mask_indices s0 stack s →
      evaluate_loop net tree mask_indices fuel stack s = .ok s1 →
      Reachable net tree mask_indices s0 [] s1 := by
  intro fuel
  induction fuel with
  | zero =>
    intro stack s s1 hr h
    cases stack with
    | nil => simp only [evaluate_loop] at h; cases h; exact hr
    | cons x rest => simp [evaluate_loop] at h
  | succ fuel ih =>
    intro stack s s1 hr h
    cases stack with
    | nil => simp only [evaluate_loop] at h; cases h; exact hr
    | cons x rest =>
      simp only [evaluate_loop] at h
      obtain ⟨⟨stack1, s2⟩, hstep, h⟩ := bind_eq_ok h
      exact ih stack1 s2 s1 (Reachable.next _ _ _ _ hr hstep) h

/-! ## Drain -/

/-- The lane loop of drain keeps the length of the destination and writes
only the lanes it is given. -/
theorem copy_single_lanes_shape (values output_values : Nat) :
    ∀ (lanes : List Nat) (mem mem1 : Memory),
      copy_single_lanes values output_values lanes mem = .ok mem1 →
      ∀ d, mem.arrays[output_values]? = some d →
        ∃ d1, mem1.arrays[output_values]? = some d1 ∧ d1.length = d.length ∧
          ∀ (j : Nat), j ∉ lanes → d1[j]? = d[j]? := by
  intro lanes
  induction lanes with
  | nil =>
    intro mem mem1 h d hd
    simp only [copy_single_lanes] at h
    cases h
    exact ⟨d, hd, rfl, fun _ _ => rfl⟩
  | cons i rest ih =>
    intro mem mem1 h d hd
    simp only [copy_single_lanes] at h
    obtain ⟨source, _, h⟩ := bind_eq_ok h
    obtain ⟨value, _, h⟩ := bind_eq_ok h
    obtain ⟨destination, hdest, h⟩ := bind_eq_ok h
    have := index_list_eq_ok.mp hdest
    rw [hd] at this
    cases this
    split at h
    · obtain ⟨d1, h1, h2, h3⟩ := ih _ _ h (d.set i value) (by
        simp only
        rw [List.getElem?_set_eq_of_lt]
        exact (List.getElem?_eq_some.mp hd).1)
      refine ⟨d1, h1, by rw [h2, List.length_set], ?_⟩
      intro j hj
      rw [h3 j (fun hc => hj (List.mem_cons_of_mem _ hc))]
      rw [List.getElem?_set_ne]
      intro hc
      exact hj (by rw [hc]; exact List.mem_cons_self _ _)
    · cases h

/-- After the lane loop of drain, every lane of the mask of the destination
holds what the source holds at that lane. -/
theorem copy_single_lanes_spec (values output_values : Nat) (hne : values ≠ output_values) :
    ∀ (lanes : List Nat) (mem mem1 : Memory),
      copy_single_lanes values output_values lanes mem = .ok mem1 →
      ∀ source, mem.arrays[values]? = some source →
        ∀ i ∈ lanes, ∃ out v, mem1.arrays[output_values]? = some out ∧ out[i]? = some v ∧
          source[i]? = some v := by
  intro lanes
  induction lanes with
  | nil => intro mem mem1 _ source _ i hi; cases hi
  | cons i0 rest ih =>
    intro mem mem1 h source hsource i hi
    have h0 := h
    simp only [copy_single_lanes] at h
    obtain ⟨source1, hs1, h⟩ := bind_eq_ok h
    have := index_list_eq_ok.mp hs1
    rw [hsource] at this
    cases this
    obtain ⟨value, hvalue, h⟩ := bind_eq_ok h
    obtain ⟨destination, hdest, h⟩ := bind_eq_ok h
    have hd := index_list_eq_ok.mp hdest
    split at h
    · rename_i hlt
      have hsrc : (mem.arrays.set output_values (destination.set i0 value))[values]? =
          some source := by
        rw [List.getElem?_set_ne (fun hc => hne hc.symm)]
        exact hsource
      by_cases hin : i ∈ rest
      · exact ih _ _ h source hsrc i hin
      · have hi0 : i = i0 := by
          rcases List.mem_cons.mp hi with h1 | h1
          · exact h1
          · exact absurd h1 hin
        subst hi0
        obtain ⟨d1, g1, _, g3⟩ := copy_single_lanes_shape _ _ _ _ _ h
          (destination.set i value) (by
            simp only
            rw [List.getElem?_set_eq_of_lt]
            exact (List.getElem?_eq_some.mp hd).1)
        refine ⟨d1, value, g1, ?_, index_list_eq_ok.mp hvalue⟩
        rw [g3 i hin, List.getElem?_set_eq_of_lt]
        exact hlt
    · cases h

theorem copy_single_lanes_covered (values output_values : Nat) {mask_indices : List Nat}
    {lanes : List Nat} {mem mem1 : Memory}
    (h : copy_single_lanes values output_values lanes mem = .ok mem1) {a : Nat}
    (hc : lanes_covered mem mask_indices a) : lanes_covered mem1 mask_indices a := by
  obtain ⟨vals, h1, h2⟩ := hc
  by_cases ha : a = output_values
  · subst ha
    obtain ⟨d1, g1, g2, _⟩ := copy_single_lanes_shape _ _ _ _ _ h vals h1
    exact ⟨d1, g1, fun i hi => by rw [g2]; exact h2 i hi⟩
  · exact ⟨vals, by rw [(copy_single_lanes_frame _ _ _ _ _ h).2 a ha]; exact h1, h2⟩

theorem copy_single_lanes_ok (values output_values : Nat) :
    ∀ (lanes : List Nat) (mem : Memory),
      lanes_covered mem lanes values → lanes_covered mem lanes output_values →
      ∃ mem1, copy_single_lanes values output_values lanes mem = .ok mem1 := by
  intro lanes
  induction lanes with
  | nil => intro mem _ _; exact ⟨mem, rfl⟩
  | cons i rest ih =>
    intro mem hs hd
    obtain ⟨source, s1, s2⟩ := hs
    obtain ⟨destination, d1, d2⟩ := hd
    have hi := s2 i (List.mem_cons_self _ _)
    have hj := d2 i (List.mem_cons_self _ _)
    have hv : source[i]? = some (source[i]) := List.getElem?_eq_getElem hi
    simp only [copy_single_lanes, index_list_eq_ok.mpr s1, index_list_eq_ok.mpr hv,
      index_list_eq_ok.mpr d1, bind_ok, if_pos hj]
    apply ih
    · by_cases hc : values = output_values
      · subst hc
        refine ⟨destination.set i source[i], ?_, ?_⟩
        · simp only
          rw [List.getElem?_set_eq_of_lt]
          exact (List.getElem?_eq_some.mp d1).1
        · intro k hk
          rw [List.length_set]
          exact d2 k (List.mem_cons_of_mem _ hk)
      · refine ⟨source, ?_, fun k hk => s2 k (List.mem_cons_of_mem _ hk)⟩
        simp only
        rw [List.getElem?_set_ne (fun h => hc h.symm)]
        exact s1
    · refine ⟨destination.set i source[i], ?_, ?_⟩
      · simp only
        rw [List.getElem?_set_eq_of_lt]
        exact (List.getElem?_eq_some.mp d1).1
      · intro k hk
        rw [List.length_set]
        exact d2 k (List.mem_cons_of_mem _ hk)

/-- Drain from output `k` on writes no array but those of the output
parameters from position `k` on. -/
theorem copy_outputs_from_frame_dest (net : MFNetwork) (inputs_size : Nat)
    (mask_indices : List Nat) (params : List MFParam) (st : Storage) :
    ∀ (outs : List InputRef) (k : Nat) (mem mem1 : Memory),
      copy_outputs_from net inputs_size mask_indices params st k outs mem = .ok mem1 →
      ∀ d, (∀ j, j < outs.length → params[inputs_size + (k + j)]? ≠ some (.single_output d)) →
        mem1.arrays[d]? = mem.arrays[d]? := by
  intro outs
  induction outs with
  | nil =>
    intro k mem mem1 h d _
    simp only [copy_outputs_from] at h
    cases h
    rfl
  | cons socket rest ih =>
    intro k mem mem1 h d hd
    simp only [copy_outputs_from] at h
    obtain ⟨sock, _, h⟩ := bind_eq_ok h
    have hrest : ∀ j, j < rest.length →
        params[inputs_size + (k + 1 + j)]? ≠ some (.single_output d) := by
      intro j hj
      have := hd (j + 1) (by simp only [List.length_cons]; omega)
      rw [show k + (j + 1) = k + 1 + j by omega] at this
      exact this
    split at h
    · cases h
    · obtain ⟨values, _, h⟩ := bind_eq_ok h
      obtain ⟨output_values, ho, h⟩ := bind_eq_ok h
      obtain ⟨mem2, h2, h⟩ := bind_eq_ok h
      rw [ih _ _ _ h d hrest]
      apply (copy_single_lanes_frame _ _ _ _ _ h2).2
      intro hc
      subst hc
      have := hd 0 (by simp)
      exact this (single_output_eq_ok.mp ho)
    · obtain ⟨values, _, h⟩ := bind_eq_ok h
      obtain ⟨output_values, ho, h⟩ := bind_eq_ok h
      obtain ⟨mem2, h2, h⟩ := bind_eq_ok h
      rw [ih _ _ _ h d hrest, (copy_vector_lanes_frame _ _ _ _ _ h2).1]

/-- What drain leaves in the array of a Single output parameter: at every
lane of the mask what the storage holds for the boundary output socket, when
that array is no output array and the output array is passed only once. -/
theorem copy_outputs_from_single (net : MFNetwork) (inputs_size : Nat)
    (mask_indices : List Nat) (params : List MFParam) (st : Storage) :
    ∀ (outs : List InputRef) (k : Nat) (mem mem1 : Memory),
      copy_outputs_from net inputs_size mask_indices params st k outs mem = .ok mem1 →
      ∀ (j : Nat) t sk c a d, outs[j]? = some t → net.input t = .ok sk →
        sk.type = .single c → st.m_virtual_list_for_inputs t = some a →
        params[inputs_size + (k + j)]? = some (.single_output d) →
        (∀ prm ∈ params, prm ≠ .single_output a) →
        (∀ (q : Nat), q ≠ inputs_size + (k + j) → params[q]? ≠ some (.single_output d)) →
        ∀ source, mem.arrays[a]? = some source →
          ∀ i ∈ mask_indices, ∃ out v, mem1.arrays[d]? = some out ∧ out[i]? = some v ∧
            source[i]? = some v := by
  intro outs
  induction outs with
  | nil => intro k mem mem1 _ j t sk c a d hj; simp at hj
  | cons socket rest ih =>
    intro k mem mem1 h j t sk c a d hj hsk hty ha hd hsrc huniq source hsource i hi
    simp only [copy_outputs_from] at h
    obtain ⟨sock, hsock, h⟩ := bind_eq_ok h
    cases j with
    | zero =>
      simp only [List.getElem?_cons_zero, Option.some.injEq] at hj
      subst hj
      rw [hsk] at hsock
      cases hsock
      rw [hty] at h
      simp only at h
      obtain ⟨values, hv, h⟩ := bind_eq_ok h
      obtain ⟨output_values, ho, h⟩ := bind_eq_ok h
      obtain ⟨mem2, h2, h⟩ := bind_eq_ok h
      have e1 : values = a := by
        have := lookup_eq_ok.mp hv
        rw [ha] at this
        exact (Option.some.inj this).symm
      have e2 : output_values = d := by
        have := single_output_eq_ok.mp ho
        rw [Nat.add_zero] at hd
        rw [hd] at this
        cases this
        rfl
      subst e1 e2
      have hne : values ≠ output_values := by
        intro hc
        apply hsrc _ (List.getElem?_mem hd)
        rw [hc]
      obtain ⟨out, v, g1, g2, g3⟩ := copy_single_lanes_spec _ _ hne _ _ _ h2 source hsource i hi
      refine ⟨out, v, ?_, g2, g3⟩
      rw [copy_outputs_from_frame_dest _ _ _ _ _ _ _ _ _ h output_values]
      · exact g1
      · intro j1 _ hc
        exact huniq (inputs_size + (k + 1 + j1)) (by omega) hc
    | succ j =>
      simp only [List.getElem?_cons_succ] at hj
      have hd1 : params[inputs_size + (k + 1 + j)]? = some (.single_output d) := by
        rw [show k + 1 + j = k + (j + 1) by omega]
        exact hd
      have huniq1 : ∀ (q : Nat), q ≠ inputs_size + (k + 1 + j) →
          params[q]? ≠ some (.single_output d) := by
        intro q hq
        exact huniq q (by omega)
      split at h
      · cases h
      · obtain ⟨values, _, h⟩ := bind_eq_ok h
        obtain ⟨output_values, ho, h⟩ := bind_eq_ok h
        obtain ⟨mem2, h2, h⟩ := bind_eq_ok h
        have hkeep : mem2.arrays[a]? = some source := by
          rw [(copy_single_lanes_frame _ _ _ _ _ h2).2 a (by
            intro hc
            apply hsrc _ (List.getElem?_mem (single_output_eq_ok.mp ho))
            rw [hc])]
          exact hsource
        exact ih _ _ _ h j t sk c a d hj hsk hty ha hd1 hsrc huniq1 source hkeep i hi
      · obtain ⟨values, _, h⟩ := bind_eq_ok h
        obtain ⟨output_values, ho, h⟩ := bind_eq_ok h
        obtain ⟨mem2, h2, h⟩ := bind_eq_ok h
        have hkeep : mem2.arrays[a]? = some source := by
          rw [(copy_vector_lanes_frame _ _ _ _ _ h2).1]
          exact hsource
        exact ih _ _ _ h j t sk c a d hj hsk hty ha hd1 hsrc huniq1 source hkeep i hi

/-- Drain succeeds when every boundary output is a Single socket whose array
and whose output array cover the lanes. -/
theorem copy_outputs_from_ok (net : MFNetwork) (inputs_size : Nat)
    (mask_indices : List Nat) (params : List MFParam) (st : Storage) :
    ∀ (outs : List InputRef) (k : Nat) (mem : Memory),
      (∀ (j : Nat) t, outs[j]? = some t → ∃ sk c a d, net.input t = .ok sk ∧
        sk.type = .single c ∧ st.m_virtual_list_for_inputs t = some a ∧
        params[inputs_size + (k + j)]? = some (.single_output d) ∧
        lanes_covered mem mask_indices a ∧ lanes_covered mem mask_indices d) →
      ∃ mem1, copy_outputs_from net inputs_size mask_indices params st k outs mem = .ok mem1 := by
  intro outs
  induction outs with
  | nil => intro k mem _; exact ⟨mem, rfl⟩
  | cons socket rest ih =>
    intro k mem hall
    obtain ⟨sk, c, a, d, h1, h2, h3, h4, h5, h6⟩ := hall 0 socket (by simp)
    rw [Nat.add_zero] at h4
    obtain ⟨mem2, hmem2⟩ := copy_single_lanes_ok a d mask_indices mem h5 h6
    simp only [copy_outputs_from, h1, bind_ok, h2, Storage.get_virtual_list_for_input,
      lookup_eq_ok.mpr h3, single_output_eq_ok.mpr h4, hmem2]
    apply ih
    intro j t hj
    obtain ⟨sk1, c1, a1, d1, g1, g2, g3, g4, g5, g6⟩ := hall (j + 1) t (by simpa using hj)
    refine ⟨sk1, c1, a1, d1, g1, g2, g3, ?_, copy_single_lanes_covered _ _ hmem2 g5,
      copy_single_lanes_covered _ _ hmem2 g6⟩
    rw [show k + 1 + j = k + (j + 1) by omega]
    exact g4

/-! ## Mask correctness -/

theorem single_output_unique :
    ∀ (params : List MFParam), (single_output_addresses params).Nodup →
      ∀ (q q1 d : Nat), params[q]? = some (.single_output d) →
        params[q1]? = some (.single_output d) → q = q1 := by
  intro params
  induction params with
  | nil => intro _ q q1 d h; simp at h
  | cons p rest ih =>
    intro hnd q q1 d hq hq1
    have hrest : (single_output_addresses rest).Nodup := by
      cases p <;> simp_all [single_output_addresses]
    have hhead : ∀ (j : Nat), p = .single_output d → rest[j]? = some (.single_output d) → False := by
      intro j hp hj
      subst hp
      simp only [single_output_addresses, List.nodup_cons] at hnd
      exact hnd.1 ((mem_single_output_addresses rest).mpr (List.getElem?_mem hj))
    cases q with
    | zero =>
      cases q1 with
      | zero => rfl
      | succ q1 =>
        simp only [List.getElem?_cons_zero, Option.some.injEq, List.getElem?_cons_succ] at hq hq1
        exact (hhead q1 hq hq1).elim
    | succ q =>
      cases q1 with
      | zero =>
        simp only [List.getElem?_cons_zero, Option.some.injEq, List.getElem?_cons_succ] at hq hq1
        exact (hhead q hq1 hq).elim
      | succ q1 =>
        simp only [List.getElem?_cons_succ] at hq hq1
        rw [ih hrest q q1 d hq hq1]

/-- The lane loop of the addition: the length stays, a lane of the mask gets
the sum, any other lane stays. -/
theorem add_lanes_spec (a b : List Val) :
    ∀ (mask_indices : List Nat) (c : List Val),
      (Example.add_lanes a b mask_indices c).length = c.length ∧
      ∀ i, i < c.length →
        (i ∈ mask_indices →
          (Example.add_lanes a b mask_indices c).getD i 0 = a.getD i 0 + b.getD i 0) ∧
        (i ∉ mask_indices → (Example.add_lanes a b mask_indices c).getD i 0 = c.getD i 0) := by
  intro mask_indices
  induction mask_indices with
  | nil => intro c; simp [Example.add_lanes]
  | cons i0 rest ih =>
    intro c
    simp only [Example.add_lanes]
    obtain ⟨h1, h2⟩ := ih (c.set i0 (a.getD i0 0 + b.getD i0 0))
    rw [List.length_set] at h1 h2
    refine ⟨h1, fun i hi => ⟨?_, ?_⟩⟩
    · intro hm
      by_cases hr : i ∈ rest
      · exact (h2 i hi).1 hr
      · have : i = i0 := by
          rcases List.mem_cons.mp hm with h | h
          · exact h
          · exact absurd h hr
        subst this
        rw [(h2 i hi).2 hr]
        simp [List.getD_eq_getElem?_getD, List.getElem?_set_eq_of_lt, hi]
    · intro hm
      have hne : i0 ≠ i := fun hc => hm (by rw [hc]; exact List.mem_cons_self _ _)
      rw [(h2 i hi).2 (fun hc => hm (List.mem_cons_of_mem _ hc))]
      simp [List.getD_eq_getElem?_getD, List.getElem?_set_ne hne]

/-- The addition of the example computes lane-wise, on every mask. -/
theorem add_floats_lane_wise (mask_indices : List Nat) (n : Nat) :
    LaneWise mask_indices Example.AddFloats [0, 1] (Example.add_lane_function n) := by
  intro values hlen hfit
  have hsig : Example.AddFloats.signature = [.readonly_single_input .float,
      .readonly_single_input .float, .single_output .float] := rfl
  rw [hsig] at hlen hfit
  match values, hlen with
  | [v0, v1, v2], _ =>
    have f0 := hfit 0 _ v0 rfl rfl
    have f1 := hfit 1 _ v1 rfl rfl
    have f2 := hfit 2 _ v2 rfl rfl
    cases v0 with
    | vector l => exact f0.1.elim
    | single a =>
      cases v1 with
      | vector l => exact f1.1.elim
      | single b =>
        cases v2 with
        | vector l => exact f2.1.elim
        | single c =>
          have hcall : Example.AddFloats.call mask_indices [.single a, .single b, .single c] =
              [.single a, .single b, .single (Example.add_lanes a b mask_indices c)] := rfl
          rw [hcall]
          obtain ⟨hl, hv⟩ := add_lanes_spec a b mask_indices c
          refine ⟨rfl, ?_, ?_⟩
          · intro q v w hq hw
            match q with
            | 0 =>
              simp only [List.getElem?_cons_zero, Option.some.injEq] at hq hw
              subst hq hw
              simp [same_shape]
            | 1 =>
              simp only [List.getElem?_cons_succ, List.getElem?_cons_zero,
                Option.some.injEq] at hq hw
              subst hq hw
              simp [same_shape]
            | 2 =>
              simp only [List.getElem?_cons_succ, List.getElem?_cons_zero,
                Option.some.injEq] at hq hw
              subst hq hw
              simp [same_shape, hl]
            | q + 3 => simp at hq
          · intro i hi q pt w hq hout hw
            match q with
            | 0 =>
              simp only [hsig, List.getElem?_cons_zero, Option.some.injEq] at hq
              subst hq
              simp [MFParamType.is_output] at hout
            | 1 =>
              simp only [hsig, List.getElem?_cons_succ, List.getElem?_cons_zero,
                Option.some.injEq] at hq
              subst hq
              simp [MFParamType.is_output] at hout
            | 2 =>
              simp only [List.getElem?_cons_succ, List.getElem?_cons_zero,
                Option.some.injEq] at hw
              subst hw
              have hlt := f2.2 i hi
              simp only [ParamValue.lanes] at hlt
              simp only [lane_of, inputs_at, List.map_cons, List.map_nil, List.getD_cons_zero,
                List.getD_cons_succ, Example.add_lane_function, (hv i hlt).1 hi]
            | q + 3 => simp [hsig] at hq

/-- Every function node of the example network computes lane-wise. -/
theorem add_network_lane_wise (mask_indices : List Nat) :
    ∀ (n : Nat) node function ipi opi, Example.add_network.nodes[n]? = some node →
      node.kind = .function function ipi opi →
      LaneWise mask_indices function ipi (Example.add_lane_function n) := by
  intro n node function ipi opi hn hk
  match n with
  | 0 =>
    simp only [Example.add_network, List.getElem?_cons_zero, Option.some.injEq] at hn
    subst hn
    cases hk
  | 1 =>
    simp only [Example.add_network, List.getElem?_cons_succ, List.getElem?_cons_zero,
      Option.some.injEq] at hn
    subst hn
    cases hk
    exact add_floats_lane_wise mask_indices 1
  | 2 =>
    simp only [Example.add_network, List.getElem?_cons_succ, List.getElem?_cons_zero,
      Option.some.injEq] at hn
    subst hn
    cases hk
  | n + 3 => simp [Example.add_network] at hn

/-- C1. Mask correctness.  On a built acyclic network whose reachable
placeholder outputs are declared boundary inputs and whose function nodes
compute lane-wise (`G n` being the lane function of node `n`), for a
non-empty ascending lane sequence and caller buffers that fit the signature,
cover the lanes and keep the Single output arrays apart from each other and
from the Single input arrays: seed succeeds and the loop ends; for every
Single boundary output the storage then holds an array whose element at
every lane `i` of the mask is the value of the network's expression at lane
`i` on the caller's inputs; whenever the call returns, the caller's output
array holds that value at lane `i`; and the call does return (for every step
budget from some budget on) when every boundary output is a Single socket. -/
theorem mask_correctness (net : MFNetwork) (tree : MultiFunction_FunctionTree)
    (hwf : WellFormed net tree) (hdist : InputParamsDistinct net)
    (hacyclic : Acyclic net) (hclosed : BoundaryClosed net tree)
    (mask_indices : List Nat) (hmask : mask_indices ≠ [])
    (hsorted : mask_indices.Pairwise (fun a b => a < b))
    (params : List MFParam) (mem : Memory)
    (hparams : caller_params_ok net tree params mem = true)
    (hbuffers : buffers_ok mask_indices params mem)
    (G : Nat → List LaneValue → Nat → LaneValue)
    (hlw : ∀ (n : Nat) node function ipi opi, net.nodes[n]? = some node →
      node.kind = .function function ipi opi → LaneWise mask_indices function ipi (G n)) :
    ∃ s0 fuel s1, copy_inputs_to_storage net tree params (initial_state mem) = .ok s0 ∧
      (∀ k, evaluate_network_to_compute_outputs net tree (fuel + k) mask_indices s0 = .ok s1) ∧
      (∀ (k : Nat) t sk c, tree.m_outputs[k]? = some t → net.input t = .ok sk →
        sk.type = .single c →
        ∃ o d a values, sk.origin = some o ∧
          params[tree.m_inputs.length + k]? = some (.single_output d) ∧
          s1.storage.m_virtual_list_for_inputs t = some a ∧
          s1.memory.arrays[a]? = some values ∧
          ∀ i ∈ mask_indices, ∃ v, values[i]? = some v ∧
            (∃ depth, ∀ more, expression_value net tree G (caller_lane mem params i)
              (depth + more) o = some (.single v)) ∧
            ∀ budget s3, call net tree budget mask_indices params mem = .ok s3 →
              ∃ out, s3.memory.arrays[d]? = some out ∧ out[i]? = some v) ∧
      ((∀ t ∈ tree.m_outputs, ∀ sk, net.input t = .ok sk → ∃ c, sk.type = .single c) →
        ∃ s3, ∀ k, call net tree (fuel + k) mask_indices params mem = .ok s3) := by
  obtain ⟨rank, hr⟩ := hacyclic
  obtain ⟨s0, hseed⟩ := seed_ok hwf hparams
  obtain ⟨hrange, _, hout_params⟩ := caller_params_inputs hwf hparams
  have h0 := seed_inv rank hwf hrange hseed
  obtain ⟨fuel, s1, h1, hinv1⟩ := loop_terminates hwf hr hclosed hmask _ _ _ _
    (Nat.le_refl _) (Nat.le_refl _) h0
  have hc0 : CallInv net tree G mem params rank mask_indices s0 :=
    seed_callInv G rank hwf hrange hbuffers.1 hseed
  have hreach : Reachable net tree mask_indices s0 [] s1 :=
    evaluate_loop_reachable fuel _ _ _ Reachable.start h1
  have hbound : tree.m_outputs ≠ [] → ∀ i ∈ mask_indices, i < 4294967295 := by
    intro hne i hi
    obtain ⟨t, rest, hm⟩ := List.exists_cons_of_ne_nil hne
    have hk : tree.m_outputs[0]? = some t := by rw [hm]; exact List.getElem?_cons_zero
    obtain ⟨sk, hsk, _⟩ := wf_boundary_output hwf (List.getElem?_mem hk)
    obtain ⟨p, hp, _⟩ := hout_params 0 t sk hk hsk
    have h1 := hbuffers.1 p (List.getElem?_mem hp) i hi
    have h2 := hbuffers.2.2.2 p (List.getElem?_mem hp)
    omega
  have hc1 := fun (hne : tree.m_outputs ≠ []) =>
    reachable_callInv hwf hdist hr hclosed hmask hsorted (hbound hne) hlw h0 hc0 hreach
  have hlen0 : ¬ mask_indices.length = 0 := fun hc => hmask (List.length_eq_zero.mp hc)
  -- what is known of a Single boundary output at the end of the loop
  have out_data : ∀ (k : Nat) t sk c, tree.m_outputs[k]? = some t → net.input t = .ok sk →
      sk.type = .single c →
      ∃ o d a values, sk.origin = some o ∧
        params[tree.m_inputs.length + k]? = some (.single_output d) ∧
        s1.storage.m_virtual_list_for_inputs t = some a ∧
        s1.memory.arrays[a]? = some values ∧
        (∀ i ∈ mask_indices, i < values.length ∧
          expression_at net tree G mem params rank o i = some (.single (values.getD i 0))) ∧
        (∀ prm ∈ params, prm ≠ .single_output a) ∧
        lanes_covered s1.memory mask_indices d := by
    intro k t sk c hk hsk hty
    have hm : t ∈ tree.m_outputs := List.getElem?_mem hk
    have hc1 := hc1 (List.ne_nil_of_mem hm)
    have hinst : Installed net tree s1.trace t := by
      rcases hinv1.outputs_done t hm with h | h
      · cases h
      · exact h
    have hsome := (hinv1.dom t .virtual_list).mpr ⟨hinst, slot_single hsk hty⟩
    obtain ⟨a, ha⟩ := Option.isSome_iff_exists.mp hsome
    have ha : s1.storage.m_virtual_list_for_inputs t = some a := ha
    obtain ⟨sk1, o, g1, g2, values, g3, g4⟩ := hc1.val.single t a ha
    rw [hsk] at g1
    cases g1
    obtain ⟨p, hp, hpm⟩ := hout_params k t sk hk hsk
    rw [hty] at hpm
    cases p with
    | single_output d =>
      have hd := hrange _ (List.getElem?_mem hp)
      simp only [param_in_range, decide_eq_true_eq] at hd
      refine ⟨o, d, a, values, g2, hp, ha, g3, g4, ?_, ?_⟩
      · intro prm hprm hc
        subst hc
        rcases hc1.source t a ha with hs | hs
        · have := hrange _ hprm
          simp only [param_in_range, decide_eq_true_eq] at this
          omega
        · exact hbuffers.2.2.1 a hs ((mem_single_output_addresses params).mpr hprm)
      · refine ⟨mem.arrays[d], ?_, ?_⟩
        · rw [hc1.frame.arrays_kept d hd]
          exact List.getElem?_eq_getElem hd
        · intro i hi
          have := hbuffers.1 _ (List.getElem?_mem hp) i hi
          simpa [param_lanes, List.getD_eq_getElem?_getD, List.getElem?_eq_getElem hd] using this
    | _ => simp [output_param_type, param_matches] at hpm
  refine ⟨s0, fuel, s1, hseed, fun k => evaluate_loop_mono fuel _ _ _ h1 k, ?_, ?_⟩
  · intro k t sk c hk hsk hty
    obtain ⟨o, d, a, values, g1, g2, g3, g4, g5, g6, _⟩ := out_data k t sk c hk hsk hty
    refine ⟨o, d, a, values, g1, g2, g3, g4, ?_⟩
    intro i hi
    obtain ⟨hlt, hden⟩ := g5 i hi
    have hv : values[i]? = some (values.getD i 0) := by
      simp [List.getD_eq_getElem?_getD, List.getElem?_eq_getElem hlt]
    refine ⟨values.getD i 0, hv, ⟨rank o.1 + 1, fun more =>
      expression_value_mono net tree G _ hden more⟩, ?_⟩
    intro budget s3 hcall
    unfold call at hcall
    rw [if_neg hlen0] at hcall
    obtain ⟨s0a, hs0a, hcall⟩ := bind_eq_ok hcall
    have hs0b : copy_inputs_to_storage net tree params (initial_state mem) = .ok s0a := hs0a
    rw [hseed] at hs0b
    cases hs0b
    obtain ⟨s1a, hs1a, hcall⟩ := bind_eq_ok hcall
    have e1 := evaluate_loop_mono fuel _ _ _ h1 budget
    have e2 := evaluate_loop_mono budget _ _ _ hs1a fuel
    rw [Nat.add_comm] at e2
    rw [e1] at e2
    cases e2
    unfold copy_computed_values_to_outputs at hcall
    obtain ⟨mem3, hdrain, hcall⟩ := bind_eq_ok hcall
    cases hcall
    obtain ⟨out, v, f1, f2, f3⟩ := copy_outputs_from_single _ _ _ _ _ _ _ _ _ hdrain
      k t sk c a d hk hsk hty g3 (by rw [Nat.zero_add]; exact g2) g6
      (by
        intro q hq hc
        apply hq
        rw [Nat.zero_add]
        exact single_output_unique params hbuffers.2.1 q _ d hc g2)
      values g4 i hi
    rw [hv] at f3
    cases f3
    exact ⟨out, f1, f2⟩
  · intro hall
    obtain ⟨mem3, hdrain⟩ := copy_outputs_from_ok net tree.m_inputs.length mask_indices params
      s1.storage tree.m_outputs 0 s1.memory (by
        intro j t hj
        obtain ⟨sk, hsk, _⟩ := wf_boundary_output hwf (List.getElem?_mem hj)
        obtain ⟨c, hty⟩ := hall t (List.getElem?_mem hj) sk hsk
        obtain ⟨o, d, a, values, _, g2, g3, g4, g5, _, g7⟩ := out_data j t sk c hj hsk hty
        exact ⟨sk, c, a, d, hsk, hty, g3, by rw [Nat.zero_add]; exact g2,
          ⟨values, g4, fun i hi => (g5 i hi).1⟩, g7⟩)
    refine ⟨{ s1 with memory := mem3 }, fun k => ?_⟩
    have hseed1 : copy_inputs_to_storage net tree params
        { memory := mem, storage := Storage.empty, trace := [] } = .ok s0 := hseed
    unfold call
    rw [if_neg hlen0]
    simp only [hseed1, bind_ok]
    have e1 : evaluate_network_to_compute_outputs net tree (fuel + k) mask_indices s0 = .ok s1 :=
      evaluate_loop_mono fuel _ _ _ h1 k
    simp only [e1, bind_ok, copy_computed_values_to_outputs, hdrain]

/-- Witness of `mask_correctness`: `c = a + b` with `a = [1, 2, 3, 4]`,
`b = [10, 20, 30, 40]` and the lanes `1, 3`; the call leaves `22` and `44`
at these lanes of `c`. -/
theorem mask_correctness_witness :
    (∃ s3, call Example.add_network Example.add_tree 100 [1, 3] Example.add_params
        Example.add_memory = .ok s3 ∧ s3.memory.arrays[2]? = some [0, 22, 0, 44]) ∧
    ∃ s0 fuel s1,
      copy_inputs_to_storage Example.add_network Example.add_tree Example.add_params
        (initial_state Example.add_memory) = .ok s0 ∧
      (∀ k, evaluate_network_to_compute_outputs Example.add_network Example.add_tree
        (fuel + k) [1, 3] s0 = .ok s1) ∧
      (∀ (k : Nat) t sk c, Example.add_tree.m_outputs[k]? = some t →
        Example.add_network.input t = .ok sk → sk.type = .single c →
        ∃ o d a values, sk.origin = some o ∧
          Example.add_params[Example.add_tree.m_inputs.length + k]? =
            some (.single_output d) ∧
          s1.storage.m_virtual_list_for_inputs t = some a ∧
          s1.memory.arrays[a]? = some values ∧
          ∀ i ∈ [1, 3], ∃ v, values[i]? = some v ∧
            (∃ depth, ∀ more, expression_value Example.add_network Example.add_tree
              Example.add_lane_function (caller_lane Example.add_memory Example.add_params i)
              (depth + more) o = some (.single v)) ∧
            ∀ budget s3, call Example.add_network Example.add_tree budget [1, 3]
                Example.add_params Example.add_memory = .ok s3 →
              ∃ out, s3.memory.arrays[d]? = some out ∧ out[i]? = some v) ∧
      ((∀ t ∈ Example.add_tree.m_outputs, ∀ sk, Example.add_network.input t = .ok sk →
          ∃ c, sk.type = .single c) →
        ∃ s3, ∀ k, call Example.add_network Example.add_tree (fuel + k) [1, 3]
          Example.add_params Example.add_memory = .ok s3) :=
  ⟨⟨_, rfl, rfl⟩,
    mask_correctness Example.add_network Example.add_tree (by decide) (by decide)
      ⟨fun n => n, by decide⟩ (boundaryClosed_of_links (by decide)) [1, 3] (by simp)
      (by decide) Example.add_params Example.add_memory (by decide) (by decide)
      Example.add_lane_function (add_network_lane_wise [1, 3])⟩

/-- C6. Forwarding rule.  On a built network, in a state of a call in which
the storage holds exactly what was installed, lies within the memory, and
holds the vector arrays of the function nodes not yet invoked privately, the
invocation of a function node `n` whose inputs are all computed succeeds, and
then: for a Single output parameter, every target of its output socket holds
the one array allocated for it; for a Vector output (an output parameter, or
a mutable parameter, whose array is the one the node held for its input
socket), a target feeding a read-only vector parameter holds the produced
vector array itself, and a target feeding a mutable vector parameter holds
another vector array, allocated by the invocation, with the same lists, held
by no other socket.  The invocation changes no array that existed before and
no vector array but those the node held for its own input sockets, so what
any other socket holds is as it was; the storage stays within the memory and
private for the nodes still to be invoked, so the same holds of every later
invocation. -/
theorem forwarding_rule {net : MFNetwork} {tree : MultiFunction_FunctionTree}
    (hwf : WellFormed net tree) {mask_indices : List Nat} (hmask : mask_indices ≠ [])
    {n : Nat} {node : MFNode} {function : MultiFunction} {ipi opi : List Nat}
    (hnode : net.nodes[n]? = some node) (hk : node.kind = .function function ipi opi)
    {s : EvalState}
    (hdom : DomInv net tree s.storage (Installed net tree s.trace))
    (hb : StorageBounded s.storage s.memory)
    (hpriv : Excl (fun k => net.is_function k.1 = true ∧ k.1 ∉ s.trace) s.storage)
    (hfresh : n ∉ s.trace)
    (hall : ∀ (i : Nat) sk, node.inputs[i]? = some sk →
      s.storage.input_is_computed sk.type (n, i) = .ok true) :
    ∃ s1, compute_and_forward_outputs net tree mask_indices n node function ipi opi s = .ok s1 ∧
      (∀ (q : Nat) c, function.signature[q]? = some (.single_output c) →
        ∃ a, s.memory.arrays.length ≤ a ∧ a < s1.memory.arrays.length ∧
          ∀ target ∈ net.targets (n, opi.indexOf q),
            s1.storage.m_virtual_list_for_inputs target = some a) ∧
      (∀ (q : Nat) c, (function.signature[q]? = some (.vector_output c) ∨
          function.signature[q]? = some (.mutable_vector c)) →
        ∃ a lists, s1.memory.vector_arrays[a]? = some lists ∧
          (function.signature[q]? = some (.vector_output c) →
            s.memory.vector_arrays.length ≤ a) ∧
          (function.signature[q]? = some (.mutable_vector c) →
            s.storage.m_vector_per_socket (n, ipi.indexOf q) = some a) ∧
          ∀ target ∈ net.targets (n, opi.indexOf q),
            ((∃ c1, net.consumer_param target = some (.readonly_vector_input c1)) →
              s1.storage.m_virtual_list_list_for_inputs target = some a) ∧
            ((∃ c1, net.consumer_param target = some (.mutable_vector c1)) →
              ∃ copy, s1.storage.m_vector_per_socket target = some copy ∧ copy ≠ a ∧
                s.memory.vector_arrays.length ≤ copy ∧
                s1.memory.vector_arrays[copy]? = some lists ∧
                ∀ k, s1.storage.m_virtual_list_list_for_inputs k ≠ some copy ∧
                  (s1.storage.m_vector_per_socket k = some copy → k = target))) ∧
      (∀ a, a < s.memory.arrays.length → s1.memory.arrays[a]? = s.memory.arrays[a]?) ∧
      (∀ a, a < s.memory.vector_arrays.length →
        (∀ i, s.storage.m_vector_per_socket (n, i) ≠ some a) →
        s1.memory.vector_arrays[a]? = s.memory.vector_arrays[a]?) ∧
      (∀ k a, k.1 ≠ n →
        (s.storage.m_virtual_list_list_for_inputs k = some a ∨
          s.storage.m_vector_per_socket k = some a) →
        s1.memory.vector_arrays[a]? = s.memory.vector_arrays[a]?) ∧
      StorageBounded s1.storage s1.memory ∧
      Excl (fun k => net.is_function k.1 = true ∧ k.1 ∉ s1.trace) s1.storage := by
  have hfn : net.is_function n = true := is_function_iff.mpr ⟨node, function, ipi, opi, hnode, hk⟩
  obtain ⟨s1, h, _⟩ := compute_and_forward_outputs_inv hwf hmask hnode hk hdom hb hfresh
    (inputs_ready_of_computed hwf hdom hnode hk hall)
  exact ⟨s1, h, invocation_forwards hb hpriv hfn hfresh h⟩

/-- Witness of `forwarding_rule`: the first append of the list network, invoked
in the state left by seed; its result feeds a mutable consumer (node 2) and a
read-only one (node 3). -/
theorem forwarding_rule_witness :
    ∃ s1, compute_and_forward_outputs Example.append_network Example.append_tree [0, 1] 1
        { kind := .function Example.AppendToList [0, 1] [0],
          inputs := [⟨.vector .float, some (0, 0)⟩, ⟨.single .float, some (0, 1)⟩],
          outputs := [⟨.vector .float⟩] }
        Example.AppendToList [0, 1] [0] Example.append_seeded = .ok s1 ∧
      (∀ (q : Nat) c, Example.AppendToList.signature[q]? = some (.single_output c) →
        ∃ a, Example.append_seeded.memory.arrays.length ≤ a ∧ a < s1.memory.arrays.length ∧
          ∀ target ∈ Example.append_network.targets (1, [0].indexOf q),
            s1.storage.m_virtual_list_for_inputs target = some a) ∧
      (∀ (q : Nat) c, (Example.AppendToList.signature[q]? = some (.vector_output c) ∨
          Example.AppendToList.signature[q]? = some (.mutable_vector c)) →
        ∃ a lists, s1.memory.vector_arrays[a]? = some lists ∧
          (Example.AppendToList.signature[q]? = some (.vector_output c) →
            Example.append_seeded.memory.vector_arrays.length ≤ a) ∧
          (Example.AppendToList.signature[q]? = some (.mutable_vector c) →
            Example.append_seeded.storage.m_vector_per_socket (1, [0, 1].indexOf q) = some a) ∧
          ∀ target ∈ Example.append_network.targets (1, [0].indexOf q),
            ((∃ c1, Example.append_network.consumer_param target =
                some (.readonly_vector_input c1)) →
              s1.storage.m_virtual_list_list_for_inputs target = some a) ∧
            ((∃ c1, Example.append_network.consumer_param target =
                some (.mutable_vector c1)) →
              ∃ copy, s1.storage.m_vector_per_socket target = some copy ∧ copy ≠ a ∧
                Example.append_seeded.memory.vector_arrays.length ≤ copy ∧
                s1.memory.vector_arrays[copy]? = some lists ∧
                ∀ k, s1.storage.m_virtual_list_list_for_inputs k ≠ some copy ∧
                  (s1.storage.m_vector_per_socket k = some copy → k = target))) ∧
      (∀ a, a < Example.append_seeded.memory.arrays.length →
        s1.memory.arrays[a]? = Example.append_seeded.memory.arrays[a]?) ∧
      (∀ a, a < Example.append_seeded.memory.vector_arrays.length →
        (∀ i, Example.append_seeded.storage.m_vector_per_socket (1, i) ≠ some a) →
        s1.memory.vector_arrays[a]? = Example.append_seeded.memory.vector_arrays[a]?) ∧
      (∀ (k : InputRef) a, k.1 ≠ 1 →
        (Example.append_seeded.storage.m_virtual_list_list_for_inputs k = some a ∨
          Example.append_seeded.storage.m_vector_per_socket k = some a) →
        s1.memory.vector_arrays[a]? = Example.append_seeded.memory.vector_arrays[a]?) ∧
      StorageBounded s1.storage s1.memory ∧
      Excl (fun k => Example.append_network.is_function k.1 = true ∧ k.1 ∉ s1.trace)
        s1.storage :=
  @forwarding_rule Example.append_network Example.append_tree (by decide) [0, 1] (by simp) 1
    { kind := .function Example.AppendToList [0, 1] [0],
      inputs := [⟨.vector .float, some (0, 0)⟩, ⟨.single .float, some (0, 1)⟩],
      outputs := [⟨.vector .float⟩] }
    Example.AppendToList [0, 1] [0] rfl rfl Example.append_seeded
    (@seed_inv Example.append_network Example.append_tree (fun n => n) (by decide)
      Example.append_params Example.append_memory (by decide) Example.append_seeded rfl).dom
    (@seed_excl Example.append_network Example.append_tree Example.append_params
      Example.append_memory (by decide) Example.append_seeded rfl).1
    (@seed_excl Example.append_network Example.append_tree Example.append_params
      Example.append_memory (by decide) Example.append_seeded rfl).2
    (by decide)
    (by
      intro i sk hi
      match i with
      | 0 =>
        simp only [List.getElem?_cons_zero, Option.some.injEq] at hi
        subst hi
        rfl
      | 1 =>
        simp only [List.getElem?_cons_succ, List.getElem?_cons_zero, Option.some.injEq] at hi
        subst hi
        rfl
      | i + 2 => simp at hi)

/-! # The network builder -/

/-! ## Arrays indexed by socket identifier -/

theorem set_list_eq_ok {α : Type} {xs ys : List α} {i : Nat} {x : α} :
    set_list xs i x = .ok ys ↔ i < xs.length ∧ ys = xs.set i x := by
  unfold set_list
  split <;> simp_all [eq_comm]

theorem set_types_length :
    ∀ (l : List VirtualSocket) (types types1 : List MFDataType),
      set_types l types = .ok types1 → types1.length = types.length := by
  intro l
  induction l with
  | nil => intro types types1 h; simp only [set_types] at h; cases h; rfl
  | cons v rest ih =>
    intro types types1 h
    simp only [set_types] at h
    obtain ⟨t2, h2, h⟩ := bind_eq_ok h
    obtain ⟨_, rfl⟩ := set_list_eq_ok.mp h2
    rw [ih _ _ h, List.length_set]

theorem set_types_append :
    ∀ (l1 l2 : List VirtualSocket) (types : List MFDataType),
      set_types (l1 ++ l2) types = (set_types l1 types >>= fun t => set_types l2 t) := by
  intro l1
  induction l1 with
  | nil => intro l2 types; rfl
  | cons v rest ih =>
    intro l2 types
    simp only [List.cons_append, set_types]
    cases h : set_list types v.id (get_type_by_socket v) with
    | error e => rfl
    | ok t => simp only [bind_ok]; exact ih l2 t

theorem set_types_of_nodes_eq :
    ∀ (nodes : List VirtualNode) (types : List MFDataType),
      set_types_of_nodes nodes types = set_types (nodes.flatMap VirtualNode.sockets) types := by
  intro nodes
  induction nodes with
  | nil => intro types; rfl
  | cons vnode rest ih =>
    intro types
    simp only [set_types_of_nodes, List.flatMap_cons, VirtualNode.sockets, set_types_append]
    cases h1 : set_types vnode.inputs types with
    | error e => rfl
    | ok t1 =>
      simp only [bind_ok]
      cases h2 : set_types vnode.outputs t1 with
      | error e => rfl
      | ok t2 => simp only [bind_ok]; exact ih t2

/-- The loops of the constructor store the resolved type of every socket at
its identifier, when the identifiers are in range and pairwise different. -/
theorem set_types_spec :
    ∀ (l : List VirtualSocket) (types : List MFDataType),
      (∀ v ∈ l, v.id < types.length) → (l.map (fun v => v.id)).Nodup →
      ∃ types1, set_types l types = .ok types1 ∧ types1.length = types.length ∧
        (∀ v ∈ l, types1[v.id]? = some (get_type_by_socket v)) ∧
        (∀ (i : Nat), i ∉ l.map (fun v => v.id) → types1[i]? = types[i]?) := by
  intro l
  induction l with
  | nil => intro types _ _; exact ⟨types, rfl, rfl, by simp, fun _ _ => rfl⟩
  | cons v rest ih =>
    intro types hlt hnd
    have hv := hlt v (List.mem_cons_self _ _)
    obtain ⟨h1, h2⟩ := List.nodup_cons.mp hnd
    obtain ⟨types1, g1, g2, g3, g4⟩ := ih (types.set v.id (get_type_by_socket v))
      (by intro w hw; rw [List.length_set]; exact hlt w (List.mem_cons_of_mem _ hw)) h2
    refine ⟨types1, ?_, by rw [g2, List.length_set], ?_, ?_⟩
    · simp only [set_types, set_list, if_pos hv, bind_ok]
      exact g1
    · intro w hw
      rcases List.mem_cons.mp hw with rfl | hw
      · rw [g4 w.id h1, List.getElem?_set_eq_of_lt _ hv]
      · exact g3 w hw
    · intro i hi
      simp only [List.map_cons, List.mem_cons, not_or] at hi
      rw [g4 i hi.2, List.getElem?_set_ne (fun hc => hi.1 hc.symm)]

/-- The constructor succeeds on a graph with dense identifiers and resolves
the type of every socket. -/
theorem create_spec (vtree : VirtualNodeTree) (hids : vtree.ids_ok) :
    ∃ b, VTreeMFNetworkBuilder.create vtree = .ok b ∧ b.m_vtree = vtree ∧
      b.m_builder.nodes = [] ∧
      b.m_socket_map = List.replicate vtree.socket_count none ∧
      b.m_type_by_vsocket.length = vtree.socket_count ∧
      ∀ v ∈ vtree.sockets, b.m_type_by_vsocket[v.id]? = some (get_type_by_socket v) := by
  obtain ⟨types, h1, h2, h3, _⟩ := set_types_spec vtree.sockets
    (List.replicate vtree.socket_count .none)
    (by intro v hv; rw [List.length_replicate]; exact hids.2 v hv) hids.1
  have hc : VTreeMFNetworkBuilder.create vtree = .ok
      { m_vtree := vtree
        m_socket_map := List.replicate vtree.socket_count none
        m_type_by_vsocket := types
        m_builder := { nodes := [] } } := by
    unfold VTreeMFNetworkBuilder.create
    rw [set_types_of_nodes_eq]
    show (set_types vtree.sockets _ >>= _) = _
    rw [h1]
    rfl
  exact ⟨_, hc, rfl, rfl, rfl, by rw [h2, List.length_replicate], h3⟩

theorem get_type_by_socket_is_none (v : VirtualSocket) :
    (get_type_by_socket v).is_none = !decide (v.idname ∈ data_socket_idnames) := by
  unfold get_type_by_socket data_socket_idnames
  simp only [List.mem_cons, List.mem_singleton, List.not_mem_nil, or_false]
  split_ifs <;> simp_all [MFDataType.is_none]

/-- C18. Type resolution.  `get_type_by_socket` gives Single(float),
Single(float3), Single(int32), Vector(float), Vector(float3), Vector(int32)
for the six kind identifiers of data sockets, in that order, and None for
every other kind identifier; and the builder constructed for a graph with
dense socket identifiers says `is_data_socket` exactly of the sockets of the
graph whose kind identifier is one of the six. -/
theorem type_resolution (vtree : VirtualNodeTree) (hids : vtree.ids_ok) :
    (∀ v : VirtualSocket,
      (v.idname = "fn_FloatSocket" → get_type_by_socket v = .single .float) ∧
      (v.idname = "fn_VectorSocket" → get_type_by_socket v = .single .float3) ∧
      (v.idname = "fn_IntegerSocket" → get_type_by_socket v = .single .int32) ∧
      (v.idname = "fn_FloatListSocket" → get_type_by_socket v = .vector .float) ∧
      (v.idname = "fn_VectorListSocket" → get_type_by_socket v = .vector .float3) ∧
      (v.idname = "fn_IntegerListSocket" → get_type_by_socket v = .vector .int32) ∧
      (v.idname ∉ data_socket_idnames → get_type_by_socket v = .none)) ∧
    ∃ b, VTreeMFNetworkBuilder.create vtree = .ok b ∧
      ∀ v ∈ vtree.sockets,
        b.is_data_socket v = .ok (decide (v.idname ∈ data_socket_idnames)) := by
  constructor
  · intro v
    unfold get_type_by_socket data_socket_idnames
    simp only [List.mem_cons, List.mem_singleton, List.not_mem_nil, or_false, not_or]
    refine ⟨?_, ?_, ?_, ?_, ?_, ?_, ?_⟩ <;> intro h <;> simp_all
  · obtain ⟨b, hb, _, _, _, _, htypes⟩ := create_spec vtree hids
    refine ⟨b, hb, fun v hv => ?_⟩
    unfold VTreeMFNetworkBuilder.is_data_socket
    rw [index_list_eq_ok.mpr (htypes v hv)]
    simp only [bind_ok, get_type_by_socket_is_none, Bool.not_not]

/-- Witness of `type_resolution` on the graph `mixed_tree`. -/
theorem type_resolution_witness :
    Example.mixed_tree.ids_ok ∧
      ∃ b, VTreeMFNetworkBuilder.create Example.mixed_tree = .ok b ∧
        ∀ v ∈ Example.mixed_tree.sockets,
          b.is_data_socket v = .ok (decide (v.idname ∈ data_socket_idnames)) :=
  ⟨by decide, (type_resolution Example.mixed_tree (by decide)).2⟩

/-! ## Node insertion -/

theorem BuilderOk.is_data_socket_eq {vtree : VirtualNodeTree} {b : VTreeMFNetworkBuilder}
    (h : BuilderOk vtree b) {v : VirtualSocket} (hv : v ∈ vtree.sockets) :
    b.is_data_socket v = .ok v.is_data := by
  unfold VTreeMFNetworkBuilder.is_data_socket
  rw [index_list_eq_ok.mpr (h.types v hv)]
  rfl

theorem BuilderOk.try_get_data_type_eq {vtree : VirtualNodeTree} {b : VTreeMFNetworkBuilder}
    (h : BuilderOk vtree b) {v : VirtualSocket} (hv : v ∈ vtree.sockets) :
    b.try_get_data_type v = .ok (get_type_by_socket v) := by
  unfold VTreeMFNetworkBuilder.try_get_data_type
  exact index_list_eq_ok.mpr (h.types v hv)

theorem is_data_iff_idname (v : VirtualSocket) :
    v.is_data = decide (v.idname ∈ data_socket_idnames) := by
  unfold VirtualSocket.is_data
  rw [get_type_by_socket_is_none, Bool.not_not]

theorem mem_sockets_of_mem_inputs {vtree : VirtualNodeTree} {vnode : VirtualNode}
    (hn : vnode ∈ vtree.nodes) {v : VirtualSocket} (hv : v ∈ vnode.inputs) :
    v ∈ vtree.sockets :=
  List.mem_flatMap.mpr ⟨vnode, hn, List.mem_append_left _ hv⟩

theorem mem_sockets_of_mem_outputs {vtree : VirtualNodeTree} {vnode : VirtualNode}
    (hn : vnode ∈ vtree.nodes) {v : VirtualSocket} (hv : v ∈ vnode.outputs) :
    v ∈ vtree.sockets :=
  List.mem_flatMap.mpr ⟨vnode, hn, List.mem_append_right _ hv⟩

theorem map_exactly_spec (socket_at : Nat → MFSocket) :
    ∀ (l : List VirtualSocket) (i : Nat) (map : List (Option MFSocket)),
      (∀ v ∈ l, v.id < map.length) → (l.map (fun v => v.id)).Nodup →
      ∃ map1, map_exactly socket_at l i map = .ok map1 ∧ map1.length = map.length ∧
        (∀ (k : Nat) v, l[k]? = some v → map1[v.id]? = some (some (socket_at (i + k)))) ∧
        (∀ (id : Nat), id ∉ l.map (fun v => v.id) → map1[id]? = map[id]?) := by
  intro l
  induction l with
  | nil =>
    intro i map _ _
    exact ⟨map, rfl, rfl, by intro k v h; simp at h, fun _ _ => rfl⟩
  | cons v rest ih =>
    intro i map hlt hnd
    have hv := hlt v (List.mem_cons_self _ _)
    obtain ⟨h1, h2⟩ := List.nodup_cons.mp hnd
    obtain ⟨map1, g1, g2, g3, g4⟩ := ih (i + 1) (map.set v.id (some (socket_at i)))
      (by intro w hw; rw [List.length_set]; exact hlt w (List.mem_cons_of_mem _ hw)) h2
    refine ⟨map1, ?_, by rw [g2, List.length_set], ?_, ?_⟩
    · simp only [map_exactly, set_list, if_pos hv, bind_ok]
      exact g1
    · intro k w hw
      cases k with
      | zero =>
        simp only [List.getElem?_cons_zero, Option.some.injEq] at hw
        subst hw
        rw [g4 v.id h1, List.getElem?_set_eq_of_lt _ hv]
        rfl
      | succ k =>
        simp only [List.getElem?_cons_succ] at hw
        rw [g3 k w hw]
        congr 3
        omega
    · intro id hid
      simp only [List.map_cons, List.mem_cons, not_or] at hid
      rw [g4 id hid.2, List.getElem?_set_ne (fun hc => hid.1 hc.symm)]

theorem map_sockets_spec (b : VTreeMFNetworkBuilder) (v : VirtualSocket) (s : MFSocket)
    (hun : b.m_socket_map[v.id]? = some none) :
    b.map_sockets v s = .ok { b with m_socket_map := b.m_socket_map.set v.id (some s) } := by
  unfold VTreeMFNetworkBuilder.map_sockets
  rw [index_list_eq_ok.mpr hun]
  have hlt : v.id < b.m_socket_map.length := by
    rcases Nat.lt_or_ge v.id b.m_socket_map.length with hl | hl
    · exact hl
    · rw [List.getElem?_eq_none hl] at hun
      cases hun
  simp only [bind_ok, set_list, if_pos hlt]

theorem BuilderOk.set_map {vtree : VirtualNodeTree} {b : VTreeMFNetworkBuilder}
    (h : BuilderOk vtree b) (map : List (Option MFSocket)) (hl : map.length = b.m_socket_map.length) :
    BuilderOk vtree { b with m_socket_map := map } :=
  ⟨h.tree, h.types, by show map.length = _; rw [hl, h.map_length]⟩

theorem BuilderOk.set_builder {vtree : VirtualNodeTree} {b : VTreeMFNetworkBuilder}
    (h : BuilderOk vtree b) (net : MFNetwork) :
    BuilderOk vtree { b with m_builder := net } :=
  ⟨h.tree, h.types, h.map_length⟩

theorem data_sockets_cons (v : VirtualSocket) (l : List VirtualSocket) :
    data_sockets (v :: l) = if v.is_data then v :: data_sockets l else data_sockets l := by
  unfold data_sockets
  rw [List.filter_cons]

theorem mem_data_sockets {v : VirtualSocket} {l : List VirtualSocket} :
    v ∈ data_sockets l ↔ v ∈ l ∧ v.is_data = true := by
  unfold data_sockets
  exact List.mem_filter

theorem map_data_spec {vtree : VirtualNodeTree} (socket_at : Nat → MFSocket) (sc : Nat) :
    ∀ (l : List VirtualSocket) (c : Nat) (b : VTreeMFNetworkBuilder),
      BuilderOk vtree b → (∀ v ∈ l, v ∈ vtree.sockets) → (l.map (fun v => v.id)).Nodup →
      (∀ v ∈ l, b.m_socket_map[v.id]? = some none) → c + (data_sockets l).length ≤ sc →
      ∃ b1, map_data socket_at sc l c b = .ok b1 ∧ BuilderOk vtree b1 ∧
        b1.m_builder = b.m_builder ∧
        (∀ (k : Nat) v, (data_sockets l)[k]? = some v →
          b1.m_socket_map[v.id]? = some (some (socket_at (c + k)))) ∧
        (∀ (id : Nat), id ∉ (data_sockets l).map (fun v => v.id) →
          b1.m_socket_map[id]? = b.m_socket_map[id]?) := by
  intro l
  induction l with
  | nil =>
    intro c b hb _ _ _ _
    exact ⟨b, rfl, hb, rfl, by intro k v h; simp [data_sockets] at h, fun _ _ => rfl⟩
  | cons v rest ih =>
    intro c b hb hmem hnd hun hsc
    obtain ⟨h1, h2⟩ := List.nodup_cons.mp hnd
    have hv := hmem v (List.mem_cons_self _ _)
    rw [data_sockets_cons] at hsc ⊢
    simp only [map_data, hb.is_data_socket_eq hv, bind_ok]
    cases hd : v.is_data with
    | false =>
      simp only [hd, Bool.false_eq_true, if_false] at hsc ⊢
      exact ih c b hb (fun w hw => hmem w (List.mem_cons_of_mem _ hw)) h2
        (fun w hw => hun w (List.mem_cons_of_mem _ hw)) hsc
    | true =>
      simp only [hd, if_true, List.length_cons] at hsc ⊢
      have hc : c < sc := by omega
      have hunv := hun v (List.mem_cons_self _ _)
      have hlt : v.id < b.m_socket_map.length := by
        rcases Nat.lt_or_ge v.id b.m_socket_map.length with hl | hl
        · exact hl
        · rw [List.getElem?_eq_none hl] at hunv
          cases hunv
      rw [if_pos hc, map_sockets_spec b v (socket_at c) hunv]
      simp only [bind_ok]
      obtain ⟨b1, g1, g2, g3, g4, g5⟩ := ih (c + 1)
        { b with m_socket_map := b.m_socket_map.set v.id (some (socket_at c)) }
        (hb.set_map _ (List.length_set _ _ _))
        (fun w hw => hmem w (List.mem_cons_of_mem _ hw)) h2
        (by
          intro w hw
          show (b.m_socket_map.set v.id (some (socket_at c)))[w.id]? = some none
          rw [List.getElem?_set_ne]
          · exact hun w (List.mem_cons_of_mem _ hw)
          · intro hc2
            exact h1 (List.mem_map.mpr ⟨w, hw, hc2.symm⟩))
        (by omega)
      refine ⟨b1, g1, g2, g3, ?_, ?_⟩
      · intro k w hw
        cases k with
        | zero =>
          simp only [List.getElem?_cons_zero, Option.some.injEq] at hw
          subst hw
          rw [g5 v.id (by
            intro hc2
            obtain ⟨w, hw, hwid⟩ := List.mem_map.mp hc2
            exact h1 (List.mem_map.mpr ⟨w, (mem_data_sockets.mp hw).1, hwid⟩))]
          show (b.m_socket_map.set v.id (some (socket_at c)))[v.id]? = _
          rw [List.getElem?_set_eq_of_lt _ hlt]
          rfl
        | succ k =>
          simp only [List.getElem?_cons_succ] at hw
          rw [g4 k w hw]
          congr 3
          omega
      · intro id hid
        simp only [List.map_cons, List.mem_cons, not_or] at hid
        rw [g5 id hid.2]
        show (b.m_socket_map.set v.id (some (socket_at c)))[id]? = _
        rw [List.getElem?_set_ne (fun hc2 => hid.1 hc2.symm)]

theorem data_types_of_spec {vtree : VirtualNodeTree} {b : VTreeMFNetworkBuilder}
    (hb : BuilderOk vtree b) :
    ∀ (l : List VirtualSocket), (∀ v ∈ l, v ∈ vtree.sockets) →
      data_types_of b l = .ok ((data_sockets l).map get_type_by_socket) := by
  intro l
  induction l with
  | nil => intro _; rfl
  | cons v rest ih =>
    intro hmem
    simp only [data_types_of, hb.try_get_data_type_eq (hmem v (List.mem_cons_self _ _)),
      ih (fun w hw => hmem w (List.mem_cons_of_mem _ hw)), bind_ok, data_sockets_cons]
    unfold VirtualSocket.is_data
    cases (get_type_by_socket v).is_none <;> simp

theorem any_data_socket_spec {vtree : VirtualNodeTree} {b : VTreeMFNetworkBuilder}
    (hb : BuilderOk vtree b) :
    ∀ (l : List VirtualSocket), (∀ v ∈ l, v ∈ vtree.sockets) →
      b.any_data_socket l = .ok (l.any VirtualSocket.is_data) := by
  intro l
  induction l with
  | nil => intro _; rfl
  | cons v rest ih =>
    intro hmem
    simp only [VTreeMFNetworkBuilder.any_data_socket,
      hb.is_data_socket_eq (hmem v (List.mem_cons_self _ _)), bind_ok, List.any_cons]
    cases v.is_data with
    | true => simp
    | false =>
      simp only [Bool.false_eq_true, if_false, Bool.false_or]
      exact ih (fun w hw => hmem w (List.mem_cons_of_mem _ hw))

theorem has_data_sockets_spec {vtree : VirtualNodeTree} {b : VTreeMFNetworkBuilder}
    (hb : BuilderOk vtree b) {vnode : VirtualNode} (hn : vnode ∈ vtree.nodes) :
    b.has_data_sockets vnode = .ok vnode.has_data := by
  unfold VTreeMFNetworkBuilder.has_data_sockets VirtualNode.has_data
  rw [any_data_socket_spec hb _ (fun v hv => mem_sockets_of_mem_inputs hn hv),
    any_data_socket_spec hb _ (fun v hv => mem_sockets_of_mem_outputs hn hv)]
  simp only [bind_ok]
  cases vnode.inputs.any VirtualSocket.is_data <;> simp

theorem data_sockets_are_mapped_spec {vtree : VirtualNodeTree} {b : VTreeMFNetworkBuilder}
    (hb : BuilderOk vtree b) :
    ∀ (l : List VirtualSocket), (∀ v ∈ l, v ∈ vtree.sockets) →
      (∀ v ∈ l, v.is_data = true → ∃ s, b.m_socket_map[v.id]? = some (some s)) →
      b.data_sockets_are_mapped l = .ok true := by
  intro l
  induction l with
  | nil => intro _ _; rfl
  | cons v rest ih =>
    intro hmem hmap
    simp only [VTreeMFNetworkBuilder.data_sockets_are_mapped,
      hb.is_data_socket_eq (hmem v (List.mem_cons_self _ _)), bind_ok]
    have hrest := ih (fun w hw => hmem w (List.mem_cons_of_mem _ hw))
      (fun w hw => hmap w (List.mem_cons_of_mem _ hw))
    cases hd : v.is_data with
    | false => simpa using hrest
    | true =>
      obtain ⟨s, hs⟩ := hmap v (List.mem_cons_self _ _) hd
      simp only [if_true, VTreeMFNetworkBuilder.vsocket_is_mapped, index_list_eq_ok.mpr hs,
        bind_ok, Option.isSome_some, Bool.not_true, Bool.false_eq_true, if_false]
      exact hrest

theorem data_sockets_append (l1 l2 : List VirtualSocket) :
    data_sockets (l1 ++ l2) = data_sockets l1 ++ data_sockets l2 := by
  unfold data_sockets
  exact List.filter_append _ _

theorem data_sockets_eq_self {l : List VirtualSocket}
    (h : ∀ v ∈ l, v.is_data = true) : data_sockets l = l := by
  unfold data_sockets
  exact List.filter_eq_self.mpr h

theorem getElem?_append_singleton_length {α : Type} (l : List α) (x : α) :
    (l ++ [x])[l.length]? = some x := by
  rw [List.getElem?_append_right (Nat.le_refl _)]
  simp

/-- Effect of `add_placeholder(vnode)` on a node none of whose data sockets is mapped. -/
theorem add_placeholder_spec {vtree : VirtualNodeTree} {b : VTreeMFNetworkBuilder}
    (hb : BuilderOk vtree b) {vnode : VirtualNode} (hn : vnode ∈ vtree.nodes)
    (hnd : (vnode.sockets.map (fun v => v.id)).Nodup)
    (hun : ∀ v ∈ vnode.sockets, b.m_socket_map[v.id]? = some none) :
    ∃ b1, b.add_placeholder vnode = .ok b1 ∧ BuilderOk vtree b1 ∧
      b1.m_builder.nodes = b.m_builder.nodes ++ [node_for .placeholder vnode] ∧
      (∀ (k : Nat) v, (data_sockets vnode.inputs)[k]? = some v →
        b1.m_socket_map[v.id]? = some (some (.input b.m_builder.nodes.length k))) ∧
      (∀ (k : Nat) v, (data_sockets vnode.outputs)[k]? = some v →
        b1.m_socket_map[v.id]? = some (some (.output b.m_builder.nodes.length k))) ∧
      (∀ (id : Nat), id ∉ (data_sockets vnode.sockets).map (fun v => v.id) →
        b1.m_socket_map[id]? = b.m_socket_map[id]?) := by
  have hin : ∀ v ∈ vnode.inputs, v ∈ vtree.sockets := fun v hv => mem_sockets_of_mem_inputs hn hv
  have hout : ∀ v ∈ vnode.outputs, v ∈ vtree.sockets :=
    fun v hv => mem_sockets_of_mem_outputs hn hv
  unfold VirtualNode.sockets at hnd hun
  rw [List.map_append] at hnd
  have hnd1 := (List.nodup_append.mp hnd).1
  have hnd2 := (List.nodup_append.mp hnd).2.1
  have hdisj := (List.nodup_append.mp hnd).2.2
  unfold VTreeMFNetworkBuilder.add_placeholder
  rw [data_types_of_spec hb _ hin, data_types_of_spec hb _ hout]
  simp only [bind_ok, MFNetwork.add_placeholder, VTreeMFNetworkBuilder.map_data_sockets]
  have hnode : ({ nodes := b.m_builder.nodes ++ [node_for .placeholder vnode] } : MFNetwork).node
      b.m_builder.nodes.length = .ok (node_for .placeholder vnode) :=
    node_eq_ok.mpr (getElem?_append_singleton_length _ _)
  have hnodes : ({ nodes := b.m_builder.nodes ++
      [({ kind := .placeholder,
          inputs := ((data_sockets vnode.inputs).map get_type_by_socket).map
            (fun t => { type := t, origin := none }),
          outputs := ((data_sockets vnode.outputs).map get_type_by_socket).map
            (fun t => { type := t }) } : MFNode)] } : MFNetwork)
      = { nodes := b.m_builder.nodes ++ [node_for .placeholder vnode] } := by
    simp only [node_for, List.map_map]
    rfl
  rw [hnodes, hnode]
  simp only [bind_ok]
  have hb0 : BuilderOk vtree
      { b with m_builder := { nodes := b.m_builder.nodes ++ [node_for .placeholder vnode] } } :=
    hb.set_builder _
  obtain ⟨b1, g1, g2, g3, g4, g5⟩ := map_data_spec
    (fun i => MFSocket.input b.m_builder.nodes.length i)
    (node_for .placeholder vnode).inputs.length vnode.inputs 0 _ hb0 hin hnd1
    (fun v hv => hun v (List.mem_append_left _ hv))
    (by simp [node_for])
  rw [g1]
  simp only [bind_ok]
  obtain ⟨b2, k1, k2, k3, k4, k5⟩ := map_data_spec
    (fun i => MFSocket.output b.m_builder.nodes.length i)
    (node_for .placeholder vnode).outputs.length vnode.outputs 0 b1 g2 hout hnd2
    (by
      intro v hv
      rw [g5 v.id]
      · exact hun v (List.mem_append_right _ hv)
      · intro hc
        obtain ⟨w, hw, hwid⟩ := List.mem_map.mp hc
        exact hdisj (List.mem_map.mpr ⟨w, (mem_data_sockets.mp hw).1, hwid⟩)
          (List.mem_map.mpr ⟨v, hv, rfl⟩))
    (by simp [node_for])
  refine ⟨b2, k1, k2, by rw [k3, g3], ?_, ?_, ?_⟩
  · intro k v hv
    rw [k5 v.id]
    · rw [g4 k v hv, Nat.zero_add]
    · intro hc
      obtain ⟨w, hw, hwid⟩ := List.mem_map.mp hc
      exact hdisj (List.mem_map.mpr ⟨v, (mem_data_sockets.mp (List.getElem?_mem hv)).1, rfl⟩)
        (List.mem_map.mpr ⟨w, (mem_data_sockets.mp hw).1, hwid⟩)
  · intro k v hv
    rw [k4 k v hv, Nat.zero_add]
  · intro id hid
    unfold VirtualNode.sockets at hid
    rw [data_sockets_append, List.map_append, List.mem_append, not_or] at hid
    rw [k5 id hid.2, g5 id hid.1]

theorem socket_types_of_params_length (signature : List MFParamType) :
    ∀ (indices : List Nat) (types : List MFDataType),
      socket_types_of_params signature indices = .ok types → types.length = indices.length := by
  intro indices
  induction indices with
  | nil => intro types h; simp only [socket_types_of_params] at h; cases h; rfl
  | cons p rest ih =>
    intro types h
    simp only [socket_types_of_params] at h
    obtain ⟨pt, _, h⟩ := bind_eq_ok h
    obtain ⟨ts, h2, h⟩ := bind_eq_ok h
    cases h
    simp [ih ts h2]

/-- Effect of `add_function` with a node of the graph whose sockets have the
types of the parameters listed. -/
theorem add_function_for_spec {vtree : VirtualNodeTree} {b : VTreeMFNetworkBuilder}
    (hb : BuilderOk vtree b) (function : MultiFunction) (ipi opi : List Nat)
    {vnode : VirtualNode} (hn : vnode ∈ vtree.nodes) (hids : vtree.ids_ok)
    (hi : socket_types_of_params function.signature ipi
      = .ok (vnode.inputs.map get_type_by_socket))
    (ho : socket_types_of_params function.signature opi
      = .ok (vnode.outputs.map get_type_by_socket))
    (hdata : ∀ v ∈ vnode.sockets, v.is_data = true)
    (hnd : (vnode.sockets.map (fun v => v.id)).Nodup) :
    ∃ b1, b.add_function_for function ipi opi vnode = .ok b1 ∧ BuilderOk vtree b1 ∧
      b1.m_builder.nodes = b.m_builder.nodes ++ [node_for (.function function ipi opi) vnode] ∧
      (∀ (k : Nat) v, (data_sockets vnode.inputs)[k]? = some v →
        b1.m_socket_map[v.id]? = some (some (.input b.m_builder.nodes.length k))) ∧
      (∀ (k : Nat) v, (data_sockets vnode.outputs)[k]? = some v →
        b1.m_socket_map[v.id]? = some (some (.output b.m_builder.nodes.length k))) ∧
      (∀ (id : Nat), id ∉ (data_sockets vnode.sockets).map (fun v => v.id) →
        b1.m_socket_map[id]? = b.m_socket_map[id]?) := by
  have hin : ∀ v ∈ vnode.inputs, v ∈ vtree.sockets := fun v hv => mem_sockets_of_mem_inputs hn hv
  have hout : ∀ v ∈ vnode.outputs, v ∈ vtree.sockets :=
    fun v hv => mem_sockets_of_mem_outputs hn hv
  have hdi : data_sockets vnode.inputs = vnode.inputs :=
    data_sockets_eq_self (fun v hv => hdata v (List.mem_append_left _ hv))
  have hdo : data_sockets vnode.outputs = vnode.outputs :=
    data_sockets_eq_self (fun v hv => hdata v (List.mem_append_right _ hv))
  have hds : data_sockets vnode.sockets = vnode.sockets := data_sockets_eq_self hdata
  rw [hdi, hdo, hds]
  unfold VirtualNode.sockets at hnd ⊢
  rw [List.map_append] at hnd
  have hnd1 := (List.nodup_append.mp hnd).1
  have hnd2 := (List.nodup_append.mp hnd).2.1
  have hdisj := (List.nodup_append.mp hnd).2.2
  have hnodes : MFNode.mk (.function function ipi opi)
      ((vnode.inputs.map get_type_by_socket).map (fun t => ⟨t, none⟩))
      ((vnode.outputs.map get_type_by_socket).map (fun t => ⟨t⟩))
      = node_for (.function function ipi opi) vnode := by
    simp only [node_for, List.map_map, hdi, hdo]
    rfl
  unfold VTreeMFNetworkBuilder.add_function_for VTreeMFNetworkBuilder.add_function
    MFNetwork.add_function
  rw [hi, ho]
  simp only [bind_ok]
  rw [hnodes]
  unfold VTreeMFNetworkBuilder.map_sockets_exactly
  have hnode : MFNetwork.node
      ⟨b.m_builder.nodes ++ [node_for (.function function ipi opi) vnode]⟩
      b.m_builder.nodes.length = .ok (node_for (.function function ipi opi) vnode) :=
    node_eq_ok.mpr (getElem?_append_singleton_length _ _)
  rw [hnode]
  simp only [bind_ok]
  have hl1 : vnode.inputs.length = (node_for (.function function ipi opi) vnode).inputs.length := by
    simp [node_for, hdi]
  have hl2 : vnode.outputs.length
      = (node_for (.function function ipi opi) vnode).outputs.length := by
    simp [node_for, hdo]
  rw [if_neg (by rw [← hl1]; exact fun h => h rfl), if_neg (by rw [← hl2]; exact fun h => h rfl)]
  obtain ⟨map1, g1, g2, g3, g4⟩ := map_exactly_spec
    (fun i => MFSocket.input b.m_builder.nodes.length i) vnode.inputs 0 b.m_socket_map
    (by intro v hv; rw [hb.map_length]; exact hids.2 v (hin v hv)) hnd1
  obtain ⟨map2, k1, k2, k3, k4⟩ := map_exactly_spec
    (fun i => MFSocket.output b.m_builder.nodes.length i) vnode.outputs 0 map1
    (by intro v hv; rw [g2, hb.map_length]; exact hids.2 v (hout v hv)) hnd2
  rw [g1]
  simp only [bind_ok]
  rw [k1]
  refine ⟨_, rfl, ⟨hb.tree, hb.types, ?_⟩, rfl, ?_, ?_, ?_⟩
  · show map2.length = _
    rw [k2, g2, hb.map_length]
  · intro k v hv
    show map2[v.id]? = _
    rw [k4 v.id]
    · rw [g3 k v hv, Nat.zero_add]
    · intro hc
      exact hdisj (List.mem_map.mpr ⟨v, List.getElem?_mem hv, rfl⟩) hc
  · intro k v hv
    show map2[v.id]? = _
    rw [k3 k v hv, Nat.zero_add]
  · intro id hid
    rw [List.map_append, List.mem_append, not_or] at hid
    show map2[id]? = _
    rw [k4 id hid.2, g4 id hid.1]

theorem all_data_of_types {l : List VirtualSocket} {types : List MFDataType}
    (h : l.map get_type_by_socket = types) (hnone : MFDataType.none ∉ types) :
    ∀ v ∈ l, v.is_data = true := by
  intro v hv
  have hmem : get_type_by_socket v ∈ types := by
    rw [← h]
    exact List.mem_map.mpr ⟨v, hv, rfl⟩
  unfold VirtualSocket.is_data
  cases ht : get_type_by_socket v with
  | none => rw [ht] at hmem; exact absurd hmem hnone
  | single t => rfl
  | vector t => rfl

theorem socket_types_eq {vnode : VirtualNode} {ins outs : List MFDataType}
    (h : (vnode.socket_types == (ins, outs)) = true) :
    vnode.inputs.map get_type_by_socket = ins ∧ vnode.outputs.map get_type_by_socket = outs := by
  have h2 := eq_of_beq h
  unfold VirtualNode.socket_types at h2
  exact Prod.mk.inj h2

theorem get_node_inserters_eq_none (bodies : FunctionBodies) (idname : String) :
    get_node_inserters bodies idname = none ↔ idname ∉ registered_node_idnames := by
  unfold get_node_inserters registered_node_idnames
  simp only [List.mem_cons, List.mem_singleton, List.not_mem_nil, or_false, not_or]
  split_ifs <;> simp_all

/-- What the inserter of a registered kind does on a node that has the
sockets of its function: one function node, every socket mapped by position. -/
theorem registered_inserter_spec (bodies : FunctionBodies) {vtree : VirtualNodeTree}
    {b : VTreeMFNetworkBuilder} (hb : BuilderOk vtree b) (hids : vtree.ids_ok)
    {vnode : VirtualNode} (hn : vnode ∈ vtree.nodes) (hdecl : vnode.declared = true)
    (hnd : (vnode.sockets.map (fun v => v.id)).Nodup) {inserter : InsertVNodeFunction}
    (hreg : get_node_inserters bodies vnode.idname = some inserter) :
    (∀ v ∈ vnode.sockets, v.is_data = true) ∧ vnode.inputs ≠ [] ∧
    ∃ b1 kind, inserter b vnode = .ok b1 ∧ BuilderOk vtree b1 ∧
      b1.m_builder.nodes = b.m_builder.nodes ++ [node_for kind vnode] ∧
      (∀ (k : Nat) v, (data_sockets vnode.inputs)[k]? = some v →
        b1.m_socket_map[v.id]? = some (some (.input b.m_builder.nodes.length k))) ∧
      (∀ (k : Nat) v, (data_sockets vnode.outputs)[k]? = some v →
        b1.m_socket_map[v.id]? = some (some (.output b.m_builder.nodes.length k))) ∧
      (∀ (id : Nat), id ∉ (data_sockets vnode.sockets).map (fun v => v.id) →
        b1.m_socket_map[id]? = b.m_socket_map[id]?) := by
  have key : ∀ (function : MultiFunction) (ipi opi : List Nat) (ins outs : List MFDataType),
      vnode.inputs.map get_type_by_socket = ins → vnode.outputs.map get_type_by_socket = outs →
      socket_types_of_params function.signature ipi = .ok ins →
      socket_types_of_params function.signature opi = .ok outs →
      MFDataType.none ∉ ins → MFDataType.none ∉ outs → ins ≠ [] →
      (∀ v ∈ vnode.sockets, v.is_data = true) ∧ vnode.inputs ≠ [] ∧
      ∃ b1 kind, b.add_function_for function ipi opi vnode = .ok b1 ∧ BuilderOk vtree b1 ∧
        b1.m_builder.nodes = b.m_builder.nodes ++ [node_for kind vnode] ∧
        (∀ (k : Nat) v, (data_sockets vnode.inputs)[k]? = some v →
          b1.m_socket_map[v.id]? = some (some (.input b.m_builder.nodes.length k))) ∧
        (∀ (k : Nat) v, (data_sockets vnode.outputs)[k]? = some v →
          b1.m_socket_map[v.id]? = some (some (.output b.m_builder.nodes.length k))) ∧
        (∀ (id : Nat), id ∉ (data_sockets vnode.sockets).map (fun v => v.id) →
          b1.m_socket_map[id]? = b.m_socket_map[id]?) := by
    intro function ipi opi ins outs h1 h2 h3 h4 h5 h6 h7
    have hdata : ∀ v ∈ vnode.sockets, v.is_data = true := by
      intro v hv
      rcases List.mem_append.mp hv with hv | hv
      · exact all_data_of_types h1 h5 v hv
      · exact all_data_of_types h2 h6 v hv
    refine ⟨hdata, ?_, ?_⟩
    · intro hc
      rw [hc] at h1
      exact h7 h1.symm
    · obtain ⟨b1, g⟩ := add_function_for_spec hb function ipi opi hn hids
        (by rw [h1]; exact h3) (by rw [h2]; exact h4) hdata hnd
      exact ⟨b1, _, g⟩
  unfold get_node_inserters at hreg
  unfold VirtualNode.declared at hdecl
  split_ifs at hreg hdecl with c1 c2 c3 c4 c5 c6
  · cases hreg
    obtain ⟨h1, h2⟩ := socket_types_eq hdecl
    exact key _ _ _ _ _ h1 h2 rfl rfl (by simp) (by simp) (by simp)
  · cases hreg
    obtain ⟨h1, h2⟩ := socket_types_eq hdecl
    exact key _ _ _ _ _ h1 h2 rfl rfl (by simp) (by simp) (by simp)
  · cases hreg
    obtain ⟨h1, h2⟩ := socket_types_eq hdecl
    exact key _ _ _ _ _ h1 h2 rfl rfl (by simp) (by simp) (by simp)
  · cases hreg
    obtain ⟨h1, h2⟩ := socket_types_eq hdecl
    exact key _ _ _ _ _ h1 h2 rfl rfl (by simp) (by simp) (by simp)
  · cases hreg
    cases ht : get_cpp_type_by_name vnode.active_type with
    | error e => rw [ht] at hdecl; cases hdecl
    | ok t =>
      rw [ht] at hdecl
      obtain ⟨h1, h2⟩ := socket_types_eq hdecl
      simp only [INSERT_append_to_list, ht, bind_ok]
      exact key _ _ _ _ _ h1 h2 rfl rfl (by simp) (by simp) (by simp)
  · cases hreg
    cases ht : get_cpp_type_by_name vnode.active_type with
    | error e => rw [ht] at hdecl; cases hdecl
    | ok t =>
      rw [ht] at hdecl
      obtain ⟨h1, h2⟩ := socket_types_eq hdecl
      simp only [INSERT_list_length, ht, bind_ok]
      exact key _ _ _ _ _ h1 h2 rfl rfl (by simp) (by simp) (by simp)

theorem has_data_of_input {vnode : VirtualNode} (hne : vnode.inputs ≠ [])
    (hdata : ∀ v ∈ vnode.sockets, v.is_data = true) : vnode.has_data = true := by
  unfold VirtualNode.has_data
  cases hin : vnode.inputs with
  | nil => exact absurd hin hne
  | cons v rest =>
    have := hdata v (List.mem_append_left _ (by rw [hin]; exact List.mem_cons_self _ _))
    simp [this]

theorem has_data_false {vnode : VirtualNode} (h : vnode.has_data = false) :
    ∀ v ∈ vnode.sockets, v.is_data = false := by
  unfold VirtualNode.has_data at h
  simp only [Bool.or_eq_false_iff, List.any_eq_false] at h
  intro v hv
  rcases List.mem_append.mp hv with hv | hv
  · simpa using h.1 v hv
  · simpa using h.2 v hv

/-- Effect of one round of the loop of `insert_nodes`. -/
theorem insert_node_spec (bodies : FunctionBodies) {vtree : VirtualNodeTree}
    {b : VTreeMFNetworkBuilder} (hb : BuilderOk vtree b) (hids : vtree.ids_ok)
    {vnode : VirtualNode} (hn : vnode ∈ vtree.nodes) (hdecl : vnode.declared = true)
    (hnd : (vnode.sockets.map (fun v => v.id)).Nodup)
    (hun : ∀ v ∈ vnode.sockets, b.m_socket_map[v.id]? = some none) :
    ∃ b1, insert_node bodies b vnode = .ok b1 ∧ BuilderOk vtree b1 ∧
      (vnode.has_data = false → b1 = b) ∧
      (vnode.has_data = true → ∃ kind,
        b1.m_builder.nodes = b.m_builder.nodes ++ [node_for kind vnode] ∧
        (vnode.idname ∉ registered_node_idnames → kind = .placeholder) ∧
        (∀ (k : Nat) v, (data_sockets vnode.inputs)[k]? = some v →
          b1.m_socket_map[v.id]? = some (some (.input b.m_builder.nodes.length k))) ∧
        (∀ (k : Nat) v, (data_sockets vnode.outputs)[k]? = some v →
          b1.m_socket_map[v.id]? = some (some (.output b.m_builder.nodes.length k))) ∧
        (∀ (id : Nat), id ∉ (data_sockets vnode.sockets).map (fun v => v.id) →
          b1.m_socket_map[id]? = b.m_socket_map[id]?)) := by
  unfold insert_node
  cases hreg : get_node_inserters bodies vnode.idname with
  | none =>
    simp only [has_data_sockets_spec hb hn, bind_ok]
    cases hd : vnode.has_data with
    | false =>
      simp only [Bool.false_eq_true, if_false]
      exact ⟨b, rfl, hb, fun _ => rfl, fun h => by cases h⟩
    | true =>
      simp only [if_true]
      obtain ⟨b1, g1, g2, g3, g4, g5, g6⟩ := add_placeholder_spec hb hn hnd hun
      exact ⟨b1, g1, g2, fun h => (by cases h), fun _ => ⟨_, g3, fun _ => rfl, g4, g5, g6⟩⟩
  | some inserter =>
    obtain ⟨hdata, hne, b1, kind, g1, g2, g3, g4, g5, g6⟩ :=
      registered_inserter_spec bodies hb hids hn hdecl hnd hreg
    have hhas := has_data_of_input hne hdata
    have hmapped : b1.data_sockets_of_vnode_are_mapped vnode = .ok true := by
      unfold VTreeMFNetworkBuilder.data_sockets_of_vnode_are_mapped
      rw [data_sockets_are_mapped_spec g2 _ (fun v hv => mem_sockets_of_mem_inputs hn hv)
          (by
            intro v hv hd
            obtain ⟨k, hk⟩ := List.getElem?_of_mem (mem_data_sockets.mpr ⟨hv, hd⟩)
            exact ⟨_, g4 k v hk⟩),
        data_sockets_are_mapped_spec g2 _ (fun v hv => mem_sockets_of_mem_outputs hn hv)
          (by
            intro v hv hd
            obtain ⟨k, hk⟩ := List.getElem?_of_mem (mem_data_sockets.mpr ⟨hv, hd⟩)
            exact ⟨_, g5 k v hk⟩)]
      rfl
    simp only [g1, bind_ok, hmapped, if_true]
    refine ⟨b1, rfl, g2, fun h => (by rw [hhas] at h; cases h), fun _ => ⟨kind, g3, ?_, g4, g5, g6⟩⟩
    intro hc
    rw [(get_node_inserters_eq_none bodies vnode.idname).mpr hc] at hreg
    cases hreg

theorem VirtualNodeTree.ids_ok.inj {vtree : VirtualNodeTree} (hids : vtree.ids_ok)
    {v w : VirtualSocket} (hv : v ∈ vtree.sockets) (hw : w ∈ vtree.sockets)
    (h : v.id = w.id) : v = w :=
  List.inj_on_of_nodup_map hids.1 hv hw h

theorem sockets_split {vtree : VirtualNodeTree} {pre post : List VirtualNode}
    {vnode : VirtualNode} (h : vtree.nodes = pre ++ vnode :: post) :
    vtree.sockets = pre.flatMap VirtualNode.sockets ++
      (vnode.sockets ++ post.flatMap VirtualNode.sockets) := by
  unfold VirtualNodeTree.sockets
  rw [h, List.flatMap_append, List.flatMap_cons]

theorem mem_nodes_of_split {vtree : VirtualNodeTree} {pre post : List VirtualNode}
    {vnode : VirtualNode} (h : vtree.nodes = pre ++ vnode :: post) : vnode ∈ vtree.nodes := by
  rw [h]
  exact List.mem_append_right _ (List.mem_cons_self _ _)

theorem node_sockets_nodup {vtree : VirtualNodeTree} (hids : vtree.ids_ok)
    {pre post : List VirtualNode} {vnode : VirtualNode} (h : vtree.nodes = pre ++ vnode :: post) :
    (vnode.sockets.map (fun v => v.id)).Nodup ∧
      ∀ v ∈ vnode.sockets, v ∉ pre.flatMap VirtualNode.sockets := by
  have h1 := hids.1
  rw [sockets_split h, List.map_append, List.map_append] at h1
  obtain ⟨_, h2, h3⟩ := List.nodup_append.mp h1
  refine ⟨(List.nodup_append.mp h2).1, fun v hv hc => ?_⟩
  exact h3 (List.mem_map.mpr ⟨v, hc, rfl⟩)
    (List.mem_append_left _ (List.mem_map.mpr ⟨v, hv, rfl⟩))

theorem node_for_unlinked (kind : MFNodeKind) (vnode : VirtualNode) :
    ∀ s ∈ (node_for kind vnode).inputs, s.origin = none := by
  intro s hs
  simp only [node_for, List.mem_map] at hs
  obtain ⟨v, _, rfl⟩ := hs
  rfl

theorem node_for_types (kind : MFNodeKind) (vnode : VirtualNode) :
    (node_for kind vnode).inputs.map (fun s => s.type)
        = (data_sockets vnode.inputs).map get_type_by_socket ∧
      (node_for kind vnode).outputs.map (fun s => s.type)
        = (data_sockets vnode.outputs).map get_type_by_socket := by
  simp only [node_for, List.map_map]
  exact ⟨rfl, rfl⟩

/-- One round of the loop of `insert_nodes` keeps the invariant. -/
theorem NodesInv.step (bodies : FunctionBodies) {vtree : VirtualNodeTree}
    (hwf : vtree.well_formed) {pre post : List VirtualNode} {vnode : VirtualNode}
    (hsplit : vtree.nodes = pre ++ vnode :: post) {b : VTreeMFNetworkBuilder}
    (hinv : NodesInv vtree pre b) :
    ∃ b1, insert_node bodies b vnode = .ok b1 ∧ NodesInv vtree (pre ++ [vnode]) b1 := by
  have hids := hwf.1
  have hn := mem_nodes_of_split hsplit
  obtain ⟨hnd, hfresh⟩ := node_sockets_nodup hids hsplit
  have hsub : ∀ v ∈ vnode.sockets, v ∈ vtree.sockets :=
    fun v hv => List.mem_flatMap.mpr ⟨vnode, hn, hv⟩
  obtain ⟨b1, g1, g2, g3, g4⟩ := insert_node_spec bodies hinv.ok hids hn (hwf.2.2.2.2 vnode hn)
    hnd (fun v hv => hinv.unmapped v (hsub v hv) (Or.inl (hfresh v hv)))
  refine ⟨b1, g1, ?_⟩
  cases hd : vnode.has_data with
  | false =>
    have hb1 := g3 hd
    subst hb1
    have hfil : (pre ++ [vnode]).filter VirtualNode.has_data = pre.filter VirtualNode.has_data := by
      rw [List.filter_append, List.filter_cons, hd]
      simp
    refine ⟨g2, by rw [hfil]; exact hinv.count, by rw [hfil]; exact hinv.done, hinv.unlinked, ?_⟩
    intro v hv hc
    rcases hc with hc | hc
    · apply hinv.unmapped v hv
      left
      intro hc2
      exact hc (by rw [List.flatMap_append]; exact List.mem_append_left _ hc2)
    · exact hinv.unmapped v hv (Or.inr hc)
  | true =>
    obtain ⟨kind, k1, k2, k3, k4, k5⟩ := g4 hd
    have hfil : (pre ++ [vnode]).filter VirtualNode.has_data
        = pre.filter VirtualNode.has_data ++ [vnode] := by
      rw [List.filter_append, List.filter_cons, hd]
      simp
    have hframe : ∀ w ∈ vtree.sockets, (w ∉ vnode.sockets ∨ w.is_data = false) →
        b1.m_socket_map[w.id]? = b.m_socket_map[w.id]? := by
      intro w hw hc
      apply k5
      intro hmem
      obtain ⟨x, hx, hxid⟩ := List.mem_map.mp hmem
      obtain ⟨hx1, hx2⟩ := mem_data_sockets.mp hx
      have hxw : x = w := hids.inj (hsub x hx1) hw hxid
      subst hxw
      rcases hc with hc | hc
      · exact hc hx1
      · rw [hc] at hx2
        cases hx2
    refine ⟨g2, ?_, ?_, ?_, ?_⟩
    · rw [hfil, k1, List.length_append, List.length_append, hinv.count]
      rfl
    · intro n vn hvn
      rw [hfil] at hvn
      rcases Nat.lt_or_ge n (pre.filter VirtualNode.has_data).length with hlt | hge
      · rw [List.getElem?_append_left hlt] at hvn
        have hold := hinv.done n vn hvn
        have hvnpre : vn ∈ pre := (List.mem_filter.mp (List.getElem?_mem hvn)).1
        have hkeep : ∀ w ∈ vn.sockets, b1.m_socket_map[w.id]? = b.m_socket_map[w.id]? := by
          intro w hw
          have hwpre : w ∈ pre.flatMap VirtualNode.sockets := List.mem_flatMap.mpr ⟨vn, hvnpre, hw⟩
          apply hframe w
          · rw [sockets_split hsplit]
            exact List.mem_append_left _ hwpre
          · left
            intro hc
            exact hfresh w hc hwpre
        obtain ⟨node, hnode, ht1, ht2, hk⟩ := hold.node
        refine ⟨⟨node, ?_, ht1, ht2, hk⟩, ?_, ?_⟩
        · rw [k1, List.getElem?_append_left (by rw [hinv.count]; exact hlt)]
          exact hnode
        · intro k v hv
          rw [hkeep v (List.mem_append_left _ (mem_data_sockets.mp (List.getElem?_mem hv)).1)]
          exact hold.inputs k v hv
        · intro k v hv
          rw [hkeep v (List.mem_append_right _ (mem_data_sockets.mp (List.getElem?_mem hv)).1)]
          exact hold.outputs k v hv
      · rw [List.getElem?_append_right hge] at hvn
        have hn0 : n - (pre.filter VirtualNode.has_data).length = 0 := by
          rcases Nat.eq_zero_or_pos (n - (pre.filter VirtualNode.has_data).length) with h0 | h0
          · exact h0
          · rw [List.getElem?_eq_none (by
              simp only [List.length_singleton]
              omega)] at hvn
            cases hvn
        rw [hn0] at hvn
        simp only [List.getElem?_cons_zero, Option.some.injEq] at hvn
        subst hvn
        have hneq : n = b.m_builder.nodes.length := by
          rw [hinv.count]
          omega
        subst hneq
        refine ⟨⟨node_for kind vnode, ?_, (node_for_types kind vnode).1,
          (node_for_types kind vnode).2, k2⟩, k3, k4⟩
        rw [k1]
        exact getElem?_append_singleton_length _ _
    · intro node hnode s hs
      rw [k1] at hnode
      rcases List.mem_append.mp hnode with hnode | hnode
      · exact hinv.unlinked node hnode s hs
      · rw [List.mem_singleton] at hnode
        subst hnode
        exact node_for_unlinked kind vnode s hs
    · intro v hv hc
      have hc2 : v ∉ vnode.sockets ∨ v.is_data = false := by
        rcases hc with hc | hc
        · left
          intro hc2
          exact hc (by
            rw [List.flatMap_append]
            exact List.mem_append_right _ (by simpa using hc2))
        · exact Or.inr hc
      rw [hframe v hv hc2]
      apply hinv.unmapped v hv
      rcases hc with hc | hc
      · left
        intro hc3
        exact hc (by rw [List.flatMap_append]; exact List.mem_append_left _ hc3)
      · exact Or.inr hc

theorem insert_nodes_loop_append (bodies : FunctionBodies) :
    ∀ (l1 l2 : List VirtualNode) (b : VTreeMFNetworkBuilder),
      insert_nodes_loop bodies (l1 ++ l2) b
        = (insert_nodes_loop bodies l1 b >>= fun b1 => insert_nodes_loop bodies l2 b1) := by
  intro l1
  induction l1 with
  | nil => intro l2 b; rfl
  | cons vnode rest ih =>
    intro l2 b
    simp only [List.cons_append, insert_nodes_loop]
    cases h : insert_node bodies b vnode with
    | error e => rfl
    | ok b1 => simp only [bind_ok]; exact ih l2 b1

/-- The loop of `insert_nodes` over a stretch of the nodes keeps the invariant. -/
theorem insert_nodes_loop_inv (bodies : FunctionBodies) {vtree : VirtualNodeTree}
    (hwf : vtree.well_formed) :
    ∀ (mid pre post : List VirtualNode) (b : VTreeMFNetworkBuilder),
      vtree.nodes = pre ++ (mid ++ post) → NodesInv vtree pre b →
      ∃ b1, insert_nodes_loop bodies mid b = .ok b1 ∧ NodesInv vtree (pre ++ mid) b1 := by
  intro mid
  induction mid with
  | nil =>
    intro pre post b _ hinv
    rw [List.append_nil]
    exact ⟨b, rfl, hinv⟩
  | cons vnode rest ih =>
    intro pre post b hsplit hinv
    obtain ⟨b1, g1, g2⟩ := NodesInv.step bodies hwf hsplit hinv
    obtain ⟨b2, k1, k2⟩ := ih (pre ++ [vnode]) post b1 (by rw [hsplit]; simp) g2
    refine ⟨b2, ?_, by simpa using k2⟩
    simp only [insert_nodes_loop, g1, bind_ok]
    exact k1

theorem NodesInv.initial {vtree : VirtualNodeTree} (hids : vtree.ids_ok)
    {b : VTreeMFNetworkBuilder} (hb : VTreeMFNetworkBuilder.create vtree = .ok b) :
    NodesInv vtree [] b := by
  obtain ⟨b0, h0, h1, h2, h3, h4, h5⟩ := create_spec vtree hids
  rw [hb] at h0
  cases h0
  refine ⟨⟨h1, h5, by rw [h3, List.length_replicate]⟩, by rw [h2]; rfl, ?_, ?_, ?_⟩
  · intro n vnode h
    simp at h
  · intro node hnode
    rw [h2] at hnode
    cases hnode
  · intro v hv _
    rw [h3, List.getElem?_replicate, if_pos (hids.2 v hv)]

/-- On a well-formed graph the constructor and `insert_nodes` succeed,
`insert_nodes` returns true, and the invariant of its loop holds for all nodes. -/
theorem insert_nodes_inv (bodies : FunctionBodies) {vtree : VirtualNodeTree}
    (hwf : vtree.well_formed) :
    ∃ b0 b1, VTreeMFNetworkBuilder.create vtree = .ok b0 ∧
      insert_nodes bodies b0 = .ok (true, b1) ∧ NodesInv vtree vtree.nodes b1 := by
  obtain ⟨b0, h0, h1, _⟩ := create_spec vtree hwf.1
  obtain ⟨b1, g1, g2⟩ := insert_nodes_loop_inv bodies hwf vtree.nodes [] [] b0 (by simp)
    (NodesInv.initial hwf.1 h0)
  refine ⟨b0, b1, h0, ?_, by simpa using g2⟩
  unfold insert_nodes
  rw [h1, g1]
  rfl

theorem inputs_of_types {l : List MFInputSocket} (h : ∀ s ∈ l, s.origin = none) :
    l = (l.map (fun s => s.type)).map (fun t => { type := t, origin := none }) := by
  induction l with
  | nil => rfl
  | cons s rest ih =>
    have hs := h s (List.mem_cons_self _ _)
    simp only [List.map_cons]
    rw [← ih (fun x hx => h x (List.mem_cons_of_mem _ hx))]
    cases s
    simp only at hs
    subst hs
    rfl

theorem outputs_of_types (l : List MFOutputSocket) :
    l = (l.map (fun s => s.type)).map (fun t => { type := t }) := by
  induction l with
  | nil => rfl
  | cons s rest ih =>
    simp only [List.map_cons]
    rw [← ih]

theorem filter_index {vnodes : List VirtualNode} {p : Nat} {vnode : VirtualNode}
    (h : vnodes[p]? = some vnode) (hd : vnode.has_data = true) :
    (vnodes.filter VirtualNode.has_data)[((vnodes.take p).filter VirtualNode.has_data).length]?
      = some vnode := by
  have hp : p < vnodes.length := by
    rcases Nat.lt_or_ge p vnodes.length with hl | hl
    · exact hl
    · rw [List.getElem?_eq_none hl] at h
      cases h
  have hsplit : vnodes = vnodes.take p ++ vnode :: vnodes.drop (p + 1) := by
    have h2 : vnodes[p] = vnode := by
      rw [List.getElem?_eq_getElem hp] at h
      exact Option.some.inj h
    rw [← h2, List.getElem_cons_drop _ _ hp, List.take_append_drop]
  have hfil : vnodes.filter VirtualNode.has_data
      = (vnodes.take p).filter VirtualNode.has_data ++
        vnode :: (vnodes.drop (p + 1)).filter VirtualNode.has_data := by
    conv => lhs; rw [hsplit]
    rw [List.filter_append, List.filter_cons, if_pos hd]
  rw [hfil, List.getElem?_append_right (Nat.le_refl _), Nat.sub_self]
  simp

theorem nodes_split {vnodes : List VirtualNode} {p : Nat} {vnode : VirtualNode}
    (h : vnodes[p]? = some vnode) :
    vnodes = vnodes.take p ++ vnode :: vnodes.drop (p + 1) := by
  have hp : p < vnodes.length := by
    rcases Nat.lt_or_ge p vnodes.length with hl | hl
    · exact hl
    · rw [List.getElem?_eq_none hl] at h
      cases h
  have h2 : vnodes[p] = vnode := by
    rw [List.getElem?_eq_getElem hp] at h
    exact Option.some.inj h
  rw [← h2, List.getElem_cons_drop _ _ hp, List.take_append_drop]

/-- After `insert_nodes`, the builder node of a node of the graph with a data
socket is the one `NodeDone` describes, still without links. -/
theorem NodesInv.node_at {vtree : VirtualNodeTree} {b : VTreeMFNetworkBuilder}
    (hinv : NodesInv vtree vtree.nodes b) {p : Nat} {vnode : VirtualNode}
    (h : vtree.nodes[p]? = some vnode) (hd : vnode.has_data = true) :
    NodeDone b ((vtree.nodes.take p).filter VirtualNode.has_data).length vnode ∧
    ∃ kind, b.m_builder.nodes[((vtree.nodes.take p).filter VirtualNode.has_data).length]?
      = some (node_for kind vnode) ∧
      (vnode.idname ∉ registered_node_idnames → kind = .placeholder) := by
  have hdone := hinv.done _ vnode (filter_index h hd)
  refine ⟨hdone, ?_⟩
  obtain ⟨node, h1, h2, h3, h4⟩ := hdone.node
  refine ⟨node.kind, ?_, h4⟩
  rw [h1]
  have hin := inputs_of_types (hinv.unlinked node (List.getElem?_mem h1))
  have hout := outputs_of_types node.outputs
  rw [h2] at hin
  rw [h3] at hout
  congr 1
  cases node with
  | mk kind inputs outputs =>
    simp only at hin hout
    simp only [node_for, List.map_map] at hin hout ⊢
    rw [hin, hout]
    rfl

/-- C19. Node insertion fallback.  On a well-formed graph the constructor and
`insert_nodes` succeed and `insert_nodes` returns true (it never returns
false).  The run goes through the nodes in order; in the round of a node whose
kind has no entry in the node-inserter registry, the builder gets exactly one
new node when the node has a data socket: a placeholder whose inputs (outputs)
have the types of the data input (output) sockets of the node in their order;
the k-th data input (output) socket is mapped to its k-th input (output), and
this is still so when `insert_nodes` returns.  When the node has no data
socket the round leaves the builder as it is, and none of the sockets of the
node is mapped when `insert_nodes` returns.  The builder then has one node per
node of the graph with a data socket. -/
theorem node_insertion_fallback (bodies : FunctionBodies) (vtree : VirtualNodeTree)
    (hwf : vtree.well_formed) :
    (∀ b r b1, insert_nodes bodies b = .ok (r, b1) → r = true) ∧
    ∃ b0 b1, VTreeMFNetworkBuilder.create vtree = .ok b0 ∧
      insert_nodes bodies b0 = .ok (true, b1) ∧
      b1.m_builder.nodes.length = (vtree.nodes.filter VirtualNode.has_data).length ∧
      ∀ (p : Nat) vnode, vtree.nodes[p]? = some vnode →
        get_node_inserters bodies vnode.idname = none →
        ∃ b2 b3, insert_nodes_loop bodies (vtree.nodes.take p) b0 = .ok b2 ∧
          insert_node bodies b2 vnode = .ok b3 ∧
          insert_nodes_loop bodies (vtree.nodes.drop (p + 1)) b3 = .ok b1 ∧
          (vnode.has_data = true →
            b3.m_builder.nodes = b2.m_builder.nodes ++ [node_for .placeholder vnode] ∧
            b1.m_builder.nodes[b2.m_builder.nodes.length]? = some (node_for .placeholder vnode) ∧
            (∀ (k : Nat) v, (data_sockets vnode.inputs)[k]? = some v →
              b1.m_socket_map[v.id]? = some (some (.input b2.m_builder.nodes.length k))) ∧
            (∀ (k : Nat) v, (data_sockets vnode.outputs)[k]? = some v →
              b1.m_socket_map[v.id]? = some (some (.output b2.m_builder.nodes.length k))) ∧
            (∀ v ∈ vnode.sockets, v.is_data = false → b1.m_socket_map[v.id]? = some none)) ∧
          (vnode.has_data = false →
            b3 = b2 ∧ ∀ v ∈ vnode.sockets, b1.m_socket_map[v.id]? = some none) := by
  constructor
  · intro b r b1 h
    unfold insert_nodes at h
    obtain ⟨b2, _, h⟩ := bind_eq_ok h
    cases h
    rfl
  · obtain ⟨b0, h0, h1, _⟩ := create_spec vtree hwf.1
    have hinit := NodesInv.initial hwf.1 h0
    obtain ⟨b1, g1, g2⟩ := insert_nodes_loop_inv bodies hwf vtree.nodes [] [] b0 (by simp) hinit
    rw [List.nil_append] at g2
    refine ⟨b0, b1, h0, by unfold insert_nodes; rw [h1, g1]; rfl, g2.count, ?_⟩
    intro p vnode hp hreg
    have hsplit := nodes_split hp
    have hn : vnode ∈ vtree.nodes := List.getElem?_mem hp
    have hsub : ∀ v ∈ vnode.sockets, v ∈ vtree.sockets :=
      fun v hv => List.mem_flatMap.mpr ⟨vnode, hn, hv⟩
    obtain ⟨b2, k1, k2⟩ := insert_nodes_loop_inv bodies hwf (vtree.nodes.take p) []
      (vnode :: vtree.nodes.drop (p + 1)) b0 (by simpa using hsplit) hinit
    rw [List.nil_append] at k2
    obtain ⟨b3, m1, m2⟩ := NodesInv.step bodies hwf hsplit k2
    obtain ⟨b4, n1, n2⟩ := insert_nodes_loop_inv bodies hwf (vtree.nodes.drop (p + 1))
      (vtree.nodes.take p ++ [vnode]) [] b3 (by simpa using hsplit) m2
    have hb4 : b4 = b1 := by
      have hrun := g1
      rw [hsplit, insert_nodes_loop_append, k1] at hrun
      simp only [bind_ok, insert_nodes_loop, m1] at hrun
      rw [n1] at hrun
      exact Except.ok.inj hrun
    subst hb4
    obtain ⟨hnd, hfresh⟩ := node_sockets_nodup hwf.1 hsplit
    obtain ⟨b5, s1, _, s3, s4⟩ := insert_node_spec bodies k2.ok hwf.1 hn (hwf.2.2.2.2 vnode hn)
      hnd (fun v hv => k2.unmapped v (hsub v hv) (Or.inl (hfresh v hv)))
    rw [m1] at s1
    cases s1
    refine ⟨b2, b3, k1, m1, n1, ?_, ?_⟩
    · intro hd
      obtain ⟨kind, t1, t2, _⟩ := s4 hd
      have hkind := t2 ((get_node_inserters_eq_none bodies vnode.idname).mp hreg)
      subst hkind
      obtain ⟨hdone, kind, u1, u2⟩ := g2.node_at hp hd
      have hkind := u2 ((get_node_inserters_eq_none bodies vnode.idname).mp hreg)
      subst hkind
      rw [← k2.count] at u1 hdone
      exact ⟨t1, u1, hdone.inputs, hdone.outputs,
        fun v hv hnd => g2.unmapped v (hsub v hv) (Or.inr hnd)⟩
    · intro hd
      exact ⟨s3 hd, fun v hv => g2.unmapped v (hsub v hv) (Or.inr (has_data_false hd v hv))⟩

/-- Witness of `node_insertion_fallback` on the graph `mixed_tree`, whose input
node and output node are of unregistered kinds. -/
theorem node_insertion_fallback_witness :
    Example.mixed_tree.well_formed ∧
      ∃ b0 b1, VTreeMFNetworkBuilder.create Example.mixed_tree = .ok b0 ∧
        insert_nodes Example.bodies b0 = .ok (true, b1) ∧
        b1.m_builder.nodes.length
          = (Example.mixed_tree.nodes.filter VirtualNode.has_data).length :=
  ⟨by decide,
    match (node_insertion_fallback Example.bodies Example.mixed_tree (by decide)).2 with
    | ⟨b0, b1, h0, h1, h2, _⟩ => ⟨b0, b1, h0, h1, h2⟩⟩

/-! ## Freezing the network -/

theorem sockets_before_zero (nodes : List MFNode) : sockets_before nodes 0 = 0 := rfl

theorem sockets_before_succ (node : MFNode) (rest : List MFNode) (n : Nat) :
    sockets_before (node :: rest) (n + 1) = node.socket_count + sockets_before rest n := by
  simp [sockets_before]

theorem socket_by_id_from_input :
    ∀ (nodes : List MFNode) (n0 n : Nat) (node : MFNode) (i : Nat),
      nodes[n]? = some node → i < node.inputs.length →
      socket_by_id_from nodes n0 (sockets_before nodes n + i) = .ok (.input (n0 + n) i) := by
  intro nodes
  induction nodes with
  | nil => intro n0 n node i h; simp at h
  | cons node0 rest ih =>
    intro n0 n node i h hi
    cases n with
    | zero =>
      simp only [List.getElem?_cons_zero, Option.some.injEq] at h
      subst h
      simp only [sockets_before_zero, Nat.zero_add, socket_by_id_from, if_pos hi, Nat.add_zero]
    | succ n =>
      simp only [List.getElem?_cons_succ] at h
      rw [sockets_before_succ]
      unfold MFNode.socket_count
      unfold socket_by_id_from
      rw [if_neg (by omega), if_neg (by omega)]
      have hsub : node0.inputs.length + node0.outputs.length + sockets_before rest n + i
          - (node0.inputs.length + node0.outputs.length) = sockets_before rest n + i := by
        omega
      rw [hsub, ih (n0 + 1) n node i h hi]
      congr 2
      omega

theorem socket_by_id_from_output :
    ∀ (nodes : List MFNode) (n0 n : Nat) (node : MFNode) (j : Nat),
      nodes[n]? = some node → j < node.outputs.length →
      socket_by_id_from nodes n0 (sockets_before nodes n + node.inputs.length + j)
        = .ok (.output (n0 + n) j) := by
  intro nodes
  induction nodes with
  | nil => intro n0 n node j h; simp at h
  | cons node0 rest ih =>
    intro n0 n node j h hj
    cases n with
    | zero =>
      simp only [List.getElem?_cons_zero, Option.some.injEq] at h
      subst h
      simp only [sockets_before_zero, Nat.zero_add, socket_by_id_from, Nat.add_zero]
      rw [if_neg (by omega), if_pos (by omega)]
      congr 2
      omega
    | succ n =>
      simp only [List.getElem?_cons_succ] at h
      rw [sockets_before_succ]
      unfold MFNode.socket_count
      unfold socket_by_id_from
      rw [if_neg (by omega), if_neg (by omega)]
      have hsub : node0.inputs.length + node0.outputs.length + sockets_before rest n
          + node.inputs.length + j - (node0.inputs.length + node0.outputs.length)
          = sockets_before rest n + node.inputs.length + j := by
        omega
      rw [hsub, ih (n0 + 1) n node j h hj]
      congr 2
      omega

/-- The socket with the identifier of a socket of the network is that socket. -/
theorem socket_by_id_socket_id (net : MFNetwork) (s : MFSocket)
    (h : net.has_socket s = true) : net.socket_by_id (net.socket_id s) = .ok s := by
  cases s with
  | input n i =>
    unfold MFNetwork.has_socket at h
    cases hn : net.nodes[n]? with
    | none => simp [hn] at h
    | some node =>
      simp only [hn, decide_eq_true_eq] at h
      have := socket_by_id_from_input net.nodes 0 n node i hn h
      rw [Nat.zero_add] at this
      exact this
  | output n j =>
    unfold MFNetwork.has_socket at h
    cases hn : net.nodes[n]? with
    | none => simp [hn] at h
    | some node =>
      simp only [hn, decide_eq_true_eq] at h
      have := socket_by_id_from_output net.nodes 0 n node j hn h
      rw [Nat.zero_add] at this
      have hget : net.nodes.getD n ⟨.placeholder, [], []⟩ = node := by
        rw [List.getD_eq_getElem?_getD, hn]
        rfl
      simp only [MFNetwork.socket_by_id, MFNetwork.socket_id, hget]
      exact this

theorem socket_ids_of_spec (net : MFNetwork) (map : List (Option MFSocket)) :
    ∀ (l : List Nat), (∀ id ∈ l, id < map.length) →
      socket_ids_of net map l = .ok (l.map (fun id =>
        match map.getD id none with
        | some socket => (net.socket_id socket : Int)
        | none => -1)) := by
  intro l
  induction l with
  | nil => intro _; rfl
  | cons id rest ih =>
    intro h
    have hid := h id (List.mem_cons_self _ _)
    have hget : map[id]? = some (map.getD id none) := by
      rw [List.getD_eq_getElem?_getD, List.getElem?_eq_getElem hid]
      rfl
    simp only [socket_ids_of, index_list_eq_ok.mpr hget, bind_ok,
      ih (fun x hx => h x (List.mem_cons_of_mem _ hx)), List.map_cons]
    cases map.getD id none <;> rfl

theorem socket_map_of_spec (net : MFNetwork) (map : List (Option MFSocket))
    (hvalid : ∀ entry ∈ map, ∀ socket ∈ entry, net.has_socket socket = true) :
    ∀ (l : List Nat), (∀ id ∈ l, id < map.length) →
      socket_map_of net ((List.range map.length).map (fun id =>
        match map.getD id none with
        | some socket => (net.socket_id socket : Int)
        | none => -1)) l = .ok (l.map (fun id => map.getD id none)) := by
  intro l
  induction l with
  | nil => intro _; rfl
  | cons id rest ih =>
    intro h
    have hid := h id (List.mem_cons_self _ _)
    have hget : map[id]? = some (map.getD id none) := by
      rw [List.getD_eq_getElem?_getD, List.getElem?_eq_getElem hid]
      rfl
    have hidx : ((List.range map.length).map (fun id =>
        match map.getD id none with
        | some socket => (net.socket_id socket : Int)
        | none => -1))[id]? = some (match map.getD id none with
        | some socket => (net.socket_id socket : Int)
        | none => -1) := by
      rw [List.getElem?_map, List.getElem?_range hid]
      rfl
    simp only [socket_map_of, index_list_eq_ok.mpr hidx, bind_ok,
      ih (fun x hx => h x (List.mem_cons_of_mem _ hx)), List.map_cons]
    cases hentry : map.getD id none with
    | none => simp
    | some socket =>
      have hs : net.has_socket socket = true :=
        hvalid (some socket) (by rw [← hentry]; exact List.getElem?_mem hget) socket rfl
      have hne : (net.socket_id socket : Int) ≠ -1 := by omega
      simp only [ne_eq, hne, not_false_eq_true, if_true, Int.toNat_ofNat,
        socket_by_id_socket_id net socket hs, bind_ok]

/-- The result of `build` on a builder with a valid socket map: the
network under construction and the socket map itself. -/
theorem build_spec (b : VTreeMFNetworkBuilder) (hvalid : b.map_valid) :
    b.build = .ok ⟨b.m_vtree, b.m_builder, b.m_socket_map⟩ := by
  unfold VTreeMFNetworkBuilder.build
  rw [← hvalid.1, socket_ids_of_spec b.m_builder b.m_socket_map _
    (fun id hid => List.mem_range.mp hid)]
  simp only [bind_ok]
  rw [socket_map_of_spec b.m_builder b.m_socket_map hvalid.2 _
    (fun id hid => List.mem_range.mp hid)]
  simp only [bind_ok]
  congr 2
  apply List.ext_getElem?
  intro k
  rw [List.getElem?_map]
  rcases Nat.lt_or_ge k b.m_socket_map.length with hk | hk
  · rw [List.getElem?_range hk]
    simp only [Option.map_some', List.getD_eq_getElem?_getD, List.getElem?_eq_getElem hk,
      Option.getD_some]
  · rw [List.getElem?_eq_none hk, List.getElem?_eq_none (by simpa using hk)]
    rfl

theorem lookup_socket_of_some {network : VTreeMFNetwork} {vsocket : VirtualSocket}
    {socket : MFSocket} (h : network.m_socket_map[vsocket.id]? = some (some socket)) :
    network.lookup_socket vsocket = .ok socket := by
  unfold VTreeMFNetwork.lookup_socket
  rw [index_list_eq_ok.mpr h]
  rfl

theorem lookup_socket_of_none {network : VTreeMFNetwork} {vsocket : VirtualSocket}
    (h : network.m_socket_map[vsocket.id]? = some none) :
    network.lookup_socket vsocket = .error .key_not_found := by
  unfold VTreeMFNetwork.lookup_socket
  rw [index_list_eq_ok.mpr h]
  rfl

/-- C20. Freeze.  On a builder whose socket map has one entry per socket of
the graph and holds sockets of the network under construction only, `build`
returns; the table of the result has one entry per socket identifier of the
graph; the entry of a socket mapped to the builder socket `s` is the socket of
the network whose identifier is the identifier of `s`, and `lookup_socket`
returns it; the entry of a socket is absent if and only if the socket is not
mapped, and then `lookup_socket` fails. -/
theorem freeze_table (b : VTreeMFNetworkBuilder) (hvalid : b.map_valid) :
    ∃ network, b.build = .ok network ∧ network.m_network = b.m_builder ∧
      network.m_socket_map.length = b.m_vtree.socket_count ∧
      (∀ (vsocket : VirtualSocket) s, b.m_socket_map[vsocket.id]? = some (some s) →
        ∃ entry, network.m_socket_map[vsocket.id]? = some (some entry) ∧
          network.m_network.socket_by_id (b.m_builder.socket_id s) = .ok entry ∧
          network.m_network.socket_id entry = b.m_builder.socket_id s ∧
          network.lookup_socket vsocket = .ok entry) ∧
      (∀ (vsocket : VirtualSocket), vsocket.id < b.m_vtree.socket_count →
        (network.m_socket_map[vsocket.id]? = some none ↔
          b.m_socket_map[vsocket.id]? = some none)) ∧
      (∀ (vsocket : VirtualSocket), b.m_socket_map[vsocket.id]? = some none →
        network.lookup_socket vsocket = .error .key_not_found) := by
  refine ⟨_, build_spec b hvalid, rfl, hvalid.1, ?_, fun _ _ => Iff.rfl, ?_⟩
  · intro vsocket s hs
    have hhas : b.m_builder.has_socket s = true :=
      hvalid.2 (some s) (List.getElem?_mem hs) s rfl
    exact ⟨s, hs, socket_by_id_socket_id _ s hhas, rfl,
      @lookup_socket_of_some ⟨b.m_vtree, b.m_builder, b.m_socket_map⟩ vsocket s hs⟩
  · intro vsocket hs
    exact @lookup_socket_of_none ⟨b.m_vtree, b.m_builder, b.m_socket_map⟩ vsocket hs

/-- Witness of `freeze_table` on the builder that the phases leave for
`mixed_tree`: its socket map is valid, the table has nine entries, and
socket 8, which is not a data socket, has no entry. -/
theorem freeze_table_witness :
    Example.mixed_builder.map_valid ∧
      ∃ network, Example.mixed_builder.build = .ok network ∧
        network.m_socket_map.length = Example.mixed_tree.socket_count ∧
        network.m_socket_map[8]? = some none :=
  ⟨by decide,
    match freeze_table Example.mixed_builder (by decide) with
    | ⟨network, h1, _, h2, _, h4, _⟩ =>
      ⟨network, h1, h2, (h4 ⟨8, "", true, [], 0⟩ (by decide)).mpr rfl⟩⟩

/-! ## The socket map after node insertion -/

theorem lookup_input_socket_eq_ok {b : VTreeMFNetworkBuilder} {v : VirtualSocket}
    {k : InputRef} :
    b.lookup_input_socket v = .ok k ↔
      v.is_input = true ∧ b.m_socket_map[v.id]? = some (some (.input k.1 k.2)) := by
  unfold VTreeMFNetworkBuilder.lookup_input_socket
  cases hi : v.is_input with
  | false => simp
  | true =>
    simp only [Bool.not_true, Bool.false_eq_true, if_false, true_and]
    cases hm : b.m_socket_map[v.id]? with
    | none => simp [index_list, hm]
    | some entry =>
      rw [index_list_eq_ok.mpr hm]
      simp only [bind_ok]
      cases entry with
      | none => simp
      | some socket =>
        cases socket with
        | input n i =>
          simp only [Except.ok.injEq, Option.some.injEq, MFSocket.input.injEq]
          constructor
          · intro h; rw [← h]; exact ⟨rfl, rfl⟩
          · intro h; exact Prod.ext h.1 h.2
        | output n j => simp

theorem lookup_output_socket_eq_ok {b : VTreeMFNetworkBuilder} {v : VirtualSocket}
    {k : OutputRef} :
    b.lookup_output_socket v = .ok k ↔
      v.is_input = false ∧ b.m_socket_map[v.id]? = some (some (.output k.1 k.2)) := by
  unfold VTreeMFNetworkBuilder.lookup_output_socket
  cases hi : v.is_input with
  | true => simp
  | false =>
    simp only [Bool.false_eq_true, if_false, true_and]
    cases hm : b.m_socket_map[v.id]? with
    | none => simp [index_list, hm]
    | some entry =>
      rw [index_list_eq_ok.mpr hm]
      simp only [bind_ok]
      cases entry with
      | none => simp
      | some socket =>
        cases socket with
        | output n i =>
          simp only [Except.ok.injEq, Option.some.injEq, MFSocket.output.injEq]
          constructor
          · intro h; rw [← h]; exact ⟨rfl, rfl⟩
          · intro h; exact Prod.ext h.1 h.2
        | input n j => simp

theorem mem_input_sockets {vtree : VirtualNodeTree} {v : VirtualSocket} :
    v ∈ vtree.input_sockets ↔ ∃ vnode ∈ vtree.nodes, v ∈ vnode.inputs := by
  unfold VirtualNodeTree.input_sockets
  exact List.mem_flatMap

theorem mem_output_sockets {vtree : VirtualNodeTree} {v : VirtualSocket} :
    v ∈ vtree.output_sockets ↔ ∃ vnode ∈ vtree.nodes, v ∈ vnode.outputs := by
  unfold VirtualNodeTree.output_sockets
  exact List.mem_flatMap

theorem input_sockets_sub {vtree : VirtualNodeTree} {v : VirtualSocket}
    (h : v ∈ vtree.input_sockets) : v ∈ vtree.sockets := by
  obtain ⟨vnode, hn, hv⟩ := mem_input_sockets.mp h
  exact mem_sockets_of_mem_inputs hn hv

theorem output_sockets_sub {vtree : VirtualNodeTree} {v : VirtualSocket}
    (h : v ∈ vtree.output_sockets) : v ∈ vtree.sockets := by
  obtain ⟨vnode, hn, hv⟩ := mem_output_sockets.mp h
  exact mem_sockets_of_mem_outputs hn hv

theorem has_data_of_mem_inputs {vnode : VirtualNode} {v : VirtualSocket}
    (hv : v ∈ vnode.inputs) (hd : v.is_data = true) : vnode.has_data = true := by
  unfold VirtualNode.has_data
  rw [Bool.or_eq_true]
  exact Or.inl (List.any_eq_true.mpr ⟨v, hv, hd⟩)

theorem has_data_of_mem_outputs {vnode : VirtualNode} {v : VirtualSocket}
    (hv : v ∈ vnode.outputs) (hd : v.is_data = true) : vnode.has_data = true := by
  unfold VirtualNode.has_data
  rw [Bool.or_eq_true]
  exact Or.inr (List.any_eq_true.mpr ⟨v, hv, hd⟩)

/-- After `insert_nodes` the socket map is as `Mapped` says. -/
theorem NodesInv.mapped {vtree : VirtualNodeTree} (hwf : vtree.well_formed)
    {b : VTreeMFNetworkBuilder} (hinv : NodesInv vtree vtree.nodes b) : Mapped vtree b := by
  have hids := hwf.1
  have hfind : ∀ vnode ∈ vtree.nodes, vnode.has_data = true →
      ∃ n, n < vtree.data_node_count ∧
        (vtree.nodes.filter VirtualNode.has_data)[n]? = some vnode ∧ NodeDone b n vnode := by
    intro vnode hn hd
    obtain ⟨n, hn2⟩ := List.getElem?_of_mem (List.mem_filter.mpr ⟨hn, hd⟩)
    refine ⟨n, ?_, hn2, hinv.done n vnode hn2⟩
    rcases Nat.lt_or_ge n (vtree.nodes.filter VirtualNode.has_data).length with h | h
    · exact h
    · rw [List.getElem?_eq_none h] at hn2; cases hn2
  refine ⟨hinv.ok, by unfold VirtualNodeTree.data_node_count; rw [hinv.count], ?_, ?_, ?_, ?_⟩
  · intro v hv hd
    obtain ⟨vnode, hn, hvn⟩ := mem_input_sockets.mp hv
    obtain ⟨n, hlt, _, hdone⟩ := hfind vnode hn (has_data_of_mem_inputs hvn hd)
    obtain ⟨k, hk⟩ := List.getElem?_of_mem (mem_data_sockets.mpr ⟨hvn, hd⟩)
    obtain ⟨node, hnode, ht, _, _⟩ := hdone.node
    have hs : (node.inputs.map (fun s => s.type))[k]? = some (get_type_by_socket v) := by
      rw [ht, List.getElem?_map, hk]
      rfl
    rw [List.getElem?_map] at hs
    cases hsk : node.inputs[k]? with
    | none => rw [hsk] at hs; cases hs
    | some s =>
      rw [hsk] at hs
      refine ⟨(n, k), s, lookup_input_socket_eq_ok.mpr ⟨hwf.2.1 v hv, hdone.inputs k v hk⟩, hlt,
        input_eq_ok.mpr ⟨node, hnode, hsk⟩, Option.some.inj hs⟩
  · intro v hv hd
    obtain ⟨vnode, hn, hvn⟩ := mem_output_sockets.mp hv
    obtain ⟨n, hlt, _, hdone⟩ := hfind vnode hn (has_data_of_mem_outputs hvn hd)
    obtain ⟨k, hk⟩ := List.getElem?_of_mem (mem_data_sockets.mpr ⟨hvn, hd⟩)
    obtain ⟨node, hnode, _, ht, _⟩ := hdone.node
    have hs : (node.outputs.map (fun s => s.type))[k]? = some (get_type_by_socket v) := by
      rw [ht, List.getElem?_map, hk]
      rfl
    rw [List.getElem?_map] at hs
    cases hsk : node.outputs[k]? with
    | none => rw [hsk] at hs; cases hs
    | some s =>
      rw [hsk] at hs
      refine ⟨(n, k), s, lookup_output_socket_eq_ok.mpr ⟨hwf.2.2.1 v hv, hdone.outputs k v hk⟩,
        hlt, output_eq_ok.mpr ⟨node, hnode, hsk⟩, Option.some.inj hs⟩
  · intro v hv w hw hdv hdw k hkv hkw
    apply hids.inj (input_sockets_sub hv) (input_sockets_sub hw)
    have h1 := (lookup_input_socket_eq_ok.mp hkv).2
    have h2 := (lookup_input_socket_eq_ok.mp hkw).2
    obtain ⟨vn, hn, hvn⟩ := mem_input_sockets.mp hv
    obtain ⟨wn, hm, hwn⟩ := mem_input_sockets.mp hw
    obtain ⟨n, _, hn2, hdone⟩ := hfind vn hn (has_data_of_mem_inputs hvn hdv)
    obtain ⟨m, _, hm2, hdone2⟩ := hfind wn hm (has_data_of_mem_inputs hwn hdw)
    obtain ⟨i, hi⟩ := List.getElem?_of_mem (mem_data_sockets.mpr ⟨hvn, hdv⟩)
    obtain ⟨j, hj⟩ := List.getElem?_of_mem (mem_data_sockets.mpr ⟨hwn, hdw⟩)
    have e1 := hdone.inputs i v hi
    have e2 := hdone2.inputs j w hj
    rw [h1] at e1
    rw [h2] at e2
    simp only [Option.some.injEq, MFSocket.input.injEq] at e1 e2
    have hnm : n = m := by rw [← e1.1, ← e2.1]
    have hij : i = j := by rw [← e1.2, ← e2.2]
    subst hnm hij
    rw [hn2] at hm2
    cases hm2
    rw [hi] at hj
    rw [Option.some.inj hj]
  · intro k s hk hs
    obtain ⟨node, hnode, hsk⟩ := input_eq_ok.mp hs
    have hlt : k.1 < (vtree.nodes.filter VirtualNode.has_data).length := hk
    have hvn : (vtree.nodes.filter VirtualNode.has_data)[k.1]?
        = some ((vtree.nodes.filter VirtualNode.has_data)[k.1]) := List.getElem?_eq_getElem hlt
    have hdone := hinv.done k.1 _ hvn
    have hmem := List.mem_filter.mp (List.getElem?_mem hvn)
    obtain ⟨node2, hnode2, ht, _, _⟩ := hdone.node
    rw [hnode] at hnode2
    cases hnode2
    have hlen : k.2 < (data_sockets ((vtree.nodes.filter VirtualNode.has_data)[k.1]).inputs).length := by
      have h1 : k.2 < node.inputs.length := by
        rcases Nat.lt_or_ge k.2 node.inputs.length with h | h
        · exact h
        · rw [List.getElem?_eq_none h] at hsk; cases hsk
      have h2 := congrArg List.length ht
      simp only [List.length_map] at h2
      omega
    have hv := List.getElem?_eq_getElem hlen
    have hvmem := mem_data_sockets.mp (List.getElem?_mem hv)
    have hvin : (data_sockets ((vtree.nodes.filter VirtualNode.has_data)[k.1]).inputs)[k.2]
        ∈ vtree.input_sockets := mem_input_sockets.mpr ⟨_, hmem.1, hvmem.1⟩
    exact ⟨_, hvin, hvmem.2,
      lookup_input_socket_eq_ok.mpr ⟨hwf.2.1 _ hvin, hdone.inputs k.2 _ hv⟩⟩

/-! ## Adding nodes and links -/

theorem NetGrows.net_refl (a : MFNetwork) : NetGrows a a :=
  ⟨fun _ node h => ⟨node, h, rfl, rfl, rfl, fun _ s hs => ⟨s, hs, rfl, fun _ => rfl⟩⟩⟩

theorem NetGrows.net_trans {a b c : MFNetwork} (h1 : NetGrows a b) (h2 : NetGrows b c) :
    NetGrows a c := by
  constructor
  intro n node hn
  obtain ⟨node1, g1, g2, g3, g4, g5⟩ := h1.nodes n node hn
  obtain ⟨node2, k1, k2, k3, k4, k5⟩ := h2.nodes n node1 g1
  refine ⟨node2, k1, k2.trans g2, k3.trans g3, k4.trans g4, ?_⟩
  intro k s hs
  obtain ⟨s1, m1, m2, m3⟩ := g5 k s hs
  obtain ⟨s2, p1, p2, p3⟩ := k5 k s1 m1
  refine ⟨s2, p1, p2.trans m2, fun hne => ?_⟩
  have e1 := m3 hne
  rw [p3 (by rw [e1]; exact hne), e1]

theorem NetGrows.append_nodes (a : MFNetwork) (nodes : List MFNode) :
    NetGrows a ⟨a.nodes ++ nodes⟩ := by
  constructor
  intro n node hn
  have hlt : n < a.nodes.length := by
    rcases Nat.lt_or_ge n a.nodes.length with h | h
    · exact h
    · rw [List.getElem?_eq_none h] at hn; cases hn
  refine ⟨node, ?_, rfl, rfl, rfl, fun _ s hs => ⟨s, hs, rfl, fun _ => rfl⟩⟩
  show (a.nodes ++ nodes)[n]? = some node
  rw [List.getElem?_append_left hlt]
  exact hn

theorem NetGrows.length {a b : MFNetwork} (h : NetGrows a b) :
    a.nodes.length ≤ b.nodes.length := by
  rcases Nat.lt_or_ge b.nodes.length a.nodes.length with hlt | hge
  · have hn := List.getElem?_eq_getElem hlt
    obtain ⟨node1, g1, _⟩ := h.nodes _ _ hn
    rw [List.getElem?_eq_none (Nat.le_refl _)] at g1
    cases g1
  · exact hge

theorem NetGrows.input {a b : MFNetwork} (h : NetGrows a b) {k : InputRef} {s : MFInputSocket}
    (hs : a.input k = .ok s) :
    ∃ s1, b.input k = .ok s1 ∧ s1.type = s.type ∧ (s.origin ≠ none → s1.origin = s.origin) := by
  obtain ⟨node, hn, hk⟩ := input_eq_ok.mp hs
  obtain ⟨node1, g1, _, _, _, g5⟩ := h.nodes _ _ hn
  obtain ⟨s1, m1, m2, m3⟩ := g5 _ _ hk
  exact ⟨s1, input_eq_ok.mpr ⟨node1, g1, m1⟩, m2, m3⟩

theorem NetGrows.output {a b : MFNetwork} (h : NetGrows a b) {k : OutputRef}
    {s : MFOutputSocket} (hs : a.output k = .ok s) : b.output k = .ok s := by
  obtain ⟨node, hn, hk⟩ := output_eq_ok.mp hs
  obtain ⟨node1, g1, _, g3, _, _⟩ := h.nodes _ _ hn
  exact output_eq_ok.mpr ⟨node1, g1, by rw [g3]; exact hk⟩

/-- An input of one of the nodes that `a` already had is an input of `a`. -/
theorem NetGrows.input_back {a b : MFNetwork} (h : NetGrows a b) {k : InputRef}
    {s1 : MFInputSocket} (hk : k.1 < a.nodes.length) (hs : b.input k = .ok s1) :
    ∃ s, a.input k = .ok s := by
  obtain ⟨node1, hn1, hk1⟩ := input_eq_ok.mp hs
  have hn := List.getElem?_eq_getElem hk
  obtain ⟨node2, g1, _, _, g4, _⟩ := h.nodes _ _ hn
  rw [hn1] at g1
  cases g1
  have hlt : k.2 < (a.nodes[k.1]).inputs.length := by
    rw [← g4]
    rcases Nat.lt_or_ge k.2 node1.inputs.length with h2 | h2
    · exact h2
    · rw [List.getElem?_eq_none h2] at hk1; cases hk1
  exact ⟨_, input_eq_ok.mpr ⟨_, hn, List.getElem?_eq_getElem hlt⟩⟩

/-- Effect of `MFNetworkBuilder::add_link` on an input socket without a link. -/
theorem MFNetwork.add_link_spec {net : MFNetwork} {source : OutputRef} {target : InputRef}
    {so : MFOutputSocket} {s : MFInputSocket} (hso : net.output source = .ok so)
    (hs : net.input target = .ok s) (hnone : s.origin = none) :
    ∃ net1, net.add_link source target = .ok net1 ∧
      net1.nodes.length = net.nodes.length ∧
      net1.input target = .ok { type := s.type, origin := some source } ∧
      (∀ k, k ≠ target → net1.input k = net.input k) ∧
      (∀ k, net1.output k = net.output k) ∧
      (∀ (n : Nat), (net1.nodes[n]?).map MFNode.kind = (net.nodes[n]?).map MFNode.kind) ∧
      (∀ (n : Nat), (net1.nodes[n]?).map (fun node => node.inputs.length)
        = (net.nodes[n]?).map (fun node => node.inputs.length)) ∧
      (∀ (n : Nat), (net1.nodes[n]?).map MFNode.outputs = (net.nodes[n]?).map MFNode.outputs) ∧
      (∀ (n : Nat), n ≠ target.1 → net1.nodes[n]? = net.nodes[n]?) ∧
      NetGrows net net1 := by
  obtain ⟨node, hn, hk⟩ := input_eq_ok.mp hs
  have hnlt : target.1 < net.nodes.length := by
    rcases Nat.lt_or_ge target.1 net.nodes.length with h | h
    · exact h
    · rw [List.getElem?_eq_none h] at hn; cases hn
  have hklt : target.2 < node.inputs.length := by
    rcases Nat.lt_or_ge target.2 node.inputs.length with h | h
    · exact h
    · rw [List.getElem?_eq_none h] at hk; cases hk
  have hrun : net.add_link source target = .ok ⟨net.nodes.set target.1
      ⟨node.kind, node.inputs.set target.2 ⟨s.type, some source⟩, node.outputs⟩⟩ := by
    unfold MFNetwork.add_link
    rw [hso, node_eq_ok.mpr hn]
    simp only [bind_ok, index_list_eq_ok.mpr hk, hnone]
  have hnode : ∀ (n : Nat), (net.nodes.set target.1
      ⟨node.kind, node.inputs.set target.2 ⟨s.type, some source⟩, node.outputs⟩)[n]?
      = if n = target.1 then
          some ⟨node.kind, node.inputs.set target.2 ⟨s.type, some source⟩, node.outputs⟩
        else net.nodes[n]? := by
    intro n
    by_cases hc : n = target.1
    · rw [if_pos hc, hc, List.getElem?_set_eq_of_lt _ hnlt]
    · rw [if_neg hc, List.getElem?_set_ne (fun h => hc h.symm)]
  refine ⟨_, hrun, by simp, ?_, ?_, ?_, ?_, ?_, ?_,
    fun n hne => by rw [hnode, if_neg hne], ?_⟩
  · apply input_eq_ok.mpr
    refine ⟨_, by rw [hnode, if_pos rfl], ?_⟩
    simp only
    rw [List.getElem?_set_eq_of_lt _ hklt]
  · intro k hne
    unfold MFNetwork.input
    simp only [hnode]
    by_cases hc : k.1 = target.1
    · rw [if_pos hc, hc, hn]
      have hk2 : k.2 ≠ target.2 := fun h => hne (Prod.ext hc h)
      simp only
      rw [List.getElem?_set_ne (fun h => hk2 h.symm)]
    · rw [if_neg hc]
  · intro k
    unfold MFNetwork.output
    simp only [hnode]
    by_cases hc : k.1 = target.1
    · rw [if_pos hc, hc, hn]
    · rw [if_neg hc]
  · intro n
    simp only [hnode]
    by_cases hc : n = target.1
    · rw [if_pos hc, hc, hn]
      rfl
    · rw [if_neg hc]
  · intro n
    simp only [hnode]
    by_cases hc : n = target.1
    · rw [if_pos hc, hc, hn]
      simp
    · rw [if_neg hc]
  · intro n
    simp only [hnode]
    by_cases hc : n = target.1
    · rw [if_pos hc, hc, hn]
      rfl
    · rw [if_neg hc]
  · constructor
    intro n node0 hn0
    show ∃ node1, (net.nodes.set target.1 _)[n]? = some node1 ∧ _
    rw [hnode]
    by_cases hc : n = target.1
    · rw [if_pos hc]
      rw [hc, hn] at hn0
      cases hn0
      refine ⟨_, rfl, rfl, rfl, by simp, ?_⟩
      intro k s0 hs0
      simp only
      by_cases hk2 : k = target.2
      · rw [hk2] at hs0 ⊢
        rw [hk] at hs0
        cases hs0
        rw [List.getElem?_set_eq_of_lt _ hklt]
        exact ⟨_, rfl, rfl, fun hne => absurd hnone hne⟩
      · rw [List.getElem?_set_ne (fun h => hk2 h.symm)]
        exact ⟨s0, hs0, rfl, fun _ => rfl⟩
    · rw [if_neg hc]
      exact ⟨node0, hn0, rfl, rfl, rfl, fun _ s0 hs0 => ⟨s0, hs0, rfl, fun _ => rfl⟩⟩

theorem Grows.builder_refl (a : VTreeMFNetworkBuilder) : Grows a a :=
  ⟨rfl, rfl, rfl, NetGrows.net_refl _⟩

theorem Grows.builder_trans {a b c : VTreeMFNetworkBuilder} (h1 : Grows a b) (h2 : Grows b c) :
    Grows a c :=
  ⟨h2.tree.trans h1.tree, h2.map.trans h1.map, h2.types.trans h1.types, h1.net.net_trans h2.net⟩

theorem Grows.lookup_input {a b : VTreeMFNetworkBuilder} (h : Grows a b) (v : VirtualSocket) :
    b.lookup_input_socket v = a.lookup_input_socket v := by
  unfold VTreeMFNetworkBuilder.lookup_input_socket
  rw [h.map]

theorem Grows.lookup_output {a b : VTreeMFNetworkBuilder} (h : Grows a b) (v : VirtualSocket) :
    b.lookup_output_socket v = a.lookup_output_socket v := by
  unfold VTreeMFNetworkBuilder.lookup_output_socket
  rw [h.map]

/-- Adding nodes and links keeps the state of the socket map. -/
theorem Mapped.kept {vtree : VirtualNodeTree} {a b : VTreeMFNetworkBuilder}
    (hm : Mapped vtree a) (h : Grows a b) : Mapped vtree b := by
  refine ⟨⟨h.tree.trans hm.ok.tree, by rw [h.types]; exact hm.ok.types,
    by rw [h.map]; exact hm.ok.map_length⟩, Nat.le_trans hm.count h.net.length, ?_, ?_, ?_, ?_⟩
  · intro v hv hd
    obtain ⟨k, s, g1, g2, g3, g4⟩ := hm.inputs v hv hd
    obtain ⟨s1, m1, m2, _⟩ := h.net.input g3
    exact ⟨k, s1, by rw [h.lookup_input]; exact g1, g2, m1, m2.trans g4⟩
  · intro v hv hd
    obtain ⟨k, s, g1, g2, g3, g4⟩ := hm.outputs v hv hd
    exact ⟨k, s, by rw [h.lookup_output]; exact g1, g2, h.net.output g3, g4⟩
  · intro v hv w hw hdv hdw k hkv hkw
    rw [h.lookup_input] at hkv hkw
    exact hm.inj v hv w hw hdv hdw k hkv hkw
  · intro k s hk hs
    obtain ⟨s0, hs0⟩ := h.net.input_back (Nat.lt_of_lt_of_le hk hm.count) hs
    obtain ⟨v, hv, hd, hl⟩ := hm.covered k s0 hk hs0
    exact ⟨v, hv, hd, by rw [h.lookup_input]; exact hl⟩

theorem input_append_left (net : MFNetwork) (nodes : List MFNode) {k : InputRef}
    (hk : k.1 < net.nodes.length) :
    MFNetwork.input ⟨net.nodes ++ nodes⟩ k = net.input k := by
  unfold MFNetwork.input
  simp only [List.getElem?_append_left hk]

theorem output_append_left (net : MFNetwork) (nodes : List MFNode) {k : OutputRef}
    (hk : k.1 < net.nodes.length) :
    MFNetwork.output ⟨net.nodes ++ nodes⟩ k = net.output k := by
  unfold MFNetwork.output
  simp only [List.getElem?_append_left hk]

theorem input_node_lt {net : MFNetwork} {k : InputRef} {s : MFInputSocket}
    (h : net.input k = .ok s) : k.1 < net.nodes.length := by
  obtain ⟨node, hn, _⟩ := input_eq_ok.mp h
  rcases Nat.lt_or_ge k.1 net.nodes.length with hl | hl
  · exact hl
  · rw [List.getElem?_eq_none hl] at hn; cases hn

theorem output_node_lt {net : MFNetwork} {k : OutputRef} {s : MFOutputSocket}
    (h : net.output k = .ok s) : k.1 < net.nodes.length := by
  obtain ⟨node, hn, _⟩ := output_eq_ok.mp h
  rcases Nat.lt_or_ge k.1 net.nodes.length with hl | hl
  · exact hl
  · rw [List.getElem?_eq_none hl] at hn; cases hn

/-- Linking the socket of a data input that is not linked yet. -/
theorem LinkState.add_link {vtree : VirtualNodeTree} {P : VirtualSocket → Prop}
    {b : VTreeMFNetworkBuilder} (hst : LinkState vtree P b) {t : VirtualSocket}
    (ht : t ∈ vtree.input_sockets) (hd : t.is_data = true) {ts : InputRef}
    (hts : b.lookup_input_socket t = .ok ts) (hP : ¬ P t) {source : OutputRef}
    {so : MFOutputSocket} (hso : b.m_builder.output source = .ok so) :
    ∃ b1 s, b.add_link source ts = .ok b1 ∧ Grows b b1 ∧
      b1.m_builder.nodes.length = b.m_builder.nodes.length ∧
      b.m_builder.input ts = .ok s ∧ s.origin = none ∧
      b1.m_builder.input ts = .ok { type := s.type, origin := some source } ∧
      (∀ k, k ≠ ts → b1.m_builder.input k = b.m_builder.input k) ∧
      (∀ k, b1.m_builder.output k = b.m_builder.output k) ∧
      (∀ (n : Nat), (b1.m_builder.nodes[n]?).map MFNode.kind
        = (b.m_builder.nodes[n]?).map MFNode.kind) ∧
      (∀ (n : Nat), (b1.m_builder.nodes[n]?).map (fun node => node.inputs.length)
        = (b.m_builder.nodes[n]?).map (fun node => node.inputs.length)) ∧
      (∀ (n : Nat), (b1.m_builder.nodes[n]?).map MFNode.outputs
        = (b.m_builder.nodes[n]?).map MFNode.outputs) ∧
      (∀ (n : Nat), n ≠ ts.1 → b1.m_builder.nodes[n]? = b.m_builder.nodes[n]?) ∧
      LinkState vtree (fun v => P v ∨ v = t) b1 := by
  obtain ⟨k0, s, g1, g2, g3, g4⟩ := hst.mapped.inputs t ht hd
  rw [hts] at g1
  cases g1
  have hnone : s.origin = none := by
    by_contra hc
    exact hP ((hst.linked t ht hd ts s hts g3).mp hc)
  obtain ⟨net1, m1, m2, m3, m4, m5, m6, m7, m8, m10, m9⟩ :=
    MFNetwork.add_link_spec hso g3 hnone
  have hrun : b.add_link source ts = .ok { b with m_builder := net1 } := by
    unfold VTreeMFNetworkBuilder.add_link
    rw [m1]
    rfl
  have hgrow : Grows b { b with m_builder := net1 } := ⟨rfl, rfl, rfl, m9⟩
  refine ⟨_, s, hrun, hgrow, m2, g3, hnone, m3, m4, m5, m6, m7, m8, m10,
    hst.mapped.kept hgrow, ?_, ?_⟩
  · intro v hv hdv k s1 hk hs1
    rw [hgrow.lookup_input] at hk
    by_cases hc : k = ts
    · subst hc
      have hvt : v = t := hst.mapped.inj v hv t ht hdv hd k hk hts
      have hs1b : net1.input k = .ok s1 := hs1
      rw [m3] at hs1b
      cases hs1b
      simp [hvt]
    · have hs1b : net1.input k = .ok s1 := hs1
      rw [m4 k hc] at hs1b
      have hvt : v ≠ t := by
        intro hvt
        subst hvt
        rw [hts] at hk
        exact hc (Except.ok.inj hk).symm
      rw [hst.linked v hv hdv k s1 hk hs1b]
      simp [hvt]
  · intro k s1 hk hs1
    have hs1b : net1.input k = .ok s1 := hs1
    have hne : k ≠ ts := by
      intro hc
      subst hc
      omega
    rw [m4 k hne] at hs1b
    exact hst.added k s1 hk hs1b

/-- Appending a node all whose inputs are linked. -/
theorem LinkState.append_node {vtree : VirtualNodeTree} {P : VirtualSocket → Prop}
    {b : VTreeMFNetworkBuilder} (hst : LinkState vtree P b) (node : MFNode)
    (hnode : ∀ s ∈ node.inputs, s.origin ≠ none) :
    Grows b { b with m_builder := ⟨b.m_builder.nodes ++ [node]⟩ } ∧
      LinkState vtree P { b with m_builder := ⟨b.m_builder.nodes ++ [node]⟩ } := by
  have hgrow : Grows b { b with m_builder := ⟨b.m_builder.nodes ++ [node]⟩ } :=
    ⟨rfl, rfl, rfl, NetGrows.append_nodes _ _⟩
  refine ⟨hgrow, hst.mapped.kept hgrow, ?_, ?_⟩
  · intro v hv hdv k s1 hk hs1
    rw [hgrow.lookup_input] at hk
    obtain ⟨k0, s0, g1, g2, g3, _⟩ := hst.mapped.inputs v hv hdv
    rw [hk] at g1
    cases g1
    have hs1b : MFNetwork.input ⟨b.m_builder.nodes ++ [node]⟩ k = .ok s1 := hs1
    rw [input_append_left _ _ (input_node_lt g3)] at hs1b
    exact hst.linked v hv hdv k s1 hk hs1b
  · intro k s1 hk hs1
    have hs1b : MFNetwork.input ⟨b.m_builder.nodes ++ [node]⟩ k = .ok s1 := hs1
    rcases Nat.lt_or_ge k.1 b.m_builder.nodes.length with hlt | hge
    · rw [input_append_left _ _ hlt] at hs1b
      exact hst.added k s1 hk hs1b
    · obtain ⟨node1, hn1, hk1⟩ := input_eq_ok.mp hs1b
      simp only at hn1
      rw [List.getElem?_append_right hge] at hn1
      have hmem := List.getElem?_mem hn1
      rw [List.mem_singleton] at hmem
      subst hmem
      exact hnode s1 (List.getElem?_mem hk1)

/-- The conversion inserter followed by the link into the converter: the
builder gets one new node, the converter with its input linked. -/
theorem convert_link_spec (bodies : FunctionBodies) (from_type to_type : CPPType)
    (b : VTreeMFNetworkBuilder) {source : OutputRef} {so : MFOutputSocket}
    (hso : b.m_builder.output source = .ok so) :
    ∃ b1, INSERT_convert bodies from_type to_type b
        = .ok (b1, (b.m_builder.nodes.length, 0), (b.m_builder.nodes.length, 0)) ∧
      b1.add_link source (b.m_builder.nodes.length, 0)
        = .ok { b with m_builder :=
            ⟨b.m_builder.nodes ++ [converter_node bodies from_type to_type source]⟩ } := by
  have hnode : MFNetwork.node ⟨b.m_builder.nodes ++
      [⟨.function (MultiFunction_Convert bodies from_type to_type) [0] [1],
        [⟨.single from_type, none⟩], [⟨.single to_type⟩]⟩]⟩ b.m_builder.nodes.length
      = .ok ⟨.function (MultiFunction_Convert bodies from_type to_type) [0] [1],
        [⟨.single from_type, none⟩], [⟨.single to_type⟩]⟩ :=
    node_eq_ok.mpr (getElem?_append_singleton_length _ _)
  refine ⟨{ b with m_builder := ⟨b.m_builder.nodes ++
      [⟨.function (MultiFunction_Convert bodies from_type to_type) [0] [1],
        [⟨.single from_type, none⟩], [⟨.single to_type⟩]⟩]⟩ }, ?_, ?_⟩
  · have h1 : socket_types_of_params (MultiFunction_Convert bodies from_type to_type).signature
        [0] = .ok [.single from_type] := rfl
    have h2 : socket_types_of_params (MultiFunction_Convert bodies from_type to_type).signature
        [1] = .ok [.single to_type] := rfl
    unfold INSERT_convert VTreeMFNetworkBuilder.add_function MFNetwork.add_function
    rw [h1, h2]
    simp only [bind_ok, List.map_cons, List.map_nil]
    rw [hnode]
    rfl
  · unfold VTreeMFNetworkBuilder.add_link MFNetwork.add_link
    simp only
    rw [output_append_left _ _ (output_node_lt hso), hso, hnode]
    simp only [bind_ok, index_list, List.getElem?_cons_zero, List.set_cons_zero]
    congr 3
    rw [List.set_append_right _ _ (Nat.le_refl _), Nat.sub_self]
    rfl

/-- A default-value inserter adds one node without inputs and returns its output. -/
theorem unlinked_input_inserter_spec (bodies : FunctionBodies) (vsocket : VirtualSocket)
    (hd : vsocket.is_data = true) (b : VTreeMFNetworkBuilder) :
    ∃ inserter, get_unlinked_input_inserter bodies vsocket.idname = some inserter ∧
      inserter b vsocket = .ok ({ b with m_builder := ⟨b.m_builder.nodes ++
          [default_node (default_function bodies vsocket) (get_type_by_socket vsocket)]⟩ },
        (b.m_builder.nodes.length, 0)) := by
  have hconst : ∀ (type : CPPType), INSERT_constant_socket bodies type b vsocket
      = .ok ({ b with m_builder := ⟨b.m_builder.nodes ++
          [default_node (MultiFunction_ConstantValue bodies type vsocket.value)
            (.single type)]⟩ }, (b.m_builder.nodes.length, 0)) := by
    intro type
    have hnode : MFNetwork.node ⟨b.m_builder.nodes ++
        [default_node (MultiFunction_ConstantValue bodies type vsocket.value) (.single type)]⟩
        b.m_builder.nodes.length
        = .ok (default_node (MultiFunction_ConstantValue bodies type vsocket.value)
          (.single type)) :=
      node_eq_ok.mpr (getElem?_append_singleton_length _ _)
    have h1 : socket_types_of_params
        (MultiFunction_ConstantValue bodies type vsocket.value).signature [] = .ok [] := rfl
    have h2 : socket_types_of_params
        (MultiFunction_ConstantValue bodies type vsocket.value).signature [0]
        = .ok [.single type] := rfl
    unfold INSERT_constant_socket VTreeMFNetworkBuilder.add_function MFNetwork.add_function
    rw [h1, h2]
    simp only [bind_ok, List.map_cons, List.map_nil]
    unfold default_node at hnode
    rw [hnode]
    rfl
  have hempty : ∀ (type : CPPType), INSERT_empty_list_socket bodies type b vsocket
      = .ok ({ b with m_builder := ⟨b.m_builder.nodes ++
          [default_node (MultiFunction_EmptyList bodies type) (.vector type)]⟩ },
        (b.m_builder.nodes.length, 0)) := by
    intro type
    have hnode : MFNetwork.node ⟨b.m_builder.nodes ++
        [default_node (MultiFunction_EmptyList bodies type) (.vector type)]⟩
        b.m_builder.nodes.length
        = .ok (default_node (MultiFunction_EmptyList bodies type) (.vector type)) :=
      node_eq_ok.mpr (getElem?_append_singleton_length _ _)
    have h1 : socket_types_of_params (MultiFunction_EmptyList bodies type).signature []
        = .ok [] := rfl
    have h2 : socket_types_of_params (MultiFunction_EmptyList bodies type).signature [0]
        = .ok [.vector type] := rfl
    unfold INSERT_empty_list_socket VTreeMFNetworkBuilder.add_function MFNetwork.add_function
    rw [h1, h2]
    simp only [bind_ok, List.map_cons, List.map_nil]
    unfold default_node at hnode
    rw [hnode]
    rfl
  rw [is_data_iff_idname, decide_eq_true_eq] at hd
  unfold data_socket_idnames at hd
  simp only [List.mem_cons, List.mem_singleton, List.not_mem_nil, or_false] at hd
  rcases hd with h | h | h | h | h | h
  · have ht : get_type_by_socket vsocket = .single .float := by
      unfold get_type_by_socket; simp [h]
    simp only [default_function, ht]
    exact ⟨INSERT_float_socket bodies,
      by unfold get_unlinked_input_inserter; simp [h], hconst .float⟩
  · have ht : get_type_by_socket vsocket = .single .float3 := by
      unfold get_type_by_socket; simp [h]
    simp only [default_function, ht]
    exact ⟨INSERT_vector_socket bodies,
      by unfold get_unlinked_input_inserter; simp [h], hconst .float3⟩
  · have ht : get_type_by_socket vsocket = .single .int32 := by
      unfold get_type_by_socket; simp [h]
    simp only [default_function, ht]
    exact ⟨INSERT_int_socket bodies,
      by unfold get_unlinked_input_inserter; simp [h], hconst .int32⟩
  · have ht : get_type_by_socket vsocket = .vector .float := by
      unfold get_type_by_socket; simp [h]
    simp only [default_function, ht]
    exact ⟨INSERT_empty_list_socket bodies .float,
      by unfold get_unlinked_input_inserter; simp [h], hempty .float⟩
  · have ht : get_type_by_socket vsocket = .vector .float3 := by
      unfold get_type_by_socket; simp [h]
    simp only [default_function, ht]
    exact ⟨INSERT_empty_list_socket bodies .float3,
      by unfold get_unlinked_input_inserter; simp [h], hempty .float3⟩
  · have ht : get_type_by_socket vsocket = .vector .int32 := by
      unfold get_type_by_socket; simp [h]
    simp only [default_function, ht]
    exact ⟨INSERT_empty_list_socket bodies .int32,
      by unfold get_unlinked_input_inserter; simp [h], hempty .int32⟩

/-! ## Link insertion -/

theorem socket_by_id_of_mem {vtree : VirtualNodeTree} (hids : vtree.ids_ok)
    {v : VirtualSocket} (hv : v ∈ vtree.sockets) : vtree.socket_by_id v.id = some v := by
  unfold VirtualNodeTree.socket_by_id
  cases h : vtree.sockets.find? (fun vsocket => vsocket.id == v.id) with
  | none =>
    have := List.find?_eq_none.mp h v hv
    simp at this
  | some w =>
    have hw := List.mem_of_find?_eq_some h
    have hid := List.find?_some h
    simp only [beq_iff_eq] at hid
    rw [hids.inj hw hv hid]

theorem mem_inputs_with_links {vtree : VirtualNodeTree} {t : VirtualSocket} :
    t ∈ vtree.inputs_with_links ↔ t ∈ vtree.input_sockets ∧ 0 < t.links.length := by
  unfold VirtualNodeTree.inputs_with_links VirtualNodeTree.input_sockets
  rw [List.mem_filter]
  simp

/-- An input socket with more than one incoming link is passed over. -/
theorem insert_link_fan_in (bodies : FunctionBodies) (b : VTreeMFNetworkBuilder)
    {t : VirtualSocket} (h : 1 < t.links.length) : insert_link bodies b t = .ok (true, b) := by
  unfold insert_link
  rw [if_pos h]

/-- A linked input socket that is not a data socket is passed over. -/
theorem insert_link_not_data (bodies : FunctionBodies) {vtree : VirtualNodeTree}
    {b : VTreeMFNetworkBuilder} (hb : BuilderOk vtree b) {t : VirtualSocket}
    (ht : t ∈ vtree.input_sockets) (hlen : t.links.length = 1) (hd : t.is_data = false) :
    insert_link bodies b t = .ok (true, b) := by
  unfold insert_link
  rw [if_neg (by omega), if_neg (by omega), hb.is_data_socket_eq (input_sockets_sub ht)]
  simp [hd]

/-- The beginning of a round of `insert_links` on a data input with one
incoming link, from the socket `f`. -/
theorem insert_link_one (bodies : FunctionBodies) {vtree : VirtualNodeTree}
    (hids : vtree.ids_ok) {b : VTreeMFNetworkBuilder} (hb : BuilderOk vtree b)
    {t f : VirtualSocket} (ht : t ∈ vtree.input_sockets) (hf : f ∈ vtree.output_sockets)
    (hlinks : t.links = [f.id]) (hd : t.is_data = true) :
    insert_link bodies b t =
      (if f.is_data = false then .ok (false, b)
      else do
        let from_socket ← b.lookup_output_socket f
        let to_socket ← b.lookup_input_socket t
        let from_type ← b.m_builder.output from_socket
        let to_type ← b.m_builder.input to_socket
        if from_type.type = to_type.type then do
          let builder ← b.add_link from_socket to_socket
          .ok (true, builder)
        else
          match get_conversion_inserters bodies (f.idname, t.idname) with
          | none => .ok (false, b)
          | some inserter => do
            let (builder, new_input, new_output) ← inserter b
            let builder ← builder.add_link from_socket new_input
            let builder ← builder.add_link new_output to_socket
            .ok (true, builder)) := by
  unfold insert_link
  have hlen : t.links.length = 1 := by rw [hlinks]; rfl
  rw [if_neg (by omega), if_neg (by omega), hb.is_data_socket_eq (input_sockets_sub ht)]
  have hidx : index_list t.links 0 = .ok f.id := by rw [hlinks]; rfl
  simp only [bind_ok, hd, Bool.not_true, Bool.false_eq_true, if_false, hidx, hb.tree,
    socket_by_id_of_mem hids (output_sockets_sub hf),
    hb.is_data_socket_eq (output_sockets_sub hf)]
  cases f.is_data <;> rfl

/-- A data input whose one incoming link comes from a socket that is not a
data socket makes `insert_links` return false. -/
theorem insert_link_structural_source (bodies : FunctionBodies) {vtree : VirtualNodeTree}
    (hids : vtree.ids_ok) {b : VTreeMFNetworkBuilder} (hb : BuilderOk vtree b)
    {t f : VirtualSocket} (ht : t ∈ vtree.input_sockets) (hf : f ∈ vtree.output_sockets)
    (hlinks : t.links = [f.id]) (hd : t.is_data = true) (hfd : f.is_data = false) :
    insert_link bodies b t = .ok (false, b) := by
  rw [insert_link_one bodies hids hb ht hf hlinks hd, if_pos hfd]

/-- The round of `insert_links` on a data input with one incoming link from a
data output, in terms of the builder sockets of the two. -/
theorem insert_link_data (bodies : FunctionBodies) {vtree : VirtualNodeTree}
    (hids : vtree.ids_ok) {b : VTreeMFNetworkBuilder} (hm : Mapped vtree b)
    {t f : VirtualSocket} (ht : t ∈ vtree.input_sockets) (hf : f ∈ vtree.output_sockets)
    (hlinks : t.links = [f.id]) (hd : t.is_data = true) (hfd : f.is_data = true) :
    ∃ fs ts so si, b.lookup_output_socket f = .ok fs ∧ b.lookup_input_socket t = .ok ts ∧
      b.m_builder.output fs = .ok so ∧ b.m_builder.input ts = .ok si ∧
      so.type = get_type_by_socket f ∧ si.type = get_type_by_socket t ∧
      insert_link bodies b t =
        (if so.type = si.type then do
          let builder ← b.add_link fs ts
          .ok (true, builder)
        else
          match get_conversion_inserters bodies (f.idname, t.idname) with
          | none => .ok (false, b)
          | some inserter => do
            let (builder, new_input, new_output) ← inserter b
            let builder ← builder.add_link fs new_input
            let builder ← builder.add_link new_output ts
            .ok (true, builder)) := by
  obtain ⟨fs, so, g1, _, g3, g4⟩ := hm.outputs f hf hfd
  obtain ⟨ts, si, k1, _, k3, k4⟩ := hm.inputs t ht hd
  refine ⟨fs, ts, so, si, g1, k1, g3, k3, g4, k4, ?_⟩
  rw [insert_link_one bodies hids hm.ok ht hf hlinks hd, if_neg (by rw [hfd]; simp), g1, k1]
  simp only [bind_ok, g3, k3]

theorem get_conversion_inserters_eq_some (bodies : FunctionBodies) (key : String × String) :
    (get_conversion_inserters bodies key = none ↔ key ≠ ("fn_IntegerSocket", "fn_FloatSocket")) ∧
    (key = ("fn_IntegerSocket", "fn_FloatSocket") →
      get_conversion_inserters bodies key = some (INSERT_convert bodies .int32 .float)) := by
  unfold get_conversion_inserters
  by_cases h : key = ("fn_IntegerSocket", "fn_FloatSocket")
  · rw [if_pos h]
    simp [h]
  · rw [if_neg h]
    simp [h]

theorem flatMap_sublist {α β : Type} (f g : α → List β) (h : ∀ x, (f x).Sublist (g x)) :
    ∀ (l : List α), (l.flatMap f).Sublist (l.flatMap g) := by
  intro l
  induction l with
  | nil => exact List.Sublist.refl _
  | cons x rest ih =>
    rw [List.flatMap_cons, List.flatMap_cons]
    exact List.Sublist.append (h x) ih

theorem input_sockets_nodup {vtree : VirtualNodeTree} (hids : vtree.ids_ok) :
    vtree.input_sockets.Nodup := by
  have h1 : vtree.sockets.Nodup := hids.1.of_map _
  exact List.Nodup.sublist
    (flatMap_sublist _ _ (fun vnode => List.sublist_append_left _ _) vtree.nodes) h1

theorem inputs_with_links_nodup {vtree : VirtualNodeTree} (hids : vtree.ids_ok) :
    vtree.inputs_with_links.Nodup := by
  unfold VirtualNodeTree.inputs_with_links
  exact List.Nodup.filter _ (input_sockets_nodup hids)

theorem loop_until_false_append
    (body : VTreeMFNetworkBuilder → VirtualSocket → Except EvalError (Bool × VTreeMFNetworkBuilder)) :
    ∀ (l1 l2 : List VirtualSocket) (b : VTreeMFNetworkBuilder),
      loop_until_false body (l1 ++ l2) b
        = (loop_until_false body l1 b >>= fun r =>
            if r.1 then loop_until_false body l2 r.2 else .ok (false, r.2)) := by
  intro l1
  induction l1 with
  | nil => intro l2 b; rfl
  | cons v rest ih =>
    intro l2 b
    simp only [List.cons_append, loop_until_false]
    cases h : body b v with
    | error e => rfl
    | ok r =>
      obtain ⟨go_on, b1⟩ := r
      simp only [bind_ok]
      cases go_on with
      | true => simp only [if_true]; exact ih l2 b1
      | false => rfl

/-- If the loop returns true, every round returned true: the run splits at
each socket of the list. -/
theorem loop_until_false_split
    {body : VTreeMFNetworkBuilder → VirtualSocket → Except EvalError (Bool × VTreeMFNetworkBuilder)}
    {pre post : List VirtualSocket} {t : VirtualSocket} {b0 b2 : VTreeMFNetworkBuilder}
    (h : loop_until_false body (pre ++ t :: post) b0 = .ok (true, b2)) :
    ∃ b b1, loop_until_false body pre b0 = .ok (true, b) ∧ body b t = .ok (true, b1) ∧
      loop_until_false body post b1 = .ok (true, b2) := by
  rw [loop_until_false_append] at h
  obtain ⟨r, h1, h2⟩ := bind_eq_ok h
  obtain ⟨go_on, b⟩ := r
  cases go_on with
  | false => simp at h2
  | true =>
    simp only [if_true, loop_until_false] at h2
    obtain ⟨r1, h3, h4⟩ := bind_eq_ok h2
    obtain ⟨go_on1, b1⟩ := r1
    cases go_on1 with
    | false => simp at h4
    | true =>
      simp only [if_true] at h4
      exact ⟨b, b1, h1, h3, h4⟩

/-- A loop that stops at the first round that says false, with an invariant
indexed by the sockets gone through. -/
theorem loop_until_false_inv
    {body : VTreeMFNetworkBuilder → VirtualSocket → Except EvalError (Bool × VTreeMFNetworkBuilder)}
    {Inv : List VirtualSocket → VTreeMFNetworkBuilder → Prop} :
    ∀ (mid pre : List VirtualSocket) (b : VTreeMFNetworkBuilder),
      (∀ pre1 t post1 b1, mid = pre1 ++ t :: post1 → Inv (pre ++ pre1) b1 →
        ∃ r b2, body b1 t = .ok (r, b2) ∧ (r = true → Inv (pre ++ pre1 ++ [t]) b2) ∧
          (r = false → b2 = b1)) →
      Inv pre b →
      ∃ r b1, loop_until_false body mid b = .ok (r, b1) ∧
        (r = true → Inv (pre ++ mid) b1) ∧
        (r = false → ∃ pre1 t post1, mid = pre1 ++ t :: post1 ∧ Inv (pre ++ pre1) b1 ∧
          loop_until_false body pre1 b = .ok (true, b1) ∧ body b1 t = .ok (false, b1)) := by
  intro mid
  induction mid with
  | nil =>
    intro pre b _ hinv
    exact ⟨true, b, rfl, fun _ => by simpa using hinv, fun h => by cases h⟩
  | cons t rest ih =>
    intro pre b hstep hinv
    obtain ⟨r, b2, h1, h2, h3⟩ := hstep [] t rest b rfl (by simpa using hinv)
    cases r with
    | false =>
      have hb := h3 rfl
      subst hb
      refine ⟨false, b2, by simp [loop_until_false, h1], fun h => (by cases h), fun _ => ?_⟩
      exact ⟨[], t, rest, rfl, by simpa using hinv, rfl, h1⟩
    | true =>
      have hinv2 := h2 rfl
      rw [List.append_nil] at hinv2
      obtain ⟨r, b3, k1, k2, k3⟩ := ih (pre ++ [t]) b2
        (by
          intro pre1 t1 post1 b1 hsplit hi
          have := hstep (t :: pre1) t1 post1 b1 (by rw [hsplit]; rfl) (by simpa using hi)
          simpa using this)
        hinv2
      refine ⟨r, b3, by simp [loop_until_false, h1, k1], ?_, ?_⟩
      · intro hr
        simpa using k2 hr
      · intro hr
        obtain ⟨pre1, t1, post1, m1, m2, m3, m4⟩ := k3 hr
        refine ⟨t :: pre1, t1, post1, by rw [m1]; rfl, by simpa using m2, ?_, m4⟩
        simp [loop_until_false, h1, m3]

theorem LinkState.congr_pred {vtree : VirtualNodeTree} {P Q : VirtualSocket → Prop}
    {b : VTreeMFNetworkBuilder} (hst : LinkState vtree P b)
    (h : ∀ v ∈ vtree.input_sockets, v.is_data = true → (P v ↔ Q v)) : LinkState vtree Q b :=
  ⟨hst.mapped, fun v hv hd k s hk hs => (hst.linked v hv hd k s hk hs).trans (h v hv hd),
    hst.added⟩

/-- The source of a link of a well-formed graph. -/
theorem link_source {vtree : VirtualNodeTree} (hwf : vtree.well_formed) {t : VirtualSocket}
    (ht : t ∈ vtree.input_sockets) (hlen : t.links.length = 1) :
    ∃ f ∈ vtree.output_sockets, t.links = [f.id] := by
  cases hl : t.links with
  | nil => rw [hl] at hlen; cases hlen
  | cons id rest =>
    cases rest with
    | cons _ _ => rw [hl] at hlen; simp at hlen
    | nil =>
      obtain ⟨f, hf, hid⟩ := hwf.2.2.2.1 t ht id (by rw [hl]; exact List.mem_cons_self _ _)
      exact ⟨f, hf, by rw [hid]⟩

/-- The round of `insert_links` on a data input with one incoming link from a
data output whose builder socket has the same type: one link is added. -/
theorem insert_link_direct (bodies : FunctionBodies) {vtree : VirtualNodeTree}
    (hids : vtree.ids_ok) {P : VirtualSocket → Prop} {b : VTreeMFNetworkBuilder}
    (hst : LinkState vtree P b) {t f : VirtualSocket} (ht : t ∈ vtree.input_sockets)
    (hf : f ∈ vtree.output_sockets) (hlinks : t.links = [f.id]) (hd : t.is_data = true)
    (hfd : f.is_data = true) (hP : ¬ P t) {fs : OutputRef} {ts : InputRef}
    {so : MFOutputSocket} {si : MFInputSocket} (hfs : b.lookup_output_socket f = .ok fs)
    (hts : b.lookup_input_socket t = .ok ts) (hso : b.m_builder.output fs = .ok so)
    (hsi : b.m_builder.input ts = .ok si) (heq : so.type = si.type) :
    ∃ b1, insert_link bodies b t = .ok (true, b1) ∧ Grows b b1 ∧
      b1.m_builder.nodes.length = b.m_builder.nodes.length ∧ si.origin = none ∧
      b1.m_builder.input ts = .ok { type := si.type, origin := some fs } ∧
      (∀ k, k ≠ ts → b1.m_builder.input k = b.m_builder.input k) ∧
      (∀ k, b1.m_builder.output k = b.m_builder.output k) ∧
      LinkState vtree (fun v => P v ∨ v = t) b1 := by
  obtain ⟨fs1, ts1, so1, si1, g1, g2, g3, g4, _, _, g7⟩ :=
    insert_link_data bodies hids hst.mapped ht hf hlinks hd hfd
  rw [hfs] at g1
  rw [hts] at g2
  cases g1
  cases g2
  rw [hso] at g3
  rw [hsi] at g4
  cases g3
  cases g4
  obtain ⟨b1, s, m1, m2, m3, m4, m5, m6, m7, m8, _, _, _, _, m9⟩ :=
    hst.add_link ht hd hts hP hso
  rw [hsi] at m4
  cases m4
  refine ⟨b1, ?_, m2, m3, m5, m6, m7, m8, m9⟩
  rw [g7, if_pos heq, m1]
  rfl

/-- The round of `insert_links` on a data input with one incoming link from a
data output whose builder socket has another type, when the conversion
registry has an entry for the two kinds: the converter node is added with its
input linked from the source, and its output is linked into the input. -/
theorem insert_link_convert (bodies : FunctionBodies) {vtree : VirtualNodeTree}
    (hids : vtree.ids_ok) {P : VirtualSocket → Prop} {b : VTreeMFNetworkBuilder}
    (hst : LinkState vtree P b) {t f : VirtualSocket} (ht : t ∈ vtree.input_sockets)
    (hf : f ∈ vtree.output_sockets) (hlinks : t.links = [f.id]) (hd : t.is_data = true)
    (hfd : f.is_data = true) (hP : ¬ P t) {fs : OutputRef} {ts : InputRef}
    {so : MFOutputSocket} {si : MFInputSocket} (hfs : b.lookup_output_socket f = .ok fs)
    (hts : b.lookup_input_socket t = .ok ts) (hso : b.m_builder.output fs = .ok so)
    (hsi : b.m_builder.input ts = .ok si) (hne : so.type ≠ si.type)
    (hreg : (f.idname, t.idname) = ("fn_IntegerSocket", "fn_FloatSocket")) :
    ∃ b1, insert_link bodies b t = .ok (true, b1) ∧ Grows b b1 ∧
      b1.m_builder.nodes.length = b.m_builder.nodes.length + 1 ∧ si.origin = none ∧
      b1.m_builder.nodes[b.m_builder.nodes.length]?
        = some (converter_node bodies .int32 .float fs) ∧
      b1.m_builder.input ts
        = .ok { type := si.type, origin := some (b.m_builder.nodes.length, 0) } ∧
      (∀ k, k ≠ ts → k.1 < b.m_builder.nodes.length →
        b1.m_builder.input k = b.m_builder.input k) ∧
      (∀ k, k.1 < b.m_builder.nodes.length → b1.m_builder.output k = b.m_builder.output k) ∧
      LinkState vtree (fun v => P v ∨ v = t) b1 := by
  obtain ⟨fs1, ts1, so1, si1, g1, g2, g3, g4, _, _, g7⟩ :=
    insert_link_data bodies hids hst.mapped ht hf hlinks hd hfd
  rw [hfs] at g1
  rw [hts] at g2
  cases g1
  cases g2
  rw [hso] at g3
  rw [hsi] at g4
  cases g3
  cases g4
  obtain ⟨b0, c1, c2⟩ := convert_link_spec bodies .int32 .float b hso
  have hconv : ∀ s ∈ (converter_node bodies .int32 .float fs).inputs, s.origin ≠ none := by
    intro s hs
    simp only [converter_node, List.mem_singleton] at hs
    subst hs
    simp
  obtain ⟨hgrow, hst1⟩ := hst.append_node _ hconv
  have hts1 : VTreeMFNetworkBuilder.lookup_input_socket
      { b with m_builder := ⟨b.m_builder.nodes ++ [converter_node bodies .int32 .float fs]⟩ } t
      = .ok ts := by
    rw [hgrow.lookup_input]
    exact hts
  have hnew : MFNetwork.output
      ⟨b.m_builder.nodes ++ [converter_node bodies .int32 .float fs]⟩
      (b.m_builder.nodes.length, 0) = .ok ⟨.single .float⟩ :=
    output_eq_ok.mpr ⟨_, getElem?_append_singleton_length _ _, rfl⟩
  obtain ⟨b1, s, m1, m2, m3, m4, m5, m6, m7, m8, _, _, _, m9, m10⟩ :=
    hst1.add_link ht hd hts1 hP hnew
  have hts_lt := input_node_lt hsi
  have m4b : b.m_builder.input ts = .ok s := by
    rw [← input_append_left _ [converter_node bodies .int32 .float fs] hts_lt]
    exact m4
  rw [hsi] at m4b
  cases m4b
  refine ⟨b1, ?_, hgrow.builder_trans m2, ?_, m5, ?_, m6, ?_, ?_, m10⟩
  · rw [g7, if_neg hne, (get_conversion_inserters_eq_some bodies _).2 hreg]
    simp only [c1, bind_ok, c2, m1]
  · rw [m3]
    simp
  · rw [m9 _ (by intro hc; rw [hc] at hts_lt; exact Nat.lt_irrefl _ hts_lt)]
    exact getElem?_append_singleton_length _ _
  · intro k hk hlt
    rw [m7 k hk]
    exact input_append_left _ _ hlt
  · intro k hlt
    rw [m8 k]
    exact output_append_left _ _ hlt

/-- One round of the loop of `insert_links` keeps the state of the links:
afterwards the sockets of the data inputs gone through that have exactly one
incoming link are linked, and no other socket of a data input is. -/
theorem insert_link_step (bodies : FunctionBodies) {vtree : VirtualNodeTree}
    (hwf : vtree.well_formed) {done : List VirtualSocket} {b : VTreeMFNetworkBuilder}
    (hst : LinkState vtree (fun v => v ∈ done ∧ v.links.length = 1) b) {t : VirtualSocket}
    (ht : t ∈ vtree.inputs_with_links) (hnew : t ∉ done) :
    ∃ r b1, insert_link bodies b t = .ok (r, b1) ∧ Grows b b1 ∧
      (r = true → LinkState vtree (fun v => v ∈ done ++ [t] ∧ v.links.length = 1) b1) ∧
      (r = false → b1 = b) := by
  obtain ⟨hin, hpos⟩ := mem_inputs_with_links.mp ht
  have hskip : (t.is_data = false ∨ t.links.length ≠ 1) →
      LinkState vtree (fun v => v ∈ done ++ [t] ∧ v.links.length = 1) b := by
    intro hc
    apply hst.congr_pred
    intro v _ hd
    constructor
    · intro h
      exact ⟨List.mem_append_left _ h.1, h.2⟩
    · intro h
      refine ⟨?_, h.2⟩
      rcases List.mem_append.mp h.1 with h1 | h1
      · exact h1
      · rw [List.mem_singleton] at h1
        subst h1
        rcases hc with hc | hc
        · rw [hc] at hd; cases hd
        · exact absurd h.2 hc
  have hlink : ∀ b1, LinkState vtree (fun v => (v ∈ done ∧ v.links.length = 1) ∨ v = t) b1 →
      t.links.length = 1 →
      LinkState vtree (fun v => v ∈ done ++ [t] ∧ v.links.length = 1) b1 := by
    intro b1 h1 hlen
    apply h1.congr_pred
    intro v _ _
    constructor
    · intro h
      rcases h with h | h
      · exact ⟨List.mem_append_left _ h.1, h.2⟩
      · subst h
        exact ⟨List.mem_append_right _ (List.mem_singleton_self _), hlen⟩
    · intro h
      rcases List.mem_append.mp h.1 with h1 | h1
      · exact Or.inl ⟨h1, h.2⟩
      · exact Or.inr (List.mem_singleton.mp h1)
  by_cases hfan : 1 < t.links.length
  · exact ⟨true, b, insert_link_fan_in bodies b hfan, Grows.builder_refl b,
      fun _ => hskip (Or.inr (by omega)), fun h => by cases h⟩
  · have hlen : t.links.length = 1 := by omega
    cases hd : t.is_data with
    | false =>
      exact ⟨true, b, insert_link_not_data bodies hst.mapped.ok hin hlen hd, Grows.builder_refl b,
        fun _ => hskip (Or.inl hd), fun h => by cases h⟩
    | true =>
      obtain ⟨f, hf, hlinks⟩ := link_source hwf hin hlen
      cases hfd : f.is_data with
      | false =>
        exact ⟨false, b,
          insert_link_structural_source bodies hwf.1 hst.mapped.ok hin hf hlinks hd hfd,
          Grows.builder_refl b, fun h => (by cases h), fun _ => rfl⟩
      | true =>
        obtain ⟨fs, ts, so, si, g1, g2, g3, g4, _, _, g7⟩ :=
          insert_link_data bodies hwf.1 hst.mapped hin hf hlinks hd hfd
        have hP : ¬ (t ∈ done ∧ t.links.length = 1) := fun h => hnew h.1
        by_cases heq : so.type = si.type
        · obtain ⟨b1, m1, m2, _, _, _, _, _, m8⟩ :=
            insert_link_direct bodies hwf.1 hst hin hf hlinks hd hfd hP g1 g2 g3 g4 heq
          exact ⟨true, b1, m1, m2, fun _ => hlink b1 m8 hlen, fun h => by cases h⟩
        · by_cases hreg : (f.idname, t.idname) = ("fn_IntegerSocket", "fn_FloatSocket")
          · obtain ⟨b1, m1, m2, _, _, _, _, _, _, m9⟩ :=
              insert_link_convert bodies hwf.1 hst hin hf hlinks hd hfd hP g1 g2 g3 g4 heq hreg
            exact ⟨true, b1, m1, m2, fun _ => hlink b1 m9 hlen, fun h => by cases h⟩
          · refine ⟨false, b, ?_, Grows.builder_refl b, fun h => (by cases h), fun _ => rfl⟩
            rw [g7, if_neg heq, (get_conversion_inserters_eq_some bodies _).1.mpr hreg]

/-- The loop of `insert_links` over a stretch of the linked inputs. -/
theorem insert_links_stretch (bodies : FunctionBodies) {vtree : VirtualNodeTree}
    (hwf : vtree.well_formed) (pre mid post : List VirtualSocket)
    (hL : vtree.inputs_with_links = pre ++ mid ++ post) {b : VTreeMFNetworkBuilder}
    (hst : LinkState vtree (fun v => v ∈ pre ∧ v.links.length = 1) b) :
    ∃ r b1, loop_until_false (insert_link bodies) mid b = .ok (r, b1) ∧ Grows b b1 ∧
      (r = true → LinkState vtree (fun v => v ∈ pre ++ mid ∧ v.links.length = 1) b1) ∧
      (r = false → ∃ pre1 t post1, mid = pre1 ++ t :: post1 ∧
        LinkState vtree (fun v => v ∈ pre ++ pre1 ∧ v.links.length = 1) b1 ∧
        loop_until_false (insert_link bodies) pre1 b = .ok (true, b1) ∧
        insert_link bodies b1 t = .ok (false, b1)) := by
  have hnd := inputs_with_links_nodup hwf.1
  obtain ⟨r, b1, h1, h2, h3⟩ := @loop_until_false_inv (insert_link bodies)
    (fun done b1 => LinkState vtree (fun v => v ∈ done ∧ v.links.length = 1) b1 ∧ Grows b b1)
    mid pre b
    (by
      intro pre1 t post1 b1 hsplit hinv
      have hmem : t ∈ vtree.inputs_with_links := by
        rw [hL, hsplit]
        simp
      have hnew : t ∉ pre ++ pre1 := by
        rw [hL, hsplit] at hnd
        have h4 : (pre ++ pre1 ++ (t :: (post1 ++ post))).Nodup := by simpa using hnd
        intro hc
        exact (List.nodup_append.mp h4).2.2 hc (List.mem_cons_self _ _) 
      obtain ⟨r, b2, g1, g2, g3, g4⟩ := insert_link_step bodies hwf hinv.1 hmem hnew
      exact ⟨r, b2, g1, fun hr => ⟨g3 hr, hinv.2.builder_trans g2⟩, g4⟩)
    ⟨hst, Grows.builder_refl b⟩
  refine ⟨r, b1, h1, ?_, fun hr => (h2 hr).1, ?_⟩
  · cases r with
    | true => exact (h2 rfl).2
    | false =>
      obtain ⟨_, _, _, _, m2, _, _⟩ := h3 rfl
      exact m2.2
  · intro hr
    obtain ⟨pre1, t, post1, m1, m2, m3, m4⟩ := h3 hr
    exact ⟨pre1, t, post1, m1, m2.1, m3, m4⟩

/-- After `insert_nodes` no socket is linked. -/
theorem NodesInv.link_state {vtree : VirtualNodeTree} (hwf : vtree.well_formed)
    {b : VTreeMFNetworkBuilder} (hinv : NodesInv vtree vtree.nodes b) :
    LinkState vtree (fun v => v ∈ ([] : List VirtualSocket) ∧ v.links.length = 1) b := by
  refine ⟨hinv.mapped hwf, ?_, ?_⟩
  · intro v _ _ k s _ hs
    obtain ⟨node, hn, hk⟩ := input_eq_ok.mp hs
    have := hinv.unlinked node (List.getElem?_mem hn) s (List.getElem?_mem hk)
    simp [this]
  · intro k s hk hs
    have hlt := input_node_lt hs
    rw [hinv.count] at hlt
    unfold VirtualNodeTree.data_node_count at hk
    omega

/-- On a well-formed graph `insert_links` returns after `insert_nodes`.  When
it returns true, the sockets of the data inputs with exactly one incoming link
are linked and no other socket of a data input is; when it returns false, it
stopped at an input socket on whose account the round says false. -/
theorem insert_links_run (bodies : FunctionBodies) {vtree : VirtualNodeTree}
    (hwf : vtree.well_formed) {b1 : VTreeMFNetworkBuilder}
    (hinv : NodesInv vtree vtree.nodes b1) :
    ∃ r b2, insert_links bodies b1 = .ok (r, b2) ∧ Grows b1 b2 ∧
      (r = true → LinkState vtree
        (fun v => v ∈ vtree.inputs_with_links ∧ v.links.length = 1) b2) ∧
      (r = false → ∃ pre t post, vtree.inputs_with_links = pre ++ t :: post ∧
        LinkState vtree (fun v => v ∈ pre ∧ v.links.length = 1) b2 ∧
        loop_until_false (insert_link bodies) pre b1 = .ok (true, b2) ∧
        insert_link bodies b2 t = .ok (false, b2)) := by
  obtain ⟨r, b2, h1, h2, h3, h4⟩ := insert_links_stretch bodies hwf [] vtree.inputs_with_links []
    (by simp) (hinv.link_state hwf)
  refine ⟨r, b2, ?_, h2, fun hr => by simpa using h3 hr, fun hr => by simpa using h4 hr⟩
  unfold insert_links
  rw [hinv.ok.tree]
  exact h1

theorem NetGrows.linked_input {a b : MFNetwork} (h : NetGrows a b) {k : InputRef}
    {type : MFDataType} {origin : OutputRef}
    (hs : a.input k = .ok { type := type, origin := some origin }) :
    b.input k = .ok { type := type, origin := some origin } := by
  obtain ⟨s1, g1, g2, g3⟩ := h.input hs
  rw [g1]
  cases s1 with
  | mk type1 origin1 =>
    simp only at g2 g3
    rw [g2, g3 (by simp)]

theorem NetGrows.converter {a b : MFNetwork} (h : NetGrows a b) {n : Nat}
    {bodies : FunctionBodies} {from_type to_type : CPPType} {source : OutputRef}
    (hn : a.nodes[n]? = some (converter_node bodies from_type to_type source)) :
    b.nodes[n]? = some (converter_node bodies from_type to_type source) := by
  obtain ⟨node1, g1, g2, g3, g4, g5⟩ := h.nodes _ _ hn
  obtain ⟨s1, m1, m2, m3⟩ := g5 0 ⟨.single from_type, some source⟩ rfl
  rw [g1]
  cases node1 with
  | mk kind inputs outputs =>
    simp only [converter_node] at g2 g3 g4 m1 m2 m3 ⊢
    cases s1 with
    | mk type1 origin1 =>
      simp only at m2 m3
      have m4 := m3 (by simp)
      subst m2 m4 g2 g3
      cases inputs with
      | nil => simp at g4
      | cons x rest =>
        cases rest with
        | cons _ _ => simp at g4
        | nil =>
          simp only [List.getElem?_cons_zero, Option.some.injEq] at m1
          rw [m1]

/-- The state in which the loop of `insert_links` gets to an input socket. -/
theorem insert_links_reach (bodies : FunctionBodies) {vtree : VirtualNodeTree}
    (hwf : vtree.well_formed) {b1 : VTreeMFNetworkBuilder}
    (hinv : NodesInv vtree vtree.nodes b1) {pre post : List VirtualSocket} {t : VirtualSocket}
    (hL : vtree.inputs_with_links = pre ++ t :: post) {b : VTreeMFNetworkBuilder}
    (hrun : loop_until_false (insert_link bodies) pre b1 = .ok (true, b)) :
    LinkState vtree (fun v => v ∈ pre ∧ v.links.length = 1) b ∧ Grows b1 b ∧ t ∉ pre ∧
      t ∈ vtree.inputs_with_links := by
  obtain ⟨r, b2, h1, h2, h3, _⟩ := insert_links_stretch bodies hwf [] pre (t :: post)
    (by simpa using hL) (hinv.link_state hwf)
  rw [hrun] at h1
  cases h1
  have hnd := inputs_with_links_nodup hwf.1
  rw [hL] at hnd
  refine ⟨by simpa using h3 rfl, h2, ?_, by rw [hL]; simp⟩
  intro hc
  exact (List.nodup_append.mp hnd).2.2 hc (List.mem_cons_self _ _)

/-- What a round of `insert_links` leaves is kept until `insert_links` returns. -/
theorem insert_links_after (bodies : FunctionBodies) {vtree : VirtualNodeTree}
    (hwf : vtree.well_formed) {b1 : VTreeMFNetworkBuilder}
    (hinv : NodesInv vtree vtree.nodes b1) {pre post : List VirtualSocket} {t : VirtualSocket}
    (hL : vtree.inputs_with_links = pre ++ t :: post) {b b3 : VTreeMFNetworkBuilder}
    (hrun : loop_until_false (insert_link bodies) pre b1 = .ok (true, b))
    (hround : insert_link bodies b t = .ok (true, b3)) {r : Bool} {b2 : VTreeMFNetworkBuilder}
    (hall : insert_links bodies b1 = .ok (r, b2)) : Grows b3 b2 := by
  obtain ⟨hst, _, hnew, hmem⟩ := insert_links_reach bodies hwf hinv hL hrun
  obtain ⟨r1, b4, g1, _, g3, _⟩ := insert_link_step bodies hwf hst hmem hnew
  rw [hround] at g1
  cases g1
  obtain ⟨r2, b5, k1, k2, _, _⟩ := insert_links_stretch bodies hwf (pre ++ [t]) post []
    (by simpa using hL) (g3 rfl)
  unfold insert_links at hall
  rw [hinv.ok.tree, hL, loop_until_false_append, hrun] at hall
  simp only [bind_ok, if_true, loop_until_false, hround] at hall
  rw [k1] at hall
  cases hall
  exact k2

/-- C11. Link insertion wiring.  On a well-formed graph the constructor,
`insert_nodes` and `insert_links` return.  Let `t` be an input socket with
exactly one incoming link, from the output socket `f`, both data sockets, and
let `ts` and `fs` be the builder sockets they are mapped to.  Whenever the
loop of `insert_links` gets to `t`: if the types of `fs` and `ts` are equal,
the round returns true, adds no node and exactly one link, `fs` to `ts`; if
they differ and the conversion registry has an entry for the two kind
identifiers, the round returns true and adds exactly one node, the converter
with one input and one output, and exactly two links, `fs` to the input of the
converter and the output of the converter to `ts`.  In both cases the origin
of `ts` is still the same when `insert_links` returns. -/
theorem link_insertion_wiring (bodies : FunctionBodies) (vtree : VirtualNodeTree)
    (hwf : vtree.well_formed) :
    ∃ b0 b1 r b2, VTreeMFNetworkBuilder.create vtree = .ok b0 ∧
      insert_nodes bodies b0 = .ok (true, b1) ∧ insert_links bodies b1 = .ok (r, b2) ∧
      ∀ t ∈ vtree.input_sockets, ∀ f ∈ vtree.output_sockets, t.links = [f.id] →
        t.is_data = true → f.is_data = true →
        ∃ fs ts so si, b1.lookup_output_socket f = .ok fs ∧ b1.lookup_input_socket t = .ok ts ∧
          b1.m_builder.output fs = .ok so ∧ b1.m_builder.input ts = .ok si ∧
          ∀ pre post b, vtree.inputs_with_links = pre ++ t :: post →
            loop_until_false (insert_link bodies) pre b1 = .ok (true, b) →
            (so.type = si.type →
              ∃ b3, insert_link bodies b t = .ok (true, b3) ∧
                b3.m_builder.nodes.length = b.m_builder.nodes.length ∧
                b3.m_builder.input ts = .ok { type := si.type, origin := some fs } ∧
                (∀ k, k ≠ ts → b3.m_builder.input k = b.m_builder.input k) ∧
                (∀ k, b3.m_builder.output k = b.m_builder.output k) ∧
                b2.m_builder.input ts = .ok { type := si.type, origin := some fs }) ∧
            (so.type ≠ si.type →
              (get_conversion_inserters bodies (f.idname, t.idname)).isSome = true →
              ∃ b3, insert_link bodies b t = .ok (true, b3) ∧
                b3.m_builder.nodes.length = b.m_builder.nodes.length + 1 ∧
                b3.m_builder.nodes[b.m_builder.nodes.length]?
                  = some (converter_node bodies .int32 .float fs) ∧
                b3.m_builder.input ts
                  = .ok { type := si.type, origin := some (b.m_builder.nodes.length, 0) } ∧
                (∀ k, k ≠ ts → k.1 < b.m_builder.nodes.length →
                  b3.m_builder.input k = b.m_builder.input k) ∧
                (∀ k, k.1 < b.m_builder.nodes.length →
                  b3.m_builder.output k = b.m_builder.output k) ∧
                b2.m_builder.nodes[b.m_builder.nodes.length]?
                  = some (converter_node bodies .int32 .float fs) ∧
                b2.m_builder.input ts
                  = .ok { type := si.type, origin := some (b.m_builder.nodes.length, 0) }) := by
  obtain ⟨b0, b1, h0, h1, hinv⟩ := insert_nodes_inv bodies hwf
  obtain ⟨r, b2, h2, _, _, _⟩ := insert_links_run bodies hwf hinv
  refine ⟨b0, b1, r, b2, h0, h1, h2, ?_⟩
  intro t ht f hf hlinks hd hfd
  have hm := hinv.mapped hwf
  obtain ⟨fs, so, g1, _, g3, _⟩ := hm.outputs f hf hfd
  obtain ⟨ts, si, k1, _, k3, _⟩ := hm.inputs t ht hd
  refine ⟨fs, ts, so, si, g1, k1, g3, k3, ?_⟩
  intro pre post b hL hrun
  obtain ⟨hst, hgrow, hnew, _⟩ := insert_links_reach bodies hwf hinv hL hrun
  have hP : ¬ (t ∈ pre ∧ t.links.length = 1) := fun h => hnew h.1
  have hfs : b.lookup_output_socket f = .ok fs := by rw [hgrow.lookup_output]; exact g1
  have hts : b.lookup_input_socket t = .ok ts := by rw [hgrow.lookup_input]; exact k1
  have hso := hgrow.net.output g3
  obtain ⟨si1, hsi, hty, _⟩ := hgrow.net.input k3
  constructor
  · intro heq
    obtain ⟨b3, m1, _, m3, _, m5, m6, m7, _⟩ := insert_link_direct bodies hwf.1 hst ht hf hlinks
      hd hfd hP hfs hts hso hsi (by rw [hty]; exact heq)
    rw [hty] at m5
    have hafter := insert_links_after bodies hwf hinv hL hrun m1 h2
    exact ⟨b3, m1, m3, m5, m6, m7, hafter.net.linked_input m5⟩
  · intro hne hreg
    have hkey : (f.idname, t.idname) = ("fn_IntegerSocket", "fn_FloatSocket") := by
      by_contra hc
      rw [(get_conversion_inserters_eq_some bodies _).1.mpr hc] at hreg
      cases hreg
    obtain ⟨b3, m1, _, m3, _, m5, m6, m7, m8, _⟩ := insert_link_convert bodies hwf.1 hst ht hf
      hlinks hd hfd hP hfs hts hso hsi (by rw [hty]; exact hne) hkey
    rw [hty] at m6
    have hafter := insert_links_after bodies hwf hinv hL hrun m1 h2
    exact ⟨b3, m1, m3, m5, m6, m7, m8, hafter.net.converter m5, hafter.net.linked_input m6⟩

/-- Witness of `link_insertion_wiring` on the graph `mixed_tree`.  In the
builder that the phases leave, the second input of the addition, which is fed
by the integer output, has the output of the converter (node 3) as origin, and
the input of the converter has the integer output as origin.  Evaluated with
`a = [1, 2]` and the integers `[7, 9]`, the addition reads `7` and `9` through
the converter: the sum is `[8, 11]`. -/
theorem link_insertion_wiring_witness :
    Example.mixed_tree.well_formed ∧
    (∃ b0 b1 r b2, VTreeMFNetworkBuilder.create Example.mixed_tree = .ok b0 ∧
      insert_nodes Example.bodies b0 = .ok (true, b1) ∧
      insert_links Example.bodies b1 = .ok (r, b2)) ∧
    (∃ b0 b1 b2, VTreeMFNetworkBuilder.create Example.mixed_tree = .ok b0 ∧
      insert_nodes Example.bodies b0 = .ok (true, b1) ∧
      insert_links Example.bodies b1 = .ok (true, b2) ∧
      insert_unlinked_inputs Example.bodies b2 = .ok (true, Example.mixed_builder)) ∧
    Example.mixed_builder.m_builder.nodes[3]?
      = some (converter_node Example.bodies .int32 .float (0, 1)) ∧
    Example.mixed_builder.m_builder.input (1, 1)
      = .ok { type := .single .float, origin := some (3, 0) } ∧
    (∃ s, call Example.mixed_builder.m_builder ⟨[(0, 0), (0, 1)], [(2, 0)]⟩ 100 [0, 1]
        [.readonly_single_input 0, .readonly_single_input 1, .single_output 2]
        ⟨[[1, 2], [7, 9], [0, 0]], [], fun _ _ => 0⟩ = .ok s ∧
      s.memory.arrays[2]? = some [8, 11]) :=
  ⟨by decide,
    match link_insertion_wiring Example.bodies Example.mixed_tree (by decide) with
    | ⟨b0, b1, r, b2, h0, h1, h2, _⟩ => ⟨b0, b1, r, b2, h0, h1, h2⟩,
    ⟨_, _, _, rfl, rfl, rfl, rfl⟩, rfl, rfl, ⟨_, rfl, rfl⟩⟩

/-- The round of `insert_links` on a data input with one incoming link from a
data output whose builder socket has another type, when the conversion
registry has no entry for the two kinds: the round says false and leaves the
builder as it is. -/
theorem insert_link_no_conversion (bodies : FunctionBodies) {vtree : VirtualNodeTree}
    (hids : vtree.ids_ok) {b : VTreeMFNetworkBuilder} (hm : Mapped vtree b)
    {t f : VirtualSocket} (ht : t ∈ vtree.input_sockets) (hf : f ∈ vtree.output_sockets)
    (hlinks : t.links = [f.id]) (hd : t.is_data = true) (hfd : f.is_data = true)
    (hne : get_type_by_socket f ≠ get_type_by_socket t)
    (hreg : get_conversion_inserters bodies (f.idname, t.idname) = none) :
    insert_link bodies b t = .ok (false, b) := by
  obtain ⟨fs, ts, so, si, _, _, _, _, g5, g6, g7⟩ :=
    insert_link_data bodies hids hm ht hf hlinks hd hfd
  rw [g7, if_neg (by rw [g5, g6]; exact hne), hreg]

/-- A round that says false is never part of a run of the loop that goes on
beyond it. -/
theorem loop_until_false_stops
    {body : VTreeMFNetworkBuilder → VirtualSocket → Except EvalError (Bool × VTreeMFNetworkBuilder)}
    {pre post : List VirtualSocket} {t : VirtualSocket} {b0 b2 : VTreeMFNetworkBuilder}
    (h : loop_until_false body (pre ++ t :: post) b0 = .ok (true, b2))
    (hfalse : ∀ b, loop_until_false body pre b0 = .ok (true, b) → ∃ b3, body b t = .ok (false, b3)) :
    False := by
  obtain ⟨b, b1, h1, h2, _⟩ := loop_until_false_split h
  obtain ⟨b3, h3⟩ := hfalse b h1
  rw [h3] at h2
  cases h2

/-- If the round of an input socket says false whenever the loop of
`insert_links` gets to it, then `insert_links` returns false and the loop has
not gone beyond that socket. -/
theorem insert_links_false_of_round (bodies : FunctionBodies) {vtree : VirtualNodeTree}
    (hwf : vtree.well_formed) {b1 : VTreeMFNetworkBuilder}
    (hinv : NodesInv vtree vtree.nodes b1) {t : VirtualSocket}
    (ht : t ∈ vtree.inputs_with_links)
    (hround : ∀ pre post b, vtree.inputs_with_links = pre ++ t :: post →
      loop_until_false (insert_link bodies) pre b1 = .ok (true, b) →
      insert_link bodies b t = .ok (false, b)) :
    ∃ b2, insert_links bodies b1 = .ok (false, b2) ∧ Grows b1 b2 ∧
      ∃ pre : List VirtualSocket, t ∉ pre ∧
        LinkState vtree (fun v => v ∈ pre ∧ v.links.length = 1) b2 := by
  obtain ⟨r, b2, h1, h2, h3, h4⟩ := insert_links_run bodies hwf hinv
  obtain ⟨pre, post, hL⟩ := List.append_of_mem ht
  have hnd := inputs_with_links_nodup hwf.1
  cases r with
  | true =>
    exfalso
    unfold insert_links at h1
    rw [hinv.ok.tree, hL] at h1
    exact loop_until_false_stops h1 (fun b hb => ⟨b, hround pre post b hL hb⟩)
  | false =>
    obtain ⟨pre1, t1, post1, m1, m2, m3, _⟩ := h4 rfl
    refine ⟨b2, h1, h2, pre1, ?_, m2⟩
    intro hc
    obtain ⟨p1, p2, hp⟩ := List.append_of_mem hc
    rw [hp] at m3
    apply loop_until_false_stops m3
    intro b hb
    exact ⟨b, hround p1 (p2 ++ t1 :: post1) b (by rw [m1, hp]; simp) hb⟩

/-- C12. Missing conversion is a build failure.  The conversion registry has
an entry for the pair (fn_IntegerSocket, fn_FloatSocket) and for no other.  On
a well-formed graph the constructor, `insert_nodes` and `insert_links` return.
If an input socket `t` has exactly one incoming link, from `f`, both are data
sockets, the types of the builder sockets they are mapped to differ and the
registry has no entry for the two kind identifiers, then `insert_links`
returns false, the round of `t` says false and leaves the builder as it is
whenever the loop gets to `t`, and the builder socket of `t` has no origin
when `insert_links` returns.  This is so in particular when `f` is a float
output and `t` an integer input. -/
theorem missing_conversion_fails (bodies : FunctionBodies) (vtree : VirtualNodeTree)
    (hwf : vtree.well_formed) :
    (∀ key, (get_conversion_inserters bodies key).isSome = true ↔
      key = ("fn_IntegerSocket", "fn_FloatSocket")) ∧
    ∃ b0 b1 r b2, VTreeMFNetworkBuilder.create vtree = .ok b0 ∧
      insert_nodes bodies b0 = .ok (true, b1) ∧ insert_links bodies b1 = .ok (r, b2) ∧
      ∀ t ∈ vtree.input_sockets, ∀ f ∈ vtree.output_sockets, t.links = [f.id] →
        t.is_data = true → f.is_data = true →
        ∃ fs ts so si, b1.lookup_output_socket f = .ok fs ∧ b1.lookup_input_socket t = .ok ts ∧
          b1.m_builder.output fs = .ok so ∧ b1.m_builder.input ts = .ok si ∧
          (f.idname = "fn_FloatSocket" → t.idname = "fn_IntegerSocket" →
            so.type ≠ si.type ∧
            get_conversion_inserters bodies (f.idname, t.idname) = none) ∧
          (so.type ≠ si.type →
            get_conversion_inserters bodies (f.idname, t.idname) = none →
            r = false ∧
            (∀ pre post b, vtree.inputs_with_links = pre ++ t :: post →
              loop_until_false (insert_link bodies) pre b1 = .ok (true, b) →
              insert_link bodies b t = .ok (false, b)) ∧
            b2.lookup_input_socket t = .ok ts ∧
            ∃ s, b2.m_builder.input ts = .ok s ∧ s.origin = none) := by
  constructor
  · intro key
    by_cases h : key = ("fn_IntegerSocket", "fn_FloatSocket")
    · rw [(get_conversion_inserters_eq_some bodies key).2 h]
      simp [h]
    · rw [(get_conversion_inserters_eq_some bodies key).1.mpr h]
      simp [h]
  · obtain ⟨b0, b1, h0, h1, hinv⟩ := insert_nodes_inv bodies hwf
    obtain ⟨r, b2, h2, _, _, _⟩ := insert_links_run bodies hwf hinv
    refine ⟨b0, b1, r, b2, h0, h1, h2, ?_⟩
    intro t ht f hf hlinks hd hfd
    have hm := hinv.mapped hwf
    obtain ⟨fs, so, g1, _, g3, g4⟩ := hm.outputs f hf hfd
    obtain ⟨ts, si, k1, _, k3, k4⟩ := hm.inputs t ht hd
    refine ⟨fs, ts, so, si, g1, k1, g3, k3, ?_, ?_⟩
    · intro hfn htn
      constructor
      · rw [g4, k4]
        unfold get_type_by_socket
        simp [hfn, htn]
      · apply (get_conversion_inserters_eq_some bodies _).1.mpr
        rw [hfn, htn]
        decide
    · intro hne hreg
      have hmem : t ∈ vtree.inputs_with_links :=
        mem_inputs_with_links.mpr ⟨ht, by rw [hlinks]; exact Nat.one_pos⟩
      have hround : ∀ pre post b, vtree.inputs_with_links = pre ++ t :: post →
          loop_until_false (insert_link bodies) pre b1 = .ok (true, b) →
          insert_link bodies b t = .ok (false, b) := by
        intro pre post b hL hrun
        obtain ⟨hst, _, _, _⟩ := insert_links_reach bodies hwf hinv hL hrun
        exact insert_link_no_conversion bodies hwf.1 hst.mapped ht hf hlinks hd hfd
          (by rw [← g4, ← k4]; exact hne) hreg
      obtain ⟨b3, m1, m2, pre, m3, m4⟩ :=
        insert_links_false_of_round bodies hwf hinv hmem hround
      rw [h2] at m1
      cases m1
      have hts : b2.lookup_input_socket t = .ok ts := by rw [m2.lookup_input]; exact k1
      obtain ⟨s, hs, _, _⟩ := m2.net.input k3
      refine ⟨rfl, hround, hts, s, hs, ?_⟩
      by_contra hc
      exact m3 ((m4.linked t ht hd ts s hts hs).mp hc).1

/-- Witness of `missing_conversion_fails` on the graph `float_to_int_tree`, in
which a float output is linked into an integer input: `insert_links` returns
false and the builder has the two placeholder nodes only, without a link. -/
theorem missing_conversion_fails_witness :
    Example.float_to_int_tree.well_formed ∧
    (∃ b0 b1 r b2, VTreeMFNetworkBuilder.create Example.float_to_int_tree = .ok b0 ∧
      insert_nodes Example.bodies b0 = .ok (true, b1) ∧
      insert_links Example.bodies b1 = .ok (r, b2)) ∧
    (∃ b0 b1 b2, VTreeMFNetworkBuilder.create Example.float_to_int_tree = .ok b0 ∧
      insert_nodes Example.bodies b0 = .ok (true, b1) ∧
      insert_links Example.bodies b1 = .ok (false, b2) ∧
      b2.m_builder.nodes.length = 2 ∧
      b2.m_builder.input (1, 0) = .ok { type := .single .int32, origin := none }) :=
  ⟨by decide,
    match missing_conversion_fails Example.bodies Example.float_to_int_tree (by decide) with
    | ⟨_, b0, b1, r, b2, h0, h1, h2, _⟩ => ⟨b0, b1, r, b2, h0, h1, h2⟩,
    ⟨_, _, _, rfl, rfl, rfl, rfl, rfl⟩⟩

/-- C13, as stated, fails on the graph `fan_in_tree`: the graph is well-formed
and has a link from socket 0, which is not a data socket, into the float input
socket 2; the input has a second incoming link, so the loop of `insert_links`
passes over it, and `insert_links` returns true. -/
theorem structural_source_into_fan_in_passes :
    Example.fan_in_tree.well_formed ∧
    (∃ t ∈ Example.fan_in_tree.input_sockets, ∃ f ∈ Example.fan_in_tree.output_sockets,
      f.id ∈ t.links ∧ f.is_data = false ∧ t.is_data = true) ∧
    ∃ b0 b1 b2, VTreeMFNetworkBuilder.create Example.fan_in_tree = .ok b0 ∧
      insert_nodes Example.bodies b0 = .ok (true, b1) ∧
      insert_links Example.bodies b1 = .ok (true, b2) :=
  ⟨by decide,
    ⟨⟨2, "fn_FloatSocket", true, [0, 1], 0⟩, by decide,
      ⟨0, "fn_GroupSocket", false, [2], 0⟩, by decide, by decide, by decide, by decide⟩,
    ⟨_, _, _, rfl, rfl, rfl⟩⟩

/-- C13, amended.  On a well-formed graph the constructor, `insert_nodes` and
`insert_links` return; if the graph has a data input socket with exactly one
incoming link whose source is not a data socket, then `insert_links` returns
false, and the round of that input says false whenever the loop gets to it. -/
theorem structural_source_fails (bodies : FunctionBodies) (vtree : VirtualNodeTree)
    (hwf : vtree.well_formed) :
    ∃ b0 b1 r b2, VTreeMFNetworkBuilder.create vtree = .ok b0 ∧
      insert_nodes bodies b0 = .ok (true, b1) ∧ insert_links bodies b1 = .ok (r, b2) ∧
      ∀ t ∈ vtree.input_sockets, ∀ f ∈ vtree.output_sockets, t.links = [f.id] →
        t.is_data = true → f.is_data = false →
        r = false ∧
        ∀ pre post b, vtree.inputs_with_links = pre ++ t :: post →
          loop_until_false (insert_link bodies) pre b1 = .ok (true, b) →
          insert_link bodies b t = .ok (false, b) := by
  obtain ⟨b0, b1, h0, h1, hinv⟩ := insert_nodes_inv bodies hwf
  obtain ⟨r, b2, h2, _, _, _⟩ := insert_links_run bodies hwf hinv
  refine ⟨b0, b1, r, b2, h0, h1, h2, ?_⟩
  intro t ht f hf hlinks hd hfd
  have hmem : t ∈ vtree.inputs_with_links :=
    mem_inputs_with_links.mpr ⟨ht, by rw [hlinks]; exact Nat.one_pos⟩
  have hround : ∀ pre post b, vtree.inputs_with_links = pre ++ t :: post →
      loop_until_false (insert_link bodies) pre b1 = .ok (true, b) →
      insert_link bodies b t = .ok (false, b) := by
    intro pre post b hL hrun
    obtain ⟨hst, _, _, _⟩ := insert_links_reach bodies hwf hinv hL hrun
    exact insert_link_structural_source bodies hwf.1 hst.mapped.ok ht hf hlinks hd hfd
  obtain ⟨b3, m1, _, _⟩ := insert_links_false_of_round bodies hwf hinv hmem hround
  rw [h2] at m1
  cases m1
  exact ⟨rfl, hround⟩

/-- Witness of `structural_source_fails` on the graph `structural_source_tree`:
`insert_links` returns false. -/
theorem structural_source_fails_witness :
    Example.structural_source_tree.well_formed ∧
    (∃ b0 b1 r b2, VTreeMFNetworkBuilder.create Example.structural_source_tree = .ok b0 ∧
      insert_nodes Example.bodies b0 = .ok (true, b1) ∧
      insert_links Example.bodies b1 = .ok (r, b2)) ∧
    (∃ b0 b1 b2, VTreeMFNetworkBuilder.create Example.structural_source_tree = .ok b0 ∧
      insert_nodes Example.bodies b0 = .ok (true, b1) ∧
      insert_links Example.bodies b1 = .ok (false, b2)) :=
  ⟨by decide,
    match structural_source_fails Example.bodies Example.structural_source_tree (by decide) with
    | ⟨b0, b1, r, b2, h0, h1, h2, _⟩ => ⟨b0, b1, r, b2, h0, h1, h2⟩,
    ⟨_, _, _, rfl, rfl, rfl⟩⟩

/-- C14, as stated, fails on the graph `mixed_tree`: the graph is well-formed,
its float input socket 7 has two incoming links, and all three phases return
true; `build` then produces the network. -/
theorem fan_in_is_built :
    Example.mixed_tree.well_formed ∧
    (∃ t ∈ Example.mixed_tree.input_sockets, t.is_data = true ∧ 1 < t.links.length) ∧
    ∃ b0 b1 b2 b3 network, VTreeMFNetworkBuilder.create Example.mixed_tree = .ok b0 ∧
      insert_nodes Example.bodies b0 = .ok (true, b1) ∧
      insert_links Example.bodies b1 = .ok (true, b2) ∧
      insert_unlinked_inputs Example.bodies b2 = .ok (true, b3) ∧
      b3.build = .ok network :=
  ⟨by decide,
    ⟨⟨7, "fn_FloatSocket", true, [0, 4], 0⟩, by decide, by decide, by decide⟩,
    ⟨_, _, _, _, _, rfl, rfl, rfl, rfl, rfl⟩⟩

/-- C14, amended.  Fan-in is not rejected at build time.  The round of
`insert_links` on an input socket with more than one incoming link returns
true and leaves the builder as it is, in every state of the builder; and on a
well-formed graph `insert_links` returns after `insert_nodes`, and when it
returns false, it stopped at a data input socket with exactly one incoming
link, whose round says false. -/
theorem fan_in_is_not_rejected (bodies : FunctionBodies) (vtree : VirtualNodeTree)
    (hwf : vtree.well_formed) :
    (∀ b t, 1 < t.links.length → insert_link bodies b t = .ok (true, b)) ∧
    ∃ b0 b1 r b2, VTreeMFNetworkBuilder.create vtree = .ok b0 ∧
      insert_nodes bodies b0 = .ok (true, b1) ∧ insert_links bodies b1 = .ok (r, b2) ∧
      (r = false → ∃ pre t post, vtree.inputs_with_links = pre ++ t :: post ∧
        loop_until_false (insert_link bodies) pre b1 = .ok (true, b2) ∧
        insert_link bodies b2 t = .ok (false, b2) ∧
        t.links.length = 1 ∧ t.is_data = true) := by
  refine ⟨fun b t h => insert_link_fan_in bodies b h, ?_⟩
  obtain ⟨b0, b1, h0, h1, hinv⟩ := insert_nodes_inv bodies hwf
  obtain ⟨r, b2, h2, _, _, h4⟩ := insert_links_run bodies hwf hinv
  refine ⟨b0, b1, r, b2, h0, h1, h2, ?_⟩
  intro hr
  obtain ⟨pre, t, post, m1, m2, m3, m4⟩ := h4 hr
  have hmem : t ∈ vtree.inputs_with_links := by rw [m1]; simp
  obtain ⟨hin, hpos⟩ := mem_inputs_with_links.mp hmem
  have hlen : t.links.length = 1 := by
    by_contra hc
    rw [insert_link_fan_in bodies b2 (by omega)] at m4
    cases m4
  refine ⟨pre, t, post, m1, m3, m4, hlen, ?_⟩
  cases hd : t.is_data with
  | true => rfl
  | false =>
    rw [insert_link_not_data bodies m2.mapped.ok hin hlen hd] at m4
    cases m4

/-- Witness of `fan_in_is_not_rejected` on the graph `fan_in_tree`, whose one
linked input has two incoming links: `insert_links` returns true. -/
theorem fan_in_is_not_rejected_witness :
    Example.fan_in_tree.well_formed ∧
    (∀ b t, 1 < t.links.length → insert_link Example.bodies b t = .ok (true, b)) ∧
    (∃ b0 b1 b2, VTreeMFNetworkBuilder.create Example.fan_in_tree = .ok b0 ∧
      insert_nodes Example.bodies b0 = .ok (true, b1) ∧
      insert_links Example.bodies b1 = .ok (true, b2)) :=
  ⟨by decide, (fan_in_is_not_rejected Example.bodies Example.fan_in_tree (by decide)).1,
    ⟨_, _, _, rfl, rfl, rfl⟩⟩

/-! ## Unlinked-input defaulting -/

theorem is_input_linked_spec {b : VTreeMFNetworkBuilder} {v : VirtualSocket} {ts : InputRef}
    {s : MFInputSocket} (hts : b.lookup_input_socket v = .ok ts)
    (hs : b.m_builder.input ts = .ok s) : b.is_input_linked v = .ok s.origin.isSome := by
  unfold VTreeMFNetworkBuilder.is_input_linked
  rw [hts]
  simp only [bind_ok, hs]

theorem unlinked_data_inputs_of_spec {vtree : VirtualNodeTree} {P : VirtualSocket → Prop}
    {b : VTreeMFNetworkBuilder} (hst : LinkState vtree P b) :
    ∀ (l : List VirtualSocket), (∀ v ∈ l, v ∈ vtree.input_sockets) →
      ∃ U, b.unlinked_data_inputs_of l = .ok U ∧ U.Sublist l ∧
        ∀ v, v ∈ U ↔ v ∈ l ∧ v.is_data = true ∧ ¬ P v := by
  intro l
  induction l with
  | nil => intro _; exact ⟨[], rfl, List.Sublist.refl _, by simp⟩
  | cons x rest ih =>
    intro hmem
    obtain ⟨U, h1, h2, h3⟩ := ih (fun v hv => hmem v (List.mem_cons_of_mem _ hv))
    have hx := hmem x (List.mem_cons_self _ _)
    simp only [VTreeMFNetworkBuilder.unlinked_data_inputs_of,
      hst.mapped.ok.is_data_socket_eq (input_sockets_sub hx), bind_ok]
    cases hd : x.is_data with
    | false =>
      simp only [Bool.false_eq_true, if_false]
      refine ⟨U, h1, List.Sublist.cons _ h2, ?_⟩
      intro v
      rw [h3 v, List.mem_cons]
      constructor
      · intro h; exact ⟨Or.inr h.1, h.2⟩
      · intro h
        rcases h.1 with hc | hc
        · subst hc
          rw [hd] at h
          exact absurd h.2.1 (by simp)
        · exact ⟨hc, h.2⟩
    | true =>
      obtain ⟨ts, s, g1, _, g3, _⟩ := hst.mapped.inputs x hx hd
      have hlinked := hst.linked x hx hd ts s g1 g3
      simp only [if_true, is_input_linked_spec g1 g3, h1, bind_ok]
      cases ho : s.origin with
      | none =>
        have hP : ¬ P x := by
          intro hc
          exact hlinked.mpr hc ho
        refine ⟨x :: U, by simp, List.Sublist.cons₂ _ h2, ?_⟩
        intro v
        rw [List.mem_cons, List.mem_cons, h3 v]
        constructor
        · intro h
          rcases h with h | h
          · subst h
            exact ⟨Or.inl rfl, hd, hP⟩
          · exact ⟨Or.inr h.1, h.2⟩
        · intro h
          rcases h.1 with hc | hc
          · exact Or.inl hc
          · exact Or.inr ⟨hc, h.2⟩
      | some o =>
        have hP : P x := hlinked.mp (by rw [ho]; simp)
        refine ⟨U, by simp, List.Sublist.cons _ h2, ?_⟩
        intro v
        rw [h3 v, List.mem_cons]
        constructor
        · intro h; exact ⟨Or.inr h.1, h.2⟩
        · intro h
          rcases h.1 with hc | hc
          · subst hc
            exact absurd hP h.2.2
          · exact ⟨hc, h.2⟩

theorem unlinked_data_inputs_spec {vtree : VirtualNodeTree} {P : VirtualSocket → Prop}
    {b : VTreeMFNetworkBuilder} (hst : LinkState vtree P b) :
    ∀ (vnodes : List VirtualNode), (∀ vnode ∈ vnodes, vnode ∈ vtree.nodes) →
      ∃ U, b.unlinked_data_inputs vnodes = .ok U ∧
        U.Sublist (vnodes.flatMap (fun vnode => vnode.inputs)) ∧
        ∀ v, v ∈ U ↔ v ∈ vnodes.flatMap (fun vnode => vnode.inputs) ∧ v.is_data = true ∧
          ¬ P v := by
  intro vnodes
  induction vnodes with
  | nil => intro _; exact ⟨[], rfl, List.Sublist.refl _, by simp⟩
  | cons x rest ih =>
    intro hmem
    obtain ⟨U, h1, h2, h3⟩ := ih (fun v hv => hmem v (List.mem_cons_of_mem _ hv))
    have hx := hmem x (List.mem_cons_self _ _)
    obtain ⟨U0, g1, g2, g3⟩ := unlinked_data_inputs_of_spec hst x.inputs
      (fun v hv => mem_input_sockets.mpr ⟨x, hx, hv⟩)
    refine ⟨U0 ++ U, ?_, ?_, ?_⟩
    · simp only [VTreeMFNetworkBuilder.unlinked_data_inputs, g1, h1, bind_ok]
    · rw [List.flatMap_cons]
      exact List.Sublist.append g2 h2
    · intro v
      rw [List.mem_append, g3 v, h3 v, List.flatMap_cons, List.mem_append]
      constructor
      · intro h
        rcases h with h | h
        · exact ⟨Or.inl h.1, h.2⟩
        · exact ⟨Or.inr h.1, h.2⟩
      · intro h
        rcases h.1 with hc | hc
        · exact Or.inl ⟨hc, h.2⟩
        · exact Or.inr ⟨hc, h.2⟩

theorem NetGrows.default_node {a b : MFNetwork} (h : NetGrows a b) {n : Nat}
    {function : MultiFunction} {type : MFDataType}
    (hn : a.nodes[n]? = some (default_node function type)) :
    b.nodes[n]? = some (default_node function type) := by
  obtain ⟨node1, g1, g2, g3, g4, _⟩ := h.nodes _ _ hn
  rw [g1]
  cases node1 with
  | mk kind inputs outputs =>
    simp only [FunctionDeform.default_node] at g2 g3 g4 ⊢
    subst g2 g3
    cases inputs with
    | nil => rfl
    | cons _ _ => simp at g4

/-- One round of the second loop of `insert_unlinked_inputs` on a data input
whose socket is not linked: one node without inputs is added and its output is
linked into the socket. -/
theorem insert_unlinked_input_step (bodies : FunctionBodies) {vtree : VirtualNodeTree}
    {Q : VirtualSocket → Prop} {b : VTreeMFNetworkBuilder} (hst : LinkState vtree Q b)
    {v : VirtualSocket} (hv : v ∈ vtree.input_sockets) (hd : v.is_data = true) (hQ : ¬ Q v) :
    ∃ b1 ts s, insert_unlinked_input bodies b v = .ok (true, b1) ∧ Grows b b1 ∧
      b1.m_builder.nodes.length = b.m_builder.nodes.length + 1 ∧
      b.lookup_input_socket v = .ok ts ∧ b.m_builder.input ts = .ok s ∧ s.origin = none ∧
      b1.m_builder.nodes[b.m_builder.nodes.length]?
        = some (default_node (default_function bodies v) (get_type_by_socket v)) ∧
      b1.m_builder.input ts
        = .ok { type := s.type, origin := some (b.m_builder.nodes.length, 0) } ∧
      (∀ k, k ≠ ts → k.1 < b.m_builder.nodes.length →
        b1.m_builder.input k = b.m_builder.input k) ∧
      LinkState vtree (fun w => Q w ∨ w = v) b1 := by
  obtain ⟨inserter, h1, h2⟩ := unlinked_input_inserter_spec bodies v hd b
  obtain ⟨ts, s, g1, _, g3, _⟩ := hst.mapped.inputs v hv hd
  obtain ⟨hgrow, hst1⟩ := hst.append_node
    (default_node (default_function bodies v) (get_type_by_socket v))
    (by intro s hs; simp [FunctionDeform.default_node] at hs)
  have hts1 : VTreeMFNetworkBuilder.lookup_input_socket
      { b with m_builder := ⟨b.m_builder.nodes ++
        [default_node (default_function bodies v) (get_type_by_socket v)]⟩ } v = .ok ts := by
    rw [hgrow.lookup_input]
    exact g1
  have hnew : MFNetwork.output
      ⟨b.m_builder.nodes ++
        [default_node (default_function bodies v) (get_type_by_socket v)]⟩
      (b.m_builder.nodes.length, 0) = .ok ⟨get_type_by_socket v⟩ :=
    output_eq_ok.mpr ⟨_, getElem?_append_singleton_length _ _, rfl⟩
  obtain ⟨b1, s1, m1, m2, m3, m4, m5, m6, m7, _, _, _, _, m9, m10⟩ :=
    hst1.add_link hv hd hts1 hQ hnew
  have hts_lt := input_node_lt g3
  have m4b : b.m_builder.input ts = .ok s1 := by
    rw [← input_append_left _
      [default_node (default_function bodies v) (get_type_by_socket v)] hts_lt]
    exact m4
  rw [g3] at m4b
  cases m4b
  refine ⟨b1, ts, s, ?_, hgrow.builder_trans m2, ?_, g1, g3, m5, ?_, m6, ?_, m10⟩
  · unfold insert_unlinked_input
    rw [h1]
    simp only [h2, bind_ok, hts1, m1]
  · rw [m3]
    simp
  · rw [m9 _ (by intro hc; rw [hc] at hts_lt; exact Nat.lt_irrefl _ hts_lt)]
    exact getElem?_append_singleton_length _ _
  · intro k hk hlt
    rw [m7 k hk]
    exact input_append_left _ _ hlt

/-- The run of `insert_unlinked_inputs` from a state in which the sockets of
the data inputs with `P` are linked and no others: it returns true; the data
inputs without `P` are the unlinked ones, each gets one node without inputs,
in their order, and a link from the output of that node. -/
theorem insert_unlinked_inputs_run (bodies : FunctionBodies) {vtree : VirtualNodeTree}
    (hwf : vtree.well_formed) {P : VirtualSocket → Prop} {b2 : VTreeMFNetworkBuilder}
    (hst : LinkState vtree P b2) :
    ∃ U b3, b2.unlinked_data_inputs vtree.nodes = .ok U ∧ U.Nodup ∧
      (∀ v, v ∈ U ↔ v ∈ vtree.input_sockets ∧ v.is_data = true ∧ ¬ P v) ∧
      insert_unlinked_inputs bodies b2 = .ok (true, b3) ∧ Grows b2 b3 ∧
      b3.m_builder.nodes.length = b2.m_builder.nodes.length + U.length ∧
      (∀ (i : Nat) v, U[i]? = some v → ∃ ts s,
        b2.lookup_input_socket v = .ok ts ∧ b2.m_builder.input ts = .ok s ∧ s.origin = none ∧
        b3.m_builder.nodes[b2.m_builder.nodes.length + i]?
          = some (default_node (default_function bodies v) (get_type_by_socket v)) ∧
        b3.m_builder.input ts
          = .ok { type := s.type, origin := some (b2.m_builder.nodes.length + i, 0) }) ∧
      LinkState vtree (fun w => P w ∨ w ∈ U) b3 := by
  obtain ⟨U, u1, u2, u3⟩ := unlinked_data_inputs_spec hst vtree.nodes (fun _ h => h)
  have hnd : U.Nodup := List.Nodup.sublist u2 (input_sockets_nodup hwf.1)
  have hU : ∀ v, v ∈ U ↔ v ∈ vtree.input_sockets ∧ v.is_data = true ∧ ¬ P v := u3
  obtain ⟨r, b3, h1, h2, h3⟩ := @loop_until_false_inv (insert_unlinked_input bodies)
    (fun done b => LinkState vtree (fun w => P w ∨ w ∈ done) b ∧ Grows b2 b ∧
      b.m_builder.nodes.length = b2.m_builder.nodes.length + done.length ∧
      ∀ (i : Nat) v, done[i]? = some v → ∃ ts s,
        b2.lookup_input_socket v = .ok ts ∧ b2.m_builder.input ts = .ok s ∧ s.origin = none ∧
        b.m_builder.nodes[b2.m_builder.nodes.length + i]?
          = some (default_node (default_function bodies v) (get_type_by_socket v)) ∧
        b.m_builder.input ts
          = .ok { type := s.type, origin := some (b2.m_builder.nodes.length + i, 0) })
    U [] b2
    (by
      intro pre1 t post1 b1 hsplit hinv
      rw [List.nil_append] at hinv ⊢
      obtain ⟨i1, i2, i3, i4⟩ := hinv
      have htU : t ∈ U := by rw [hsplit]; simp
      obtain ⟨ht, hd, hP⟩ := (hU t).mp htU
      have hnew : t ∉ pre1 := by
        rw [hsplit] at hnd
        intro hc
        exact (List.nodup_append.mp hnd).2.2 hc (List.mem_cons_self _ _)
      obtain ⟨b4, ts, s, m1, m2, m3, m4, m5, m6, m7, m8, m9, m10⟩ :=
        insert_unlinked_input_step bodies i1 ht hd
          (by intro hc; rcases hc with hc | hc; exact hP hc; exact hnew hc)
      refine ⟨true, b4, m1, fun _ => ⟨?_, i2.builder_trans m2, ?_, ?_⟩, fun h => by cases h⟩
      · apply m10.congr_pred
        intro w _ _
        rw [List.mem_append, List.mem_singleton]
        exact or_assoc
      · rw [m3, i3, List.length_append]
        simp only [List.length_singleton]
        omega
      · intro i w hw
        rcases Nat.lt_or_ge i pre1.length with hlt | hge
        · rw [List.getElem?_append_left hlt] at hw
          obtain ⟨ts0, s0, k1, k2, k3, k4, k5⟩ := i4 i w hw
          exact ⟨ts0, s0, k1, k2, k3, m2.net.default_node k4, m2.net.linked_input k5⟩
        · rw [List.getElem?_append_right hge] at hw
          have hi0 : i - pre1.length = 0 := by
            rcases Nat.eq_zero_or_pos (i - pre1.length) with h0 | h0
            · exact h0
            · rw [List.getElem?_eq_none (by simp only [List.length_singleton]; omega)] at hw
              cases hw
          rw [hi0] at hw
          simp only [List.getElem?_cons_zero, Option.some.injEq] at hw
          subst hw
          have hi : i = pre1.length := by omega
          subst hi
          have hts2 : b2.lookup_input_socket t = .ok ts := by
            rw [← i2.lookup_input]
            exact m4
          obtain ⟨ts2, s2, q1, _, q3, _⟩ := hst.mapped.inputs t ht hd
          rw [hts2] at q1
          cases q1
          obtain ⟨s3, q4, q5, q6⟩ := i2.net.input q3
          rw [m5] at q4
          cases q4
          have hs2 : s2.origin = none := by
            by_contra hc
            rw [q6 hc] at m6
            exact hc m6
          rw [← i3]
          rw [q5] at m8
          exact ⟨ts, s2, hts2, q3, hs2, m7, m8⟩)
    ⟨hst.congr_pred (by intro w _ _; simp), Grows.builder_refl b2, by simp, by intro i v h; simp at h⟩
  cases r with
  | false =>
    obtain ⟨pre1, t, post1, m1, m2, m3, m4⟩ := h3 rfl
    exfalso
    rw [List.nil_append] at m2
    obtain ⟨i1, _, _, _⟩ := m2
    have htU : t ∈ U := by rw [m1]; simp
    obtain ⟨ht, hd, hP⟩ := (hU t).mp htU
    have hnew : t ∉ pre1 := by
      rw [m1] at hnd
      intro hc
      exact (List.nodup_append.mp hnd).2.2 hc (List.mem_cons_self _ _)
    obtain ⟨b4, _, _, k1, _⟩ := insert_unlinked_input_step bodies i1 ht hd
      (by intro hc; rcases hc with hc | hc; exact hP hc; exact hnew hc)
    rw [k1] at m4
    cases m4
  | true =>
    obtain ⟨i1, i2, i3, i4⟩ := h2 rfl
    rw [List.nil_append] at i1 i3 i4
    refine ⟨U, b3, u1, hnd, hU, ?_, i2, i3, i4, i1⟩
    unfold insert_unlinked_inputs
    rw [hst.mapped.ok.tree, u1]
    exact h1

/-- The state of the links when `insert_links` returns: the sockets of the
data inputs with exactly one incoming link among the inputs the loop went
through are linked, and no other socket of a data input is. -/
theorem insert_links_state (bodies : FunctionBodies) {vtree : VirtualNodeTree}
    (hwf : vtree.well_formed) {b1 : VTreeMFNetworkBuilder}
    (hinv : NodesInv vtree vtree.nodes b1) :
    ∃ r b2 pre, insert_links bodies b1 = .ok (r, b2) ∧ Grows b1 b2 ∧
      (∀ v ∈ pre, v ∈ vtree.inputs_with_links) ∧ (r = true → pre = vtree.inputs_with_links) ∧
      LinkState vtree (fun v => v ∈ pre ∧ v.links.length = 1) b2 := by
  obtain ⟨r, b2, h1, h2, h3, h4⟩ := insert_links_run bodies hwf hinv
  cases r with
  | true => exact ⟨true, b2, _, h1, h2, fun _ h => h, fun _ => rfl, h3 rfl⟩
  | false =>
    obtain ⟨pre, t, post, m1, m2, _, _⟩ := h4 rfl
    exact ⟨false, b2, pre, h1, h2, fun v hv => (by rw [m1]; exact List.mem_append_left _ hv),
      fun h => (by cases h), m2⟩

theorem input_socket_eq {s s1 : MFInputSocket} (h1 : s1.type = s.type)
    (h2 : s1.origin = s.origin) : s1 = s := by
  cases s
  cases s1
  simp only at h1 h2
  rw [h1, h2]

/-- C16. Unlinked-input defaulting.  Every data socket has an entry in the
default-value registry.  On a well-formed graph the constructor and the three
phases return.  The list that the first loop of `insert_unlinked_inputs`
collects has no duplicate and holds exactly the data input sockets whose
builder socket has no origin; `insert_unlinked_inputs` returns true (and so
false exactly when some socket of the list has no registry entry); it adds
exactly one node per socket of the list, in order, a function node without
inputs and with one output of the type of the socket (the constant of the
value of the socket, or the empty list), and the origin of the builder socket
becomes the output of that node; an input socket that has an origin keeps
it. -/
theorem unlinked_input_defaulting (bodies : FunctionBodies) (vtree : VirtualNodeTree)
    (hwf : vtree.well_formed) :
    (∀ v : VirtualSocket, v.is_data = true →
      (get_unlinked_input_inserter bodies v.idname).isSome = true) ∧
    ∃ b0 b1 r b2 U r3 b3, VTreeMFNetworkBuilder.create vtree = .ok b0 ∧
      insert_nodes bodies b0 = .ok (true, b1) ∧ insert_links bodies b1 = .ok (r, b2) ∧
      b2.unlinked_data_inputs vtree.nodes = .ok U ∧
      insert_unlinked_inputs bodies b2 = .ok (r3, b3) ∧
      (r3 = false ↔ ∃ v ∈ U, get_unlinked_input_inserter bodies v.idname = none) ∧
      U.Nodup ∧
      (∀ v, v ∈ U ↔ v ∈ vtree.input_sockets ∧ v.is_data = true ∧
        ∃ ts s, b2.lookup_input_socket v = .ok ts ∧ b2.m_builder.input ts = .ok s ∧
          s.origin = none) ∧
      b3.m_builder.nodes.length = b2.m_builder.nodes.length + U.length ∧
      (∀ (i : Nat) v, U[i]? = some v → ∃ ts s,
        b2.lookup_input_socket v = .ok ts ∧ b2.m_builder.input ts = .ok s ∧ s.origin = none ∧
        b3.m_builder.nodes[b2.m_builder.nodes.length + i]?
          = some (default_node (default_function bodies v) (get_type_by_socket v)) ∧
        b3.m_builder.input ts
          = .ok { type := s.type, origin := some (b2.m_builder.nodes.length + i, 0) }) ∧
      (∀ k s, b2.m_builder.input k = .ok s → s.origin ≠ none →
        b3.m_builder.input k = .ok s) := by
  have hreg : ∀ v : VirtualSocket, v.is_data = true →
      (get_unlinked_input_inserter bodies v.idname).isSome = true := by
    intro v hd
    obtain ⟨inserter, h, _⟩ := unlinked_input_inserter_spec bodies v hd
      ⟨vtree, [], [], ⟨[]⟩⟩
    rw [h]
    rfl
  refine ⟨hreg, ?_⟩
  obtain ⟨b0, b1, h0, h1, hinv⟩ := insert_nodes_inv bodies hwf
  obtain ⟨r, b2, pre, h2, _, _, _, hst⟩ := insert_links_state bodies hwf hinv
  obtain ⟨U, b3, u1, u2, u3, u4, u5, u6, u7, _⟩ := insert_unlinked_inputs_run bodies hwf hst
  refine ⟨b0, b1, r, b2, U, true, b3, h0, h1, h2, u1, u4, ?_, u2, ?_, u6, u7, ?_⟩
  · constructor
    · intro h; cases h
    · intro h
      obtain ⟨v, hv, hnone⟩ := h
      have := hreg v ((u3 v).mp hv).2.1
      rw [hnone] at this
      cases this
  · intro v
    rw [u3 v]
    constructor
    · intro h
      obtain ⟨ts, s, g1, _, g3, _⟩ := hst.mapped.inputs v h.1 h.2.1
      refine ⟨h.1, h.2.1, ts, s, g1, g3, ?_⟩
      by_contra hc
      exact h.2.2 ((hst.linked v h.1 h.2.1 ts s g1 g3).mp hc)
    · intro h
      obtain ⟨hv, hd, ts, s, g1, g3, g4⟩ := h
      refine ⟨hv, hd, fun hP => ?_⟩
      exact (hst.linked v hv hd ts s g1 g3).mpr hP g4
  · intro k s hs hne
    obtain ⟨s1, g1, g2, g3⟩ := u5.net.input hs
    rw [g1, input_socket_eq g2 (g3 hne)]

/-- Witness of `unlinked_input_defaulting` on the graph `default_tree`, the
sum `c = a + b` whose input `b` is not linked and has the value 5: the
defaulting adds the constant 5 (node 3) and links it into `b`; evaluated with
`a = [1, 2, 3]`, the sum is `[6, 7, 8]`. -/
theorem unlinked_input_defaulting_witness :
    Example.default_tree.well_formed ∧
    (∃ b0 b1 r b2 U r3 b3, VTreeMFNetworkBuilder.create Example.default_tree = .ok b0 ∧
      insert_nodes Example.bodies b0 = .ok (true, b1) ∧
      insert_links Example.bodies b1 = .ok (r, b2) ∧
      b2.unlinked_data_inputs Example.default_tree.nodes = .ok U ∧
      insert_unlinked_inputs Example.bodies b2 = .ok (r3, b3) ∧
      (r3 = false ↔ ∃ v ∈ U, get_unlinked_input_inserter Example.bodies v.idname = none)) ∧
    (∃ b0 b1 b2 b3 network s, VTreeMFNetworkBuilder.create Example.default_tree = .ok b0 ∧
      insert_nodes Example.bodies b0 = .ok (true, b1) ∧
      insert_links Example.bodies b1 = .ok (true, b2) ∧
      insert_unlinked_inputs Example.bodies b2 = .ok (true, b3) ∧
      b3.build = .ok network ∧
      b3.m_builder.nodes[3]? = some (default_node
        (MultiFunction_ConstantValue Example.bodies .float 5) (.single .float)) ∧
      b3.m_builder.input (1, 1) = .ok { type := .single .float, origin := some (3, 0) } ∧
      call network.m_network ⟨[(0, 0)], [(2, 0)]⟩ 100 [0, 1, 2]
        [.readonly_single_input 0, .single_output 1]
        ⟨[[1, 2, 3], [0, 0, 0]], [], fun _ _ => 0⟩ = .ok s ∧
      s.memory.arrays[1]? = some [6, 7, 8]) :=
  ⟨by decide,
    match (unlinked_input_defaulting Example.bodies Example.default_tree (by decide)).2 with
    | ⟨b0, b1, r, b2, U, r3, b3, h0, h1, h2, h3, h4, h5, _⟩ =>
      ⟨b0, b1, r, b2, U, r3, b3, h0, h1, h2, h3, h4, h5⟩,
    ⟨_, _, _, _, _, _, rfl, rfl, rfl, rfl, rfl, rfl, rfl, rfl, rfl⟩⟩

/-- C15. Fan-in is skipped.  The round of `insert_links` on an input socket
with more than one incoming link returns true and leaves the builder as it
is, in every state of the builder and whatever the sources of the links are.
On a well-formed graph the constructor and the three phases return, and for
every data input socket `t` with more than one incoming link the builder
socket of `t` has no origin when `insert_links` returns, `t` is in the list
of unlinked data inputs that `insert_unlinked_inputs` collects, and when
`insert_unlinked_inputs` returns the origin of the builder socket is the
output of the default-value node of `t`, a node without inputs. -/
theorem fan_in_is_skipped (bodies : FunctionBodies) (vtree : VirtualNodeTree)
    (hwf : vtree.well_formed) :
    (∀ b t, 1 < t.links.length → insert_link bodies b t = .ok (true, b)) ∧
    ∃ b0 b1 r b2 U b3, VTreeMFNetworkBuilder.create vtree = .ok b0 ∧
      insert_nodes bodies b0 = .ok (true, b1) ∧ insert_links bodies b1 = .ok (r, b2) ∧
      b2.unlinked_data_inputs vtree.nodes = .ok U ∧
      insert_unlinked_inputs bodies b2 = .ok (true, b3) ∧
      ∀ t ∈ vtree.input_sockets, 1 < t.links.length → t.is_data = true →
        t ∈ U ∧
        ∃ ts s n, b1.lookup_input_socket t = .ok ts ∧ b3.lookup_input_socket t = .ok ts ∧
          b2.m_builder.input ts = .ok s ∧ s.origin = none ∧
          b2.m_builder.nodes.length ≤ n ∧
          b3.m_builder.nodes[n]?
            = some (default_node (default_function bodies t) (get_type_by_socket t)) ∧
          b3.m_builder.input ts = .ok { type := s.type, origin := some (n, 0) } := by
  refine ⟨fun b t h => insert_link_fan_in bodies b h, ?_⟩
  obtain ⟨b0, b1, h0, h1, hinv⟩ := insert_nodes_inv bodies hwf
  obtain ⟨r, b2, pre, h2, hg, _, _, hst⟩ := insert_links_state bodies hwf hinv
  obtain ⟨U, b3, u1, u2, u3, u4, u5, u6, u7, _⟩ := insert_unlinked_inputs_run bodies hwf hst
  refine ⟨b0, b1, r, b2, U, b3, h0, h1, h2, u1, u4, ?_⟩
  intro t ht hfan hd
  have htU : t ∈ U := (u3 t).mpr ⟨ht, hd, fun h => by omega⟩
  obtain ⟨i, hi⟩ := List.getElem?_of_mem htU
  obtain ⟨ts, s, g1, g2, g3, g4, g5⟩ := u7 i t hi
  refine ⟨htU, ts, s, _, ?_, ?_, g2, g3, Nat.le_add_right _ i, g4, g5⟩
  · rw [← hg.lookup_input]
    exact g1
  · rw [u5.lookup_input]
    exact g1

/-- Witness of `fan_in_is_skipped` on the graph `mixed_tree`, whose float
input socket 7 has two incoming links: in the builder that the phases leave,
the socket it is mapped to (input 2 of node 2) has the output of a constant
(node 5) as origin. -/
theorem fan_in_is_skipped_witness :
    Example.mixed_tree.well_formed ∧
    (∃ b0 b1 r b2 U b3, VTreeMFNetworkBuilder.create Example.mixed_tree = .ok b0 ∧
      insert_nodes Example.bodies b0 = .ok (true, b1) ∧
      insert_links Example.bodies b1 = .ok (r, b2) ∧
      b2.unlinked_data_inputs Example.mixed_tree.nodes = .ok U ∧
      insert_unlinked_inputs Example.bodies b2 = .ok (true, b3)) ∧
    Example.mixed_builder.lookup_input_socket ⟨7, "fn_FloatSocket", true, [0, 4], 0⟩
      = .ok (2, 2) ∧
    Example.mixed_builder.m_builder.input (2, 2)
      = .ok { type := .single .float, origin := some (5, 0) } ∧
    Example.mixed_builder.m_builder.nodes[5]? = some (default_node
      (MultiFunction_ConstantValue Example.bodies .float 0) (.single .float)) :=
  ⟨by decide,
    match (fan_in_is_skipped Example.bodies Example.mixed_tree (by decide)).2 with
    | ⟨b0, b1, r, b2, U, b3, h0, h1, h2, h3, h4, _⟩ => ⟨b0, b1, r, b2, U, b3, h0, h1, h2, h3, h4⟩,
    rfl, rfl, rfl⟩

/-- C17. Build-time invariant.  On a well-formed graph the constructor and
the three phases return.  When `insert_unlinked_inputs` has returned, every
data input socket of the graph is mapped to an input socket of the builder
that has an origin; every input socket of a node that `insert_links` added
(the converters) has an origin, already when `insert_links` returns; and
every input socket of the builder has an origin. -/
theorem build_time_invariant (bodies : FunctionBodies) (vtree : VirtualNodeTree)
    (hwf : vtree.well_formed) :
    ∃ b0 b1 r b2 b3, VTreeMFNetworkBuilder.create vtree = .ok b0 ∧
      insert_nodes bodies b0 = .ok (true, b1) ∧ insert_links bodies b1 = .ok (r, b2) ∧
      insert_unlinked_inputs bodies b2 = .ok (true, b3) ∧
      (∀ v ∈ vtree.input_sockets, v.is_data = true →
        ∃ ts s origin, b3.lookup_input_socket v = .ok ts ∧ b3.m_builder.input ts = .ok s ∧
          s.origin = some origin) ∧
      (∀ k s, b1.m_builder.nodes.length ≤ k.1 → b2.m_builder.input k = .ok s →
        ∃ origin, s.origin = some origin ∧ b3.m_builder.input k = .ok s) ∧
      (∀ k s, b3.m_builder.input k = .ok s → ∃ origin, s.origin = some origin) := by
  obtain ⟨b0, b1, h0, h1, hinv⟩ := insert_nodes_inv bodies hwf
  obtain ⟨r, b2, pre, h2, hg, _, _, hst⟩ := insert_links_state bodies hwf hinv
  obtain ⟨U, b3, u1, u2, u3, u4, u5, u6, u7, u8⟩ := insert_unlinked_inputs_run bodies hwf hst
  have hsome : ∀ s : MFInputSocket, s.origin ≠ none → ∃ origin, s.origin = some origin := by
    intro s hs
    cases ho : s.origin with
    | none => exact absurd ho hs
    | some o => exact ⟨o, rfl⟩
  have hdata : ∀ v ∈ vtree.input_sockets, v.is_data = true →
      ∃ ts s origin, b3.lookup_input_socket v = .ok ts ∧ b3.m_builder.input ts = .ok s ∧
        s.origin = some origin := by
    intro v hv hd
    obtain ⟨ts, s, g1, _, g3, _⟩ := u8.mapped.inputs v hv hd
    have hP : (v ∈ pre ∧ v.links.length = 1) ∨ v ∈ U := by
      by_cases hc : v ∈ pre ∧ v.links.length = 1
      · exact Or.inl hc
      · exact Or.inr ((u3 v).mpr ⟨hv, hd, hc⟩)
    obtain ⟨o, ho⟩ := hsome s ((u8.linked v hv hd ts s g1 g3).mpr hP)
    exact ⟨ts, s, o, g1, g3, ho⟩
  have hcount : b1.m_builder.nodes.length = vtree.data_node_count := hinv.count
  refine ⟨b0, b1, r, b2, b3, h0, h1, h2, u4, hdata, ?_, ?_⟩
  · intro k s hk hs
    have hne := hst.added k s (by rw [← hcount]; exact hk) hs
    obtain ⟨o, ho⟩ := hsome s hne
    obtain ⟨s1, g1, g2, g3⟩ := u5.net.input hs
    exact ⟨o, ho, by rw [g1, input_socket_eq g2 (g3 hne)]⟩
  · intro k s hs
    rcases Nat.lt_or_ge k.1 vtree.data_node_count with hlt | hge
    · obtain ⟨v, hv, hd, hl⟩ := u8.mapped.covered k s hlt hs
      obtain ⟨ts, s1, o, g1, g2, g3⟩ := hdata v hv hd
      rw [hl] at g1
      cases g1
      rw [hs] at g2
      cases g2
      exact ⟨o, g3⟩
    · exact hsome s (u8.added k s hge hs)

/-- Witness of `build_time_invariant` on the graph `mixed_tree`: the phases
return true and every input socket of the builder they leave has an origin. -/
theorem build_time_invariant_witness :
    Example.mixed_tree.well_formed ∧
    (∃ b0 b1 r b2 b3, VTreeMFNetworkBuilder.create Example.mixed_tree = .ok b0 ∧
      insert_nodes Example.bodies b0 = .ok (true, b1) ∧
      insert_links Example.bodies b1 = .ok (r, b2) ∧
      insert_unlinked_inputs Example.bodies b2 = .ok (true, b3) ∧
      (∀ k s, b3.m_builder.input k = .ok s → ∃ origin, s.origin = some origin)) ∧
    (∃ b0 b1 b2, VTreeMFNetworkBuilder.create Example.mixed_tree = .ok b0 ∧
      insert_nodes Example.bodies b0 = .ok (true, b1) ∧
      insert_links Example.bodies b1 = .ok (true, b2) ∧
      insert_unlinked_inputs Example.bodies b2 = .ok (true, Example.mixed_builder)) :=
  ⟨by decide,
    match build_time_invariant Example.bodies Example.mixed_tree (by decide) with
    | ⟨b0, b1, r, b2, b3, h0, h1, h2, h3, _, _, h6⟩ => ⟨b0, b1, r, b2, b3, h0, h1, h2, h3, h6⟩,
    ⟨_, _, _, rfl, rfl, rfl, rfl⟩⟩

/-! ## The socket map of a finished build -/

theorem NetGrows.has_socket {a b : MFNetwork} (h : NetGrows a b) {s : MFSocket}
    (hs : a.has_socket s = true) : b.has_socket s = true := by
  cases s with
  | input n i =>
    unfold MFNetwork.has_socket at hs ⊢
    cases hn : a.nodes[n]? with
    | none => simp [hn] at hs
    | some node =>
      obtain ⟨node1, g1, _, _, g4, _⟩ := h.nodes n node hn
      simp only [hn] at hs
      simp only [g1, g4]
      exact hs
  | output n j =>
    unfold MFNetwork.has_socket at hs ⊢
    cases hn : a.nodes[n]? with
    | none => simp [hn] at hs
    | some node =>
      obtain ⟨node1, g1, _, g3, _, _⟩ := h.nodes n node hn
      simp only [hn] at hs
      simp only [g1, g3]
      exact hs

/-- Dense identifiers: every number below the socket count is the identifier
of a socket of the graph. -/
theorem socket_of_id {vtree : VirtualNodeTree} (hids : vtree.ids_ok) {id : Nat}
    (hid : id < vtree.socket_count) : ∃ v ∈ vtree.sockets, v.id = id := by
  have hsub : (vtree.sockets.map (fun v => v.id)).toFinset ⊆ Finset.range vtree.socket_count := by
    intro x hx
    rw [List.mem_toFinset] at hx
    obtain ⟨v, hv, rfl⟩ := List.mem_map.mp hx
    exact Finset.mem_range.mpr (hids.2 v hv)
  have hcard : (Finset.range vtree.socket_count).card
      ≤ (vtree.sockets.map (fun v => v.id)).toFinset.card := by
    rw [List.toFinset_card_of_nodup hids.1, Finset.card_range, List.length_map]
    exact Nat.le_refl _
  have heq := Finset.eq_of_subset_of_card_le hsub hcard
  have hmem : id ∈ (vtree.sockets.map (fun v => v.id)).toFinset := by
    rw [heq]
    exact Finset.mem_range.mpr hid
  rw [List.mem_toFinset] at hmem
  obtain ⟨v, hv, hvid⟩ := List.mem_map.mp hmem
  exact ⟨v, hv, hvid⟩

theorem mem_sockets_cases {vtree : VirtualNodeTree} {v : VirtualSocket}
    (hv : v ∈ vtree.sockets) : v ∈ vtree.input_sockets ∨ v ∈ vtree.output_sockets := by
  obtain ⟨vnode, hn, hvn⟩ := List.mem_flatMap.mp hv
  rcases List.mem_append.mp hvn with h | h
  · exact Or.inl (mem_input_sockets.mpr ⟨vnode, hn, h⟩)
  · exact Or.inr (mem_output_sockets.mpr ⟨vnode, hn, h⟩)

/-- After `insert_nodes` the socket map is valid. -/
theorem NodesInv.valid_map {vtree : VirtualNodeTree} (hwf : vtree.well_formed)
    {b : VTreeMFNetworkBuilder} (hinv : NodesInv vtree vtree.nodes b) : b.map_valid := by
  have hm := hinv.mapped hwf
  refine ⟨by rw [hinv.ok.map_length, hinv.ok.tree], ?_⟩
  intro entry hentry socket hsocket
  rw [Option.mem_def] at hsocket
  subst hsocket
  obtain ⟨id, hid⟩ := List.getElem?_of_mem hentry
  have hlt : id < vtree.socket_count := by
    rw [← hinv.ok.map_length]
    rcases Nat.lt_or_ge id b.m_socket_map.length with h | h
    · exact h
    · rw [List.getElem?_eq_none h] at hid; cases hid
  obtain ⟨v, hv, rfl⟩ := socket_of_id hwf.1 hlt
  cases hd : v.is_data with
  | false =>
    rw [hinv.unmapped v hv (Or.inr hd)] at hid
    cases hid
  | true =>
    rcases mem_sockets_cases hv with hin | hout
    · obtain ⟨k, s, g1, _, g3, _⟩ := hm.inputs v hin hd
      have g4 := (lookup_input_socket_eq_ok.mp g1).2
      rw [hid] at g4
      cases g4
      obtain ⟨node, hn, hk⟩ := input_eq_ok.mp g3
      unfold MFNetwork.has_socket
      simp only [hn, decide_eq_true_eq]
      rcases Nat.lt_or_ge k.2 node.inputs.length with h | h
      · exact h
      · rw [List.getElem?_eq_none h] at hk; cases hk
    · obtain ⟨k, s, g1, _, g3, _⟩ := hm.outputs v hout hd
      have g4 := (lookup_output_socket_eq_ok.mp g1).2
      rw [hid] at g4
      cases g4
      obtain ⟨node, hn, hk⟩ := output_eq_ok.mp g3
      unfold MFNetwork.has_socket
      simp only [hn, decide_eq_true_eq]
      rcases Nat.lt_or_ge k.2 node.outputs.length with h | h
      · exact h
      · rw [List.getElem?_eq_none h] at hk; cases hk

theorem Grows.keeps_valid_map {a b : VTreeMFNetworkBuilder} (h : Grows a b) (ha : a.map_valid) :
    b.map_valid := by
  refine ⟨by rw [h.map, h.tree]; exact ha.1, ?_⟩
  intro entry hentry socket hsocket
  rw [h.map] at hentry
  exact h.net.has_socket (ha.2 entry hentry socket hsocket)

/-- On a well-formed graph the constructor and the three phases return, the
socket map they leave is valid, and `build` returns the network with that
socket map as its table. -/
theorem build_after_phases (bodies : FunctionBodies) (vtree : VirtualNodeTree)
    (hwf : vtree.well_formed) :
    ∃ b0 b1 r b2 b3, VTreeMFNetworkBuilder.create vtree = .ok b0 ∧
      insert_nodes bodies b0 = .ok (true, b1) ∧ insert_links bodies b1 = .ok (r, b2) ∧
      insert_unlinked_inputs bodies b2 = .ok (true, b3) ∧ b3.map_valid ∧
      b3.m_socket_map = b1.m_socket_map ∧
      b3.build = .ok ⟨vtree, b3.m_builder, b3.m_socket_map⟩ := by
  obtain ⟨b0, b1, h0, h1, hinv⟩ := insert_nodes_inv bodies hwf
  obtain ⟨r, b2, pre, h2, hg, _, _, hst⟩ := insert_links_state bodies hwf hinv
  obtain ⟨U, b3, _, _, _, u4, u5, _, _, u8⟩ := insert_unlinked_inputs_run bodies hwf hst
  have hvalid := (hg.builder_trans u5).keeps_valid_map (hinv.valid_map hwf)
  refine ⟨b0, b1, r, b2, b3, h0, h1, h2, u4, hvalid, (hg.builder_trans u5).map, ?_⟩
  rw [build_spec b3 hvalid, u8.mapped.ok.tree]

/-! # Sockets that carry no data, and the default-value registry -/

/-- A round of `insert_links` on an input socket with links that is not a data
socket leaves the builder as it is and lets the loop go on. -/
theorem insert_link_skips_non_data (bodies : FunctionBodies) {vtree : VirtualNodeTree}
    {b : VTreeMFNetworkBuilder} (hb : BuilderOk vtree b) {t : VirtualSocket}
    (ht : t ∈ vtree.inputs_with_links) (hd : t.is_data = false) :
    insert_link bodies b t = .ok (true, b) := by
  obtain ⟨hin, hpos⟩ := mem_inputs_with_links.mp ht
  by_cases hfan : 1 < t.links.length
  · exact insert_link_fan_in bodies b hfan
  · exact insert_link_not_data bodies hb hin (by omega) hd

/-- C21. Links into non-data sockets are ignored.  On a well-formed graph the
constructor and `insert_nodes` return, and in every state that the loop of
`insert_links` reaches in front of an input socket `t` that is not a data
socket, the round for `t` returns true and leaves the builder as it is: no
link and no node is added, whatever the socket is that `t` is linked from.
When `insert_links` returns false, the socket whose round said so is a data
socket. -/
theorem non_data_links_ignored (bodies : FunctionBodies) (vtree : VirtualNodeTree)
    (hwf : vtree.well_formed) :
    ∃ b0 b1 r b2, VTreeMFNetworkBuilder.create vtree = .ok b0 ∧
      insert_nodes bodies b0 = .ok (true, b1) ∧ insert_links bodies b1 = .ok (r, b2) ∧
      (∀ pre t post b, vtree.inputs_with_links = pre ++ t :: post →
        loop_until_false (insert_link bodies) pre b1 = .ok (true, b) → t.is_data = false →
        insert_link bodies b t = .ok (true, b)) ∧
      (r = false → ∃ pre t post, vtree.inputs_with_links = pre ++ t :: post ∧
        loop_until_false (insert_link bodies) pre b1 = .ok (true, b2) ∧
        insert_link bodies b2 t = .ok (false, b2) ∧ t.is_data = true) := by
  obtain ⟨b0, b1, h0, h1, hinv⟩ := insert_nodes_inv bodies hwf
  obtain ⟨r, b2, h2, _, _, hfalse⟩ := insert_links_run bodies hwf hinv
  refine ⟨b0, b1, r, b2, h0, h1, h2, ?_, ?_⟩
  · intro pre t post b hL hrun hd
    obtain ⟨hst, _, _, ht⟩ := insert_links_reach bodies hwf hinv hL hrun
    exact insert_link_skips_non_data bodies hst.mapped.ok ht hd
  · intro hr
    obtain ⟨pre, t, post, hL, hst, hrun, hround⟩ := hfalse hr
    refine ⟨pre, t, post, hL, hrun, hround, ?_⟩
    have ht : t ∈ vtree.inputs_with_links := by rw [hL]; simp
    cases hd : t.is_data
    · rw [insert_link_skips_non_data bodies hst.mapped.ok ht hd] at hround
      cases hround
    · rfl

/-- Witness of `non_data_links_ignored` on the graph `mixed_tree`: its input
socket 8 is not a data socket and is linked from the float output 0. -/
theorem non_data_links_ignored_witness :
    Example.mixed_tree.well_formed ∧
    (∃ t ∈ Example.mixed_tree.inputs_with_links, t.id = 8 ∧ t.is_data = false ∧ t.links = [0]) ∧
    ∃ b0 b1 r b2, VTreeMFNetworkBuilder.create Example.mixed_tree = .ok b0 ∧
      insert_nodes Example.bodies b0 = .ok (true, b1) ∧
      insert_links Example.bodies b1 = .ok (r, b2) ∧
      (∀ pre t post b, Example.mixed_tree.inputs_with_links = pre ++ t :: post →
        loop_until_false (insert_link Example.bodies) pre b1 = .ok (true, b) →
        t.is_data = false → insert_link Example.bodies b t = .ok (true, b)) ∧
      (r = false → ∃ pre t post, Example.mixed_tree.inputs_with_links = pre ++ t :: post ∧
        loop_until_false (insert_link Example.bodies) pre b1 = .ok (true, b2) ∧
        insert_link Example.bodies b2 t = .ok (false, b2) ∧ t.is_data = true) :=
  ⟨by decide, ⟨⟨8, "fn_GroupSocket", true, [0], 0⟩, by decide, rfl, by decide, rfl⟩,
    non_data_links_ignored Example.bodies Example.mixed_tree (by decide)⟩

/-- A loop whose body never says `return false` on the sockets it goes through
does not return false. -/
theorem loop_until_false_true
    {body : VTreeMFNetworkBuilder → VirtualSocket → Except EvalError (Bool × VTreeMFNetworkBuilder)} :
    ∀ (l : List VirtualSocket) (b : VTreeMFNetworkBuilder) (r : Bool) (b1 : VTreeMFNetworkBuilder),
      (∀ v ∈ l, ∀ b r b1, body b v = .ok (r, b1) → r = true) →
      loop_until_false body l b = .ok (r, b1) → r = true
  | [], b, r, b1, _, h => by
    simp only [loop_until_false] at h
    cases h
    rfl
  | v :: rest, b, r, b1, hbody, h => by
    simp only [loop_until_false] at h
    cases hv : body b v with
    | error e =>
      rw [hv] at h
      cases h
    | ok x =>
      obtain ⟨go_on, b2⟩ := x
      rw [hv] at h
      have hgo := hbody v (List.mem_cons_self _ _) b go_on b2 hv
      subst hgo
      exact loop_until_false_true rest b2 r b1
        (fun w hw => hbody w (List.mem_cons_of_mem _ hw)) h

/-- The sockets that the first loop of `insert_unlinked_inputs` collects from
the inputs of a node are among these inputs, and `is_data_socket` is true for
each. -/
theorem unlinked_data_inputs_of_mem (b : VTreeMFNetworkBuilder) :
    ∀ (l U : List VirtualSocket), b.unlinked_data_inputs_of l = .ok U →
      ∀ v ∈ U, v ∈ l ∧ b.is_data_socket v = .ok true
  | [], U, h, v, hv => by
    simp only [VTreeMFNetworkBuilder.unlinked_data_inputs_of] at h
    cases h
    cases hv
  | w :: rest, U, h, v, hv => by
    simp only [VTreeMFNetworkBuilder.unlinked_data_inputs_of] at h
    cases hw : b.is_data_socket w with
    | error e =>
      rw [hw] at h
      cases h
    | ok d =>
      rw [hw] at h
      cases d with
      | false =>
        have h1 : b.unlinked_data_inputs_of rest = .ok U := h
        obtain ⟨g1, g2⟩ := unlinked_data_inputs_of_mem b rest U h1 v hv
        exact ⟨List.mem_cons_of_mem _ g1, g2⟩
      | true =>
        have h1 : (do
            let linked ← b.is_input_linked w
            let more ← b.unlinked_data_inputs_of rest
            Except.ok (if !linked then w :: more else more)) = Except.ok U := h
        cases hl : b.is_input_linked w with
        | error e =>
          rw [hl] at h1
          cases h1
        | ok linked =>
          rw [hl] at h1
          cases hm : b.unlinked_data_inputs_of rest with
          | error e =>
            rw [hm] at h1
            cases h1
          | ok more =>
            rw [hm] at h1
            have h2 : (if !linked then w :: more else more) = U := by
              cases h1
              rfl
            have ih := unlinked_data_inputs_of_mem b rest more hm v
            cases linked with
            | true =>
              have h3 : more = U := h2
              subst h3
              obtain ⟨g1, g2⟩ := ih hv
              exact ⟨List.mem_cons_of_mem _ g1, g2⟩
            | false =>
              have h3 : w :: more = U := h2
              subst h3
              rcases List.mem_cons.mp hv with rfl | hv1
              · exact ⟨List.mem_cons_self _ _, hw⟩
              · obtain ⟨g1, g2⟩ := ih hv1
                exact ⟨List.mem_cons_of_mem _ g1, g2⟩

/-- The sockets that the first loop of `insert_unlinked_inputs` collects are
input sockets of the nodes it goes through, and `is_data_socket` is true for
each. -/
theorem unlinked_data_inputs_mem (b : VTreeMFNetworkBuilder) :
    ∀ (vnodes : List VirtualNode) (U : List VirtualSocket), b.unlinked_data_inputs vnodes = .ok U →
      ∀ v ∈ U, (∃ vnode ∈ vnodes, v ∈ vnode.inputs) ∧ b.is_data_socket v = .ok true
  | [], U, h, v, hv => by
    simp only [VTreeMFNetworkBuilder.unlinked_data_inputs] at h
    cases h
    cases hv
  | vnode :: rest, U, h, v, hv => by
    simp only [VTreeMFNetworkBuilder.unlinked_data_inputs] at h
    cases hh : b.unlinked_data_inputs_of vnode.inputs with
    | error e =>
      rw [hh] at h
      cases h
    | ok here =>
      rw [hh] at h
      cases hm : b.unlinked_data_inputs rest with
      | error e =>
        rw [hm] at h
        cases h
      | ok more =>
        rw [hm] at h
        have h2 : here ++ more = U := by
          cases h
          rfl
        subst h2
        rcases List.mem_append.mp hv with h1 | h1
        · obtain ⟨g1, g2⟩ := unlinked_data_inputs_of_mem b _ _ hh v h1
          exact ⟨⟨vnode, List.mem_cons_self _ _, g1⟩, g2⟩
        · obtain ⟨⟨n, g0, g1⟩, g2⟩ := unlinked_data_inputs_mem b rest more hm v h1
          exact ⟨⟨n, List.mem_cons_of_mem _ g0, g1⟩, g2⟩

/-- The default-value registry has an entry for a kind identifier exactly when
the identifier is one of the six of the data sockets. -/
theorem unlinked_input_inserter_isSome (bodies : FunctionBodies) (idname : String) :
    (get_unlinked_input_inserter bodies idname).isSome = decide (idname ∈ data_socket_idnames) := by
  unfold get_unlinked_input_inserter data_socket_idnames
  simp only [List.mem_cons, List.mem_singleton, List.not_mem_nil, or_false]
  split_ifs <;> simp_all

/-- The round of the second loop of `insert_unlinked_inputs` on a data socket
does not say `return false`. -/
theorem insert_unlinked_input_true (bodies : FunctionBodies) {v : VirtualSocket}
    (hd : v.is_data = true) (b : VTreeMFNetworkBuilder) (r : Bool) (b1 : VTreeMFNetworkBuilder)
    (h : insert_unlinked_input bodies b v = .ok (r, b1)) : r = true := by
  have hsome := unlinked_input_inserter_isSome bodies v.idname
  rw [← is_data_iff_idname, hd] at hsome
  obtain ⟨inserter, hi⟩ := Option.isSome_iff_exists.mp hsome
  unfold insert_unlinked_input at h
  rw [hi] at h
  cases hx : inserter b v with
  | error e =>
    simp only [hx] at h
    cases h
  | ok x =>
    obtain ⟨b2, from_socket⟩ := x
    simp only [hx] at h
    have h1 : (do
        let to_socket ← b2.lookup_input_socket v
        let builder ← b2.add_link from_socket to_socket
        Except.ok (true, builder)) = Except.ok (r, b1) := h
    cases hy : b2.lookup_input_socket v with
    | error e =>
      rw [hy] at h1
      cases h1
    | ok ts =>
      rw [hy] at h1
      have h2 : (do
          let builder ← b2.add_link from_socket ts
          Except.ok (true, builder)) = Except.ok (r, b1) := h1
      cases hz : b2.add_link from_socket ts with
      | error e =>
        rw [hz] at h2
        cases h2
      | ok b3 =>
        rw [hz] at h2
        cases h2
        rfl

/-- In a builder whose array of types holds the resolved types of the graph,
`insert_unlinked_inputs` does not return false. -/
theorem insert_unlinked_inputs_true (bodies : FunctionBodies) {vtree : VirtualNodeTree}
    {b : VTreeMFNetworkBuilder} (hb : BuilderOk vtree b) (r : Bool) (b1 : VTreeMFNetworkBuilder)
    (h : insert_unlinked_inputs bodies b = .ok (r, b1)) : r = true := by
  unfold insert_unlinked_inputs at h
  cases hU : b.unlinked_data_inputs b.m_vtree.nodes with
  | error e =>
    rw [hU] at h
    cases h
  | ok U =>
    rw [hU] at h
    have h1 : loop_until_false (insert_unlinked_input bodies) U b = .ok (r, b1) := h
    refine loop_until_false_true U b r b1 ?_ h1
    intro v hv b2 r2 b3 hround
    obtain ⟨⟨vnode, hn, hin⟩, hdata⟩ := unlinked_data_inputs_mem b _ U hU v hv
    rw [hb.tree] at hn
    rw [hb.is_data_socket_eq (mem_sockets_of_mem_inputs hn hin)] at hdata
    have hd : v.is_data = true := Except.ok.inj hdata
    exact insert_unlinked_input_true bodies hd b2 r2 b3 hround

/-- C25. The default-value registry covers every data socket kind.
`get_unlinked_input_inserter` has an entry for the kind identifier of a socket
exactly when `get_type_by_socket` gives the socket a type other than None.
Hence the round of `insert_unlinked_inputs` on a data socket never says
`return false`, and in every builder whose array of types holds the resolved
types of its graph `insert_unlinked_inputs` does not return false.  On a
well-formed graph the constructor and the phases return, and
`insert_unlinked_inputs` returns true. -/
theorem default_registry_covers_data_sockets (bodies : FunctionBodies) (vtree : VirtualNodeTree)
    (b : VTreeMFNetworkBuilder) (hb : BuilderOk vtree b) :
    (∀ v : VirtualSocket, (get_unlinked_input_inserter bodies v.idname).isSome = true ↔
      get_type_by_socket v ≠ .none) ∧
    (∀ v : VirtualSocket, get_type_by_socket v ≠ .none → ∀ b1 r b2,
      insert_unlinked_input bodies b1 v = .ok (r, b2) → r = true) ∧
    (∀ r b1, insert_unlinked_inputs bodies b = .ok (r, b1) → r = true) ∧
    (vtree.well_formed → ∃ b0 b1 r b2 b3, VTreeMFNetworkBuilder.create vtree = .ok b0 ∧
      insert_nodes bodies b0 = .ok (true, b1) ∧ insert_links bodies b1 = .ok (r, b2) ∧
      insert_unlinked_inputs bodies b2 = .ok (true, b3)) := by
  have hdata : ∀ v : VirtualSocket, get_type_by_socket v ≠ .none ↔ v.is_data = true := by
    intro v
    unfold VirtualSocket.is_data
    cases get_type_by_socket v <;> simp [MFDataType.is_none]
  refine ⟨?_, ?_, ?_, ?_⟩
  · intro v
    rw [unlinked_input_inserter_isSome, ← is_data_iff_idname, hdata]
  · intro v hv b1 r b2 h
    exact insert_unlinked_input_true bodies ((hdata v).mp hv) b1 r b2 h
  · intro r b1 h
    exact insert_unlinked_inputs_true bodies hb r b1 h
  · intro hwf
    obtain ⟨b0, b1, r, b2, b3, h0, h1, h2, h3, _⟩ := build_after_phases bodies vtree hwf
    exact ⟨b0, b1, r, b2, b3, h0, h1, h2, h3⟩

/-- Witness of `default_registry_covers_data_sockets` on the graph `mixed_tree`
and the builder that the phases leave for it. -/
theorem default_registry_covers_data_sockets_witness :
    BuilderOk Example.mixed_tree Example.mixed_builder ∧ Example.mixed_tree.well_formed ∧
    (∀ v : VirtualSocket, (get_unlinked_input_inserter Example.bodies v.idname).isSome = true ↔
      get_type_by_socket v ≠ .none) ∧
    (∀ r b1, insert_unlinked_inputs Example.bodies Example.mixed_builder = .ok (r, b1) →
      r = true) ∧
    ∃ b0 b1 r b2 b3, VTreeMFNetworkBuilder.create Example.mixed_tree = .ok b0 ∧
      insert_nodes Example.bodies b0 = .ok (true, b1) ∧
      insert_links Example.bodies b1 = .ok (r, b2) ∧
      insert_unlinked_inputs Example.bodies b2 = .ok (true, b3) :=
  have hb : BuilderOk Example.mixed_tree Example.mixed_builder := ⟨rfl, by decide, rfl⟩
  have h := default_registry_covers_data_sockets Example.bodies Example.mixed_tree
    Example.mixed_builder hb
  ⟨hb, by decide, h.1, h.2.2.1, h.2.2.2 (by decide)⟩

/-! # The socket map -/

theorem SameTables.same_refl (a : VTreeMFNetworkBuilder) : SameTables a a := ⟨rfl, rfl, rfl⟩

theorem SameTables.same_trans {a b c : VTreeMFNetworkBuilder} (h1 : SameTables a b)
    (h2 : SameTables b c) : SameTables a c :=
  ⟨h2.1.trans h1.1, h2.2.1.trans h1.2.1, h2.2.2.trans h1.2.2⟩

theorem SameTables.builder_ok {vtree : VirtualNodeTree} {a b : VTreeMFNetworkBuilder}
    (h : SameTables a b) (ha : BuilderOk vtree a) : BuilderOk vtree b :=
  ⟨h.1.trans ha.tree, by rw [h.2.2]; exact ha.types, by rw [h.2.1]; exact ha.map_length⟩

/-- `add_function` without a node of the graph appends one node and leaves the
tables of the builder alone. -/
theorem add_function_tables {b b1 : VTreeMFNetworkBuilder} {function : MultiFunction}
    {ipi opi : List Nat} {n : Nat} (h : b.add_function function ipi opi = .ok (b1, n)) :
    SameTables b b1 ∧ n = b.m_builder.nodes.length ∧
      ∃ node, b1.m_builder.nodes = b.m_builder.nodes ++ [node] := by
  unfold VTreeMFNetworkBuilder.add_function at h
  obtain ⟨x, hx, h⟩ := bind_eq_ok h
  obtain ⟨net, m⟩ := x
  cases h
  unfold MFNetwork.add_function at hx
  obtain ⟨ins, _, hx⟩ := bind_eq_ok hx
  obtain ⟨outs, _, hx⟩ := bind_eq_ok hx
  cases hx
  exact ⟨⟨rfl, rfl, rfl⟩, rfl, _, rfl⟩

/-- `add_link` leaves the tables of the builder alone. -/
theorem add_link_tables {b b1 : VTreeMFNetworkBuilder} {source : OutputRef} {target : InputRef}
    (h : b.add_link source target = .ok b1) : SameTables b b1 := by
  unfold VTreeMFNetworkBuilder.add_link at h
  obtain ⟨net, _, h⟩ := bind_eq_ok h
  cases h
  exact ⟨rfl, rfl, rfl⟩

/-- When `map_sockets_exactly` returns, every socket of the node is mapped to
the socket of the builder node at its position, and no other entry of the
socket map has changed. -/
theorem map_sockets_exactly_ok {vtree : VirtualNodeTree} {b b1 : VTreeMFNetworkBuilder}
    (hb : BuilderOk vtree b) (hids : vtree.ids_ok) {vnode : VirtualNode}
    (hn : vnode ∈ vtree.nodes) (hnd : (vnode.sockets.map (fun v => v.id)).Nodup) {n : Nat}
    (h : b.map_sockets_exactly vnode n = .ok b1) :
    BuilderOk vtree b1 ∧ b1.m_builder = b.m_builder ∧
      (∃ node, b.m_builder.nodes[n]? = some node ∧ vnode.inputs.length = node.inputs.length ∧
        vnode.outputs.length = node.outputs.length) ∧
      (∀ (k : Nat) v, vnode.inputs[k]? = some v →
        b1.m_socket_map[v.id]? = some (some (.input n k))) ∧
      (∀ (k : Nat) v, vnode.outputs[k]? = some v →
        b1.m_socket_map[v.id]? = some (some (.output n k))) ∧
      (∀ (id : Nat), id ∉ vnode.sockets.map (fun v => v.id) →
        b1.m_socket_map[id]? = b.m_socket_map[id]?) := by
  have hin : ∀ v ∈ vnode.inputs, v ∈ vtree.sockets := fun v hv => mem_sockets_of_mem_inputs hn hv
  have hout : ∀ v ∈ vnode.outputs, v ∈ vtree.sockets :=
    fun v hv => mem_sockets_of_mem_outputs hn hv
  unfold VirtualNode.sockets at hnd ⊢
  rw [List.map_append] at hnd
  have hnd1 := (List.nodup_append.mp hnd).1
  have hnd2 := (List.nodup_append.mp hnd).2.1
  have hdisj := (List.nodup_append.mp hnd).2.2
  unfold VTreeMFNetworkBuilder.map_sockets_exactly at h
  obtain ⟨node, hnode, h⟩ := bind_eq_ok h
  by_cases c1 : vnode.inputs.length ≠ node.inputs.length
  · rw [if_pos c1] at h
    cases h
  rw [if_neg c1] at h
  by_cases c2 : vnode.outputs.length ≠ node.outputs.length
  · rw [if_pos c2] at h
    cases h
  rw [if_neg c2] at h
  obtain ⟨map1, g1, g2, g3, g4⟩ := map_exactly_spec
    (fun i => MFSocket.input n i) vnode.inputs 0 b.m_socket_map
    (by intro v hv; rw [hb.map_length]; exact hids.2 v (hin v hv)) hnd1
  obtain ⟨map2, k1, k2, k3, k4⟩ := map_exactly_spec
    (fun i => MFSocket.output n i) vnode.outputs 0 map1
    (by intro v hv; rw [g2, hb.map_length]; exact hids.2 v (hout v hv)) hnd2
  rw [g1] at h
  simp only [bind_ok] at h
  rw [k1] at h
  simp only [bind_ok] at h
  cases h
  refine ⟨⟨hb.tree, hb.types, ?_⟩, rfl,
    ⟨node, node_eq_ok.mp hnode, not_not.mp c1, not_not.mp c2⟩, ?_, ?_, ?_⟩
  · show map2.length = _
    rw [k2, g2, hb.map_length]
  · intro k v hv
    show map2[v.id]? = _
    rw [k4 v.id]
    · rw [g3 k v hv, Nat.zero_add]
    · intro hc
      exact hdisj (List.mem_map.mpr ⟨v, List.getElem?_mem hv, rfl⟩) hc
  · intro k v hv
    show map2[v.id]? = _
    rw [k3 k v hv, Nat.zero_add]
  · intro id hid
    rw [List.map_append, List.mem_append, not_or] at hid
    show map2[id]? = _
    rw [k4 id hid.2, g4 id hid.1]

/-- When `add_function` with a node of the graph returns, the builder has one
more node, with as many inputs and outputs as the node of the graph, and every
socket of the node of the graph is mapped to the socket at its position. -/
theorem add_function_for_ok {vtree : VirtualNodeTree} {b b1 : VTreeMFNetworkBuilder}
    (hb : BuilderOk vtree b) (hids : vtree.ids_ok) {vnode : VirtualNode}
    (hn : vnode ∈ vtree.nodes) (hnd : (vnode.sockets.map (fun v => v.id)).Nodup)
    {function : MultiFunction} {ipi opi : List Nat}
    (h : b.add_function_for function ipi opi vnode = .ok b1) :
    BuilderOk vtree b1 ∧
      (∃ node, b1.m_builder.nodes = b.m_builder.nodes ++ [node] ∧
        vnode.inputs.length = node.inputs.length ∧ vnode.outputs.length = node.outputs.length) ∧
      (∀ (k : Nat) v, vnode.inputs[k]? = some v →
        b1.m_socket_map[v.id]? = some (some (.input b.m_builder.nodes.length k))) ∧
      (∀ (k : Nat) v, vnode.outputs[k]? = some v →
        b1.m_socket_map[v.id]? = some (some (.output b.m_builder.nodes.length k))) ∧
      (∀ (id : Nat), id ∉ vnode.sockets.map (fun v => v.id) →
        b1.m_socket_map[id]? = b.m_socket_map[id]?) := by
  unfold VTreeMFNetworkBuilder.add_function_for at h
  obtain ⟨x, hx, h⟩ := bind_eq_ok h
  obtain ⟨b2, n⟩ := x
  obtain ⟨hsame, hn2, node, hnodes⟩ := add_function_tables hx
  subst hn2
  obtain ⟨g1, g2, ⟨node1, g3, g4, g5⟩, g6, g7, g8⟩ :=
    map_sockets_exactly_ok (hsame.builder_ok hb) hids hn hnd h
  rw [hnodes, getElem?_append_singleton_length] at g3
  cases g3
  refine ⟨g1, ⟨node, by rw [g2, hnodes], g4, g5⟩, g6, g7, ?_⟩
  intro id hid
  rw [g8 id hid, hsame.2.1]

/-- Every inserter of the node registry is a call of `add_function` with the
node of the graph. -/
theorem node_inserter_is_add_function (bodies : FunctionBodies) {idname : String}
    {inserter : InsertVNodeFunction} (hreg : get_node_inserters bodies idname = some inserter)
    {b b1 : VTreeMFNetworkBuilder} {vnode : VirtualNode} (h : inserter b vnode = .ok b1) :
    ∃ function ipi opi, b.add_function_for function ipi opi vnode = .ok b1 := by
  unfold get_node_inserters at hreg
  split_ifs at hreg <;> cases hreg
  · exact ⟨_, _, _, h⟩
  · exact ⟨_, _, _, h⟩
  · exact ⟨_, _, _, h⟩
  · exact ⟨_, _, _, h⟩
  · unfold INSERT_append_to_list at h
    obtain ⟨type, _, h⟩ := bind_eq_ok h
    exact ⟨_, _, _, h⟩
  · unfold INSERT_list_length at h
    obtain ⟨type, _, h⟩ := bind_eq_ok h
    exact ⟨_, _, _, h⟩

/-- When a round of the loop of `insert_nodes` returns, it has mapped the data
sockets of its node and has left the entries of all other sockets alone. -/
theorem SocketMapInv.round (bodies : FunctionBodies) {vtree : VirtualNodeTree}
    (hids : vtree.ids_ok) {pre post : List VirtualNode} {vnode : VirtualNode}
    (hsplit : vtree.nodes = pre ++ vnode :: post) {b b1 : VTreeMFNetworkBuilder}
    (hinv : SocketMapInv vtree pre b) (h : insert_node bodies b vnode = .ok b1) :
    SocketMapInv vtree (pre ++ [vnode]) b1 := by
  have hn := mem_nodes_of_split hsplit
  obtain ⟨hnd, hfresh⟩ := node_sockets_nodup hids hsplit
  have hmem : ∀ v ∈ vnode.sockets, v ∈ vtree.sockets :=
    fun v hv => List.mem_flatMap.mpr ⟨vnode, hn, hv⟩
  have hun : ∀ v ∈ vnode.sockets, b.m_socket_map[v.id]? = some none :=
    fun v hv => hinv.unmapped v (hmem v hv) (hfresh v hv)
  have key : BuilderOk vtree b1 ∧
      (∀ v ∈ vnode.inputs, v.is_data = true →
        ∃ n k, b1.m_socket_map[v.id]? = some (some (.input n k))) ∧
      (∀ v ∈ vnode.outputs, v.is_data = true →
        ∃ n k, b1.m_socket_map[v.id]? = some (some (.output n k))) ∧
      (∀ (id : Nat), id ∉ vnode.sockets.map (fun v => v.id) →
        b1.m_socket_map[id]? = b.m_socket_map[id]?) := by
    unfold insert_node at h
    cases hreg : get_node_inserters bodies vnode.idname with
    | none =>
      rw [hreg] at h
      simp only [has_data_sockets_spec hinv.ok hn, bind_ok] at h
      cases hd : vnode.has_data with
      | false =>
        rw [hd] at h
        simp only [Bool.false_eq_true, if_false] at h
        cases h
        have hno := has_data_false hd
        refine ⟨hinv.ok, ?_, ?_, fun _ _ => rfl⟩
        · intro v hv hdv
          rw [hno v (List.mem_append_left _ hv)] at hdv
          cases hdv
        · intro v hv hdv
          rw [hno v (List.mem_append_right _ hv)] at hdv
          cases hdv
      | true =>
        rw [hd] at h
        simp only [if_true] at h
        obtain ⟨b2, g1, g2, _, g4, g5, g6⟩ := add_placeholder_spec hinv.ok hn hnd hun
        rw [g1] at h
        cases h
        refine ⟨g2, ?_, ?_, ?_⟩
        · intro v hv hdv
          obtain ⟨k, hk⟩ := List.getElem?_of_mem (mem_data_sockets.mpr ⟨hv, hdv⟩)
          exact ⟨_, k, g4 k v hk⟩
        · intro v hv hdv
          obtain ⟨k, hk⟩ := List.getElem?_of_mem (mem_data_sockets.mpr ⟨hv, hdv⟩)
          exact ⟨_, k, g5 k v hk⟩
        · intro id hid
          refine g6 id (fun hc => hid ?_)
          obtain ⟨w, hw, hwid⟩ := List.mem_map.mp hc
          exact List.mem_map.mpr ⟨w, (mem_data_sockets.mp hw).1, hwid⟩
    | some inserter =>
      rw [hreg] at h
      obtain ⟨b2, hrun, h⟩ := bind_eq_ok h
      obtain ⟨mapped, _, h⟩ := bind_eq_ok h
      cases mapped with
      | false => cases h
      | true =>
        simp only [if_true] at h
        cases h
        obtain ⟨function, ipi, opi, hadd⟩ := node_inserter_is_add_function bodies hreg hrun
        obtain ⟨g1, _, g3, g4, g5⟩ := add_function_for_ok hinv.ok hids hn hnd hadd
        refine ⟨g1, ?_, ?_, g5⟩
        · intro v hv _
          obtain ⟨k, hk⟩ := List.getElem?_of_mem hv
          exact ⟨_, k, g3 k v hk⟩
        · intro v hv _
          obtain ⟨k, hk⟩ := List.getElem?_of_mem hv
          exact ⟨_, k, g4 k v hk⟩
  obtain ⟨k1, k2, k3, k4⟩ := key
  have hother : ∀ v ∈ vtree.sockets, v ∉ vnode.sockets →
      b1.m_socket_map[v.id]? = b.m_socket_map[v.id]? := by
    intro v hv hnot
    refine k4 v.id (fun hc => hnot ?_)
    obtain ⟨w, hw, hwid⟩ := List.mem_map.mp hc
    rw [← hids.inj (hmem w hw) hv hwid]
    exact hw
  have hpre : ∀ vn ∈ pre, ∀ v ∈ vn.sockets, v ∈ vtree.sockets ∧ v ∉ vnode.sockets := by
    intro vn hvn v hv
    refine ⟨List.mem_flatMap.mpr ⟨vn, ?_, hv⟩, fun hc => ?_⟩
    · rw [hsplit]
      exact List.mem_append_left _ hvn
    · exact hfresh v hc (List.mem_flatMap.mpr ⟨vn, hvn, hv⟩)
  refine ⟨k1, ?_, ?_, ?_⟩
  · intro vn hvn v hv hdv
    rcases List.mem_append.mp hvn with hvn | hvn
    · obtain ⟨m1, m2⟩ := hpre vn hvn v (List.mem_append_left _ hv)
      rw [hother v m1 m2]
      exact hinv.inputs vn hvn v hv hdv
    · rw [List.mem_singleton] at hvn
      subst hvn
      exact k2 v hv hdv
  · intro vn hvn v hv hdv
    rcases List.mem_append.mp hvn with hvn | hvn
    · obtain ⟨m1, m2⟩ := hpre vn hvn v (List.mem_append_right _ hv)
      rw [hother v m1 m2]
      exact hinv.outputs vn hvn v hv hdv
    · rw [List.mem_singleton] at hvn
      subst hvn
      exact k3 v hv hdv
  · intro v hv hnot
    rw [List.flatMap_append, List.mem_append, not_or] at hnot
    have hnot2 : v ∉ vnode.sockets := by
      intro hc
      exact hnot.2 (by simpa using hc)
    rw [hother v hv hnot2]
    exact hinv.unmapped v hv hnot.1

/-- When the loop of `insert_nodes` over a stretch of the nodes returns, the
invariant of the socket map holds for the nodes gone through. -/
theorem SocketMapInv.stretch (bodies : FunctionBodies) {vtree : VirtualNodeTree}
    (hids : vtree.ids_ok) :
    ∀ (mid pre post : List VirtualNode) (b b1 : VTreeMFNetworkBuilder),
      vtree.nodes = pre ++ (mid ++ post) → SocketMapInv vtree pre b →
      insert_nodes_loop bodies mid b = .ok b1 → SocketMapInv vtree (pre ++ mid) b1 := by
  intro mid
  induction mid with
  | nil =>
    intro pre post b b1 _ hinv h
    simp only [insert_nodes_loop] at h
    cases h
    simpa using hinv
  | cons vnode rest ih =>
    intro pre post b b1 hsplit hinv h
    simp only [insert_nodes_loop] at h
    obtain ⟨b2, h1, h2⟩ := bind_eq_ok h
    have hstep := SocketMapInv.round bodies hids (by simpa using hsplit) hinv h1
    have := ih (pre ++ [vnode]) post b2 b1 (by simpa using hsplit) hstep h2
    simpa using this

/-- The socket map that the constructor leaves maps no socket. -/
theorem SocketMapInv.start {vtree : VirtualNodeTree} (hids : vtree.ids_ok)
    {b : VTreeMFNetworkBuilder} (hb : VTreeMFNetworkBuilder.create vtree = .ok b) :
    SocketMapInv vtree [] b := by
  have h := NodesInv.initial hids hb
  exact ⟨h.ok, fun _ hc => (by cases hc), fun _ hc => (by cases hc),
    fun v hv hnot => h.unmapped v hv (Or.inl hnot)⟩

/-- A round of the loop of `insert_links` leaves the tables of the builder alone. -/
theorem insert_link_tables (bodies : FunctionBodies) (b : VTreeMFNetworkBuilder)
    (t : VirtualSocket) (r : Bool) (b1 : VTreeMFNetworkBuilder)
    (h : insert_link bodies b t = .ok (r, b1)) : SameTables b b1 := by
  unfold insert_link at h
  split_ifs at h with c1 c2
  · cases h
    exact SameTables.same_refl _
  · obtain ⟨to_is_data, _, h⟩ := bind_eq_ok h
    cases to_is_data with
    | false =>
      cases h
      exact SameTables.same_refl _
    | true =>
      simp only [Bool.not_true, Bool.false_eq_true, if_false] at h
      obtain ⟨from_id, _, h⟩ := bind_eq_ok h
      cases hs : b.m_vtree.socket_by_id from_id with
      | none =>
        rw [hs] at h
        cases h
      | some from_vsocket =>
        rw [hs] at h
        obtain ⟨from_is_data, _, h⟩ := bind_eq_ok h
        cases from_is_data with
        | false =>
          cases h
          exact SameTables.same_refl _
        | true =>
          simp only [Bool.not_true, Bool.false_eq_true, if_false] at h
          obtain ⟨from_socket, _, h⟩ := bind_eq_ok h
          obtain ⟨to_socket, _, h⟩ := bind_eq_ok h
          obtain ⟨from_type, _, h⟩ := bind_eq_ok h
          obtain ⟨to_type, _, h⟩ := bind_eq_ok h
          split_ifs at h with c3
          · obtain ⟨b2, h2, h⟩ := bind_eq_ok h
            cases h
            exact add_link_tables h2
          · cases hc : get_conversion_inserters bodies (from_vsocket.idname, t.idname) with
            | none =>
              rw [hc] at h
              cases h
              exact SameTables.same_refl _
            | some inserter =>
              rw [hc] at h
              obtain ⟨x, hx, h⟩ := bind_eq_ok h
              obtain ⟨b2, new_input, new_output⟩ := x
              obtain ⟨b3, h3, h⟩ := bind_eq_ok h
              obtain ⟨b4, h4, h⟩ := bind_eq_ok h
              cases h
              have h2 : SameTables b b2 := by
                unfold get_conversion_inserters at hc
                split_ifs at hc
                cases hc
                unfold INSERT_convert at hx
                obtain ⟨y, hy, hx⟩ := bind_eq_ok hx
                obtain ⟨b5, node_id⟩ := y
                obtain ⟨node, _, hx⟩ := bind_eq_ok hx
                obtain ⟨_, _, hx⟩ := bind_eq_ok hx
                obtain ⟨_, _, hx⟩ := bind_eq_ok hx
                cases hx
                exact (add_function_tables hy).1
              exact (h2.same_trans (add_link_tables h3)).same_trans (add_link_tables h4)

/-- A default-value inserter leaves the tables of the builder alone. -/
theorem unlinked_input_inserter_tables (bodies : FunctionBodies) {idname : String}
    {inserter : InsertUnlinkedInputFunction}
    (hreg : get_unlinked_input_inserter bodies idname = some inserter)
    {b b1 : VTreeMFNetworkBuilder} {v : VirtualSocket} {from_socket : OutputRef}
    (h : inserter b v = .ok (b1, from_socket)) : SameTables b b1 := by
  have hconst : ∀ type, INSERT_constant_socket bodies type b v = .ok (b1, from_socket) →
      SameTables b b1 := by
    intro type hx
    unfold INSERT_constant_socket at hx
    obtain ⟨y, hy, hx⟩ := bind_eq_ok hx
    obtain ⟨b5, node_id⟩ := y
    obtain ⟨node, _, hx⟩ := bind_eq_ok hx
    obtain ⟨_, _, hx⟩ := bind_eq_ok hx
    cases hx
    exact (add_function_tables hy).1
  have hempty : ∀ type, INSERT_empty_list_socket bodies type b v = .ok (b1, from_socket) →
      SameTables b b1 := by
    intro type hx
    unfold INSERT_empty_list_socket at hx
    obtain ⟨y, hy, hx⟩ := bind_eq_ok hx
    obtain ⟨b5, node_id⟩ := y
    obtain ⟨node, _, hx⟩ := bind_eq_ok hx
    obtain ⟨_, _, hx⟩ := bind_eq_ok hx
    cases hx
    exact (add_function_tables hy).1
  unfold get_unlinked_input_inserter at hreg
  split_ifs at hreg <;> cases hreg
  · exact hconst _ h
  · exact hconst _ h
  · exact hconst _ h
  · exact hempty _ h
  · exact hempty _ h
  · exact hempty _ h

/-- A round of the second loop of `insert_unlinked_inputs` leaves the tables
of the builder alone, and the lookup it makes is made on these tables. -/
theorem insert_unlinked_input_tables (bodies : FunctionBodies) (b : VTreeMFNetworkBuilder)
    (v : VirtualSocket) (r : Bool) (b1 : VTreeMFNetworkBuilder)
    (h : insert_unlinked_input bodies b v = .ok (r, b1)) : SameTables b b1 := by
  unfold insert_unlinked_input at h
  cases hreg : get_unlinked_input_inserter bodies v.idname with
  | none =>
    rw [hreg] at h
    cases h
    exact SameTables.same_refl _
  | some inserter =>
    rw [hreg] at h
    obtain ⟨x, hx, h⟩ := bind_eq_ok h
    obtain ⟨b2, from_socket⟩ := x
    obtain ⟨to_socket, _, h⟩ := bind_eq_ok h
    obtain ⟨b3, h3, h⟩ := bind_eq_ok h
    cases h
    exact (unlinked_input_inserter_tables bodies hreg hx).same_trans (add_link_tables h3)

/-- A loop whose rounds leave the tables of the builder alone leaves them alone. -/
theorem loop_until_false_tables
    {body : VTreeMFNetworkBuilder → VirtualSocket → Except EvalError (Bool × VTreeMFNetworkBuilder)}
    (hbody : ∀ b v r b1, body b v = .ok (r, b1) → SameTables b b1) :
    ∀ (l : List VirtualSocket) (b : VTreeMFNetworkBuilder) (r : Bool) (b1 : VTreeMFNetworkBuilder),
      loop_until_false body l b = .ok (r, b1) → SameTables b b1
  | [], b, r, b1, h => by
    simp only [loop_until_false] at h
    cases h
    exact SameTables.same_refl _
  | v :: rest, b, r, b1, h => by
    simp only [loop_until_false] at h
    obtain ⟨x, hx, h⟩ := bind_eq_ok h
    obtain ⟨go_on, b2⟩ := x
    have h2 := hbody b v go_on b2 hx
    cases go_on with
    | false =>
      cases h
      exact h2
    | true =>
      exact h2.same_trans (loop_until_false_tables hbody rest b2 r b1 h)

/-- C28. Every data socket is mapped after `insert_nodes`.  For a graph with
dense socket identifiers, when the constructor and `insert_nodes` have
returned (so the assertions of `map_sockets_exactly` on the socket counts have
held): every data input socket of the graph is mapped to an input socket of
the builder and every data output socket to an output socket; in the state
before the round of a node no socket of that node is mapped, so that no socket
is mapped twice; the loops of `insert_links` and `insert_unlinked_inputs` and
the default-value inserters leave the socket map as `insert_nodes` left it;
and with that socket map `lookup_input_socket` and `lookup_output_socket`
return a socket for every data socket of their direction.  On a well-formed
graph the two later phases return. -/
theorem data_sockets_mapped_after_insert_nodes (bodies : FunctionBodies)
    (vtree : VirtualNodeTree) (hids : vtree.ids_ok) (b0 b1 : VTreeMFNetworkBuilder) (r : Bool)
    (h0 : VTreeMFNetworkBuilder.create vtree = .ok b0)
    (h1 : insert_nodes bodies b0 = .ok (r, b1)) :
    (∀ v ∈ vtree.input_sockets, v.is_data = true →
      ∃ n k, b1.m_socket_map[v.id]? = some (some (.input n k))) ∧
    (∀ v ∈ vtree.output_sockets, v.is_data = true →
      ∃ n k, b1.m_socket_map[v.id]? = some (some (.output n k))) ∧
    (∀ pre vnode post b, vtree.nodes = pre ++ vnode :: post →
      insert_nodes_loop bodies pre b0 = .ok b →
      ∀ v ∈ vnode.sockets, b.m_socket_map[v.id]? = some none) ∧
    (∀ l r2 b, loop_until_false (insert_link bodies) l b1 = .ok (r2, b) →
      b.m_socket_map = b1.m_socket_map) ∧
    (∀ r2 b2 l r3 b, insert_links bodies b1 = .ok (r2, b2) →
      loop_until_false (insert_unlinked_input bodies) l b2 = .ok (r3, b) →
      b.m_socket_map = b1.m_socket_map ∧
      ∀ v inserter b3 from_socket, get_unlinked_input_inserter bodies v.idname = some inserter →
        inserter b v = .ok (b3, from_socket) → b3.m_socket_map = b1.m_socket_map) ∧
    (∀ b : VTreeMFNetworkBuilder, b.m_socket_map = b1.m_socket_map →
      (∀ v ∈ vtree.input_sockets, v.is_data = true → v.is_input = true →
        ∃ k, b.lookup_input_socket v = .ok k) ∧
      (∀ v ∈ vtree.output_sockets, v.is_data = true → v.is_input = false →
        ∃ k, b.lookup_output_socket v = .ok k)) ∧
    (vtree.well_formed → ∃ r2 b2 b3, insert_links bodies b1 = .ok (r2, b2) ∧
      insert_unlinked_inputs bodies b2 = .ok (true, b3)) := by
  have hstart := SocketMapInv.start hids h0
  have htree : b0.m_vtree = vtree := hstart.ok.tree
  unfold insert_nodes at h1
  obtain ⟨bx, hloop, h1⟩ := bind_eq_ok h1
  cases h1
  rw [htree] at hloop
  have hinv : SocketMapInv vtree vtree.nodes b1 :=
    SocketMapInv.stretch bodies hids vtree.nodes [] [] b0 b1 (by simp) hstart hloop
  have hins : ∀ v ∈ vtree.input_sockets, v.is_data = true →
      ∃ n k, b1.m_socket_map[v.id]? = some (some (.input n k)) := by
    intro v hv hd
    obtain ⟨vnode, hn, hvn⟩ := List.mem_flatMap.mp hv
    exact hinv.inputs vnode hn v hvn hd
  have houts : ∀ v ∈ vtree.output_sockets, v.is_data = true →
      ∃ n k, b1.m_socket_map[v.id]? = some (some (.output n k)) := by
    intro v hv hd
    obtain ⟨vnode, hn, hvn⟩ := List.mem_flatMap.mp hv
    exact hinv.outputs vnode hn v hvn hd
  refine ⟨hins, houts, ?_, ?_, ?_, ?_, ?_⟩
  · intro pre vnode post b2 hsplit hpre v hv
    have hinv2 : SocketMapInv vtree pre b2 := by
      have := SocketMapInv.stretch bodies hids pre [] (vnode :: post) b0 b2
        (by simpa using hsplit) hstart hpre
      simpa using this
    exact hinv2.unmapped v (List.mem_flatMap.mpr ⟨vnode, mem_nodes_of_split hsplit, hv⟩)
      ((node_sockets_nodup hids hsplit).2 v hv)
  · intro l r2 b2 h
    exact (loop_until_false_tables (insert_link_tables bodies) l b1 r2 b2 h).2.1
  · intro r2 b2 l r3 b4 h2 h3
    have e2 : b2.m_socket_map = b1.m_socket_map :=
      (loop_until_false_tables (insert_link_tables bodies) _ b1 r2 b2 h2).2.1
    have e3 : b4.m_socket_map = b2.m_socket_map :=
      (loop_until_false_tables (insert_unlinked_input_tables bodies) l b2 r3 b4 h3).2.1
    refine ⟨e3.trans e2, ?_⟩
    intro v inserter b3 from_socket hreg hrun
    exact ((unlinked_input_inserter_tables bodies hreg hrun).2.1.trans e3).trans e2
  · intro b2 hmap
    refine ⟨?_, ?_⟩
    · intro v hv hd hdir
      obtain ⟨n, k, hk⟩ := hins v hv hd
      exact ⟨(n, k), lookup_input_socket_eq_ok.mpr ⟨hdir, by rw [hmap]; exact hk⟩⟩
    · intro v hv hd hdir
      obtain ⟨n, k, hk⟩ := houts v hv hd
      exact ⟨(n, k), lookup_output_socket_eq_ok.mpr ⟨hdir, by rw [hmap]; exact hk⟩⟩
  · intro hwf
    obtain ⟨c0, c1, r2, b2, b3, e0, e1, e2, e3, _⟩ := build_after_phases bodies vtree hwf
    rw [h0] at e0
    cases e0
    unfold insert_nodes at e1
    rw [htree, hloop] at e1
    cases e1
    exact ⟨r2, b2, b3, e2, e3⟩

/-- Witness of `data_sockets_mapped_after_insert_nodes` on the graph
`mixed_tree`, with the builders that the constructor and `insert_nodes` leave
for it. -/
theorem data_sockets_mapped_after_insert_nodes_witness :
    Example.mixed_tree.ids_ok ∧
    VTreeMFNetworkBuilder.create Example.mixed_tree = .ok Example.mixed_builder_created ∧
    insert_nodes Example.bodies Example.mixed_builder_created
      = .ok (true, Example.mixed_builder_nodes) ∧
    (∀ v ∈ Example.mixed_tree.input_sockets, v.is_data = true →
      ∃ n k, Example.mixed_builder_nodes.m_socket_map[v.id]? = some (some (.input n k))) ∧
    (∀ v ∈ Example.mixed_tree.output_sockets, v.is_data = true →
      ∃ n k, Example.mixed_builder_nodes.m_socket_map[v.id]? = some (some (.output n k))) :=
  have h := data_sockets_mapped_after_insert_nodes Example.bodies Example.mixed_tree (by decide)
    Example.mixed_builder_created Example.mixed_builder_nodes true rfl rfl
  ⟨by decide, rfl, rfl, h.1, h.2.1⟩

/-! # Lanes and buffers -/

/-- In a lane sequence in ascending order no lane is above the last one. -/
theorem le_getLast_of_ascending :
    ∀ (mask_indices : List Nat) (hne : mask_indices ≠ []),
      mask_indices.Pairwise (fun a b => a ≤ b) → ∀ i ∈ mask_indices, i ≤ mask_indices.getLast hne
  | [], hne, _, _, _ => absurd rfl hne
  | [x], _, _, i, hi => by
    rw [List.mem_singleton] at hi
    subst hi
    exact Nat.le_refl _
  | x :: y :: rest, _, hs, i, hi => by
    rw [List.getLast_cons (List.cons_ne_nil y rest)]
    obtain ⟨h1, h2⟩ := List.pairwise_cons.mp hs
    rcases List.mem_cons.mp hi with rfl | hi
    · exact h1 _ (List.getLast_mem _)
    · exact le_getLast_of_ascending (y :: rest) (List.cons_ne_nil y rest) h2 i hi

/-- Writing back a parameter keeps the number of lanes of every buffer. -/
theorem write_param_lanes (mem : Memory) (prm : MFParam) (v : ParamValue) (a : Nat) :
    ((write_param mem prm v).arrays[a]?).map List.length = (mem.arrays[a]?).map List.length ∧
      ((write_param mem prm v).vector_arrays[a]?).map List.length
        = (mem.vector_arrays[a]?).map List.length := by
  cases prm with
  | readonly_single_input d => cases v <;> exact ⟨rfl, rfl⟩
  | readonly_vector_input d => cases v <;> exact ⟨rfl, rfl⟩
  | single_output d =>
    cases v with
    | vector lists => exact ⟨rfl, rfl⟩
    | single values =>
      simp only [write_param]
      cases hold : mem.arrays[d]? with
      | none => exact ⟨rfl, rfl⟩
      | some old =>
        simp only
        split_ifs with hlen
        · refine ⟨?_, rfl⟩
          simp only
          by_cases hda : d = a
          · subst hda
            rw [List.getElem?_set_eq_of_lt _ (List.getElem?_eq_some_iff.mp hold).1, hold]
            simp [hlen]
          · rw [List.getElem?_set_ne hda]
        · exact ⟨rfl, rfl⟩
  | vector_output d =>
    cases v with
    | single values => exact ⟨rfl, rfl⟩
    | vector lists =>
      simp only [write_param]
      cases hold : mem.vector_arrays[d]? with
      | none => exact ⟨rfl, rfl⟩
      | some old =>
        simp only
        split_ifs with hlen
        · refine ⟨rfl, ?_⟩
          simp only
          by_cases hda : d = a
          · subst hda
            rw [List.getElem?_set_eq_of_lt _ (List.getElem?_eq_some_iff.mp hold).1, hold]
            simp [hlen]
          · rw [List.getElem?_set_ne hda]
        · exact ⟨rfl, rfl⟩
  | mutable_vector d =>
    cases v with
    | single values => exact ⟨rfl, rfl⟩
    | vector lists =>
      simp only [write_param]
      cases hold : mem.vector_arrays[d]? with
      | none => exact ⟨rfl, rfl⟩
      | some old =>
        simp only
        split_ifs with hlen
        · refine ⟨rfl, ?_⟩
          simp only
          by_cases hda : d = a
          · subst hda
            rw [List.getElem?_set_eq_of_lt _ (List.getElem?_eq_some_iff.mp hold).1, hold]
            simp [hlen]
          · rw [List.getElem?_set_ne hda]
        · exact ⟨rfl, rfl⟩

/-- Writing back the parameters keeps the number of lanes of every buffer. -/
theorem write_params_lanes :
    ∀ (ps : List MFParam) (vs : List ParamValue) (mem : Memory) (a : Nat),
      ((write_params mem ps vs).arrays[a]?).map List.length = (mem.arrays[a]?).map List.length ∧
        ((write_params mem ps vs).vector_arrays[a]?).map List.length
          = (mem.vector_arrays[a]?).map List.length
  | [], _, _, _ => by simp [write_params]
  | _ :: _, [], _, _ => by simp [write_params]
  | prm :: ps, v :: vs, mem, a => by
    simp only [write_params]
    obtain ⟨h1, h2⟩ := write_params_lanes ps vs (write_param mem prm v) a
    obtain ⟨g1, g2⟩ := write_param_lanes mem prm v a
    exact ⟨h1.trans g1, h2.trans g2⟩

/-- What `compute_and_forward_outputs` does to the buffers: the parameter loop
appends arrays and vector arrays of `size` lanes, and afterwards every array
and every vector array that was there or was appended has the number of lanes
it had. -/
theorem compute_and_forward_outputs_lanes {net : MFNetwork} {tree : MultiFunction_FunctionTree}
    {mask_indices : List Nat} {n : Nat} {node : MFNode} {function : MultiFunction}
    {ipi opi : List Nat} {s s1 : EvalState} {size : Nat}
    (hsize : array_size mask_indices = .ok size)
    (h : compute_and_forward_outputs net tree mask_indices n node function ipi opi s = .ok s1) :
    ∃ b new_arrays new_vectors,
      add_params n node ipi opi size s.storage 0 function.signature
        { array_size := size, memory := s.memory, params := [], single_outputs_to_forward := [],
          vector_outputs_to_forward := [] } = .ok b ∧
      b.memory.arrays = s.memory.arrays ++ new_arrays ∧ (∀ x ∈ new_arrays, x.length = size) ∧
      b.memory.vector_arrays = s.memory.vector_arrays ++ new_vectors ∧
      (∀ x ∈ new_vectors, x.length = size) ∧
      (∀ a : Nat,
        (s1.memory.arrays[a]?).map List.length = (b.memory.arrays[a]?).map List.length) ∧
      (∀ a : Nat, a < b.memory.vector_arrays.length →
        (s1.memory.vector_arrays[a]?).map List.length
          = (b.memory.vector_arrays[a]?).map List.length) := by
  unfold compute_and_forward_outputs at h
  rw [hsize] at h
  simp only [bind_ok] at h
  obtain ⟨b, hb, h⟩ := bind_eq_ok h
  obtain ⟨values, _, h⟩ := bind_eq_ok h
  obtain ⟨st, _, h⟩ := bind_eq_ok h
  obtain ⟨s2, hs2, h⟩ := bind_eq_ok h
  cases h
  obtain ⟨_, ⟨new_arrays, g1, g2⟩, ⟨new_vectors, k1, k2⟩⟩ :=
    add_params_allocates n node ipi opi size s.storage function.signature 0 _ b hb
  obtain ⟨l, hl, _⟩ := forward_vector_outputs_steps net tree _ _ _ hs2
  obtain ⟨_, f1, f2⟩ := hl.frame
  simp only at f1 f2
  refine ⟨b, new_arrays, new_vectors, hb, g1, g2, k1, k2, ?_, ?_⟩
  · intro a
    show (s2.memory.arrays[a]?).map List.length = _
    rw [f1]
    exact (write_params_lanes _ _ _ a).1
  · intro a ha
    show (s2.memory.vector_arrays[a]?).map List.length = _
    obtain ⟨t, ht⟩ := f2
    rw [← ht, List.getElem?_append_left
      (by rw [(write_params_lengths _ _ _).2]; exact ha)]
    exact (write_params_lanes _ _ _ a).2

/-- One iteration of the loop keeps the arrays allocated during the call at
`size` lanes. -/
theorem step_sized {net : MFNetwork} {tree : MultiFunction_FunctionTree}
    {mask_indices : List Nat} {size : Nat} (hsize : array_size mask_indices = .ok size)
    {stack stack1 : List MFSocket} {s s1 : EvalState} {first : Nat}
    (h : step net tree mask_indices stack s = .ok (stack1, s1))
    (hs : ∀ a x, first ≤ a → s.memory.arrays[a]? = some x → x.length = size) :
    ∀ a x, first ≤ a → s1.memory.arrays[a]? = some x → x.length = size := by
  unfold step at h
  split at h
  · cases h
    exact hs
  · obtain ⟨sock, _, h⟩ := bind_eq_ok h
    obtain ⟨computed, _, h⟩ := bind_eq_ok h
    split_ifs at h
    · cases h
      exact hs
    · split at h
      · cases h
        exact hs
      · cases h
  · obtain ⟨node, _, h⟩ := bind_eq_ok h
    split at h
    · cases h
    · obtain ⟨pushed, _, h⟩ := bind_eq_ok h
      split at h
      · obtain ⟨s2, hs2, h⟩ := bind_eq_ok h
        cases h
        obtain ⟨b, new_arrays, _, _, g1, g2, _, _, g3, _⟩ :=
          compute_and_forward_outputs_lanes hsize hs2
        intro a x ha hx
        have h3 := g3 a
        rw [hx, g1] at h3
        by_cases hlt : a < s.memory.arrays.length
        · rw [List.getElem?_append_left hlt] at h3
          cases hy : s.memory.arrays[a]? with
          | none => rw [hy] at h3; cases h3
          | some y =>
            rw [hy] at h3
            have := hs a y ha hy
            simp only [Option.map_some', Option.some.injEq] at h3
            omega
        · rw [List.getElem?_append_right (Nat.le_of_not_lt hlt)] at h3
          cases hy : new_arrays[a - s.memory.arrays.length]? with
          | none => rw [hy] at h3; cases h3
          | some y =>
            rw [hy] at h3
            have := g2 y (List.getElem?_mem hy)
            simp only [Option.map_some', Option.some.injEq] at h3
            omega
      · cases h
        exact hs

/-- In every state of the loop after seed, every array that was allocated
during the call has `size` lanes. -/
theorem reachable_sized {net : MFNetwork} {tree : MultiFunction_FunctionTree}
    {mask_indices : List Nat} {size : Nat} (hsize : array_size mask_indices = .ok size)
    {params : List MFParam} {mem : Memory} {s0 : EvalState}
    (hseed : copy_inputs_to_storage net tree params (initial_state mem) = .ok s0)
    {stack : List MFSocket} {s : EvalState}
    (h : Reachable net tree mask_indices s0 stack s) :
    ∀ a x, mem.arrays.length ≤ a → s.memory.arrays[a]? = some x → x.length = size := by
  induction h with
  | start =>
    intro a x ha hx
    obtain ⟨l, hl, _⟩ := copy_inputs_from_steps net params _ _ _ _ hseed
    have h2 := hl.frame.2.1
    rw [h2] at hx
    have : (initial_state mem).memory.arrays[a]? = none := List.getElem?_eq_none ha
    rw [this] at hx
    cases hx
  | next stack stack1 s s1 _ hstep ih => exact step_sized hsize hstep ih

/-- C29, amended.  In-bounds lanes for an ascending mask.  For a non-empty lane
sequence in ascending order whose last lane is below 4294967295 the array size
is the last lane plus one (the sum does not wrap in 32 bits) and every lane of
the sequence is below it.  `compute_and_forward_outputs` gives every array and
vector array it allocates that many lanes, so a read or write at a masked lane
is within the buffer, before and after the function has been called.  In
every state of the loop after seed, every array allocated during the call has
that many lanes; in particular, at the end of the loop the read `values[i]` of
drain, on an array of the storage that was allocated during the call, is
within the array for every masked lane `i`. -/
theorem masked_lanes_in_bounds (mask_indices : List Nat) (hne : mask_indices ≠ [])
    (hs : mask_indices.Pairwise (fun a b => a ≤ b))
    (hlast : mask_indices.getLast hne < 4294967295) :
    array_size mask_indices = .ok (mask_indices.getLast hne + 1) ∧
    (∀ i ∈ mask_indices, i < mask_indices.getLast hne + 1) ∧
    (∀ net tree node_id node function ipi opi s s1,
      compute_and_forward_outputs net tree mask_indices node_id node function ipi opi s
        = .ok s1 →
      ∃ b new_arrays new_vectors,
        add_params node_id node ipi opi (mask_indices.getLast hne + 1) s.storage 0
          function.signature
          { array_size := mask_indices.getLast hne + 1, memory := s.memory, params := [],
            single_outputs_to_forward := [], vector_outputs_to_forward := [] } = .ok b ∧
        b.memory.arrays = s.memory.arrays ++ new_arrays ∧
        b.memory.vector_arrays = s.memory.vector_arrays ++ new_vectors ∧
        (∀ x ∈ new_arrays, ∀ i ∈ mask_indices, ∃ v, index_list x i = .ok v) ∧
        (∀ x ∈ new_vectors, ∀ i ∈ mask_indices, ∃ v, index_list x i = .ok v) ∧
        (∀ a x, s.memory.arrays.length ≤ a → s1.memory.arrays[a]? = some x →
          ∀ i ∈ mask_indices, ∃ v, index_list x i = .ok v) ∧
        (∀ a x, s.memory.vector_arrays.length ≤ a → a < b.memory.vector_arrays.length →
          s1.memory.vector_arrays[a]? = some x →
          ∀ i ∈ mask_indices, ∃ v, index_list x i = .ok v)) ∧
    (∀ net tree params mem s0 stack s,
      copy_inputs_to_storage net tree params (initial_state mem) = .ok s0 →
      Reachable net tree mask_indices s0 stack s →
      ∀ a source, mem.arrays.length ≤ a → s.memory.arrays[a]? = some source →
        source.length = mask_indices.getLast hne + 1 ∧
        ∀ i ∈ mask_indices, ∃ v, index_list source i = .ok v) ∧
    (∀ net tree params mem s0 fuel s1,
      copy_inputs_to_storage net tree params (initial_state mem) = .ok s0 →
      evaluate_network_to_compute_outputs net tree fuel mask_indices s0 = .ok s1 →
      ∀ socket values source, s1.storage.get_virtual_list_for_input socket = .ok values →
        mem.arrays.length ≤ values → index_list s1.memory.arrays values = .ok source →
        ∀ i ∈ mask_indices, ∃ v, index_list source i = .ok v) := by
  have hsize := array_size_eq mask_indices hne hlast
  have hlt : ∀ i ∈ mask_indices, i < mask_indices.getLast hne + 1 :=
    fun i hi => Nat.lt_succ_of_le (le_getLast_of_ascending mask_indices hne hs i hi)
  have hread : ∀ {α : Type} (x : List α), x.length = mask_indices.getLast hne + 1 →
      ∀ i ∈ mask_indices, ∃ v, index_list x i = .ok v := by
    intro α x hx i hi
    have hi2 : i < x.length := by rw [hx]; exact hlt i hi
    exact ⟨x[i], index_list_of_lt hi2⟩
  have hloop : ∀ net tree params mem s0 stack s,
      copy_inputs_to_storage net tree params (initial_state mem) = .ok s0 →
      Reachable net tree mask_indices s0 stack s →
      ∀ a source, mem.arrays.length ≤ a → s.memory.arrays[a]? = some source →
        source.length = mask_indices.getLast hne + 1 ∧
        ∀ i ∈ mask_indices, ∃ v, index_list source i = .ok v := by
    intro net tree params mem s0 stack s hseed hreach a source ha hsource
    have hlen := reachable_sized hsize hseed hreach a source ha hsource
    exact ⟨hlen, hread source hlen⟩
  refine ⟨hsize, hlt, ?_, hloop, ?_⟩
  · intro net tree node_id node function ipi opi s s1 h
    obtain ⟨b, new_arrays, new_vectors, g0, g1, g2, k1, k2, g3, k3⟩ :=
      compute_and_forward_outputs_lanes hsize h
    refine ⟨b, new_arrays, new_vectors, g0, g1, k1, fun x hx => hread x (g2 x hx),
      fun x hx => hread x (k2 x hx), ?_, ?_⟩
    · intro a x ha hx
      refine hread x ?_
      have h3 := g3 a
      rw [hx, g1, List.getElem?_append_right ha] at h3
      cases hy : new_arrays[a - s.memory.arrays.length]? with
      | none => rw [hy] at h3; cases h3
      | some y =>
        rw [hy] at h3
        have := g2 y (List.getElem?_mem hy)
        simp only [Option.map_some', Option.some.injEq] at h3
        omega
    · intro a x ha hab hx
      refine hread x ?_
      have h3 := k3 a hab
      rw [hx, k1, List.getElem?_append_right ha] at h3
      cases hy : new_vectors[a - s.memory.vector_arrays.length]? with
      | none => rw [hy] at h3; cases h3
      | some y =>
        rw [hy] at h3
        have := k2 y (List.getElem?_mem hy)
        simp only [Option.map_some', Option.some.injEq] at h3
        omega
  · intro net tree params mem s0 fuel s1 hseed hrun socket values source _ ha hsource
    have hreach := evaluate_loop_reachable fuel _ s0 s1 (Reachable.start) hrun
    exact (hloop net tree params mem s0 [] s1 hseed hreach values source ha
      (index_list_eq_ok.mp hsource)).2

/-- Witness of `masked_lanes_in_bounds` on the lanes 0, 2 and 3: the buffers
get four lanes. -/
theorem masked_lanes_in_bounds_witness :
    ([0, 2, 3] : List Nat).Pairwise (fun a b => a ≤ b) ∧
    ([0, 2, 3] : List Nat).getLast (by decide) < 4294967295 ∧
    array_size [0, 2, 3] = .ok 4 ∧ (∀ i ∈ ([0, 2, 3] : List Nat), i < 4) :=
  have h := masked_lanes_in_bounds [0, 2, 3] (by decide) (by decide) (by decide)
  ⟨by decide, by decide, h.1, h.2.1⟩

/-- C29, as stated, fails for the lane sequence of the one lane `4294967295`,
which is not empty and ascending: the size, last lane plus one in 32-bit
unsigned arithmetic, is `0`, and the lane is not below it; the array that the
parameter loop of `compute_and_forward_outputs` allocates for the sum of
`add_network` has no lane, so that an access at the lane is outside of it. -/
theorem lane_is_not_below_wrapped_size :
    ([4294967295] : List Nat) ≠ [] ∧
    ([4294967295] : List Nat).Pairwise (fun a b => a ≤ b) ∧
    array_size [4294967295] = .ok 0 ∧
    (∀ size, array_size [4294967295] = .ok size → ¬ ∀ i ∈ ([4294967295] : List Nat), i < size) ∧
    ∃ s0 node b x,
      copy_inputs_to_storage Example.add_network Example.add_tree Example.add_params
        (initial_state Example.add_memory) = .ok s0 ∧
      Example.add_network.node 1 = .ok node ∧
      add_params 1 node [0, 1] [2] 0 s0.storage 0 Example.AddFloats.signature
        { array_size := 0, memory := s0.memory, params := [],
          single_outputs_to_forward := [], vector_outputs_to_forward := [] } = .ok b ∧
      b.single_outputs_to_forward = [((1, 0), 3)] ∧
      b.memory.arrays[3]? = some x ∧
      index_list x 4294967295 = .error .index_out_of_range :=
  ⟨by decide, by decide, rfl,
    fun size h hall => (by
      cases h
      exact absurd (hall 4294967295 (List.mem_singleton.mpr rfl)) (by decide)),
    _, _, _, _, rfl, rfl, rfl, rfl, rfl, rfl⟩

/-! # Lanes outside the mask -/

theorem lanes_kept_refl {α : Type} (lanes : List Nat) (l : List (List α)) :
    lanes_kept lanes l l :=
  fun _ d h => ⟨d, h, rfl, fun _ _ => rfl⟩

theorem lanes_kept_of_eq {α : Type} (lanes : List Nat) {l l1 : List (List α)} (h : l1 = l) :
    lanes_kept lanes l l1 := by
  rw [h]
  exact lanes_kept_refl lanes l

theorem lanes_kept_trans {α : Type} {lanes : List Nat} {l l1 l2 : List (List α)}
    (h1 : lanes_kept lanes l l1) (h2 : lanes_kept lanes l1 l2) : lanes_kept lanes l l2 := by
  intro a d hd
  obtain ⟨d1, g1, g2, g3⟩ := h1 a d hd
  obtain ⟨d2, k1, k2, k3⟩ := h2 a d1 g1
  exact ⟨d2, k1, k2.trans g2, fun j hj => (k3 j hj).trans (g3 j hj)⟩

/-- The lane loop of drain for a Vector output keeps the length of the
destination and changes only the lanes it is given. -/
theorem copy_vector_lanes_shape (values output_values : Nat) :
    ∀ (lanes : List Nat) (mem mem1 : Memory),
      copy_vector_lanes values output_values lanes mem = .ok mem1 →
      ∀ d, mem.vector_arrays[output_values]? = some d →
        ∃ d1, mem1.vector_arrays[output_values]? = some d1 ∧ d1.length = d.length ∧
          ∀ (j : Nat), j ∉ lanes → d1[j]? = d[j]? := by
  intro lanes
  induction lanes with
  | nil =>
    intro mem mem1 h d hd
    simp only [copy_vector_lanes] at h
    cases h
    exact ⟨d, hd, rfl, fun _ _ => rfl⟩
  | cons i rest ih =>
    intro mem mem1 h d hd
    simp only [copy_vector_lanes] at h
    obtain ⟨source, _, h⟩ := bind_eq_ok h
    obtain ⟨list, _, h⟩ := bind_eq_ok h
    obtain ⟨destination, hdest, h⟩ := bind_eq_ok h
    obtain ⟨old, _, h⟩ := bind_eq_ok h
    have hdd : destination = d := by
      have := index_list_eq_ok.mp hdest
      rw [hd] at this
      exact (Option.some.inj this).symm
    subst hdd
    have hlt : output_values < mem.vector_arrays.length := (List.getElem?_eq_some_iff.mp hd).1
    obtain ⟨d1, g1, g2, g3⟩ := ih _ _ h (destination.set i (old ++ list))
      (by simp only; rw [List.getElem?_set_eq_of_lt _ hlt])
    refine ⟨d1, g1, by rw [g2, List.length_set], ?_⟩
    intro j hj
    rw [g3 j (fun hc => hj (List.mem_cons_of_mem _ hc)), List.getElem?_set_ne]
    intro hc
    exact hj (by rw [hc]; exact List.mem_cons_self _ _)

/-- The lane loop of drain for a Single output changes no array outside the
lanes it is given. -/
theorem copy_single_lanes_kept (values output_values : Nat) (lanes : List Nat)
    (mem mem1 : Memory) (h : copy_single_lanes values output_values lanes mem = .ok mem1) :
    lanes_kept lanes mem.arrays mem1.arrays ∧ mem1.vector_arrays = mem.vector_arrays := by
  refine ⟨?_, (copy_single_lanes_frame _ _ _ _ _ h).1⟩
  intro a d hd
  by_cases ha : a = output_values
  · subst ha
    exact copy_single_lanes_shape _ _ _ _ _ h d hd
  · exact ⟨d, by rw [(copy_single_lanes_frame _ _ _ _ _ h).2 a ha]; exact hd, rfl,
      fun _ _ => rfl⟩

/-- The lane loop of drain for a Vector output changes no vector array outside
the lanes it is given. -/
theorem copy_vector_lanes_kept (values output_values : Nat) (lanes : List Nat)
    (mem mem1 : Memory) (h : copy_vector_lanes values output_values lanes mem = .ok mem1) :
    mem1.arrays = mem.arrays ∧ lanes_kept lanes mem.vector_arrays mem1.vector_arrays := by
  refine ⟨(copy_vector_lanes_frame _ _ _ _ _ h).1, ?_⟩
  intro a d hd
  by_cases ha : a = output_values
  · subst ha
    exact copy_vector_lanes_shape _ _ _ _ _ h d hd
  · exact ⟨d, by rw [(copy_vector_lanes_frame _ _ _ _ _ h).2 a ha]; exact hd, rfl,
      fun _ _ => rfl⟩

/-- Drain changes no buffer outside the lanes of the mask. -/
theorem copy_outputs_from_kept (net : MFNetwork) (inputs_size : Nat) (mask_indices : List Nat)
    (params : List MFParam) (st : Storage) :
    ∀ (outs : List InputRef) (k : Nat) (mem mem1 : Memory),
      copy_outputs_from net inputs_size mask_indices params st k outs mem = .ok mem1 →
      lanes_kept mask_indices mem.arrays mem1.arrays ∧
        lanes_kept mask_indices mem.vector_arrays mem1.vector_arrays := by
  intro outs
  induction outs with
  | nil =>
    intro k mem mem1 h
    simp only [copy_outputs_from] at h
    cases h
    exact ⟨lanes_kept_refl _ _, lanes_kept_refl _ _⟩
  | cons t rest ih =>
    intro k mem mem1 h
    simp only [copy_outputs_from] at h
    obtain ⟨sock, _, h⟩ := bind_eq_ok h
    split at h
    · cases h
    · obtain ⟨values, _, h⟩ := bind_eq_ok h
      obtain ⟨output_values, _, h⟩ := bind_eq_ok h
      obtain ⟨mem2, h2, h⟩ := bind_eq_ok h
      obtain ⟨g1, g2⟩ := copy_single_lanes_kept _ _ _ _ _ h2
      obtain ⟨k1, k2⟩ := ih _ _ _ h
      exact ⟨lanes_kept_trans g1 k1, lanes_kept_trans (lanes_kept_of_eq _ g2) k2⟩
    · obtain ⟨values, _, h⟩ := bind_eq_ok h
      obtain ⟨output_values, _, h⟩ := bind_eq_ok h
      obtain ⟨mem2, h2, h⟩ := bind_eq_ok h
      obtain ⟨g1, g2⟩ := copy_vector_lanes_kept _ _ _ _ _ h2
      obtain ⟨k1, k2⟩ := ih _ _ _ h
      exact ⟨lanes_kept_trans (lanes_kept_of_eq _ g1) k1, lanes_kept_trans g2 k2⟩

/-- Seed and the loop leave the buffers of the caller as they are. -/
theorem CallerFrame.keeps_lanes {mem0 : Memory} {s : EvalState} (h : CallerFrame mem0 s)
    (lanes : List Nat) :
    FunctionDeform.lanes_kept lanes mem0.arrays s.memory.arrays ∧
      FunctionDeform.lanes_kept lanes mem0.vector_arrays s.memory.vector_arrays := by
  refine ⟨?_, ?_⟩
  · intro a d hd
    exact ⟨d, by rw [h.arrays_kept a (List.getElem?_eq_some_iff.mp hd).1]; exact hd, rfl,
      fun _ _ => rfl⟩
  · intro a d hd
    exact ⟨d, by rw [h.vectors_kept a (List.getElem?_eq_some_iff.mp hd).1]; exact hd, rfl,
      fun _ _ => rfl⟩

/-- C27. Lanes outside the mask are untouched.  `copy_computed_values_to_outputs`
leaves the storage alone and every array and vector array of the memory with
its number of lanes and, at every lane that is not in the lane sequence, with
the content it had.  Seed and the loop change no buffer of the caller, so when
`call` returns every buffer of the caller (the Single and the Vector output
buffers among them) holds at every lane outside the lane sequence what it held
before the call. -/
theorem unmasked_lanes_untouched (net : MFNetwork) (tree : MultiFunction_FunctionTree)
    (mask_indices : List Nat) (params : List MFParam) :
    (∀ s s1, copy_computed_values_to_outputs net tree mask_indices params s = .ok s1 →
      lanes_kept mask_indices s.memory.arrays s1.memory.arrays ∧
      lanes_kept mask_indices s.memory.vector_arrays s1.memory.vector_arrays) ∧
    (∀ fuel mem s3, call net tree fuel mask_indices params mem = .ok s3 →
      lanes_kept mask_indices mem.arrays s3.memory.arrays ∧
      lanes_kept mask_indices mem.vector_arrays s3.memory.vector_arrays) := by
  have hdrain : ∀ s s1, copy_computed_values_to_outputs net tree mask_indices params s = .ok s1 →
      lanes_kept mask_indices s.memory.arrays s1.memory.arrays ∧
      lanes_kept mask_indices s.memory.vector_arrays s1.memory.vector_arrays := by
    intro s s1 h
    unfold copy_computed_values_to_outputs at h
    obtain ⟨mem1, h1, h⟩ := bind_eq_ok h
    cases h
    exact copy_outputs_from_kept net _ mask_indices params s.storage _ _ _ _ h1
  refine ⟨hdrain, ?_⟩
  intro fuel mem s3 h
  unfold call at h
  split_ifs at h with hlen
  · cases h
    exact ⟨lanes_kept_refl _ _, lanes_kept_refl _ _⟩
  · obtain ⟨s0, hseed, h⟩ := bind_eq_ok h
    obtain ⟨s1, hloop, h⟩ := bind_eq_ok h
    have hframe : CallerFrame mem s1 :=
      evaluate_loop_frame fuel _ s0 s1 hloop (seed_frame hseed)
    obtain ⟨g1, g2⟩ := hframe.keeps_lanes mask_indices
    obtain ⟨k1, k2⟩ := hdrain s1 s3 h
    exact ⟨lanes_kept_trans g1 k1, lanes_kept_trans g2 k2⟩

/-- Witness of `unmasked_lanes_untouched`: the call of `c = a + b` on the
lanes 1 and 3 with the destination `[7, 7, 7, 7]` returns and leaves the
lanes 0 and 2 of the destination as they were. -/
theorem unmasked_lanes_untouched_witness :
    ∃ s3, call Example.add_network Example.add_tree 100 [1, 3] Example.add_params
        ⟨[[1, 2, 3, 4], [10, 20, 30, 40], [7, 7, 7, 7]], [], fun _ _ => 0⟩ = .ok s3 ∧
      s3.memory.arrays[2]? = some [7, 22, 7, 44] ∧
      lanes_kept [1, 3] [[1, 2, 3, 4], [10, 20, 30, 40], [7, 7, 7, 7]] s3.memory.arrays :=
  ⟨_, rfl, rfl,
    ((unmasked_lanes_untouched Example.add_network Example.add_tree [1, 3]
      Example.add_params).2 100
      ⟨[[1, 2, 3, 4], [10, 20, 30, 40], [7, 7, 7, 7]], [], fun _ _ => 0⟩ _ rfl).1⟩

/-! # The entry point -/

/-- When a build phase returns false, the statements of `MOD_functiondeform_do`
up to the third phase end in the failed assertion. -/
theorem build_phases_refuses (bodies : FunctionBodies) (vtree : VirtualNodeTree)
    (hin : vtree.nodes_with_idname "fn_FunctionInputNode" ≠ [])
    (hout : vtree.nodes_with_idname "fn_FunctionOutputNode" ≠ [])
    (b0 : VTreeMFNetworkBuilder) (h0 : VTreeMFNetworkBuilder.create vtree = .ok b0)
    (hfalse : (∃ b1, insert_nodes bodies b0 = .ok (false, b1)) ∨
      (∃ b1 b2, insert_nodes bodies b0 = .ok (true, b1) ∧
        insert_links bodies b1 = .ok (false, b2)) ∨
      (∃ b1 b2 b3, insert_nodes bodies b0 = .ok (true, b1) ∧
        insert_links bodies b1 = .ok (true, b2) ∧
        insert_unlinked_inputs bodies b2 = .ok (false, b3))) :
    build_phases true bodies vtree = .error .assert_false := by
  unfold build_phases
  cases hi : vtree.nodes_with_idname "fn_FunctionInputNode" with
  | nil => exact absurd hi hin
  | cons input_vnode rest1 =>
    cases ho : vtree.nodes_with_idname "fn_FunctionOutputNode" with
    | nil => exact absurd ho hout
    | cons output_vnode rest2 =>
      have e1 : index_list (input_vnode :: rest1) 0 = .ok input_vnode :=
        index_list_eq_ok.mpr (by simp)
      have e2 : index_list (output_vnode :: rest2) 0 = .ok output_vnode :=
        index_list_eq_ok.mpr (by simp)
      rw [e1, e2, h0]
      simp only [bind_ok]
      rcases hfalse with ⟨b1, h1⟩ | ⟨b1, b2, h1, h2⟩ | ⟨b1, b2, b3, h1, h2, h3⟩
      · rw [h1]
        rfl
      · rw [h1]
        simp only [bind_ok]
        rw [h2]
        rfl
      · rw [h1]
        simp only [bind_ok]
        rw [h2]
        simp only [bind_ok]
        rw [h3]
        rfl

/-- In a build with assertions, a run of `MOD_functiondeform_do` on a function
tree with an input node and an output node in which `insert_nodes` returns
false, or `insert_links` (entered after `insert_nodes` returned true) returns
false, or `insert_unlinked_inputs` (entered after the two returned true)
returns false, ends in the failed assertion that follows the phase: no network
is built from the builder, `function.call` is not entered, and the vertex
positions are as they were given. -/
theorem assertion_ends_run (bodies : FunctionBodies) (fuel : Nat)
    (fdmd : FunctionDeformModifierData) (vertexCos : List Val)
    (indeterminate : Nat → Nat → Val) (vtree : VirtualNodeTree)
    (htree : fdmd.function_tree = some vtree)
    (hin : vtree.nodes_with_idname "fn_FunctionInputNode" ≠ [])
    (hout : vtree.nodes_with_idname "fn_FunctionOutputNode" ≠ [])
    (b0 : VTreeMFNetworkBuilder) (h0 : VTreeMFNetworkBuilder.create vtree = .ok b0)
    (hfalse : (∃ b1, insert_nodes bodies b0 = .ok (false, b1)) ∨
      (∃ b1 b2, insert_nodes bodies b0 = .ok (true, b1) ∧
        insert_links bodies b1 = .ok (false, b2)) ∨
      (∃ b1 b2 b3, insert_nodes bodies b0 = .ok (true, b1) ∧
        insert_links bodies b1 = .ok (true, b2) ∧
        insert_unlinked_inputs bodies b2 = .ok (false, b3))) :
    build_phases true bodies vtree = .error .assert_false ∧
    (MOD_functiondeform_do true bodies fuel fdmd vertexCos indeterminate).network = none ∧
    (MOD_functiondeform_do true bodies fuel fdmd vertexCos indeterminate).called = false ∧
    (MOD_functiondeform_do true bodies fuel fdmd vertexCos indeterminate).vertexCos
      = vertexCos ∧
    (MOD_functiondeform_do true bodies fuel fdmd vertexCos indeterminate).error
      = some .assert_false := by
  have h := build_phases_refuses bodies vtree hin hout b0 h0 hfalse
  refine ⟨h, ?_⟩
  unfold MOD_functiondeform_do
  simp only [htree, h]
  exact ⟨trivial, trivial, trivial, trivial⟩

set_option maxHeartbeats 4000000 in
/-- The run of `MOD_functiondeform_do` on `float_into_vector_tree` in a build
without assertions: the network is built, `function.call` is entered and
returns, and the positions `1, 2, 3` are overwritten with `7, 7, 7`, whatever
the memory that is not initialised holds. -/
theorem float_into_vector_run :
    ∃ input_vnode output_vnode builder network,
      build_phases false Example.bodies Example.float_into_vector_tree
        = .ok (input_vnode, output_vnode, builder) ∧
      builder.build = .ok network ∧
      ∀ indeterminate, MOD_functiondeform_do false Example.bodies 100
        ⟨some Example.float_into_vector_tree, 0, 0⟩ [1, 2, 3] indeterminate
          = { network := some network, called := true, vertexCos := [7, 7, 7], error := none } :=
  ⟨_, _, _, _, rfl, rfl, fun _ => rfl⟩

/-- C24.  Nothing but the assertion refuses.  `float_into_vector_tree` is a
well-formed graph in which a float output is linked into the vector input of
the output node; no conversion is registered for the pair, and `insert_links`
returns false.  In a build with assertions the run of `MOD_functiondeform_do`
ends in the `BLI_assert(false)` that follows the phase.  In a build without
assertions the branch is empty and the run goes on: `insert_unlinked_inputs`
gives the input of the output node the default value of its socket, the
network is built, `function.call` is entered and returns, and the positions
`1, 2, 3` are overwritten with `7, 7, 7`, the results of the evaluation,
whatever the memory that is not initialised holds. -/
theorem phase_failure_is_not_refused :
    Example.float_into_vector_tree.well_formed ∧
    (∃ b0 b1 b2, VTreeMFNetworkBuilder.create Example.float_into_vector_tree = .ok b0 ∧
      insert_nodes Example.bodies b0 = .ok (true, b1) ∧
      insert_links Example.bodies b1 = .ok (false, b2)) ∧
    (∀ indeterminate, (MOD_functiondeform_do true Example.bodies 100
      ⟨some Example.float_into_vector_tree, 0, 0⟩ [1, 2, 3] indeterminate).error
        = some .assert_false) ∧
    ∃ input_vnode output_vnode builder network,
      build_phases false Example.bodies Example.float_into_vector_tree
        = .ok (input_vnode, output_vnode, builder) ∧
      builder.build = .ok network ∧
      ∀ indeterminate, MOD_functiondeform_do false Example.bodies 100
        ⟨some Example.float_into_vector_tree, 0, 0⟩ [1, 2, 3] indeterminate
          = { network := some network, called := true, vertexCos := [7, 7, 7], error := none } :=
  ⟨by decide, ⟨_, _, _, rfl, rfl, rfl⟩, fun _ => rfl, float_into_vector_run⟩

/-! # The loop on networks with cycles or undeclared placeholder outputs -/

theorem not_placeholder_of_function {net : MFNetwork} {n : Nat}
    (h : net.is_function n = true) : net.is_placeholder n = false := by
  obtain ⟨node, f, ipi, opi, hnode, hk⟩ := is_function_iff.mp h
  unfold MFNetwork.is_placeholder
  rw [hnode]
  simp only [hk]

/-- A function node all of whose inputs hold a value that came from a boundary
input or from an invoked node, none of which lies on a cycle, does not lie on
a cycle. -/
theorem not_on_cycle_of_installed {net : MFNetwork} {tree : MultiFunction_FunctionTree}
    (hwf : WellFormed net tree) {trace : List Nat} {n : Nat}
    (hin : ∀ (i : Nat) sock, net.input (n, i) = .ok sock → Installed net tree trace (n, i))
    (hno : ∀ m ∈ trace, ¬ OnCycle net m) : ¬ OnCycle net n := by
  intro hc
  obtain ⟨b, hdep, hback⟩ := Relation.TransGen.head'_iff.mp hc
  have hb : OnCycle net b := Relation.TransGen.tail' hback hdep
  obtain ⟨_, hfb, i, sock, o, hsock, ho, hob⟩ := hdep
  obtain ⟨s', o', hs', ho', hcase⟩ := hin i sock hsock
  rw [hsock] at hs'
  cases hs'
  rw [ho] at ho'
  cases ho'
  rcases hcase with hcase | hcase
  · have := hwf.2.2.1 o hcase
    simp only [boundary_input_ok, Bool.and_eq_true] at this
    rw [hob, not_placeholder_of_function hfb] at this
    exact absurd this.1 (by simp)
  · rw [hob] at hcase
    exact hno b hcase hb

theorem above_input (net : MFNetwork) (x : MFSocket) (n i : Nat) : above net x (.input n i) := by
  unfold above
  trivial

/-- Progress and preservation without a ranking: from a state that satisfies
the invariant an iteration of the loop keeps the invariant, unless the top of
the stack is an output socket of a placeholder node that is no boundary input,
where the iteration fails. -/
theorem step_run {net : MFNetwork} {tree : MultiFunction_FunctionTree}
    (hwf : WellFormed net tree) {mask_indices : List Nat} (hmask : mask_indices ≠ [])
    {x : MFSocket} {rest : List MFSocket} {s : EvalState}
    (hinv : RunInv net tree (x :: rest) s) :
    (∃ stack1 s1, step net tree mask_indices (x :: rest) s = .ok (stack1, s1) ∧
      RunInv net tree stack1 s1 ∧ StepKind net x rest s stack1 s1) ∨
    (∃ n j, x = .output n j ∧ net.is_placeholder n = true ∧ (n, j) ∉ tree.m_inputs ∧
      step net tree mask_indices (x :: rest) s = .error .not_a_function_node) := by
  have hchain := List.pairwise_cons.mp hinv.chain
  have hrest_reach : ∀ y ∈ rest, Reach net tree y :=
    fun y hy => hinv.reach y (List.mem_cons_of_mem _ hy)
  have hrest_fresh : ∀ n j, MFSocket.output n j ∈ rest → n ∉ s.trace ∧ (n, j) ∉ tree.m_inputs :=
    fun n j h => hinv.fresh n j (List.mem_cons_of_mem _ h)
  have hbelow : ∀ m j, MFSocket.output m j ∈ rest → net.is_function m = true := hinv.below_top
  cases x with
  | input n i =>
    left
    have hreach := hinv.reach _ (List.mem_cons_self _ _)
    obtain ⟨⟨sock, hsock⟩, hrel⟩ := reach_input_relevant hwf hreach
    obtain ⟨b, hb, hbD⟩ := computed_iff hwf hinv.dom hsock hrel
    obtain ⟨o, os, ho, hos, _, _⟩ := wf_input hwf hsock
    cases b with
    | true =>
      refine ⟨rest, s, ?_, ?_, Or.inl ⟨n, i, sock, rfl, hsock, hb, rfl, rfl⟩⟩
      · simp only [step, hsock, hb, bind_ok, if_true]
      · refine ⟨hrest_reach, hchain.2, hrest_fresh, hinv.trace_nodup, hinv.trace_function,
          hinv.dom, hinv.bounded, ?_, hinv.no_cycle, hinv.inputs_installed,
          fun m k h => hbelow m k (List.mem_of_mem_tail h)⟩
        intro socket hm
        rcases hinv.outputs_done socket hm with h | h
        · rcases List.mem_cons.mp h with h | h
          · right
            have : socket = (n, i) := by
              cases h; rfl
            rw [this]
            exact hbD.mp rfl
          · exact Or.inl h
        · exact Or.inr h
    | false =>
      have hnot : ¬ Installed net tree s.trace (n, i) := by
        intro hc; have := hbD.mpr hc; cases this
      refine ⟨.output o.1 o.2 :: .input n i :: rest, s, ?_, ?_,
        Or.inr (Or.inl ⟨n, i, sock, o, rfl, hsock, hb, ho, rfl, rfl⟩)⟩
      · simp only [step, hsock, hb, bind_ok, ho]
        simp
      · refine ⟨?_, ?_, ?_, hinv.trace_nodup, hinv.trace_function, hinv.dom, hinv.bounded, ?_,
          hinv.no_cycle, hinv.inputs_installed, ?_⟩
        rotate_right
        · intro m k h
          rcases List.mem_cons.mp h with h | h
          · cases h
          · exact hbelow m k h
        · intro y hy
          rcases List.mem_cons.mp hy with rfl | hy
          · exact Reach.origin n i sock o hreach hsock ho
          · exact hinv.reach y hy
        · refine List.pairwise_cons.mpr ⟨?_, hinv.chain⟩
          intro y hy
          rcases List.mem_cons.mp hy with rfl | hy
          · exact above_input _ _ _ _
          · cases y with
            | input m k => exact above_input _ _ _ _
            | output m k =>
              have h1 := hchain.1 _ hy
              unfold above at h1 ⊢
              simp only at h1 ⊢
              intro hfo
              exact Relation.TransGen.tail' h1.2 ⟨h1.1, hfo, i, sock, o, hsock, ho, rfl⟩
        · intro n' j' h
          rcases List.mem_cons.mp h with h | h
          · cases h
            refine ⟨fun hc => hnot ⟨sock, o, hsock, ho, Or.inr hc⟩,
              fun hc => hnot ⟨sock, o, hsock, ho, Or.inl hc⟩⟩
          · exact hinv.fresh n' j' h
        · intro socket hm
          rcases hinv.outputs_done socket hm with h | h
          · exact Or.inl (List.mem_cons_of_mem _ h)
          · exact Or.inr h
  | output n j =>
    have hreach := hinv.reach _ (List.mem_cons_self _ _)
    obtain ⟨hfresh, hnotin⟩ := hinv.fresh n j (List.mem_cons_self _ _)
    obtain ⟨os, hos⟩ := reach_output_node hwf hreach
    obtain ⟨node, hnode, _⟩ := output_eq_ok.mp hos
    simp only at hnode
    cases hk : node.kind with
    | placeholder =>
      right
      refine ⟨n, j, rfl, is_placeholder_iff.mpr ⟨node, hnode, hk⟩, hnotin, ?_⟩
      simp only [step, node_eq_ok.mpr hnode, bind_ok, hk]
    | function f ipi opi =>
      left
      have hfn : net.is_function n = true := is_function_iff.mpr ⟨node, f, ipi, opi, hnode, hk⟩
      have hcomp : ∀ (k : Nat) s', node.inputs[k]? = some s' →
          ∃ b, s.storage.input_is_computed s'.type (n, k) = .ok b ∧
            (b = true ↔ Installed net tree s.trace (n, k)) := by
        intro k s' hk'
        exact computed_iff hwf hinv.dom (input_eq_ok.mpr ⟨node, hnode, hk'⟩) (Or.inl hfn)
      obtain ⟨l, hl, hlx⟩ := uncomputed_inputs_spec s.storage n node.inputs 0 (by
        intro k s' hk'
        obtain ⟨b, hb, _⟩ := hcomp k s' hk'
        exact ⟨b, by rw [Nat.zero_add]; exact hb⟩)
      cases hlc : l with
      | nil =>
        subst hlc
        have hall : ∀ (i : Nat) s', node.inputs[i]? = some s' →
            s.storage.input_is_computed s'.type (n, i) = .ok true := by
          intro i s' hi
          obtain ⟨b, hb, _⟩ := hcomp i s' hi
          cases b with
          | true => exact hb
          | false =>
            have := (hlx (.input n (0 + i))).mpr ⟨i, s', hi, rfl, by rw [Nat.zero_add]; exact hb⟩
            simp at this
        have hinst : ∀ (i : Nat) sock, net.input (n, i) = .ok sock →
            Installed net tree s.trace (n, i) := by
          intro i sock hsock
          obtain ⟨node', hnode', hi⟩ := input_eq_ok.mp hsock
          simp only at hnode' hi
          rw [hnode] at hnode'
          cases hnode'
          obtain ⟨b, hb, hbD⟩ := hcomp i sock hi
          rw [hall i sock hi] at hb
          cases hb
          exact hbD.mp rfl
        have hnc : ¬ OnCycle net n := not_on_cycle_of_installed hwf hinst hinv.no_cycle
        have hready := inputs_ready_of_computed hwf hinv.dom hnode hk hall
        obtain ⟨s1, h1, htr, hdom1, hb1⟩ :=
          compute_and_forward_outputs_inv hwf hmask hnode hk hinv.dom hinv.bounded hfresh hready
        refine ⟨rest, s1, ?_, ?_, Or.inr (Or.inr (Or.inr ⟨n, j, rfl, hfn, rfl, htr⟩))⟩
        · simp only [step, node_eq_ok.mpr hnode, bind_ok, hk, hl, h1]
        · refine ⟨hrest_reach, hchain.2, ?_, ?_, ?_, by rw [htr]; exact hdom1, hb1, ?_, ?_, ?_,
            fun m k h => hbelow m k (List.mem_of_mem_tail h)⟩
          · intro n' j' h
            obtain ⟨a, b⟩ := hrest_fresh n' j' h
            refine ⟨?_, b⟩
            rw [htr]
            intro hc
            rcases List.mem_cons.mp hc with hc | hc
            · have h1 := hchain.1 _ h
              unfold above at h1
              simp only at h1
              rw [hc] at h1
              exact hnc (h1 hfn)
            · exact a hc
          · rw [htr]; exact List.nodup_cons.mpr ⟨hfresh, hinv.trace_nodup⟩
          · rw [htr]
            intro n' hn'
            rcases List.mem_cons.mp hn' with rfl | hn'
            · exact hfn
            · exact hinv.trace_function n' hn'
          · intro socket hm
            rcases hinv.outputs_done socket hm with h | h
            · rcases List.mem_cons.mp h with h | h
              · cases h
              · exact Or.inl h
            · right; rw [htr]; exact installed_mono h
          · rw [htr]
            intro n' hn'
            rcases List.mem_cons.mp hn' with rfl | hn'
            · exact hnc
            · exact hinv.no_cycle n' hn'
          · rw [htr]
            intro n' hn' i sock hsock
            rcases List.mem_cons.mp hn' with rfl | hn'
            · exact installed_mono (hinst i sock hsock)
            · exact installed_mono (hinv.inputs_installed n' hn' i sock hsock)
      | cons y ys =>
        have hne : l.reverse ≠ [] := by rw [hlc]; simp
        have hmem : ∀ y ∈ l.reverse, ∃ (k : Nat) (s' : MFInputSocket),
            node.inputs[k]? = some s' ∧ y = .input n k ∧
            s.storage.input_is_computed s'.type (n, k) = .ok false := by
          intro y hy
          obtain ⟨k', s', a, b, c⟩ := (hlx y).mp (List.mem_reverse.mp hy)
          rw [Nat.zero_add] at b c
          exact ⟨k', s', a, b, c⟩
        refine ⟨l.reverse ++ .output n j :: rest, s, ?_, ?_,
          Or.inr (Or.inr (Or.inl ⟨n, j, l.reverse, rfl, hfn, hne, rfl, rfl, ?_⟩))⟩
        · simp only [step, node_eq_ok.mpr hnode, bind_ok, hk, hl]
          rw [hlc]
        · refine ⟨?_, ?_, ?_, hinv.trace_nodup, hinv.trace_function, hinv.dom, hinv.bounded, ?_,
            hinv.no_cycle, hinv.inputs_installed, ?_⟩
          rotate_right
          · intro m k h
            have h2 := List.mem_of_mem_tail h
            rcases List.mem_append.mp h2 with h3 | h3
            · obtain ⟨k', s', _, hc, _⟩ := hmem _ h3
              cases hc
            · rcases List.mem_cons.mp h3 with h4 | h4
              · cases h4
                exact hfn
              · exact hbelow m k h4
          · intro y hy
            rcases List.mem_append.mp hy with hy | hy
            · obtain ⟨k', s', a, rfl, _⟩ := hmem y hy
              exact Reach.inputs n j k' node hreach hnode hfn (List.getElem?_eq_some.mp a).1
            · exact hinv.reach y hy
          · refine List.pairwise_append.mpr ⟨?_, hinv.chain, ?_⟩
            · refine List.Pairwise.imp_of_mem ?_
                (List.pairwise_of_forall (R := fun _ _ => True) (fun _ _ => trivial))
              intro a b _ hb _
              obtain ⟨k', s', _, rfl, _⟩ := hmem b hb
              exact above_input _ _ _ _
            · intro a ha b hb
              obtain ⟨k', s', _, rfl, _⟩ := hmem a ha
              cases b with
              | input m k => exact above_input _ _ _ _
              | output m k =>
                unfold above
                simp only
                refine ⟨hfn, ?_⟩
                rcases List.mem_cons.mp hb with hb | hb
                · cases hb
                  exact Relation.ReflTransGen.refl
                · have h1 := hchain.1 _ hb
                  unfold above at h1
                  simp only at h1
                  exact (h1 hfn).to_reflTransGen
          · intro n' j' h
            rcases List.mem_append.mp h with h | h
            · obtain ⟨k', s', _, hc, _⟩ := hmem _ h
              cases hc
            · exact hinv.fresh n' j' h
          · intro socket hm
            rcases hinv.outputs_done socket hm with h | h
            · exact Or.inl (List.mem_append_right _ h)
            · exact Or.inr h
        · intro y hy
          obtain ⟨k', s', a, b, c⟩ := hmem y hy
          exact ⟨k', s', b, input_eq_ok.mpr ⟨node, hnode, a⟩, c⟩

/-! ## Runs of the loop -/

theorem run_steps_nil (net : MFNetwork) (tree : MultiFunction_FunctionTree)
    (mask_indices : List Nat) (s : EvalState) :
    ∀ k, run_steps net tree mask_indices k [] s = .ok ([], s) := by
  intro k
  induction k with
  | zero => rfl
  | succ k ih =>
    simp only [run_steps, ih, bind_ok]
    rfl

/-- A run of `k + 1` iterations is one iteration followed by a run of `k`. -/
theorem run_steps_succ_first (net : MFNetwork) (tree : MultiFunction_FunctionTree)
    (mask_indices : List Nat) :
    ∀ (k : Nat) (stack : List MFSocket) (s : EvalState),
      run_steps net tree mask_indices (k + 1) stack s
        = (step net tree mask_indices stack s >>=
            fun p => run_steps net tree mask_indices k p.1 p.2) := by
  intro k
  induction k with
  | zero =>
    intro stack s
    simp only [run_steps, bind_ok]
    cases step net tree mask_indices stack s with
    | error e => rfl
    | ok p => rfl
  | succ k ih =>
    intro stack s
    have e : run_steps net tree mask_indices (k + 1 + 1) stack s
        = (run_steps net tree mask_indices (k + 1) stack s >>=
            fun p => step net tree mask_indices p.1 p.2) := rfl
    rw [e, ih stack s]
    cases step net tree mask_indices stack s with
    | error e => rfl
    | ok p => rfl

/-- A run of `k + m` iterations is a run of `k` followed by a run of `m`. -/
theorem run_steps_add (net : MFNetwork) (tree : MultiFunction_FunctionTree)
    (mask_indices : List Nat) (k : Nat) (stack : List MFSocket) (s : EvalState) :
    ∀ m, run_steps net tree mask_indices (k + m) stack s
        = (run_steps net tree mask_indices k stack s >>=
            fun p => run_steps net tree mask_indices m p.1 p.2) := by
  intro m
  induction m with
  | zero =>
    simp only [Nat.add_zero, run_steps]
    cases run_steps net tree mask_indices k stack s with
    | error e => rfl
    | ok p => rfl
  | succ m ih =>
    have e : run_steps net tree mask_indices (k + (m + 1)) stack s
        = (run_steps net tree mask_indices (k + m) stack s >>=
            fun p => step net tree mask_indices p.1 p.2) := rfl
    rw [e, ih]
    cases run_steps net tree mask_indices k stack s with
    | error e => rfl
    | ok p => rfl

/-- A run that ends with a non-empty stack is what the loop does with that
many iterations of its budget. -/
theorem evaluate_loop_run {net : MFNetwork} {tree : MultiFunction_FunctionTree}
    {mask_indices : List Nat} :
    ∀ (k : Nat) (stack : List MFSocket) (s : EvalState) (stack1 : List MFSocket)
      (s1 : EvalState),
      run_steps net tree mask_indices k stack s = .ok (stack1, s1) → stack1 ≠ [] →
      ∀ fuel, evaluate_loop net tree mask_indices (k + fuel) stack s
        = evaluate_loop net tree mask_indices fuel stack1 s1 := by
  intro k
  induction k with
  | zero =>
    intro stack s stack1 s1 h _ fuel
    simp only [run_steps] at h
    cases h
    rw [Nat.zero_add]
  | succ k ih =>
    intro stack s stack1 s1 h hne fuel
    rw [run_steps_succ_first] at h
    obtain ⟨p, hp, h⟩ := bind_eq_ok h
    cases stack with
    | nil =>
      simp only [step] at hp
      cases hp
      rw [run_steps_nil] at h
      cases h
      exact absurd rfl hne
    | cons x rest =>
      obtain ⟨stack2, s2⟩ := p
      have e : k + 1 + fuel = (k + fuel) + 1 := by omega
      rw [e, evaluate_loop_step hp]
      exact ih stack2 s2 stack1 s1 h hne fuel

/-- The states of a run from the state left by seed are states the loop goes
through. -/
theorem reachable_of_run {net : MFNetwork} {tree : MultiFunction_FunctionTree}
    {mask_indices : List Nat} {s0 : EvalState} :
    ∀ (k : Nat) (stack : List MFSocket) (s : EvalState),
      run_steps net tree mask_indices k (initial_stack tree) s0 = .ok (stack, s) →
      Reachable net tree mask_indices s0 stack s := by
  intro k
  induction k with
  | zero =>
    intro stack s h
    simp only [run_steps] at h
    cases h
    exact Reachable.start
  | succ k ih =>
    intro stack s h
    simp only [run_steps] at h
    obtain ⟨p, hp, h⟩ := bind_eq_ok h
    obtain ⟨stack1, s1⟩ := p
    exact Reachable.next stack1 stack s1 s (ih stack1 s1 hp) h

/-- Seed establishes the invariant of a run, for every built network. -/
theorem seed_run {net : MFNetwork} {tree : MultiFunction_FunctionTree}
    (hwf : WellFormed net tree) {params : List MFParam} {mem : Memory}
    (hparams : caller_params_ok net tree params mem = true) :
    ∃ s0, copy_inputs_to_storage net tree params (initial_state mem) = .ok s0 ∧
      RunInv net tree (initial_stack tree) s0 := by
  obtain ⟨s0, hseed⟩ := seed_ok hwf hparams
  obtain ⟨hrange, _, _⟩ := caller_params_inputs hwf hparams
  have hloop := seed_inv (fun _ => 0) hwf hrange hseed
  obtain ⟨l, hl, _, _⟩ := copy_inputs_from_steps net params _ 0 _ _ hseed
  have htrace : s0.trace = [] := hl.frame.1
  refine ⟨s0, hseed, hloop.reach, ?_, hloop.fresh, hloop.trace_nodup, hloop.trace_function,
    hloop.dom, hloop.bounded, hloop.outputs_done, ?_, ?_, ?_⟩
  rotate_right
  · intro m j h
    have h2 := List.mem_of_mem_tail h
    simp only [initial_stack, List.mem_reverse, List.mem_map] at h2
    obtain ⟨t, _, hc⟩ := h2
    cases hc
  · refine List.Pairwise.imp_of_mem ?_
      (List.pairwise_of_forall (R := fun _ _ => True) (fun _ _ => trivial))
    intro a b _ hb _
    simp only [initial_stack, List.mem_reverse, List.mem_map] at hb
    obtain ⟨t, _, rfl⟩ := hb
    exact above_input _ _ _ _
  · rw [htrace]
    intro n hn
    cases hn
  · rw [htrace]
    intro n hn
    cases hn

/-- When the stack is empty, every socket that the requested outputs depend on
is done: an input socket holds a value that came from a boundary input or from
an invoked node, an output socket is a boundary input or belongs to an invoked
node. -/
theorem reach_done {net : MFNetwork} {tree : MultiFunction_FunctionTree}
    (hwf : WellFormed net tree) {s : EvalState} (hinv : RunInv net tree [] s) :
    ∀ x, Reach net tree x →
      match x with
      | .input n i => Installed net tree s.trace (n, i)
      | .output n j => (n, j) ∈ tree.m_inputs ∨ n ∈ s.trace := by
  intro x hx
  induction hx with
  | boundary t ht =>
    rcases hinv.outputs_done t ht with h | h
    · cases h
    · exact h
  | origin n i sock o _ hsock ho ih =>
    obtain ⟨s', o', hs', ho', hcase⟩ := ih
    rw [hsock] at hs'
    cases hs'
    rw [ho] at ho'
    cases ho'
    exact hcase
  | inputs n j i node _ hnode hfn hi ih =>
    rcases ih with h | h
    · have := hwf.2.2.1 (n, j) h
      simp only [boundary_input_ok, Bool.and_eq_true] at this
      rw [not_placeholder_of_function hfn] at this
      exact absurd this.1 (by simp)
    · exact hinv.inputs_installed n h i node.inputs[i]
        (input_eq_ok.mpr ⟨node, hnode, List.getElem?_eq_getElem hi⟩)

theorem on_cycle_is_function {net : MFNetwork} {n : Nat} (h : OnCycle net n) :
    net.is_function n = true := by
  obtain ⟨b, hdep, _⟩ := Relation.TransGen.head'_iff.mp h
  exact hdep.1

/-- While a requested output depends on a node on a cycle, or on an output
socket of a placeholder node that is no boundary input, the stack is not empty. -/
theorem stack_ne_nil_of_blocked {net : MFNetwork} {tree : MultiFunction_FunctionTree}
    (hwf : WellFormed net tree) {n j : Nat} (hreach : Reach net tree (.output n j))
    (hblocked : OnCycle net n ∨ (net.is_placeholder n = true ∧ (n, j) ∉ tree.m_inputs))
    {stack : List MFSocket} {s : EvalState} (hinv : RunInv net tree stack s) : stack ≠ [] := by
  intro hc
  subst hc
  have h := reach_done hwf hinv _ hreach
  simp only at h
  rcases hblocked with hcyc | ⟨hp, hnot⟩
  · rcases h with h | h
    · have := hwf.2.2.1 (n, j) h
      simp only [boundary_input_ok, Bool.and_eq_true] at this
      rw [not_placeholder_of_function (on_cycle_is_function hcyc)] at this
      exact absurd this.1 (by simp)
    · exact hinv.no_cycle n h hcyc
  · rcases h with h | h
    · exact hnot h
    · have := not_placeholder_of_function (hinv.trace_function n h)
      rw [hp] at this
      cases this

/-! ## Runs that go on for ever -/

/-- A function on the natural numbers that never goes down and stays below a
bound is constant from some argument on. -/
theorem eventually_constant (bound : Nat) :
    ∀ (d : Nat) (f : Nat → Nat), (∀ k, f k ≤ f (k + 1)) → (∀ k, f k ≤ bound) →
      bound - f 0 ≤ d → ∃ K, ∀ m, f (K + m) = f K := by
  intro d
  induction d with
  | zero =>
    intro f hmono hbound h0
    refine ⟨0, fun m => ?_⟩
    have hle : ∀ m, f 0 ≤ f m := by
      intro m
      induction m with
      | zero => exact Nat.le_refl _
      | succ m ih => exact Nat.le_trans ih (hmono m)
    have := hle m
    have := hbound m
    have := hbound 0
    rw [Nat.zero_add]
    omega
  | succ d ih =>
    intro f hmono hbound h0
    by_cases hc : ∀ m, f (0 + m) = f 0
    · exact ⟨0, hc⟩
    · obtain ⟨m, hm⟩ := not_forall.mp hc
      rw [Nat.zero_add] at hm
      have hle : ∀ m, f 0 ≤ f m := by
        intro m
        induction m with
        | zero => exact Nat.le_refl _
        | succ m ih => exact Nat.le_trans ih (hmono m)
      have hlt : f 0 < f m := Nat.lt_of_le_of_ne (hle m) (fun h => hm h.symm)
      obtain ⟨K, hK⟩ := ih (fun k => f (m + k)) (fun k => hmono (m + k))
        (fun k => hbound (m + k)) (by
          have := hbound m
          simp only [Nat.add_zero]
          omega)
      refine ⟨m + K, fun j => ?_⟩
      have := hK j
      simp only at this
      rw [Nat.add_assoc]
      exact this

theorem RunInv.invoked_le {net : MFNetwork} {tree : MultiFunction_FunctionTree}
    {stack : List MFSocket} {s : EvalState} (hinv : RunInv net tree stack s) :
    s.trace.length ≤ net.nodes.length := by
  refine length_le_of_nodup_lt hinv.trace_nodup ?_
  intro n hn
  obtain ⟨node, _, _, _, h, _⟩ := is_function_iff.mp (hinv.trace_function n hn)
  exact (List.getElem?_eq_some.mp h).1

/-- In a run that goes on for ever every iteration is one of the four
branches, from a state with the invariant to a state with the invariant. -/
theorem RunsForever.iteration {net : MFNetwork} {tree : MultiFunction_FunctionTree}
    (hwf : WellFormed net tree) {mask_indices : List Nat} (hmask : mask_indices ≠ [])
    {stack0 : List MFSocket} {s0 : EvalState}
    (h : RunsForever net tree mask_indices stack0 s0) (k : Nat) :
    ∃ x rest s stack1 s1, run_steps net tree mask_indices k stack0 s0 = .ok (x :: rest, s) ∧
      RunInv net tree (x :: rest) s ∧
      run_steps net tree mask_indices (k + 1) stack0 s0 = .ok (stack1, s1) ∧
      stack1 ≠ [] ∧ RunInv net tree stack1 s1 ∧ StepKind net x rest s stack1 s1 := by
  obtain ⟨stack, s, hk, hne, hinv⟩ := h k
  obtain ⟨stack1, s1, hk1, hne1, hinv1⟩ := h (k + 1)
  cases stack with
  | nil => exact absurd rfl hne
  | cons x rest =>
    have hstep : step net tree mask_indices (x :: rest) s = .ok (stack1, s1) := by
      have e : run_steps net tree mask_indices (k + 1) stack0 s0
          = (run_steps net tree mask_indices k stack0 s0 >>=
              fun p => step net tree mask_indices p.1 p.2) := rfl
      rw [e, hk] at hk1
      exact hk1
    rcases step_run hwf hmask hinv with ⟨stack2, s2, g1, _, g3⟩ | ⟨_, _, _, _, _, g⟩
    · rw [hstep] at g1
      cases g1
      exact ⟨x, rest, s, stack1, s1, hk, hinv, hk1, hne1, hinv1, g3⟩
    · rw [hstep] at g
      cases g

/-- In a run that goes on for ever no node is invoked from some iteration on. -/
theorem RunsForever.stable {net : MFNetwork} {tree : MultiFunction_FunctionTree}
    (hwf : WellFormed net tree) {mask_indices : List Nat} (hmask : mask_indices ≠ [])
    {stack0 : List MFSocket} {s0 : EvalState}
    (h : RunsForever net tree mask_indices stack0 s0) :
    ∃ K, ∀ m stack s stack1 s1,
      run_steps net tree mask_indices (K + m) stack0 s0 = .ok (stack, s) →
      run_steps net tree mask_indices (K + m + 1) stack0 s0 = .ok (stack1, s1) →
      s1.trace.length = s.trace.length := by
  let f : Nat → Nat := fun k =>
    match run_steps net tree mask_indices k stack0 s0 with
    | .ok p => p.2.trace.length
    | .error _ => 0
  have hf : ∀ k stack s, run_steps net tree mask_indices k stack0 s0 = .ok (stack, s) →
      f k = s.trace.length := by
    intro k stack s hk
    show (match run_steps net tree mask_indices k stack0 s0 with
      | .ok p => p.2.trace.length
      | .error _ => 0) = _
    rw [hk]
  have hmono : ∀ k, f k ≤ f (k + 1) := by
    intro k
    obtain ⟨x, rest, s, stack1, s1, hk, _, hk1, _, _, hkind⟩ := h.iteration hwf hmask k
    rw [hf k _ _ hk, hf (k + 1) _ _ hk1]
    rcases hkind with ⟨_, _, _, _, _, _, _, rfl⟩ | ⟨_, _, _, _, _, _, _, _, _, rfl⟩ |
      ⟨_, _, _, _, _, _, _, rfl, _⟩ | ⟨_, _, _, _, _, htr⟩
    · exact Nat.le_refl _
    · exact Nat.le_refl _
    · exact Nat.le_refl _
    · rw [htr]
      simp
  have hbound : ∀ k, f k ≤ net.nodes.length := by
    intro k
    obtain ⟨stack, s, hk, _, hinv⟩ := h k
    rw [hf k _ _ hk]
    exact hinv.invoked_le
  obtain ⟨K, hK⟩ := eventually_constant net.nodes.length _ f hmono hbound (Nat.le_refl _)
  refine ⟨K, fun m stack s stack1 s1 hk hk1 => ?_⟩
  have e1 := hK m
  have e2 := hK (m + 1)
  rw [hf _ _ _ hk] at e1
  rw [← Nat.add_assoc, hf _ _ _ hk1] at e2
  omega

theorem top_is_output_le (stack : List MFSocket) : top_is_output stack ≤ 1 := by
  unfold top_is_output
  split <;> omega

theorem counts_of_inputs (net : MFNetwork) (s : EvalState) (n : Nat) :
    ∀ (pushed : List MFSocket),
      (∀ y ∈ pushed, ∃ i sock, y = .input n i ∧ net.input (n, i) = .ok sock ∧
        s.storage.input_is_computed sock.type (n, i) = .ok false) →
      output_count pushed = 0 ∧ computed_count net s pushed = 0 := by
  intro pushed
  induction pushed with
  | nil => intro _; exact ⟨rfl, rfl⟩
  | cons y ys ih =>
    intro h
    obtain ⟨i, sock, rfl, hsock, hcomp⟩ := h y (List.mem_cons_self _ _)
    obtain ⟨h1, h2⟩ := ih (fun z hz => h z (List.mem_cons_of_mem _ hz))
    refine ⟨?_, ?_⟩
    · unfold output_count at h1 ⊢
      simp only [List.filter_cons, MFSocket.is_output, Bool.false_eq_true, if_false]
      exact h1
    · unfold computed_count at h2 ⊢
      simp only [List.filter_cons, computed_entry, hsock, hcomp, Bool.false_eq_true, if_false]
      exact h2

theorem output_count_input (n i : Nat) (rest : List MFSocket) :
    output_count (.input n i :: rest) = output_count rest := by
  unfold output_count
  simp [List.filter_cons, MFSocket.is_output]

theorem output_count_output (n j : Nat) (rest : List MFSocket) :
    output_count (.output n j :: rest) = output_count rest + 1 := by
  unfold output_count
  simp [List.filter_cons, MFSocket.is_output]

theorem computed_count_output (net : MFNetwork) (s : EvalState) (n j : Nat)
    (rest : List MFSocket) :
    computed_count net s (.output n j :: rest) = computed_count net s rest := by
  unfold computed_count
  simp [List.filter_cons, computed_entry]

theorem computed_count_input (net : MFNetwork) (s : EvalState) {n i : Nat}
    {sock : MFInputSocket} {computed : Bool} (hsock : net.input (n, i) = .ok sock)
    (hcomp : s.storage.input_is_computed sock.type (n, i) = .ok computed)
    (rest : List MFSocket) :
    computed_count net s (.input n i :: rest)
      = computed_count net s rest + (if computed then 1 else 0) := by
  unfold computed_count
  cases computed <;> simp [List.filter_cons, computed_entry, hsock, hcomp]

/-- An iteration that invokes no node raises `2 * outputs - top - 2 * computed`,
a quantity made of the number of output sockets on the stack, of whether the
top is an output socket and of the number of computed input sockets on the
stack. -/
theorem potential_step {net : MFNetwork} {x : MFSocket} {rest stack1 : List MFSocket}
    {s s1 : EvalState} (hkind : StepKind net x rest s stack1 s1)
    (htrace : s1.trace.length = s.trace.length) :
    2 * output_count (x :: rest) + top_is_output stack1 + 2 * computed_count net s1 stack1 + 1
      ≤ 2 * output_count stack1 + top_is_output (x :: rest)
        + 2 * computed_count net s (x :: rest) := by
  rcases hkind with ⟨n, i, sock, hx, hsock, hcomp, hst, hs⟩ |
    ⟨n, i, sock, o, hx, hsock, hcomp, _, hst, hs⟩ |
    ⟨n, j, pushed, hx, _, hne, hst, hs, hall⟩ | ⟨n, j, _, _, _, htr⟩
  · subst hx hst hs
    have h1 := top_is_output_le stack1
    have h2 : top_is_output (MFSocket.input n i :: stack1) = 0 := rfl
    rw [output_count_input, computed_count_input net s1 hsock hcomp, h2]
    simp only [if_true]
    omega
  · subst hx hst hs
    have h2 : top_is_output (MFSocket.input n i :: rest) = 0 := rfl
    have h3 : top_is_output (MFSocket.output o.1 o.2 :: MFSocket.input n i :: rest) = 1 := rfl
    rw [output_count_output, computed_count_output, h2, h3]
    omega
  · subst hx hst hs
    obtain ⟨h1, h2⟩ := counts_of_inputs net s1 n pushed hall
    have htop : top_is_output (pushed ++ MFSocket.output n j :: rest) = 0 := by
      cases pushed with
      | nil => exact absurd rfl hne
      | cons y ys =>
        obtain ⟨i, sock, rfl, _, _⟩ := hall y (List.mem_cons_self _ _)
        rfl
    have h3 : top_is_output (MFSocket.output n j :: rest) = 1 := rfl
    have h4 : output_count (pushed ++ MFSocket.output n j :: rest)
        = output_count pushed + output_count (MFSocket.output n j :: rest) := by
      unfold output_count
      rw [List.filter_append, List.length_append]
    have h5 : computed_count net s1 (pushed ++ MFSocket.output n j :: rest)
        = computed_count net s1 pushed + computed_count net s1 (MFSocket.output n j :: rest) := by
      unfold computed_count
      rw [List.filter_append, List.length_append]
    rw [htop, h3, h4, h5, h1, h2]
    omega
  · rw [htr] at htrace
    simp at htrace

/-- In a run that goes on for ever the number of output sockets on the stack
grows without bound. -/
theorem RunsForever.outputs_unbounded {net : MFNetwork} {tree : MultiFunction_FunctionTree}
    (hwf : WellFormed net tree) {mask_indices : List Nat} (hmask : mask_indices ≠ [])
    {stack0 : List MFSocket} {s0 : EvalState}
    (h : RunsForever net tree mask_indices stack0 s0) (bound : Nat) :
    ∃ k stack s, run_steps net tree mask_indices k stack0 s0 = .ok (stack, s) ∧
      RunInv net tree stack s ∧ bound < output_count stack := by
  obtain ⟨K, hK⟩ := h.stable hwf hmask
  obtain ⟨stackK, sK, hrunK, _, _⟩ := h K
  have key : ∀ m, ∃ stack s, run_steps net tree mask_indices (K + m) stack0 s0 = .ok (stack, s) ∧
      RunInv net tree stack s ∧
      2 * output_count stackK + top_is_output stack + 2 * computed_count net s stack + m
        ≤ 2 * output_count stack + top_is_output stackK + 2 * computed_count net sK stackK := by
    intro m
    induction m with
    | zero =>
      obtain ⟨stack, s, hk, _, hinv⟩ := h K
      rw [hrunK] at hk
      cases hk
      exact ⟨stackK, sK, hrunK, hinv, Nat.le_refl _⟩
    | succ m ih =>
      obtain ⟨stack, s, hk, _, hle⟩ := ih
      obtain ⟨x, rest, s', stack1, s1, hk', _, hk1, _, hinv1, hkind⟩ :=
        h.iteration hwf hmask (K + m)
      rw [hk] at hk'
      cases hk'
      have hstep := potential_step hkind (hK m _ _ _ _ hk hk1)
      refine ⟨stack1, s1, hk1, hinv1, ?_⟩
      omega
  obtain ⟨stack, s, hk, hinv, hle⟩ := key (2 * bound + 3 + 2 * computed_count net sK stackK)
  have := top_is_output_le stackK
  exact ⟨_, stack, s, hk, hinv, by omega⟩

/-- A stack on which no output socket below the top belongs to a node on a
cycle holds at most one output socket per node, next to its top. -/
theorem RunInv.output_count_le {net : MFNetwork} {tree : MultiFunction_FunctionTree}
    {stack : List MFSocket} {s : EvalState} (hinv : RunInv net tree stack s)
    (hno : ∀ m j, MFSocket.output m j ∈ stack.tail → ¬ OnCycle net m) :
    output_count stack ≤ net.nodes.length + 1 := by
  cases stack with
  | nil => exact Nat.zero_le _
  | cons x rest =>
    have hrest : output_count rest ≤ net.nodes.length := by
      have hpw : (rest.filter MFSocket.is_output).Pairwise (above net) :=
        (List.pairwise_cons.mp hinv.chain).2.filter _
      have hne : (rest.filter MFSocket.is_output).Pairwise
          (fun a b => a.node_id ≠ b.node_id) := by
        refine List.Pairwise.imp_of_mem ?_ hpw
        intro a b ha hb hab
        obtain ⟨ha1, ha2⟩ := List.mem_filter.mp ha
        obtain ⟨hb1, hb2⟩ := List.mem_filter.mp hb
        cases a with
        | input n i => cases ha2
        | output n i =>
          cases b with
          | input m j => cases hb2
          | output m j =>
            unfold above at hab
            simp only at hab
            intro hc
            simp only [MFSocket.node_id] at hc
            have h1 := hab (hinv.below_top n i ha1)
            rw [hc] at h1
            exact hno m j hb1 h1
      have hnd : ((rest.filter MFSocket.is_output).map MFSocket.node_id).Nodup :=
        List.Pairwise.map _ (fun _ _ h => h) hne
      have hlt : ∀ n ∈ (rest.filter MFSocket.is_output).map MFSocket.node_id,
          n < net.nodes.length := by
        intro n hn
        obtain ⟨a, ha, rfl⟩ := List.mem_map.mp hn
        obtain ⟨ha1, ha2⟩ := List.mem_filter.mp ha
        cases a with
        | input n i => cases ha2
        | output n i =>
          obtain ⟨node, _, _, _, h, _⟩ := is_function_iff.mp (hinv.below_top n i ha1)
          exact (List.getElem?_eq_some.mp h).1
      have := length_le_of_nodup_lt hnd hlt
      rw [List.length_map] at this
      exact this
    cases x with
    | input n i =>
      rw [output_count_input]
      omega
    | output n i =>
      rw [output_count_output]
      omega

/-- In a run that goes on for ever, an output socket on the stack was on the
stack at the start or was the top of the stack after some iteration. -/
theorem RunsForever.was_on_top {net : MFNetwork} {tree : MultiFunction_FunctionTree}
    (hwf : WellFormed net tree) {mask_indices : List Nat} (hmask : mask_indices ≠ [])
    {stack0 : List MFSocket} {s0 : EvalState}
    (h : RunsForever net tree mask_indices stack0 s0) :
    ∀ (k : Nat) (stack : List MFSocket) (s : EvalState),
      run_steps net tree mask_indices k stack0 s0 = .ok (stack, s) →
      ∀ m j, MFSocket.output m j ∈ stack → MFSocket.output m j ∈ stack0 ∨
        ∃ k0 rest s1, run_steps net tree mask_indices k0 stack0 s0
          = .ok (MFSocket.output m j :: rest, s1) := by
  intro k
  induction k with
  | zero =>
    intro stack s hk m j hm
    simp only [run_steps] at hk
    cases hk
    exact Or.inl hm
  | succ k ih =>
    intro stack s hk m j hm
    obtain ⟨x, rest, s', stack1, s1, hk', _, hk1, _, _, hkind⟩ := h.iteration hwf hmask k
    rw [hk] at hk1
    cases hk1
    have hold := ih _ _ hk' m j
    rcases hkind with ⟨_, _, _, _, _, _, hst, _⟩ | ⟨_, _, _, o, _, _, _, _, hst, _⟩ |
      ⟨n, _, pushed, _, _, _, hst, _, hall⟩ | ⟨_, _, _, _, hst, _⟩
    · subst hst
      exact hold (List.mem_cons_of_mem _ hm)
    · subst hst
      rcases List.mem_cons.mp hm with hm | hm
      · cases hm
        exact Or.inr ⟨k + 1, _, _, hk⟩
      · exact hold hm
    · subst hst
      rcases List.mem_append.mp hm with hm | hm
      · obtain ⟨_, _, hc, _, _⟩ := hall _ hm
        cases hc
      · exact hold hm
    · subst hst
      exact hold (List.mem_cons_of_mem _ hm)

/-- A run from the stack of the boundary outputs that goes on for ever gets an
output socket of a node on a dependency cycle on top of the stack. -/
theorem RunsForever.cycle_on_top {net : MFNetwork} {tree : MultiFunction_FunctionTree}
    (hwf : WellFormed net tree) {mask_indices : List Nat} (hmask : mask_indices ≠ [])
    {s0 : EvalState} (h : RunsForever net tree mask_indices (initial_stack tree) s0) :
    ∃ k m j rest s, run_steps net tree mask_indices k (initial_stack tree) s0
        = .ok (MFSocket.output m j :: rest, s) ∧ OnCycle net m := by
  by_contra hno
  obtain ⟨k, stack, s, hk, hinv, hlt⟩ := h.outputs_unbounded hwf hmask (net.nodes.length + 1)
  have hle := hinv.output_count_le (by
    intro m j hm hc
    rcases h.was_on_top hwf hmask k stack s hk m j (List.mem_of_mem_tail hm) with h1 | h1
    · simp only [initial_stack, List.mem_reverse, List.mem_map] at h1
      obtain ⟨t, _, ht⟩ := h1
      cases ht
    · obtain ⟨k0, rest, s1, hk0⟩ := h1
      exact hno ⟨k0, m, j, rest, s1, hk0, hc⟩)
  omega

/-! ## Placeholder outputs that are no boundary inputs -/

theorem dep_rank_lt {net : MFNetwork} {rank : Nat → Nat} (hr : Ranked net rank) {a b : Nat}
    (h : Relation.TransGen (Dep net) a b) : rank b < rank a := by
  induction h with
  | single h1 =>
    obtain ⟨_, _, i, sock, o, hsock, ho, rfl⟩ := h1
    exact ranked_origin hr hsock ho
  | tail _ h1 ih =>
    obtain ⟨_, _, i, sock, o, hsock, ho, rfl⟩ := h1
    exact Nat.lt_trans (ranked_origin hr hsock ho) ih

/-- A network whose nodes can be ranked along the links has no dependency cycle. -/
theorem not_on_cycle_of_ranked {net : MFNetwork} {rank : Nat → Nat} (hr : Ranked net rank)
    (n : Nat) : ¬ OnCycle net n :=
  fun h => Nat.lt_irrefl _ (dep_rank_lt hr h)

/-- On a network without cycles in which a requested output depends on an
output socket of a placeholder node that is no boundary input, the loop gets
such an output socket on top of the stack, and the iteration fails there. -/
theorem fails_at_placeholder {net : MFNetwork} {tree : MultiFunction_FunctionTree}
    (hwf : WellFormed net tree) {rank : Nat → Nat} (hr : Ranked net rank)
    {mask_indices : List Nat} (hmask : mask_indices ≠ []) {s0 : EvalState}
    (h0 : RunInv net tree (initial_stack tree) s0) {n j : Nat}
    (hreach : Reach net tree (.output n j)) (hp : net.is_placeholder n = true)
    (hnot : (n, j) ∉ tree.m_inputs) :
    ∃ k m i rest s, run_steps net tree mask_indices k (initial_stack tree) s0
        = .ok (MFSocket.output m i :: rest, s) ∧
      Reach net tree (.output m i) ∧ net.is_placeholder m = true ∧ (m, i) ∉ tree.m_inputs ∧
      step net tree mask_indices (MFSocket.output m i :: rest) s
        = .error .not_a_function_node := by
  by_contra hno
  have hforever : RunsForever net tree mask_indices (initial_stack tree) s0 := by
    intro k
    induction k with
    | zero => exact ⟨_, _, rfl, stack_ne_nil_of_blocked hwf hreach (Or.inr ⟨hp, hnot⟩) h0, h0⟩
    | succ k ih =>
      obtain ⟨stack, s, hk, hne, hinv⟩ := ih
      cases stack with
      | nil => exact absurd rfl hne
      | cons x rest =>
        have e : run_steps net tree mask_indices (k + 1) (initial_stack tree) s0
            = (run_steps net tree mask_indices k (initial_stack tree) s0 >>=
                fun p => step net tree mask_indices p.1 p.2) := rfl
        rcases step_run hwf hmask hinv with ⟨stack1, s1, g1, g2, _⟩ | ⟨m, i, hx, g1, g2, g3⟩
        · refine ⟨stack1, s1, ?_, stack_ne_nil_of_blocked hwf hreach (Or.inr ⟨hp, hnot⟩) g2, g2⟩
          rw [e, hk]
          exact g1
        · subst hx
          exact absurd ⟨k, m, i, rest, s, hk, hinv.reach _ (List.mem_cons_self _ _), g1, g2, g3⟩
            hno
  obtain ⟨_, m, _, _, _, _, hc⟩ := hforever.cycle_on_top hwf hmask
  exact not_on_cycle_of_ranked hr m hc

/-- The loop fails with every budget that reaches a failing iteration, and
returns with no budget. -/
theorem evaluate_loop_fails {net : MFNetwork} {tree : MultiFunction_FunctionTree}
    {mask_indices : List Nat} {stack0 : List MFSocket} {s0 : EvalState} {k : Nat}
    {x : MFSocket} {rest : List MFSocket} {s : EvalState} {e : EvalError}
    (hk : run_steps net tree mask_indices k stack0 s0 = .ok (x :: rest, s))
    (hstep : step net tree mask_indices (x :: rest) s = .error e) :
    (∀ fuel, evaluate_loop net tree mask_indices (k + 1 + fuel) stack0 s0 = .error e) ∧
    ∀ fuel s1, evaluate_loop net tree mask_indices fuel stack0 s0 ≠ .ok s1 := by
  have h1 : ∀ fuel, evaluate_loop net tree mask_indices (k + 1 + fuel) stack0 s0 = .error e := by
    intro fuel
    have e1 : k + 1 + fuel = k + (fuel + 1) := by omega
    rw [e1, evaluate_loop_run k stack0 s0 _ _ hk (List.cons_ne_nil _ _)]
    simp only [evaluate_loop, hstep]
    rfl
  refine ⟨h1, ?_⟩
  intro fuel s1 hc
  have h2 := evaluate_loop_mono fuel _ _ _ hc (k + 1)
  have h3 := h1 fuel
  have e2 : fuel + (k + 1) = k + 1 + fuel := by omega
  rw [e2, h3] at h2
  cases h2

/-- What the loop does, `call` does, when seed has returned and the lane
sequence is not empty. -/
theorem call_of_loop_error {net : MFNetwork} {tree : MultiFunction_FunctionTree}
    {mask_indices : List Nat} (hmask : mask_indices ≠ []) {params : List MFParam}
    {mem : Memory} {s0 : EvalState}
    (hseed : copy_inputs_to_storage net tree params (initial_state mem) = .ok s0) :
    (∀ fuel e, evaluate_loop net tree mask_indices fuel (initial_stack tree) s0 = .error e →
      call net tree fuel mask_indices params mem = .error e) ∧
    (∀ fuel s3, call net tree fuel mask_indices params mem = .ok s3 →
      ∃ s1, evaluate_loop net tree mask_indices fuel (initial_stack tree) s0 = .ok s1) := by
  have hlen : ¬ mask_indices.length = 0 := fun h => hmask (List.length_eq_zero.mp h)
  have hseed2 : copy_inputs_to_storage net tree params
      { memory := mem, storage := Storage.empty, trace := [] } = .ok s0 := hseed
  refine ⟨?_, ?_⟩
  · intro fuel e he
    unfold call
    rw [if_neg hlen, hseed2]
    simp only [bind_ok, evaluate_network_to_compute_outputs, he]
    rfl
  · intro fuel s3 h
    unfold call at h
    rw [if_neg hlen, hseed2] at h
    simp only [bind_ok] at h
    obtain ⟨s1, h1, _⟩ := bind_eq_ok h
    exact ⟨s1, h1⟩

set_option maxHeartbeats 4000000 in
/-- A run of `MOD_functiondeform_do` that goes through: on `doubling_tree`
the network is built, the evaluator is called and the positions are doubled,
whatever the memory that is not initialised holds. -/
theorem doubling_run (indeterminate : Nat → Nat → Val) :
    ∃ network, MOD_functiondeform_do true Example.bodies 100
      ⟨some Example.doubling_tree, 0, 0⟩ [1, 2, 3] indeterminate
        = { network := some network, called := true, vertexCos := [2, 4, 6], error := none } :=
  ⟨_, rfl⟩

/-- The build of `unregistered_tree` succeeds, and the evaluation fails at the
output socket of the placeholder node that stands for the unregistered node. -/
theorem unregistered_run (indeterminate : Nat → Nat → Val) :
    Example.unregistered_tree.well_formed ∧
    (∃ input_vnode output_vnode builder, build_phases true Example.bodies Example.unregistered_tree
      = .ok (input_vnode, output_vnode, builder) ∧
      builder.m_builder.is_placeholder 1 = true) ∧
    (MOD_functiondeform_do true Example.bodies 100 ⟨some Example.unregistered_tree, 0, 0⟩
      [1, 2, 3] indeterminate).network.isSome = true ∧
    (MOD_functiondeform_do true Example.bodies 100 ⟨some Example.unregistered_tree, 0, 0⟩
      [1, 2, 3] indeterminate).called = true ∧
    (MOD_functiondeform_do true Example.bodies 100 ⟨some Example.unregistered_tree, 0, 0⟩
      [1, 2, 3] indeterminate).vertexCos = [1, 2, 3] ∧
    (MOD_functiondeform_do true Example.bodies 100 ⟨some Example.unregistered_tree, 0, 0⟩
      [1, 2, 3] indeterminate).error = some .not_a_function_node :=
  ⟨by decide, ⟨_, _, _, rfl, rfl⟩, rfl, rfl, rfl, rfl⟩

/-- In `add_network` both outputs of the input placeholder are sockets that
the requested output depends on. -/
theorem add_network_reach (tree : MultiFunction_FunctionTree)
    (h : tree.m_outputs = [(2, 0)]) :
    Reach Example.add_network tree (.output 0 0) ∧
    Reach Example.add_network tree (.output 0 1) := by
  have h1 : Reach Example.add_network tree (.input 2 0) :=
    Reach.boundary (2, 0) (by rw [h]; exact List.mem_singleton.mpr rfl)
  have h2 : Reach Example.add_network tree (.output 1 0) :=
    Reach.origin 2 0 ⟨.single .float, some (1, 0)⟩ (1, 0) h1 rfl rfl
  have h3 : ∀ i, i < 2 → Reach Example.add_network tree (.input 1 i) := fun i hi =>
    Reach.inputs 1 0 i _ h2 rfl rfl hi
  exact ⟨Reach.origin 1 0 ⟨.single .float, some (0, 0)⟩ (0, 0) (h3 0 (by decide)) rfl rfl,
    Reach.origin 1 1 ⟨.single .float, some (0, 1)⟩ (0, 1) (h3 1 (by decide)) rfl rfl⟩

/-- C26, as stated, fails on `add_network` with no declared boundary input:
the requested output depends on the output socket 0 of the input placeholder,
which is no boundary input, but the loop fails at the output socket 1 of that
node, which it meets first, and in no state of the run is the output socket 0
on top of the stack. -/
theorem first_undeclared_output_is_not_reached :
    WellFormed Example.add_network Example.undeclared_tree ∧
    Acyclic Example.add_network ∧
    caller_params_ok Example.add_network Example.undeclared_tree Example.undeclared_params
      Example.add_memory = true ∧
    Reach Example.add_network Example.undeclared_tree (.output 0 0) ∧
    Example.add_network.is_placeholder 0 = true ∧
    (0, 0) ∉ Example.undeclared_tree.m_inputs ∧
    copy_inputs_to_storage Example.add_network Example.undeclared_tree
      Example.undeclared_params (initial_state Example.add_memory)
      = .ok (initial_state Example.add_memory) ∧
    run_steps Example.add_network Example.undeclared_tree [0, 1, 2, 3] 3
      (initial_stack Example.undeclared_tree) (initial_state Example.add_memory)
      = .ok ([.output 0 1, .input 1 1, .input 1 0, .output 1 0, .input 2 0],
          initial_state Example.add_memory) ∧
    run_steps Example.add_network Example.undeclared_tree [0, 1, 2, 3] 4
      (initial_stack Example.undeclared_tree) (initial_state Example.add_memory)
      = .error .not_a_function_node ∧
    (∀ k stack s, run_steps Example.add_network Example.undeclared_tree [0, 1, 2, 3] k
        (initial_stack Example.undeclared_tree) (initial_state Example.add_memory)
        = .ok (stack, s) → stack.head? ≠ some (.output 0 0)) ∧
    call Example.add_network Example.undeclared_tree 100 [0, 1, 2, 3] Example.undeclared_params
      Example.add_memory = .error .not_a_function_node := by
  refine ⟨by decide, ⟨fun n => n, by decide⟩, by decide,
    (add_network_reach Example.undeclared_tree rfl).1, by decide, by decide, rfl, rfl, rfl, ?_,
    rfl⟩
  intro k stack s h
  have e0 : run_steps Example.add_network Example.undeclared_tree [0, 1, 2, 3] 0
      (initial_stack Example.undeclared_tree) (initial_state Example.add_memory)
      = .ok ([.input 2 0], initial_state Example.add_memory) := rfl
  have e1 : run_steps Example.add_network Example.undeclared_tree [0, 1, 2, 3] 1
      (initial_stack Example.undeclared_tree) (initial_state Example.add_memory)
      = .ok ([.output 1 0, .input 2 0], initial_state Example.add_memory) := rfl
  have e2 : run_steps Example.add_network Example.undeclared_tree [0, 1, 2, 3] 2
      (initial_stack Example.undeclared_tree) (initial_state Example.add_memory)
      = .ok ([.input 1 1, .input 1 0, .output 1 0, .input 2 0],
          initial_state Example.add_memory) := rfl
  have e3 : run_steps Example.add_network Example.undeclared_tree [0, 1, 2, 3] 3
      (initial_stack Example.undeclared_tree) (initial_state Example.add_memory)
      = .ok ([.output 0 1, .input 1 1, .input 1 0, .output 1 0, .input 2 0],
          initial_state Example.add_memory) := rfl
  have e4 : run_steps Example.add_network Example.undeclared_tree [0, 1, 2, 3] 4
      (initial_stack Example.undeclared_tree) (initial_state Example.add_memory)
      = .error .not_a_function_node := rfl
  match k, h with
  | 0, h => rw [e0] at h; cases h; decide
  | 1, h => rw [e1] at h; cases h; decide
  | 2, h => rw [e2] at h; cases h; decide
  | 3, h => rw [e3] at h; cases h; decide
  | k + 4, h =>
    rw [Nat.add_comm, run_steps_add, e4] at h
    cases h

/-- C26, amended.  Placeholder outputs that are no boundary inputs break the
evaluation.  On a built network without cycles, with a non-empty lane sequence
and caller parameters that fit the signature: if a requested output depends,
through links, on an output socket of a placeholder node that is no boundary
input, then seed succeeds and after some number of iterations the top of the
stack is an output socket of a placeholder node that is no boundary input and
that the requested outputs depend on (the socket given itself, when it is the
only one of this kind); the iteration on it fails where the node is taken as a
function node; `call` fails in the same way with every budget that gets
there, and returns a result with no budget. -/
theorem undeclared_placeholder_output_fails (net : MFNetwork)
    (tree : MultiFunction_FunctionTree) (hwf : WellFormed net tree) (hacyclic : Acyclic net)
    (mask_indices : List Nat) (hmask : mask_indices ≠ [])
    (params : List MFParam) (mem : Memory)
    (hparams : caller_params_ok net tree params mem = true)
    (n j : Nat) (hreach : Reach net tree (.output n j))
    (hp : net.is_placeholder n = true) (hnot : (n, j) ∉ tree.m_inputs) :
    ∃ s0 k m i rest s,
      copy_inputs_to_storage net tree params (initial_state mem) = .ok s0 ∧
      run_steps net tree mask_indices k (initial_stack tree) s0
        = .ok (MFSocket.output m i :: rest, s) ∧
      Reachable net tree mask_indices s0 (MFSocket.output m i :: rest) s ∧
      Reach net tree (.output m i) ∧ net.is_placeholder m = true ∧ (m, i) ∉ tree.m_inputs ∧
      ((∀ m1 i1, Reach net tree (.output m1 i1) → net.is_placeholder m1 = true →
        (m1, i1) ∉ tree.m_inputs → (m1, i1) = (n, j)) → (m, i) = (n, j)) ∧
      step net tree mask_indices (MFSocket.output m i :: rest) s
        = .error .not_a_function_node ∧
      (∀ fuel, call net tree (k + 1 + fuel) mask_indices params mem
        = .error .not_a_function_node) ∧
      ∀ fuel s3, call net tree fuel mask_indices params mem ≠ .ok s3 := by
  obtain ⟨rank, hr⟩ := hacyclic
  obtain ⟨s0, hseed, h0⟩ := seed_run hwf hparams
  obtain ⟨k, m, i, rest, s, hk, g1, g2, g3, g4⟩ :=
    fails_at_placeholder hwf hr hmask h0 hreach hp hnot
  obtain ⟨f1, f2⟩ := evaluate_loop_fails hk g4
  obtain ⟨c1, c2⟩ := @call_of_loop_error net tree mask_indices hmask params mem s0 hseed
  refine ⟨s0, k, m, i, rest, s, hseed, hk, reachable_of_run k _ _ hk, g1, g2, g3,
    fun honly => honly m i g1 g2 g3, g4, fun fuel => c1 _ _ (f1 fuel), ?_⟩
  intro fuel s3 hc
  obtain ⟨s1, h1⟩ := c2 fuel s3 hc
  exact f2 fuel s1 h1

/-- Witness of `undeclared_placeholder_output_fails` on the network that the
build makes of `unregistered_tree`, a graph with a node of an unregistered
kind that has data sockets and feeds the output node: the build succeeds, the
requested output depends on the output socket of the placeholder node that
stands for that node, and the call made by `MOD_functiondeform_do` fails
there. -/
theorem undeclared_placeholder_output_fails_witness :
    Example.unregistered_tree.well_formed ∧
    (∃ input_vnode output_vnode builder network,
      build_phases true Example.bodies Example.unregistered_tree
        = .ok (input_vnode, output_vnode, builder) ∧
      builder.build = .ok network ∧ network.m_network = Example.unregistered_network ∧
      function_boundary network input_vnode output_vnode = .ok Example.unregistered_boundary) ∧
    (∀ indeterminate, (MOD_functiondeform_do true Example.bodies 100
      ⟨some Example.unregistered_tree, 0, 0⟩ [1, 2, 3] indeterminate).error
        = some .not_a_function_node) ∧
    Reach Example.unregistered_network Example.unregistered_boundary (.output 1 0) ∧
    ∃ s0 k m i rest s,
      copy_inputs_to_storage Example.unregistered_network Example.unregistered_boundary
        deform_params (initial_state (deform_memory ⟨some Example.unregistered_tree, 0, 0⟩
          [1, 2, 3] (fun _ _ => 0))) = .ok s0 ∧
      run_steps Example.unregistered_network Example.unregistered_boundary [0, 1, 2] k
        (initial_stack Example.unregistered_boundary) s0
        = .ok (MFSocket.output m i :: rest, s) ∧
      (m, i) = (1, 0) ∧
      step Example.unregistered_network Example.unregistered_boundary [0, 1, 2]
        (MFSocket.output m i :: rest) s = .error .not_a_function_node ∧
      ∀ fuel, call Example.unregistered_network Example.unregistered_boundary (k + 1 + fuel)
        [0, 1, 2] deform_params
        (deform_memory ⟨some Example.unregistered_tree, 0, 0⟩ [1, 2, 3] (fun _ _ => 0))
        = .error .not_a_function_node :=
  have hreach : Reach Example.unregistered_network Example.unregistered_boundary
      (.output 1 0) :=
    Reach.origin 2 0 ⟨.single .float3, some (1, 0)⟩ (1, 0)
      (Reach.boundary (2, 0) (List.mem_singleton.mpr rfl)) rfl rfl
  have honly : ∀ m1 i1, Reach Example.unregistered_network Example.unregistered_boundary
      (.output m1 i1) → Example.unregistered_network.is_placeholder m1 = true →
      (m1, i1) ∉ Example.unregistered_boundary.m_inputs → (m1, i1) = (1, 0) := by
    intro m1 i1 h1 _ h3
    obtain ⟨os, hos⟩ := reach_output_node (by decide) h1
    obtain ⟨node, hnode, hout⟩ := output_eq_ok.mp hos
    simp only at hnode hout
    have hm : m1 < 3 := (List.getElem?_eq_some.mp hnode).1
    have hcases : m1 = 0 ∨ m1 = 1 ∨ m1 = 2 := by omega
    rcases hcases with rfl | rfl | rfl
    · cases hnode
      have hi : i1 < 3 := (List.getElem?_eq_some.mp hout).1
      have hcases2 : i1 = 0 ∨ i1 = 1 ∨ i1 = 2 := by omega
      rcases hcases2 with rfl | rfl | rfl <;> exact absurd (by decide) h3
    · cases hnode
      have hi : i1 < 1 := (List.getElem?_eq_some.mp hout).1
      have : i1 = 0 := by omega
      subst this
      rfl
    · cases hnode
      have hi : i1 < 0 := (List.getElem?_eq_some.mp hout).1
      omega
  ⟨by decide, ⟨_, _, _, _, rfl, rfl, rfl, rfl⟩, fun _ => rfl, hreach,
    match undeclared_placeholder_output_fails Example.unregistered_network
      Example.unregistered_boundary (by decide) ⟨fun n => n, by decide⟩ [0, 1, 2] (by decide)
      deform_params
      (deform_memory ⟨some Example.unregistered_tree, 0, 0⟩ [1, 2, 3] (fun _ _ => 0))
      (by decide) 1 0 hreach (by decide) (by decide) with
    | ⟨s0, k, m, i, rest, s, h1, h2, _, _, _, _, h7, h8, h9, _⟩ =>
      ⟨s0, k, m, i, rest, s, h1, h2, h7 honly, h8, h9⟩⟩

/-! ## Dependency cycles -/

/-- On a built network in which every placeholder output that the requested
outputs depend on is a boundary input, and in which a requested output depends
on a node on a dependency cycle, the loop goes on for ever. -/
theorem runs_forever_of_cycle {net : MFNetwork} {tree : MultiFunction_FunctionTree}
    (hwf : WellFormed net tree) (hclosed : BoundaryClosed net tree)
    {mask_indices : List Nat} (hmask : mask_indices ≠ []) {s0 : EvalState}
    (h0 : RunInv net tree (initial_stack tree) s0) {c j : Nat}
    (hcycle : OnCycle net c) (hreach : Reach net tree (.output c j)) :
    RunsForever net tree mask_indices (initial_stack tree) s0 := by
  intro k
  induction k with
  | zero => exact ⟨_, _, rfl, stack_ne_nil_of_blocked hwf hreach (Or.inl hcycle) h0, h0⟩
  | succ k ih =>
    obtain ⟨stack, s, hk, hne, hinv⟩ := ih
    cases stack with
    | nil => exact absurd rfl hne
    | cons x rest =>
      have e : run_steps net tree mask_indices (k + 1) (initial_stack tree) s0
          = (run_steps net tree mask_indices k (initial_stack tree) s0 >>=
              fun p => step net tree mask_indices p.1 p.2) := rfl
      rcases step_run hwf hmask hinv with ⟨stack1, s1, g1, g2, _⟩ | ⟨m, i, hx, g1, g2, _⟩
      · refine ⟨stack1, s1, ?_, stack_ne_nil_of_blocked hwf hreach (Or.inl hcycle) g2, g2⟩
        rw [e, hk]
        exact g1
      · subst hx
        exact absurd (hclosed m i (hinv.reach _ (List.mem_cons_self _ _)) g1) g2

/-- An entry of the stack that is a socket of a dependency cycle is not popped
by the iteration on it. -/
theorem cycle_socket_not_popped {net : MFNetwork} {tree : MultiFunction_FunctionTree}
    (hwf : WellFormed net tree) {x : MFSocket} {rest stack1 : List MFSocket} {s s1 : EvalState}
    (hinv : RunInv net tree (x :: rest) s) (hinv1 : RunInv net tree stack1 s1)
    (hkind : StepKind net x rest s stack1 s1) (hx : cycle_socket net x) :
    ∃ pushed, stack1 = pushed ++ x :: rest := by
  rcases hkind with ⟨n, i, sock, hx1, hsock, hcomp, _, _⟩ |
    ⟨n, i, sock, o, hx1, _, _, _, hst, _⟩ |
    ⟨n, j, pushed, _, _, _, hst, _, _⟩ | ⟨n, j, hx1, _, _, htr⟩
  · exfalso
    subst hx1
    have hreach := hinv.reach _ (List.mem_cons_self _ _)
    obtain ⟨_, hrel⟩ := reach_input_relevant hwf hreach
    obtain ⟨b, hb, hbD⟩ := computed_iff hwf hinv.dom hsock hrel
    rw [hcomp] at hb
    cases hb
    obtain ⟨s', o', hs', ho', hcase⟩ := hbD.mp rfl
    obtain ⟨sock2, o2, hsock2, ho2, hcyc⟩ := hx
    rw [hsock2] at hs'
    cases hs'
    rw [ho2] at ho'
    cases ho'
    rcases hcase with hcase | hcase
    · have := hwf.2.2.1 _ hcase
      simp only [boundary_input_ok, Bool.and_eq_true] at this
      rw [not_placeholder_of_function (on_cycle_is_function hcyc)] at this
      exact absurd this.1 (by simp)
    · exact hinv.no_cycle _ hcase hcyc
  · exact ⟨[.output o.1 o.2], by rw [hst]; rfl⟩
  · exact ⟨pushed, hst⟩
  · exfalso
    subst hx1
    exact hinv1.no_cycle n (by rw [htr]; exact List.mem_cons_self _ _) hx

/-- In a run that goes on for ever, a socket of a dependency cycle that is on
top of the stack stays where it is, with everything below it. -/
theorem RunsForever.cycle_socket_stays {net : MFNetwork} {tree : MultiFunction_FunctionTree}
    (hwf : WellFormed net tree) {mask_indices : List Nat} (hmask : mask_indices ≠ [])
    {stack0 : List MFSocket} {s0 : EvalState}
    (h : RunsForever net tree mask_indices stack0 s0) {k : Nat} {x : MFSocket}
    {rest : List MFSocket} {s : EvalState}
    (hk : run_steps net tree mask_indices k stack0 s0 = .ok (x :: rest, s))
    (hx : cycle_socket net x) :
    ∀ m, ∃ pre s1, run_steps net tree mask_indices (k + m) stack0 s0
      = .ok (pre ++ x :: rest, s1) := by
  intro m
  induction m with
  | zero => exact ⟨[], s, hk⟩
  | succ m ih =>
    obtain ⟨pre, s1, hkm⟩ := ih
    obtain ⟨y, rest1, s2, stack2, s3, hk1, hinv, hk2, _, hinv2, hkind⟩ :=
      h.iteration hwf hmask (k + m)
    rw [hkm] at hk1
    have hst : pre ++ x :: rest = y :: rest1 := (Prod.mk.inj (Except.ok.inj hk1)).1
    have hs : s1 = s2 := (Prod.mk.inj (Except.ok.inj hk1)).2
    subst hs
    cases pre with
    | nil =>
      simp only [List.nil_append, List.cons.injEq] at hst
      obtain ⟨rfl, rfl⟩ := hst
      obtain ⟨pushed, hp⟩ := cycle_socket_not_popped hwf hinv hinv2 hkind hx
      exact ⟨pushed, s3, by rw [← hp]; exact hk2⟩
    | cons p ps =>
      simp only [List.cons_append, List.cons.injEq] at hst
      obtain ⟨rfl, rfl⟩ := hst
      rcases hkind with ⟨_, _, _, _, _, _, hst, _⟩ | ⟨_, _, _, o, _, _, _, _, hst, _⟩ |
        ⟨_, _, pushed, _, _, _, hst, _, _⟩ | ⟨_, _, _, _, hst, _⟩
      · exact ⟨ps, s3, by rw [← hst]; exact hk2⟩
      · exact ⟨.output o.1 o.2 :: p :: ps, s3, by rw [← Nat.add_assoc, hk2, hst]; rfl⟩
      · refine ⟨pushed ++ p :: ps, s3, ?_⟩
        rw [← Nat.add_assoc, hk2, hst, List.append_assoc]
        rfl
      · exact ⟨ps, s3, by rw [← hst]; exact hk2⟩

/-- A list that ends a concatenation ends its second part, or is an end of
the first part, not empty, followed by the second part. -/
theorem suffix_append_cases {α : Type} (l t : List α) :
    ∀ pushed : List α, l <:+ pushed ++ t →
      l <:+ t ∨ ∃ a, a ≠ [] ∧ a <:+ pushed ∧ l = a ++ t := by
  intro pushed
  induction pushed with
  | nil => intro h; exact Or.inl h
  | cons p ps ih =>
    intro h
    rcases List.suffix_cons_iff.mp h with h1 | h1
    · exact Or.inr ⟨p :: ps, List.cons_ne_nil _ _, List.suffix_refl _, h1⟩
    · rcases ih h1 with h2 | ⟨a, ha, hs, hl⟩
      · exact Or.inl h2
      · exact Or.inr ⟨a, ha, hs.trans (List.suffix_cons _ _), hl⟩

/-- In a run that goes on for ever, an input socket of a function node is on
the stack only above an output socket of that node, which was on top of the
stack at an earlier iteration. -/
theorem RunsForever.input_above_output {net : MFNetwork} {tree : MultiFunction_FunctionTree}
    (hwf : WellFormed net tree) {mask_indices : List Nat} (hmask : mask_indices ≠ [])
    {s0 : EvalState} (h : RunsForever net tree mask_indices (initial_stack tree) s0) :
    ∀ (k : Nat) (stack : List MFSocket) (s : EvalState),
      run_steps net tree mask_indices k (initial_stack tree) s0 = .ok (stack, s) →
      ∀ n i post, (MFSocket.input n i :: post) <:+ stack → net.is_function n = true →
        ∃ j, MFSocket.output n j ∈ post ∧
          ∃ k0 rest s1, k0 < k ∧ run_steps net tree mask_indices k0 (initial_stack tree) s0
            = .ok (MFSocket.output n j :: rest, s1) := by
  intro k
  induction k with
  | zero =>
    intro stack s hk n i post hsuf hf
    exfalso
    simp only [run_steps] at hk
    cases hk
    have hmem : MFSocket.input n i ∈ initial_stack tree :=
      hsuf.subset (List.mem_cons_self _ _)
    simp only [initial_stack, List.mem_reverse, List.mem_map] at hmem
    obtain ⟨t, ht, hte⟩ := hmem
    cases hte
    have hb := hwf.2.2.2 t ht
    simp only [boundary_output_ok, Bool.and_eq_true] at hb
    rw [not_function_of_placeholder hb.1] at hf
    cases hf
  | succ k ih =>
    intro stack s hk n i post hsuf hf
    obtain ⟨y, rest1, s2, stack2, s3, hk1, _, hk2, _, _, hkind⟩ := h.iteration hwf hmask k
    rw [hk2] at hk
    have hst : stack2 = stack := (Prod.mk.inj (Except.ok.inj hk)).1
    subst hst
    have old : (MFSocket.input n i :: post) <:+ y :: rest1 →
        ∃ j, MFSocket.output n j ∈ post ∧
          ∃ k0 rest s1, k0 < k + 1 ∧
            run_steps net tree mask_indices k0 (initial_stack tree) s0
              = .ok (MFSocket.output n j :: rest, s1) := by
      intro h1
      obtain ⟨j, hj, k0, rest, s1, hlt, hrun⟩ := ih _ _ hk1 n i post h1 hf
      exact ⟨j, hj, k0, rest, s1, Nat.lt_succ_of_lt hlt, hrun⟩
    rcases hkind with ⟨_, _, _, _, _, _, hst, _⟩ | ⟨_, _, _, o, _, _, _, _, hst, _⟩ |
      ⟨n0, j0, pushed, hy, _, _, hst, _, hpushed⟩ | ⟨_, _, _, _, hst, _⟩
    · rw [hst] at hsuf
      exact old (hsuf.trans (List.suffix_cons _ _))
    · rw [hst] at hsuf
      rcases List.suffix_cons_iff.mp hsuf with h1 | h1
      · cases h1
      · exact old h1
    · rw [hst] at hsuf
      rcases suffix_append_cases _ _ pushed hsuf with h1 | ⟨a, ha, hs, hl⟩
      · exact old h1
      · cases a with
        | nil => exact absurd rfl ha
        | cons a0 a1 =>
          simp only [List.cons_append, List.cons.injEq] at hl
          obtain ⟨ha0, hpost⟩ := hl
          obtain ⟨i1, _, hin, _⟩ := hpushed a0 (hs.subset (List.mem_cons_self _ _))
          rw [← ha0] at hin
          cases hin
          subst hy
          refine ⟨j0, ?_, k, rest1, s2, Nat.lt_succ_self _, hk1⟩
          rw [hpost]
          exact List.mem_append_right _ (List.mem_cons_self _ _)
    · rw [hst] at hsuf
      exact old (hsuf.trans (List.suffix_cons _ _))

/-- C23. No cycle detection.  On a built network whose placeholder outputs
that the requested outputs depend on are all boundary inputs, with a non-empty
lane sequence and caller parameters that fit the signature: if a requested
boundary output depends on a function node that lies on a dependency cycle,
then seed succeeds and the evaluation loop never reaches an empty work stack
(after every number of iterations the loop has not failed and the stack is not
empty, so evaluation and `call` run out of every budget); an output socket of
a node on a cycle gets on top of the stack; an input socket of a node on a
cycle is on top only after an output socket of that node; from a step at which
a socket of a cycle is on top (in particular from the first) the stack of
that step stays at the bottom of every later stack, which so is never smaller;
and the size of the stack exceeds every bound. -/
theorem cyclic_network_runs_forever (net : MFNetwork) (tree : MultiFunction_FunctionTree)
    (hwf : WellFormed net tree) (hclosed : BoundaryClosed net tree)
    (mask_indices : List Nat) (hmask : mask_indices ≠ [])
    (params : List MFParam) (mem : Memory)
    (hparams : caller_params_ok net tree params mem = true)
    (c j : Nat) (hcycle : OnCycle net c) (hreach : Reach net tree (.output c j)) :
    ∃ s0, copy_inputs_to_storage net tree params (initial_state mem) = .ok s0 ∧
      (∀ k, ∃ stack s, run_steps net tree mask_indices k (initial_stack tree) s0
        = .ok (stack, s) ∧ stack ≠ []) ∧
      (∀ fuel, evaluate_network_to_compute_outputs net tree fuel mask_indices s0
        = .error .out_of_fuel) ∧
      (∀ fuel, call net tree fuel mask_indices params mem = .error .out_of_fuel) ∧
      (∃ k m i rest s, run_steps net tree mask_indices k (initial_stack tree) s0
        = .ok (MFSocket.output m i :: rest, s) ∧ OnCycle net m) ∧
      (∀ k n i rest s, run_steps net tree mask_indices k (initial_stack tree) s0
        = .ok (MFSocket.input n i :: rest, s) → OnCycle net n →
        ∃ k0 i0 rest0 s1, k0 < k ∧ run_steps net tree mask_indices k0 (initial_stack tree) s0
          = .ok (MFSocket.output n i0 :: rest0, s1)) ∧
      (∀ k x rest s, run_steps net tree mask_indices k (initial_stack tree) s0
        = .ok (x :: rest, s) → cycle_socket net x →
        ∀ m, ∃ pushed s1, run_steps net tree mask_indices (k + m) (initial_stack tree) s0
          = .ok (pushed ++ x :: rest, s1) ∧
          (x :: rest).length ≤ (pushed ++ x :: rest).length) ∧
      ∀ bound, ∃ k stack s, run_steps net tree mask_indices k (initial_stack tree) s0
        = .ok (stack, s) ∧ bound < stack.length := by
  obtain ⟨s0, hseed, h0⟩ := seed_run hwf hparams
  have hrun := runs_forever_of_cycle hwf hclosed hmask h0 hcycle hreach
  have hloop : ∀ fuel, evaluate_loop net tree mask_indices fuel (initial_stack tree) s0
      = .error .out_of_fuel := by
    intro fuel
    obtain ⟨stack, s, hk, hne, _⟩ := hrun fuel
    have e := evaluate_loop_run fuel _ _ _ _ hk hne 0
    rw [Nat.add_zero] at e
    rw [e]
    cases stack with
    | nil => exact absurd rfl hne
    | cons x rest => rfl
  refine ⟨s0, hseed, ?_, ?_, ?_, hrun.cycle_on_top hwf hmask, ?_, ?_, ?_⟩
  · intro k
    obtain ⟨stack, s, hk, hne, _⟩ := hrun k
    exact ⟨stack, s, hk, hne⟩
  · intro fuel
    simp only [evaluate_network_to_compute_outputs, hloop fuel]
  · intro fuel
    exact (call_of_loop_error hmask hseed).1 fuel _ (hloop fuel)
  · intro k n i rest s hk hc
    obtain ⟨i0, _, k0, rest0, s1, hlt, hk0⟩ :=
      hrun.input_above_output hwf hmask k _ _ hk n i rest (List.suffix_refl _)
        (on_cycle_is_function hc)
    exact ⟨k0, i0, rest0, s1, hlt, hk0⟩
  · intro k x rest s hk hx m
    obtain ⟨pushed, s1, h1⟩ := hrun.cycle_socket_stays hwf hmask hk hx m
    exact ⟨pushed, s1, h1, by simp⟩
  · intro bound
    obtain ⟨k, stack, s, hk, _, hlt⟩ := hrun.outputs_unbounded hwf hmask bound
    exact ⟨k, stack, s, hk, lt_of_lt_of_le hlt (List.length_filter_le _ _)⟩

/-- Witness of `cyclic_network_runs_forever` on `cycle_network`, in which the
additions of node 1 and node 2 feed each other: the call runs out of every
budget, and the stack after the first iteration, with the output socket of
node 1 on top, stays at the bottom of every later stack (after five iterations
that socket is on the stack twice). -/
theorem cyclic_network_runs_forever_witness :
    WellFormed Example.cycle_network Example.cycle_tree ∧
    BoundaryClosed Example.cycle_network Example.cycle_tree ∧
    caller_params_ok Example.cycle_network Example.cycle_tree Example.cycle_params
      Example.cycle_memory = true ∧
    OnCycle Example.cycle_network 1 ∧
    Reach Example.cycle_network Example.cycle_tree (.output 1 0) ∧
    ∃ s0, copy_inputs_to_storage Example.cycle_network Example.cycle_tree Example.cycle_params
        (initial_state Example.cycle_memory) = .ok s0 ∧
      run_steps Example.cycle_network Example.cycle_tree [0, 1] 1
        (initial_stack Example.cycle_tree) s0 = .ok ([.output 1 0, .input 3 0], s0) ∧
      run_steps Example.cycle_network Example.cycle_tree [0, 1] 5
        (initial_stack Example.cycle_tree) s0
        = .ok ([.output 1 0, .input 2 0, .output 2 0, .input 1 1, .output 1 0, .input 3 0],
            s0) ∧
      (∀ fuel, call Example.cycle_network Example.cycle_tree fuel [0, 1] Example.cycle_params
        Example.cycle_memory = .error .out_of_fuel) ∧
      (∀ m, ∃ pushed s1, run_steps Example.cycle_network Example.cycle_tree [0, 1] (1 + m)
        (initial_stack Example.cycle_tree) s0
          = .ok (pushed ++ [.output 1 0, .input 3 0], s1)) ∧
      ∀ bound, ∃ k stack s, run_steps Example.cycle_network Example.cycle_tree [0, 1] k
        (initial_stack Example.cycle_tree) s0 = .ok (stack, s) ∧ bound < stack.length :=
  have hdep12 : Dep Example.cycle_network 1 2 :=
    ⟨rfl, rfl, 1, ⟨.single .float, some (2, 0)⟩, (2, 0), rfl, rfl, rfl⟩
  have hdep21 : Dep Example.cycle_network 2 1 :=
    ⟨rfl, rfl, 0, ⟨.single .float, some (1, 0)⟩, (1, 0), rfl, rfl, rfl⟩
  have hcycle : OnCycle Example.cycle_network 1 :=
    Relation.TransGen.tail (Relation.TransGen.single hdep12) hdep21
  have hreach : Reach Example.cycle_network Example.cycle_tree (.output 1 0) :=
    Reach.origin 3 0 ⟨.single .float, some (1, 0)⟩ (1, 0)
      (Reach.boundary (3, 0) (List.mem_singleton.mpr rfl)) rfl rfl
  have hclosed : BoundaryClosed Example.cycle_network Example.cycle_tree :=
    boundaryClosed_of_links (by decide)
  ⟨by decide, hclosed, by decide, hcycle, hreach,
    match cyclic_network_runs_forever Example.cycle_network Example.cycle_tree (by decide)
      hclosed [0, 1] (by decide) Example.cycle_params Example.cycle_memory (by decide) 1 0
      hcycle hreach with
    | ⟨s0, h1, _, _, h4, _, _, h7, h8⟩ =>
      have e0 : s0 = ((copy_inputs_to_storage Example.cycle_network Example.cycle_tree
          Example.cycle_params (initial_state Example.cycle_memory)).toOption.getD
            (initial_state Example.cycle_memory)) := by
        rw [h1]
        rfl
      have e1 : run_steps Example.cycle_network Example.cycle_tree [0, 1] 1
          (initial_stack Example.cycle_tree) s0 = .ok ([.output 1 0, .input 3 0], s0) := by
        rw [e0]
        rfl
      have e5 : run_steps Example.cycle_network Example.cycle_tree [0, 1] 5
          (initial_stack Example.cycle_tree) s0
          = .ok ([.output 1 0, .input 2 0, .output 2 0, .input 1 1, .output 1 0, .input 3 0],
              s0) := by
        rw [e0]
        rfl
      ⟨s0, h1, e1, e5, h4,
        fun m => match h7 1 (.output 1 0) [.input 3 0] s0 e1 hcycle m with
          | ⟨pushed, s1, h, _⟩ => ⟨pushed, s1, h⟩,
        h8⟩⟩

/-! ## Determinism: what the two runs of a call share -/

theorem lanes_agree_refl {α : Type} (lanes : List Nat) (x : List α) : lanes_agree lanes x x :=
  ⟨rfl, fun _ _ => rfl⟩

theorem agree_at_of_eq {α : Type} (lanes : List Nat) {o1 o2 : Option (List α)} (h : o1 = o2) :
    agree_at lanes o1 o2 := by
  subst h
  refine ⟨rfl, ?_⟩
  intro x y hx hy i _
  rw [hx] at hy
  cases hy
  rfl

theorem agree_at_some {α : Type} {lanes : List Nat} {x y : List α} :
    agree_at lanes (some x) (some y) ↔ lanes_agree lanes x y := by
  constructor
  · intro h
    exact ⟨by simpa [same_len] using h.1, fun i hi => h.2 x y rfl rfl i hi⟩
  · intro h
    refine ⟨by simp [same_len, h.1], ?_⟩
    intro x1 y1 hx hy i hi
    cases hx
    cases hy
    exact h.2 i hi

theorem MemSim.shape_array {lanes : List Nat} {n nv : Nat} {P PV pend : Nat → Prop}
    {m1 m2 : Memory} (h : MemSim lanes n nv P PV pend m1 m2) {a : Nat}
    (ha : a < n → P a) : same_len m1.arrays[a]? m2.arrays[a]? := by
  by_cases hn : a < n
  · exact (agree_at_of_eq lanes (h.caller a hn (ha hn))).1
  · exact h.shape a (Nat.le_of_not_lt hn)

theorem getElem?_append_one {α : Type} (xs : List α) (z : α) (a : Nat) :
    (xs ++ [z])[a]? = if a < xs.length then xs[a]? else if a = xs.length then some z else none := by
  by_cases h1 : a < xs.length
  · rw [if_pos h1, List.getElem?_append_left h1]
  · rw [if_neg h1, List.getElem?_append_right (Nat.le_of_not_lt h1)]
    by_cases h2 : a = xs.length
    · rw [if_pos h2, h2, Nat.sub_self]
      rfl
    · rw [if_neg h2]
      exact List.getElem?_eq_none (by simp; omega)

/-- Appending to both memories a vector array each, the two agreeing at the
lanes, keeps the relation. -/
theorem MemSim.append_vector {lanes : List Nat} {n nv : Nat} {P PV pend : Nat → Prop}
    {m1 m2 : Memory} (h : MemSim lanes n nv P PV pend m1 m2) {z1 z2 : List (List Val)}
    (hz : lanes_agree lanes z1 z2) :
    MemSim lanes n nv P PV pend { m1 with vector_arrays := m1.vector_arrays ++ [z1] }
      { m2 with vector_arrays := m2.vector_arrays ++ [z2] } where
  length := h.length
  vlength := by simp [h.vlength]
  le := h.le
  vle := by simp; have := h.vle; omega
  caller := h.caller
  vcaller := by
    intro a ha hP
    have hlt : a < m1.vector_arrays.length := Nat.lt_of_lt_of_le ha h.vle
    simp only
    rw [List.getElem?_append_left hlt, List.getElem?_append_left (h.vlength ▸ hlt)]
    exact h.vcaller a ha hP
  shape := h.shape
  fresh := h.fresh
  vfresh := by
    intro a ha
    simp only
    rw [getElem?_append_one, getElem?_append_one, ← h.vlength]
    by_cases h1 : a < m1.vector_arrays.length
    · rw [if_pos h1, if_pos h1]
      exact h.vfresh a ha
    · rw [if_neg h1, if_neg h1]
      by_cases h2 : a = m1.vector_arrays.length
      · rw [if_pos h2, if_pos h2]
        exact agree_at_some.mpr hz
      · rw [if_neg h2, if_neg h2]
        exact agree_at_of_eq lanes rfl

/-- `new GenericVectorArray` in both memories keeps the relation. -/
theorem MemSim.new_vector {lanes : List Nat} {n nv : Nat} {P PV pend : Nat → Prop}
    {m1 m2 : Memory} (h : MemSim lanes n nv P PV pend m1 m2) (size : Nat) :
    MemSim lanes n nv P PV pend (m1.new_vector_array size).1 (m2.new_vector_array size).1 :=
  h.append_vector (lanes_agree_refl lanes _)
end FunctionDeform
